import Mathlib

/-!
# Sprintz 8-bit row-major codecs (`sprintz_delta.cpp`)

A shallow embedding of the three encoder/decoder pairs of
`src/cpp/Compress/sprintz_delta.cpp`:

* `compress8b_rowmajor` / `decompress8b_rowmajor`
* `compress8b_rowmajor_delta` / `decompress8b_rowmajor_delta`
* `compress8b_rowmajor_delta_rle` / `decompress8b_rowmajor_delta_rle`

Buffers are byte memories indexed from the pointer the C function receives;
machine words are natural numbers, reduced modulo `2 ^ w` where the C code can
overflow.  The C `for` loops become `forLoop` / `forLoopDown`.
-/

namespace Sprintz

/-! ## Memory and loops -/

/-- Byte memory, addressed from the pointer handed to the C function.
Every load reduces the cell modulo 256. -/
@[ext] structure Mem where
  get : Nat → Nat

/-- A scratch array of machine words (`uint8_t*`, `uint32_t*`, `uint64_t*`
temporaries that the code only indexes element-wise). -/
@[ext] structure Arr where
  get : Nat → Nat

/-- `for (i = 0; i < n; i++) s = body i s`. -/
def forLoop {σ : Type} : Nat → (Nat → σ → σ) → σ → σ
  | 0, _, s => s
  | n + 1, body, s => body n (forLoop n body s)

/-- `for (i = n - 1; i >= 0; i--) s = body i s`. -/
def forLoopDown {σ : Type} : Nat → (Nat → σ → σ) → σ → σ
  | 0, _, s => s
  | n + 1, body, s => forLoopDown n body (body n s)

/-- `*(uint8_t*)(m + a)`. -/
def load8 (m : Mem) (a : Nat) : Nat := m.get a % 256

/-- `*(uint8_t*)(m + a) = v`. -/
def store8 (m : Mem) (a v : Nat) : Mem := ⟨fun k => if k = a then v % 256 else m.get k⟩

/-- Little-endian load of `n` bytes at `a`. -/
def loadLE : Nat → Mem → Nat → Nat
  | 0, _, _ => 0
  | n + 1, m, a => load8 m a + 256 * loadLE n m (a + 1)

/-- Little-endian store of the low `n` bytes of `v` at `a`. -/
def storeLE (n : Nat) (m : Mem) (a v : Nat) : Mem :=
  ⟨fun k => if a ≤ k ∧ k < a + n then (v >>> (8 * (k - a))) % 256 else m.get k⟩

/-- `memset(m + a, 0, n)`. -/
def memset0 (m : Mem) (a n : Nat) : Mem :=
  ⟨fun k => if a ≤ k ∧ k < a + n then 0 else m.get k⟩

/-- `memcpy(dst + d, src + s, n)` between two distinct buffers. -/
def memcpy (dst : Mem) (d : Nat) (src : Mem) (s n : Nat) : Mem :=
  ⟨fun k => if d ≤ k ∧ k < d + n then load8 src (s + (k - d)) else dst.get k⟩

/-- `a[k] = v` on a scratch array. -/
def setAt (a : Arr) (k v : Nat) : Arr := ⟨fun j => if j = k then v else a.get j⟩

/-- A zeroed scratch array. -/
def Arr.zero : Arr := ⟨fun _ => 0⟩

/-- A zeroed (`calloc`) buffer. -/
def Mem.zero : Mem := ⟨fun _ => 0⟩

/-! ## Machine primitives (BMI2 / LZCNT) -/

/-- Bits of `x` selected by `m`, compacted to the low end, over the low `n` bits. -/
def pextAux : Nat → Nat → Nat → Nat
  | 0, _, _ => 0
  | n + 1, x, m =>
    if m % 2 = 1 then x % 2 + 2 * pextAux n (x / 2) (m / 2)
    else pextAux n (x / 2) (m / 2)

/-- The instruction `_pext_u64`. -/
def pext_u64 (x mask : Nat) : Nat := pextAux 64 x mask

/-- Low bits of `x` scattered to the set bits of `m`, over the low `n` bits. -/
def pdepAux : Nat → Nat → Nat → Nat
  | 0, _, _ => 0
  | n + 1, x, m =>
    if m % 2 = 1 then x % 2 + 2 * pdepAux n (x / 2) (m / 2)
    else 2 * pdepAux n x (m / 2)

/-- The instruction `_pdep_u64`. -/
def pdep_u64 (x mask : Nat) : Nat := pdepAux 64 x mask

/-- Number of leading zero bits among the low `n` bits of `x`. -/
def lzcntAux : Nat → Nat → Nat
  | 0, _ => 0
  | n + 1, x => if x / 2 ^ n % 2 = 1 then 0 else 1 + lzcntAux n x

/-- The instruction `_lzcnt_u32`. -/
def lzcnt_u32 (x : Nat) : Nat := lzcntAux 32 x

/-! ## Constants shared by all six functions -/

def block_sz : Nat := 8
def stripe_sz : Nat := 8
def nbits_sz_bits : Nat := 3
def kDefaultGroupSzBlocks : Nat := 2
def group_sz_blocks : Nat := kDefaultGroupSzBlocks

/-- What a call leaves behind: a normal return with the destination buffer and
the returned byte count, or an abort (failed `assert`, division by zero) with the
destination buffer as it was at that moment. -/
inductive Outcome where
  | returned (dest : Mem) (ret : Nat)
  | assertFailed (dest : Mem)
  | divByZero (dest : Mem)

/-- Destination buffer of an outcome. -/
def Outcome.dest : Outcome → Mem
  | .returned d _ => d
  | .assertFailed d => d
  | .divByZero d => d

/-- Returned value of an outcome (`none` when the call aborted). -/
def Outcome.ret : Outcome → Option Nat
  | .returned _ r => some r
  | .assertFailed _ => none
  | .divByZero _ => none

/-! ## Encoder: per-block stripe statistics -/

/-- The scratch arrays `stripe_bitwidths`, `stripe_masks`, `stripe_headers`. -/
structure StripeStats where
  stripe_bitwidths : Arr
  stripe_masks : Arr
  stripe_headers : Arr

/-- The three `memset(.., 0, ..)` at the top of every block. -/
def StripeStats.zero : StripeStats := ⟨Arr.zero, Arr.zero, Arr.zero⟩

/-- Body of the `dim` loop after the OR-reduction: `mask` is the OR of the eight
values of dimension `dim`; `NBITS_MASKS_U8` is the look-up table of `bitpack.h`. -/
def accumDim (NBITS_MASKS_U8 : Nat → Nat) (dim mask0 : Nat) (st : StripeStats) : StripeStats :=
  let mask := NBITS_MASKS_U8 mask0 % 256
  let max_nbits := 32 - lzcnt_u32 mask
  let stripe := dim / stripe_sz
  let idx_in_stripe := dim % stripe_sz
  let write_nbits := max_nbits - (if max_nbits = 8 then 1 else 0)
  { stripe_bitwidths :=
      setAt st.stripe_bitwidths stripe ((st.stripe_bitwidths.get stripe + max_nbits) % 256)
    stripe_masks :=
      setAt st.stripe_masks stripe
        ((st.stripe_masks.get stripe ||| (mask <<< (idx_in_stripe * 8))) % 2 ^ 64)
    stripe_headers :=
      setAt st.stripe_headers stripe
        ((st.stripe_headers.get stripe ||| (write_nbits <<< (idx_in_stripe * nbits_sz_bits))) % 2 ^ 32) }

/-- `for (i = 0; i < block_sz; i++) mask |= src[i * ndims + dim]` at block start `p`. -/
def orReduce (src : Mem) (p ndims dim : Nat) : Nat :=
  forLoop block_sz (fun i mask => mask ||| load8 src (p + i * ndims + dim)) 0

/-- The `dim` loop of `compress8b_rowmajor` for the block starting at `src + p`. -/
def stripeStats (NBITS_MASKS_U8 : Nat → Nat) (src : Mem) (p ndims : Nat) : StripeStats :=
  forLoop ndims (fun dim st => accumDim NBITS_MASKS_U8 dim (orReduce src p ndims dim) st)
    StripeStats.zero

/-- Start offsets of each stripe, in bits:
`stripe_bitoffsets[0] = 0; stripe_bitoffsets[s] = stripe_bitoffsets[s-1] + stripe_bitwidths[s-1]`. -/
def stripeBitoffsets (stripe_bitwidths : Nat → Nat) (nstripes : Nat) : Arr :=
  forLoop (nstripes - 1)
    (fun k offs => setAt offs (k + 1) ((offs.get k + stripe_bitwidths k) % 2 ^ 32))
    (setAt Arr.zero 0 0)

/-- Width of a packed row in bytes, `(bits >> 3) + ((bits % 8) > 0)`. -/
def rowNbytes (row_width_bits : Nat) : Nat :=
  (row_width_bits >>> 3) + (if row_width_bits % 8 > 0 then 1 else 0)

/-- Writing the header bits of one block: the loop over stripes that ORs each
`stripe_headers[stripe]` into the 32-bit word at `header_dest + byte_offset`.
The state is the destination buffer and `header_bit_offset`. -/
def writeBlockHeader (stripe_headers : Arr) (ndims nstripes header_dest : Nat)
    (s : Mem × Nat) : Mem × Nat :=
  forLoop nstripes
    (fun stripe (s : Mem × Nat) =>
      let dest := s.1
      let header_bit_offset := s.2
      let byte_offset := (header_bit_offset >>> 3) % 2 ^ 16
      let bit_offset := header_bit_offset &&& 0x07
      let dest := storeLE 4 dest (header_dest + byte_offset)
        (loadLE 4 dest (header_dest + byte_offset) ||| (stripe_headers.get stripe <<< bit_offset))
      let is_final_stripe := decide (stripe = nstripes - 1)
      let has_trailing_dims := decide (ndims % stripe_sz > 0)
      let add_ndims := if is_final_stripe && has_trailing_dims then ndims % stripe_sz else stripe_sz
      (dest, header_bit_offset + nbits_sz_bits * add_ndims))
    s

/-- Packing one block: the loop over stripes with its two inner loops over the
eight rows.  `inbuf + inp` is the first byte of the block to pack (the source,
or the `deltas` buffer), `in_stride` the distance between two rows there;
`dest + out` is where the packed block goes, `out_row_nbytes` its row size. -/
def packBlock (st : StripeStats) (stripe_bitoffsets : Arr) (nstripes : Nat)
    (inbuf : Mem) (inp in_stride : Nat) (out out_row_nbytes : Nat) (dest : Mem) : Mem :=
  forLoop nstripes
    (fun stripe dest =>
      let offset_bits := (stripe_bitoffsets.get stripe &&& 0x07) % 256
      let offset_bytes := stripe_bitoffsets.get stripe >>> 3
      let mask := st.stripe_masks.get stripe
      let nbits := st.stripe_bitwidths.get stripe
      let total_bits := nbits + offset_bits
      if total_bits ≤ 64 then
        forLoop block_sz
          (fun i dest =>
            let outptr := out + offset_bytes + i * out_row_nbytes
            let inptr := inp + stripe * stripe_sz + i * in_stride
            let data := loadLE 8 inbuf inptr
            let packed_data := pext_u64 data mask
            let write_data := (packed_data <<< offset_bits) % 2 ^ 64
            storeLE 8 dest outptr (write_data ||| loadLE 8 dest outptr))
          dest
      else
        let nbits_lost := (total_bits - 64) % 256
        forLoop block_sz
          (fun i dest =>
            let outptr := out + offset_bytes + i * out_row_nbytes
            let inptr := inp + stripe * stripe_sz + i * in_stride
            let data := loadLE 8 inbuf inptr
            let packed_data := pext_u64 data mask
            let extra_byte := (packed_data >>> (nbits - nbits_lost)) % 256
            let write_data := (packed_data <<< offset_bits) % 2 ^ 64
            let dest := storeLE 8 dest outptr (write_data ||| loadLE 8 dest outptr)
            store8 dest (outptr + 8) extra_byte)
          dest)
    dest

/-- Loop state of the encoders: read position, write position, destination. -/
structure EncState where
  src : Nat
  dest : Nat
  mem : Mem

/-! ## `compress8b_rowmajor` -/

/-- One block of `compress8b_rowmajor` (body of the `b` loop); the extra state
component is `header_bit_offset`. -/
def rowmajorBlock (NBITS_MASKS_U8 : Nat → Nat) (src : Mem) (ndims nstripes header_dest : Nat)
    (s : EncState × Nat) : EncState × Nat :=
  let st := stripeStats NBITS_MASKS_U8 src s.1.src ndims
  let stripe_bitoffsets := stripeBitoffsets st.stripe_bitwidths.get nstripes
  let row_width_bits :=
    (stripe_bitoffsets.get (nstripes - 1) + st.stripe_bitwidths.get (nstripes - 1)) % 2 ^ 32
  let in_row_nbytes := rowNbytes row_width_bits
  let hw := writeBlockHeader st.stripe_headers ndims nstripes header_dest (s.1.mem, s.2)
  let mem := memset0 hw.1 s.1.dest (in_row_nbytes * block_sz)
  let mem := packBlock st stripe_bitoffsets nstripes src s.1.src ndims s.1.dest in_row_nbytes mem
  (⟨s.1.src + block_sz * ndims, s.1.dest + block_sz * in_row_nbytes, mem⟩, hw.2)

/-- One group of `compress8b_rowmajor` (body of the `g` loop). -/
def rowmajorGroup (NBITS_MASKS_U8 : Nat → Nat) (src : Mem) (ndims nstripes total_header_bytes : Nat)
    (s : EncState) : EncState :=
  let header_dest := s.dest
  let s1 : EncState := ⟨s.src, s.dest + total_header_bytes, memset0 s.mem header_dest total_header_bytes⟩
  (forLoop group_sz_blocks
    (fun _ sb => rowmajorBlock NBITS_MASKS_U8 src ndims nstripes header_dest sb) (s1, 0)).1

/-- The function `compress8b_rowmajor(src, len, dest, ndims, write_size)`. -/
def compress8b_rowmajor (NBITS_MASKS_U8 : Nat → Nat) (src : Mem) (len : Nat) (dest : Mem)
    (ndims : Nat) (write_size : Bool) : Outcome :=
  let nstripes := ndims / stripe_sz + (if ndims % stripe_sz > 0 then 1 else 0)
  let group_sz := ndims * block_sz * group_sz_blocks
  let total_header_bits := ndims * nbits_sz_bits * group_sz_blocks
  let total_header_bytes := total_header_bits / 8 + (if total_header_bits % 8 > 0 then 1 else 0)
  if write_size && decide (¬ len < 2 ^ 48) then Outcome.assertFailed dest else
  let mem := if write_size then storeLE 2 (storeLE 8 dest 0 len) 6 ndims else dest
  let d0 := if write_size then 8 else 0
  if len < 8 * block_sz * group_sz_blocks then
    let remaining_len := len % 2 ^ 32
    Outcome.returned (memcpy mem d0 src 0 remaining_len) (d0 + remaining_len)
  else if group_sz = 0 then Outcome.divByZero mem else
  let ngroups := len / group_sz
  let s := forLoop ngroups
    (fun _ s => rowmajorGroup NBITS_MASKS_U8 src ndims nstripes total_header_bytes s)
    (⟨0, d0, mem⟩ : EncState)
  let remaining_len := (len - s.src) % 2 ^ 32
  Outcome.returned (memcpy s.mem s.dest src s.src remaining_len) (s.dest + remaining_len)

/-! ## AVX2 byte-lane operations used by the decoders -/

/-- A 256-bit register as its 32 byte lanes. -/
abbrev Vec := Nat → Nat

def mm256_loadu_si256 (m : Mem) (a : Nat) : Vec := fun i => load8 m (a + i)

def mm256_storeu_si256 (m : Mem) (a : Nat) (v : Vec) : Mem :=
  ⟨fun k => if a ≤ k ∧ k < a + 32 then v (k - a) % 256 else m.get k⟩

def mm256_set1_epi8 (b : Nat) : Vec := fun _ => b % 256

def mm256_setzero_si256 : Vec := fun _ => 0

def mm256_cmpeq_epi8 (a b : Vec) : Vec := fun i => if a i = b i then 0xff else 0

def mm256_sub_epi8 (a b : Vec) : Vec := fun i => (a i + 256 - b i % 256) % 256

def mm256_add_epi8 (a b : Vec) : Vec := fun i => (a i + b i) % 256

/-- Sum of absolute differences of each group of eight lanes, stored as the
little-endian 64-bit lane of that group. -/
def mm256_sad_epu8 (a b : Vec) : Vec := fun i =>
  let q := i / 8
  let s := forLoop 8
    (fun j acc => acc + (if b (8 * q + j) ≤ a (8 * q + j) then a (8 * q + j) - b (8 * q + j)
      else b (8 * q + j) - a (8 * q + j))) 0
  (s >>> (8 * (i % 8))) % 256

/-- Table look-up inside each 128-bit half, indexed by the low nibble of `b`; a
lane whose index has its top bit set becomes zero. -/
def mm256_shuffle_epi8 (a b : Vec) : Vec := fun i =>
  if b i &&& 0x80 ≠ 0 then 0 else a (i / 16 * 16 + (b i &&& 0x0f))

/-- The constant `nbits_to_mask` at the top of the file. -/
def nbits_to_mask : Vec := fun i =>
  [0x00, 0x01, 0x03, 0x07, 0x0f, 0x1f, 0x3f, 0xff,
   0xff, 0x00, 0x00, 0x00, 0x00, 0x00, 0x00, 0x00,
   0x00, 0x01, 0x03, 0x07, 0x0f, 0x1f, 0x3f, 0xff,
   0xff, 0x00, 0x00, 0x00, 0x00, 0x00, 0x00, 0x00].getD i 0

/-- Modelled from the spec: the macro `TILE_BYTE` is not part of the sources;
`TILE_BYTE(0b111)` is "the low three bits of each byte" of a 64-bit word. -/
def TILE_BYTE (b : Nat) : Nat := (b % 256) * 0x0101010101010101

/-- Modelled from the spec: the helper `round_up_to_multiple` is not part of
the sources; it pads a count "up to a multiple of" the second argument. -/
def round_up_to_multiple (x multipleof : Nat) : Nat :=
  if x % multipleof = 0 then x else x + multipleof - x % multipleof

def vector_sz : Nat := 32
def stripe_header_sz : Nat := nbits_sz_bits * stripe_sz / 8
def nbits_sz_mask : Nat := (1 <<< nbits_sz_bits) - 1
def kHeaderUnpackMask : Nat := TILE_BYTE nbits_sz_mask
def len_nbytes : Nat := 6

/-- "read original data size, ndims": the first statements of
`decompress8b_rowmajor` and `decompress8b_rowmajor_delta`, which parse the
8-byte Mode A header into `(orig_len, ndims)`. -/
def read_metadata_8b (src : Mem) : Nat × Nat :=
  let len_mask := (1 <<< (8 * len_nbytes)) - 1
  let orig_len := loadLE 8 src 0 &&& len_mask
  let ndims := loadLE 2 src len_nbytes
  (orig_len, ndims)

/-! ## Decoder: group header and block body -/

/-- The scratch buffers of the decoders that live across groups, as bytes. -/
structure DecTemps where
  headers_tmp : Mem
  headers : Mem
  data_masks : Mem
  stripe_bitwidths : Mem

/-- The `calloc`s of the scratch buffers. -/
def DecTemps.zero : DecTemps := ⟨Mem.zero, Mem.zero, Mem.zero, Mem.zero⟩

/-- The per-`ndims` constants of the decoders. -/
structure DecDims where
  ndims : Nat
  nheader_stripes : Nat
  total_header_bytes : Nat
  final_header_mask : Nat
  nstripes : Nat
  nvectors_in_group : Nat

/-- "stats derived from ndims" of the three decoders. -/
def decDims (ndims : Nat) : DecDims :=
  let nheader_vals := ndims * group_sz_blocks
  let nheader_stripes := nheader_vals / stripe_sz + (if nheader_vals % stripe_sz > 0 then 1 else 0)
  let total_header_bits := ndims * nbits_sz_bits * group_sz_blocks
  let total_header_bytes := total_header_bits / 8 + (if total_header_bits % 8 > 0 then 1 else 0)
  let remaining_header_sz := total_header_bytes % stripe_header_sz
  let final_header_sz := if remaining_header_sz ≠ 0 then remaining_header_sz else stripe_header_sz
  let shift_bits := 8 * (4 - final_header_sz)
  let final_header_mask := 0xffffffff >>> shift_bits
  let nstripes := ndims / stripe_sz + (if ndims % stripe_sz > 0 then 1 else 0)
  let nstripes_in_group := nstripes * group_sz_blocks
  let group_header_sz := round_up_to_multiple (nstripes_in_group * stripe_sz) vector_sz
  let nvectors_in_group := group_header_sz / vector_sz
  ⟨ndims, nheader_stripes, total_header_bytes, final_header_mask, nstripes, nvectors_in_group⟩

/-- "create unpacked headers array" and "masks and bitwidths for all stripes":
everything a decoder does with the group header at `src + header_src`. -/
def readGroupHeader (dd : DecDims) (src : Mem) (header_src : Nat) (tm : DecTemps) : DecTemps :=
  -- unpack headers for all the blocks
  let headers_tmp := forLoop (dd.nheader_stripes - 1)
    (fun stripe headers_tmp =>
      let packed_header := loadLE 4 src (header_src + stripe * stripe_header_sz)
      let header := pdep_u64 packed_header kHeaderUnpackMask
      storeLE 8 headers_tmp (8 * stripe) header)
    tm.headers_tmp
  -- unpack header for the last stripe in the last block
  let packed_header :=
    loadLE 4 src (header_src + (dd.nheader_stripes - 1) * stripe_header_sz) &&& dd.final_header_mask
  let header := pdep_u64 packed_header kHeaderUnpackMask
  let headers_tmp := storeLE 8 headers_tmp (8 * (dd.nheader_stripes - 1)) header
  -- insert zeros between the unpacked headers
  let headers := forLoop group_sz_blocks
    (fun b headers =>
      let src_offset := b * dd.ndims
      let dest_offset := b * dd.nstripes * stripe_sz
      memcpy headers dest_offset headers_tmp src_offset dd.ndims)
    tm.headers
  -- masks and bitwidths for all stripes
  let mw := forLoop dd.nvectors_in_group
    (fun v (mw : Mem × Mem) =>
      let raw_header := mm256_loadu_si256 headers (v * vector_sz)
      let sevens := mm256_set1_epi8 0x07
      let header := mm256_sub_epi8 raw_header (mm256_cmpeq_epi8 raw_header sevens)
      let bitwidths := mm256_sad_epu8 header mm256_setzero_si256
      let stripe_bitwidths := mm256_storeu_si256 mw.2 (v * vector_sz) bitwidths
      let masks := mm256_shuffle_epi8 nbits_to_mask raw_header
      let data_masks := mm256_storeu_si256 mw.1 (v * vector_sz) masks
      (data_masks, stripe_bitwidths))
    (tm.data_masks, tm.stripe_bitwidths)
  ⟨headers_tmp, headers, mw.1, mw.2⟩

/-- Unpacking one block: the loop over stripes, last stripe first, with its two
inner loops over the eight rows.  `masks` and `bitwidths` are the stripe masks
and widths of this block, `src + inp` the packed block, `in_row_nbytes` its row
size; the rows are written to `outbuf + out`, `out_stride` bytes apart. -/
def unpackBlock (masks bitwidths : Nat → Nat) (stripe_bitoffsets : Arr) (nstripes : Nat)
    (src : Mem) (inp in_row_nbytes : Nat) (out out_stride : Nat) (outbuf : Mem) : Mem :=
  forLoopDown nstripes
    (fun stripe outbuf =>
      let offset_bits := stripe_bitoffsets.get stripe &&& 0x07
      let offset_bytes := stripe_bitoffsets.get stripe >>> 3
      let mask := masks stripe
      let nbits := bitwidths stripe % 256
      let total_bits := (nbits + offset_bits) % 256
      if total_bits ≤ 64 then
        forLoop block_sz
          (fun i outbuf =>
            let inptr := inp + offset_bytes + i * in_row_nbytes
            let outptr := out + stripe * stripe_sz + i * out_stride
            let packed_data := loadLE 8 src inptr >>> offset_bits
            storeLE 8 outbuf outptr (pdep_u64 packed_data mask))
          outbuf
      else
        let nbits_lost := (total_bits - 64) % 256
        forLoop block_sz
          (fun i outbuf =>
            let inptr := inp + offset_bytes + i * in_row_nbytes
            let outptr := out + stripe * stripe_sz + i * out_stride
            let packed_data := loadLE 8 src inptr >>> offset_bits
            let packed_data :=
              packed_data ||| ((loadLE 8 src (inptr + 8) <<< (nbits - nbits_lost)) % 2 ^ 64)
            storeLE 8 outbuf outptr (pdep_u64 packed_data mask))
          outbuf)
    outbuf

/-- Loop state of the decoders: read position, write position, destination,
scratch buffers. -/
structure DecState where
  src : Nat
  dest : Nat
  mem : Mem
  tm : DecTemps

/-! ## `decompress8b_rowmajor` -/

/-- One block of `decompress8b_rowmajor` (body of the `b` loop). -/
def rowmajorDecBlock (dd : DecDims) (src : Mem) (b : Nat) (s : DecState) : DecState :=
  let masks := fun k => loadLE 8 s.tm.data_masks (8 * (b * dd.nstripes + k))
  let bitwidths := fun k => loadLE 8 s.tm.stripe_bitwidths (8 * (b * dd.nstripes + k))
  let stripe_bitoffsets := stripeBitoffsets bitwidths dd.nstripes
  let in_row_nbits :=
    (stripe_bitoffsets.get (dd.nstripes - 1) + bitwidths (dd.nstripes - 1)) % 2 ^ 32
  let in_row_nbytes := rowNbytes in_row_nbits
  let mem := unpackBlock masks bitwidths stripe_bitoffsets dd.nstripes src s.src in_row_nbytes
    s.dest dd.ndims s.mem
  ⟨s.src + block_sz * in_row_nbytes, s.dest + block_sz * dd.ndims, mem, s.tm⟩

/-- One group of `decompress8b_rowmajor` (body of the `g` loop). -/
def rowmajorDecGroup (dd : DecDims) (src : Mem) (s : DecState) : DecState :=
  let header_src := s.src
  let tm := readGroupHeader dd src header_src s.tm
  forLoop group_sz_blocks (fun b s => rowmajorDecBlock dd src b s)
    ⟨s.src + dd.total_header_bytes, s.dest, s.mem, tm⟩

/-- The function `decompress8b_rowmajor(src, dest)`. -/
def decompress8b_rowmajor (src : Mem) (dest : Mem) : Outcome :=
  let orig_len := (read_metadata_8b src).1
  let ndims := (read_metadata_8b src).2
  let just_cpy := decide (orig_len < 8 * block_sz * group_sz_blocks)
  if just_cpy then Outcome.returned (memcpy dest 0 src 8 (orig_len % 2 ^ 32)) orig_len
  else if ndims = 0 then Outcome.returned dest 0
  else
  let dd := decDims ndims
  let group_sz := ndims * (block_sz * group_sz_blocks)
  let ngroups := orig_len / group_sz
  let s := forLoop ngroups (fun _ s => rowmajorDecGroup dd src s)
    (⟨8, 0, dest, DecTemps.zero⟩ : DecState)
  let remaining_len := (orig_len - s.dest) % 2 ^ 32
  Outcome.returned (memcpy s.mem s.dest src s.src remaining_len) (s.dest + remaining_len)

/-! ## Delta coding helpers -/

/-- Modelled from the spec: `zigzag_encode_i8` is not part of the sources; it is
`(δ << 1) ^ (δ >> 7)` in 8-bit arithmetic.  The signed byte `δ` is given by its
unsigned representative `x`. -/
def zigzag_encode_i8 (x : Nat) : Nat :=
  ((x <<< 1) % 256) ^^^ (if 128 ≤ x % 256 then 0xff else 0)

/-- Modelled from the spec: the inverse map `(u >> 1) ^ -(u & 1)` in 8-bit
arithmetic, returning the unsigned representative of the signed result. -/
def zigzag_decode_i8 (u : Nat) : Nat :=
  ((u % 256) >>> 1) ^^^ (if u % 2 = 1 then 0xff else 0)

/-- Modelled from the spec: `mm256_zigzag_decode_epi8` is not part of the
sources; it applies the zig-zag decoding to each of the 32 byte lanes. -/
def mm256_zigzag_decode_epi8 (v : Vec) : Vec := fun i => zigzag_decode_i8 (v i)

/-- The `dim` loop of the two delta encoders for the block at `src + p`: the
deltas of the block are written to rows `0..7` of `deltas`, the last value of
each dimension to row `8` (`prev_vals_ar`). -/
def deltaStripeStats (NBITS_MASKS_U8 : Nat → Nat) (src : Mem) (p ndims : Nat) (deltas : Mem) :
    StripeStats × Mem :=
  forLoop ndims
    (fun dim (s : StripeStats × Mem) =>
      let prev_vals_ar := block_sz * ndims
      let prev_val := load8 s.2 (prev_vals_ar + dim)
      let r := forLoop block_sz
        (fun i (r : Nat × Mem × Nat) =>
          let mask := r.1
          let deltas := r.2.1
          let prev_val := r.2.2
          let offset := i * ndims + dim
          let val := load8 src (p + offset)
          let delta := (val + 256 - prev_val) % 256
          let bits := zigzag_encode_i8 delta
          (mask ||| bits, store8 deltas offset bits, val))
        (0, s.2, prev_val)
      let deltas := store8 r.2.1 (prev_vals_ar + dim) r.2.2
      (accumDim NBITS_MASKS_U8 dim r.1 s.1, deltas))
    (StripeStats.zero, deltas)

/-! ## `compress8b_rowmajor_delta` -/

/-- Loop state of the delta encoder: the encoder state and the `deltas` buffer. -/
structure DeltaEncState where
  enc : EncState
  deltas : Mem

/-- One block of `compress8b_rowmajor_delta` (body of the `b` loop); the extra
state component is `header_bit_offset`. -/
def deltaBlock (NBITS_MASKS_U8 : Nat → Nat) (src : Mem) (ndims nstripes header_dest : Nat)
    (s : DeltaEncState × Nat) : DeltaEncState × Nat :=
  let sd := deltaStripeStats NBITS_MASKS_U8 src s.1.enc.src ndims s.1.deltas
  let st := sd.1
  let deltas := sd.2
  let stripe_bitoffsets := stripeBitoffsets st.stripe_bitwidths.get nstripes
  let row_width_bits :=
    (stripe_bitoffsets.get (nstripes - 1) + st.stripe_bitwidths.get (nstripes - 1)) % 2 ^ 32
  let in_row_nbytes := rowNbytes row_width_bits
  let hw := writeBlockHeader st.stripe_headers ndims nstripes header_dest (s.1.enc.mem, s.2)
  let mem := memset0 hw.1 s.1.enc.dest (in_row_nbytes * block_sz)
  let mem := packBlock st stripe_bitoffsets nstripes deltas 0 ndims s.1.enc.dest in_row_nbytes mem
  (⟨⟨s.1.enc.src + block_sz * ndims, s.1.enc.dest + block_sz * in_row_nbytes, mem⟩, deltas⟩, hw.2)

/-- One group of `compress8b_rowmajor_delta` (body of the `g` loop). -/
def deltaGroup (NBITS_MASKS_U8 : Nat → Nat) (src : Mem) (ndims nstripes total_header_bytes : Nat)
    (s : DeltaEncState) : DeltaEncState :=
  let header_dest := s.enc.dest
  let s1 : DeltaEncState :=
    ⟨⟨s.enc.src, s.enc.dest + total_header_bytes,
      memset0 s.enc.mem header_dest total_header_bytes⟩, s.deltas⟩
  (forLoop group_sz_blocks
    (fun _ sb => deltaBlock NBITS_MASKS_U8 src ndims nstripes header_dest sb) (s1, 0)).1

/-- The function `compress8b_rowmajor_delta(src, len, dest, ndims, write_size)`. -/
def compress8b_rowmajor_delta (NBITS_MASKS_U8 : Nat → Nat) (src : Mem) (len : Nat) (dest : Mem)
    (ndims : Nat) (write_size : Bool) : Outcome :=
  let nstripes := ndims / stripe_sz + (if ndims % stripe_sz > 0 then 1 else 0)
  let group_sz := ndims * block_sz * group_sz_blocks
  let total_header_bits := ndims * nbits_sz_bits * group_sz_blocks
  let total_header_bytes := total_header_bits / 8 + (if total_header_bits % 8 > 0 then 1 else 0)
  if write_size && decide (¬ len < 2 ^ 48) then Outcome.assertFailed dest else
  let mem := if write_size then storeLE 2 (storeLE 8 dest 0 len) 6 ndims else dest
  let d0 := if write_size then 8 else 0
  if len < 8 * block_sz * group_sz_blocks then
    let remaining_len := len % 2 ^ 32
    Outcome.returned (memcpy mem d0 src 0 remaining_len) (d0 + remaining_len)
  else if group_sz = 0 then Outcome.divByZero mem else
  let ngroups := len / group_sz
  let s := forLoop ngroups
    (fun _ s => deltaGroup NBITS_MASKS_U8 src ndims nstripes total_header_bytes s)
    (⟨⟨0, d0, mem⟩, Mem.zero⟩ : DeltaEncState)
  let remaining_len := (len - s.enc.src) % 2 ^ 32
  Outcome.returned (memcpy s.enc.mem s.enc.dest src s.enc.src remaining_len)
    (s.enc.dest + remaining_len)

/-! ## `decompress8b_rowmajor_delta` -/

/-- "undo delta coding": the loop over the 32-lane vectors of a block, last
vector first, with its inner loop over the eight rows.  Reads the unpacked
deltas (rows `0..7`) and the previous values (row `8`) from `deltas`, writes
the rows to `dest + out`. -/
def deltaDecodeBlock (ndims padded_ndims nvectors out : Nat) (s : Mem × Mem) : Mem × Mem :=
  forLoopDown nvectors
    (fun v (s : Mem × Mem) =>
      let vstripe_start := v * vector_sz
      let prev_vals_offset := block_sz * padded_ndims + vstripe_start
      let prev_vals := mm256_loadu_si256 s.2 prev_vals_offset
      let r := forLoop block_sz
        (fun i (r : Mem × Vec × Vec) =>
          let in_offset := i * padded_ndims + vstripe_start
          let out_offset := i * ndims + vstripe_start
          let raw_vdeltas := mm256_loadu_si256 s.2 in_offset
          let vdeltas := mm256_zigzag_decode_epi8 raw_vdeltas
          let vals := mm256_add_epi8 r.2.1 vdeltas
          (mm256_storeu_si256 r.1 (out + out_offset) vals, vals, vals))
        (s.1, prev_vals, mm256_setzero_si256)
      (r.1, mm256_storeu_si256 s.2 prev_vals_offset r.2.2))
    s

/-- Loop state of the delta decoders: the decoder state and the `deltas` buffer. -/
structure DeltaDecState where
  dec : DecState
  deltas : Mem

/-- One block of `decompress8b_rowmajor_delta` (body of the `b` loop). -/
def deltaDecBlock (dd : DecDims) (padded_ndims nvectors : Nat) (src : Mem) (b : Nat)
    (s : DeltaDecState) : DeltaDecState :=
  let masks := fun k => loadLE 8 s.dec.tm.data_masks (8 * (b * dd.nstripes + k))
  let bitwidths := fun k => loadLE 8 s.dec.tm.stripe_bitwidths (8 * (b * dd.nstripes + k))
  let stripe_bitoffsets := stripeBitoffsets bitwidths dd.nstripes
  let in_row_nbits :=
    (stripe_bitoffsets.get (dd.nstripes - 1) + bitwidths (dd.nstripes - 1)) % 2 ^ 32
  let in_row_nbytes := rowNbytes in_row_nbits
  let deltas := unpackBlock masks bitwidths stripe_bitoffsets dd.nstripes src s.dec.src
    in_row_nbytes 0 padded_ndims s.deltas
  let r := deltaDecodeBlock dd.ndims padded_ndims nvectors s.dec.dest (s.dec.mem, deltas)
  ⟨⟨s.dec.src + block_sz * in_row_nbytes, s.dec.dest + block_sz * dd.ndims, r.1, s.dec.tm⟩, r.2⟩

/-- One group of `decompress8b_rowmajor_delta` (body of the `g` loop). -/
def deltaDecGroup (dd : DecDims) (padded_ndims nvectors : Nat) (src : Mem)
    (s : DeltaDecState) : DeltaDecState :=
  let header_src := s.dec.src
  let tm := readGroupHeader dd src header_src s.dec.tm
  forLoop group_sz_blocks (fun b s => deltaDecBlock dd padded_ndims nvectors src b s)
    ⟨⟨s.dec.src + dd.total_header_bytes, s.dec.dest, s.dec.mem, tm⟩, s.deltas⟩

/-- The function `decompress8b_rowmajor_delta(src, dest)`. -/
def decompress8b_rowmajor_delta (src : Mem) (dest : Mem) : Outcome :=
  let orig_len := (read_metadata_8b src).1
  let ndims := (read_metadata_8b src).2
  let just_cpy := decide (orig_len < 8 * block_sz * group_sz_blocks)
  if just_cpy then Outcome.returned (memcpy dest 0 src 8 (orig_len % 2 ^ 32)) orig_len
  else if ndims = 0 then Outcome.returned dest 0
  else
  let dd := decDims ndims
  let group_sz := ndims * (block_sz * group_sz_blocks)
  let padded_ndims := round_up_to_multiple ndims vector_sz
  let nvectors := padded_ndims / vector_sz + (if padded_ndims % vector_sz > 0 then 1 else 0)
  let ngroups := orig_len / group_sz
  let s := forLoop ngroups (fun _ s => deltaDecGroup dd padded_ndims nvectors src s)
    (⟨⟨8, 0, dest, DecTemps.zero⟩, Mem.zero⟩ : DeltaDecState)
  let remaining_len := (orig_len - s.dec.dest) % 2 ^ 32
  Outcome.returned (memcpy s.dec.mem s.dec.dest src s.dec.src remaining_len)
    (s.dec.dest + remaining_len)

/-! ## Run-length mode: metadata, helpers -/

/-- Modelled from the spec: `write_metadata_rle_8b` is not part of the sources.
The Mode B header holds the number of groups in bytes 0..3, `remaining_len` in
bytes 4..5 and `ndims` in bytes 6..7, little-endian; it is 8 bytes long (the
value returned). -/
def write_metadata_rle_8b (dest : Mem) (at_ ndims ngroups remaining_len : Nat) : Mem × Nat :=
  (storeLE 2 (storeLE 2 (storeLE 4 dest at_ ngroups) (at_ + 4) remaining_len) (at_ + 6) ndims, 8)

/-- Modelled from the spec: `read_metadata_rle_8b` is not part of the sources;
it reads back the three fields of the Mode B header and returns
`(ndims, ngroups, remaining_len)` together with the header size 8. -/
def read_metadata_rle_8b (src : Mem) : (Nat × Nat × Nat) × Nat :=
  ((loadLE 2 src 6, loadLE 4 src 0, loadLE 2 src 4), 8)

/-- Modelled from the spec: `memrep` is not part of the sources; it "copies a
source block N times to a destination".  The block of `in_nbytes` bytes at
`inptr` is copied `ncopies` times to `dest`, one copy after the other. -/
def memrep (m : Mem) (dest inptr in_nbytes ncopies : Nat) : Mem :=
  forLoop ncopies (fun c m => memcpy m (dest + c * in_nbytes) m inptr in_nbytes) m

def length_header_nbytes : Nat := 8
def max_run_nblocks : Nat := 0x7fff
def min_data_size : Nat := 8 * block_sz * group_sz_blocks

/-! ## `compress8b_rowmajor_delta_rle` -/

/-- Loop state of `compress8b_rowmajor_delta_rle`. -/
structure RleEncState where
  src : Nat
  dest : Nat
  mem : Mem
  deltas : Mem
  ngroups : Nat
  run_length_nblocks : Nat
  b : Nat
  header_dest : Nat
  header_bit_offset : Nat

/-- What the block just read looks like to the run-length logic. -/
structure RleBlock where
  st : StripeStats
  stripe_bitoffsets : Arr
  row_width_bits : Nat
  out_row_nbytes : Nat

/-- "write out length of the current constant section": one byte with the low
seven bits, and a second byte when the length exceeds `0x7f`. -/
def writeRunLength (mem : Mem) (dest run_length_nblocks : Nat) : Mem × Nat :=
  let mem := store8 mem dest (run_length_nblocks &&& 0x7f)
  let dest := dest + 1
  if run_length_nblocks > 0x7f then
    let mem := store8 mem (dest - 1) (load8 mem (dest - 1) ||| 0x80)
    let mem := store8 mem dest (run_length_nblocks >>> 7)
    (mem, dest + 1)
  else (mem, dest)

/-- The constants of one call of the run-length encoder. -/
structure RleCtx where
  NBITS_MASKS_U8 : Nat → Nat
  src : Mem
  ndims : Nat
  nstripes : Nat
  total_header_bytes : Nat
  last_full_group_start : Int

/-- Code from the label `do_rle` to the end of that branch.  The Boolean is
`true` when the branch leaves through `goto main_loop_end`. -/
def rle_do_rle (c : RleCtx) (s : RleEncState) : RleEncState × Bool :=
  let run_length_nblocks := (s.run_length_nblocks + 1) % 2 ^ 16
  let src := s.src + block_sz * c.ndims
  if (src : Int) < c.last_full_group_start then
    ({ s with run_length_nblocks := run_length_nblocks, src := src }, false)
  else
    let header_bit_offset := s.header_bit_offset + c.ndims * nbits_sz_bits
    let b := s.b + 1
    let w := writeRunLength s.mem s.dest run_length_nblocks
    let f := forLoop (group_sz_blocks - b) (fun _ (f : Mem × Nat) => (store8 f.1 f.2 0, f.2 + 1)) w
    ({ s with run_length_nblocks := 0, src := src, header_bit_offset := header_bit_offset,
              b := b + (group_sz_blocks - b), mem := f.1, dest := f.2 }, true)

/-- Code from "write out header bits for this block" to the end of the body of
the block loop: the block is bit-packed. -/
def rle_pack (c : RleCtx) (blk : RleBlock) (s : RleEncState) : RleEncState :=
  let hw := writeBlockHeader blk.st.stripe_headers c.ndims c.nstripes s.header_dest
    (s.mem, s.header_bit_offset)
  let mem := memset0 hw.1 s.dest (blk.out_row_nbytes * block_sz)
  let mem := packBlock blk.st blk.stripe_bitoffsets c.nstripes s.deltas 0 c.ndims s.dest
    blk.out_row_nbytes mem
  { s with mem := mem, header_bit_offset := hw.2, src := s.src + block_sz * c.ndims,
           dest := s.dest + block_sz * blk.out_row_nbytes, b := s.b + 1 }

/-- Code from the label `just_read_block` to the end of the body of the block
loop.  The first argument bounds the number of times the label is reached
(`none`: the bound was too small).  The Boolean of the result is `true` when
the body leaves through `goto main_loop_end`. -/
def rle_just_read_block (c : RleCtx) (blk : RleBlock) :
    Nat → RleEncState → Option (RleEncState × Bool)
  | 0, _ => none
  | jumps + 1, s =>
    let do_rle := decide (blk.row_width_bits = 0) && decide (s.run_length_nblocks < max_run_nblocks)
    if do_rle then some (rle_do_rle c s)
    else if s.run_length_nblocks > 0 then
      -- just finished a run
      let b := s.b + 1
      let w := writeRunLength s.mem s.dest s.run_length_nblocks
      let s1 : RleEncState :=
        { s with b := b, mem := w.1, dest := w.2, run_length_nblocks := 0,
                 header_bit_offset := s.header_bit_offset + c.ndims * nbits_sz_bits }
      if b = group_sz_blocks then
        -- start new group, and pretend the block we read was its first block
        let s2 : RleEncState :=
          { s1 with ngroups := (s1.ngroups + 1) % 2 ^ 32, header_bit_offset := 0, b := 0,
                    header_dest := s1.dest, dest := s1.dest + c.total_header_bytes,
                    mem := memset0 s1.mem s1.dest c.total_header_bytes }
        rle_just_read_block c blk jumps s2
      else if blk.row_width_bits = 0 then some (rle_do_rle c s1)
      else some (rle_pack c blk s1, false)
    else some (rle_pack c blk s, false)

/-- The first half of the body of the block loop: the statistics of the block
at `src`, which also refreshes the `deltas` buffer. -/
def rle_read_block (c : RleCtx) (s : RleEncState) : RleBlock × RleEncState :=
  let sd := deltaStripeStats c.NBITS_MASKS_U8 c.src s.src c.ndims s.deltas
  let st := sd.1
  let stripe_bitoffsets := stripeBitoffsets st.stripe_bitwidths.get c.nstripes
  let row_width_bits :=
    (stripe_bitoffsets.get (c.nstripes - 1) + st.stripe_bitwidths.get (c.nstripes - 1)) % 2 ^ 32
  let out_row_nbytes := rowNbytes row_width_bits
  (⟨st, stripe_bitoffsets, row_width_bits, out_row_nbytes⟩, { s with deltas := sd.2 })

/-- The loop `while (b < group_sz_blocks)`, with a bound `fuel` on the number of
passes.  `none` means the bound was too small; the Boolean is `true` when the
loop was left through `goto main_loop_end`. -/
def rle_block_loop (c : RleCtx) : Nat → RleEncState → Option (RleEncState × Bool)
  | 0, _ => none
  | fuel + 1, s =>
    if s.b < group_sz_blocks then
      let r := rle_read_block c s
      match rle_just_read_block c r.1 2 r.2 with
      | none => none
      | some (s1, true) => some (s1, true)
      | some (s1, false) => rle_block_loop c fuel s1
    else some (s, false)

/-- The loop `while (src <= last_full_group_start)`, with a bound `fuel` on the
number of passes of this loop and of each block loop inside. -/
def rle_group_loop (c : RleCtx) (fuel : Nat) : Nat → RleEncState → Option RleEncState
  | 0, _ => none
  | n + 1, s =>
    if (s.src : Int) ≤ c.last_full_group_start then
      let s1 : RleEncState :=
        { s with ngroups := (s.ngroups + 1) % 2 ^ 32, header_dest := s.dest,
                 dest := s.dest + c.total_header_bytes,
                 mem := memset0 s.mem s.dest c.total_header_bytes,
                 header_bit_offset := 0, b := 0 }
      match rle_block_loop c fuel s1 with
      | none => none
      | some (s2, true) => some s2
      | some (s2, false) => rle_group_loop c fuel n s2
    else some s

/-- Outcome of the run-length encoder: as `Outcome`, or `none` if the loop
bound of the model was too small (it never is, see `rle_group_loop`). -/
def compress8b_rowmajor_delta_rle (NBITS_MASKS_U8 : Nat → Nat) (src : Mem) (len : Nat)
    (dest : Mem) (ndims : Nat) (write_size : Bool) : Option Outcome :=
  let nstripes := ndims / stripe_sz + (if ndims % stripe_sz > 0 then 1 else 0)
  let group_sz := ndims * block_sz * group_sz_blocks
  let total_header_bits := ndims * nbits_sz_bits * group_sz_blocks
  let total_header_bytes := total_header_bits / 8 + (if total_header_bits % 8 > 0 then 1 else 0)
  if len < min_data_size then
    if ¬ min_data_size < 2 ^ 16 then some (Outcome.assertFailed dest) else
    let w := if write_size then write_metadata_rle_8b dest 0 ndims 0 (len % 2 ^ 16) else (dest, 0)
    some (Outcome.returned (memcpy w.1 w.2 src 0 len) (w.2 + len))
  else
  let d0 := if write_size then length_header_nbytes else 0
  let last_full_group_start : Int := (len : Int) - (group_sz : Int)
  let c : RleCtx := ⟨NBITS_MASKS_U8, src, ndims, nstripes, total_header_bytes, last_full_group_start⟩
  match rle_group_loop c (len + 1) (len + 1)
      ⟨0, d0, dest, Mem.zero, 0, 0, 0, 0, 0⟩ with
  | none => none
  | some s =>
    -- main_loop_end
    let remaining_len := (((len : Int) - (s.src : Int)) % 2 ^ 32).toNat
    let mem := if write_size then (write_metadata_rle_8b s.mem 0 ndims s.ngroups remaining_len).1
      else s.mem
    some (Outcome.returned (memcpy mem s.dest src s.src remaining_len) (s.dest + remaining_len))

/-! ## `decompress8b_rowmajor_delta_rle` -/

/-- The run-length field as the decoder reads it at `src + p`: the decoded
length and the number of bytes consumed (`src++; src += (high_byte > 0)`). -/
def readRunLength (src : Mem) (p : Nat) : Nat × Nat :=
  let low_byte := load8 src p
  let high_byte := load8 src (p + 1)
  let high_byte := high_byte &&& (if 128 ≤ low_byte then 0xff else 0)
  let length := (low_byte &&& 0x7f) ||| (high_byte <<< 7)
  (length, 1 + (if high_byte > 0 then 1 else 0))

/-- `in_row_nbits` of block `b` of the current group, from the unpacked header. -/
def decRowNbits (dd : DecDims) (b : Nat) (tm : DecTemps) : Nat :=
  let bitwidths := fun k => loadLE 8 tm.stripe_bitwidths (8 * (b * dd.nstripes + k))
  let stripe_bitoffsets := stripeBitoffsets bitwidths dd.nstripes
  (stripe_bitoffsets.get (dd.nstripes - 1) + bitwidths (dd.nstripes - 1)) % 2 ^ 32

/-- The branch `if (in_row_nbits == 0)` of the run-length decoder: a run. -/
def rleDecRun (dd : DecDims) (src : Mem) (g b : Nat) (s : DeltaDecState) : DeltaDecState :=
  let rl := readRunLength src s.dec.src
  let length := rl.1
  let src1 := s.dec.src + rl.2
  if g > 0 ∨ b > 0 then
    let inptr := s.dec.dest - dd.ndims
    let ncopies := (length * block_sz) % 2 ^ 32
    let mem := memrep s.dec.mem s.dec.dest inptr dd.ndims ncopies
    ⟨⟨src1, s.dec.dest + (dd.ndims * ncopies) % 2 ^ 32, mem, s.dec.tm⟩, s.deltas⟩
  else
    let num_zeros := (length * block_sz * dd.ndims) % 2 ^ 32
    let mem := memset0 s.dec.mem s.dec.dest num_zeros
    ⟨⟨src1, s.dec.dest + num_zeros, mem, s.dec.tm⟩, s.deltas⟩

/-- One block of the run-length decoder (body of the `b` loop) in group `g`. -/
def rleDecBlock (dd : DecDims) (padded_ndims nvectors : Nat) (src : Mem) (g b : Nat)
    (s : DeltaDecState) : DeltaDecState :=
  let masks := fun k => loadLE 8 s.dec.tm.data_masks (8 * (b * dd.nstripes + k))
  let bitwidths := fun k => loadLE 8 s.dec.tm.stripe_bitwidths (8 * (b * dd.nstripes + k))
  let stripe_bitoffsets := stripeBitoffsets bitwidths dd.nstripes
  let in_row_nbits := decRowNbits dd b s.dec.tm
  let in_row_nbytes := rowNbytes in_row_nbits
  if in_row_nbits = 0 then rleDecRun dd src g b s
  else
  let deltas := unpackBlock masks bitwidths stripe_bitoffsets dd.nstripes src s.dec.src
    in_row_nbytes 0 padded_ndims s.deltas
  let r := deltaDecodeBlock dd.ndims padded_ndims nvectors s.dec.dest (s.dec.mem, deltas)
  ⟨⟨s.dec.src + block_sz * in_row_nbytes, s.dec.dest + block_sz * dd.ndims, r.1, s.dec.tm⟩, r.2⟩

/-- One group of the run-length decoder (body of the `g` loop). -/
def rleDecGroup (dd : DecDims) (padded_ndims nvectors : Nat) (src : Mem) (g : Nat)
    (s : DeltaDecState) : DeltaDecState :=
  let header_src := s.dec.src
  let tm := readGroupHeader dd src header_src s.dec.tm
  forLoop group_sz_blocks (fun b s => rleDecBlock dd padded_ndims nvectors src g b s)
    ⟨⟨s.dec.src + dd.total_header_bytes, s.dec.dest, s.dec.mem, tm⟩, s.deltas⟩

/-- The five-argument overload
`decompress8b_rowmajor_delta_rle(src, dest, ndims, ngroups, remaining_len)`;
`src0` is the offset of its `src` argument in the stream. -/
def decompress8b_rowmajor_delta_rle_impl (src : Mem) (src0 : Nat) (dest : Mem)
    (ndims ngroups remaining_len : Nat) : Outcome :=
  let just_cpy := decide (ngroups = 0) && decide (remaining_len < min_data_size)
  if just_cpy then Outcome.returned (memcpy dest 0 src src0 remaining_len) remaining_len
  else if ndims = 0 then Outcome.returned dest 0
  else
  let dd := decDims ndims
  let padded_ndims := round_up_to_multiple ndims vector_sz
  let nvectors := padded_ndims / vector_sz + (if padded_ndims % vector_sz > 0 then 1 else 0)
  let s := forLoop ngroups (fun g s => rleDecGroup dd padded_ndims nvectors src g s)
    (⟨⟨src0, 0, dest, DecTemps.zero⟩, Mem.zero⟩ : DeltaDecState)
  Outcome.returned (memcpy s.dec.mem s.dec.dest src s.dec.src remaining_len)
    (s.dec.dest + remaining_len)

/-- The function `decompress8b_rowmajor_delta_rle(src, dest)`. -/
def decompress8b_rowmajor_delta_rle (src : Mem) (dest : Mem) : Outcome :=
  let md := read_metadata_rle_8b src
  decompress8b_rowmajor_delta_rle_impl src md.2 dest md.1.1 md.1.2.1 md.1.2.2

/-! ## Concrete buffers for examples -/

/-- The buffer whose first bytes are those of the list and whose other bytes are 0. -/
def Mem.ofList (l : List Nat) : Mem := ⟨fun i => l.getD i 0⟩

/-! ## Names for the quantities derived from `ndims` and for the main loops -/

/-- `nstripes = ndims / stripe_sz + ((ndims % stripe_sz) > 0)`. -/
def nstripesOf (ndims : Nat) : Nat :=
  ndims / stripe_sz + (if ndims % stripe_sz > 0 then 1 else 0)

/-- `total_header_bytes`, the size in bytes of a group header. -/
def headerBytesOf (ndims : Nat) : Nat :=
  ndims * nbits_sz_bits * group_sz_blocks / 8 +
    (if ndims * nbits_sz_bits * group_sz_blocks % 8 > 0 then 1 else 0)

/-- `group_sz = ndims * block_sz * group_sz_blocks`. -/
def groupSzOf (ndims : Nat) : Nat := ndims * block_sz * group_sz_blocks

/-- The destination after the optional Mode A header. -/
def headerA (dest : Mem) (len ndims : Nat) (write_size : Bool) : Mem :=
  if write_size then storeLE 2 (storeLE 8 dest 0 len) 6 ndims else dest

/-- The write position after the optional 8-byte header. -/
def headerLen (write_size : Bool) : Nat := if write_size then 8 else 0

/-- State of `compress8b_rowmajor` after `g` passes of its group loop. -/
def rowmajorLoop (NBITS_MASKS_U8 : Nat → Nat) (src : Mem) (len : Nat) (dest : Mem) (ndims : Nat)
    (write_size : Bool) (g : Nat) : EncState :=
  forLoop g
    (fun _ s => rowmajorGroup NBITS_MASKS_U8 src ndims (nstripesOf ndims) (headerBytesOf ndims) s)
    ⟨0, headerLen write_size, headerA dest len ndims write_size⟩

/-- State of `compress8b_rowmajor_delta` after `g` passes of its group loop. -/
def deltaLoop (NBITS_MASKS_U8 : Nat → Nat) (src : Mem) (len : Nat) (dest : Mem) (ndims : Nat)
    (write_size : Bool) (g : Nat) : DeltaEncState :=
  forLoop g
    (fun _ s => deltaGroup NBITS_MASKS_U8 src ndims (nstripesOf ndims) (headerBytesOf ndims) s)
    ⟨⟨0, headerLen write_size, headerA dest len ndims write_size⟩, Mem.zero⟩

/-- The constants of one call of `compress8b_rowmajor_delta_rle`. -/
def rleCtxOf (NBITS_MASKS_U8 : Nat → Nat) (src : Mem) (len ndims : Nat) : RleCtx :=
  ⟨NBITS_MASKS_U8, src, ndims, nstripesOf ndims, headerBytesOf ndims,
    (len : Int) - (groupSzOf ndims : Int)⟩

/-- State of `compress8b_rowmajor_delta_rle` on entry to its group loop. -/
def rleInit (dest : Mem) (write_size : Bool) : RleEncState :=
  ⟨0, if write_size then length_header_nbytes else 0, dest, Mem.zero, 0, 0, 0, 0, 0⟩

/-- State of `compress8b_rowmajor_delta_rle` at the label `main_loop_end`. -/
def rleLoop (NBITS_MASKS_U8 : Nat → Nat) (src : Mem) (len : Nat) (dest : Mem) (ndims : Nat)
    (write_size : Bool) : Option RleEncState :=
  rle_group_loop (rleCtxOf NBITS_MASKS_U8 src len ndims) (len + 1) (len + 1)
    (rleInit dest write_size)

/-- The code after the label `main_loop_end`. -/
def rleFinish (src : Mem) (len ndims : Nat) (write_size : Bool) (s : RleEncState) : Outcome :=
  let remaining_len := (((len : Int) - (s.src : Int)) % 2 ^ 32).toNat
  let mem := if write_size then (write_metadata_rle_8b s.mem 0 ndims s.ngroups remaining_len).1
    else s.mem
  Outcome.returned (memcpy mem s.dest src s.src remaining_len) (s.dest + remaining_len)

/-! ## Bit view of a buffer -/

/-- Bit `q` of a buffer read as one little-endian bit string: bit `q % 8` of
byte `q / 8`. -/
def abit (m : Mem) (q : Nat) : Bool := (load8 m (q / 8)).testBit (q % 8)

/-- Number of set bits among the low `n` bits of `m`. -/
def popcountAux : Nat → Nat → Nat
  | 0, _ => 0
  | n + 1, m => m % 2 + popcountAux n (m / 2)

/-- Number of set bits of a 64-bit word. -/
def popcount_u64 (m : Nat) : Nat := popcountAux 64 m

/-- `f 0 + f 1 + ... + f (n - 1)`. -/
def sumTo : Nat → (Nat → Nat) → Nat
  | 0, _ => 0
  | n + 1, f => sumTo n f + f n

/-! ## Width tables -/

/-- The masks the decoders can reproduce from a 3-bit header field: the first
eight entries of `nbits_to_mask`. -/
def okMasks : List Nat := [0x00, 0x01, 0x03, 0x07, 0x0f, 0x1f, 0x3f, 0xff]

/-- A width table the decoders agree with: every byte is sent to a mask of
`nbits_to_mask` that covers it.  The table itself (`NBITS_MASKS_U8` of
`bitpack.h`) is not part of the sources, so the encoders take it as a
parameter; the sources say of it what this predicate says: "nbits == 7 yields
a byte of all ones (0xff)" at `nbits_to_mask`, "map 8 to 7" where the encoder
writes a header field and "map nbits of 7 to 8" where the decoder reads it. -/
def TableOK (T : Nat → Nat) : Prop := ∀ b, b < 256 → T b ∈ okMasks ∧ b ≤ T b

/-- Modelled from the spec: the table `NBITS_MASKS_U8` of `bitpack.h` is not
part of the sources; `NBITS_MASKS_U8[b]` is "the smallest mask of the form
`2^k − 1` that covers `b`". -/
def NBITS_MASKS_U8 (b : Nat) : Nat :=
  if b = 0 then 0 else if b < 2 then 1 else if b < 4 then 3 else if b < 8 then 7
  else if b < 16 then 15 else if b < 32 then 31 else if b < 64 then 63
  else if b < 128 then 127 else 255

/-- The width table that sends every byte needing seven bits to the eight-bit
mask `0xff`, the only mask the decoders associate with the header field 7. -/
def NBITS_MASKS_U8_folded (b : Nat) : Nat :=
  if b = 0 then 0 else if b < 2 then 1 else if b < 4 then 3 else if b < 8 then 7
  else if b < 16 then 15 else if b < 32 then 31 else if b < 64 then 63 else 255

/-- `max_nbits = 32 - _lzcnt_u32(mask)`. -/
def maxNbits (mask : Nat) : Nat := 32 - lzcnt_u32 mask

/-- A width table whose masks have as many bits set as the width computed
from them: the packed stripes then fit their bit-widths. -/
def TablePop (T : Nat → Nat) : Prop :=
  ∀ b, b < 256 → popcountAux 8 (T b % 256) = maxNbits (T b % 256)

/-- `write_nbits = max_nbits - (max_nbits == 8)`. -/
def writeNbits (mask : Nat) : Nat := maxNbits mask - (if maxNbits mask = 8 then 1 else 0)

/-- The stripe statistics accumulated over the dimensions `0..n-1`, where
`dm dim` is the OR-reduction of dimension `dim`. -/
def statsOf (NBITS_MASKS_U8 : Nat → Nat) (dm : Nat → Nat) (n : Nat) : StripeStats :=
  forLoop n (fun dim st => accumDim NBITS_MASKS_U8 dim (dm dim) st) StripeStats.zero

/-- The mask of dimension `d` after the table look-up, `NBITS_MASKS_U8[mask]`
stored back into a `uint8_t`. -/
def maskOf (NBITS_MASKS_U8 : Nat → Nat) (dm : Nat → Nat) (d : Nat) : Nat :=
  NBITS_MASKS_U8 (dm d) % 256

/-- `p 0 || p 1 || ... || p (n - 1)`. -/
def anyTo : Nat → (Nat → Bool) → Bool
  | 0, _ => false
  | n + 1, p => anyTo n p || p n

/-- Bit `t` of a packed row: stripe `s` of the row, `P s`, occupies the bits
from `sumTo s w` on, where `w s` is the bit-width of stripe `s`. -/
def rowBit (P : Nat → Nat) (w : Nat → Nat) (nstripes t : Nat) : Bool :=
  anyTo nstripes (fun s => decide (sumTo s w ≤ t) && (P s).testBit (t - sumTo s w))

/-- The bit that stripe `s` of row `i` of a block contributes at the absolute
bit position `q`, for a block packed at `out` with rows of `rb` bytes. -/
def stripeTerm (out rb : Nat) (w : Nat → Nat) (P : Nat → Nat → Nat) (i s q : Nat) : Bool :=
  decide (8 * (out + i * rb) + sumTo s w ≤ q) &&
    (P i s).testBit (q - (8 * (out + i * rb) + sumTo s w))

/-- The stripe of row `i`, stripe `s`, as `packBlock` extracts it from the
block that starts at `inbuf + inp` with rows `in_stride` bytes apart. -/
def packedStripe (masks : Nat → Nat) (inbuf : Mem) (inp in_stride : Nat) (i s : Nat) : Nat :=
  pext_u64 (loadLE 8 inbuf (inp + s * stripe_sz + i * in_stride)) (masks s)

/-- The inner loop of `packBlock` for stripe `s`, written with the closed form
of the stripe offset. -/
def packStripePass (out rb : Nat) (w : Nat → Nat) (P : Nat → Nat → Nat) (s : Nat) (n : Nat)
    (m : Mem) : Mem :=
  forLoop n (fun i m =>
    if w s + sumTo s w % 8 ≤ 64 then
        storeLE 8 m (out + sumTo s w / 8 + i * rb)
          (((P i s <<< (sumTo s w % 8)) % 2 ^ 64) ||| loadLE 8 m (out + sumTo s w / 8 + i * rb))
      else store8 (storeLE 8 m (out + sumTo s w / 8 + i * rb)
          (((P i s <<< (sumTo s w % 8)) % 2 ^ 64) ||| loadLE 8 m (out + sumTo s w / 8 + i * rb)))
        (out + sumTo s w / 8 + i * rb + 8)
        ((P i s >>> (w s - (w s + sumTo s w % 8 - 64) % 256)) % 256)) m

/-- The outer loop of `packBlock` over the first `n` stripes, written with the
closed form of the stripe offsets. -/
def packBlockPasses (out rb : Nat) (w : Nat → Nat) (P : Nat → Nat → Nat) (n : Nat) (m : Mem) : Mem :=
  forLoop n (fun s m => packStripePass out rb w P s 8 m) m

/-- The store pattern of `unpackBlock`: stripes from the last one down to 0,
rows 0..7 inside each stripe, an 8-byte store of `V i s` at
`out + s * 8 + i * stride`.  Covers the stripes below `n`. -/
def unpackStores (V : Nat → Nat → Nat) (out stride : Nat) (n : Nat) (m : Mem) : Mem :=
  forLoopDown n (fun s m =>
    forLoop block_sz (fun i m => storeLE 8 m (out + s * stripe_sz + i * stride) (V i s)) m) m

/-- The word `unpackBlock` stores for stripe `s` of row `i`, written with the
closed form of the stripe offset. -/
def unpackWord (masks bitwidths : Nat → Nat) (src : Mem) (inp rb : Nat) (i s : Nat) : Nat :=
  let offset_bits := sumTo s bitwidths % 8
  let inptr := inp + sumTo s bitwidths / 8 + i * rb
  let nbits := bitwidths s % 256
  let total_bits := (nbits + offset_bits) % 256
  if total_bits ≤ 64 then pdep_u64 (loadLE 8 src inptr >>> offset_bits) (masks s)
  else
    pdep_u64 ((loadLE 8 src inptr >>> offset_bits) |||
      ((loadLE 8 src (inptr + 8) <<< (nbits - (total_bits - 64) % 256)) % 2 ^ 64)) (masks s)

/-! ## Signed bytes -/

/-- The cast `(int8_t)u`: the signed value of a byte. -/
def i8_of_u8 (u : Nat) : Int := if u % 256 < 128 then (u % 256 : Nat) else ((u % 256 : Nat) : Int) - 256

/-- The cast `(uint8_t)x`: the byte that represents a signed value. -/
def u8_of_i8 (x : Int) : Nat := (x % 256).toNat

/-! ## The decoders' treatment of one header field -/

/-- The width a decoder derives from the header field `h` of one dimension: the
lane of `_mm256_sub_epi8(raw_header, _mm256_cmpeq_epi8(raw_header, sevens))`. -/
def decLaneWidth (h : Nat) : Nat :=
  mm256_sub_epi8 (mm256_set1_epi8 h)
    (mm256_cmpeq_epi8 (mm256_set1_epi8 h) (mm256_set1_epi8 0x07)) 0

/-- The data mask a decoder derives from the header field `h` of one dimension:
the lane of `_mm256_shuffle_epi8(nbits_to_mask, raw_header)`. -/
def decLaneMask (h : Nat) : Nat :=
  mm256_shuffle_epi8 nbits_to_mask (mm256_set1_epi8 h) 0

/-! ## Sizes of the packed rows -/

/-- `in_row_nbytes` of a block, from its stripe statistics: the byte-aligned
sum of the stripe widths as the encoders compute it. -/
def rowBytesOf (st : StripeStats) (nstripes : Nat) : Nat :=
  rowNbytes (((stripeBitoffsets st.stripe_bitwidths.get nstripes).get (nstripes - 1)
    + st.stripe_bitwidths.get (nstripes - 1)) % 2 ^ 32)

/-- Bytes that group `g` of `compress8b_rowmajor` occupies in the output: the
group header and the two block bodies of eight packed rows each. -/
def rowmajorGroupBytes (NBITS_MASKS_U8 : Nat → Nat) (src : Mem) (ndims g : Nat) : Nat :=
  headerBytesOf ndims
    + 8 * rowBytesOf (stripeStats NBITS_MASKS_U8 src (g * (16 * ndims)) ndims) (nstripesOf ndims)
    + 8 * rowBytesOf (stripeStats NBITS_MASKS_U8 src (g * (16 * ndims) + 8 * ndims) ndims)
        (nstripesOf ndims)

/-- Bytes that the group encoded from the loop state `s` of
`compress8b_rowmajor_delta` occupies in the output: the group header and the
two block bodies of eight packed rows each. -/
def deltaGroupBytes (NBITS_MASKS_U8 : Nat → Nat) (src : Mem) (ndims : Nat)
    (s : DeltaEncState) : Nat :=
  headerBytesOf ndims
    + 8 * rowBytesOf (deltaStripeStats NBITS_MASKS_U8 src s.enc.src ndims s.deltas).1
        (nstripesOf ndims)
    + 8 * rowBytesOf (deltaStripeStats NBITS_MASKS_U8 src (s.enc.src + 8 * ndims) ndims
        (deltaStripeStats NBITS_MASKS_U8 src s.enc.src ndims s.deltas).2).1 (nstripesOf ndims)

/-! ## Invariants of the loops of `compress8b_rowmajor_delta_rle`

`D` is `ndims`, `L` the input length, `d0` the first write position and `G` the
number of group headers written so far. -/

/-- At the head of the block loop: what has been written is covered by what has
been read (blocks of a run in progress not counted), and the slots filled so
far account for the input read. -/
def RleBInv (D L d0 : Nat) (s : RleEncState) (G : Nat) : Prop :=
  s.b ≤ 2 ∧ 1 ≤ G ∧ s.ngroups = G % 2 ^ 32 ∧ s.run_length_nblocks ≤ 0x7fff ∧
  s.dest + 8 * D * s.run_length_nblocks ≤ d0 + G * headerBytesOf D + s.src ∧
  16 * D * (G - 1) + 8 * D * s.b + 8 * D * s.run_length_nblocks ≤ s.src ∧
  s.src ≤ L ∧ (s.b = 0 → s.src + 16 * D ≤ L) ∧ (s.b = 1 → s.src + 8 * D ≤ L) ∧
  (0 < s.run_length_nblocks → s.src + 16 * D < L) ∧ (s.b = 2 → s.run_length_nblocks = 0)

/-- At the head of the group loop. -/
def RleGInv (D L d0 : Nat) (s : RleEncState) (G : Nat) : Prop :=
  s.run_length_nblocks = 0 ∧ s.ngroups = G % 2 ^ 32 ∧
  s.dest ≤ d0 + G * headerBytesOf D + s.src ∧ 16 * D * G ≤ s.src ∧ s.src ≤ L

/-- At the label `main_loop_end`. -/
def RleFinal (D L d0 : Nat) (s : RleEncState) (G : Nat) : Prop :=
  s.ngroups = G % 2 ^ 32 ∧ s.dest ≤ d0 + G * headerBytesOf D + s.src ∧ s.src ≤ L ∧
  16 * D * G ≤ L + 8 * D ∧ L ≤ s.src + 16 * D

/-! ## The header bits of a group -/

/-- Bit `q` of a sequence of `n` three-bit fields `F 0, F 1, ...` that starts
at bit `base`. -/
def headerField (F : Nat → Nat) (base n q : Nat) : Bool :=
  decide (base ≤ q ∧ (q - base) / 3 < n) && (F ((q - base) / 3)).testBit ((q - base) % 3)

/-- The destination after the header write, the `memset` and the packing of
one block: the part that `compress8b_rowmajor`, `compress8b_rowmajor_delta` and
`compress8b_rowmajor_delta_rle` have in common. -/
def encodeBlockMem (st : StripeStats) (ndims nstripes header_dest header_bit_offset : Nat)
    (inbuf : Mem) (inp in_stride out : Nat) (mem : Mem) : Mem :=
  packBlock st (stripeBitoffsets st.stripe_bitwidths.get nstripes) nstripes inbuf inp in_stride out
    (rowBytesOf st nstripes)
    (memset0 (writeBlockHeader st.stripe_headers ndims nstripes header_dest
      (mem, header_bit_offset)).1 out (rowBytesOf st nstripes * block_sz))

/-! ## What a decoder needs to find in the stream for one block -/

/-- The stream `cm` holds the block whose dimensions have the OR-masks `dm`:
the `D` three-bit width fields from bit `hdrbit` on, and from byte `o` on the
eight packed rows of the block that starts at `inbuf + inp`. -/
def BlockInStream (cm : Mem) (T dm : Nat → Nat) (D : Nat) (inbuf : Mem) (inp in_stride : Nat)
    (hdrbit o : Nat) : Prop :=
  (∀ d j, d < D → j < 3 →
    abit cm (hdrbit + 3 * d + j) = (writeNbits (maskOf T dm d)).testBit j) ∧
  (∀ i t, i < 8 → t < 8 * rowBytesOf (statsOf T dm D) (nstripesOf D) →
    abit cm (8 * (o + i * rowBytesOf (statsOf T dm D) (nstripesOf D)) + t) =
      rowBit (packedStripe (statsOf T dm D).stripe_masks.get inbuf inp in_stride i)
        (statsOf T dm D).stripe_bitwidths.get (nstripesOf D) t)

/-- The bytes of the decoders' `headers` buffer between the `D` fields of a
block and the end of its last stripe are zero, as `calloc` left them. -/
def HeadersPadded (D : Nat) (hd : Mem) : Prop :=
  ∀ b d, b < 2 → D ≤ d → d < 8 * nstripesOf D → load8 hd (b * nstripesOf D * 8 + d) = 0

/-- State of `decompress8b_rowmajor` after `g` passes of its group loop. -/
def rowmajorDecLoop (src dest : Mem) (ndims g : Nat) : DecState :=
  forLoop g (fun _ s => rowmajorDecGroup (decDims ndims) src s) ⟨8, 0, dest, DecTemps.zero⟩

/-! ## The `deltas` buffer of the delta encoders -/

/-- The zig-zag coded delta that the delta encoders compute for row `i` and
dimension `dim` of the block at `src + p`; `prev dim` is the value of the
dimension before the block. -/
def deltaBits (src : Mem) (p ndims : Nat) (prev : Nat → Nat) (i dim : Nat) : Nat :=
  zigzag_encode_i8 ((load8 src (p + (i * ndims + dim)) + 256
    - (if i = 0 then prev dim else load8 src (p + ((i - 1) * ndims + dim)))) % 256)

/-- The row loop of the delta encoders for one dimension, as the triple of
the OR-mask, the `deltas` buffer and the previous value. -/
def deltaDimLoop (src : Mem) (p ndims dim : Nat) (m : Mem) : Nat × Mem × Nat :=
  forLoop block_sz
    (fun i (r : Nat × Mem × Nat) =>
      (r.1 ||| zigzag_encode_i8 ((load8 src (p + (i * ndims + dim)) + 256 - r.2.2) % 256),
        store8 r.2.1 (i * ndims + dim)
          (zigzag_encode_i8 ((load8 src (p + (i * ndims + dim)) + 256 - r.2.2) % 256)),
        load8 src (p + (i * ndims + dim))))
    (0, m, load8 m (block_sz * ndims + dim))

/-- The `deltas` buffer after the pass of the `dim` loop for one dimension. -/
def deltaDimMem (src : Mem) (p ndims dim : Nat) (m : Mem) : Mem :=
  store8 (deltaDimLoop src p ndims dim m).2.1 (block_sz * ndims + dim)
    (deltaDimLoop src p ndims dim m).2.2

/-- The OR-mask of the zig-zag deltas of dimension `dim` of the block at
`src + p`, as the `dim` loop of the delta encoders computes it. -/
def deltaMaskOf (src : Mem) (p ndims : Nat) (deltas : Mem) (dim : Nat) : Nat :=
  (deltaDimLoop src p ndims dim (forLoop dim (deltaDimMem src p ndims) deltas)).1

/-! ## Undoing the delta coding of a block -/

/-- The first `k` passes of the row loop of "undo delta coding" for the
vector `v`, as the triple of the destination, `prev_vals` and `vals`. -/
def deltaDecodeRows (ndims padded_ndims out v : Nat) (dl : Mem) (k : Nat) (m : Mem) :
    Mem × Vec × Vec :=
  forLoop k
    (fun i (r : Mem × Vec × Vec) =>
      (mm256_storeu_si256 r.1 (out + (i * ndims + v * vector_sz))
          (mm256_add_epi8 r.2.1 (mm256_zigzag_decode_epi8
            (mm256_loadu_si256 dl (i * padded_ndims + v * vector_sz)))),
        mm256_add_epi8 r.2.1 (mm256_zigzag_decode_epi8
          (mm256_loadu_si256 dl (i * padded_ndims + v * vector_sz))),
        mm256_add_epi8 r.2.1 (mm256_zigzag_decode_epi8
          (mm256_loadu_si256 dl (i * padded_ndims + v * vector_sz)))))
    (m, mm256_loadu_si256 dl (block_sz * padded_ndims + v * vector_sz), mm256_setzero_si256)

/-- One pass of the vector loop of "undo delta coding". -/
def deltaDecodeVec (ndims padded_ndims out v : Nat) (s : Mem × Mem) : Mem × Mem :=
  ((deltaDecodeRows ndims padded_ndims out v s.2 block_sz s.1).1,
    mm256_storeu_si256 s.2 (block_sz * padded_ndims + v * vector_sz)
      (deltaDecodeRows ndims padded_ndims out v s.2 block_sz s.1).2.2)

/-- State of `decompress8b_rowmajor_delta` after `g` passes of its group loop. -/
def deltaDecLoop (src dest : Mem) (ndims g : Nat) : DeltaDecState :=
  forLoop g
    (fun _ s => deltaDecGroup (decDims ndims) (round_up_to_multiple ndims vector_sz)
      (round_up_to_multiple ndims vector_sz / vector_sz
        + (if round_up_to_multiple ndims vector_sz % vector_sz > 0 then 1 else 0)) src s)
    ⟨⟨8, 0, dest, DecTemps.zero⟩, Mem.zero⟩

/-! ## What the run-length decoder needs to find in the stream -/

/-- The row before the input position `p`: the previous values of the delta
coding at `p` (zeros at the start of the input). -/
def prevRow (x : Mem) (D p d : Nat) : Nat := if p = 0 then 0 else load8 x (p - D + d)

/-- State of `decompress8b_rowmajor_delta_rle` after `g` passes of its group
loop. -/
def rleDecLoop (src dest : Mem) (ndims g : Nat) : DeltaDecState :=
  forLoop g
    (fun g s => rleDecGroup (decDims ndims) (round_up_to_multiple ndims vector_sz)
      (round_up_to_multiple ndims vector_sz / vector_sz
        + (if round_up_to_multiple ndims vector_sz % vector_sz > 0 then 1 else 0)) src g s)
    ⟨⟨8, 0, dest, DecTemps.zero⟩, Mem.zero⟩

/-- The decoder stands at byte `o` of the stream, has rebuilt the first `p`
bytes of the input `x`, and holds the row before `p` as previous values. -/
def DecAt (x : Mem) (D : Nat) (ds : DeltaDecState) (o p : Nat) : Prop :=
  ds.dec.src = o ∧ ds.dec.dest = p ∧ (∀ k, k < p → load8 ds.dec.mem k = load8 x k) ∧
  ∀ d, d < D → load8 ds.deltas (8 * round_up_to_multiple D 32 + d) = prevRow x D p d

/-- Number of bytes that the slot of a block takes in the stream: a length
field for a run (total width zero), the eight packed rows otherwise. -/
def slotBytes (T : Nat → Nat) (D : Nat) (dm : Nat → Nat) (n : Nat) : Nat :=
  if sumTo (nstripesOf D) (statsOf T dm D).stripe_bitwidths.get = 0 then
    (if n ≤ 0x7f then 1 else 2)
  else 8 * rowBytesOf (statsOf T dm D) (nstripesOf D)

/-- The stream `cm` holds at byte `o` the slot of a block with the OR-masks
`dm` that stands for the input from position `p` on: a run of `n` blocks equal
to the row before `p` when the total width is zero, and otherwise (`n = 1`) the
packed zig-zag deltas of the block at `p`. -/
def SlotInStream (cm : Mem) (T : Nat → Nat) (x : Mem) (D : Nat) (dm : Nat → Nat)
    (n p o : Nat) : Prop :=
  (∀ d, d < D → maskOf T dm d ∈ okMasks) ∧
  (sumTo (nstripesOf D) (statsOf T dm D).stripe_bitwidths.get = 0 →
    n ≤ 0x7fff ∧ readRunLength cm o = (n, if n ≤ 0x7f then 1 else 2) ∧
    ∀ k, k < 8 * D * n → load8 x (p + k) = prevRow x D p (k % D)) ∧
  (sumTo (nstripesOf D) (statsOf T dm D).stripe_bitwidths.get ≠ 0 →
    n = 1 ∧ ∃ inbuf : Mem,
      (∀ i d, i < 8 → d < D →
        load8 inbuf (0 + i * D + d) = deltaBits x p D (prevRow x D p) i d) ∧
      (∀ i d, i < 8 → d < D →
        load8 inbuf (0 + i * D + d) &&& maskOf T dm d = load8 inbuf (0 + i * D + d)) ∧
      (∀ i t, i < 8 → t < 8 * rowBytesOf (statsOf T dm D) (nstripesOf D) →
        abit cm (8 * (o + i * rowBytesOf (statsOf T dm D) (nstripesOf D)) + t) =
          rowBit (packedStripe (statsOf T dm D).stripe_masks.get inbuf 0 D i)
            (statsOf T dm D).stripe_bitwidths.get (nstripesOf D) t))

/-- The per-dimension scalar prefix sum that undoes the delta coding of a
block: the value of dimension `d` in row `i`, from the zig-zag bytes in rows
`0..7` of the buffer `dl` (rows `P` bytes apart) and the previous values in
its row `8`. -/
def undoDelta (dl : Mem) (P d : Nat) : Nat → Nat
  | 0 => (load8 dl (8 * P + d) + zigzag_decode_i8 (load8 dl (0 * P + d))) % 256
  | i + 1 => (undoDelta dl P d i + zigzag_decode_i8 (load8 dl ((i + 1) * P + d))) % 256

/-- The `deltas` buffer of the delta decoders after block `b` of the current
group was unpacked into it (the first half of the body of the block loop). -/
def decUnpacked (dd : DecDims) (padded_ndims : Nat) (src : Mem) (b : Nat) (s : DeltaDecState) :
    Mem :=
  unpackBlock (fun k => loadLE 8 s.dec.tm.data_masks (8 * (b * dd.nstripes + k)))
    (fun k => loadLE 8 s.dec.tm.stripe_bitwidths (8 * (b * dd.nstripes + k)))
    (stripeBitoffsets (fun k => loadLE 8 s.dec.tm.stripe_bitwidths (8 * (b * dd.nstripes + k)))
      dd.nstripes)
    dd.nstripes src s.dec.src (rowNbytes (decRowNbits dd b s.dec.tm)) 0 padded_ndims s.deltas

/-! ## States reached by the loops of `compress8b_rowmajor_delta_rle` -/

/-- Where in the nest of loops a state is observed: at the test of the group
loop, at the test of the block loop, or at the label `main_loop_end`. -/
inductive RlePoint where
  | groupHead
  | blockHead
  | loopEnd

/-- The first statements of the body of the group loop: a new group header is
reserved and zeroed. -/
def rleGroupStart (c : RleCtx) (s : RleEncState) : RleEncState :=
  { s with ngroups := (s.ngroups + 1) % 2 ^ 32, header_dest := s.dest,
           dest := s.dest + c.total_header_bytes,
           mem := memset0 s.mem s.dest c.total_header_bytes,
           header_bit_offset := 0, b := 0 }

/-- One pass of the body of the block loop: the block at `src` is read and
handled. -/
def rleBlockStep (c : RleCtx) (s : RleEncState) : Option (RleEncState × Bool) :=
  rle_just_read_block c (rle_read_block c s).1 2 (rle_read_block c s).2

/-- Number of group headers that a pass of the body of the block loop
reserves: one when the block in hand ends a run that filled the last slot of
its group ("start new group"), none otherwise. -/
def rleNewGroup (c : RleCtx) (s : RleEncState) : Nat :=
  if ¬ ((rle_read_block c s).1.row_width_bits = 0 ∧ s.run_length_nblocks < max_run_nblocks) ∧
      s.run_length_nblocks > 0 ∧ s.b + 1 = group_sz_blocks then 1 else 0

/-- The states that the loops of `compress8b_rowmajor_delta_rle` pass through
when they are entered in state `s0`, each with the point at which it is
observed and the number of group headers reserved on the way. -/
inductive RleReach (c : RleCtx) (s0 : RleEncState) : RlePoint → Nat → RleEncState → Prop where
  | init : RleReach c s0 RlePoint.groupHead 0 s0
  | enter (n : Nat) (s : RleEncState) : RleReach c s0 RlePoint.groupHead n s →
      (s.src : Int) ≤ c.last_full_group_start →
      RleReach c s0 RlePoint.blockHead (n + 1) (rleGroupStart c s)
  | stop (n : Nat) (s : RleEncState) : RleReach c s0 RlePoint.groupHead n s →
      ¬ (s.src : Int) ≤ c.last_full_group_start → RleReach c s0 RlePoint.loopEnd n s
  | step (n : Nat) (s s1 : RleEncState) : RleReach c s0 RlePoint.blockHead n s →
      s.b < group_sz_blocks → rleBlockStep c s = some (s1, false) →
      RleReach c s0 RlePoint.blockHead (n + rleNewGroup c s) s1
  | jump (n : Nat) (s s1 : RleEncState) : RleReach c s0 RlePoint.blockHead n s →
      s.b < group_sz_blocks → rleBlockStep c s = some (s1, true) →
      RleReach c s0 RlePoint.loopEnd (n + rleNewGroup c s) s1
  | leave (n : Nat) (s : RleEncState) : RleReach c s0 RlePoint.blockHead n s →
      ¬ s.b < group_sz_blocks → RleReach c s0 RlePoint.groupHead n s

/-- How the loops go on from a state that was reached, when they return `r`. -/
def RleCont (c : RleCtx) (fuel : Nat) (r : RleEncState) : RlePoint → RleEncState → Prop
  | RlePoint.groupHead, s => ∃ n, rle_group_loop c fuel n s = some r
  | RlePoint.blockHead, s => ∃ f n,
      (match rle_block_loop c f s with
        | none => none
        | some (s2, true) => some s2
        | some (s2, false) => rle_group_loop c fuel n s2) = some r
  | RlePoint.loopEnd, s => s = r


/-- The size invariants by point of observation, for `G` group headers. -/
def RleSize (D L d0 : Nat) : RlePoint → RleEncState → Nat → Prop
  | RlePoint.groupHead, s, G => RleGInv D L d0 s G
  | RlePoint.blockHead, s, G => RleBInv D L d0 s G
  | RlePoint.loopEnd, s, G => RleFinal D L d0 s G

/-- The statements under "just finished a run": the length of the run is
written and the block slot of the run is closed. -/
def rleCloseRun (c : RleCtx) (s : RleEncState) : RleEncState :=
  { s with b := s.b + 1, mem := (writeRunLength s.mem s.dest s.run_length_nblocks).1,
           dest := (writeRunLength s.mem s.dest s.run_length_nblocks).2,
           run_length_nblocks := 0,
           header_bit_offset := s.header_bit_offset + c.ndims * nbits_sz_bits }

/-- What happens at `just_read_block` before the block in hand is added to a
run or packed: a run that the block ends is closed, and a new group is started
if the run filled the last slot of its group. -/
def rlePrepare (c : RleCtx) (blk : RleBlock) (s : RleEncState) : RleEncState :=
  if ¬ (blk.row_width_bits = 0 ∧ s.run_length_nblocks < max_run_nblocks) ∧
      s.run_length_nblocks > 0 then
    if s.b + 1 = group_sz_blocks then rleGroupStart c (rleCloseRun c s) else rleCloseRun c s
  else s

/-- Where the header of the current group stands, by point of observation.  At
the head of the block loop the header lies between the first write position
`d0` and `dest`, `header_bit_offset` is at the field of block `b`, and the
header bits from there on are still zero. -/
def RleHdr (D d0 : Nat) : RlePoint → RleEncState → Prop
  | RlePoint.blockHead, s =>
      d0 ≤ s.header_dest ∧ s.header_dest + headerBytesOf D ≤ s.dest ∧ s.b ≤ 2 ∧
      s.header_bit_offset = 3 * D * s.b ∧
      ∀ q, 3 * D * s.b ≤ q → q < 8 * headerBytesOf D →
        abit s.mem (8 * s.header_dest + q) = false
  | RlePoint.groupHead, s => d0 ≤ s.dest
  | RlePoint.loopEnd, s => d0 ≤ s.dest

/-! ## What the run-length encoder has put into the stream -/

/-- The stream `cm` has the bytes of `m` from `a` up to `b`. -/
def StreamAgree (cm m : Mem) (a b : Nat) : Prop :=
  ∀ k, a ≤ k → k < b → load8 cm k = load8 m k

/-- The 3-bit header fields of a block with the OR-masks `dm` stand in the
stream `cm` from bit `q` on. -/
def HdrFields (cm : Mem) (T : Nat → Nat) (D : Nat) (dm : Nat → Nat) (q : Nat) : Prop :=
  ∀ d j, d < D → j < 3 → abit cm (q + 3 * d + j) = (writeNbits (maskOf T dm d)).testBit j

/-- The decoder, having rebuilt `p` bytes, has left the destination `dest2` as
it was from the end of the last 32-lane vector of the last row on. -/
def DecAbove (D : Nat) (ds : DeltaDecState) (dest2 : Mem) (p : Nat) : Prop :=
  ∀ k, p + round_up_to_multiple D 32 ≤ k + D → load8 ds.dec.mem k = load8 dest2 k

/-- At the head of the group loop, after `n` groups: whatever stream has the
bytes written so far, the decoder stands after `n` passes of its group loop
at the write position of the encoder and has rebuilt the input up to the read
position of the encoder. -/
def RleGC (x : Mem) (D n : Nat) (s : RleEncState) : Prop :=
  8 ≤ s.dest ∧ (0 < n ↔ 0 < s.src) ∧ (0 < s.src → D ≤ s.src) ∧
  ∀ cm dest2, StreamAgree cm s.mem 8 s.dest →
    HeadersPadded D (rleDecLoop cm dest2 D n).dec.tm.headers ∧
    DecAt x D (rleDecLoop cm dest2 D n) s.dest s.src ∧
    DecAbove D (rleDecLoop cm dest2 D n) dest2 s.src

/-- At the head of the block loop, in group `n`: the group began at the input
position `p0`, which the decoder reaches after `n - 1` passes; the input from
`q` up to `src` is a run in progress; and the slots of the blocks `0 .. b - 1`
stand in the stream, with their header fields. -/
def RleBC (T : Nat → Nat) (x : Mem) (D n : Nat) (s : RleEncState) : Prop :=
  ∃ (p0 q n0 n1 : Nat) (dm0 dm1 : Nat → Nat),
    8 ≤ s.header_dest ∧ 1 ≤ n ∧ (1 < n ↔ 0 < p0) ∧ (0 < p0 → D ≤ p0) ∧
    s.src = q + 8 * D * s.run_length_nblocks ∧
    (s.b = 0 → q = p0 ∧ s.dest = s.header_dest + headerBytesOf D) ∧
    (s.b = 1 → 1 ≤ n0 ∧ q = p0 + 8 * D * n0 ∧
      s.dest = s.header_dest + headerBytesOf D + slotBytes T D dm0 n0) ∧
    (s.b = 2 → 1 ≤ n0 ∧ q = p0 + 8 * D * n0 + 8 * D * n1 ∧ s.run_length_nblocks = 0 ∧
      s.dest = s.header_dest + headerBytesOf D + slotBytes T D dm0 n0 + slotBytes T D dm1 n1) ∧
    (∀ k, k < 8 * D * s.run_length_nblocks → load8 x (q + k) = prevRow x D q (k % D)) ∧
    (0 < s.run_length_nblocks → T 0 % 256 = 0) ∧
    (∀ cm dest2, StreamAgree cm s.mem 8 s.header_dest →
      HeadersPadded D (rleDecLoop cm dest2 D (n - 1)).dec.tm.headers ∧
      DecAt x D (rleDecLoop cm dest2 D (n - 1)) s.header_dest p0 ∧
      DecAbove D (rleDecLoop cm dest2 D (n - 1)) dest2 p0) ∧
    (∀ cm, (∀ t, t < 3 * D * s.b →
          abit cm (8 * s.header_dest + t) = abit s.mem (8 * s.header_dest + t)) →
        StreamAgree cm s.mem (s.header_dest + headerBytesOf D) s.dest →
      (1 ≤ s.b → SlotInStream cm T x D dm0 n0 p0 (s.header_dest + headerBytesOf D) ∧
        HdrFields cm T D dm0 (8 * s.header_dest)) ∧
      (2 ≤ s.b → SlotInStream cm T x D dm1 n1 (p0 + 8 * D * n0)
          (s.header_dest + headerBytesOf D + slotBytes T D dm0 n0) ∧
        HdrFields cm T D dm1 (8 * s.header_dest + 3 * D)))

/-- The content invariant by point of observation. -/
def RleContent (T : Nat → Nat) (x : Mem) (D : Nat) : RlePoint → Nat → RleEncState → Prop
  | RlePoint.groupHead, n, s => RleGC x D n s
  | RlePoint.blockHead, n, s => RleBC T x D n s
  | RlePoint.loopEnd, n, s => RleGC x D n s

/-! ## The run lengths that the run-length encoder writes -/

/-- The lengths that a pass of the body of the block loop hands to "write out
length of the current constant section", in the order of the writes: the
length of a run that the block in hand ends, and the length of the run that
is closed when the loops are left from the branch `do_rle`. -/
def rleRunsOfPass (c : RleCtx) (s : RleEncState) : List Nat :=
  (if ¬ ((rle_read_block c s).1.row_width_bits = 0 ∧ s.run_length_nblocks < max_run_nblocks) ∧
      s.run_length_nblocks > 0 then [s.run_length_nblocks] else []) ++
  (if (rle_read_block c s).1.row_width_bits = 0 ∧
      (rlePrepare c (rle_read_block c s).1 (rle_read_block c s).2).run_length_nblocks
        < max_run_nblocks ∧
      ¬ (((rlePrepare c (rle_read_block c s).1 (rle_read_block c s).2).src
          + block_sz * c.ndims : Nat) : Int) < c.last_full_group_start then
    [((rlePrepare c (rle_read_block c s).1 (rle_read_block c s).2).run_length_nblocks + 1)
      % 2 ^ 16]
  else [])

/-- The loop `while (b < group_sz_blocks)` with the list of the run lengths
written so far as an extra component. -/
def rle_block_loop_log (c : RleCtx) :
    Nat → RleEncState → List Nat → Option (RleEncState × Bool × List Nat)
  | 0, _, _ => none
  | fuel + 1, s, lg =>
    if s.b < group_sz_blocks then
      match rleBlockStep c s with
      | none => none
      | some (s1, true) => some (s1, true, lg ++ rleRunsOfPass c s)
      | some (s1, false) => rle_block_loop_log c fuel s1 (lg ++ rleRunsOfPass c s)
    else some (s, false, lg)

/-- The loop `while (src <= last_full_group_start)` with the list of the run
lengths written so far as an extra component. -/
def rle_group_loop_log (c : RleCtx) (fuel : Nat) :
    Nat → RleEncState → List Nat → Option (RleEncState × List Nat)
  | 0, _, _ => none
  | n + 1, s, lg =>
    if (s.src : Int) ≤ c.last_full_group_start then
      match rle_block_loop_log c fuel (rleGroupStart c s) lg with
      | none => none
      | some (s2, true, lg2) => some (s2, lg2)
      | some (s2, false, lg2) => rle_group_loop_log c fuel n s2 lg2
    else some (s, lg)

/-- The run lengths that `compress8b_rowmajor_delta_rle` writes, in the order
of the writes (`none` if the loop bound of the model was too small). -/
def rleRunLog (NBITS_MASKS_U8 : Nat → Nat) (src : Mem) (len : Nat) (dest : Mem) (ndims : Nat)
    (write_size : Bool) : Option (List Nat) :=
  if len < min_data_size then some []
  else (rle_group_loop_log (rleCtxOf NBITS_MASKS_U8 src len ndims) (len + 1) (len + 1)
    (rleInit dest write_size) []).map Prod.snd

/-- The states that the loops of `compress8b_rowmajor_delta_rle` pass through,
as `RleReach`, with the list of the run lengths written on the way. -/
inductive RleTrace (c : RleCtx) (s0 : RleEncState) :
    RlePoint → Nat → List Nat → RleEncState → Prop where
  | init : RleTrace c s0 RlePoint.groupHead 0 [] s0
  | enter (n : Nat) (lg : List Nat) (s : RleEncState) : RleTrace c s0 RlePoint.groupHead n lg s →
      (s.src : Int) ≤ c.last_full_group_start →
      RleTrace c s0 RlePoint.blockHead (n + 1) lg (rleGroupStart c s)
  | stop (n : Nat) (lg : List Nat) (s : RleEncState) : RleTrace c s0 RlePoint.groupHead n lg s →
      ¬ (s.src : Int) ≤ c.last_full_group_start → RleTrace c s0 RlePoint.loopEnd n lg s
  | step (n : Nat) (lg : List Nat) (s s1 : RleEncState) :
      RleTrace c s0 RlePoint.blockHead n lg s →
      s.b < group_sz_blocks → rleBlockStep c s = some (s1, false) →
      RleTrace c s0 RlePoint.blockHead (n + rleNewGroup c s) (lg ++ rleRunsOfPass c s) s1
  | jump (n : Nat) (lg : List Nat) (s s1 : RleEncState) :
      RleTrace c s0 RlePoint.blockHead n lg s →
      s.b < group_sz_blocks → rleBlockStep c s = some (s1, true) →
      RleTrace c s0 RlePoint.loopEnd (n + rleNewGroup c s) (lg ++ rleRunsOfPass c s) s1
  | leave (n : Nat) (lg : List Nat) (s : RleEncState) : RleTrace c s0 RlePoint.blockHead n lg s →
      ¬ s.b < group_sz_blocks → RleTrace c s0 RlePoint.groupHead n lg s

/-- A table that gives the width zero to the mask zero, and to no other
mask. -/
def TableZero (T : Nat → Nat) : Prop :=
  ∀ m, m < 256 → (maxNbits (T m % 256) = 0 ↔ m = 0)

/-- Where the run-length encoder stands on an input whose `L` bytes are all
`c`, by point of observation: one group header, no run length written before
the loops are left, the first block packed unless `c = 0`, and every later
block in the run. -/
def ConstInv (D L c : Nat) : RlePoint → Nat → List Nat → RleEncState → Prop
  | RlePoint.groupHead, n, lg, s =>
    n = 0 ∧ lg = [] ∧ s.src = 0 ∧ s.run_length_nblocks = 0 ∧ s.dest = 8
  | RlePoint.blockHead, n, lg, s =>
    n = 1 ∧ lg = [] ∧ s.b < 2 ∧ s.src = 8 * D * (s.b + s.run_length_nblocks) ∧
      s.src + 8 * D ≤ L ∧ s.dest ≤ 8 + headerBytesOf D + 8 * D * s.b ∧
      (c = 0 → s.b = 0) ∧ (c ≠ 0 → s.b = 0 → s.run_length_nblocks = 0)
  | RlePoint.loopEnd, n, lg, s =>
    n = 1 ∧ (∃ m, lg = [m] ∧ 1 ≤ m) ∧ s.dest ≤ 8 + headerBytesOf D + 8 * D + 3 ∧
      s.src ≤ L ∧ L ≤ s.src + 16 * D

/-- Where the run-length encoder stands on an input of 400 records of three
bytes whose records 100..299 are zero and whose other blocks do not repeat,
by point of observation: before the run (blocks 0..12 are packed two to a
group), in the run (blocks 13..36, begun in the second slot of group 7), and
after the run (block 37 closes it and opens group 8). -/
def StretchInv : RlePoint → Nat → List Nat → RleEncState → Prop
  | RlePoint.groupHead, n, lg, s =>
    s.run_length_nblocks = 0 ∧
      ((lg = [] ∧ s.src = 48 * n ∧ n ≤ 6) ∨
       (lg = [24] ∧ 8 ≤ n ∧ n ≤ 13 ∧ s.src = 24 * (39 + 2 * (n - 8))))
  | RlePoint.blockHead, n, lg, s =>
    s.b ≤ 2 ∧
      ((lg = [] ∧ s.run_length_nblocks = 0 ∧ 1 ≤ n ∧ s.src = 24 * (2 * (n - 1) + s.b) ∧
          2 * (n - 1) + s.b ≤ 13) ∨
       (lg = [] ∧ n = 7 ∧ s.b = 1 ∧ 1 ≤ s.run_length_nblocks ∧ s.run_length_nblocks ≤ 24 ∧
          s.src = 24 * (13 + s.run_length_nblocks)) ∨
       (lg = [24] ∧ s.run_length_nblocks = 0 ∧ 8 ≤ n ∧ n ≤ 13 ∧
          s.src = 24 * (37 + 2 * (n - 8) + s.b)))
  | RlePoint.loopEnd, n, lg, _ => lg = [24] ∧ n = 13

/-- A block of 16 dimensions in which dimension 7 holds the value 1 and every
other dimension `0xFF`: with masks that cover these values the first stripe is
57 bits wide, so the second stripe, 64 bits wide, starts at bit offset 1 and
takes the nine-byte path of the packer. -/
def wideBlock : Mem := ⟨fun k => if k % 16 = 7 then 1 else 0xFF⟩

/-- The OR-masks of the dimensions of `wideBlock`. -/
def wideBlockMasks (d : Nat) : Nat := if d = 7 then 1 else 0xFF

/-- Size in bytes of the `deltas` buffer of the delta encoders,
`calloc(1, (block_sz + 1) * ndims)`. -/
def deltas_nbytes (ndims : Nat) : Nat := (block_sz + 1) * ndims

/-- Offset in the `deltas` buffer of the 8-byte load `*(uint64_t*)inptr` for
row `i` of stripe `stripe`: `inptr = deltas + stripe * stripe_sz`, advanced by
`ndims` after each row. -/
def deltas_load_offset (ndims stripe i : Nat) : Nat := 0 + stripe * stripe_sz + i * ndims

/-! ## What the run-length encoder writes, slot by slot -/

/-- What the run-length encoder puts into its output: a group header that it
reserves, and the three kinds of block slot: the packed body of the block at
input position `p`, in eight rows of `rb` bytes; the length field of a run of
`len` blocks; and the zero byte that fills a slot left unused when the loops
are left. -/
inductive RleEvent where
  | header : RleEvent
  | packed (p rb : Nat) : RleEvent
  | run (len : Nat) : RleEvent
  | filler : RleEvent

/-- Number of input blocks that a slot stands for. -/
def RleEvent.blocks : RleEvent → Nat
  | RleEvent.header => 0
  | RleEvent.packed _ _ => 1
  | RleEvent.run len => len
  | RleEvent.filler => 0

/-- Number of input blocks that a list of events stands for. -/
def blocksOf (ev : List RleEvent) : Nat := (ev.map RleEvent.blocks).sum

/-- The slots of the groups, last group first: a header opens a group with no
slot, every other event is one more slot of the group that is open. -/
def slotStep (acc : List Nat) : RleEvent → List Nat
  | RleEvent.header => 0 :: acc
  | _ => match acc with
    | [] => []
    | k :: t => (k + 1) :: t

/-- Number of slots of each group in a list of events, last group first. -/
def groupSlots (ev : List RleEvent) : List Nat := ev.foldl slotStep []

/-- What a pass of the body of the block loop writes, in the order of the
writes.  At `just_read_block`: the length of a run that the block in hand
ends, and a group header if the run filled the last slot of its group.  Then
either the block joins the run (`do_rle`), which writes nothing unless the
loops are left, when the length of the run is written and the slots left in
the group are filled with zero bytes; or the block is packed. -/
def rleEventsOfPass (c : RleCtx) (s : RleEncState) : List RleEvent :=
  (if ¬ ((rle_read_block c s).1.row_width_bits = 0 ∧ s.run_length_nblocks < max_run_nblocks) ∧
      s.run_length_nblocks > 0 then
    RleEvent.run s.run_length_nblocks ::
      (if s.b + 1 = group_sz_blocks then [RleEvent.header] else [])
  else []) ++
  (if (rle_read_block c s).1.row_width_bits = 0 ∧
      (rlePrepare c (rle_read_block c s).1 (rle_read_block c s).2).run_length_nblocks
        < max_run_nblocks then
    (if (((rlePrepare c (rle_read_block c s).1 (rle_read_block c s).2).src
          + block_sz * c.ndims : Nat) : Int) < c.last_full_group_start then []
    else
      RleEvent.run
          (((rlePrepare c (rle_read_block c s).1 (rle_read_block c s).2).run_length_nblocks + 1)
            % 2 ^ 16) ::
        List.replicate
          (group_sz_blocks - ((rlePrepare c (rle_read_block c s).1 (rle_read_block c s).2).b + 1))
          RleEvent.filler)
  else [RleEvent.packed s.src (rle_read_block c s).1.out_row_nbytes])

/-- The states that the loops of `compress8b_rowmajor_delta_rle` pass through,
as `RleReach`, with the list of what has been written on the way. -/
inductive RleEvents (c : RleCtx) (s0 : RleEncState) :
    RlePoint → List RleEvent → RleEncState → Prop where
  | init : RleEvents c s0 RlePoint.groupHead [] s0
  | enter (ev : List RleEvent) (s : RleEncState) : RleEvents c s0 RlePoint.groupHead ev s →
      (s.src : Int) ≤ c.last_full_group_start →
      RleEvents c s0 RlePoint.blockHead (ev ++ [RleEvent.header]) (rleGroupStart c s)
  | stop (ev : List RleEvent) (s : RleEncState) : RleEvents c s0 RlePoint.groupHead ev s →
      ¬ (s.src : Int) ≤ c.last_full_group_start → RleEvents c s0 RlePoint.loopEnd ev s
  | step (ev : List RleEvent) (s s1 : RleEncState) :
      RleEvents c s0 RlePoint.blockHead ev s →
      s.b < group_sz_blocks → rleBlockStep c s = some (s1, false) →
      RleEvents c s0 RlePoint.blockHead (ev ++ rleEventsOfPass c s) s1
  | jump (ev : List RleEvent) (s s1 : RleEncState) :
      RleEvents c s0 RlePoint.blockHead ev s →
      s.b < group_sz_blocks → rleBlockStep c s = some (s1, true) →
      RleEvents c s0 RlePoint.loopEnd (ev ++ rleEventsOfPass c s) s1
  | leave (ev : List RleEvent) (s : RleEncState) : RleEvents c s0 RlePoint.blockHead ev s →
      ¬ s.b < group_sz_blocks → RleEvents c s0 RlePoint.groupHead ev s

/-- What the events and the state of the encoder have to do with each other,
by point of observation: the blocks of the events and of the run in progress
are the input consumed; the counter and every length written are at most
`0x7fff`, and no length written is zero; a packed body has rows of at least
one byte and lies before the read position; every group but the one that
is open has two slots, the open one has `b`; and `ngroups` counts the
groups. -/
def RleLog (D : Nat) : RlePoint → List RleEvent → RleEncState → Prop
  | RlePoint.blockHead, ev, s =>
    8 * D * (blocksOf ev + s.run_length_nblocks) = s.src ∧
    s.run_length_nblocks ≤ 0x7fff ∧
    (∀ m, RleEvent.run m ∈ ev → 1 ≤ m ∧ m ≤ 0x7fff) ∧
    (∀ p rb, RleEvent.packed p rb ∈ ev → 1 ≤ rb ∧ p + 8 * D ≤ s.src) ∧
    s.b ≤ 2 ∧ (s.b = 2 → s.run_length_nblocks = 0) ∧
    ∃ k, groupSlots ev = s.b :: List.replicate k 2 ∧ s.ngroups = (k + 1) % 2 ^ 32
  | _, ev, s =>
    8 * D * blocksOf ev = s.src ∧
    s.run_length_nblocks = 0 ∧
    (∀ m, RleEvent.run m ∈ ev → 1 ≤ m ∧ m ≤ 0x7fff) ∧
    (∀ p rb, RleEvent.packed p rb ∈ ev → 1 ≤ rb ∧ p + 8 * D ≤ s.src) ∧
    ∃ k, groupSlots ev = List.replicate k 2 ∧ s.ngroups = k % 2 ^ 32

/-! # Theorems -/

/-! ## Memory lemmas -/

@[simp] theorem store8_get (m : Mem) (a v k : Nat) :
    (store8 m a v).get k = if k = a then v % 256 else m.get k := rfl

@[simp] theorem storeLE_get (n : Nat) (m : Mem) (a v k : Nat) :
    (storeLE n m a v).get k =
      if a ≤ k ∧ k < a + n then (v >>> (8 * (k - a))) % 256 else m.get k := rfl

@[simp] theorem memset0_get (m : Mem) (a n k : Nat) :
    (memset0 m a n).get k = if a ≤ k ∧ k < a + n then 0 else m.get k := rfl

@[simp] theorem memcpy_get (dst : Mem) (d : Nat) (src : Mem) (s n k : Nat) :
    (memcpy dst d src s n).get k =
      if d ≤ k ∧ k < d + n then load8 src (s + (k - d)) else dst.get k := rfl

@[simp] theorem setAt_get (a : Arr) (k v j : Nat) :
    (setAt a k v).get j = if j = k then v else a.get j := rfl

@[simp] theorem Mem_zero_get (k : Nat) : Mem.zero.get k = 0 := rfl

@[simp] theorem Arr_zero_get (k : Nat) : Arr.zero.get k = 0 := rfl

theorem load8_lt (m : Mem) (a : Nat) : load8 m a < 256 := Nat.mod_lt _ (by norm_num)

@[simp] theorem load8_mod (m : Mem) (a : Nat) : load8 m a % 256 = load8 m a :=
  Nat.mod_eq_of_lt (load8_lt m a)

theorem loadLE_lt (n : Nat) (m : Mem) (a : Nat) : loadLE n m a < 2 ^ (8 * n) := by
  induction n generalizing a with
  | zero => simp [loadLE]
  | succ n ih =>
    have h1 := load8_lt m a
    have h2 := ih (a + 1)
    have h3 : 2 ^ (8 * (n + 1)) = 256 * 2 ^ (8 * n) := by
      rw [show 8 * (n + 1) = 8 + 8 * n by ring, pow_add]; norm_num
    simp only [loadLE, h3]
    nlinarith

theorem loadLE_congr (n : Nat) (m m2 : Mem) (a b : Nat)
    (h : ∀ i, i < n → load8 m (a + i) = load8 m2 (b + i)) : loadLE n m a = loadLE n m2 b := by
  induction n generalizing a b with
  | zero => rfl
  | succ n ih =>
    have h0 := h 0 (Nat.succ_pos n)
    simp only [Nat.add_zero] at h0
    have h1 : loadLE n m (a + 1) = loadLE n m2 (b + 1) := by
      apply ih
      intro i hi
      have := h (i + 1) (by omega)
      rwa [show a + (i + 1) = a + 1 + i by ring, show b + (i + 1) = b + 1 + i by ring] at this
    simp only [loadLE, h0, h1]

/-- Byte `k` of a little-endian load. -/
theorem loadLE_byte (n : Nat) (m : Mem) (a k : Nat) (hk : k < n) :
    (loadLE n m a >>> (8 * k)) % 256 = load8 m (a + k) := by
  induction n generalizing a k with
  | zero => omega
  | succ n ih =>
    simp only [loadLE]
    cases k with
    | zero =>
      simp only [Nat.mul_zero, Nat.shiftRight_zero, Nat.add_zero]
      have := load8_lt m a
      omega
    | succ k =>
      have h := ih (a + 1) k (by omega)
      rw [show a + (k + 1) = a + 1 + k by ring, ← h]
      have hl := load8_lt m a
      rw [show 8 * (k + 1) = 8 + 8 * k by ring, Nat.shiftRight_add]
      congr 2
      rw [Nat.shiftRight_eq_div_pow]
      omega

/-- A little-endian store followed by a load of the same width at the same place. -/
theorem loadLE_storeLE_same (n : Nat) (m : Mem) (a v : Nat) :
    loadLE n (storeLE n m a v) a = v % 2 ^ (8 * n) := by
  suffices h : ∀ (j c : Nat), j + c = n →
      loadLE j (storeLE n m a v) (a + c) = (v >>> (8 * c)) % 2 ^ (8 * j) by
    have := h n 0 (by omega)
    simpa using this
  intro j
  induction j with
  | zero => intro c _; simp [loadLE, Nat.mod_one]
  | succ j ih =>
    intro c hc
    have h1 := ih (c + 1) (by omega)
    simp only [loadLE, load8, storeLE_get]
    rw [show a + c + 1 = a + (c + 1) by ring, h1]
    have hcond : a ≤ a + c ∧ a + c < a + n := by omega
    rw [if_pos hcond, show a + c - a = c by omega]
    rw [show 8 * (c + 1) = 8 * c + 8 by ring, Nat.shiftRight_add]
    generalize v >>> (8 * c) = w
    rw [show 8 * (j + 1) = 8 + 8 * j by ring, pow_add, Nat.shiftRight_eq_div_pow]
    norm_num
    have := Nat.mod_mul_right_div_self w 256 (2 ^ (8 * j))
    have h2 : w % (256 * 2 ^ (8 * j)) % 256 = w % 256 :=
      Nat.mod_mul_right_mod w 256 (2 ^ (8 * j))
    have h3 := Nat.div_add_mod (w % (256 * 2 ^ (8 * j))) 256
    omega

theorem loadLE_add (a b : Nat) (m : Mem) (p : Nat) :
    loadLE (a + b) m p = loadLE a m p + 2 ^ (8 * a) * loadLE b m (p + a) := by
  induction a generalizing p with
  | zero => simp [loadLE]
  | succ a ih =>
    rw [show a + 1 + b = (a + b) + 1 by ring]
    simp only [loadLE, ih (p + 1)]
    rw [show p + 1 + a = p + (a + 1) by ring, show 8 * (a + 1) = 8 + 8 * a by ring, pow_add]
    ring

theorem read_metadata_8b_eq (src : Mem) :
    read_metadata_8b src = (loadLE 6 src 0, loadLE 2 src 6) := by
  have h := loadLE_add 6 2 src 0
  have h6 := loadLE_lt 6 src 0
  simp only [read_metadata_8b, len_nbytes]
  rw [show (8 : Nat) = 6 + 2 from rfl, h]
  rw [show (1 <<< (8 * 6) - 1 : Nat) = 2 ^ 48 - 1 by norm_num [Nat.shiftLeft_eq]]
  rw [Nat.and_pow_two_sub_one_eq_mod]
  rw [Nat.add_mul_mod_self_left, Nat.mod_eq_of_lt h6]

theorem min_data_size_eq : min_data_size = 128 := rfl

/-- The header written by the Mode A encoders and the first write position. -/
theorem compress8b_rowmajor_small (T : Nat → Nat) (src dest : Mem) (len ndims : Nat)
    (write_size : Bool) (hlen : len < 128) :
    compress8b_rowmajor T src len dest ndims write_size =
      Outcome.returned
        (memcpy (if write_size then storeLE 2 (storeLE 8 dest 0 len) 6 ndims else dest)
          (if write_size then 8 else 0) src 0 len)
        (len + (if write_size then 8 else 0)) := by
  have h48 : len < 2 ^ 48 := by omega
  have h32 : len % 2 ^ 32 = len := Nat.mod_eq_of_lt (by omega)
  have hsmall : len < 8 * block_sz * group_sz_blocks := by
    simpa [block_sz, group_sz_blocks, kDefaultGroupSzBlocks] using hlen
  simp only [compress8b_rowmajor, h48, not_true_eq_false, decide_False, Bool.and_false,
    Bool.false_eq_true, if_false, hsmall, if_true, h32, Nat.add_comm]

theorem compress8b_rowmajor_delta_small (T : Nat → Nat) (src dest : Mem) (len ndims : Nat)
    (write_size : Bool) (hlen : len < 128) :
    compress8b_rowmajor_delta T src len dest ndims write_size =
      Outcome.returned
        (memcpy (if write_size then storeLE 2 (storeLE 8 dest 0 len) 6 ndims else dest)
          (if write_size then 8 else 0) src 0 len)
        (len + (if write_size then 8 else 0)) := by
  have h48 : len < 2 ^ 48 := by omega
  have h32 : len % 2 ^ 32 = len := Nat.mod_eq_of_lt (by omega)
  have hsmall : len < 8 * block_sz * group_sz_blocks := by
    simpa [block_sz, group_sz_blocks, kDefaultGroupSzBlocks] using hlen
  simp only [compress8b_rowmajor_delta, h48, not_true_eq_false, decide_False, Bool.and_false,
    Bool.false_eq_true, if_false, hsmall, if_true, h32, Nat.add_comm]

theorem compress8b_rowmajor_delta_rle_small (T : Nat → Nat) (src dest : Mem) (len ndims : Nat)
    (write_size : Bool) (hlen : len < 128) :
    compress8b_rowmajor_delta_rle T src len dest ndims write_size =
      some (Outcome.returned
        (memcpy (if write_size then (write_metadata_rle_8b dest 0 ndims 0 len).1 else dest)
          (if write_size then 8 else 0) src 0 len)
        (len + (if write_size then 8 else 0))) := by
  have hm : len < min_data_size := by rw [min_data_size_eq]; exact hlen
  have hm2 : min_data_size < 2 ^ 16 := by rw [min_data_size_eq]; norm_num
  have h16 : len % 2 ^ 16 = len := Nat.mod_eq_of_lt (by omega)
  simp only [compress8b_rowmajor_delta_rle, hm, if_true, hm2, not_true_eq_false, if_false, h16]
  cases write_size <;> simp [write_metadata_rle_8b, Nat.add_comm]

/-- C4 (small-input passthrough on encode).  For an input shorter than 128
bytes each of the three encoders returns `len + 8` with `write_size` and
`len` without it, and the output bytes that follow the 8-byte header (or start
at offset 0 without `write_size`) are the `len` input bytes. -/
theorem small_input_passthrough_encode (T : Nat → Nat) (src dest : Mem) (len ndims : Nat)
    (write_size : Bool) (hlen : len < 128) :
    (∃ out, compress8b_rowmajor T src len dest ndims write_size
        = Outcome.returned out (len + (if write_size then 8 else 0)) ∧
      ∀ i, i < len → out.get ((if write_size then 8 else 0) + i) = load8 src i) ∧
    (∃ out, compress8b_rowmajor_delta T src len dest ndims write_size
        = Outcome.returned out (len + (if write_size then 8 else 0)) ∧
      ∀ i, i < len → out.get ((if write_size then 8 else 0) + i) = load8 src i) ∧
    (∃ out, compress8b_rowmajor_delta_rle T src len dest ndims write_size
        = some (Outcome.returned out (len + (if write_size then 8 else 0))) ∧
      ∀ i, i < len → out.get ((if write_size then 8 else 0) + i) = load8 src i) := by
  have hcopy : ∀ (m : Mem) (d i : Nat), i < len → (memcpy m d src 0 len).get (d + i) = load8 src i := by
    intro m d i hi
    rw [memcpy_get, if_pos (by omega)]
    congr 1; omega
  rw [compress8b_rowmajor_small T src dest len ndims write_size hlen,
    compress8b_rowmajor_delta_small T src dest len ndims write_size hlen,
    compress8b_rowmajor_delta_rle_small T src dest len ndims write_size hlen]
  exact ⟨⟨_, rfl, fun i hi => hcopy _ _ i hi⟩, ⟨_, rfl, fun i hi => hcopy _ _ i hi⟩,
    ⟨_, rfl, fun i hi => hcopy _ _ i hi⟩⟩

theorem small_input_passthrough_encode_witness :
    (5 : Nat) < 128 ∧
    ((∃ out, compress8b_rowmajor (fun b => b) Mem.zero 5 Mem.zero 3 true
        = Outcome.returned out (5 + (if true then 8 else 0)) ∧
      ∀ i, i < 5 → out.get ((if true then 8 else 0) + i) = load8 Mem.zero i) ∧
    (∃ out, compress8b_rowmajor_delta (fun b => b) Mem.zero 5 Mem.zero 3 true
        = Outcome.returned out (5 + (if true then 8 else 0)) ∧
      ∀ i, i < 5 → out.get ((if true then 8 else 0) + i) = load8 Mem.zero i) ∧
    (∃ out, compress8b_rowmajor_delta_rle (fun b => b) Mem.zero 5 Mem.zero 3 true
        = some (Outcome.returned out (5 + (if true then 8 else 0))) ∧
      ∀ i, i < 5 → out.get ((if true then 8 else 0) + i) = load8 Mem.zero i)) :=
  ⟨by decide, small_input_passthrough_encode (fun b => b) Mem.zero Mem.zero 5 3 true (by decide)⟩

theorem read_metadata_rle_8b_eq (src : Mem) :
    read_metadata_rle_8b src = ((loadLE 2 src 6, loadLE 4 src 0, loadLE 2 src 4), 8) := rfl

theorem small_bound_eq : 8 * block_sz * group_sz_blocks = 128 := rfl

theorem memcpy_prefix (dest src : Mem) (n : Nat) :
    (∀ i, i < n → (memcpy dest 0 src 8 n).get i = load8 src (8 + i)) ∧
      (∀ i, n ≤ i → (memcpy dest 0 src 8 n).get i = dest.get i) := by
  constructor
  · intro i hi
    rw [memcpy_get, if_pos (by omega)]; rfl
  · intro i hi
    rw [memcpy_get, if_neg (by omega)]

/-- C5 (small-input passthrough on decode).  `srcA` is a Mode A stream whose
length field (bytes 0..5) is below 128; `srcB` is a Mode B stream with `G = 0`
(bytes 0..3) and `remaining_len` (bytes 4..5) below 128.  Each of the three
decoders returns that byte count, the destination holds the bytes that follow
the 8-byte header, and every other destination byte is unchanged. -/
theorem small_input_passthrough_decode (srcA srcB dest : Mem)
    (hA : loadLE 6 srcA 0 < 128) (hG : loadLE 4 srcB 0 = 0) (hB : loadLE 2 srcB 4 < 128) :
    (∃ out, decompress8b_rowmajor srcA dest = Outcome.returned out (loadLE 6 srcA 0) ∧
      (∀ i, i < loadLE 6 srcA 0 → out.get i = load8 srcA (8 + i)) ∧
      (∀ i, loadLE 6 srcA 0 ≤ i → out.get i = dest.get i)) ∧
    (∃ out, decompress8b_rowmajor_delta srcA dest = Outcome.returned out (loadLE 6 srcA 0) ∧
      (∀ i, i < loadLE 6 srcA 0 → out.get i = load8 srcA (8 + i)) ∧
      (∀ i, loadLE 6 srcA 0 ≤ i → out.get i = dest.get i)) ∧
    (∃ out, decompress8b_rowmajor_delta_rle srcB dest = Outcome.returned out (loadLE 2 srcB 4) ∧
      (∀ i, i < loadLE 2 srcB 4 → out.get i = load8 srcB (8 + i)) ∧
      (∀ i, loadLE 2 srcB 4 ≤ i → out.get i = dest.get i)) := by
  have h32 : loadLE 6 srcA 0 % 2 ^ 32 = loadLE 6 srcA 0 := Nat.mod_eq_of_lt (by omega)
  have e1 : decompress8b_rowmajor srcA dest
      = Outcome.returned (memcpy dest 0 srcA 8 (loadLE 6 srcA 0)) (loadLE 6 srcA 0) := by
    simp only [decompress8b_rowmajor, read_metadata_8b_eq, small_bound_eq, hA, decide_True,
      if_true, h32]
  have e2 : decompress8b_rowmajor_delta srcA dest
      = Outcome.returned (memcpy dest 0 srcA 8 (loadLE 6 srcA 0)) (loadLE 6 srcA 0) := by
    simp only [decompress8b_rowmajor_delta, read_metadata_8b_eq, small_bound_eq, hA, decide_True,
      if_true, h32]
  have e3 : decompress8b_rowmajor_delta_rle srcB dest
      = Outcome.returned (memcpy dest 0 srcB 8 (loadLE 2 srcB 4)) (loadLE 2 srcB 4) := by
    simp only [decompress8b_rowmajor_delta_rle, decompress8b_rowmajor_delta_rle_impl,
      read_metadata_rle_8b_eq, min_data_size_eq, hG, hB, decide_True, Bool.and_self, if_true]
  rw [e1, e2, e3]
  exact ⟨⟨_, rfl, memcpy_prefix _ _ _⟩, ⟨_, rfl, memcpy_prefix _ _ _⟩, ⟨_, rfl, memcpy_prefix _ _ _⟩⟩

theorem small_input_passthrough_decode_witness :
    (loadLE 6 (Mem.ofList [3, 0, 0, 0, 0, 0, 2, 0, 9, 8, 7]) 0 < 128 ∧
      loadLE 4 (Mem.ofList [0, 0, 0, 0, 3, 0, 2, 0, 9, 8, 7]) 0 = 0 ∧
      loadLE 2 (Mem.ofList [0, 0, 0, 0, 3, 0, 2, 0, 9, 8, 7]) 4 < 128) ∧
    ∃ out, decompress8b_rowmajor (Mem.ofList [3, 0, 0, 0, 0, 0, 2, 0, 9, 8, 7]) Mem.zero
      = Outcome.returned out (loadLE 6 (Mem.ofList [3, 0, 0, 0, 0, 0, 2, 0, 9, 8, 7]) 0) :=
  ⟨⟨by decide, by decide, by decide⟩,
    let ⟨out, h, _⟩ := (small_input_passthrough_decode (Mem.ofList [3, 0, 0, 0, 0, 0, 2, 0, 9, 8, 7])
      (Mem.ofList [0, 0, 0, 0, 3, 0, 2, 0, 9, 8, 7]) Mem.zero (by decide) (by decide) (by decide)).1
    ⟨out, h⟩⟩

/-- C6, as stated, fails: a Mode A stream whose header carries `D = 0` and the
length field 5 is not rejected; the decoder returns 5 and copies the payload. -/
theorem decode_zero_dims_small_length_not_rejected :
    (read_metadata_8b (Mem.ofList [5, 0, 0, 0, 0, 0, 0, 0, 7, 7, 7, 7, 7])).2 = 0 ∧
    (decompress8b_rowmajor (Mem.ofList [5, 0, 0, 0, 0, 0, 0, 0, 7, 7, 7, 7, 7]) Mem.zero).ret
      = some 5 ∧
    (decompress8b_rowmajor (Mem.ofList [5, 0, 0, 0, 0, 0, 0, 0, 7, 7, 7, 7, 7]) Mem.zero).dest.get 0
      = 7 := by
  refine ⟨by decide, by decide, by decide⟩

/-- C6, amended: a stream whose header carries `D = 0` and does not describe a
small payload (Mode A: length field at least 128; Mode B: not both `G = 0` and
`remaining_len < 128`) makes each of the three decoders return 0 with the
destination untouched. -/
theorem decode_zero_dims_rejected (srcA srcB dest : Mem)
    (hDA : loadLE 2 srcA 6 = 0) (hLA : 128 ≤ loadLE 6 srcA 0)
    (hDB : loadLE 2 srcB 6 = 0) (hLB : ¬ (loadLE 4 srcB 0 = 0 ∧ loadLE 2 srcB 4 < 128)) :
    decompress8b_rowmajor srcA dest = Outcome.returned dest 0 ∧
    decompress8b_rowmajor_delta srcA dest = Outcome.returned dest 0 ∧
    decompress8b_rowmajor_delta_rle srcB dest = Outcome.returned dest 0 := by
  have hA : ¬ loadLE 6 srcA 0 < 128 := by omega
  refine ⟨?_, ?_, ?_⟩
  · simp only [decompress8b_rowmajor, read_metadata_8b_eq, small_bound_eq, hA, decide_False,
      Bool.false_eq_true, if_false, hDA, if_true]
  · simp only [decompress8b_rowmajor_delta, read_metadata_8b_eq, small_bound_eq, hA, decide_False,
      Bool.false_eq_true, if_false, hDA, if_true]
  · have : (decide (loadLE 4 srcB 0 = 0) && decide (loadLE 2 srcB 4 < 128)) = false := by
      rw [← Bool.not_eq_true]
      simpa using hLB
    simp only [decompress8b_rowmajor_delta_rle, decompress8b_rowmajor_delta_rle_impl,
      read_metadata_rle_8b_eq, min_data_size_eq, this, Bool.false_eq_true, if_false, hDB, if_true]

theorem decode_zero_dims_rejected_witness :
    (loadLE 2 (Mem.ofList [200, 0, 0, 0, 0, 0, 0, 0, 7]) 6 = 0 ∧
      128 ≤ loadLE 6 (Mem.ofList [200, 0, 0, 0, 0, 0, 0, 0, 7]) 0 ∧
      loadLE 2 (Mem.ofList [1, 0, 0, 0, 5, 0, 0, 0, 7]) 6 = 0 ∧
      ¬ (loadLE 4 (Mem.ofList [1, 0, 0, 0, 5, 0, 0, 0, 7]) 0 = 0 ∧
        loadLE 2 (Mem.ofList [1, 0, 0, 0, 5, 0, 0, 0, 7]) 4 < 128)) ∧
    (decompress8b_rowmajor (Mem.ofList [200, 0, 0, 0, 0, 0, 0, 0, 7]) Mem.zero
        = Outcome.returned Mem.zero 0 ∧
      decompress8b_rowmajor_delta (Mem.ofList [200, 0, 0, 0, 0, 0, 0, 0, 7]) Mem.zero
        = Outcome.returned Mem.zero 0 ∧
      decompress8b_rowmajor_delta_rle (Mem.ofList [1, 0, 0, 0, 5, 0, 0, 0, 7]) Mem.zero
        = Outcome.returned Mem.zero 0) :=
  ⟨⟨by decide, by decide, by decide, by decide⟩,
    decode_zero_dims_rejected _ _ _ (by decide) (by decide) (by decide) (by decide)⟩

theorem compress8b_rowmajor_eq (T : Nat → Nat) (src dest : Mem) (len ndims : Nat)
    (write_size : Bool) :
    compress8b_rowmajor T src len dest ndims write_size =
      if write_size && decide (¬ len < 2 ^ 48) then Outcome.assertFailed dest
      else if len < 128 then
        Outcome.returned
          (memcpy (headerA dest len ndims write_size) (headerLen write_size) src 0 (len % 2 ^ 32))
          (headerLen write_size + len % 2 ^ 32)
      else if groupSzOf ndims = 0 then Outcome.divByZero (headerA dest len ndims write_size)
      else
        Outcome.returned
          (memcpy (rowmajorLoop T src len dest ndims write_size (len / groupSzOf ndims)).mem
            (rowmajorLoop T src len dest ndims write_size (len / groupSzOf ndims)).dest src
            (rowmajorLoop T src len dest ndims write_size (len / groupSzOf ndims)).src
            ((len - (rowmajorLoop T src len dest ndims write_size (len / groupSzOf ndims)).src)
              % 2 ^ 32))
          ((rowmajorLoop T src len dest ndims write_size (len / groupSzOf ndims)).dest +
            (len - (rowmajorLoop T src len dest ndims write_size (len / groupSzOf ndims)).src)
              % 2 ^ 32) := rfl

theorem compress8b_rowmajor_delta_eq (T : Nat → Nat) (src dest : Mem) (len ndims : Nat)
    (write_size : Bool) :
    compress8b_rowmajor_delta T src len dest ndims write_size =
      if write_size && decide (¬ len < 2 ^ 48) then Outcome.assertFailed dest
      else if len < 128 then
        Outcome.returned
          (memcpy (headerA dest len ndims write_size) (headerLen write_size) src 0 (len % 2 ^ 32))
          (headerLen write_size + len % 2 ^ 32)
      else if groupSzOf ndims = 0 then Outcome.divByZero (headerA dest len ndims write_size)
      else
        Outcome.returned
          (memcpy (deltaLoop T src len dest ndims write_size (len / groupSzOf ndims)).enc.mem
            (deltaLoop T src len dest ndims write_size (len / groupSzOf ndims)).enc.dest src
            (deltaLoop T src len dest ndims write_size (len / groupSzOf ndims)).enc.src
            ((len - (deltaLoop T src len dest ndims write_size (len / groupSzOf ndims)).enc.src)
              % 2 ^ 32))
          ((deltaLoop T src len dest ndims write_size (len / groupSzOf ndims)).enc.dest +
            (len - (deltaLoop T src len dest ndims write_size (len / groupSzOf ndims)).enc.src)
              % 2 ^ 32) := rfl

/-- The Mode A encoders stop on the assertion exactly when `write_size` is set
and the length does not fit 48 bits. -/
theorem compress8b_rowmajor_assert_iff (T : Nat → Nat) (src dest : Mem) (len ndims : Nat)
    (write_size : Bool) (d : Mem) :
    compress8b_rowmajor T src len dest ndims write_size = Outcome.assertFailed d ↔
      (write_size = true ∧ 2 ^ 48 ≤ len ∧ d = dest) := by
  rw [compress8b_rowmajor_eq]
  by_cases hc : (write_size && decide (¬ len < 2 ^ 48)) = true
  · rw [if_pos hc]
    simp only [Bool.and_eq_true, decide_eq_true_eq, not_lt] at hc
    constructor
    · intro h; cases h; exact ⟨hc.1, hc.2, rfl⟩
    · rintro ⟨_, _, rfl⟩; rfl
  · rw [if_neg hc]
    simp only [Bool.and_eq_true, decide_eq_true_eq, not_lt, not_and] at hc
    constructor
    · intro h
      split_ifs at h
    · rintro ⟨h1, h2, _⟩
      exact absurd h2 (by have := hc h1; omega)

theorem compress8b_rowmajor_delta_assert_iff (T : Nat → Nat) (src dest : Mem) (len ndims : Nat)
    (write_size : Bool) (d : Mem) :
    compress8b_rowmajor_delta T src len dest ndims write_size = Outcome.assertFailed d ↔
      (write_size = true ∧ 2 ^ 48 ≤ len ∧ d = dest) := by
  rw [compress8b_rowmajor_delta_eq]
  by_cases hc : (write_size && decide (¬ len < 2 ^ 48)) = true
  · rw [if_pos hc]
    simp only [Bool.and_eq_true, decide_eq_true_eq, not_lt] at hc
    constructor
    · intro h; cases h; exact ⟨hc.1, hc.2, rfl⟩
    · rintro ⟨_, _, rfl⟩; rfl
  · rw [if_neg hc]
    simp only [Bool.and_eq_true, decide_eq_true_eq, not_lt, not_and] at hc
    constructor
    · intro h
      split_ifs at h
    · rintro ⟨h1, h2, _⟩
      exact absurd h2 (by have := hc h1; omega)

/-- The run-length encoder never stops on an assertion. -/
theorem compress8b_rowmajor_delta_rle_no_assert (T : Nat → Nat) (src dest : Mem)
    (len ndims : Nat) (write_size : Bool) (d : Mem) :
    compress8b_rowmajor_delta_rle T src len dest ndims write_size
      ≠ some (Outcome.assertFailed d) := by
  unfold compress8b_rowmajor_delta_rle
  have hm2 : min_data_size < 2 ^ 16 := by rw [min_data_size_eq]; norm_num
  simp only [hm2, not_true_eq_false, if_false]
  by_cases h : len < min_data_size
  · rw [if_pos h]; simp
  · rw [if_neg h]
    split <;> simp

theorem compress8b_rowmajor_delta_rle_eq (T : Nat → Nat) (src dest : Mem) (len ndims : Nat)
    (write_size : Bool) (h : ¬ len < 128) :
    compress8b_rowmajor_delta_rle T src len dest ndims write_size =
      (rleLoop T src len dest ndims write_size).map (rleFinish src len ndims write_size) := by
  have hm : ¬ len < min_data_size := by rw [min_data_size_eq]; exact h
  unfold compress8b_rowmajor_delta_rle
  rw [if_neg hm]
  show (match rleLoop T src len dest ndims write_size with
    | none => none
    | some s => some (rleFinish src len ndims write_size s)) = _
  cases rleLoop T src len dest ndims write_size <;> rfl

/-- When the input is shorter than one group the group loop is not entered. -/
theorem rleLoop_short (T : Nat → Nat) (src dest : Mem) (len ndims : Nat) (write_size : Bool)
    (h : len < groupSzOf ndims) :
    rleLoop T src len dest ndims write_size = some (rleInit dest write_size) := by
  unfold rleLoop
  rw [rle_group_loop]
  have : ¬ (((rleInit dest write_size).src : Nat) : Int)
      ≤ (rleCtxOf T src len ndims).last_full_group_start := by
    simp only [rleInit, rleCtxOf]
    omega
  rw [if_neg this]

/-- C9, as stated, fails on both counts.  `compress8b_rowmajor` called without
`write_size` on a length of `2 ^ 48` is not rejected, and
`compress8b_rowmajor_delta_rle` called with `ndims = 4097` on 65536 bytes
returns normally although its `remaining_len` is `65536 = 2 ^ 16`: all 65536
bytes go to the verbatim tail and the 16-bit header field holds 0. -/
theorem oversized_input_not_rejected :
    (¬ ∃ d, compress8b_rowmajor (fun b => b) Mem.zero (2 ^ 48) Mem.zero 1 false
      = Outcome.assertFailed d) ∧
    (∃ out, compress8b_rowmajor_delta_rle (fun b => b) Mem.zero 65536 Mem.zero 4097 true
      = some (Outcome.returned out (8 + 65536)) ∧ loadLE 2 out 4 = 0) := by
  constructor
  · rintro ⟨d, hd⟩
    rw [compress8b_rowmajor_assert_iff] at hd
    exact absurd hd.1 (by decide)
  · rw [compress8b_rowmajor_delta_rle_eq _ _ _ _ _ _ (by norm_num),
      rleLoop_short _ _ _ _ _ _ (by decide)]
    refine ⟨_, rfl, ?_⟩
    decide

/-- C9, amended.  The Mode A encoders stop on their assertion exactly when
`write_size` is set and `len ≥ 2 ^ 48`, and then the destination is still the
one they were given (nothing was written); without `write_size` no length is
rejected.  `compress8b_rowmajor_delta_rle` never stops on an assertion. -/
theorem oversized_input_checks (T : Nat → Nat) (src dest : Mem) (len ndims : Nat)
    (write_size : Bool) (d : Mem) :
    (compress8b_rowmajor T src len dest ndims write_size = Outcome.assertFailed d ↔
      (write_size = true ∧ 2 ^ 48 ≤ len ∧ d = dest)) ∧
    (compress8b_rowmajor_delta T src len dest ndims write_size = Outcome.assertFailed d ↔
      (write_size = true ∧ 2 ^ 48 ≤ len ∧ d = dest)) ∧
    compress8b_rowmajor_delta_rle T src len dest ndims write_size
      ≠ some (Outcome.assertFailed d) :=
  ⟨compress8b_rowmajor_assert_iff T src dest len ndims write_size d,
    compress8b_rowmajor_delta_assert_iff T src dest len ndims write_size d,
    compress8b_rowmajor_delta_rle_no_assert T src dest len ndims write_size d⟩

theorem mod256_testBit (x t : Nat) : (x % 256).testBit t = (decide (t < 8) && x.testBit t) := by
  rw [show (256 : Nat) = 2 ^ 8 by norm_num, Nat.testBit_mod_two_pow]

theorem load8_testBit_ge (m : Mem) (a t : Nat) (h : 8 ≤ t) : (load8 m a).testBit t = false := by
  apply Nat.testBit_lt_two_pow
  calc load8 m a < 256 := load8_lt m a
    _ = 2 ^ 8 := by norm_num
    _ ≤ 2 ^ t := Nat.pow_le_pow_right (by norm_num) h

theorem abit_def (m : Mem) (k t : Nat) (ht : t < 8) :
    abit m (8 * k + t) = (load8 m k).testBit t := by
  unfold abit
  rw [show (8 * k + t) / 8 = k by omega, show (8 * k + t) % 8 = t by omega]

/-- Two bytes with the same eight bits are equal. -/
theorem load8_eq_of_abit (m m2 : Mem) (k k2 : Nat)
    (h : ∀ t, t < 8 → abit m (8 * k + t) = abit m2 (8 * k2 + t)) : load8 m k = load8 m2 k2 := by
  apply Nat.eq_of_testBit_eq
  intro t
  by_cases ht : t < 8
  · have := h t ht
    rwa [abit_def m k t ht, abit_def m2 k2 t ht] at this
  · rw [load8_testBit_ge m k t (by omega), load8_testBit_ge m2 k2 t (by omega)]

/-- Bits of a little-endian load. -/
theorem loadLE_testBit (n : Nat) (m : Mem) (a j : Nat) :
    (loadLE n m a).testBit j = (decide (j < 8 * n) && abit m (8 * a + j)) := by
  induction n generalizing a j with
  | zero => simp [loadLE]
  | succ n ih =>
    simp only [loadLE]
    have hl := load8_lt m a
    rw [show load8 m a + 256 * loadLE n m (a + 1) = 2 ^ 8 * loadLE n m (a + 1) + load8 m a by
      norm_num; ring]
    rw [Nat.testBit_mul_pow_two_add _ (by norm_num; exact hl)]
    by_cases hj : j < 8
    · rw [if_pos hj, abit_def m a j hj]
      have : j < 8 * (n + 1) := by omega
      simp [this]
    · rw [if_neg hj, ih]
      have e : 8 * (a + 1) + (j - 8) = 8 * a + j := by omega
      rw [e]
      congr 1
      simp only [decide_eq_decide]
      omega

/-- Bits of a buffer after a little-endian store. -/
theorem abit_storeLE (n : Nat) (m : Mem) (a v q : Nat) :
    abit (storeLE n m a v) q =
      if 8 * a ≤ q ∧ q < 8 * (a + n) then v.testBit (q - 8 * a) else abit m q := by
  unfold abit load8
  simp only [storeLE_get]
  by_cases h : a ≤ q / 8 ∧ q / 8 < a + n
  · rw [if_pos h, if_pos (by omega)]
    rw [Nat.mod_mod, mod256_testBit, Nat.testBit_shiftRight]
    have h8 : q % 8 < 8 := Nat.mod_lt _ (by norm_num)
    simp only [h8, decide_True, Bool.true_and]
    congr 1
    omega
  · rw [if_neg h, if_neg (by omega)]

theorem load8_storeLE (n : Nat) (m : Mem) (a v k : Nat) :
    load8 (storeLE n m a v) k =
      if a ≤ k ∧ k < a + n then (v >>> (8 * (k - a))) % 256 else load8 m k := by
  unfold load8
  simp only [storeLE_get]
  split_ifs
  · exact Nat.mod_mod _ _
  · rfl

theorem abit_store8 (m : Mem) (a v q : Nat) :
    abit (store8 m a v) q = if q / 8 = a then v.testBit (q % 8) else abit m q := by
  unfold abit load8
  simp only [store8_get]
  by_cases h : q / 8 = a
  · rw [if_pos h, if_pos h, Nat.mod_mod, mod256_testBit]
    have h8 : q % 8 < 8 := Nat.mod_lt _ (by norm_num)
    simp [h8]
  · rw [if_neg h, if_neg h]

theorem abit_memset0 (m : Mem) (a n q : Nat) :
    abit (memset0 m a n) q = if 8 * a ≤ q ∧ q < 8 * (a + n) then false else abit m q := by
  unfold abit load8
  simp only [memset0_get]
  by_cases h : a ≤ q / 8 ∧ q / 8 < a + n
  · rw [if_pos h, if_pos (by omega)]; simp
  · rw [if_neg h, if_neg (by omega)]

/-- The read-modify-write `*(uintN_t*)p |= w` in terms of bits. -/
theorem abit_rmw (n : Nat) (m : Mem) (a w q : Nat) :
    abit (storeLE n m a (w ||| loadLE n m a)) q =
      (abit m q || (decide (8 * a ≤ q ∧ q < 8 * (a + n)) && w.testBit (q - 8 * a))) := by
  rw [abit_storeLE]
  by_cases h : 8 * a ≤ q ∧ q < 8 * (a + n)
  · rw [if_pos h, Nat.testBit_or, loadLE_testBit]
    have h1 : q - 8 * a < 8 * n := by omega
    have h2 : 8 * a + (q - 8 * a) = q := by omega
    simp only [h1, decide_True, Bool.true_and, h2, h]
    exact Bool.or_comm _ _
  · rw [if_neg h]
    simp [h]

theorem testBit_bit_zero (a r : Nat) (ha : a < 2) : (a + 2 * r).testBit 0 = decide (a = 1) := by
  rw [Nat.testBit_zero]
  congr 1
  apply propext
  omega

theorem testBit_bit_succ (a r t : Nat) (ha : a < 2) : (a + 2 * r).testBit (t + 1) = r.testBit t := by
  rw [Nat.testBit_succ]
  congr 1
  omega

theorem pextAux_lt (n x m : Nat) : pextAux n x m < 2 ^ popcountAux n m := by
  induction n generalizing x m with
  | zero => simp [pextAux, popcountAux]
  | succ n ih =>
    simp only [pextAux, popcountAux]
    have h := ih (x / 2) (m / 2)
    by_cases hm : m % 2 = 1
    · rw [if_pos hm, hm, pow_add]
      have : x % 2 < 2 := Nat.mod_lt _ (by norm_num)
      omega
    · rw [if_neg hm]
      have : m % 2 = 0 := by omega
      rw [this, Nat.zero_add]
      exact h

/-- Depositing what was extracted through the same mask gives back the masked
word; bits of the packed word above the mask's population count are ignored. -/
theorem pdepAux_pextAux_testBit (n x m j t : Nat) :
    (pdepAux n (pextAux n x m + 2 ^ popcountAux n m * j) m).testBit t =
      (decide (t < n) && (x.testBit t && m.testBit t)) := by
  induction n generalizing x m j t with
  | zero => simp [pdepAux]
  | succ n ih =>
    simp only [pextAux, pdepAux, popcountAux]
    have hx2 : x % 2 < 2 := Nat.mod_lt _ (by norm_num)
    by_cases hm : m % 2 = 1
    · rw [if_pos hm, if_pos hm, hm]
      have e : x % 2 + 2 * pextAux n (x / 2) (m / 2) + 2 ^ (1 + popcountAux n (m / 2)) * j
          = x % 2 + 2 * (pextAux n (x / 2) (m / 2) + 2 ^ popcountAux n (m / 2) * j) := by
        rw [pow_add]; ring
      rw [e]
      have e1 : (x % 2 + 2 * (pextAux n (x / 2) (m / 2) + 2 ^ popcountAux n (m / 2) * j)) % 2
          = x % 2 := by omega
      have e2 : (x % 2 + 2 * (pextAux n (x / 2) (m / 2) + 2 ^ popcountAux n (m / 2) * j)) / 2
          = pextAux n (x / 2) (m / 2) + 2 ^ popcountAux n (m / 2) * j := by omega
      rw [e1, e2]
      cases t with
      | zero =>
        rw [testBit_bit_zero _ _ hx2]
        simp [Nat.testBit_zero, hm]
      | succ t =>
        rw [testBit_bit_succ _ _ _ hx2, ih, Nat.testBit_succ, Nat.testBit_succ]
        congr 1
        simp only [decide_eq_decide]
        omega
    · rw [if_neg hm, if_neg hm]
      have hm0 : m % 2 = 0 := by omega
      rw [hm0, Nat.zero_add]
      cases t with
      | zero =>
        have := testBit_bit_zero 0 (pdepAux n (pextAux n (x / 2) (m / 2) + 2 ^ popcountAux n (m / 2) * j)
          (m / 2)) (by norm_num)
        rw [Nat.zero_add] at this
        rw [this]
        simp [Nat.testBit_zero, hm0]
      | succ t =>
        have := testBit_bit_succ 0 (pdepAux n (pextAux n (x / 2) (m / 2) + 2 ^ popcountAux n (m / 2) * j)
          (m / 2)) t (by norm_num)
        rw [Nat.zero_add] at this
        rw [this, ih, Nat.testBit_succ, Nat.testBit_succ]
        congr 1
        simp only [decide_eq_decide]
        omega

/-- The same for the 64-bit instructions: `y` is any word whose low
`popcount(mask)` bits are the extracted bits. -/
theorem pdep_pext_testBit (data mask y t : Nat)
    (hy : y % 2 ^ popcount_u64 mask = pext_u64 data mask) :
    (pdep_u64 y mask).testBit t = (decide (t < 64) && (data.testBit t && mask.testBit t)) := by
  have h := pdepAux_pextAux_testBit 64 data mask (y / 2 ^ popcount_u64 mask) t
  have e : pextAux 64 data mask + 2 ^ popcountAux 64 mask * (y / 2 ^ popcount_u64 mask) = y := by
    have := Nat.mod_add_div y (2 ^ popcount_u64 mask)
    unfold pext_u64 at hy
    unfold popcount_u64 at this hy ⊢
    rw [← hy]
    exact this
  rw [e] at h
  exact h

theorem pdepAux_lt (n y m : Nat) : pdepAux n y m < 2 ^ n := by
  induction n generalizing y m with
  | zero => simp [pdepAux]
  | succ n ih =>
    simp only [pdepAux]
    have h1 := ih (y / 2) (m / 2)
    have h2 := ih y (m / 2)
    have : y % 2 < 2 := Nat.mod_lt _ (by norm_num)
    rw [pow_succ]
    split_ifs <;> omega

theorem pextAux_lt_pow (n x m : Nat) : pextAux n x m < 2 ^ n := by
  induction n generalizing x m with
  | zero => simp [pextAux]
  | succ n ih =>
    simp only [pextAux]
    have h1 := ih (x / 2) (m / 2)
    have : x % 2 < 2 := Nat.mod_lt _ (by norm_num)
    rw [pow_succ]
    split_ifs <;> omega

/-- Population count as a sum over the bits. -/
theorem popcountAux_eq_sum (n m : Nat) :
    popcountAux n m = sumTo n (fun t => if m.testBit t then 1 else 0) := by
  induction n generalizing m with
  | zero => rfl
  | succ n ih =>
    have key : ∀ (k : Nat) (f : Nat → Nat), sumTo (k + 1) f = f 0 + sumTo k (fun t => f (t + 1)) := by
      intro k
      induction k with
      | zero => intro f; simp [sumTo]
      | succ k ihk =>
        intro f
        rw [sumTo, ihk f, sumTo]
        ring
    rw [key, popcountAux, ih]
    congr 1
    · rw [Nat.testBit_zero]
      have : m % 2 < 2 := Nat.mod_lt _ (by norm_num)
      by_cases h : m % 2 = 1
      · simp [h]
      · have : m % 2 = 0 := by omega
        simp [this]
    · congr 1
      funext t
      rw [Nat.testBit_succ]

set_option maxRecDepth 100000 in
theorem maxNbits_le (M : Nat) (h : M < 256) : maxNbits M ≤ 8 := by
  revert M
  decide

theorem TableOK_folded : TableOK NBITS_MASKS_U8_folded := by
  intro b hb
  unfold NBITS_MASKS_U8_folded okMasks
  split_ifs <;> simp <;> omega

/-- A table the decoders agree with sends every byte that needs 7 or 8 bits to
the mask `0xff`: no other mask of `nbits_to_mask` covers it. -/
theorem TableOK_seven (T : Nat → Nat) (hT : TableOK T) (b : Nat) (h1 : 64 ≤ b) (h2 : b < 256) :
    T b = 0xff := by
  obtain ⟨hmem, hcov⟩ := hT b h2
  simp only [okMasks, List.mem_cons, List.mem_singleton, List.not_mem_nil, or_false] at hmem
  omega

/-- The table with `0x7f` for the bytes 64..127 is not one the decoders agree
with: `0x7f` is not a mask of `nbits_to_mask`. -/
theorem NBITS_MASKS_U8_not_ok : ¬ TableOK NBITS_MASKS_U8 := by
  intro h
  have := TableOK_seven NBITS_MASKS_U8 h 64 (by decide) (by decide)
  revert this
  decide

theorem okMasks_facts : ∀ M ∈ okMasks, M < 256 ∧ popcountAux 8 M = maxNbits M ∧
    writeNbits M < 8 ∧ nbits_to_mask (writeNbits M) = M ∧
    (writeNbits M + (if writeNbits M = 7 then 1 else 0)) = maxNbits M := by
  decide

theorem TableOK_pop (T : Nat → Nat) (hT : TableOK T) : TablePop T := by
  intro b hb
  obtain ⟨h1, _⟩ := hT b hb
  have hf := okMasks_facts _ h1
  rw [Nat.mod_eq_of_lt hf.1]
  exact hf.2.1

theorem writeNbits_lt (M : Nat) (h : M < 256) : writeNbits M < 8 := by
  have := maxNbits_le M h
  unfold writeNbits
  split_ifs <;> omega

theorem maskOf_lt (T dm : Nat → Nat) (d : Nat) : maskOf T dm d < 256 :=
  Nat.mod_lt _ (by norm_num)

theorem statsOf_succ (T dm : Nat → Nat) (n : Nat) :
    statsOf T dm (n + 1) = accumDim T n (dm n) (statsOf T dm n) := rfl

theorem testBit_lt_256 (M u : Nat) (hM : M < 256) (hu : 8 ≤ u) : M.testBit u = false := by
  apply Nat.testBit_lt_two_pow
  calc M < 2 ^ 8 := by norm_num; exact hM
    _ ≤ 2 ^ u := Nat.pow_le_pow_right (by norm_num) hu

theorem testBit_lt_8 (M u : Nat) (hM : M < 8) (hu : 3 ≤ u) : M.testBit u = false := by
  apply Nat.testBit_lt_two_pow
  calc M < 2 ^ 3 := by norm_num; exact hM
    _ ≤ 2 ^ u := Nat.pow_le_pow_right (by norm_num) hu

/-- Bits of `stripe_masks[s]` after the first `n` dimensions. -/
theorem statsOf_masks_testBit (T dm : Nat → Nat) (n s t : Nat) :
    ((statsOf T dm n).stripe_masks.get s).testBit t =
      (decide (t < 64 ∧ 8 * s + t / 8 < n) && (maskOf T dm (8 * s + t / 8)).testBit (t % 8)) := by
  induction n with
  | zero => simp [statsOf, forLoop, StripeStats.zero]
  | succ n ih =>
    rw [statsOf_succ]
    simp only [accumDim, setAt_get, stripe_sz]
    by_cases hs : s = n / 8
    · rw [if_pos hs, Nat.testBit_mod_two_pow, Nat.testBit_or, Nat.testBit_shiftLeft, ← hs, ih]
      have hM := maskOf_lt T dm n
      by_cases ht : t < 64
      · by_cases hq : t / 8 = n % 8
        · have e1 : 8 * s + t / 8 = n := by omega
          have e2 : t - n % 8 * 8 = t % 8 := by omega
          have e3 : t ≥ n % 8 * 8 := by omega
          rw [e1, e2]
          simp [ht, e3, maskOf]
        · by_cases hlt : t ≥ n % 8 * 8
          · have e2 : 8 ≤ t - n % 8 * 8 := by omega
            have e4 : (8 * s + t / 8 < n + 1) ↔ (8 * s + t / 8 < n) := by omega
            have := testBit_lt_256 _ _ hM e2
            simp only [maskOf] at this
            simp [ht, this, e4]
          · have e4 : (8 * s + t / 8 < n + 1) ↔ (8 * s + t / 8 < n) := by omega
            simp [ht, hlt, e4]
      · simp [ht]
    · rw [if_neg hs, ih]
      have e4 : (t < 64 ∧ 8 * s + t / 8 < n + 1) ↔ (t < 64 ∧ 8 * s + t / 8 < n) := by omega
      simp only [e4]

/-- Bits of `stripe_headers[s]` after the first `n` dimensions. -/
theorem statsOf_headers_testBit (T dm : Nat → Nat) (n s t : Nat) :
    ((statsOf T dm n).stripe_headers.get s).testBit t =
      (decide (t < 24 ∧ 8 * s + t / 3 < n) &&
        (writeNbits (maskOf T dm (8 * s + t / 3))).testBit (t % 3)) := by
  induction n with
  | zero => simp [statsOf, forLoop, StripeStats.zero]
  | succ n ih =>
    rw [statsOf_succ]
    simp only [accumDim, setAt_get, stripe_sz, nbits_sz_bits]
    by_cases hs : s = n / 8
    · rw [if_pos hs, Nat.testBit_mod_two_pow, Nat.testBit_or, Nat.testBit_shiftLeft, ← hs, ih]
      have hM := writeNbits_lt _ (maskOf_lt T dm n)
      simp only [writeNbits, maxNbits, maskOf] at hM ⊢
      by_cases ht : t < 24
      · have ht32 : t < 32 := by omega
        by_cases hq : t / 3 = n % 8
        · have e1 : 8 * s + t / 3 = n := by omega
          have e2 : t - n % 8 * 3 = t % 3 := by omega
          have e3 : t ≥ n % 8 * 3 := by omega
          rw [e1, e2]
          simp [ht, ht32, e3]
        · by_cases hlt : t ≥ n % 8 * 3
          · have e2 : 3 ≤ t - n % 8 * 3 := by omega
            have e4 : (8 * s + t / 3 < n + 1) ↔ (8 * s + t / 3 < n) := by omega
            have := testBit_lt_8 _ _ hM e2
            simp [ht, ht32, this, e4]
          · have e4 : (8 * s + t / 3 < n + 1) ↔ (8 * s + t / 3 < n) := by omega
            simp [ht, ht32, hlt, e4]
      · by_cases hlt : t ≥ n % 8 * 3
        · have e2 : 3 ≤ t - n % 8 * 3 := by omega
          have := testBit_lt_8 _ _ hM e2
          simp [ht, this]
        · simp [ht, hlt]
    · rw [if_neg hs, ih]
      have e4 : (t < 24 ∧ 8 * s + t / 3 < n + 1) ↔ (t < 24 ∧ 8 * s + t / 3 < n) := by omega
      simp only [e4]

theorem sumTo_congr (k : Nat) (f g : Nat → Nat) (h : ∀ j, j < k → f j = g j) :
    sumTo k f = sumTo k g := by
  induction k with
  | zero => rfl
  | succ k ih =>
    rw [sumTo, sumTo, ih (fun j hj => h j (by omega)), h k (by omega)]

theorem sumTo_add_at (k j0 v : Nat) (f g : Nat → Nat) (hj : j0 < k)
    (h0 : g j0 = f j0 + v) (h : ∀ j, j < k → j ≠ j0 → g j = f j) :
    sumTo k g = sumTo k f + v := by
  induction k with
  | zero => omega
  | succ k ih =>
    rw [sumTo, sumTo]
    by_cases hk : j0 = k
    · subst hk
      rw [sumTo_congr j0 g f (fun j hj' => h j (by omega) (by omega)), h0]
      ring
    · rw [ih (by omega) (fun j hj' hne => h j (by omega) hne), h k (by omega) (fun e => hk e.symm)]
      ring

theorem sumTo_le (k b : Nat) (f : Nat → Nat) (h : ∀ j, j < k → f j ≤ b) : sumTo k f ≤ k * b := by
  induction k with
  | zero => simp [sumTo]
  | succ k ih =>
    rw [sumTo]
    have := ih (fun j hj => h j (by omega))
    have := h k (by omega)
    nlinarith

/-- The width of stripe `s` after the first `n` dimensions. -/
theorem statsOf_widths (T dm : Nat → Nat) (n s : Nat) :
    (statsOf T dm n).stripe_bitwidths.get s =
      sumTo 8 (fun j => if 8 * s + j < n then maxNbits (maskOf T dm (8 * s + j)) else 0) := by
  induction n with
  | zero => simp [statsOf, forLoop, StripeStats.zero, sumTo]
  | succ n ih =>
    rw [statsOf_succ]
    simp only [accumDim, setAt_get, stripe_sz]
    by_cases hs : s = n / 8
    · rw [if_pos hs, ← hs, ih]
      have hadd := sumTo_add_at 8 (n % 8) (maxNbits (maskOf T dm n))
        (fun j => if 8 * s + j < n then maxNbits (maskOf T dm (8 * s + j)) else 0)
        (fun j => if 8 * s + j < n + 1 then maxNbits (maskOf T dm (8 * s + j)) else 0)
        (Nat.mod_lt _ (by norm_num))
        (by
          have e1 : 8 * s + n % 8 = n := by omega
          simp only [e1]
          simp)
        (by
          intro j hj hne
          have e4 : (8 * s + j < n + 1) ↔ (8 * s + j < n) := by omega
          simp only [e4])
      rw [hadd]
      have hb : sumTo 8 (fun j => if 8 * s + j < n + 1 then maxNbits (maskOf T dm (8 * s + j)) else 0)
          ≤ 8 * 8 := by
        apply sumTo_le
        intro j _
        split_ifs
        · exact maxNbits_le _ (maskOf_lt T dm _)
        · omega
      rw [hadd] at hb
      simp only [maskOf, maxNbits] at hb ⊢
      exact Nat.mod_eq_of_lt (by omega)
    · rw [if_neg hs, ih]
      apply sumTo_congr
      intro j hj
      have e4 : (8 * s + j < n + 1) ↔ (8 * s + j < n) := by omega
      simp only [e4]

theorem anyTo_eq_true (n : Nat) (p : Nat → Bool) : anyTo n p = true ↔ ∃ j, j < n ∧ p j = true := by
  induction n with
  | zero => simp [anyTo]
  | succ n ih =>
    simp only [anyTo, Bool.or_eq_true, ih]
    constructor
    · rintro (⟨j, hj, h⟩ | h)
      · exact ⟨j, by omega, h⟩
      · exact ⟨n, by omega, h⟩
    · rintro ⟨j, hj, h⟩
      by_cases e : j = n
      · subst e; exact Or.inr h
      · exact Or.inl ⟨j, by omega, h⟩

theorem anyTo_eq_false (n : Nat) (p : Nat → Bool) : anyTo n p = false ↔ ∀ j, j < n → p j = false := by
  rw [← Bool.not_eq_true, anyTo_eq_true]
  constructor
  · intro h j hj
    rw [← Bool.not_eq_true]
    exact fun e => h ⟨j, hj, e⟩
  · rintro h ⟨j, hj, e⟩
    rw [h j hj] at e
    exact Bool.false_ne_true e

theorem anyTo_congr (n : Nat) (p q : Nat → Bool) (h : ∀ j, j < n → p j = q j) :
    anyTo n p = anyTo n q := by
  induction n with
  | zero => rfl
  | succ n ih => rw [anyTo, anyTo, ih (fun j hj => h j (by omega)), h n (by omega)]

/-- Only index `j0` can contribute. -/
theorem anyTo_single (n j0 : Nat) (p : Nat → Bool) (hj : j0 < n)
    (h : ∀ j, j < n → j ≠ j0 → p j = false) : anyTo n p = p j0 := by
  cases hp : p j0 with
  | true => exact (anyTo_eq_true n p).2 ⟨j0, hj, hp⟩
  | false =>
    apply (anyTo_eq_false n p).2
    intro j hjn
    by_cases e : j = j0
    · subst e; exact hp
    · exact h j hjn e

theorem sumTo_mono (a b : Nat) (w : Nat → Nat) (h : a ≤ b) : sumTo a w ≤ sumTo b w := by
  induction b with
  | zero =>
    have : a = 0 := by omega
    subst this; exact Nat.le_refl _
  | succ b ih =>
    by_cases e : a = b + 1
    · subst e; exact Nat.le_refl _
    · have := ih (by omega)
      rw [sumTo]; omega

theorem sumTo_succ_le (s n : Nat) (w : Nat → Nat) (h : s < n) :
    sumTo s w + w s ≤ sumTo n w := by
  have := sumTo_mono (s + 1) n w (by omega)
  rwa [sumTo] at this

/-- The closed form of `stripe_bitoffsets`. -/
theorem stripeBitoffsets_get (w : Nat → Nat) (nstripes s : Nat) (hs : s < nstripes)
    (hb : sumTo nstripes w < 2 ^ 32) :
    (stripeBitoffsets w nstripes).get s = sumTo s w := by
  unfold stripeBitoffsets
  have key : ∀ N, N < nstripes → ∀ s, s ≤ N →
      (forLoop N (fun k offs => setAt offs (k + 1) ((offs.get k + w k) % 2 ^ 32))
        (setAt Arr.zero 0 0)).get s = sumTo s w := by
    intro N
    induction N with
    | zero =>
      intro _ s hs
      have : s = 0 := by omega
      subst this
      simp [forLoop, sumTo]
    | succ N ih =>
      intro hN s hs
      simp only [forLoop, setAt_get]
      by_cases e : s = N + 1
      · rw [if_pos e, ih (by omega) N (Nat.le_refl _), e, sumTo]
        apply Nat.mod_eq_of_lt
        have := sumTo_succ_le N nstripes w (by omega)
        omega
      · rw [if_neg e]
        exact ih (by omega) s (by omega)
  exact key (nstripes - 1) (by omega) s (by omega)

theorem and7 (x : Nat) : x &&& 0x07 = x % 8 := by
  rw [show (0x07 : Nat) = 2 ^ 3 - 1 by norm_num, Nat.and_pow_two_sub_one_eq_mod]

theorem shr3 (x : Nat) : x >>> 3 = x / 8 := by
  rw [Nat.shiftRight_eq_div_pow]

theorem rowNbytes_ge (bits : Nat) : bits ≤ 8 * rowNbytes bits := by
  unfold rowNbytes
  rw [shr3]
  split_ifs <;> omega

theorem rowNbytes_lt (bits : Nat) : 8 * rowNbytes bits < bits + 8 := by
  unfold rowNbytes
  rw [shr3]
  split_ifs <;> omega

theorem testBit_lt_pow (P w u : Nat) (hP : P < 2 ^ w) (hu : w ≤ u) : P.testBit u = false := by
  apply Nat.testBit_lt_two_pow
  exact lt_of_lt_of_le hP (Nat.pow_le_pow_right (by norm_num) hu)

/-- One pass of the inner packing loops on row `i`, fast or slow path, in terms
of bits: the `w` bits of `P` are OR-ed in from bit `8 * a + ob` on. -/
theorem pack_step_bits (m : Mem) (a ob w P : Nat) (hob : ob < 8) (hw : w ≤ 64) (hP : P < 2 ^ w)
    (hz : 64 < w + ob → ∀ u, u < 8 → abit m (8 * (a + 8) + u) = false) (q : Nat) :
    abit (if w + ob ≤ 64 then storeLE 8 m a (((P <<< ob) % 2 ^ 64) ||| loadLE 8 m a)
      else store8 (storeLE 8 m a (((P <<< ob) % 2 ^ 64) ||| loadLE 8 m a)) (a + 8)
        ((P >>> (w - (w + ob - 64) % 256)) % 256)) q =
      (abit m q || (decide (8 * a + ob ≤ q) && P.testBit (q - (8 * a + ob)))) := by
  have hrmw := abit_rmw 8 m a ((P <<< ob) % 2 ^ 64) q
  rw [Nat.testBit_mod_two_pow, Nat.testBit_shiftLeft] at hrmw
  by_cases hfast : w + ob ≤ 64
  · rw [if_pos hfast, hrmw]
    congr 1
    by_cases h1 : 8 * a + ob ≤ q
    · by_cases h2 : q - (8 * a + ob) < w
      · have e : q - 8 * a - ob = q - (8 * a + ob) := by omega
        have c1 : (8 * a ≤ q ∧ q < 8 * (a + 8)) := by omega
        have c2 : q - 8 * a < 64 := by omega
        have c3 : q - 8 * a ≥ ob := by omega
        simp [c1, c2, c3, h1, e]
      · have := testBit_lt_pow P w (q - (8 * a + ob)) hP (by omega)
        have e : q - 8 * a - ob = q - (8 * a + ob) := by omega
        simp [this, e]
    · have c3 : ¬ (q - 8 * a ≥ ob ∧ 8 * a ≤ q) := by omega
      by_cases c4 : 8 * a ≤ q
      · have : ¬ q - 8 * a ≥ ob := by omega
        simp [h1, this]
      · simp [h1, c4]
  · rw [if_neg hfast, abit_store8]
    have hnl : (w + ob - 64) % 256 = w + ob - 64 := Nat.mod_eq_of_lt (by omega)
    rw [hnl]
    by_cases hb : q / 8 = a + 8
    · rw [if_pos hb, mod256_testBit, Nat.testBit_shiftRight]
      have hq8 : q % 8 < 8 := Nat.mod_lt _ (by norm_num)
      have hzq := hz (by omega) (q % 8) hq8
      rw [show 8 * (a + 8) + q % 8 = q by omega] at hzq
      rw [hzq]
      have e : w - (w + ob - 64) + q % 8 = q - (8 * a + ob) := by omega
      have c1 : 8 * a + ob ≤ q := by omega
      simp [hq8, e, c1]
    · rw [if_neg hb, hrmw]
      congr 1
      by_cases h1 : 8 * a + ob ≤ q
      · by_cases h2 : q < 8 * a + 64
        · have e : q - 8 * a - ob = q - (8 * a + ob) := by omega
          have c1 : (8 * a ≤ q ∧ q < 8 * (a + 8)) := by omega
          have c2 : q - 8 * a < 64 := by omega
          have c3 : q - 8 * a ≥ ob := by omega
          simp [c1, c2, c3, h1, e]
        · have := testBit_lt_pow P w (q - (8 * a + ob)) hP (by omega)
          have c1 : ¬ (8 * a ≤ q ∧ q < 8 * (a + 8)) := by omega
          simp [this, c1]
      · by_cases c4 : 8 * a ≤ q
        · have : ¬ q - 8 * a ≥ ob := by omega
          simp [h1, this]
        · simp [h1, c4]

theorem forLoop_congr {σ : Type} (n : Nat) (f g : Nat → σ → σ) (s : σ)
    (h : ∀ i, i < n → ∀ x, f i x = g i x) : forLoop n f s = forLoop n g s := by
  induction n with
  | zero => rfl
  | succ n ih =>
    rw [forLoop, forLoop, ih (fun i hi => h i (by omega)), h n (by omega)]

/-- Where a stripe of a row can contribute a bit. -/
theorem stripeTerm_range (out rb : Nat) (w : Nat → Nat) (P : Nat → Nat → Nat) (i s q : Nat)
    (hP : P i s < 2 ^ w s) (h : stripeTerm out rb w P i s q = true) :
    8 * (out + i * rb) + sumTo s w ≤ q ∧ q < 8 * (out + i * rb) + sumTo s w + w s := by
  unfold stripeTerm at h
  simp only [Bool.and_eq_true, decide_eq_true_eq] at h
  refine ⟨h.1, ?_⟩
  by_contra hc
  have := testBit_lt_pow (P i s) (w s) (q - (8 * (out + i * rb) + sumTo s w)) hP (by omega)
  rw [this] at h
  exact Bool.false_ne_true h.2

/-- The row step of `packBlock` for stripe `s`, row `i`. -/
theorem pack_row_step (out rb : Nat) (w : Nat → Nat) (P : Nat → Nat → Nat) (s i : Nat) (m : Mem)
    (hw : w s ≤ 64) (hP : P i s < 2 ^ w s)
    (hz : 64 < w s + sumTo s w % 8 →
      ∀ u, u < 8 → abit m (8 * (out + sumTo s w / 8 + i * rb + 8) + u) = false) (q : Nat) :
    abit (if w s + sumTo s w % 8 ≤ 64 then
        storeLE 8 m (out + sumTo s w / 8 + i * rb)
          (((P i s <<< (sumTo s w % 8)) % 2 ^ 64) ||| loadLE 8 m (out + sumTo s w / 8 + i * rb))
      else store8 (storeLE 8 m (out + sumTo s w / 8 + i * rb)
          (((P i s <<< (sumTo s w % 8)) % 2 ^ 64) ||| loadLE 8 m (out + sumTo s w / 8 + i * rb)))
        (out + sumTo s w / 8 + i * rb + 8)
        ((P i s >>> (w s - (w s + sumTo s w % 8 - 64) % 256)) % 256)) q =
      (abit m q || stripeTerm out rb w P i s q) := by
  have h := pack_step_bits m (out + sumTo s w / 8 + i * rb) (sumTo s w % 8) (w s) (P i s)
    (Nat.mod_lt _ (by norm_num)) hw hP hz q
  rw [h]
  unfold stripeTerm
  have e : 8 * (out + sumTo s w / 8 + i * rb) + sumTo s w % 8 = 8 * (out + i * rb) + sumTo s w := by
    have := Nat.div_add_mod (sumTo s w) 8
    ring_nf
    omega
  rw [e]

theorem packStripePass_bits (out rb : Nat) (w : Nat → Nat) (P : Nat → Nat → Nat)
    (nstripes s : Nat) (hs : s < nstripes) (m : Mem)
    (hw : w s ≤ 64) (hP : ∀ i, P i s < 2 ^ w s) (hrb : sumTo nstripes w ≤ 8 * rb)
    (hz : 64 < w s + sumTo s w % 8 → ∀ i, i < 8 →
      ∀ u, u < 8 → abit m (8 * (out + sumTo s w / 8 + i * rb + 8) + u) = false)
    (n : Nat) (hn : n ≤ 8) (q : Nat) :
    abit (packStripePass out rb w P s n m) q =
      (abit m q || anyTo n (fun i => stripeTerm out rb w P i s q)) := by
  induction n generalizing q with
  | zero => simp [packStripePass, forLoop, anyTo]
  | succ n ih =>
    have hstep := pack_row_step out rb w P s n (packStripePass out rb w P s n m) hw (hP n)
      (by
        intro hslow u hu
        rw [ih (by omega), hz hslow n (by omega) u hu, Bool.false_or]
        apply (anyTo_eq_false _ _).2
        intro i hi
        rw [← Bool.not_eq_true]
        intro ht
        have hr := stripeTerm_range out rb w P i s _ (hP i) ht
        have h1 := sumTo_succ_le s nstripes w hs
        have h2 : (i + 1) * rb ≤ n * rb := Nat.mul_le_mul_right rb (by omega)
        have h3 : (i + 1) * rb = i * rb + rb := by ring
        omega) q
    rw [show packStripePass out rb w P s (n + 1) m = _ from rfl] 
    simp only [packStripePass, forLoop] at hstep ⊢
    rw [hstep]
    have := ih (by omega) q
    simp only [packStripePass] at this
    rw [this, anyTo, Bool.or_assoc]

theorem abit_zero_of_load8 (m : Mem) (q : Nat) (h : load8 m (q / 8) = 0) : abit m q = false := by
  unfold abit
  rw [h]
  exact Nat.zero_testBit _

theorem packBlockPasses_bits (out rb : Nat) (w : Nat → Nat) (P : Nat → Nat → Nat)
    (nstripes : Nat) (m0 : Mem)
    (hw : ∀ s, s < nstripes → w s ≤ 64) (hP : ∀ i s, s < nstripes → P i s < 2 ^ w s)
    (hrb : sumTo nstripes w ≤ 8 * rb)
    (hzero : ∀ k, out ≤ k → k < out + 8 * rb → load8 m0 k = 0)
    (n : Nat) (hn : n ≤ nstripes) (q : Nat) :
    abit (packBlockPasses out rb w P n m0) q =
      (abit m0 q || anyTo n (fun s => anyTo 8 (fun i => stripeTerm out rb w P i s q))) := by
  induction n generalizing q with
  | zero => simp [packBlockPasses, forLoop, anyTo]
  | succ n ih =>
    have hs : n < nstripes := by omega
    have hpass := packStripePass_bits out rb w P nstripes n hs (packBlockPasses out rb w P n m0)
      (hw n hs) (fun i => hP i n hs) hrb
      (by
        intro hslow i hi u hu
        have h1 := sumTo_succ_le n nstripes w hs
        have hdm := Nat.div_add_mod (sumTo n w) 8
        have h3 : i * rb + rb ≤ 8 * rb := by nlinarith
        rw [ih (by omega)]
        have hz0 : abit m0 (8 * (out + sumTo n w / 8 + i * rb + 8) + u) = false := by
          apply abit_zero_of_load8
          apply hzero <;> omega
        rw [hz0, Bool.false_or]
        apply (anyTo_eq_false _ _).2
        intro s' hs'
        apply (anyTo_eq_false _ _).2
        intro i' hi'
        rw [← Bool.not_eq_true]
        intro ht
        have hr := stripeTerm_range out rb w P i' s' _ (hP i' s' (by omega)) ht
        have h4 := sumTo_succ_le s' n w hs'
        rcases Nat.lt_trichotomy i' i with hlt | heq | hgt
        · have h2 : (i' + 1) * rb ≤ i * rb := Nat.mul_le_mul_right rb (by omega)
          have h5 : (i' + 1) * rb = i' * rb + rb := by ring
          omega
        · subst heq
          omega
        · have h2 : (i + 1) * rb ≤ i' * rb := Nat.mul_le_mul_right rb (by omega)
          have h5 : (i + 1) * rb = i * rb + rb := by ring
          omega)
      8 (Nat.le_refl _) q
    rw [show packBlockPasses out rb w P (n + 1) m0
      = packStripePass out rb w P n 8 (packBlockPasses out rb w P n m0) from rfl]
    rw [hpass, ih (by omega)]
    simp only [anyTo, Bool.or_assoc]

/-- `packBlock` is the closed-form loop when the offsets are the partial sums
of the widths. -/
theorem packBlock_eq (st : StripeStats) (offs : Arr) (nstripes : Nat) (inbuf : Mem)
    (inp in_stride out rb : Nat) (dest : Mem)
    (hoff : ∀ s, s < nstripes → offs.get s = sumTo s st.stripe_bitwidths.get) :
    packBlock st offs nstripes inbuf inp in_stride out rb dest =
      packBlockPasses out rb st.stripe_bitwidths.get
        (packedStripe st.stripe_masks.get inbuf inp in_stride) nstripes dest := by
  unfold packBlock packBlockPasses
  apply forLoop_congr
  intro s hs m
  have e1 : (offs.get s &&& 0x07) % 256 = sumTo s st.stripe_bitwidths.get % 8 := by
    rw [and7, hoff s hs]
    exact Nat.mod_eq_of_lt (by omega)
  have e2 : offs.get s >>> 3 = sumTo s st.stripe_bitwidths.get / 8 := by
    rw [shr3, hoff s hs]
  simp only [e1, e2, packStripePass, packedStripe, block_sz]
  split_ifs <;> rfl

/-- Inside the block, the packed bits of row `r` are the bits of its stripes. -/
theorem packBlockPasses_row (out rb : Nat) (w : Nat → Nat) (P : Nat → Nat → Nat)
    (nstripes : Nat) (m0 : Mem)
    (hw : ∀ s, s < nstripes → w s ≤ 64) (hP : ∀ i s, s < nstripes → P i s < 2 ^ w s)
    (hrb : sumTo nstripes w ≤ 8 * rb)
    (hzero : ∀ k, out ≤ k → k < out + 8 * rb → load8 m0 k = 0)
    (r t : Nat) (hr : r < 8) (ht : t < 8 * rb) :
    abit (packBlockPasses out rb w P nstripes m0) (8 * (out + r * rb) + t) =
      rowBit (P r) w nstripes t := by
  rw [packBlockPasses_bits out rb w P nstripes m0 hw hP hrb hzero nstripes (Nat.le_refl _)]
  have h3 : r * rb + rb ≤ 8 * rb := by nlinarith
  have hz0 : abit m0 (8 * (out + r * rb) + t) = false := by
    apply abit_zero_of_load8
    apply hzero <;> omega
  rw [hz0, Bool.false_or]
  unfold rowBit
  apply anyTo_congr
  intro s hs
  have hsingle := anyTo_single 8 r (fun i => stripeTerm out rb w P i s (8 * (out + r * rb) + t)) hr
    (by
      intro i hi hne
      simp only []
      rw [← Bool.not_eq_true]
      intro hterm
      have hrg := stripeTerm_range out rb w P i s _ (hP i s hs) hterm
      have h1 := sumTo_succ_le s nstripes w hs
      rcases Nat.lt_or_gt_of_ne hne with hlt | hgt
      · have h2 : (i + 1) * rb ≤ r * rb := Nat.mul_le_mul_right rb (by omega)
        have h5 : (i + 1) * rb = i * rb + rb := by ring
        omega
      · have h2 : (r + 1) * rb ≤ i * rb := Nat.mul_le_mul_right rb (by omega)
        have h5 : (r + 1) * rb = r * rb + rb := by ring
        omega)
  rw [hsingle]
  unfold stripeTerm
  have e1 : (8 * (out + r * rb) + sumTo s w ≤ 8 * (out + r * rb) + t) ↔ (sumTo s w ≤ t) := by omega
  have e2 : 8 * (out + r * rb) + t - (8 * (out + r * rb) + sumTo s w) = t - sumTo s w := by omega
  simp only [e1, e2]

/-- Outside the block nothing changes. -/
theorem packBlockPasses_frame (out rb : Nat) (w : Nat → Nat) (P : Nat → Nat → Nat)
    (nstripes : Nat) (m0 : Mem)
    (hw : ∀ s, s < nstripes → w s ≤ 64) (hP : ∀ i s, s < nstripes → P i s < 2 ^ w s)
    (hrb : sumTo nstripes w ≤ 8 * rb)
    (hzero : ∀ k, out ≤ k → k < out + 8 * rb → load8 m0 k = 0)
    (k : Nat) (hk : ¬ (out ≤ k ∧ k < out + 8 * rb)) :
    load8 (packBlockPasses out rb w P nstripes m0) k = load8 m0 k := by
  apply load8_eq_of_abit
  intro u hu
  rw [packBlockPasses_bits out rb w P nstripes m0 hw hP hrb hzero nstripes (Nat.le_refl _)]
  have : (anyTo nstripes fun s => anyTo 8 fun i => stripeTerm out rb w P i s (8 * k + u)) = false := by
    apply (anyTo_eq_false _ _).2
    intro s hs
    apply (anyTo_eq_false _ _).2
    intro i hi
    rw [← Bool.not_eq_true]
    intro hterm
    have hrg := stripeTerm_range out rb w P i s _ (hP i s hs) hterm
    have h1 := sumTo_succ_le s nstripes w hs
    have h3 : i * rb + rb ≤ 8 * rb := by nlinarith
    omega
  rw [this, Bool.or_false]

/-- Reading stripe `s` back from a packed row. -/
theorem rowBit_stripe (P : Nat → Nat) (w : Nat → Nat) (nstripes s j : Nat)
    (hP : ∀ s, s < nstripes → P s < 2 ^ w s) (hs : s < nstripes) (hj : j < w s) :
    rowBit P w nstripes (sumTo s w + j) = (P s).testBit j := by
  unfold rowBit
  rw [anyTo_single nstripes s _ hs]
  · simp
  · intro s' hs' hne
    rcases Nat.lt_or_gt_of_ne hne with hlt | hgt
    · have h1 := sumTo_succ_le s' s w hlt
      have := testBit_lt_pow (P s') (w s') (sumTo s w + j - sumTo s' w) (hP s' hs') (by omega)
      rw [this, Bool.and_false]
    · have h1 := sumTo_succ_le s s' w hgt
      have : ¬ sumTo s' w ≤ sumTo s w + j := by omega
      simp [this]

theorem forLoopDown_congr {σ : Type} (n : Nat) (f g : Nat → σ → σ) (s : σ)
    (h : ∀ i, i < n → ∀ x, f i x = g i x) : forLoopDown n f s = forLoopDown n g s := by
  induction n generalizing s with
  | zero => rfl
  | succ n ih =>
    rw [forLoopDown, forLoopDown, h n (by omega), ih _ (fun i hi => h i (by omega))]

/-- A pass of 8-byte stores leaves every address outside its windows alone. -/
theorem store_rows_frame (V : Nat → Nat) (base stride k : Nat) (m : Mem) (x : Nat)
    (hx : ∀ i, i < k → ¬ (base + i * stride ≤ x ∧ x < base + i * stride + 8)) :
    load8 (forLoop k (fun i m => storeLE 8 m (base + i * stride) (V i)) m) x = load8 m x := by
  induction k with
  | zero => rfl
  | succ k ih =>
    simp only [forLoop]
    rw [load8_storeLE, if_neg (hx k (by omega))]
    exact ih (fun i hi => hx i (by omega))

/-- After a pass of 8-byte stores, `stride` apart, the first `D ≤ stride` bytes
of each window hold the stored word. -/
theorem store_rows_written (V : Nat → Nat) (base stride k : Nat) (m : Mem) (i j : Nat)
    (hi : i < k) (hj : j < 8) (hjs : j < stride) :
    load8 (forLoop k (fun i m => storeLE 8 m (base + i * stride) (V i)) m)
        (base + i * stride + j) = (V i >>> (8 * j)) % 256 := by
  induction k with
  | zero => omega
  | succ k ih =>
    simp only [forLoop]
    rw [load8_storeLE]
    by_cases hik : i = k
    · subst hik
      rw [if_pos (by omega)]
      congr 3
      omega
    · have h2 : (i + 1) * stride ≤ k * stride := Nat.mul_le_mul_right stride (by omega)
      have h5 : (i + 1) * stride = i * stride + stride := by ring
      rw [if_neg (by omega)]
      exact ih (by omega)

theorem unpackStores_succ (V : Nat → Nat → Nat) (out stride n : Nat) (m : Mem) :
    unpackStores V out stride (n + 1) m =
      unpackStores V out stride n
        (forLoop 8 (fun i m => storeLE 8 m (out + n * 8 + i * stride) (V i n)) m) := rfl

/-- `unpackStores` leaves every address outside its windows alone. -/
theorem unpackStores_frame (V : Nat → Nat → Nat) (out stride n : Nat) (m : Mem) (x : Nat)
    (hx : ∀ s i, s < n → i < 8 →
      ¬ (out + s * 8 + i * stride ≤ x ∧ x < out + s * 8 + i * stride + 8)) :
    load8 (unpackStores V out stride n m) x = load8 m x := by
  induction n generalizing m with
  | zero => rfl
  | succ n ih =>
    rw [unpackStores_succ, ih _ (fun s i hs hi => hx s i (by omega) hi)]
    exact store_rows_frame (fun i => V i n) (out + n * 8) stride 8 m x
      (fun i hi => hx n i (by omega) hi)

/-- After `unpackStores`, column `d` of row `i` holds byte `d % 8` of the word
stored for stripe `d / 8`: later stores never reach it. -/
theorem unpackStores_written (V : Nat → Nat → Nat) (out stride D n : Nat) (m : Mem)
    (hD : D ≤ stride) (i d : Nat) (hi : i < 8) (hd : d < D) (hdn : d / 8 < n) :
    load8 (unpackStores V out stride n m) (out + i * stride + d) =
      (V i (d / 8) >>> (8 * (d % 8))) % 256 := by
  induction n generalizing m with
  | zero => omega
  | succ n ih =>
    rw [unpackStores_succ]
    by_cases hlt : d / 8 < n
    · exact ih _ hlt
    · have hdn' : d / 8 = n := by omega
      rw [unpackStores_frame]
      · have := store_rows_written (fun i => V i n) (out + n * 8) stride 8 m i (d % 8) hi
          (Nat.mod_lt _ (by norm_num)) (by omega)
        rw [show out + n * 8 + i * stride + d % 8 = out + i * stride + d by omega] at this
        rw [this, hdn']
      · intro s i' hs hi'
        rcases Nat.lt_trichotomy i' i with h | h | h
        · have h2 : (i' + 1) * stride ≤ i * stride := Nat.mul_le_mul_right stride (by omega)
          have h5 : (i' + 1) * stride = i' * stride + stride := by ring
          omega
        · subst h; omega
        · have h2 : (i + 1) * stride ≤ i' * stride := Nat.mul_le_mul_right stride (by omega)
          have h5 : (i + 1) * stride = i * stride + stride := by ring
          omega

theorem unpackBlock_eq (masks bitwidths : Nat → Nat) (offs : Arr) (nstripes : Nat) (src : Mem)
    (inp rb out stride : Nat) (outbuf : Mem)
    (hoff : ∀ s, s < nstripes → offs.get s = sumTo s bitwidths) :
    unpackBlock masks bitwidths offs nstripes src inp rb out stride outbuf =
      unpackStores (unpackWord masks bitwidths src inp rb) out stride nstripes outbuf := by
  unfold unpackBlock unpackStores
  apply forLoopDown_congr
  intro s hs m
  have e1 : offs.get s &&& 0x07 = sumTo s bitwidths % 8 := by rw [and7, hoff s hs]
  have e2 : offs.get s >>> 3 = sumTo s bitwidths / 8 := by rw [shr3, hoff s hs]
  simp only [e1, e2, unpackWord]
  split_ifs <;> rfl

/-- The packed word a decoder rebuilds for stripe `s` of row `i` has, in its
low `w s` bits, the bits of that stripe in the packed row. -/
theorem unpack_packed_mod (src : Mem) (a ob w : Nat) (hob : ob < 8) (hw : w ≤ 64) :
    ∀ j, j < w →
      (if (w % 256 + ob) % 256 ≤ 64 then loadLE 8 src a >>> ob
        else (loadLE 8 src a >>> ob) |||
          ((loadLE 8 src (a + 8) <<< (w % 256 - ((w % 256 + ob) % 256 - 64) % 256)) % 2 ^ 64)).testBit j
      = abit src (8 * a + ob + j) := by
  intro j hj
  have hw1 : w % 256 = w := Nat.mod_eq_of_lt (by omega)
  have ht : (w + ob) % 256 = w + ob := Nat.mod_eq_of_lt (by omega)
  rw [hw1, ht]
  by_cases hfast : w + ob ≤ 64
  · rw [if_pos hfast, Nat.testBit_shiftRight, loadLE_testBit]
    have : ob + j < 8 * 8 := by omega
    simp only [this, decide_True, Bool.true_and]
    congr 1
    omega
  · rw [if_neg hfast, Nat.testBit_or, Nat.testBit_shiftRight, loadLE_testBit,
      Nat.testBit_mod_two_pow, Nat.testBit_shiftLeft, loadLE_testBit]
    have hnl : (w + ob - 64) % 256 = w + ob - 64 := Nat.mod_eq_of_lt (by omega)
    rw [hnl]
    have hsh : w - (w + ob - 64) = 64 - ob := by omega
    rw [hsh]
    by_cases hlow : ob + j < 64
    · have c1 : ob + j < 8 * 8 := by omega
      have c2 : ¬ j ≥ 64 - ob := by omega
      simp only [c1, decide_True, Bool.true_and, c2, decide_False, Bool.false_and, Bool.and_false,
        Bool.or_false]
      congr 1
      omega
    · have c1 : ¬ ob + j < 8 * 8 := by omega
      have c2 : j ≥ 64 - ob := by omega
      have c3 : j < 64 := by omega
      have c4 : j - (64 - ob) < 8 * 8 := by omega
      simp only [c1, decide_False, Bool.false_and, Bool.false_or, c2, c3, decide_True, c4,
        Bool.true_and]
      congr 1
      omega

theorem mod_pow_eq_of_testBit (x y w : Nat) (hy : y < 2 ^ w)
    (h : ∀ j, j < w → x.testBit j = y.testBit j) : x % 2 ^ w = y := by
  apply Nat.eq_of_testBit_eq
  intro j
  rw [Nat.testBit_mod_two_pow]
  by_cases hj : j < w
  · simp [hj, h j hj]
  · simp [hj, testBit_lt_pow y w j hy (by omega)]

/-- The word unpacked for stripe `s` of row `i` is the original word of that
stripe, masked. -/
theorem unpackWord_testBit (masks w : Nat → Nat) (P : Nat → Nat) (src : Mem) (inp rb : Nat)
    (nstripes i s : Nat) (data : Nat)
    (hs : s < nstripes) (hw : w s ≤ 64)
    (hP : ∀ s, s < nstripes → P s < 2 ^ w s)
    (hPs : P s = pext_u64 data (masks s)) (hpop : popcount_u64 (masks s) = w s)
    (hrb : sumTo nstripes w ≤ 8 * rb)
    (hsrc : ∀ t, t < 8 * rb → abit src (8 * (inp + i * rb) + t) = rowBit P w nstripes t)
    (t : Nat) :
    (unpackWord masks w src inp rb i s).testBit t =
      (decide (t < 64) && (data.testBit t && (masks s).testBit t)) := by
  have hob : sumTo s w % 8 < 8 := Nat.mod_lt _ (by norm_num)
  have hbits := unpack_packed_mod src (inp + sumTo s w / 8 + i * rb) (sumTo s w % 8) (w s) hob hw
  have h1 := sumTo_succ_le s nstripes w hs
  have hmod : ∀ y, (∀ j, j < w s → y.testBit j = abit src (8 * (inp + sumTo s w / 8 + i * rb)
      + sumTo s w % 8 + j)) → y % 2 ^ popcount_u64 (masks s) = pext_u64 data (masks s) := by
    intro y hy
    rw [hpop, ← hPs]
    apply mod_pow_eq_of_testBit _ _ _ (hP s hs)
    intro j hj
    rw [hy j hj]
    have e : 8 * (inp + sumTo s w / 8 + i * rb) + sumTo s w % 8 + j
        = 8 * (inp + i * rb) + (sumTo s w + j) := by
      have := Nat.div_add_mod (sumTo s w) 8
      omega
    rw [e, hsrc _ (by omega), rowBit_stripe P w nstripes s j hP hs hj]
  unfold unpackWord
  simp only []
  split_ifs with hc
  · apply pdep_pext_testBit
    apply hmod
    intro j hj
    have := hbits j hj
    rwa [if_pos hc] at this
  · apply pdep_pext_testBit
    apply hmod
    intro j hj
    have := hbits j hj
    rwa [if_neg hc] at this

theorem sumTo_add (a b : Nat) (f : Nat → Nat) :
    sumTo (a + b) f = sumTo a f + sumTo b (fun j => f (a + j)) := by
  induction b with
  | zero => simp [sumTo]
  | succ b ih =>
    rw [show a + (b + 1) = (a + b) + 1 from rfl, sumTo, ih, sumTo]
    ring

theorem sumTo_blocks (a : Nat) (f : Nat → Nat) :
    sumTo (8 * a) f = sumTo a (fun j => sumTo 8 (fun u => f (8 * j + u))) := by
  induction a with
  | zero => rfl
  | succ a ih =>
    rw [show 8 * (a + 1) = 8 * a + 8 by ring, sumTo_add, ih]
    rfl

theorem sumTo_zero_fun (n : Nat) : sumTo n (fun _ => 0) = 0 := by
  induction n with
  | zero => rfl
  | succ n ih => rw [sumTo, ih]

/-- With masks from `nbits_to_mask`, the population count of a stripe mask is
the stripe's bit-width. -/
theorem statsOf_popcount (T dm : Nat → Nat) (n s : Nat)
    (hpop : ∀ d, d < n → popcountAux 8 (maskOf T dm d) = maxNbits (maskOf T dm d)) :
    popcount_u64 ((statsOf T dm n).stripe_masks.get s) =
      (statsOf T dm n).stripe_bitwidths.get s := by
  unfold popcount_u64
  rw [popcountAux_eq_sum, statsOf_widths, show (64 : Nat) = 8 * 8 from rfl, sumTo_blocks]
  apply sumTo_congr
  intro j hj
  simp only [statsOf_masks_testBit]
  by_cases hd : 8 * s + j < n
  · rw [if_pos hd]
    have hf := hpop _ hd
    rw [← hf, popcountAux_eq_sum]
    apply sumTo_congr
    intro u hu
    have e1 : (8 * j + u) / 8 = j := by omega
    have e2 : (8 * j + u) % 8 = u := by omega
    have e3 : 8 * j + u < 8 * 8 := by omega
    simp [e1, e2, e3, hd]
  · rw [if_neg hd]
    refine (sumTo_congr 8 _ (fun _ => 0) ?_).trans (sumTo_zero_fun 8)
    intro u hu
    have e1 : (8 * j + u) / 8 = j := by omega
    simp [e1, hd]

theorem statsOf_widths_le (T dm : Nat → Nat) (n s : Nat) :
    (statsOf T dm n).stripe_bitwidths.get s ≤ 64 := by
  rw [statsOf_widths]
  have := sumTo_le 8 8 (fun j => if 8 * s + j < n then maxNbits (maskOf T dm (8 * s + j)) else 0)
    (by
      intro j _
      simp only []
      split_ifs
      · exact maxNbits_le _ (maskOf_lt T dm _)
      · omega)
  omega

theorem packedStripe_lt (T dm : Nat → Nat) (n : Nat) (inbuf : Mem) (inp in_stride i s : Nat)
    (hpop : ∀ d, d < n → popcountAux 8 (maskOf T dm d) = maxNbits (maskOf T dm d)) :
    packedStripe (statsOf T dm n).stripe_masks.get inbuf inp in_stride i s
      < 2 ^ (statsOf T dm n).stripe_bitwidths.get s := by
  rw [← statsOf_popcount T dm n s hpop]
  exact pextAux_lt 64 _ _

theorem nstripesOf_gt (D d : Nat) (hd : d < D) : d / 8 < nstripesOf D := by
  unfold nstripesOf stripe_sz
  split_ifs <;> omega

theorem nstripesOf_pos (D : Nat) (hD : 1 ≤ D) : 1 ≤ nstripesOf D := by
  have := nstripesOf_gt D 0 (by omega)
  omega

theorem nstripesOf_le (D : Nat) : 8 * nstripesOf D < D + 8 := by
  unfold nstripesOf stripe_sz
  split_ifs <;> omega

theorem rowBit_congr (P : Nat → Nat) (w w2 : Nat → Nat) (n t : Nat)
    (h : ∀ s, s < n → w s = w2 s) : rowBit P w n t = rowBit P w2 n t := by
  unfold rowBit
  apply anyTo_congr
  intro s hs
  have : sumTo s w = sumTo s w2 := sumTo_congr s w w2 (fun j hj => h j (by omega))
  simp only [this]

/-- One block, from the packed rows back to the bytes: a decoder that holds the
encoder's stripe masks and widths writes back every byte of the block. -/
theorem unpackBlock_of_packed (T dm : Nat → Nat) (D : Nat) (inbuf : Mem) (inp in_stride : Nat)
    (cm : Mem) (cin rb : Nat) (masks2 w2 : Nat → Nat) (offs2 : Arr) (out stride : Nat)
    (outbuf : Mem)
    (hok : ∀ d, d < D → maskOf T dm d ∈ okMasks)
    (hcover : ∀ i d, i < 8 → d < D →
      load8 inbuf (inp + i * in_stride + d) &&& maskOf T dm d
        = load8 inbuf (inp + i * in_stride + d))
    (hrb : sumTo (nstripesOf D) (statsOf T dm D).stripe_bitwidths.get ≤ 8 * rb)
    (hbody : ∀ i t, i < 8 → t < 8 * rb → abit cm (8 * (cin + i * rb) + t) =
      rowBit (packedStripe (statsOf T dm D).stripe_masks.get inbuf inp in_stride i)
        (statsOf T dm D).stripe_bitwidths.get (nstripesOf D) t)
    (hm2 : ∀ s, s < nstripesOf D → masks2 s = (statsOf T dm D).stripe_masks.get s)
    (hw2 : ∀ s, s < nstripesOf D → w2 s = (statsOf T dm D).stripe_bitwidths.get s)
    (hoff2 : ∀ s, s < nstripesOf D → offs2.get s = sumTo s w2)
    (hstride : D ≤ stride) (i d : Nat) (hi : i < 8) (hd : d < D) :
    load8 (unpackBlock masks2 w2 offs2 (nstripesOf D) cm cin rb out stride outbuf)
        (out + i * stride + d) = load8 inbuf (inp + i * in_stride + d) := by
  have hs := nstripesOf_gt D d hd
  rw [unpackBlock_eq _ _ _ _ _ _ _ _ _ _ hoff2,
    unpackStores_written _ out stride D _ outbuf hstride i d hi hd hs]
  have hsum : sumTo (nstripesOf D) w2 = sumTo (nstripesOf D) (statsOf T dm D).stripe_bitwidths.get :=
    sumTo_congr _ _ _ hw2
  have hbit := unpackWord_testBit masks2 w2
    (packedStripe (statsOf T dm D).stripe_masks.get inbuf inp in_stride i) cm cin rb
    (nstripesOf D) i (d / 8) (loadLE 8 inbuf (inp + d / 8 * stripe_sz + i * in_stride)) hs
    (by rw [hw2 _ hs]; exact statsOf_widths_le T dm D _)
    (by
      intro s hs'
      rw [hw2 s hs']
      exact packedStripe_lt T dm D inbuf inp in_stride i s
        (fun d hd => (okMasks_facts _ (hok d hd)).2.1))
    (by rw [hm2 _ hs]; rfl)
    (by
      rw [hm2 _ hs, hw2 _ hs]
      exact statsOf_popcount T dm D _ (fun d hd => (okMasks_facts _ (hok d hd)).2.1))
    (by rw [hsum]; exact hrb)
    (by
      intro t ht
      rw [hbody i t hi ht]
      exact rowBit_congr _ _ _ _ _ (fun s hs' => (hw2 s hs').symm))
  apply Nat.eq_of_testBit_eq
  intro u
  rw [mod256_testBit, Nat.testBit_shiftRight, hbit, hm2 _ hs, statsOf_masks_testBit,
    loadLE_testBit]
  by_cases hu : u < 8
  · have e1 : (8 * (d % 8) + u) / 8 = d % 8 := by omega
    have e2 : (8 * (d % 8) + u) % 8 = u := by omega
    have e3 : 8 * (d / 8) + d % 8 = d := by omega
    have e4 : 8 * (d % 8) + u < 64 := by omega
    have e5 : 8 * (inp + d / 8 * stripe_sz + i * in_stride) + (8 * (d % 8) + u)
        = 8 * (inp + i * in_stride + d) + u := by
      unfold stripe_sz; omega
    rw [e1, e2, e3, e5, abit_def _ _ _ hu]
    have hc := hcover i d hi hd
    have : (load8 inbuf (inp + i * in_stride + d)).testBit u =
        ((load8 inbuf (inp + i * in_stride + d)).testBit u && (maskOf T dm d).testBit u) := by
      conv_lhs => rw [← hc]
      rw [Nat.testBit_and]
    rw [this]
    simp [hu, e4, hd]
  · rw [load8_testBit_ge _ _ _ (by omega)]
    simp [hu]

/-! ## Zig-zag coding of a byte -/

set_option maxRecDepth 100000 in
theorem zigzag_decode_encode_u8 : ∀ x, x < 256 → zigzag_decode_i8 (zigzag_encode_i8 x) = x := by
  decide

set_option maxRecDepth 100000 in
theorem zigzag_encode_decode_u8 : ∀ u, u < 256 → zigzag_encode_i8 (zigzag_decode_i8 u) = u := by
  decide

set_option maxRecDepth 100000 in
theorem zigzag_encode_lt : ∀ x, x < 256 → zigzag_encode_i8 x < 256 := by
  decide

set_option maxRecDepth 100000 in
theorem zigzag_decode_lt : ∀ u, u < 256 → zigzag_decode_i8 u < 256 := by
  decide

theorem u8_of_i8_lt (x : Int) : u8_of_i8 x < 256 := by
  unfold u8_of_i8
  omega

theorem i8_of_u8_of_i8 (x : Int) (h1 : -128 ≤ x) (h2 : x ≤ 127) : i8_of_u8 (u8_of_i8 x) = x := by
  unfold i8_of_u8 u8_of_i8
  split_ifs <;> omega

/-- C15: zig-zag decoding undoes zig-zag encoding.  For every signed 8-bit
value `x` in `[-128, 127]`, encoding the byte that represents `x` and decoding
the result gives back `x`. -/
theorem zigzag_decode_encode (x : Int) (h1 : -128 ≤ x) (h2 : x ≤ 127) :
    i8_of_u8 (zigzag_decode_i8 (zigzag_encode_i8 (u8_of_i8 x))) = x := by
  rw [zigzag_decode_encode_u8 _ (u8_of_i8_lt x)]
  exact i8_of_u8_of_i8 x h1 h2

theorem zigzag_decode_encode_witness :
    i8_of_u8 (zigzag_decode_i8 (zigzag_encode_i8 (u8_of_i8 (-128)))) = -128 :=
  zigzag_decode_encode (-128) (by decide) (by decide)

/-- C16: zig-zag encoding undoes zig-zag decoding.  For every byte `u` in
`[0, 255]`, decoding and encoding again gives back `u`; the encoding is a
bijection from the bytes that represent the signed values onto the unsigned
bytes, and every signed value is reached by decoding. -/
theorem zigzag_encode_decode (u : Nat) (h : u < 256) :
    zigzag_encode_i8 (zigzag_decode_i8 u) = u ∧
    Set.BijOn zigzag_encode_i8 {x | x < 256} {v | v < 256} ∧
    (∀ x : Int, -128 ≤ x → x ≤ 127 → ∃ v, v < 256 ∧ i8_of_u8 (zigzag_decode_i8 v) = x) := by
  refine ⟨zigzag_encode_decode_u8 u h, ⟨?_, ?_, ?_⟩, ?_⟩
  · intro x hx
    exact zigzag_encode_lt x hx
  · intro a ha b hb hab
    have := congrArg zigzag_decode_i8 hab
    rwa [zigzag_decode_encode_u8 a ha, zigzag_decode_encode_u8 b hb] at this
  · intro v hv
    exact ⟨zigzag_decode_i8 v, zigzag_decode_lt v hv, zigzag_encode_decode_u8 v hv⟩
  · intro x h1 h2
    refine ⟨zigzag_encode_i8 (u8_of_i8 x), zigzag_encode_lt _ (u8_of_i8_lt x), ?_⟩
    rw [zigzag_decode_encode_u8 _ (u8_of_i8_lt x)]
    exact i8_of_u8_of_i8 x h1 h2

theorem zigzag_encode_decode_witness :
    zigzag_encode_i8 (zigzag_decode_i8 255) = 255 ∧
    Set.BijOn zigzag_encode_i8 {x | x < 256} {v | v < 256} ∧
    (∀ x : Int, -128 ≤ x → x ≤ 127 → ∃ v, v < 256 ∧ i8_of_u8 (zigzag_decode_i8 v) = x) :=
  zigzag_encode_decode 255 (by decide)

/-! ## The bit-width analyzer -/

theorem or_lt_two_pow_iff (a b k : Nat) : a ||| b < 2 ^ k ↔ a < 2 ^ k ∧ b < 2 ^ k := by
  constructor
  · intro h
    have hb : ∀ j, k ≤ j → (a ||| b).testBit j = false := fun j hj =>
      Nat.testBit_lt_two_pow (lt_of_lt_of_le h (Nat.pow_le_pow_right (by norm_num) hj))
    constructor
    · apply Nat.lt_pow_two_of_testBit
      intro j hj
      have := hb j hj
      rw [Nat.testBit_or, Bool.or_eq_false_iff] at this
      exact this.1
    · apply Nat.lt_pow_two_of_testBit
      intro j hj
      have := hb j hj
      rw [Nat.testBit_or, Bool.or_eq_false_iff] at this
      exact this.2
  · rintro ⟨h1, h2⟩
    exact Nat.or_lt_two_pow h1 h2

/-- The OR of the values of a block is below a power of two exactly when every
value is. -/
theorem orLoop_lt_iff (f : Nat → Nat) (n k : Nat) :
    forLoop n (fun i mask => mask ||| f i) 0 < 2 ^ k ↔ ∀ i, i < n → f i < 2 ^ k := by
  induction n with
  | zero => simp [forLoop]
  | succ n ih =>
    rw [forLoop, or_lt_two_pow_iff, ih]
    constructor
    · rintro ⟨h1, h2⟩ i hi
      rcases Nat.lt_succ_iff_lt_or_eq.mp hi with h | h
      · exact h1 i h
      · rw [h]; exact h2
    · intro h
      exact ⟨fun i hi => h i (by omega), h n (by omega)⟩

theorem orReduce_lt_iff (src : Mem) (p ndims dim k : Nat) :
    orReduce src p ndims dim < 2 ^ k ↔
      ∀ i, i < block_sz → load8 src (p + i * ndims + dim) < 2 ^ k :=
  orLoop_lt_iff _ _ _

theorem orReduce_lt (src : Mem) (p ndims dim : Nat) : orReduce src p ndims dim < 256 := by
  have := (orReduce_lt_iff src p ndims dim 8).mpr (fun i _ => load8_lt _ _)
  simpa using this

/-- The OR of the values of a block and their maximum have the same bit length. -/
theorem orReduce_lt_iff_max (src : Mem) (p ndims dim m : Nat)
    (hmax : ∀ i, i < block_sz → load8 src (p + i * ndims + dim) ≤ m)
    (hatt : ∃ i, i < block_sz ∧ load8 src (p + i * ndims + dim) = m) (k : Nat) :
    orReduce src p ndims dim < 2 ^ k ↔ m < 2 ^ k := by
  rw [orReduce_lt_iff]
  constructor
  · intro h
    obtain ⟨i, hi, he⟩ := hatt
    rw [← he]
    exact h i hi
  · intro h i hi
    exact lt_of_le_of_lt (hmax i hi) h

theorem accumDim_zero_width (T : Nat → Nat) (dim mask0 : Nat) :
    (accumDim T dim mask0 StripeStats.zero).stripe_bitwidths.get (dim / stripe_sz) =
      maxNbits (T mask0 % 256) := by
  have h := maxNbits_le (T mask0 % 256) (Nat.mod_lt _ (by norm_num))
  simp only [accumDim, StripeStats.zero, setAt_get, Arr_zero_get, if_true, Nat.zero_add]
  unfold maxNbits at h ⊢
  omega

/-- What the decoders derive from the header field of a mask of `okMasks`. -/
theorem okMasks_decLane : ∀ M ∈ okMasks,
    decLaneMask (writeNbits M) = M ∧ decLaneWidth (writeNbits M) = maxNbits M := by
  decide

theorem accumDim_zero_mask (T : Nat → Nat) (dim mask0 : Nat) :
    (accumDim T dim mask0 StripeStats.zero).stripe_masks.get (dim / stripe_sz) =
      ((T mask0 % 256) <<< (dim % stripe_sz * 8)) % 2 ^ 64 := by
  simp only [accumDim, StripeStats.zero, setAt_get, Arr_zero_get, if_true, Nat.zero_or]

theorem accumDim_zero_header (T : Nat → Nat) (dim mask0 : Nat) :
    (accumDim T dim mask0 StripeStats.zero).stripe_headers.get (dim / stripe_sz) =
      (writeNbits (T mask0 % 256) <<< (dim % stripe_sz * nbits_sz_bits)) % 2 ^ 32 := by
  simp only [accumDim, StripeStats.zero, setAt_get, Arr_zero_get, if_true, Nat.zero_or, writeNbits,
    maxNbits]

/-- The hypothesis `TableOK` is needed below.  If the table had `0x7f` for the
bytes 64..127 (`NBITS_MASKS_U8`, which is not `TableOK`), a dimension whose
eight values OR to 64 would be packed with 7 bits per value under the mask
`0x7f` and get the header field 7, from which the decoders derive 8 bits and
the mask `0xff`. -/
theorem width7_packed_with_seven_bits :
    orReduce (Mem.ofList [64, 0, 0, 0, 0, 0, 0, 0]) 0 1 0 = 64 ∧
    (stripeStats NBITS_MASKS_U8 (Mem.ofList [64, 0, 0, 0, 0, 0, 0, 0]) 0 1).stripe_headers.get 0 = 7 ∧
    (stripeStats NBITS_MASKS_U8 (Mem.ofList [64, 0, 0, 0, 0, 0, 0, 0]) 0 1).stripe_masks.get 0
      = 0x7f ∧
    (stripeStats NBITS_MASKS_U8 (Mem.ofList [64, 0, 0, 0, 0, 0, 0, 0]) 0 1).stripe_bitwidths.get 0
      = 7 ∧
    decLaneMask 7 = 0xff ∧ decLaneWidth 7 = 8 := by
  decide

/-- C14: widths 7 and 8 are packed identically on both sides.  For a width
table whose masks are those of the decoders (`TableOK`), a dimension whose
largest value `m` needs 7 or 8 bits (`64 ≤ m`) gets the header field 7 and is
packed with 8 bits per value under the mask `0xff`, and the mask and width the
decoders derive from that header field are exactly those. -/
theorem width_7_8_packed_identically (T : Nat → Nat) (hT : TableOK T)
    (src : Mem) (p ndims dim m : Nat)
    (hmax : ∀ i, i < block_sz → load8 src (p + i * ndims + dim) ≤ m)
    (hatt : ∃ i, i < block_sz ∧ load8 src (p + i * ndims + dim) = m)
    (h64 : 64 ≤ m) :
    writeNbits (T (orReduce src p ndims dim) % 256) = 7 ∧
    T (orReduce src p ndims dim) % 256 = 0xff ∧
    maxNbits (T (orReduce src p ndims dim) % 256) = 8 ∧
    decLaneMask (writeNbits (T (orReduce src p ndims dim) % 256)) = 0xff ∧
    decLaneWidth (writeNbits (T (orReduce src p ndims dim) % 256)) = 8 ∧
    (accumDim T dim (orReduce src p ndims dim) StripeStats.zero).stripe_headers.get
      (dim / stripe_sz) = 7 <<< (dim % stripe_sz * nbits_sz_bits) ∧
    (accumDim T dim (orReduce src p ndims dim) StripeStats.zero).stripe_masks.get
      (dim / stripe_sz) = 0xff <<< (dim % stripe_sz * 8) ∧
    (accumDim T dim (orReduce src p ndims dim) StripeStats.zero).stripe_bitwidths.get
      (dim / stripe_sz) = 8 := by
  have ho : 64 ≤ orReduce src p ndims dim := by
    by_contra hc
    have := (orReduce_lt_iff_max src p ndims dim m hmax hatt 6).mp (by norm_num; omega)
    norm_num at this
    omega
  obtain ⟨hmem, hcov⟩ := hT _ (orReduce_lt src p ndims dim)
  have hM : T (orReduce src p ndims dim) = 0xff := by
    simp only [okMasks, List.mem_cons, List.mem_singleton, List.not_mem_nil, or_false] at hmem
    omega
  have hacc1 := accumDim_zero_header T dim (orReduce src p ndims dim)
  have hacc2 := accumDim_zero_mask T dim (orReduce src p ndims dim)
  have hacc3 := accumDim_zero_width T dim (orReduce src p ndims dim)
  rw [hM] at hacc1 hacc2 hacc3 ⊢
  have hd : dim % stripe_sz < 8 := Nat.mod_lt _ (by decide)
  have e1 : writeNbits (0xff % 256) = 7 := by decide
  have e2 : maxNbits (0xff % 256) = 8 := by decide
  rw [e1] at hacc1
  rw [e2] at hacc3
  refine ⟨e1, by norm_num, e2, by rw [e1]; decide, by rw [e1]; decide, ?_, ?_, hacc3⟩
  · rw [hacc1]
    apply Nat.mod_eq_of_lt
    rw [Nat.shiftLeft_eq, nbits_sz_bits]
    calc 7 * 2 ^ (dim % stripe_sz * 3) ≤ 7 * 2 ^ 21 :=
          Nat.mul_le_mul_left _ (Nat.pow_le_pow_right (by norm_num) (by omega))
      _ < 2 ^ 32 := by norm_num
  · rw [hacc2]
    apply Nat.mod_eq_of_lt
    rw [Nat.shiftLeft_eq]
    calc 0xff % 256 * 2 ^ (dim % stripe_sz * 8) ≤ 255 * 2 ^ 56 :=
          Nat.mul_le_mul (by norm_num) (Nat.pow_le_pow_right (by norm_num) (by omega))
      _ < 2 ^ 64 := by norm_num

theorem width_7_8_packed_identically_witness :
    writeNbits (NBITS_MASKS_U8_folded (orReduce (Mem.ofList [64, 0, 0, 0, 0, 0, 0, 0]) 0 1 0)
      % 256) = 7 ∧
    NBITS_MASKS_U8_folded (orReduce (Mem.ofList [64, 0, 0, 0, 0, 0, 0, 0]) 0 1 0) % 256 = 0xff ∧
    maxNbits (NBITS_MASKS_U8_folded (orReduce (Mem.ofList [64, 0, 0, 0, 0, 0, 0, 0]) 0 1 0)
      % 256) = 8 ∧
    decLaneMask (writeNbits
      (NBITS_MASKS_U8_folded (orReduce (Mem.ofList [64, 0, 0, 0, 0, 0, 0, 0]) 0 1 0) % 256))
        = 0xff ∧
    decLaneWidth (writeNbits
      (NBITS_MASKS_U8_folded (orReduce (Mem.ofList [64, 0, 0, 0, 0, 0, 0, 0]) 0 1 0) % 256))
        = 8 ∧
    (accumDim NBITS_MASKS_U8_folded 0 (orReduce (Mem.ofList [64, 0, 0, 0, 0, 0, 0, 0]) 0 1 0)
      StripeStats.zero).stripe_headers.get (0 / stripe_sz) = 7 <<< (0 % stripe_sz * nbits_sz_bits) ∧
    (accumDim NBITS_MASKS_U8_folded 0 (orReduce (Mem.ofList [64, 0, 0, 0, 0, 0, 0, 0]) 0 1 0)
      StripeStats.zero).stripe_masks.get (0 / stripe_sz) = 0xff <<< (0 % stripe_sz * 8) ∧
    (accumDim NBITS_MASKS_U8_folded 0 (orReduce (Mem.ofList [64, 0, 0, 0, 0, 0, 0, 0]) 0 1 0)
      StripeStats.zero).stripe_bitwidths.get (0 / stripe_sz) = 8 :=
  width_7_8_packed_identically NBITS_MASKS_U8_folded TableOK_folded
    (Mem.ofList [64, 0, 0, 0, 0, 0, 0, 0]) 0 1 0 64 (by decide) ⟨0, by decide, by decide⟩
    (by decide)

/-! ## The run-length field -/

theorem and_7f (x : Nat) : x &&& 0x7f = x % 128 := Nat.and_pow_two_sub_one_eq_mod x 7

theorem and_ff (x : Nat) : x &&& 0xff = x % 256 := Nat.and_pow_two_sub_one_eq_mod x 8

theorem or_80 (b : Nat) (h : b < 128) : b ||| 0x80 = b + 128 := by
  have := Nat.mul_add_lt_is_or (i := 7) (b := b) h 1
  rw [Nat.or_comm]
  norm_num at this
  omega

theorem or_shl7 (b a : Nat) (h : b < 128) : b ||| (a <<< 7) = 128 * a + b := by
  have := Nat.mul_add_lt_is_or (i := 7) (b := b) h a
  rw [Nat.or_comm, Nat.shiftLeft_eq, Nat.mul_comm a]
  norm_num at this ⊢
  omega

theorem shr7 (x : Nat) : x >>> 7 = x / 128 := by
  rw [Nat.shiftRight_eq_div_pow]

theorem load8_store8 (m : Mem) (a v k : Nat) :
    load8 (store8 m a v) k = if k = a then v % 256 else load8 m k := by
  unfold load8
  rw [store8_get]
  split_ifs <;> simp

/-- The result of `writeRunLength`, in closed form. -/
theorem writeRunLength_eq (mem : Mem) (dest len : Nat) (k : Nat) :
    (writeRunLength mem dest len).2 = dest + (if len ≤ 0x7f then 1 else 2) ∧
    load8 (writeRunLength mem dest len).1 k =
      if len ≤ 0x7f then (if k = dest then len % 128 else load8 mem k)
      else if k = dest then len % 128 + 128
      else if k = dest + 1 then (len / 128) % 256 else load8 mem k := by
  unfold writeRunLength
  have h128 : len % 128 < 128 := Nat.mod_lt _ (by norm_num)
  by_cases h : len ≤ 0x7f
  · have h' : ¬ len > 0x7f := by omega
    simp only [h', if_false, h, if_true, load8_store8, and_7f, true_and]
    split_ifs
    · omega
    · rfl
  · have h' : len > 0x7f := by omega
    simp only [h', if_true, h, if_false, load8_store8, and_7f, Nat.add_sub_cancel, shr7, if_true,
      true_and]
    by_cases hk : k = dest
    · have : ¬ k = dest + 1 := by omega
      simp only [hk, if_true]
      rw [if_neg (by omega)]
      rw [Nat.mod_eq_of_lt (a := len % 128) (by omega), or_80 _ h128]
      omega
    · simp only [hk, if_false]

/-- The run-length field as the decoder parses it, in closed form. -/
theorem readRunLength_eq (src : Mem) (p : Nat) :
    readRunLength src p =
      if 128 ≤ load8 src p then
        (128 * load8 src (p + 1) + load8 src p % 128, 1 + (if load8 src (p + 1) > 0 then 1 else 0))
      else (load8 src p, 1) := by
  unfold readRunLength
  have hl := load8_lt src p
  have hh := load8_lt src (p + 1)
  have h128 : load8 src p % 128 < 128 := Nat.mod_lt _ (by norm_num)
  by_cases h : 128 ≤ load8 src p
  · simp only [h, if_true, and_ff, and_7f, load8_mod, or_shl7 _ _ h128]
  · simp only [h, if_false, Nat.and_zero, and_7f, Nat.zero_shiftLeft, Nat.or_zero,
      Nat.lt_irrefl, gt_iff_lt, Nat.add_zero]
    rw [Nat.mod_eq_of_lt (by omega)]

/-- C17: the run-length field the encoder writes.  A run length `len` in
`1..0x7fff` is written as one byte equal to `len`, below `0x80` (top bit clear), when
`len ≤ 0x7f`, and otherwise as two bytes, `(len & 0x7f) | 0x80` followed by
`len >> 7`; the write position advances by one or by two, and no other byte of
the destination changes. -/
theorem run_length_field_encoding (mem : Mem) (dest len : Nat) (h1 : 1 ≤ len)
    (h2 : len ≤ 0x7fff) :
    (len ≤ 0x7f →
      (writeRunLength mem dest len).2 = dest + 1 ∧
      load8 (writeRunLength mem dest len).1 dest = len ∧
      load8 (writeRunLength mem dest len).1 dest < 0x80) ∧
    (0x7f < len →
      (writeRunLength mem dest len).2 = dest + 2 ∧
      load8 (writeRunLength mem dest len).1 dest = (len &&& 0x7f) ||| 0x80 ∧
      load8 (writeRunLength mem dest len).1 (dest + 1) = len >>> 7) ∧
    (∀ k, k < dest ∨ (writeRunLength mem dest len).2 ≤ k →
      load8 (writeRunLength mem dest len).1 k = load8 mem k) := by
  have h128 : len % 128 < 128 := Nat.mod_lt _ (by norm_num)
  refine ⟨?_, ?_, ?_⟩
  · intro h
    obtain ⟨e1, e2⟩ := writeRunLength_eq mem dest len dest
    rw [if_pos h] at e1 e2
    rw [if_pos rfl] at e2
    have e3 : len % 128 = len := Nat.mod_eq_of_lt (by omega)
    rw [e3] at e2
    refine ⟨e1, e2, ?_⟩
    rw [e2]
    omega
  · intro h
    have h' : ¬ len ≤ 0x7f := by omega
    obtain ⟨e1, e2⟩ := writeRunLength_eq mem dest len dest
    obtain ⟨_, e3⟩ := writeRunLength_eq mem dest len (dest + 1)
    rw [if_neg h'] at e1 e2 e3
    rw [if_pos rfl] at e2
    rw [if_neg (by omega), if_pos rfl] at e3
    refine ⟨e1, ?_, ?_⟩
    · rw [e2, and_7f, or_80 _ h128]
    · rw [e3, shr7]
      apply Nat.mod_eq_of_lt
      omega
  · intro k hk
    obtain ⟨e1, e2⟩ := writeRunLength_eq mem dest len k
    rw [e1] at hk
    rw [e2]
    split_ifs at hk ⊢ <;> first | rfl | omega

theorem run_length_field_encoding_witness :
    ((0x7f ≤ 0x7f →
      (writeRunLength Mem.zero 0 0x7f).2 = 0 + 1 ∧
      load8 (writeRunLength Mem.zero 0 0x7f).1 0 = 0x7f ∧
      load8 (writeRunLength Mem.zero 0 0x7f).1 0 < 0x80) ∧
    (0x7f < 0x7f →
      (writeRunLength Mem.zero 0 0x7f).2 = 0 + 2 ∧
      load8 (writeRunLength Mem.zero 0 0x7f).1 0 = (0x7f &&& 0x7f) ||| 0x80 ∧
      load8 (writeRunLength Mem.zero 0 0x7f).1 (0 + 1) = 0x7f >>> 7) ∧
    (∀ k, k < 0 ∨ (writeRunLength Mem.zero 0 0x7f).2 ≤ k →
      load8 (writeRunLength Mem.zero 0 0x7f).1 k = load8 Mem.zero k)) ∧
    ((writeRunLength Mem.zero 0 0x80).2 = 2 ∧
      load8 (writeRunLength Mem.zero 0 0x80).1 0 = 0x80 ∧
      load8 (writeRunLength Mem.zero 0 0x80).1 1 = 0x01) :=
  ⟨run_length_field_encoding Mem.zero 0 0x7f (by decide) (by decide),
   ((run_length_field_encoding Mem.zero 0 0x80 (by decide) (by decide)).2.1 (by decide))⟩

/-- C18: the run-length field round trip.  For every `len` in `0..0x7fff`, the
decoder's parsing of a stream that holds, at the position `dest`, the bytes the
encoder wrote for `len` (whatever follows them) yields the length `len` and
consumes exactly the bytes the encoder wrote: one when `len ≤ 0x7f`, two
otherwise. -/
theorem run_length_field_round_trip (mem : Mem) (dest len : Nat) (h : len ≤ 0x7fff) (src : Mem)
    (hsrc : ∀ k, dest ≤ k → k < (writeRunLength mem dest len).2 →
      load8 src k = load8 (writeRunLength mem dest len).1 k) :
    readRunLength src dest = (len, (writeRunLength mem dest len).2 - dest) ∧
    (writeRunLength mem dest len).2 - dest = (if len ≤ 0x7f then 1 else 2) := by
  obtain ⟨e1, e2⟩ := writeRunLength_eq mem dest len dest
  obtain ⟨_, e3⟩ := writeRunLength_eq mem dest len (dest + 1)
  have h0 := hsrc dest (le_refl _) (by rw [e1]; split_ifs <;> omega)
  rw [e2] at h0
  rw [e1, readRunLength_eq]
  by_cases hl : len ≤ 0x7f
  · rw [if_pos hl] at h0 ⊢
    rw [if_pos rfl] at h0
    have e4 : len % 128 = len := Nat.mod_eq_of_lt (by omega)
    rw [h0, e4, if_neg (by omega)]
    simp
  · have h1 := hsrc (dest + 1) (by omega) (by rw [e1, if_neg hl]; omega)
    rw [e3] at h1
    rw [if_neg hl] at h0 h1 ⊢
    rw [if_pos rfl] at h0
    rw [if_neg (by omega), if_pos rfl] at h1
    have h128 : len % 128 < 128 := Nat.mod_lt _ (by norm_num)
    have e5 : len / 128 % 256 = len / 128 := Nat.mod_eq_of_lt (by omega)
    rw [h0, h1, e5, if_pos (by omega), if_pos (by omega)]
    refine ⟨?_, by omega⟩
    congr 1
    · omega
    · omega

theorem run_length_field_round_trip_witness :
    readRunLength (store8 (writeRunLength Mem.zero 0 0x80).1 2 0x55) 0 =
      (0x80, (writeRunLength Mem.zero 0 0x80).2 - 0) ∧
    (writeRunLength Mem.zero 0 0x80).2 - 0 = (if 0x80 ≤ 0x7f then 1 else 2) :=
  run_length_field_round_trip Mem.zero 0 0x80 (by decide)
    (store8 (writeRunLength Mem.zero 0 0x80).1 2 0x55)
    (fun k _ hk => by
      have e : (writeRunLength Mem.zero 0 0x80).2 = 2 := rfl
      rw [e] at hk
      rw [load8_store8, if_neg (by omega)])

/-- A run slot moves the read position by the size of its length field. -/
theorem rleDecBlock_run_src (dd : DecDims) (padded_ndims nvectors : Nat) (src : Mem) (g b : Nat)
    (s : DeltaDecState) (h0 : decRowNbits dd b s.dec.tm = 0) :
    (rleDecBlock dd padded_ndims nvectors src g b s).dec.src =
      s.dec.src + (readRunLength src s.dec.src).2 := by
  unfold rleDecBlock
  simp only [h0, if_true]
  unfold rleDecRun
  split_ifs <;> rfl

/-- C19, as stated, fails: at a zero-width slot that holds the bytes `0x80`,
`0x00` the top bit of the low byte is set, yet the decoder consumes one byte
only (`src += (high_byte > 0)`). -/
theorem second_length_byte_not_consumed :
    decRowNbits (decDims 1) 0 DecTemps.zero = 0 ∧
    128 ≤ load8 (Mem.ofList [0x80, 0x00]) 0 ∧
    (rleDecBlock (decDims 1) 32 1 (Mem.ofList [0x80, 0x00]) 0 0
      ⟨⟨0, 0, Mem.zero, DecTemps.zero⟩, Mem.zero⟩).dec.src = 0 + 1 := by
  refine ⟨by decide, by decide, ?_⟩
  rw [rleDecBlock_run_src _ _ _ _ _ _ _ (by decide)]
  decide

/-- C19, amended: at a zero-width slot of `decompress8b_rowmajor_delta_rle`
the second byte of the length field is consumed if and only if the top bit of
the low byte is set and the second byte is not zero; otherwise exactly one
byte is consumed. -/
theorem second_length_byte_consumed_iff (dd : DecDims) (padded_ndims nvectors : Nat) (src : Mem)
    (g b : Nat) (s : DeltaDecState) (h0 : decRowNbits dd b s.dec.tm = 0) :
    ((rleDecBlock dd padded_ndims nvectors src g b s).dec.src = s.dec.src + 2 ↔
      (128 ≤ load8 src s.dec.src ∧ 0 < load8 src (s.dec.src + 1))) ∧
    (¬ (128 ≤ load8 src s.dec.src ∧ 0 < load8 src (s.dec.src + 1)) →
      (rleDecBlock dd padded_ndims nvectors src g b s).dec.src = s.dec.src + 1) := by
  rw [rleDecBlock_run_src _ _ _ _ _ _ _ h0, readRunLength_eq]
  by_cases h1 : 128 ≤ load8 src s.dec.src
  · by_cases h2 : 0 < load8 src (s.dec.src + 1)
    · simp [h1, h2]
    · simp [h1, h2]
  · simp [h1]

theorem second_length_byte_consumed_iff_witness :
    ((rleDecBlock (decDims 1) 32 1 (Mem.ofList [0x80, 0x01]) 0 0
        ⟨⟨0, 0, Mem.zero, DecTemps.zero⟩, Mem.zero⟩).dec.src = 0 + 2 ↔
      (128 ≤ load8 (Mem.ofList [0x80, 0x01]) 0 ∧ 0 < load8 (Mem.ofList [0x80, 0x01]) (0 + 1))) ∧
    (¬ (128 ≤ load8 (Mem.ofList [0x80, 0x01]) 0 ∧ 0 < load8 (Mem.ofList [0x80, 0x01]) (0 + 1)) →
      (rleDecBlock (decDims 1) 32 1 (Mem.ofList [0x80, 0x01]) 0 0
        ⟨⟨0, 0, Mem.zero, DecTemps.zero⟩, Mem.zero⟩).dec.src = 0 + 1) :=
  second_length_byte_consumed_iff (decDims 1) 32 1 (Mem.ofList [0x80, 0x01]) 0 0
    ⟨⟨0, 0, Mem.zero, DecTemps.zero⟩, Mem.zero⟩ (by decide)

/-! ## Decoding a run -/

theorem load8_memcpy (dst : Mem) (d : Nat) (src : Mem) (s n k : Nat) :
    load8 (memcpy dst d src s n) k =
      if d ≤ k ∧ k < d + n then load8 src (s + (k - d)) else load8 dst k := by
  unfold load8
  rw [memcpy_get]
  split_ifs
  · exact load8_mod _ _
  · rfl

theorem load8_memset0 (m : Mem) (a n k : Nat) :
    load8 (memset0 m a n) k = if a ≤ k ∧ k < a + n then 0 else load8 m k := by
  unfold load8
  rw [memset0_get]
  split_ifs <;> rfl

theorem memrep_succ (m : Mem) (dest inptr nb n : Nat) :
    memrep m dest inptr nb (n + 1) =
      memcpy (memrep m dest inptr nb n) (dest + n * nb) (memrep m dest inptr nb n) inptr nb := rfl

/-- What `memrep` leaves in the buffer when the block to copy lies before the
destination: copy after copy of the block, and nothing else is touched. -/
theorem memrep_load8 (m : Mem) (dest inptr nb : Nat) (h : inptr + nb ≤ dest) (n k : Nat) :
    load8 (memrep m dest inptr nb n) k =
      if dest ≤ k ∧ k < dest + n * nb then load8 m (inptr + (k - dest) % nb) else load8 m k := by
  induction n generalizing k with
  | zero =>
    rw [if_neg (by omega)]
    rfl
  | succ n ih =>
    rw [memrep_succ, load8_memcpy]
    have e : (n + 1) * nb = n * nb + nb := by ring
    by_cases hk : dest + n * nb ≤ k ∧ k < dest + n * nb + nb
    · rw [if_pos hk, if_pos (by rw [e]; omega), ih, if_neg (by omega)]
      have : (k - dest) % nb = k - (dest + n * nb) := by
        have h1 : k - dest = k - (dest + n * nb) + n * nb := by omega
        rw [h1, Nat.add_mul_mod_self_right]
        exact Nat.mod_eq_of_lt (by omega)
      rw [this]
    · rw [if_neg hk, ih]
      by_cases hk2 : dest ≤ k ∧ k < dest + n * nb
      · rw [if_pos hk2, if_pos (by rw [e]; omega)]
      · rw [if_neg hk2, if_neg (by rw [e]; omega)]

theorem readRunLength_le (src : Mem) (p : Nat) : (readRunLength src p).1 ≤ 0x7fff := by
  rw [readRunLength_eq]
  have hl := load8_lt src p
  have hh := load8_lt src (p + 1)
  by_cases h : 128 ≤ load8 src p
  · rw [if_pos h]
    show 128 * load8 src (p + 1) + load8 src p % 128 ≤ 0x7fff
    omega
  · rw [if_neg h]
    show load8 src p ≤ 0x7fff
    omega

/-- A run slot of the run-length decoder, first slot or later slot. -/
theorem rleDecBlock_run (dd : DecDims) (padded_ndims nvectors : Nat) (src : Mem) (g b : Nat)
    (s : DeltaDecState) (h0 : decRowNbits dd b s.dec.tm = 0) (hD : dd.ndims < 16385) :
    rleDecBlock dd padded_ndims nvectors src g b s =
      if g > 0 ∨ b > 0 then
        ⟨⟨s.dec.src + (readRunLength src s.dec.src).2,
          s.dec.dest + (readRunLength src s.dec.src).1 * 8 * dd.ndims,
          memrep s.dec.mem s.dec.dest (s.dec.dest - dd.ndims) dd.ndims
            ((readRunLength src s.dec.src).1 * 8), s.dec.tm⟩, s.deltas⟩
      else
        ⟨⟨s.dec.src + (readRunLength src s.dec.src).2,
          s.dec.dest + (readRunLength src s.dec.src).1 * 8 * dd.ndims,
          memset0 s.dec.mem s.dec.dest ((readRunLength src s.dec.src).1 * 8 * dd.ndims),
          s.dec.tm⟩, s.deltas⟩ := by
  have hn := readRunLength_le src s.dec.src
  have e1 : ((readRunLength src s.dec.src).1 * block_sz) % 2 ^ 32
      = (readRunLength src s.dec.src).1 * 8 := by
    rw [block_sz]
    exact Nat.mod_eq_of_lt (by omega)
  have hb : (readRunLength src s.dec.src).1 * 8 * dd.ndims < 2 ^ 32 := by
    calc (readRunLength src s.dec.src).1 * 8 * dd.ndims ≤ 0x7fff * 8 * 16384 :=
          Nat.mul_le_mul (by omega) (by omega)
      _ < 2 ^ 32 := by norm_num
  have e2 : (dd.ndims * ((readRunLength src s.dec.src).1 * 8)) % 2 ^ 32
      = (readRunLength src s.dec.src).1 * 8 * dd.ndims := by
    rw [Nat.mul_comm]
    exact Nat.mod_eq_of_lt hb
  have e3 : ((readRunLength src s.dec.src).1 * block_sz * dd.ndims) % 2 ^ 32
      = (readRunLength src s.dec.src).1 * 8 * dd.ndims := by
    rw [block_sz]
    exact Nat.mod_eq_of_lt hb
  unfold rleDecBlock
  simp only [h0, if_true]
  unfold rleDecRun
  simp only [e1, e2, e3]

/-- C20: decoding a run.  At a zero-width slot of
`decompress8b_rowmajor_delta_rle` whose length field reads `n`, with `D` at
most 16384 (the run-length mode has `D < 1024`): the write position advances
by `n * 8 * D` bytes and no byte outside these is changed; at group 0, block 0
the `n * 8 * D` bytes are zero; at any later slot, when `D` bytes precede the
write position, they are `n * 8` copies of the `D` bytes just before it. -/
theorem rle_run_decoding (dd : DecDims) (padded_ndims nvectors : Nat) (src : Mem) (g b : Nat)
    (s : DeltaDecState) (h0 : decRowNbits dd b s.dec.tm = 0) (hD : dd.ndims < 16385) :
    (rleDecBlock dd padded_ndims nvectors src g b s).dec.dest =
      s.dec.dest + (readRunLength src s.dec.src).1 * 8 * dd.ndims ∧
    (∀ k, k < s.dec.dest ∨ s.dec.dest + (readRunLength src s.dec.src).1 * 8 * dd.ndims ≤ k →
      load8 (rleDecBlock dd padded_ndims nvectors src g b s).dec.mem k = load8 s.dec.mem k) ∧
    (g = 0 ∧ b = 0 → ∀ k, k < (readRunLength src s.dec.src).1 * 8 * dd.ndims →
      load8 (rleDecBlock dd padded_ndims nvectors src g b s).dec.mem (s.dec.dest + k) = 0) ∧
    ((g > 0 ∨ b > 0) → dd.ndims ≤ s.dec.dest →
      ∀ c, c < (readRunLength src s.dec.src).1 * 8 → ∀ j, j < dd.ndims →
        load8 (rleDecBlock dd padded_ndims nvectors src g b s).dec.mem
          (s.dec.dest + c * dd.ndims + j) = load8 s.dec.mem (s.dec.dest - dd.ndims + j)) := by
  rw [rleDecBlock_run dd padded_ndims nvectors src g b s h0 hD]
  generalize (readRunLength src s.dec.src).1 = n
  by_cases hgb : g > 0 ∨ b > 0
  · simp only [hgb, if_true]
    refine ⟨trivial, ?_, ?_, ?_⟩
    · intro k hk
      by_cases hd : dd.ndims ≤ s.dec.dest
      · rw [memrep_load8 _ _ _ _ (by omega), if_neg (by omega)]
      · -- fewer than `D` bytes precede the write position
        have hz : s.dec.dest - dd.ndims = 0 := by omega
        rcases hk with hk | hk
        · have hgen : ∀ c, load8 (memrep s.dec.mem s.dec.dest (s.dec.dest - dd.ndims)
              dd.ndims c) k = load8 s.dec.mem k := by
            intro c
            induction c with
            | zero => rfl
            | succ c ih =>
              rw [memrep_succ, load8_memcpy, if_neg (by omega), ih]
          exact hgen _
        · have hgen : ∀ c, c ≤ n * 8 → load8 (memrep s.dec.mem s.dec.dest
              (s.dec.dest - dd.ndims) dd.ndims c) k = load8 s.dec.mem k := by
            intro c
            induction c with
            | zero => intro _; rfl
            | succ c ih =>
              intro hc
              have : c * dd.ndims + dd.ndims ≤ n * 8 * dd.ndims := by
                calc c * dd.ndims + dd.ndims = (c + 1) * dd.ndims := by ring
                  _ ≤ n * 8 * dd.ndims := Nat.mul_le_mul_right _ hc
              rw [memrep_succ, load8_memcpy, if_neg (by omega), ih (by omega)]
          exact hgen _ (le_refl _)
    · intro h
      omega
    · intro _ hd c hc j hj
      have hlt : c * dd.ndims + dd.ndims ≤ n * 8 * dd.ndims := by
        calc c * dd.ndims + dd.ndims = (c + 1) * dd.ndims := by ring
          _ ≤ n * 8 * dd.ndims := Nat.mul_le_mul_right _ hc
      rw [memrep_load8 _ _ _ _ (by omega), if_pos (by omega)]
      have : (s.dec.dest + c * dd.ndims + j - s.dec.dest) % dd.ndims = j := by
        have h1 : s.dec.dest + c * dd.ndims + j - s.dec.dest = j + c * dd.ndims := by omega
        rw [h1, Nat.add_mul_mod_self_right]
        exact Nat.mod_eq_of_lt hj
      rw [this]
  · simp only [hgb, if_false]
    refine ⟨trivial, ?_, ?_, ?_⟩
    · intro k hk
      rw [load8_memset0, if_neg (by omega)]
    · intro _ k hk
      rw [load8_memset0, if_pos (by omega)]
    · intro h
      exact h.elim

theorem rle_run_decoding_witness :
    (rleDecBlock (decDims 1) 32 1 (Mem.ofList [3]) 1 0
      ⟨⟨0, 1, Mem.ofList [9], DecTemps.zero⟩, Mem.zero⟩).dec.dest =
      1 + (readRunLength (Mem.ofList [3]) 0).1 * 8 * (decDims 1).ndims ∧
    (∀ k, k < 1 ∨ 1 + (readRunLength (Mem.ofList [3]) 0).1 * 8 * (decDims 1).ndims ≤ k →
      load8 (rleDecBlock (decDims 1) 32 1 (Mem.ofList [3]) 1 0
        ⟨⟨0, 1, Mem.ofList [9], DecTemps.zero⟩, Mem.zero⟩).dec.mem k
        = load8 (Mem.ofList [9]) k) ∧
    (1 = 0 ∧ 0 = 0 → ∀ k, k < (readRunLength (Mem.ofList [3]) 0).1 * 8 * (decDims 1).ndims →
      load8 (rleDecBlock (decDims 1) 32 1 (Mem.ofList [3]) 1 0
        ⟨⟨0, 1, Mem.ofList [9], DecTemps.zero⟩, Mem.zero⟩).dec.mem (1 + k) = 0) ∧
    ((1 > 0 ∨ 0 > 0) → (decDims 1).ndims ≤ 1 →
      ∀ c, c < (readRunLength (Mem.ofList [3]) 0).1 * 8 → ∀ j, j < (decDims 1).ndims →
        load8 (rleDecBlock (decDims 1) 32 1 (Mem.ofList [3]) 1 0
          ⟨⟨0, 1, Mem.ofList [9], DecTemps.zero⟩, Mem.zero⟩).dec.mem
          (1 + c * (decDims 1).ndims + j) = load8 (Mem.ofList [9]) (1 - (decDims 1).ndims + j)) :=
  rle_run_decoding (decDims 1) 32 1 (Mem.ofList [3]) 1 0
    ⟨⟨0, 1, Mem.ofList [9], DecTemps.zero⟩, Mem.zero⟩ (by decide) (by decide)

/-! ## Input consumed by the group loops of the two plain encoders -/

theorem groupSzOf_eq (ndims : Nat) : groupSzOf ndims = 16 * ndims := by
  unfold groupSzOf block_sz group_sz_blocks kDefaultGroupSzBlocks
  omega

theorem rowmajorBlock_src (T : Nat → Nat) (src : Mem) (ndims nstripes header_dest : Nat)
    (s : EncState × Nat) :
    (rowmajorBlock T src ndims nstripes header_dest s).1.src = s.1.src + 8 * ndims := rfl

theorem rowmajorGroup_src (T : Nat → Nat) (src : Mem) (ndims nstripes thb : Nat) (s : EncState) :
    (rowmajorGroup T src ndims nstripes thb s).src = s.src + 16 * ndims := by
  unfold rowmajorGroup
  simp only [group_sz_blocks, kDefaultGroupSzBlocks, forLoop, rowmajorBlock_src]
  omega

theorem rowmajorLoop_succ (T : Nat → Nat) (src : Mem) (len : Nat) (dest : Mem) (ndims : Nat)
    (write_size : Bool) (g : Nat) :
    rowmajorLoop T src len dest ndims write_size (g + 1) =
      rowmajorGroup T src ndims (nstripesOf ndims) (headerBytesOf ndims)
        (rowmajorLoop T src len dest ndims write_size g) := rfl

theorem rowmajorLoop_src (T : Nat → Nat) (src : Mem) (len : Nat) (dest : Mem) (ndims : Nat)
    (write_size : Bool) (g : Nat) :
    (rowmajorLoop T src len dest ndims write_size g).src = g * (16 * ndims) := by
  induction g with
  | zero => simp [rowmajorLoop, forLoop]
  | succ g ih => rw [rowmajorLoop_succ, rowmajorGroup_src, ih]; ring

theorem deltaBlock_src (T : Nat → Nat) (src : Mem) (ndims nstripes header_dest : Nat)
    (s : DeltaEncState × Nat) :
    (deltaBlock T src ndims nstripes header_dest s).1.enc.src = s.1.enc.src + 8 * ndims := rfl

theorem deltaGroup_src (T : Nat → Nat) (src : Mem) (ndims nstripes thb : Nat)
    (s : DeltaEncState) :
    (deltaGroup T src ndims nstripes thb s).enc.src = s.enc.src + 16 * ndims := by
  unfold deltaGroup
  simp only [group_sz_blocks, kDefaultGroupSzBlocks, forLoop, deltaBlock_src]
  omega

theorem deltaLoop_succ (T : Nat → Nat) (src : Mem) (len : Nat) (dest : Mem) (ndims : Nat)
    (write_size : Bool) (g : Nat) :
    deltaLoop T src len dest ndims write_size (g + 1) =
      deltaGroup T src ndims (nstripesOf ndims) (headerBytesOf ndims)
        (deltaLoop T src len dest ndims write_size g) := rfl

theorem deltaLoop_src (T : Nat → Nat) (src : Mem) (len : Nat) (dest : Mem) (ndims : Nat)
    (write_size : Bool) (g : Nat) :
    (deltaLoop T src len dest ndims write_size g).enc.src = g * (16 * ndims) := by
  induction g with
  | zero => simp [deltaLoop, forLoop]
  | succ g ih => rw [deltaLoop_succ, deltaGroup_src, ih]; ring

/-- The length of the verbatim tail, as the encoders compute it. -/
theorem tail_len_eq (len ndims : Nat) (h : 1 ≤ ndims) (hD : ndims < 65536) :
    (len - len / (16 * ndims) * (16 * ndims)) % 2 ^ 32 = len % (16 * ndims) := by
  have h1 := Nat.div_add_mod len (16 * ndims)
  rw [Nat.mul_comm] at h1
  have h2 : len - len / (16 * ndims) * (16 * ndims) = len % (16 * ndims) := by omega
  rw [h2]
  apply Nat.mod_eq_of_lt
  have := Nat.mod_lt len (by omega : 0 < 16 * ndims)
  omega

/-- The result of `compress8b_rowmajor` on an input of at least 128 bytes. -/
theorem compress8b_rowmajor_large (T : Nat → Nat) (src dest : Mem) (len ndims : Nat)
    (write_size : Bool) (hD1 : 1 ≤ ndims) (hD2 : ndims < 65536) (hL : 128 ≤ len)
    (hA : write_size = true → len < 2 ^ 48) :
    compress8b_rowmajor T src len dest ndims write_size =
      Outcome.returned
        (memcpy (rowmajorLoop T src len dest ndims write_size (len / (16 * ndims))).mem
          (rowmajorLoop T src len dest ndims write_size (len / (16 * ndims))).dest src
          (len / (16 * ndims) * (16 * ndims)) (len % (16 * ndims)))
        ((rowmajorLoop T src len dest ndims write_size (len / (16 * ndims))).dest +
          len % (16 * ndims)) := by
  rw [compress8b_rowmajor_eq]
  have h1 : ¬ ((write_size && decide (¬ len < 2 ^ 48)) = true) := by
    simp only [Bool.and_eq_true, decide_eq_true_eq, not_and, not_not]
    exact hA
  rw [if_neg h1, if_neg (by omega), if_neg (by rw [groupSzOf_eq]; omega), groupSzOf_eq,
    rowmajorLoop_src, tail_len_eq len ndims hD1 hD2]

/-- The result of `compress8b_rowmajor_delta` on an input of at least 128 bytes. -/
theorem compress8b_rowmajor_delta_large (T : Nat → Nat) (src dest : Mem) (len ndims : Nat)
    (write_size : Bool) (hD1 : 1 ≤ ndims) (hD2 : ndims < 65536) (hL : 128 ≤ len)
    (hA : write_size = true → len < 2 ^ 48) :
    compress8b_rowmajor_delta T src len dest ndims write_size =
      Outcome.returned
        (memcpy (deltaLoop T src len dest ndims write_size (len / (16 * ndims))).enc.mem
          (deltaLoop T src len dest ndims write_size (len / (16 * ndims))).enc.dest src
          (len / (16 * ndims) * (16 * ndims)) (len % (16 * ndims)))
        ((deltaLoop T src len dest ndims write_size (len / (16 * ndims))).enc.dest +
          len % (16 * ndims)) := by
  rw [compress8b_rowmajor_delta_eq]
  have h1 : ¬ ((write_size && decide (¬ len < 2 ^ 48)) = true) := by
    simp only [Bool.and_eq_true, decide_eq_true_eq, not_and, not_not]
    exact hA
  rw [if_neg h1, if_neg (by omega), if_neg (by rw [groupSzOf_eq]; omega), groupSzOf_eq,
    deltaLoop_src, tail_len_eq len ndims hD1 hD2]

/-- The last `r` bytes of the output of the final `memcpy` are the last `r`
bytes of the input. -/
theorem tail_bytes (m src : Mem) (d len c r k : Nat) (hc : c + r = len) (hk : k < r) :
    load8 (memcpy m d src c r) (d + r - r + k) = load8 src (len - r + k) := by
  rw [load8_memcpy, if_pos (by omega)]
  congr 1
  omega

/-- C11: the verbatim tail of the two encoders without run-length coding.  For
`1 ≤ D` (a 16-bit count), `128 ≤ L` and, when the header is written,
`L < 2^48`, both `compress8b_rowmajor` and `compress8b_rowmajor_delta` return;
the last `L mod 16·D` bytes of the output are the last `L mod 16·D` bytes of
the input, and the group loop has consumed `⌊L / (16·D)⌋ · 16·D` input bytes. -/
theorem verbatim_tail (T : Nat → Nat) (src dest : Mem) (L D : Nat) (write_size : Bool)
    (hD1 : 1 ≤ D) (hD2 : D < 65536) (hL : 128 ≤ L) (hA : write_size = true → L < 2 ^ 48) :
    (∃ out n, compress8b_rowmajor T src L dest D write_size = Outcome.returned out n ∧
      L % (16 * D) ≤ n ∧
      ∀ k, k < L % (16 * D) → load8 out (n - L % (16 * D) + k) = load8 src (L - L % (16 * D) + k)) ∧
    (rowmajorLoop T src L dest D write_size (L / (16 * D))).src = L / (16 * D) * (16 * D) ∧
    (∃ out n, compress8b_rowmajor_delta T src L dest D write_size = Outcome.returned out n ∧
      L % (16 * D) ≤ n ∧
      ∀ k, k < L % (16 * D) → load8 out (n - L % (16 * D) + k) = load8 src (L - L % (16 * D) + k)) ∧
    (deltaLoop T src L dest D write_size (L / (16 * D))).enc.src = L / (16 * D) * (16 * D) := by
  have hdm := Nat.div_add_mod L (16 * D)
  rw [Nat.mul_comm] at hdm
  refine ⟨⟨_, _, compress8b_rowmajor_large T src dest L D write_size hD1 hD2 hL hA,
      Nat.le_add_left _ _, fun k hk => tail_bytes _ _ _ L _ _ k hdm hk⟩,
    rowmajorLoop_src _ _ _ _ _ _ _,
    ⟨_, _, compress8b_rowmajor_delta_large T src dest L D write_size hD1 hD2 hL hA,
      Nat.le_add_left _ _, fun k hk => tail_bytes _ _ _ L _ _ k hdm hk⟩,
    deltaLoop_src _ _ _ _ _ _ _⟩

theorem verbatim_tail_witness :
    (∃ out n, compress8b_rowmajor NBITS_MASKS_U8_folded Mem.zero 130 Mem.zero 1 true
        = Outcome.returned out n ∧
      130 % (16 * 1) ≤ n ∧
      ∀ k, k < 130 % (16 * 1) →
        load8 out (n - 130 % (16 * 1) + k) = load8 Mem.zero (130 - 130 % (16 * 1) + k)) ∧
    (rowmajorLoop NBITS_MASKS_U8_folded Mem.zero 130 Mem.zero 1 true (130 / (16 * 1))).src
      = 130 / (16 * 1) * (16 * 1) ∧
    (∃ out n, compress8b_rowmajor_delta NBITS_MASKS_U8_folded Mem.zero 130 Mem.zero 1 true
        = Outcome.returned out n ∧
      130 % (16 * 1) ≤ n ∧
      ∀ k, k < 130 % (16 * 1) →
        load8 out (n - 130 % (16 * 1) + k) = load8 Mem.zero (130 - 130 % (16 * 1) + k)) ∧
    (deltaLoop NBITS_MASKS_U8_folded Mem.zero 130 Mem.zero 1 true (130 / (16 * 1))).enc.src
      = 130 / (16 * 1) * (16 * 1) :=
  verbatim_tail NBITS_MASKS_U8_folded Mem.zero Mem.zero 130 1 true (by decide) (by decide)
    (by decide) (fun _ => by norm_num)

/-! ## What the plain encoders leave below their write position -/

theorem forLoop_inv {σ : Type} (P : σ → Prop) (n : Nat) (body : Nat → σ → σ) (s : σ)
    (h0 : P s) (hstep : ∀ i x, i < n → P x → P (body i x)) : P (forLoop n body s) := by
  induction n with
  | zero => exact h0
  | succ n ih =>
    rw [forLoop]
    exact hstep n _ (by omega) (ih (fun i x hi hx => hstep i x (by omega) hx))

theorem load8_storeLE_below (n : Nat) (m : Mem) (a v k : Nat) (h : k < a) :
    load8 (storeLE n m a v) k = load8 m k := by
  rw [load8_storeLE, if_neg (by omega)]

theorem writeBlockHeader_below (hdr : Arr) (ndims nstripes header_dest : Nat) (s : Mem × Nat)
    (k : Nat) (hk : k < header_dest) :
    load8 (writeBlockHeader hdr ndims nstripes header_dest s).1 k = load8 s.1 k := by
  unfold writeBlockHeader
  apply forLoop_inv (fun x : Mem × Nat => load8 x.1 k = load8 s.1 k)
  · rfl
  · intro i x _ hx
    show load8 (storeLE 4 x.1 _ _) k = _
    rw [load8_storeLE_below _ _ _ _ _ (by omega), hx]

theorem packBlock_below (st : StripeStats) (offs : Arr) (nstripes : Nat) (inbuf : Mem)
    (inp in_stride out rb : Nat) (dest : Mem) (k : Nat) (hk : k < out) :
    load8 (packBlock st offs nstripes inbuf inp in_stride out rb dest) k = load8 dest k := by
  unfold packBlock
  apply forLoop_inv (fun x : Mem => load8 x k = load8 dest k)
  · rfl
  · intro s x _ hx
    simp only []
    split_ifs
    · apply forLoop_inv (fun y : Mem => load8 y k = load8 dest k)
      · exact hx
      · intro i y _ hy
        show load8 (storeLE 8 y _ _) k = _
        rw [load8_storeLE_below _ _ _ _ _ (by omega), hy]
    · apply forLoop_inv (fun y : Mem => load8 y k = load8 dest k)
      · exact hx
      · intro i y _ hy
        show load8 (store8 (storeLE 8 y _ _) _ _) k = _
        rw [load8_store8, if_neg (by omega), load8_storeLE_below _ _ _ _ _ (by omega), hy]

/-- Row size of a block in bytes, from its stripe statistics. -/
theorem rowmajorBlock_dest (T : Nat → Nat) (src : Mem) (ndims nstripes header_dest : Nat)
    (s : EncState × Nat) :
    (rowmajorBlock T src ndims nstripes header_dest s).1.dest =
      s.1.dest + 8 * rowBytesOf (stripeStats T src s.1.src ndims) nstripes := rfl

theorem rowmajorBlock_below (T : Nat → Nat) (src : Mem) (ndims nstripes header_dest : Nat)
    (s : EncState × Nat) (k : Nat) (hk : k < header_dest) (hd : header_dest ≤ s.1.dest) :
    load8 (rowmajorBlock T src ndims nstripes header_dest s).1.mem k = load8 s.1.mem k := by
  unfold rowmajorBlock
  simp only []
  rw [packBlock_below _ _ _ _ _ _ _ _ _ _ (by omega), load8_memset0, if_neg (by omega),
    writeBlockHeader_below _ _ _ _ _ _ hk]

theorem rowmajorGroup_unfold (T : Nat → Nat) (src : Mem) (ndims nstripes thb : Nat)
    (s : EncState) :
    rowmajorGroup T src ndims nstripes thb s =
      (rowmajorBlock T src ndims nstripes s.dest
        (rowmajorBlock T src ndims nstripes s.dest
          (⟨s.src, s.dest + thb, memset0 s.mem s.dest thb⟩, 0))).1 := rfl

theorem rowmajorGroup_dest (T : Nat → Nat) (src : Mem) (ndims nstripes thb : Nat)
    (s : EncState) :
    (rowmajorGroup T src ndims nstripes thb s).dest =
      s.dest + thb + 8 * rowBytesOf (stripeStats T src s.src ndims) nstripes
        + 8 * rowBytesOf (stripeStats T src (s.src + 8 * ndims) ndims) nstripes := by
  rw [rowmajorGroup_unfold, rowmajorBlock_dest, rowmajorBlock_dest, rowmajorBlock_src]

theorem rowmajorGroup_below (T : Nat → Nat) (src : Mem) (ndims nstripes thb : Nat)
    (s : EncState) (k : Nat) (hk : k < s.dest) :
    load8 (rowmajorGroup T src ndims nstripes thb s).mem k = load8 s.mem k := by
  rw [rowmajorGroup_unfold, rowmajorBlock_below _ _ _ _ _ _ _ hk
      (by rw [rowmajorBlock_dest]; show s.dest ≤ s.dest + thb + _; omega),
    rowmajorBlock_below _ _ _ _ _ _ _ hk (by show s.dest ≤ s.dest + thb; omega)]
  show load8 (memset0 s.mem s.dest thb) k = _
  rw [load8_memset0, if_neg (by omega)]

theorem rowmajorLoop_below (T : Nat → Nat) (src : Mem) (len : Nat) (dest : Mem) (ndims : Nat)
    (write_size : Bool) (g : Nat) :
    headerLen write_size ≤ (rowmajorLoop T src len dest ndims write_size g).dest ∧
    ∀ k, k < headerLen write_size →
      load8 (rowmajorLoop T src len dest ndims write_size g).mem k =
        load8 (headerA dest len ndims write_size) k := by
  induction g with
  | zero => exact ⟨le_refl _, fun _ _ => rfl⟩
  | succ g ih =>
    rw [rowmajorLoop_succ]
    refine ⟨?_, fun k hk => ?_⟩
    · rw [rowmajorGroup_dest]; omega
    · rw [rowmajorGroup_below _ _ _ _ _ _ _ (by omega), ih.2 k hk]

theorem deltaBlock_dest (T : Nat → Nat) (src : Mem) (ndims nstripes header_dest : Nat)
    (s : DeltaEncState × Nat) :
    (deltaBlock T src ndims nstripes header_dest s).1.enc.dest =
      s.1.enc.dest + 8 * rowBytesOf (deltaStripeStats T src s.1.enc.src ndims s.1.deltas).1
        nstripes := rfl

theorem deltaBlock_deltas (T : Nat → Nat) (src : Mem) (ndims nstripes header_dest : Nat)
    (s : DeltaEncState × Nat) :
    (deltaBlock T src ndims nstripes header_dest s).1.deltas =
      (deltaStripeStats T src s.1.enc.src ndims s.1.deltas).2 := rfl

theorem deltaBlock_below (T : Nat → Nat) (src : Mem) (ndims nstripes header_dest : Nat)
    (s : DeltaEncState × Nat) (k : Nat) (hk : k < header_dest) (hd : header_dest ≤ s.1.enc.dest) :
    load8 (deltaBlock T src ndims nstripes header_dest s).1.enc.mem k = load8 s.1.enc.mem k := by
  unfold deltaBlock
  simp only []
  rw [packBlock_below _ _ _ _ _ _ _ _ _ _ (by omega), load8_memset0, if_neg (by omega),
    writeBlockHeader_below _ _ _ _ _ _ hk]

theorem deltaGroup_unfold (T : Nat → Nat) (src : Mem) (ndims nstripes thb : Nat)
    (s : DeltaEncState) :
    deltaGroup T src ndims nstripes thb s =
      (deltaBlock T src ndims nstripes s.enc.dest
        (deltaBlock T src ndims nstripes s.enc.dest
          (⟨⟨s.enc.src, s.enc.dest + thb, memset0 s.enc.mem s.enc.dest thb⟩, s.deltas⟩, 0))).1 :=
  rfl

theorem deltaGroup_dest (T : Nat → Nat) (src : Mem) (ndims nstripes thb : Nat)
    (s : DeltaEncState) :
    (deltaGroup T src ndims nstripes thb s).enc.dest =
      s.enc.dest + thb
        + 8 * rowBytesOf (deltaStripeStats T src s.enc.src ndims s.deltas).1 nstripes
        + 8 * rowBytesOf (deltaStripeStats T src (s.enc.src + 8 * ndims) ndims
            (deltaStripeStats T src s.enc.src ndims s.deltas).2).1 nstripes := by
  rw [deltaGroup_unfold, deltaBlock_dest, deltaBlock_dest, deltaBlock_src, deltaBlock_deltas]

theorem deltaGroup_below (T : Nat → Nat) (src : Mem) (ndims nstripes thb : Nat)
    (s : DeltaEncState) (k : Nat) (hk : k < s.enc.dest) :
    load8 (deltaGroup T src ndims nstripes thb s).enc.mem k = load8 s.enc.mem k := by
  rw [deltaGroup_unfold, deltaBlock_below _ _ _ _ _ _ _ hk
      (by rw [deltaBlock_dest]; show s.enc.dest ≤ s.enc.dest + thb + _; omega),
    deltaBlock_below _ _ _ _ _ _ _ hk (by show s.enc.dest ≤ s.enc.dest + thb; omega)]
  show load8 (memset0 s.enc.mem s.enc.dest thb) k = _
  rw [load8_memset0, if_neg (by omega)]

theorem deltaLoop_below (T : Nat → Nat) (src : Mem) (len : Nat) (dest : Mem) (ndims : Nat)
    (write_size : Bool) (g : Nat) :
    headerLen write_size ≤ (deltaLoop T src len dest ndims write_size g).enc.dest ∧
    ∀ k, k < headerLen write_size →
      load8 (deltaLoop T src len dest ndims write_size g).enc.mem k =
        load8 (headerA dest len ndims write_size) k := by
  induction g with
  | zero => exact ⟨le_refl _, fun _ _ => rfl⟩
  | succ g ih =>
    rw [deltaLoop_succ]
    refine ⟨?_, fun k hk => ?_⟩
    · rw [deltaGroup_dest]; omega
    · rw [deltaGroup_below _ _ _ _ _ _ _ (by omega), ih.2 k hk]

/-! ## The Mode A header -/

theorem loadLE_eq_of_bytes (n : Nat) (m : Mem) (a v : Nat) (hv : v < 2 ^ (8 * n))
    (h : ∀ k, k < n → load8 m (a + k) = (v >>> (8 * k)) % 256) : loadLE n m a = v := by
  have e : loadLE n m a = loadLE n (storeLE n m a v) a := by
    apply loadLE_congr
    intro i hi
    rw [load8_storeLE, if_pos (by omega), h i hi, Nat.add_sub_cancel_left]
  rw [e, loadLE_storeLE_same, Nat.mod_eq_of_lt hv]

theorem headerA_bytes (dest : Mem) (L D : Nat) :
    (∀ k, k < 6 → load8 (headerA dest L D true) k = (L >>> (8 * k)) % 256) ∧
    (∀ k, k < 2 → load8 (headerA dest L D true) (6 + k) = (D >>> (8 * k)) % 256) := by
  unfold headerA
  simp only [if_true]
  constructor
  · intro k hk
    rw [load8_storeLE, if_neg (by omega), load8_storeLE, if_pos (by omega), Nat.sub_zero]
  · intro k hk
    rw [load8_storeLE, if_pos (by omega), Nat.add_sub_cancel_left]

/-- The first eight bytes of the destination after a call of
`compress8b_rowmajor` that writes the header. -/
theorem compress8b_rowmajor_header (T : Nat → Nat) (src dest : Mem) (L D : Nat)
    (hL : L < 2 ^ 48) (k : Nat) (hk : k < 8) :
    load8 (compress8b_rowmajor T src L dest D true).dest k = load8 (headerA dest L D true) k := by
  rw [compress8b_rowmajor_eq]
  have h1 : ¬ ((true && decide (¬ L < 2 ^ 48)) = true) := by
    simp only [Bool.true_and, decide_eq_true_eq, not_not]
    exact hL
  rw [if_neg h1]
  have h8 : headerLen true = 8 := rfl
  by_cases h2 : L < 128
  · rw [if_pos h2]
    show load8 (memcpy _ _ _ _ _) k = _
    rw [load8_memcpy, if_neg (by omega)]
  · rw [if_neg h2]
    by_cases h3 : groupSzOf D = 0
    · rw [if_pos h3]; rfl
    · rw [if_neg h3]
      show load8 (memcpy _ _ _ _ _) k = _
      have := rowmajorLoop_below T src L dest D true (L / groupSzOf D)
      rw [load8_memcpy, if_neg (by omega), this.2 k (by omega)]

theorem compress8b_rowmajor_delta_header (T : Nat → Nat) (src dest : Mem) (L D : Nat)
    (hL : L < 2 ^ 48) (k : Nat) (hk : k < 8) :
    load8 (compress8b_rowmajor_delta T src L dest D true).dest k =
      load8 (headerA dest L D true) k := by
  rw [compress8b_rowmajor_delta_eq]
  have h1 : ¬ ((true && decide (¬ L < 2 ^ 48)) = true) := by
    simp only [Bool.true_and, decide_eq_true_eq, not_not]
    exact hL
  rw [if_neg h1]
  have h8 : headerLen true = 8 := rfl
  by_cases h2 : L < 128
  · rw [if_pos h2]
    show load8 (memcpy _ _ _ _ _) k = _
    rw [load8_memcpy, if_neg (by omega)]
  · rw [if_neg h2]
    by_cases h3 : groupSzOf D = 0
    · rw [if_pos h3]; rfl
    · rw [if_neg h3]
      show load8 (memcpy _ _ _ _ _) k = _
      have := deltaLoop_below T src L dest D true (L / groupSzOf D)
      rw [load8_memcpy, if_neg (by omega), this.2 k (by omega)]

/-- A buffer that starts with the Mode A header of `(L, D)` is read back as `(L, D)`. -/
theorem read_metadata_8b_of_header (m dest : Mem) (L D : Nat) (hL : L < 2 ^ 48) (hD : D < 65536)
    (h : ∀ k, k < 8 → load8 m k = load8 (headerA dest L D true) k) :
    read_metadata_8b m = (L, D) := by
  obtain ⟨b1, b2⟩ := headerA_bytes dest L D
  rw [read_metadata_8b_eq]
  congr 1
  · apply loadLE_eq_of_bytes 6 m 0 L hL
    intro k hk
    rw [Nat.zero_add, h k (by omega), b1 k hk]
  · apply loadLE_eq_of_bytes 2 m 6 D (by norm_num; omega)
    intro k hk
    rw [h (6 + k) (by omega), b2 k hk]

/-- C7: the Mode A metadata header.  For `compress8b_rowmajor` and
`compress8b_rowmajor_delta` called with `write_size = true`, any 16-bit `D` and
any `L < 2^48`, bytes 0..5 of the destination are `L` in little-endian, bytes
6..7 are `D` in little-endian, and the decoders' header parse reads `(L, D)`
back from them; the calls return whenever `D ≥ 1` or `L < 128`. -/
theorem modeA_header (T : Nat → Nat) (src dest : Mem) (L D : Nat) (hL : L < 2 ^ 48)
    (hD : D < 65536) :
    ((∀ k, k < 6 →
        load8 (compress8b_rowmajor T src L dest D true).dest k = (L >>> (8 * k)) % 256) ∧
      (∀ k, k < 2 →
        load8 (compress8b_rowmajor T src L dest D true).dest (6 + k) = (D >>> (8 * k)) % 256) ∧
      read_metadata_8b (compress8b_rowmajor T src L dest D true).dest = (L, D)) ∧
    ((∀ k, k < 6 →
        load8 (compress8b_rowmajor_delta T src L dest D true).dest k = (L >>> (8 * k)) % 256) ∧
      (∀ k, k < 2 →
        load8 (compress8b_rowmajor_delta T src L dest D true).dest (6 + k)
          = (D >>> (8 * k)) % 256) ∧
      read_metadata_8b (compress8b_rowmajor_delta T src L dest D true).dest = (L, D)) ∧
    (1 ≤ D ∨ L < 128 →
      (compress8b_rowmajor T src L dest D true).ret ≠ none ∧
      (compress8b_rowmajor_delta T src L dest D true).ret ≠ none) := by
  obtain ⟨b1, b2⟩ := headerA_bytes dest L D
  refine ⟨⟨?_, ?_, ?_⟩, ⟨?_, ?_, ?_⟩, ?_⟩
  · intro k hk
    rw [compress8b_rowmajor_header T src dest L D hL k (by omega), b1 k hk]
  · intro k hk
    rw [compress8b_rowmajor_header T src dest L D hL (6 + k) (by omega), b2 k hk]
  · exact read_metadata_8b_of_header _ dest L D hL hD
      (fun k hk => compress8b_rowmajor_header T src dest L D hL k hk)
  · intro k hk
    rw [compress8b_rowmajor_delta_header T src dest L D hL k (by omega), b1 k hk]
  · intro k hk
    rw [compress8b_rowmajor_delta_header T src dest L D hL (6 + k) (by omega), b2 k hk]
  · exact read_metadata_8b_of_header _ dest L D hL hD
      (fun k hk => compress8b_rowmajor_delta_header T src dest L D hL k hk)
  · intro h
    have h1 : ¬ ((true && decide (¬ L < 2 ^ 48)) = true) := by
      simp only [Bool.true_and, decide_eq_true_eq, not_not]
      exact hL
    rw [compress8b_rowmajor_eq, compress8b_rowmajor_delta_eq, if_neg h1, if_neg h1]
    by_cases h2 : L < 128
    · rw [if_pos h2, if_pos h2]
      exact ⟨by simp [Outcome.ret], by simp [Outcome.ret]⟩
    · have h3 : ¬ groupSzOf D = 0 := by rw [groupSzOf_eq]; omega
      rw [if_neg h2, if_neg h2, if_neg h3, if_neg h3]
      exact ⟨by simp [Outcome.ret], by simp [Outcome.ret]⟩

theorem modeA_header_witness :
    ((∀ k, k < 6 →
        load8 (compress8b_rowmajor NBITS_MASKS_U8_folded Mem.zero 1000 Mem.zero 3 true).dest k
          = (1000 >>> (8 * k)) % 256) ∧
      (∀ k, k < 2 →
        load8 (compress8b_rowmajor NBITS_MASKS_U8_folded Mem.zero 1000 Mem.zero 3 true).dest
          (6 + k) = (3 >>> (8 * k)) % 256) ∧
      read_metadata_8b (compress8b_rowmajor NBITS_MASKS_U8_folded Mem.zero 1000 Mem.zero 3 true).dest
        = (1000, 3)) ∧
    ((∀ k, k < 6 →
        load8 (compress8b_rowmajor_delta NBITS_MASKS_U8_folded Mem.zero 1000 Mem.zero 3 true).dest k
          = (1000 >>> (8 * k)) % 256) ∧
      (∀ k, k < 2 →
        load8 (compress8b_rowmajor_delta NBITS_MASKS_U8_folded Mem.zero 1000 Mem.zero 3 true).dest
          (6 + k) = (3 >>> (8 * k)) % 256) ∧
      read_metadata_8b
        (compress8b_rowmajor_delta NBITS_MASKS_U8_folded Mem.zero 1000 Mem.zero 3 true).dest
        = (1000, 3)) ∧
    (1 ≤ 3 ∨ 1000 < 128 →
      (compress8b_rowmajor NBITS_MASKS_U8_folded Mem.zero 1000 Mem.zero 3 true).ret ≠ none ∧
      (compress8b_rowmajor_delta NBITS_MASKS_U8_folded Mem.zero 1000 Mem.zero 3 true).ret ≠ none) :=
  modeA_header NBITS_MASKS_U8_folded Mem.zero Mem.zero 1000 3 (by norm_num) (by norm_num)

/-! ## Size of the output of the plain encoders -/

theorem headerBytesOf_eq (ndims : Nat) : headerBytesOf ndims = (6 * ndims + 7) / 8 := by
  unfold headerBytesOf nbits_sz_bits group_sz_blocks kDefaultGroupSzBlocks
  split_ifs <;> omega

theorem rowmajorLoop_dest (T : Nat → Nat) (src : Mem) (len : Nat) (dest : Mem) (ndims : Nat)
    (write_size : Bool) (g : Nat) :
    (rowmajorLoop T src len dest ndims write_size g).dest =
      headerLen write_size + sumTo g (rowmajorGroupBytes T src ndims) := by
  induction g with
  | zero => rfl
  | succ g ih =>
    rw [rowmajorLoop_succ, rowmajorGroup_dest, ih, rowmajorLoop_src, sumTo, rowmajorGroupBytes]
    omega

theorem deltaLoop_dest (T : Nat → Nat) (src : Mem) (len : Nat) (dest : Mem) (ndims : Nat)
    (write_size : Bool) (g : Nat) :
    (deltaLoop T src len dest ndims write_size g).enc.dest =
      headerLen write_size + sumTo g (fun j =>
        deltaGroupBytes T src ndims (deltaLoop T src len dest ndims write_size j)) := by
  induction g with
  | zero => rfl
  | succ g ih =>
    rw [deltaLoop_succ, deltaGroup_dest, ih, sumTo, deltaGroupBytes]
    omega

/-- C10: the Mode A wire size.  For `1 ≤ D` (a 16-bit count), `128 ≤ L` and,
when the header is written, `L < 2^48`, both plain encoders run
`⌊L / (16·D)⌋` passes of the group loop; every pass appends `⌈6·D / 8⌉` header
bytes and two block bodies of `8 · row_bytes` bytes each; the returned size is
`8·[write_size]` plus the bytes of all groups plus `L mod 16·D`. -/
theorem modeA_wire_size (T : Nat → Nat) (src dest : Mem) (L D : Nat) (write_size : Bool)
    (hD1 : 1 ≤ D) (hD2 : D < 65536) (hL : 128 ≤ L) (hA : write_size = true → L < 2 ^ 48) :
    headerLen write_size = 8 * (if write_size then 1 else 0) ∧
    headerBytesOf D = (6 * D + 7) / 8 ∧
    (compress8b_rowmajor T src L dest D write_size).ret =
      some (headerLen write_size + sumTo (L / (16 * D)) (rowmajorGroupBytes T src D)
        + L % (16 * D)) ∧
    (∀ g, (rowmajorLoop T src L dest D write_size (g + 1)).dest =
      (rowmajorLoop T src L dest D write_size g).dest + headerBytesOf D
        + 8 * rowBytesOf (stripeStats T src (g * (16 * D)) D) (nstripesOf D)
        + 8 * rowBytesOf (stripeStats T src (g * (16 * D) + 8 * D) D) (nstripesOf D)) ∧
    (compress8b_rowmajor_delta T src L dest D write_size).ret =
      some (headerLen write_size + sumTo (L / (16 * D)) (fun g =>
        deltaGroupBytes T src D (deltaLoop T src L dest D write_size g)) + L % (16 * D)) ∧
    (∀ g, (deltaLoop T src L dest D write_size (g + 1)).enc.dest =
      (deltaLoop T src L dest D write_size g).enc.dest + headerBytesOf D
        + 8 * rowBytesOf (deltaStripeStats T src (g * (16 * D)) D
            (deltaLoop T src L dest D write_size g).deltas).1 (nstripesOf D)
        + 8 * rowBytesOf (deltaStripeStats T src (g * (16 * D) + 8 * D) D
            (deltaStripeStats T src (g * (16 * D)) D
              (deltaLoop T src L dest D write_size g).deltas).2).1 (nstripesOf D)) := by
  refine ⟨by cases write_size <;> rfl, headerBytesOf_eq D, ?_, ?_, ?_, ?_⟩
  · rw [compress8b_rowmajor_large T src dest L D write_size hD1 hD2 hL hA, rowmajorLoop_dest]
    rfl
  · intro g
    rw [rowmajorLoop_succ, rowmajorGroup_dest, rowmajorLoop_src]
  · rw [compress8b_rowmajor_delta_large T src dest L D write_size hD1 hD2 hL hA, deltaLoop_dest]
    rfl
  · intro g
    rw [deltaLoop_succ, deltaGroup_dest, deltaLoop_src]

theorem modeA_wire_size_witness :
    headerLen true = 8 * (if true then 1 else 0) ∧
    headerBytesOf 3 = (6 * 3 + 7) / 8 ∧
    (compress8b_rowmajor NBITS_MASKS_U8_folded Mem.zero 1000 Mem.zero 3 true).ret =
      some (headerLen true + sumTo (1000 / (16 * 3)) (rowmajorGroupBytes NBITS_MASKS_U8_folded
        Mem.zero 3) + 1000 % (16 * 3)) ∧
    (∀ g, (rowmajorLoop NBITS_MASKS_U8_folded Mem.zero 1000 Mem.zero 3 true (g + 1)).dest =
      (rowmajorLoop NBITS_MASKS_U8_folded Mem.zero 1000 Mem.zero 3 true g).dest + headerBytesOf 3
        + 8 * rowBytesOf (stripeStats NBITS_MASKS_U8_folded Mem.zero (g * (16 * 3)) 3)
            (nstripesOf 3)
        + 8 * rowBytesOf (stripeStats NBITS_MASKS_U8_folded Mem.zero (g * (16 * 3) + 8 * 3) 3)
            (nstripesOf 3)) ∧
    (compress8b_rowmajor_delta NBITS_MASKS_U8_folded Mem.zero 1000 Mem.zero 3 true).ret =
      some (headerLen true + sumTo (1000 / (16 * 3)) (fun g =>
        deltaGroupBytes NBITS_MASKS_U8_folded Mem.zero 3
          (deltaLoop NBITS_MASKS_U8_folded Mem.zero 1000 Mem.zero 3 true g)) + 1000 % (16 * 3)) ∧
    (∀ g, (deltaLoop NBITS_MASKS_U8_folded Mem.zero 1000 Mem.zero 3 true (g + 1)).enc.dest =
      (deltaLoop NBITS_MASKS_U8_folded Mem.zero 1000 Mem.zero 3 true g).enc.dest + headerBytesOf 3
        + 8 * rowBytesOf (deltaStripeStats NBITS_MASKS_U8_folded Mem.zero (g * (16 * 3)) 3
            (deltaLoop NBITS_MASKS_U8_folded Mem.zero 1000 Mem.zero 3 true g).deltas).1
            (nstripesOf 3)
        + 8 * rowBytesOf (deltaStripeStats NBITS_MASKS_U8_folded Mem.zero (g * (16 * 3) + 8 * 3) 3
            (deltaStripeStats NBITS_MASKS_U8_folded Mem.zero (g * (16 * 3)) 3
              (deltaLoop NBITS_MASKS_U8_folded Mem.zero 1000 Mem.zero 3 true g).deltas).2).1
            (nstripesOf 3)) :=
  modeA_wire_size NBITS_MASKS_U8_folded Mem.zero Mem.zero 1000 3 true (by norm_num) (by norm_num)
    (by norm_num) (fun _ => by norm_num)

/-! ## Every packed row fits in `D` bytes -/

theorem stripeStats_eq_statsOf (T : Nat → Nat) (src : Mem) (p ndims : Nat) :
    stripeStats T src p ndims = statsOf T (fun dim => orReduce src p ndims dim) ndims := rfl

/-- A loop that accumulates the stripe statistics next to another state
computes the statistics of the masks it meets on the way. -/
theorem accumLoop_eq {β : Type} (T : Nat → Nat) (F : Nat → β → Nat) (G : Nat → β → β) (d0 : β)
    (n : Nat) :
    forLoop n (fun dim (s : StripeStats × β) => (accumDim T dim (F dim s.2) s.1, G dim s.2))
        (StripeStats.zero, d0) =
      (statsOf T (fun dim => F dim (forLoop dim G d0)) n, forLoop n G d0) := by
  induction n with
  | zero => rfl
  | succ n ih =>
    rw [forLoop, ih, statsOf_succ]
    rfl

/-- Total width of a row: the widths of all dimensions. -/
theorem statsOf_row_bits (T dm : Nat → Nat) (D : Nat) :
    sumTo (nstripesOf D) (statsOf T dm D).stripe_bitwidths.get =
      sumTo D (fun d => maxNbits (maskOf T dm d)) := by
  have h8 := nstripesOf_le D
  have hge : D ≤ 8 * nstripesOf D := by
    unfold nstripesOf stripe_sz
    split_ifs <;> omega
  have e1 : sumTo (nstripesOf D) (statsOf T dm D).stripe_bitwidths.get =
      sumTo (8 * nstripesOf D) (fun d => if d < D then maxNbits (maskOf T dm d) else 0) := by
    rw [sumTo_blocks]
    apply sumTo_congr
    intro s _
    rw [statsOf_widths]
  rw [e1]
  obtain ⟨r, hr⟩ : ∃ r, 8 * nstripesOf D = D + r := ⟨8 * nstripesOf D - D, by omega⟩
  rw [hr, sumTo_add]
  have e2 : sumTo r (fun j => (fun d => if d < D then maxNbits (maskOf T dm d) else 0) (D + j))
      = 0 := by
    refine (sumTo_congr r _ (fun _ => 0) ?_).trans (sumTo_zero_fun r)
    intro j _
    show (if D + j < D then _ else 0) = 0
    rw [if_neg (by omega)]
  rw [e2, Nat.add_zero]
  apply sumTo_congr
  intro d hd
  show (if d < D then _ else 0) = _
  rw [if_pos hd]

theorem statsOf_row_bits_le (T dm : Nat → Nat) (D : Nat) :
    sumTo (nstripesOf D) (statsOf T dm D).stripe_bitwidths.get ≤ 8 * D := by
  rw [statsOf_row_bits]
  have := sumTo_le D 8 (fun d => maxNbits (maskOf T dm d))
    (fun d _ => maxNbits_le _ (maskOf_lt T dm d))
  omega

/-- The row size the encoders compute is the byte-aligned total width. -/
theorem rowBytesOf_statsOf (T dm : Nat → Nat) (D : Nat) (hD1 : 1 ≤ D) (hD2 : D < 65536) :
    rowBytesOf (statsOf T dm D) (nstripesOf D) =
      rowNbytes (sumTo (nstripesOf D) (statsOf T dm D).stripe_bitwidths.get) := by
  have hle := statsOf_row_bits_le T dm D
  have hpos := nstripesOf_pos D hD1
  unfold rowBytesOf
  rw [stripeBitoffsets_get _ _ _ (by omega) (by omega)]
  have e : sumTo (nstripesOf D - 1) (statsOf T dm D).stripe_bitwidths.get
      + (statsOf T dm D).stripe_bitwidths.get (nstripesOf D - 1)
      = sumTo (nstripesOf D) (statsOf T dm D).stripe_bitwidths.get := by
    obtain ⟨n, hn⟩ : ∃ n, nstripesOf D = n + 1 := ⟨nstripesOf D - 1, by omega⟩
    rw [hn, Nat.add_sub_cancel, sumTo]
  rw [e, Nat.mod_eq_of_lt (by omega)]

theorem rowBytesOf_statsOf_le (T dm : Nat → Nat) (D : Nat) (hD1 : 1 ≤ D) (hD2 : D < 65536) :
    rowBytesOf (statsOf T dm D) (nstripesOf D) ≤ D := by
  rw [rowBytesOf_statsOf T dm D hD1 hD2]
  have h1 := statsOf_row_bits_le T dm D
  have h2 := rowNbytes_lt (sumTo (nstripesOf D) (statsOf T dm D).stripe_bitwidths.get)
  omega

theorem deltaStripeStats_fst (T : Nat → Nat) (src : Mem) (p ndims : Nat) (deltas : Mem) :
    ∃ dm, (deltaStripeStats T src p ndims deltas).1 = statsOf T dm ndims := by
  unfold deltaStripeStats
  exact ⟨_, congrArg Prod.fst (accumLoop_eq T
    (fun dim (m : Mem) => (forLoop block_sz
        (fun i (r : Nat × Mem × Nat) =>
          (r.1 ||| zigzag_encode_i8 ((load8 src (p + (i * ndims + dim)) + 256 - r.2.2) % 256),
            store8 r.2.1 (i * ndims + dim)
              (zigzag_encode_i8 ((load8 src (p + (i * ndims + dim)) + 256 - r.2.2) % 256)),
            load8 src (p + (i * ndims + dim))))
        (0, m, load8 m (block_sz * ndims + dim))).1)
    (fun dim (m : Mem) => store8 (forLoop block_sz
        (fun i (r : Nat × Mem × Nat) =>
          (r.1 ||| zigzag_encode_i8 ((load8 src (p + (i * ndims + dim)) + 256 - r.2.2) % 256),
            store8 r.2.1 (i * ndims + dim)
              (zigzag_encode_i8 ((load8 src (p + (i * ndims + dim)) + 256 - r.2.2) % 256)),
            load8 src (p + (i * ndims + dim))))
        (0, m, load8 m (block_sz * ndims + dim))).2.1 (block_sz * ndims + dim)
      (forLoop block_sz
        (fun i (r : Nat × Mem × Nat) =>
          (r.1 ||| zigzag_encode_i8 ((load8 src (p + (i * ndims + dim)) + 256 - r.2.2) % 256),
            store8 r.2.1 (i * ndims + dim)
              (zigzag_encode_i8 ((load8 src (p + (i * ndims + dim)) + 256 - r.2.2) % 256)),
            load8 src (p + (i * ndims + dim))))
        (0, m, load8 m (block_sz * ndims + dim))).2.2)
    deltas ndims)⟩

theorem rowBytesOf_stripeStats_le (T : Nat → Nat) (src : Mem) (p D : Nat) (hD1 : 1 ≤ D)
    (hD2 : D < 65536) : rowBytesOf (stripeStats T src p D) (nstripesOf D) ≤ D := by
  rw [stripeStats_eq_statsOf]
  exact rowBytesOf_statsOf_le T _ D hD1 hD2

theorem rowBytesOf_deltaStripeStats_le (T : Nat → Nat) (src : Mem) (p D : Nat) (deltas : Mem)
    (hD1 : 1 ≤ D) (hD2 : D < 65536) :
    rowBytesOf (deltaStripeStats T src p D deltas).1 (nstripesOf D) ≤ D := by
  obtain ⟨dm, h⟩ := deltaStripeStats_fst T src p D deltas
  rw [h]
  exact rowBytesOf_statsOf_le T dm D hD1 hD2

/-! ## The loops of `compress8b_rowmajor_delta_rle` -/

theorem writeRunLength_dest_le (mem : Mem) (dest len : Nat) :
    dest + 1 ≤ (writeRunLength mem dest len).2 ∧ (writeRunLength mem dest len).2 ≤ dest + 2 := by
  rw [(writeRunLength_eq mem dest len 0).1]
  split_ifs <;> omega

theorem fill_dest (n : Nat) (w : Mem × Nat) :
    (forLoop n (fun _ (f : Mem × Nat) => (store8 f.1 f.2 0, f.2 + 1)) w).2 = w.2 + n := by
  induction n with
  | zero => rfl
  | succ n ih => rw [forLoop]; show _ + 1 = _; rw [ih]; omega

/-- The branch `do_rle`: the run goes on, or the encoder closes the group and
leaves the loops. -/
theorem rle_do_rle_spec (T : Nat → Nat) (src : Mem) (L D d0 : Nat) (hD1 : 1 ≤ D)
    (s : RleEncState) (G : Nat) (h : RleBInv D L d0 s G) (hb : s.b < 2)
    (hrun : s.run_length_nblocks < 0x7fff) :
    ((rle_do_rle (rleCtxOf T src L D) s).2 = false →
      RleBInv D L d0 (rle_do_rle (rleCtxOf T src L D) s).1 G ∧
      (rle_do_rle (rleCtxOf T src L D) s).1.src = s.src + 8 * D) ∧
    ((rle_do_rle (rleCtxOf T src L D) s).2 = true →
      RleFinal D L d0 (rle_do_rle (rleCtxOf T src L D) s).1 G) := by
  obtain ⟨h1, h2, h3, h4, h5, h6, h7, h8, h9, h10, h11⟩ := h
  have hmod : (s.run_length_nblocks + 1) % 2 ^ 16 = s.run_length_nblocks + 1 :=
    Nat.mod_eq_of_lt (by omega)
  have hread : s.src + 8 * D ≤ L := by
    rcases Nat.lt_or_ge s.b 1 with hb0 | hb1
    · have := h8 (by omega); omega
    · exact h9 (by omega)
  unfold rle_do_rle
  simp only [rleCtxOf, groupSzOf_eq, block_sz, hmod]
  by_cases hc : ((s.src + 8 * D : Nat) : Int) < (L : Int) - ((16 * D : Nat) : Int)
  · rw [if_pos hc]
    refine ⟨fun _ => ⟨?_, rfl⟩, fun hh => by simp at hh⟩
    have hc' : s.src + 8 * D + 16 * D < L := by omega
    refine ⟨h1, h2, h3, ?_, ?_, ?_, ?_, ?_, ?_, ?_, ?_⟩
    · show s.run_length_nblocks + 1 ≤ 0x7fff; omega
    · show s.dest + 8 * D * (s.run_length_nblocks + 1) ≤ d0 + G * headerBytesOf D + (s.src + 8 * D)
      rw [Nat.mul_add]; omega
    · show 16 * D * (G - 1) + 8 * D * s.b + 8 * D * (s.run_length_nblocks + 1) ≤ s.src + 8 * D
      rw [Nat.mul_add]; omega
    · show s.src + 8 * D ≤ L; omega
    · intro _; show s.src + 8 * D + 16 * D ≤ L; omega
    · intro _; show s.src + 8 * D + 8 * D ≤ L; omega
    · intro _; show s.src + 8 * D + 16 * D < L; omega
    · intro hb2; exact absurd hb2 (by show ¬ s.b = 2; omega)
  · rw [if_neg hc]
    refine ⟨fun hh => by simp at hh, fun _ => ?_⟩
    have hc' : L ≤ s.src + 8 * D + 16 * D := by omega
    have hw := writeRunLength_dest_le s.mem s.dest (s.run_length_nblocks + 1)
    have h8D : 8 ≤ 8 * D := by omega
    have hrunpos : 0 ≤ 8 * D * s.run_length_nblocks := Nat.zero_le _
    refine ⟨h3, ?_, ?_, ?_, ?_⟩
    · simp only [fill_dest, group_sz_blocks, kDefaultGroupSzBlocks]
      omega
    · show s.src + 8 * D ≤ L; exact hread
    · have : 16 * D * G = 16 * D * (G - 1) + 16 * D := by
        obtain ⟨g, hg⟩ : ∃ g, G = g + 1 := ⟨G - 1, by omega⟩
        rw [hg, Nat.add_sub_cancel]; ring
      omega
    · show L ≤ s.src + 8 * D + 16 * D; exact hc'

/-- The block is bit-packed. -/
theorem rle_pack_spec (T : Nat → Nat) (src : Mem) (L D d0 : Nat) (blk : RleBlock)
    (s : RleEncState) (G : Nat) (h : RleBInv D L d0 s G) (hb : s.b < 2)
    (hrun : s.run_length_nblocks = 0) (hrb : blk.out_row_nbytes ≤ D) :
    RleBInv D L d0 (rle_pack (rleCtxOf T src L D) blk s) G ∧
    (rle_pack (rleCtxOf T src L D) blk s).src = s.src + 8 * D := by
  obtain ⟨h1, h2, h3, h4, h5, h6, h7, h8, h9, h10, h11⟩ := h
  have hread : s.src + 8 * D ≤ L := by
    rcases Nat.lt_or_ge s.b 1 with hb0 | hb1
    · have := h8 (by omega); omega
    · exact h9 (by omega)
  refine ⟨⟨?_, h2, h3, ?_, ?_, ?_, ?_, ?_, ?_, ?_, ?_⟩, rfl⟩
  · show s.b + 1 ≤ 2; omega
  · show s.run_length_nblocks ≤ 0x7fff; omega
  · show s.dest + block_sz * blk.out_row_nbytes + 8 * D * s.run_length_nblocks
      ≤ d0 + G * headerBytesOf D + (s.src + block_sz * D)
    rw [hrun] at h5 ⊢
    simp only [block_sz]
    omega
  · show 16 * D * (G - 1) + 8 * D * (s.b + 1) + 8 * D * s.run_length_nblocks
      ≤ s.src + block_sz * D
    rw [hrun] at h6 ⊢
    simp only [block_sz]
    rw [Nat.mul_add]
    omega
  · show s.src + block_sz * D ≤ L
    simp only [block_sz]; omega
  · intro hb0
    exact absurd hb0 (by show ¬ s.b + 1 = 0; omega)
  · intro hb1
    have hb0 : s.b = 0 := by
      have : s.b + 1 = 1 := hb1
      omega
    have := h8 hb0
    show s.src + block_sz * D + 8 * D ≤ L
    simp only [block_sz]; omega
  · intro hr
    have : 0 < s.run_length_nblocks := hr
    omega
  · intro _
    exact hrun

/-- The code at `just_read_block` when no run is in progress. -/
theorem rle_just_read_block_fresh (T : Nat → Nat) (src : Mem) (L D d0 : Nat) (hD1 : 1 ≤ D)
    (blk : RleBlock) (jumps : Nat) (s : RleEncState) (G : Nat) (h : RleBInv D L d0 s G)
    (hb : s.b < 2) (hrun : s.run_length_nblocks = 0) (hrb : blk.out_row_nbytes ≤ D) :
    ∃ r, rle_just_read_block (rleCtxOf T src L D) blk (jumps + 1) s = some r ∧
      (r.2 = false → RleBInv D L d0 r.1 G ∧ r.1.src = s.src + 8 * D) ∧
      (r.2 = true → RleFinal D L d0 r.1 G) := by
  rw [rle_just_read_block]
  simp only []
  by_cases hdo : (decide (blk.row_width_bits = 0) &&
      decide (s.run_length_nblocks < max_run_nblocks)) = true
  · rw [if_pos hdo]
    exact ⟨_, rfl, rle_do_rle_spec T src L D d0 hD1 s G h hb (by rw [hrun]; norm_num)⟩
  · rw [if_neg hdo, if_neg (by omega)]
    have := rle_pack_spec T src L D d0 blk s G h hb hrun hrb
    exact ⟨_, rfl, fun _ => this, fun hh => by simp at hh⟩

/-- The code at `just_read_block`, from the head of the block loop: one block
of input is consumed, or the encoder leaves the loops. -/
theorem rle_just_read_block_spec (T : Nat → Nat) (src : Mem) (L D d0 : Nat) (hD1 : 1 ≤ D)
    (blk : RleBlock) (s : RleEncState) (G : Nat) (h : RleBInv D L d0 s G)
    (hb : s.b < 2) (hrb : blk.out_row_nbytes ≤ D) :
    ∃ r, rle_just_read_block (rleCtxOf T src L D) blk 2 s = some r ∧
      (r.2 = false → (∃ G2, RleBInv D L d0 r.1 G2) ∧ r.1.src = s.src + 8 * D) ∧
      (r.2 = true → ∃ G2, RleFinal D L d0 r.1 G2) := by
  by_cases hrun : s.run_length_nblocks = 0
  · obtain ⟨r, hr, h1, h2⟩ := rle_just_read_block_fresh T src L D d0 hD1 blk 1 s G h hb hrun hrb
    exact ⟨r, hr, fun hf => ⟨⟨G, (h1 hf).1⟩, (h1 hf).2⟩, fun ht => ⟨G, h2 ht⟩⟩
  · rw [rle_just_read_block]
    simp only []
    by_cases hdo : (decide (blk.row_width_bits = 0) &&
        decide (s.run_length_nblocks < max_run_nblocks)) = true
    · rw [if_pos hdo]
      have hlt : s.run_length_nblocks < 0x7fff := by
        simp only [Bool.and_eq_true, decide_eq_true_eq, max_run_nblocks] at hdo
        exact hdo.2
      have := rle_do_rle_spec T src L D d0 hD1 s G h hb hlt
      exact ⟨_, rfl, fun hf => ⟨⟨G, (this.1 hf).1⟩, (this.1 hf).2⟩, fun ht => ⟨G, this.2 ht⟩⟩
    · rw [if_neg hdo, if_pos (by omega)]
      obtain ⟨h1, h2, h3, h4, h5, h6, h7, h8, h9, h10, h11⟩ := h
      have hw := writeRunLength_dest_le s.mem s.dest s.run_length_nblocks
      have hrunpos : 1 ≤ s.run_length_nblocks := by omega
      have hlim := h10 (by omega)
      have h8D : 8 * D ≤ 8 * D * s.run_length_nblocks := Nat.le_mul_of_pos_right _ hrunpos
      by_cases hb2 : s.b + 1 = group_sz_blocks
      · rw [if_pos hb2]
        have hb1 : s.b = 1 := by
          simp only [group_sz_blocks, kDefaultGroupSzBlocks] at hb2; omega
        -- a new group starts with the block in hand
        have hinv : RleBInv D L d0
            ⟨s.src, (writeRunLength s.mem s.dest s.run_length_nblocks).2
                + (rleCtxOf T src L D).total_header_bytes,
              (memset0 (writeRunLength s.mem s.dest s.run_length_nblocks).1
                (writeRunLength s.mem s.dest s.run_length_nblocks).2
                (rleCtxOf T src L D).total_header_bytes),
              s.deltas, (s.ngroups + 1) % 2 ^ 32, 0, 0,
              (writeRunLength s.mem s.dest s.run_length_nblocks).2, 0⟩ (G + 1) := by
          refine ⟨by show (0 : Nat) ≤ 2; omega, by omega, ?_, by show (0 : Nat) ≤ _; omega, ?_, ?_,
            h7, ?_, ?_, ?_, ?_⟩
          · show (s.ngroups + 1) % 2 ^ 32 = (G + 1) % 2 ^ 32
            rw [h3]; omega
          · show (writeRunLength s.mem s.dest s.run_length_nblocks).2 + headerBytesOf D
              + 8 * D * 0 ≤ d0 + (G + 1) * headerBytesOf D + s.src
            rw [Nat.add_mul]; omega
          · show 16 * D * (G + 1 - 1) + 8 * D * 0 + 8 * D * 0 ≤ s.src
            rw [hb1] at h6
            have : 16 * D * (G + 1 - 1) = 16 * D * (G - 1) + 16 * D := by
              obtain ⟨g, hg⟩ : ∃ g, G = g + 1 := ⟨G - 1, by omega⟩
              rw [hg]; simp only [Nat.add_sub_cancel]; ring
            omega
          · intro _; show s.src + 16 * D ≤ L; omega
          · intro hh; exact absurd hh (by show ¬ (0 : Nat) = 1; omega)
          · intro hh; exact absurd hh (by show ¬ (0 : Nat) < 0; omega)
          · intro _; rfl
        obtain ⟨r, hr, e1, e2⟩ := rle_just_read_block_fresh T src L D d0 hD1 blk 0 _ (G + 1) hinv
          (by show (0 : Nat) < 2; omega) rfl hrb
        exact ⟨r, hr, fun hf => ⟨⟨G + 1, (e1 hf).1⟩, (e1 hf).2⟩, fun ht => ⟨G + 1, e2 ht⟩⟩
      · rw [if_neg hb2]
        have hb0 : s.b = 0 := by
          simp only [group_sz_blocks, kDefaultGroupSzBlocks] at hb2; omega
        have hinv : RleBInv D L d0
            ⟨s.src, (writeRunLength s.mem s.dest s.run_length_nblocks).2,
              (writeRunLength s.mem s.dest s.run_length_nblocks).1, s.deltas, s.ngroups, 0,
              s.b + 1, s.header_dest,
              s.header_bit_offset + (rleCtxOf T src L D).ndims * nbits_sz_bits⟩ G := by
          refine ⟨by show s.b + 1 ≤ 2; omega, h2, h3, by show (0 : Nat) ≤ _; omega, ?_, ?_,
            h7, ?_, ?_, ?_, ?_⟩
          · show (writeRunLength s.mem s.dest s.run_length_nblocks).2 + 8 * D * 0
              ≤ d0 + G * headerBytesOf D + s.src
            omega
          · show 16 * D * (G - 1) + 8 * D * (s.b + 1) + 8 * D * 0 ≤ s.src
            rw [hb0] at h6 ⊢
            omega
          · intro hh; exact absurd hh (by show ¬ s.b + 1 = 0; omega)
          · intro _; show s.src + 8 * D ≤ L; omega
          · intro hh; exact absurd hh (by show ¬ (0 : Nat) < 0; omega)
          · intro _; rfl
        by_cases hz : blk.row_width_bits = 0
        · rw [if_pos hz]
          have := rle_do_rle_spec T src L D d0 hD1 _ G hinv (by show s.b + 1 < 2; omega)
            (by show (0 : Nat) < 0x7fff; omega)
          exact ⟨_, rfl, fun hf => ⟨⟨G, (this.1 hf).1⟩, (this.1 hf).2⟩, fun ht => ⟨G, this.2 ht⟩⟩
        · rw [if_neg hz]
          have := rle_pack_spec T src L D d0 blk _ G hinv (by show s.b + 1 < 2; omega) rfl hrb
          exact ⟨_, rfl, fun _ => ⟨⟨G, this.1⟩, this.2⟩, fun hh => by simp at hh⟩

theorem rle_read_block_fields (T : Nat → Nat) (src : Mem) (L D : Nat) (s : RleEncState) :
    (rle_read_block (rleCtxOf T src L D) s).1.out_row_nbytes =
      rowBytesOf (deltaStripeStats T src s.src D s.deltas).1 (nstripesOf D) ∧
    (rle_read_block (rleCtxOf T src L D) s).2 =
      { s with deltas := (deltaStripeStats T src s.src D s.deltas).2 } := ⟨rfl, rfl⟩

theorem RleBInv_deltas (D L d0 : Nat) (s : RleEncState) (G : Nat) (dl : Mem)
    (h : RleBInv D L d0 s G) : RleBInv D L d0 { s with deltas := dl } G := h

/-- The block loop returns; it leaves a state fit for the group loop, or the
final state. -/
theorem rle_block_loop_spec (T : Nat → Nat) (src : Mem) (L D d0 : Nat) (hD1 : 1 ≤ D)
    (hD2 : D < 65536) (fuel : Nat) :
    ∀ (s : RleEncState) (G : Nat), RleBInv D L d0 s G → L - s.src < fuel * (8 * D) →
      ∃ r, rle_block_loop (rleCtxOf T src L D) fuel s = some r ∧
        (r.2 = false → (∃ G2, RleGInv D L d0 r.1 G2) ∧ s.src ≤ r.1.src ∧
          (s.b < 2 → s.src + 8 * D ≤ r.1.src)) ∧
        (r.2 = true → ∃ G2, RleFinal D L d0 r.1 G2) := by
  induction fuel with
  | zero => intro s G _ hf; omega
  | succ fuel ih =>
    intro s G h hf
    rw [rle_block_loop]
    by_cases hb : s.b < group_sz_blocks
    · rw [if_pos hb]
      have hb2 : s.b < 2 := hb
      obtain ⟨e1, e2⟩ := rle_read_block_fields T src L D s
      have hrb : (rle_read_block (rleCtxOf T src L D) s).1.out_row_nbytes ≤ D := by
        rw [e1]; exact rowBytesOf_deltaStripeStats_le T src _ D _ hD1 hD2
      have hinv : RleBInv D L d0 (rle_read_block (rleCtxOf T src L D) s).2 G := by
        rw [e2]; exact RleBInv_deltas D L d0 s G _ h
      have hsrc : (rle_read_block (rleCtxOf T src L D) s).2.src = s.src := by rw [e2]
      have hbb : (rle_read_block (rleCtxOf T src L D) s).2.b = s.b := by rw [e2]
      obtain ⟨⟨s1, flag⟩, hr, p1, p2⟩ := rle_just_read_block_spec T src L D d0 hD1
        (rle_read_block (rleCtxOf T src L D) s).1 (rle_read_block (rleCtxOf T src L D) s).2 G hinv
        (by rw [hbb]; exact hb2) hrb
      simp only [hr]
      cases flag with
      | true => exact ⟨_, rfl, fun hh => by simp at hh, fun _ => p2 rfl⟩
      | false =>
        obtain ⟨⟨G2, q1⟩, q2⟩ := p1 rfl
        have q2b : s1.src = s.src + 8 * D := by rw [← hsrc]; exact q2
        have hread : s.src + 8 * D ≤ L := by rw [← q2b]; exact q1.2.2.2.2.2.2.1
        obtain ⟨r, hr2, r1, r2⟩ := ih s1 G2 q1 (by
          rw [q2b]
          have : (fuel + 1) * (8 * D) = fuel * (8 * D) + 8 * D := by ring
          omega)
        have := fun hh => (r1 hh).2.1
        exact ⟨r, hr2, fun hh => ⟨(r1 hh).1, by have := this hh; omega,
          fun _ => by have := this hh; omega⟩, r2⟩
    · rw [if_neg hb]
      have hb2 : s.b = 2 := by
        have := h.1
        simp only [group_sz_blocks, kDefaultGroupSzBlocks] at hb
        omega
      obtain ⟨h1, h2, h3, h4, h5, h6, h7, h8, h9, h10, h11⟩ := h
      have hrun := h11 hb2
      refine ⟨_, rfl, fun _ => ⟨⟨G, hrun, h3, ?_, ?_, h7⟩, le_refl _, fun hh => by omega⟩,
        fun hh => by simp at hh⟩
      · show s.dest ≤ d0 + G * headerBytesOf D + s.src
        rw [hrun] at h5; omega
      · show 16 * D * G ≤ s.src
        rw [hrun, hb2] at h6
        have : 16 * D * G = 16 * D * (G - 1) + 16 * D := by
          obtain ⟨g, hg⟩ : ∃ g, G = g + 1 := ⟨G - 1, by omega⟩
          rw [hg, Nat.add_sub_cancel]; ring
        omega

/-- The group loop returns, in a final state. -/
theorem rle_group_loop_spec (T : Nat → Nat) (src : Mem) (L D d0 : Nat) (hD1 : 1 ≤ D)
    (hD2 : D < 65536) (fuel : Nat) (hfuel : L < fuel * (8 * D)) (n : Nat) :
    ∀ (s : RleEncState) (G : Nat), RleGInv D L d0 s G → L - s.src < n * (8 * D) →
      ∃ r, rle_group_loop (rleCtxOf T src L D) fuel n s = some r ∧
        ∃ G2, RleFinal D L d0 r G2 := by
  induction n with
  | zero => intro s G _ hf; omega
  | succ n ih =>
    intro s G h hf
    obtain ⟨h1, h2, h3, h4, h5⟩ := h
    rw [rle_group_loop]
    by_cases hc : (s.src : Int) ≤ (rleCtxOf T src L D).last_full_group_start
    · rw [if_pos hc]
      have hc2 : s.src + 16 * D ≤ L := by
        simp only [rleCtxOf, groupSzOf_eq] at hc
        omega
      have hinv : RleBInv D L d0
          ⟨s.src, s.dest + (rleCtxOf T src L D).total_header_bytes,
            (memset0 s.mem s.dest (rleCtxOf T src L D).total_header_bytes), s.deltas,
            (s.ngroups + 1) % 2 ^ 32, s.run_length_nblocks, 0, s.dest, 0⟩ (G + 1) := by
        refine ⟨by show (0 : Nat) ≤ 2; omega, by omega, ?_, ?_, ?_, ?_, h5, ?_, ?_, ?_, ?_⟩
        · show (s.ngroups + 1) % 2 ^ 32 = (G + 1) % 2 ^ 32
          rw [h2]; omega
        · show s.run_length_nblocks ≤ 0x7fff
          omega
        · show s.dest + headerBytesOf D + 8 * D * s.run_length_nblocks
            ≤ d0 + (G + 1) * headerBytesOf D + s.src
          rw [h1, Nat.add_mul]; omega
        · show 16 * D * (G + 1 - 1) + 8 * D * 0 + 8 * D * s.run_length_nblocks ≤ s.src
          rw [h1, Nat.add_sub_cancel]; omega
        · intro _; show s.src + 16 * D ≤ L; exact hc2
        · intro hh; exact absurd hh (by show ¬ (0 : Nat) = 1; omega)
        · intro hh
          have : 0 < s.run_length_nblocks := hh
          omega
        · intro _; exact h1
      obtain ⟨⟨s2, flag⟩, hr, p1, p2⟩ := rle_block_loop_spec T src L D d0 hD1 hD2 fuel _ (G + 1)
        hinv (by show L - s.src < fuel * (8 * D); omega)
      simp only [hr]
      cases flag with
      | true => exact ⟨_, rfl, p2 rfl⟩
      | false =>
        obtain ⟨⟨G2, q1⟩, _, q3⟩ := p1 rfl
        have q3b : s.src + 8 * D ≤ s2.src := q3 (by show (0 : Nat) < 2; omega)
        exact ih s2 G2 q1 (by
          have : (n + 1) * (8 * D) = n * (8 * D) + 8 * D := by ring
          have := q1.2.2.2.2
          omega)
    · rw [if_neg hc]
      have hc2 : L < s.src + 16 * D := by
        simp only [rleCtxOf, groupSzOf_eq] at hc
        omega
      exact ⟨_, rfl, G, h2, h3, h5, by omega, by omega⟩

theorem rleInit_inv (D L : Nat) (dest : Mem) (write_size : Bool) :
    RleGInv D L (headerLen write_size) (rleInit dest write_size) 0 := by
  refine ⟨rfl, rfl, ?_, ?_, ?_⟩
  · show (if write_size then length_header_nbytes else 0) ≤ headerLen write_size + 0 * _ + 0
    cases write_size <;> simp [headerLen, length_header_nbytes]
  · show 16 * D * 0 ≤ 0; omega
  · show 0 ≤ L; omega

/-- The loops of `compress8b_rowmajor_delta_rle` terminate, in a final state. -/
theorem rleLoop_spec (T : Nat → Nat) (src dest : Mem) (L D : Nat) (write_size : Bool)
    (hD1 : 1 ≤ D) (hD2 : D < 65536) :
    ∃ s, rleLoop T src L dest D write_size = some s ∧
      ∃ G, RleFinal D L (headerLen write_size) s G := by
  unfold rleLoop
  have hf : L < (L + 1) * (8 * D) := by nlinarith
  exact rle_group_loop_spec T src L D (headerLen write_size) hD1 hD2 (L + 1) hf (L + 1) _ 0
    (rleInit_inv D L dest write_size) (by show L - 0 < _; omega)

/-! ## Worst-case size of the output -/

theorem headerLen_le (write_size : Bool) : headerLen write_size ≤ 8 := by
  cases write_size <;> simp [headerLen]

theorem groups_le_ceil (L D G : Nat) (hD1 : 1 ≤ D) (h : 16 * D * G ≤ L + 8 * D) :
    G ≤ (L + 16 * D - 1) / (16 * D) := by
  rw [Nat.le_div_iff_mul_le (by omega)]
  rw [Nat.mul_comm]
  omega

theorem floor_le_ceil (L D : Nat) (hD1 : 1 ≤ D) : L / (16 * D) ≤ (L + 16 * D - 1) / (16 * D) :=
  Nat.div_le_div_right (by omega)

/-- Size of the output of `compress8b_rowmajor`. -/
theorem compress8b_rowmajor_size (T : Nat → Nat) (src dest : Mem) (L D : Nat) (write_size : Bool)
    (hD1 : 1 ≤ D) (hD2 : D < 65536) (hA : write_size = true → L < 2 ^ 48) :
    ∃ out n, compress8b_rowmajor T src L dest D write_size = Outcome.returned out n ∧
      n ≤ L + 8 + (L + 16 * D - 1) / (16 * D) * headerBytesOf D := by
  have hl := headerLen_le write_size
  by_cases hL : 128 ≤ L
  · refine ⟨_, _, compress8b_rowmajor_large T src dest L D write_size hD1 hD2 hL hA, ?_⟩
    rw [rowmajorLoop_dest]
    have h1 := sumTo_le (L / (16 * D)) (headerBytesOf D + 16 * D) (rowmajorGroupBytes T src D)
      (fun g _ => by
        have a := rowBytesOf_stripeStats_le T src (g * (16 * D)) D hD1 hD2
        have b := rowBytesOf_stripeStats_le T src (g * (16 * D) + 8 * D) D hD1 hD2
        unfold rowmajorGroupBytes
        omega)
    have h2 := Nat.mul_le_mul_right (headerBytesOf D) (floor_le_ceil L D hD1)
    have h3 := Nat.div_add_mod L (16 * D)
    rw [Nat.mul_add] at h1
    rw [Nat.mul_comm (16 * D)] at h3
    omega
  · rw [compress8b_rowmajor_eq]
    have h1 : ¬ ((write_size && decide (¬ L < 2 ^ 48)) = true) := by
      simp only [Bool.and_eq_true, decide_eq_true_eq, not_and, not_not]
      exact hA
    rw [if_neg h1, if_pos (by omega)]
    refine ⟨_, _, rfl, ?_⟩
    have : L % 2 ^ 32 ≤ L := Nat.mod_le _ _
    omega

/-- Size of the output of `compress8b_rowmajor_delta`. -/
theorem compress8b_rowmajor_delta_size (T : Nat → Nat) (src dest : Mem) (L D : Nat)
    (write_size : Bool) (hD1 : 1 ≤ D) (hD2 : D < 65536) (hA : write_size = true → L < 2 ^ 48) :
    ∃ out n, compress8b_rowmajor_delta T src L dest D write_size = Outcome.returned out n ∧
      n ≤ L + 8 + (L + 16 * D - 1) / (16 * D) * headerBytesOf D := by
  have hl := headerLen_le write_size
  by_cases hL : 128 ≤ L
  · refine ⟨_, _, compress8b_rowmajor_delta_large T src dest L D write_size hD1 hD2 hL hA, ?_⟩
    rw [deltaLoop_dest]
    have h1 := sumTo_le (L / (16 * D)) (headerBytesOf D + 16 * D)
      (fun g => deltaGroupBytes T src D (deltaLoop T src L dest D write_size g))
      (fun g _ => by
        have a := rowBytesOf_deltaStripeStats_le T src
          (deltaLoop T src L dest D write_size g).enc.src D
          (deltaLoop T src L dest D write_size g).deltas hD1 hD2
        have b := rowBytesOf_deltaStripeStats_le T src
          ((deltaLoop T src L dest D write_size g).enc.src + 8 * D) D
          (deltaStripeStats T src (deltaLoop T src L dest D write_size g).enc.src D
            (deltaLoop T src L dest D write_size g).deltas).2 hD1 hD2
        show deltaGroupBytes T src D _ ≤ _
        unfold deltaGroupBytes
        omega)
    have h2 := Nat.mul_le_mul_right (headerBytesOf D) (floor_le_ceil L D hD1)
    have h3 := Nat.div_add_mod L (16 * D)
    rw [Nat.mul_add] at h1
    rw [Nat.mul_comm (16 * D)] at h3
    omega
  · rw [compress8b_rowmajor_delta_eq]
    have h1 : ¬ ((write_size && decide (¬ L < 2 ^ 48)) = true) := by
      simp only [Bool.and_eq_true, decide_eq_true_eq, not_and, not_not]
      exact hA
    rw [if_neg h1, if_pos (by omega)]
    refine ⟨_, _, rfl, ?_⟩
    have : L % 2 ^ 32 ≤ L := Nat.mod_le _ _
    omega

/-- Size of the output of `compress8b_rowmajor_delta_rle`. -/
theorem compress8b_rowmajor_delta_rle_size (T : Nat → Nat) (src dest : Mem) (L D : Nat)
    (write_size : Bool) (hD1 : 1 ≤ D) (hD2 : D < 65536) :
    ∃ out n, compress8b_rowmajor_delta_rle T src L dest D write_size
        = some (Outcome.returned out n) ∧
      n ≤ L + 8 + (L + 16 * D - 1) / (16 * D) * headerBytesOf D := by
  have hl := headerLen_le write_size
  by_cases hL : L < 128
  · rw [compress8b_rowmajor_delta_rle_small T src dest L D write_size hL]
    refine ⟨_, _, rfl, ?_⟩
    cases write_size
    · simp only [Bool.false_eq_true, if_false]; omega
    · simp only [if_true]; omega
  · rw [compress8b_rowmajor_delta_rle_eq T src dest L D write_size hL]
    obtain ⟨s, hs, G, g1, g2, g3, g4, g5⟩ := rleLoop_spec T src dest L D write_size hD1 hD2
    rw [hs]
    refine ⟨_, _, rfl, ?_⟩
    have hG := Nat.mul_le_mul_right (headerBytesOf D) (groups_le_ceil L D G hD1 g4)
    have hrem : (((L : Int) - (s.src : Int)) % 2 ^ 32).toNat ≤ L - s.src := by
      omega
    omega

/-- C12: the worst-case output size.  For `1 ≤ D` (a 16-bit count) and every
input length `L`, each of the three encoders returns a size of at most
`L + 8 + ⌈L / (16·D)⌉ · header_bytes` with `header_bytes = ⌈6·D / 8⌉` (the two
plain encoders under their assertion `L < 2^48` when the header is written);
every packed row of a block occupies at most `D` bytes. -/
theorem worst_case_size (T : Nat → Nat) (src dest : Mem) (L D : Nat) (write_size : Bool)
    (hD1 : 1 ≤ D) (hD2 : D < 65536) :
    headerBytesOf D = (6 * D + 7) / 8 ∧
    ((write_size = true → L < 2 ^ 48) →
      (∃ out n, compress8b_rowmajor T src L dest D write_size = Outcome.returned out n ∧
        n ≤ L + 8 + (L + 16 * D - 1) / (16 * D) * headerBytesOf D) ∧
      (∃ out n, compress8b_rowmajor_delta T src L dest D write_size = Outcome.returned out n ∧
        n ≤ L + 8 + (L + 16 * D - 1) / (16 * D) * headerBytesOf D)) ∧
    (∃ out n, compress8b_rowmajor_delta_rle T src L dest D write_size
        = some (Outcome.returned out n) ∧
      n ≤ L + 8 + (L + 16 * D - 1) / (16 * D) * headerBytesOf D) ∧
    (∀ p, rowBytesOf (stripeStats T src p D) (nstripesOf D) ≤ D) ∧
    (∀ p deltas, rowBytesOf (deltaStripeStats T src p D deltas).1 (nstripesOf D) ≤ D) :=
  ⟨headerBytesOf_eq D,
    fun hA => ⟨compress8b_rowmajor_size T src dest L D write_size hD1 hD2 hA,
      compress8b_rowmajor_delta_size T src dest L D write_size hD1 hD2 hA⟩,
    compress8b_rowmajor_delta_rle_size T src dest L D write_size hD1 hD2,
    fun p => rowBytesOf_stripeStats_le T src p D hD1 hD2,
    fun p deltas => rowBytesOf_deltaStripeStats_le T src p D deltas hD1 hD2⟩

theorem worst_case_size_witness :
    headerBytesOf 3 = (6 * 3 + 7) / 8 ∧
    ((true = true → 1000 < 2 ^ 48) →
      (∃ out n, compress8b_rowmajor NBITS_MASKS_U8_folded Mem.zero 1000 Mem.zero 3 true
          = Outcome.returned out n ∧
        n ≤ 1000 + 8 + (1000 + 16 * 3 - 1) / (16 * 3) * headerBytesOf 3) ∧
      (∃ out n, compress8b_rowmajor_delta NBITS_MASKS_U8_folded Mem.zero 1000 Mem.zero 3 true
          = Outcome.returned out n ∧
        n ≤ 1000 + 8 + (1000 + 16 * 3 - 1) / (16 * 3) * headerBytesOf 3)) ∧
    (∃ out n, compress8b_rowmajor_delta_rle NBITS_MASKS_U8_folded Mem.zero 1000 Mem.zero 3 true
        = some (Outcome.returned out n) ∧
      n ≤ 1000 + 8 + (1000 + 16 * 3 - 1) / (16 * 3) * headerBytesOf 3) ∧
    (∀ p, rowBytesOf (stripeStats NBITS_MASKS_U8_folded Mem.zero p 3) (nstripesOf 3) ≤ 3) ∧
    (∀ p deltas, rowBytesOf (deltaStripeStats NBITS_MASKS_U8_folded Mem.zero p 3 deltas).1
      (nstripesOf 3) ≤ 3) :=
  worst_case_size NBITS_MASKS_U8_folded Mem.zero Mem.zero 1000 3 true (by norm_num) (by norm_num)

/-! ## The header bits written for one block -/

theorem rowmajorBlock_mem (T : Nat → Nat) (src : Mem) (ndims nstripes header_dest : Nat)
    (s : EncState × Nat) :
    (rowmajorBlock T src ndims nstripes header_dest s).1.mem =
      encodeBlockMem (stripeStats T src s.1.src ndims) ndims nstripes header_dest s.2
        src s.1.src ndims s.1.dest s.1.mem := rfl

theorem deltaBlock_mem (T : Nat → Nat) (src : Mem) (ndims nstripes header_dest : Nat)
    (s : DeltaEncState × Nat) :
    (deltaBlock T src ndims nstripes header_dest s).1.enc.mem =
      encodeBlockMem (deltaStripeStats T src s.1.enc.src ndims s.1.deltas).1 ndims nstripes
        header_dest s.2 (deltaStripeStats T src s.1.enc.src ndims s.1.deltas).2 0 ndims
        s.1.enc.dest s.1.enc.mem := rfl

theorem rle_pack_mem (c : RleCtx) (blk : RleBlock) (s : RleEncState)
    (h1 : blk.stripe_bitoffsets = stripeBitoffsets blk.st.stripe_bitwidths.get c.nstripes)
    (h2 : blk.out_row_nbytes = rowBytesOf blk.st c.nstripes) :
    (rle_pack c blk s).mem =
      encodeBlockMem blk.st c.ndims c.nstripes s.header_dest s.header_bit_offset
        s.deltas 0 c.ndims s.dest s.mem := by
  unfold rle_pack encodeBlockMem
  simp only [h1, h2]

/-- One pass of the header loop ORs a stripe header into the buffer. -/
theorem header_rmw_bits (m : Mem) (hdest hbo hdr q : Nat) (hh : hdr < 2 ^ 24)
    (hb : hbo < 2 ^ 19) :
    abit (storeLE 4 m (hdest + (hbo >>> 3) % 2 ^ 16)
      (loadLE 4 m (hdest + (hbo >>> 3) % 2 ^ 16) ||| (hdr <<< (hbo &&& 0x07)))) q =
    (abit m q || (decide (8 * hdest + hbo ≤ q) && hdr.testBit (q - (8 * hdest + hbo)))) := by
  have e1 : (hbo >>> 3) % 2 ^ 16 = hbo / 8 := by
    rw [shr3]; exact Nat.mod_eq_of_lt (by omega)
  rw [e1, and7, Nat.or_comm, abit_rmw, Nat.testBit_shiftLeft]
  congr 1
  by_cases h1 : 8 * hdest + hbo ≤ q
  · have h1' : 8 * (hdest + hbo / 8) ≤ q := by omega
    have e2 : q - 8 * (hdest + hbo / 8) - hbo % 8 = q - (8 * hdest + hbo) := by omega
    by_cases h2 : q - (8 * hdest + hbo) < 24
    · simp only [h1, h1', decide_True, Bool.true_and, e2, true_and]
      rw [show decide (q < 8 * (hdest + hbo / 8 + 4)) = true from by simp; omega,
        show decide (q - 8 * (hdest + hbo / 8) ≥ hbo % 8) = true from by simp; omega]
      simp
    · have : hdr.testBit (q - (8 * hdest + hbo)) = false :=
        testBit_lt_pow hdr 24 _ hh (by omega)
      simp only [e2, this, Bool.and_false]
  · have : ¬ (8 * (hdest + hbo / 8) ≤ q ∧ q - 8 * (hdest + hbo / 8) ≥ hbo % 8) := by omega
    simp only [h1, decide_False, Bool.false_and]
    by_cases h3 : 8 * (hdest + hbo / 8) ≤ q
    · have : ¬ (q - 8 * (hdest + hbo / 8) ≥ hbo % 8) := by omega
      simp [this]
    · simp [h3]

theorem nstripesOf_ge (D : Nat) : D ≤ 8 * nstripesOf D := by
  unfold nstripesOf stripe_sz
  split_ifs <;> omega

theorem statsOf_headers_lt (T dm : Nat → Nat) (n s : Nat) :
    (statsOf T dm n).stripe_headers.get s < 2 ^ 24 := by
  apply Nat.lt_pow_two_of_testBit
  intro t ht
  rw [statsOf_headers_testBit]
  simp only [show ¬ t < 24 from by omega, false_and, decide_False, Bool.false_and]

/-- The header loop of one block: the widths of the `D` dimensions are OR-ed in
as three-bit fields from bit `header_bit_offset` of the group header on. -/
theorem writeBlockHeader_bits (T dm : Nat → Nat) (D hdest hbo0 : Nat) (mem : Mem)
    (hb : hbo0 + 3 * D < 2 ^ 19) :
    (writeBlockHeader (statsOf T dm D).stripe_headers D (nstripesOf D) hdest (mem, hbo0)).2
      = hbo0 + 3 * D ∧
    ∀ q, abit (writeBlockHeader (statsOf T dm D).stripe_headers D (nstripesOf D) hdest
        (mem, hbo0)).1 q =
      (abit mem q ||
        headerField (fun d => writeNbits (maskOf T dm d)) (8 * hdest + hbo0) D q) := by
  have hle := nstripesOf_le D
  have hge := nstripesOf_ge D
  unfold writeBlockHeader
  have key : ∀ n, n ≤ nstripesOf D →
      (forLoop n (fun stripe (s : Mem × Nat) =>
        (storeLE 4 s.1 (hdest + (s.2 >>> 3) % 2 ^ 16)
          (loadLE 4 s.1 (hdest + (s.2 >>> 3) % 2 ^ 16) |||
            ((statsOf T dm D).stripe_headers.get stripe <<< (s.2 &&& 0x07))),
         s.2 + nbits_sz_bits *
          (if (decide (stripe = nstripesOf D - 1) && decide (D % stripe_sz > 0)) = true
            then D % stripe_sz else stripe_sz))) (mem, hbo0)).2 = hbo0 + 3 * min (8 * n) D ∧
      ∀ q, abit (forLoop n (fun stripe (s : Mem × Nat) =>
        (storeLE 4 s.1 (hdest + (s.2 >>> 3) % 2 ^ 16)
          (loadLE 4 s.1 (hdest + (s.2 >>> 3) % 2 ^ 16) |||
            ((statsOf T dm D).stripe_headers.get stripe <<< (s.2 &&& 0x07))),
         s.2 + nbits_sz_bits *
          (if (decide (stripe = nstripesOf D - 1) && decide (D % stripe_sz > 0)) = true
            then D % stripe_sz else stripe_sz))) (mem, hbo0)).1 q =
        (abit mem q || headerField (fun d => writeNbits (maskOf T dm d)) (8 * hdest + hbo0)
          (min (8 * n) D) q) := by
    intro n
    induction n with
    | zero =>
      intro _
      refine ⟨by simp [forLoop], fun q => ?_⟩
      simp [forLoop, headerField]
    | succ n ih =>
      intro hn
      obtain ⟨ih1, ih2⟩ := ih (by omega)
      have hn8 : 8 * n < D := by omega
      have hmin : min (8 * n) D = 8 * n := by omega
      rw [forLoop]
      simp only []
      rw [ih1, hmin]
      constructor
      · simp only [nbits_sz_bits, stripe_sz]
        by_cases hl : n = nstripesOf D - 1
        · by_cases hr : D % 8 > 0
          · simp only [hl, hr, decide_True, Bool.and_self, if_true]
            have : min (8 * (nstripesOf D - 1 + 1)) D = D := by omega
            rw [this]; omega
          · simp only [hr, decide_False, Bool.and_false, Bool.false_eq_true, if_false]
            have : min (8 * (n + 1)) D = 8 * (n + 1) := by omega
            rw [this]; omega
        · simp only [hl, decide_False, Bool.false_and, Bool.false_eq_true, if_false]
          have : min (8 * (n + 1)) D = 8 * (n + 1) := by omega
          rw [this]; omega
      · intro q
        rw [header_rmw_bits _ _ _ _ _ (statsOf_headers_lt T dm D n) (by omega), ih2, hmin,
          Bool.or_assoc, statsOf_headers_testBit]
        congr 1
        unfold headerField
        by_cases hq : 8 * hdest + hbo0 ≤ q
        · by_cases hu : (q - (8 * hdest + hbo0)) / 3 < 8 * n
          · have h1 : ¬ (8 * hdest + (hbo0 + 3 * (8 * n)) ≤ q) := by omega
            have h2 : (q - (8 * hdest + hbo0)) / 3 < min (8 * (n + 1)) D := by omega
            simp only [hq, hu, h1, h2, and_self, decide_True, Bool.true_and, decide_False,
              Bool.false_and, Bool.or_false]
          · have h1 : 8 * hdest + (hbo0 + 3 * (8 * n)) ≤ q := by omega
            have e1 : (q - (8 * hdest + (hbo0 + 3 * (8 * n)))) / 3
                = (q - (8 * hdest + hbo0)) / 3 - 8 * n := by omega
            have e2 : (q - (8 * hdest + (hbo0 + 3 * (8 * n)))) % 3
                = (q - (8 * hdest + hbo0)) % 3 := by omega
            have e3 : 8 * n + ((q - (8 * hdest + hbo0)) / 3 - 8 * n)
                = (q - (8 * hdest + hbo0)) / 3 := by omega
            simp only [hq, hu, h1, e1, e2, e3, and_false, true_and, decide_True, Bool.true_and,
              decide_False, Bool.false_and, Bool.false_or]
            congr 2
            apply propext
            constructor
            · rintro ⟨a, b⟩; omega
            · intro a; constructor <;> omega
        · have h1 : ¬ (8 * hdest + (hbo0 + 3 * (8 * n)) ≤ q) := by omega
          simp only [hq, h1, false_and, decide_False, Bool.false_and, Bool.or_false]
  have hk := key (nstripesOf D) (le_refl _)
  have hmin : min (8 * nstripesOf D) D = D := by omega
  rw [hmin] at hk
  exact hk

/-! ## One encoded block -/

theorem statsOf_offsets (T dm : Nat → Nat) (D : Nat) (hD2 : D < 65536) (s : Nat)
    (hs : s < nstripesOf D) :
    (stripeBitoffsets (statsOf T dm D).stripe_bitwidths.get (nstripesOf D)).get s =
      sumTo s (statsOf T dm D).stripe_bitwidths.get := by
  have hle := statsOf_row_bits_le T dm D
  exact stripeBitoffsets_get _ _ _ hs (by omega)

theorem statsOf_row_fits (T dm : Nat → Nat) (D : Nat) (hD1 : 1 ≤ D) (hD2 : D < 65536) :
    sumTo (nstripesOf D) (statsOf T dm D).stripe_bitwidths.get
      ≤ 8 * rowBytesOf (statsOf T dm D) (nstripesOf D) := by
  rw [rowBytesOf_statsOf T dm D hD1 hD2]
  exact rowNbytes_ge _

/-- The bits of the destination after one block has been encoded: the packed
rows in the body of the block, and elsewhere the old bits with the header
fields of the block OR-ed in. -/
theorem encodeBlockMem_bits (T dm : Nat → Nat) (D hdest hbo : Nat) (inbuf : Mem)
    (inp in_stride out : Nat) (mem : Mem) (hD1 : 1 ≤ D) (hD2 : D < 65536)
    (hpop : ∀ d, d < D → popcountAux 8 (maskOf T dm d) = maxNbits (maskOf T dm d))
    (hhb : hbo + 3 * D < 2 ^ 19) :
    (∀ i t, i < 8 → t < 8 * rowBytesOf (statsOf T dm D) (nstripesOf D) →
      abit (encodeBlockMem (statsOf T dm D) D (nstripesOf D) hdest hbo inbuf inp in_stride out mem)
        (8 * (out + i * rowBytesOf (statsOf T dm D) (nstripesOf D)) + t) =
      rowBit (packedStripe (statsOf T dm D).stripe_masks.get inbuf inp in_stride i)
        (statsOf T dm D).stripe_bitwidths.get (nstripesOf D) t) ∧
    (∀ q, ¬ (8 * out ≤ q ∧ q < 8 * (out + 8 * rowBytesOf (statsOf T dm D) (nstripesOf D))) →
      abit (encodeBlockMem (statsOf T dm D) D (nstripesOf D) hdest hbo inbuf inp in_stride out mem) q
        = (abit mem q ||
            headerField (fun d => writeNbits (maskOf T dm d)) (8 * hdest + hbo) D q)) := by
  have hfit := statsOf_row_fits T dm D hD1 hD2
  have hw : ∀ s, s < nstripesOf D → (statsOf T dm D).stripe_bitwidths.get s ≤ 64 :=
    fun s _ => statsOf_widths_le T dm D s
  have hP : ∀ i s, s < nstripesOf D →
      packedStripe (statsOf T dm D).stripe_masks.get inbuf inp in_stride i s
        < 2 ^ (statsOf T dm D).stripe_bitwidths.get s :=
    fun i s _ => packedStripe_lt T dm D inbuf inp in_stride i s hpop
  have hzero : ∀ k, out ≤ k → k < out + 8 * rowBytesOf (statsOf T dm D) (nstripesOf D) →
      load8 (memset0 (writeBlockHeader (statsOf T dm D).stripe_headers D (nstripesOf D) hdest
        (mem, hbo)).1 out (rowBytesOf (statsOf T dm D) (nstripesOf D) * block_sz)) k = 0 := by
    intro k h1 h2
    rw [load8_memset0, if_pos (by rw [block_sz]; omega)]
  unfold encodeBlockMem
  rw [packBlock_eq _ _ _ _ _ _ _ _ _ (fun s hs => statsOf_offsets T dm D hD2 s hs)]
  constructor
  · intro i t hi ht
    exact packBlockPasses_row out _ _ _ (nstripesOf D) _ hw hP hfit hzero i t hi ht
  · intro q hq
    have hk : ¬ (out ≤ q / 8 ∧ q / 8 < out + 8 * rowBytesOf (statsOf T dm D) (nstripesOf D)) := by
      omega
    have e := packBlockPasses_frame out _ _ _ (nstripesOf D) _ hw hP hfit hzero (q / 8) hk
    unfold abit
    rw [e, load8_memset0, if_neg (by rw [block_sz]; omega)]
    have := (writeBlockHeader_bits T dm D hdest hbo mem hhb).2 q
    unfold abit at this
    exact this

/-! ## One encoded group of two packed blocks -/

theorem headerBytesOf_ge (D : Nat) : 6 * D ≤ 8 * headerBytesOf D := by
  rw [headerBytesOf_eq]; omega

theorem headerField_false_of_lt (F : Nat → Nat) (base n q : Nat) (h : q < base) :
    headerField F base n q = false := by
  unfold headerField
  simp [show ¬ base ≤ q from by omega]

theorem headerField_false_of_ge (F : Nat → Nat) (base n q : Nat) (h : base + 3 * n ≤ q) :
    headerField F base n q = false := by
  unfold headerField
  have : ¬ (q - base) / 3 < n := by omega
  simp [this]

theorem headerField_at (F : Nat → Nat) (base n d j : Nat) (hd : d < n) (hj : j < 3) :
    headerField F base n (base + 3 * d + j) = (F d).testBit j := by
  unfold headerField
  have e1 : (base + 3 * d + j - base) / 3 = d := by omega
  have e2 : (base + 3 * d + j - base) % 3 = j := by omega
  have e3 : base ≤ base + 3 * d + j := by omega
  simp [e1, e2, e3, hd]

theorem BlockInStream_congr (cm cm2 : Mem) (T dm : Nat → Nat) (D : Nat) (inbuf : Mem)
    (inp in_stride hdrbit o e : Nat) (h : BlockInStream cm T dm D inbuf inp in_stride hdrbit o)
    (h1 : hdrbit + 3 * D ≤ 8 * e)
    (h2 : o + 8 * rowBytesOf (statsOf T dm D) (nstripesOf D) ≤ e)
    (heq : ∀ k, k < e → load8 cm2 k = load8 cm k) :
    BlockInStream cm2 T dm D inbuf inp in_stride hdrbit o := by
  have hbit : ∀ q, q < 8 * e → abit cm2 q = abit cm q := by
    intro q hq
    unfold abit
    rw [heq (q / 8) (by omega)]
  constructor
  · intro d j hd hj
    rw [hbit _ (by omega)]
    exact h.1 d j hd hj
  · intro i t hi ht
    have : i * rowBytesOf (statsOf T dm D) (nstripesOf D)
        + rowBytesOf (statsOf T dm D) (nstripesOf D)
        ≤ 8 * rowBytesOf (statsOf T dm D) (nstripesOf D) := by nlinarith
    rw [hbit _ (by omega)]
    exact h.2 i t hi ht

/-- A group of two packed blocks, as the three encoders write it after
zeroing the group header at `hdest`: both blocks are in the stream. -/
theorem encodeGroup_bits (T dm0 dm1 : Nat → Nat) (D hdest : Nat) (inbuf0 : Mem)
    (inp0 str0 : Nat) (inbuf1 : Mem) (inp1 str1 : Nat) (mem : Mem) (hD1 : 1 ≤ D)
    (hD2 : D < 65536)
    (hok0 : ∀ d, d < D → popcountAux 8 (maskOf T dm0 d) = maxNbits (maskOf T dm0 d))
    (hok1 : ∀ d, d < D → popcountAux 8 (maskOf T dm1 d) = maxNbits (maskOf T dm1 d)) :
    BlockInStream
      (encodeBlockMem (statsOf T dm1 D) D (nstripesOf D) hdest (3 * D) inbuf1 inp1 str1
        (hdest + headerBytesOf D + 8 * rowBytesOf (statsOf T dm0 D) (nstripesOf D))
        (encodeBlockMem (statsOf T dm0 D) D (nstripesOf D) hdest 0 inbuf0 inp0 str0
          (hdest + headerBytesOf D) (memset0 mem hdest (headerBytesOf D))))
      T dm0 D inbuf0 inp0 str0 (8 * hdest) (hdest + headerBytesOf D) ∧
    BlockInStream
      (encodeBlockMem (statsOf T dm1 D) D (nstripesOf D) hdest (3 * D) inbuf1 inp1 str1
        (hdest + headerBytesOf D + 8 * rowBytesOf (statsOf T dm0 D) (nstripesOf D))
        (encodeBlockMem (statsOf T dm0 D) D (nstripesOf D) hdest 0 inbuf0 inp0 str0
          (hdest + headerBytesOf D) (memset0 mem hdest (headerBytesOf D))))
      T dm1 D inbuf1 inp1 str1 (8 * hdest + 3 * D)
      (hdest + headerBytesOf D + 8 * rowBytesOf (statsOf T dm0 D) (nstripesOf D)) := by
  have hhb := headerBytesOf_ge D
  obtain ⟨a1, a2⟩ := encodeBlockMem_bits T dm0 D hdest 0 inbuf0 inp0 str0 (hdest + headerBytesOf D)
    (memset0 mem hdest (headerBytesOf D)) hD1 hD2 hok0 (by norm_num; omega)
  obtain ⟨b1, b2⟩ := encodeBlockMem_bits T dm1 D hdest (3 * D) inbuf1 inp1 str1
    (hdest + headerBytesOf D + 8 * rowBytesOf (statsOf T dm0 D) (nstripesOf D))
    (encodeBlockMem (statsOf T dm0 D) D (nstripesOf D) hdest 0 inbuf0 inp0 str0
      (hdest + headerBytesOf D) (memset0 mem hdest (headerBytesOf D))) hD1 hD2 hok1
    (by norm_num; omega)
  have hz : ∀ q, 8 * hdest ≤ q → q < 8 * (hdest + headerBytesOf D) →
      abit (memset0 mem hdest (headerBytesOf D)) q = false := by
    intro q h1 h2
    rw [abit_memset0, if_pos ⟨h1, h2⟩]
  refine ⟨⟨?_, ?_⟩, ⟨?_, b1⟩⟩
  · intro d j hd hj
    rw [b2 _ (by omega), a2 _ (by omega), hz _ (by omega) (by omega), Bool.false_or,
      Nat.add_zero, headerField_at _ _ _ _ _ hd hj,
      headerField_false_of_lt _ _ _ _ (by omega), Bool.or_false]
  · intro i t hi ht
    have : i * rowBytesOf (statsOf T dm0 D) (nstripesOf D)
        + rowBytesOf (statsOf T dm0 D) (nstripesOf D)
        ≤ 8 * rowBytesOf (statsOf T dm0 D) (nstripesOf D) := by nlinarith
    rw [b2 _ (by omega), a1 i t hi ht, headerField_false_of_ge _ _ _ _ (by omega), Bool.or_false]
  · intro d j hd hj
    rw [b2 _ (by omega), a2 _ (by omega), hz _ (by omega) (by omega), Bool.false_or,
      Nat.add_zero, headerField_false_of_ge _ _ _ _ (by omega), Bool.false_or,
      headerField_at _ _ _ _ _ hd hj]

/-! ## The stream written by `compress8b_rowmajor` -/

theorem maskOf_ok (T dm : Nat → Nat) (hT : TableOK T) (d : Nat) (hdm : dm d < 256) :
    maskOf T dm d ∈ okMasks ∧ dm d ≤ maskOf T dm d := by
  obtain ⟨h1, h2⟩ := hT (dm d) hdm
  have hlt : T (dm d) < 256 := (okMasks_facts _ h1).1
  unfold maskOf
  rw [Nat.mod_eq_of_lt hlt]
  exact ⟨h1, h2⟩

theorem rowmajorBlock_hbo (T : Nat → Nat) (src : Mem) (D header_dest : Nat)
    (s : EncState × Nat) (h : s.2 + 3 * D < 2 ^ 19) :
    (rowmajorBlock T src D (nstripesOf D) header_dest s).2 = s.2 + 3 * D := by
  show (writeBlockHeader (stripeStats T src s.1.src D).stripe_headers D (nstripesOf D) header_dest
    (s.1.mem, s.2)).2 = _
  rw [stripeStats_eq_statsOf]
  exact (writeBlockHeader_bits T _ D header_dest s.2 s.1.mem h).1

/-- The destination after one pass of the group loop of `compress8b_rowmajor`. -/
theorem rowmajorGroup_mem (T : Nat → Nat) (src : Mem) (D : Nat) (s : EncState)
    (hD2 : D < 65536) :
    (rowmajorGroup T src D (nstripesOf D) (headerBytesOf D) s).mem =
      encodeBlockMem (statsOf T (fun d => orReduce src (s.src + 8 * D) D d) D) D (nstripesOf D)
        s.dest (3 * D) src (s.src + 8 * D) D
        (s.dest + headerBytesOf D
          + 8 * rowBytesOf (statsOf T (fun d => orReduce src s.src D d) D) (nstripesOf D))
        (encodeBlockMem (statsOf T (fun d => orReduce src s.src D d) D) D (nstripesOf D)
          s.dest 0 src s.src D (s.dest + headerBytesOf D)
          (memset0 s.mem s.dest (headerBytesOf D))) := by
  rw [rowmajorGroup_unfold, rowmajorBlock_mem, rowmajorBlock_hbo _ _ _ _ _ (by norm_num; omega),
    rowmajorBlock_src, rowmajorBlock_dest, rowmajorBlock_mem]
  simp only [Nat.zero_add]
  rfl

theorem rowmajorLoop_mono_dest (T : Nat → Nat) (src : Mem) (len : Nat) (dest : Mem) (D : Nat)
    (write_size : Bool) (g g2 : Nat) (h : g ≤ g2) :
    (rowmajorLoop T src len dest D write_size g).dest ≤
      (rowmajorLoop T src len dest D write_size g2).dest := by
  rw [rowmajorLoop_dest, rowmajorLoop_dest]
  have := sumTo_mono g g2 (rowmajorGroupBytes T src D) h
  omega

/-- Later passes of the group loop leave the groups already written alone. -/
theorem rowmajorLoop_keeps (T : Nat → Nat) (src : Mem) (len : Nat) (dest : Mem) (D : Nat)
    (write_size : Bool) (g g2 : Nat) (h : g ≤ g2) (k : Nat)
    (hk : k < (rowmajorLoop T src len dest D write_size g).dest) :
    load8 (rowmajorLoop T src len dest D write_size g2).mem k =
      load8 (rowmajorLoop T src len dest D write_size g).mem k := by
  induction g2 with
  | zero =>
    have : g = 0 := by omega
    rw [this]
  | succ g2 ih =>
    by_cases e : g = g2 + 1
    · rw [e]
    · have hm := rowmajorLoop_mono_dest T src len dest D write_size g g2 (by omega)
      rw [rowmajorLoop_succ, rowmajorGroup_below _ _ _ _ _ _ _ (by omega), ih (by omega)]

/-- Every group of the input is in the state of the loop once its pass is done. -/
theorem rowmajorLoop_blocks (T : Nat → Nat) (hT : TablePop T) (src : Mem) (len : Nat) (dest : Mem)
    (D : Nat) (write_size : Bool) (hD1 : 1 ≤ D) (hD2 : D < 65536) (g g2 : Nat) (h : g < g2) :
    BlockInStream (rowmajorLoop T src len dest D write_size g2).mem T
      (fun d => orReduce src (g * (16 * D)) D d) D src (g * (16 * D)) D
      (8 * (rowmajorLoop T src len dest D write_size g).dest)
      ((rowmajorLoop T src len dest D write_size g).dest + headerBytesOf D) ∧
    BlockInStream (rowmajorLoop T src len dest D write_size g2).mem T
      (fun d => orReduce src (g * (16 * D) + 8 * D) D d) D src (g * (16 * D) + 8 * D) D
      (8 * (rowmajorLoop T src len dest D write_size g).dest + 3 * D)
      ((rowmajorLoop T src len dest D write_size g).dest + headerBytesOf D
        + 8 * rowBytesOf (statsOf T (fun d => orReduce src (g * (16 * D)) D d) D)
            (nstripesOf D)) := by
  have hok : ∀ p d, d < D → popcountAux 8 (maskOf T (fun d => orReduce src p D d) d)
      = maxNbits (maskOf T (fun d => orReduce src p D d) d) :=
    fun p d _ => hT _ (orReduce_lt src p D d)
  have hg := encodeGroup_bits T (fun d => orReduce src (g * (16 * D)) D d)
    (fun d => orReduce src (g * (16 * D) + 8 * D) D d) D
    (rowmajorLoop T src len dest D write_size g).dest src (g * (16 * D)) D src
    (g * (16 * D) + 8 * D) D (rowmajorLoop T src len dest D write_size g).mem hD1 hD2
    (hok _) (hok _)
  have hmem := rowmajorGroup_mem T src D (rowmajorLoop T src len dest D write_size g) hD2
  rw [rowmajorLoop_src] at hmem
  rw [← hmem, ← rowmajorLoop_succ] at hg
  have hend : (rowmajorLoop T src len dest D write_size (g + 1)).dest =
      (rowmajorLoop T src len dest D write_size g).dest + headerBytesOf D
        + 8 * rowBytesOf (statsOf T (fun d => orReduce src (g * (16 * D)) D d) D) (nstripesOf D)
        + 8 * rowBytesOf (statsOf T (fun d => orReduce src (g * (16 * D) + 8 * D) D d) D)
            (nstripesOf D) := by
    rw [rowmajorLoop_succ, rowmajorGroup_dest, rowmajorLoop_src]
    rfl
  have hhb := headerBytesOf_ge D
  have hkeep := fun k hk => rowmajorLoop_keeps T src len dest D write_size (g + 1) g2 (by omega) k hk
  exact ⟨BlockInStream_congr _ _ _ _ _ _ _ _ _ _ _ hg.1 (by omega) (by omega) hkeep,
    BlockInStream_congr _ _ _ _ _ _ _ _ _ _ _ hg.2 (by omega) (by omega) hkeep⟩

/-! ## Unpacking a group header -/

/-- Bit `t` of a deposit: bit number `popcount (mask below t)` of the source,
where the mask has a bit. -/
theorem pdepAux_testBit (n y m t : Nat) :
    (pdepAux n y m).testBit t =
      (decide (t < n) && (m.testBit t && y.testBit (popcountAux t m))) := by
  induction n generalizing y m t with
  | zero => simp [pdepAux]
  | succ n ih =>
    simp only [pdepAux]
    have hy2 : y % 2 < 2 := Nat.mod_lt _ (by norm_num)
    by_cases hm : m % 2 = 1
    · rw [if_pos hm]
      cases t with
      | zero =>
        rw [testBit_bit_zero _ _ hy2]
        simp only [Nat.zero_lt_succ, decide_True, Bool.true_and, popcountAux, Nat.testBit_zero, hm]
      | succ t =>
        rw [testBit_bit_succ _ _ _ hy2, ih]
        simp only [popcountAux, hm, Nat.testBit_succ, Nat.add_lt_add_iff_right]
        rw [Nat.add_comm 1, Nat.testBit_succ]
    · rw [if_neg hm]
      have hm0 : m % 2 = 0 := by omega
      cases t with
      | zero =>
        have : (2 * pdepAux n y (m / 2)).testBit 0 = false := by
          rw [Nat.testBit_zero]; simp
        rw [this]
        simp [Nat.testBit_zero, hm0]
      | succ t =>
        have : (2 * pdepAux n y (m / 2)).testBit (t + 1) = (pdepAux n y (m / 2)).testBit t := by
          rw [Nat.testBit_succ]; congr 1; omega
        rw [this, ih]
        simp only [popcountAux, hm0, Nat.testBit_succ, Nat.add_lt_add_iff_right, Nat.zero_add]

set_option maxRecDepth 100000 in
theorem kHeaderUnpackMask_bits : ∀ t, t < 64 →
    kHeaderUnpackMask.testBit t = decide (t % 8 < 3) ∧
    (t % 8 < 3 → popcountAux t kHeaderUnpackMask = 3 * (t / 8) + t % 8) := by
  decide

/-- Byte `a` of an unpacked header stripe is the `a`-th three-bit field of the
packed stripe. -/
theorem header_pdep_testBit (x a r : Nat) (ha : a < 8) (hr : r < 8) :
    (pdep_u64 x kHeaderUnpackMask).testBit (8 * a + r) =
      (decide (r < 3) && x.testBit (3 * a + r)) := by
  unfold pdep_u64
  rw [pdepAux_testBit]
  obtain ⟨h1, h2⟩ := kHeaderUnpackMask_bits (8 * a + r) (by omega)
  have e1 : (8 * a + r) % 8 = r := by omega
  have e2 : (8 * a + r) / 8 = a := by omega
  rw [e1] at h1 h2
  rw [e2] at h2
  rw [h1]
  by_cases h3 : r < 3
  · rw [h2 h3]
    simp [h3, show 8 * a + r < 64 from by omega]
  · simp [h3]

theorem decDims_fields (D : Nat) :
    (decDims D).ndims = D ∧
    (decDims D).nheader_stripes = (2 * D + 7) / 8 ∧
    (decDims D).total_header_bytes = headerBytesOf D ∧
    (decDims D).final_header_mask =
      0xffffffff >>> (8 * (4 - (if headerBytesOf D % 3 ≠ 0 then headerBytesOf D % 3 else 3))) ∧
    (decDims D).nstripes = nstripesOf D ∧
    (decDims D).nvectors_in_group = round_up_to_multiple (nstripesOf D * 2 * 8) 32 / 32 := by
  refine ⟨rfl, ?_, rfl, rfl, rfl, rfl⟩
  show D * 2 / 8 + (if D * 2 % 8 > 0 then 1 else 0) = _
  split_ifs <;> omega

theorem final_header_sz_eq (D : Nat) (hD1 : 1 ≤ D) :
    headerBytesOf D =
      3 * ((2 * D + 7) / 8 - 1) + (if headerBytesOf D % 3 ≠ 0 then headerBytesOf D % 3 else 3) := by
  rw [headerBytesOf_eq]
  obtain ⟨q, c, hc, hD⟩ : ∃ q c, c < 4 ∧ D = 4 * q + c := ⟨D / 4, D % 4, by omega, by omega⟩
  have : c = 0 ∨ c = 1 ∨ c = 2 ∨ c = 3 := by omega
  rcases this with rfl | rfl | rfl | rfl
  all_goals
    subst hD
    split_ifs <;> omega

theorem final_mask_testBit (fsz u : Nat) (h1 : 1 ≤ fsz) (h3 : fsz ≤ 3) (hu : u < 32) :
    (0xffffffff >>> (8 * (4 - fsz))).testBit u = decide (u < 8 * fsz) := by
  have : fsz = 1 ∨ fsz = 2 ∨ fsz = 3 := by omega
  rcases this with rfl | rfl | rfl
  · revert u; decide
  · revert u; decide
  · revert u; decide

theorem store8s_written (V : Nat → Nat) (n : Nat) (m : Mem) (k a : Nat) (hk : k < n) (ha : a < 8) :
    load8 (forLoop n (fun i m => storeLE 8 m (8 * i) (V i)) m) (8 * k + a) =
      (V k >>> (8 * a)) % 256 := by
  have e : forLoop n (fun i m => storeLE 8 m (8 * i) (V i)) m =
      forLoop n (fun i m => storeLE 8 m (0 + i * 8) (V i)) m :=
    forLoop_congr n _ _ m (fun i _ x => by rw [Nat.zero_add, Nat.mul_comm])
  rw [e]
  have := store_rows_written V 0 8 n m k a hk ha ha
  rw [show 0 + k * 8 + a = 8 * k + a from by omega] at this
  exact this

/-- The unpacked header fields: byte `j` of `headers_tmp` is the `j`-th
three-bit field of the packed group header at `src + h`. -/
theorem readGroupHeader_tmp (D : Nat) (src : Mem) (h : Nat) (tm : DecTemps) (hD1 : 1 ≤ D)
    (j r : Nat) (hj : j < 2 * D) (hr : r < 8) :
    (load8 (readGroupHeader (decDims D) src h tm).headers_tmp j).testBit r =
      (decide (r < 3) && abit src (8 * h + 3 * j + r)) := by
  obtain ⟨_, e2, e3, e4, _, _⟩ := decDims_fields D
  have hhb := headerBytesOf_eq D
  show (load8 (storeLE 8 (forLoop ((decDims D).nheader_stripes - 1)
      (fun stripe headers_tmp =>
        storeLE 8 headers_tmp (8 * stripe)
          (pdep_u64 (loadLE 4 src (h + stripe * stripe_header_sz)) kHeaderUnpackMask))
      tm.headers_tmp) (8 * ((decDims D).nheader_stripes - 1))
      (pdep_u64 (loadLE 4 src (h + ((decDims D).nheader_stripes - 1) * stripe_header_sz)
        &&& (decDims D).final_header_mask) kHeaderUnpackMask)) j).testBit r = _
  rw [e2, e4]
  have hs3 : stripe_header_sz = 3 := rfl
  rw [hs3]
  have hja : j = 8 * (j / 8) + j % 8 := by omega
  have ha : j % 8 < 8 := Nat.mod_lt _ (by norm_num)
  by_cases hlast : j / 8 = (2 * D + 7) / 8 - 1
  · -- the last stripe, read under `final_header_mask`
    rw [load8_storeLE, if_pos (by omega), ← hlast]
    have e5 : j - 8 * (j / 8) = j % 8 := by omega
    rw [e5, mod256_testBit, Nat.testBit_shiftRight, header_pdep_testBit _ _ _ ha hr,
      Nat.testBit_and, loadLE_testBit,
      final_mask_testBit _ _ (by split_ifs <;> omega) (by split_ifs <;> omega) (by omega)]
    have e6 : 8 * (h + j / 8 * 3) + (3 * (j % 8) + r) = 8 * h + 3 * j + r := by omega
    rw [e6]
    by_cases hr3 : r < 3
    · have h32 : 3 * (j % 8) + r < 8 * 4 := by omega
      have hfs : 3 * (j % 8) + r
          < 8 * (if headerBytesOf D % 3 ≠ 0 then headerBytesOf D % 3 else 3) := by
        have hk := final_header_sz_eq D hD1
        have hg := headerBytesOf_ge D
        generalize (if headerBytesOf D % 3 ≠ 0 then headerBytesOf D % 3 else 3) = fsz at hk ⊢
        omega
      rw [decide_eq_true hr, decide_eq_true hr3, decide_eq_true h32, decide_eq_true hfs]
      simp
    · simp [hr3]
  · rw [load8_storeLE, if_neg (by omega)]
    rw [hja, store8s_written _ _ _ _ _ (by omega) ha, ← hja, mod256_testBit,
      Nat.testBit_shiftRight, header_pdep_testBit _ _ _ ha hr, loadLE_testBit]
    have e6 : 8 * (h + j / 8 * 3) + (3 * (j % 8) + r) = 8 * h + 3 * j + r := by omega
    rw [e6]
    by_cases hr3 : r < 3
    · have h32 : 3 * (j % 8) + r < 8 * 4 := by omega
      simp [hr, hr3, h32]
    · simp [hr3]

/-! ## The stripe masks and widths a decoder derives from a group header -/

theorem readGroupHeader_headers (D : Nat) (src : Mem) (h : Nat) (tm : DecTemps) (b d : Nat)
    (hb : b < 2) (hd : d < 8 * nstripesOf D) :
    load8 (readGroupHeader (decDims D) src h tm).headers (b * nstripesOf D * 8 + d) =
      if d < D then load8 (readGroupHeader (decDims D) src h tm).headers_tmp (b * D + d)
      else load8 tm.headers (b * nstripesOf D * 8 + d) := by
  have hge := nstripesOf_ge D
  show load8 (forLoop group_sz_blocks
    (fun b headers => memcpy headers (b * (decDims D).nstripes * stripe_sz)
      (readGroupHeader (decDims D) src h tm).headers_tmp (b * (decDims D).ndims)
      (decDims D).ndims) tm.headers) _ = _
  have e1 : (decDims D).nstripes = nstripesOf D := rfl
  have e2 : (decDims D).ndims = D := rfl
  rw [e1, e2]
  simp only [group_sz_blocks, kDefaultGroupSzBlocks, forLoop, stripe_sz, load8_memcpy]
  have hb2 : b = 0 ∨ b = 1 := by omega
  rcases hb2 with rfl | rfl
  · by_cases hdD : d < D
    · rw [if_neg (by omega), if_pos (by omega), if_pos hdD]
      congr 1
      omega
    · rw [if_neg (by omega), if_neg (by omega), if_neg hdD]
  · by_cases hdD : d < D
    · rw [if_pos (by omega), if_pos hdD]
      congr 1
      omega
    · rw [if_neg (by omega), if_neg (by omega), if_neg hdD]

theorem load8_storeu (m : Mem) (a : Nat) (v : Vec) (k : Nat) :
    load8 (mm256_storeu_si256 m a v) k =
      if a ≤ k ∧ k < a + 32 then v (k - a) % 256 else load8 m k := by
  unfold load8 mm256_storeu_si256
  simp only []
  split_ifs
  · exact Nat.mod_mod _ _
  · rfl

/-- A loop that stores one 32-byte vector per pass, pass `v` at `32 * v`. -/
theorem vecLoop_load8 (V : Nat → Vec) (n : Nat) (m : Mem) (x : Nat) (hx : x < 32 * n) :
    load8 (forLoop n (fun v m => mm256_storeu_si256 m (v * 32) (V v)) m) x =
      V (x / 32) (x % 32) % 256 := by
  induction n with
  | zero => omega
  | succ n ih =>
    rw [forLoop, load8_storeu]
    by_cases h : n * 32 ≤ x
    · rw [if_pos ⟨h, by omega⟩]
      have e1 : x / 32 = n := by omega
      have e2 : x - n * 32 = x % 32 := by omega
      rw [e1, e2]
    · rw [if_neg (by omega), ih (by omega)]

theorem forLoop_pair_fst {α β : Type} (n : Nat) (f : Nat → α → α) (g : Nat → β → β) (a : α)
    (b : β) :
    forLoop n (fun v (s : α × β) => (f v s.1, g v s.2)) (a, b) =
      (forLoop n f a, forLoop n g b) := by
  induction n with
  | zero => rfl
  | succ n ih => rw [forLoop, ih]; rfl

theorem forLoop_sum (n : Nat) (f : Nat → Nat) :
    forLoop n (fun j acc => acc + f j) 0 = sumTo n f := by
  induction n with
  | zero => rfl
  | succ n ih => rw [forLoop, ih, sumTo]

set_option maxRecDepth 100000 in
theorem shuffle_lane : ∀ r, r < 8 → ∀ i, i < 32 →
    (if r &&& 0x80 ≠ 0 then 0 else nbits_to_mask (i / 16 * 16 + (r &&& 0x0f))) = nbits_to_mask r := by
  decide

set_option maxRecDepth 100000 in
theorem width_lane : ∀ r, r < 8 →
    (r + 256 - (if r = 7 % 256 then 0xff else 0) % 256) % 256 = r + (if r = 7 then 1 else 0) := by
  decide

set_option maxRecDepth 100000 in
theorem nbits_to_mask_lt : ∀ r, r < 8 → nbits_to_mask r < 256 := by
  decide

theorem readGroupHeader_masks_eq (D : Nat) (src : Mem) (h : Nat) (tm : DecTemps) :
    (readGroupHeader (decDims D) src h tm).data_masks =
      forLoop (decDims D).nvectors_in_group (fun v m => mm256_storeu_si256 m (v * 32)
        (mm256_shuffle_epi8 nbits_to_mask
          (mm256_loadu_si256 (readGroupHeader (decDims D) src h tm).headers (v * 32))))
        tm.data_masks :=
  congrArg Prod.fst (forLoop_pair_fst (decDims D).nvectors_in_group
    (fun v m => mm256_storeu_si256 m (v * 32)
        (mm256_shuffle_epi8 nbits_to_mask
          (mm256_loadu_si256 (readGroupHeader (decDims D) src h tm).headers (v * 32))))
    (fun v m => mm256_storeu_si256 m (v * 32)
        (mm256_sad_epu8 (mm256_sub_epi8
          (mm256_loadu_si256 (readGroupHeader (decDims D) src h tm).headers (v * 32))
          (mm256_cmpeq_epi8
            (mm256_loadu_si256 (readGroupHeader (decDims D) src h tm).headers (v * 32))
            (mm256_set1_epi8 0x07))) mm256_setzero_si256))
    tm.data_masks tm.stripe_bitwidths)

theorem readGroupHeader_widths_eq (D : Nat) (src : Mem) (h : Nat) (tm : DecTemps) :
    (readGroupHeader (decDims D) src h tm).stripe_bitwidths =
      forLoop (decDims D).nvectors_in_group (fun v m => mm256_storeu_si256 m (v * 32)
        (mm256_sad_epu8 (mm256_sub_epi8
          (mm256_loadu_si256 (readGroupHeader (decDims D) src h tm).headers (v * 32))
          (mm256_cmpeq_epi8
            (mm256_loadu_si256 (readGroupHeader (decDims D) src h tm).headers (v * 32))
            (mm256_set1_epi8 0x07))) mm256_setzero_si256))
        tm.stripe_bitwidths :=
  congrArg Prod.snd (forLoop_pair_fst (decDims D).nvectors_in_group
    (fun v m => mm256_storeu_si256 m (v * 32)
        (mm256_shuffle_epi8 nbits_to_mask
          (mm256_loadu_si256 (readGroupHeader (decDims D) src h tm).headers (v * 32))))
    (fun v m => mm256_storeu_si256 m (v * 32)
        (mm256_sad_epu8 (mm256_sub_epi8
          (mm256_loadu_si256 (readGroupHeader (decDims D) src h tm).headers (v * 32))
          (mm256_cmpeq_epi8
            (mm256_loadu_si256 (readGroupHeader (decDims D) src h tm).headers (v * 32))
            (mm256_set1_epi8 0x07))) mm256_setzero_si256))
    tm.data_masks tm.stripe_bitwidths)

/-- A byte of `data_masks`: the mask that `nbits_to_mask` holds for the header
field at the same position. -/
theorem readGroupHeader_mask_byte (D : Nat) (src : Mem) (h : Nat) (tm : DecTemps) (x : Nat)
    (hx : x < 32 * (decDims D).nvectors_in_group)
    (hf : load8 (readGroupHeader (decDims D) src h tm).headers x < 8) :
    load8 (readGroupHeader (decDims D) src h tm).data_masks x =
      nbits_to_mask (load8 (readGroupHeader (decDims D) src h tm).headers x) := by
  rw [readGroupHeader_masks_eq, vecLoop_load8 _ _ _ _ hx]
  unfold mm256_shuffle_epi8 mm256_loadu_si256
  have e : x / 32 * 32 + x % 32 = x := by omega
  rw [e, shuffle_lane _ hf _ (Nat.mod_lt _ (by norm_num))]
  exact Nat.mod_eq_of_lt (nbits_to_mask_lt _ hf)

/-- A 64-bit word of `stripe_bitwidths`: the sum of the widths of the eight
header fields of the stripe. -/
theorem readGroupHeader_width_word (D : Nat) (src : Mem) (h : Nat) (tm : DecTemps) (K : Nat)
    (hK : 8 * K + 8 ≤ 32 * (decDims D).nvectors_in_group)
    (hf : ∀ j, j < 8 → load8 (readGroupHeader (decDims D) src h tm).headers (8 * K + j) < 8) :
    loadLE 8 (readGroupHeader (decDims D) src h tm).stripe_bitwidths (8 * K) =
      sumTo 8 (fun j =>
        load8 (readGroupHeader (decDims D) src h tm).headers (8 * K + j) +
          (if load8 (readGroupHeader (decDims D) src h tm).headers (8 * K + j) = 7 then 1 else 0)) := by
  have hS : sumTo 8 (fun j =>
        load8 (readGroupHeader (decDims D) src h tm).headers (8 * K + j) +
          (if load8 (readGroupHeader (decDims D) src h tm).headers (8 * K + j) = 7 then 1 else 0))
      ≤ 8 * 8 := by
    apply sumTo_le
    intro j hj
    have := hf j hj
    show _ + _ ≤ 8
    split_ifs <;> omega
  apply loadLE_eq_of_bytes 8 _ _ _ (by norm_num; omega)
  intro a ha
  rw [readGroupHeader_widths_eq, vecLoop_load8 _ _ _ _ (by omega)]
  unfold mm256_sad_epu8
  simp only []
  have e1 : (8 * K + a) % 32 % 8 = a := by omega
  rw [e1, Nat.mod_mod]
  congr 2
  rw [forLoop_sum]
  apply sumTo_congr
  intro j hj
  unfold mm256_sub_epi8 mm256_cmpeq_epi8 mm256_loadu_si256 mm256_set1_epi8 mm256_setzero_si256
  have e2 : (8 * K + a) / 32 * 32 + (8 * ((8 * K + a) % 32 / 8) + j) = 8 * K + j := by omega
  simp only [e2, Nat.zero_le, if_true, Nat.sub_zero]
  exact width_lane _ (hf j hj)

theorem round_up_32 (x : Nat) :
    x ≤ 32 * (round_up_to_multiple x 32 / 32) := by
  unfold round_up_to_multiple
  split_ifs <;> omega

theorem eq_of_testBit_lt8 (a b : Nat) (ha : a < 256) (hb : b < 256)
    (h : ∀ r, r < 8 → a.testBit r = b.testBit r) : a = b := by
  apply Nat.eq_of_testBit_eq
  intro r
  by_cases hr : r < 8
  · exact h r hr
  · rw [testBit_lt_256 a r ha (by omega), testBit_lt_256 b r hb (by omega)]

/-- What a decoder derives from a group header that holds the width fields of
two blocks: the stripe masks and stripe widths the encoder used. -/
theorem readGroupHeader_spec (T : Nat → Nat) (dm : Nat → Nat → Nat) (D : Nat) (src : Mem)
    (h : Nat) (tm : DecTemps) (hD1 : 1 ≤ D)
    (hok : ∀ b d, b < 2 → d < D → maskOf T (dm b) d ∈ okMasks)
    (hhdr : ∀ b d j, b < 2 → d < D → j < 3 →
      abit src (8 * h + 3 * (b * D + d) + j) = (writeNbits (maskOf T (dm b) d)).testBit j)
    (hpad : HeadersPadded D tm.headers) :
    HeadersPadded D (readGroupHeader (decDims D) src h tm).headers ∧
    ∀ b s, b < 2 → s < nstripesOf D →
      loadLE 8 (readGroupHeader (decDims D) src h tm).data_masks (8 * (b * nstripesOf D + s)) =
        (statsOf T (dm b) D).stripe_masks.get s ∧
      loadLE 8 (readGroupHeader (decDims D) src h tm).stripe_bitwidths
          (8 * (b * nstripesOf D + s)) = (statsOf T (dm b) D).stripe_bitwidths.get s := by
  have hge := nstripesOf_ge D
  -- the bytes of `headers`
  have hH : ∀ b d, b < 2 → d < 8 * nstripesOf D →
      load8 (readGroupHeader (decDims D) src h tm).headers (b * nstripesOf D * 8 + d) =
        if d < D then writeNbits (maskOf T (dm b) d) else 0 := by
    intro b d hb hd
    rw [readGroupHeader_headers D src h tm b d hb hd]
    by_cases hdD : d < D
    · rw [if_pos hdD, if_pos hdD]
      have hw := writeNbits_lt _ (maskOf_lt T (dm b) d)
      apply eq_of_testBit_lt8 _ _ (load8_lt _ _) (by omega)
      intro r hr
      rw [readGroupHeader_tmp D src h tm hD1 _ r (by
        have : b = 0 ∨ b = 1 := by omega
        rcases this with rfl | rfl <;> omega) hr]
      by_cases hr3 : r < 3
      · rw [hhdr b d r hb hdD hr3]; simp [hr3]
      · rw [testBit_lt_8 _ r hw (by omega)]; simp [hr3]
    · rw [if_neg hdD, if_neg hdD]
      exact hpad b d hb (by omega) hd
  have hHlt : ∀ b d, b < 2 → d < 8 * nstripesOf D →
      load8 (readGroupHeader (decDims D) src h tm).headers (b * nstripesOf D * 8 + d) < 8 := by
    intro b d hb hd
    rw [hH b d hb hd]
    split_ifs
    · exact writeNbits_lt _ (maskOf_lt T (dm b) d)
    · omega
  have hnv : 16 * nstripesOf D ≤ 32 * (decDims D).nvectors_in_group := by
    have := round_up_32 (nstripesOf D * 2 * 8)
    have e : (decDims D).nvectors_in_group
        = round_up_to_multiple (nstripesOf D * 2 * 8) 32 / 32 := rfl
    rw [e]; omega
  refine ⟨?_, ?_⟩
  · intro b d hb hd1 hd2
    rw [hH b d hb hd2, if_neg (by omega)]
  · intro b s hb hs
    have hb2 : b * nstripesOf D + s < 2 * nstripesOf D := by
      have : b = 0 ∨ b = 1 := by omega
      rcases this with rfl | rfl <;> omega
    have hpos : ∀ j, j < 8 → 8 * (b * nstripesOf D + s) + j = b * nstripesOf D * 8 + (8 * s + j) := by
      intro j _; ring
    constructor
    · apply Nat.eq_of_testBit_eq
      intro t
      rw [loadLE_testBit, statsOf_masks_testBit]
      by_cases ht : t < 64
      · have e1 : (8 * (8 * (b * nstripesOf D + s)) + t) / 8
            = b * nstripesOf D * 8 + (8 * s + t / 8) := by omega
        have e2 : (8 * (8 * (b * nstripesOf D + s)) + t) % 8 = t % 8 := by omega
        unfold abit
        rw [e1, e2, readGroupHeader_mask_byte D src h tm _ (by omega) (hHlt b _ hb (by omega)),
          hH b _ hb (by omega)]
        by_cases hd : 8 * s + t / 8 < D
        · rw [if_pos hd, (okMasks_facts _ (hok b _ hb hd)).2.2.2.1]
          simp [ht, hd]
        · rw [if_neg hd]
          have : nbits_to_mask 0 = 0 := rfl
          simp [ht, hd, this]
      · simp [ht]
    · rw [readGroupHeader_width_word D src h tm _ (by omega)
        (fun j hj => by rw [hpos j hj]; exact hHlt b _ hb (by omega)), statsOf_widths]
      apply sumTo_congr
      intro j hj
      rw [hpos j hj, hH b _ hb (by omega)]
      by_cases hd : 8 * s + j < D
      · rw [if_pos hd, if_pos hd]
        exact (okMasks_facts _ (hok b _ hb hd)).2.2.2.2
      · rw [if_neg hd, if_neg hd]
        rfl

/-! ## Decoding one block -/

theorem forLoopDown_inv {σ : Type} (P : σ → Prop) (n : Nat) (body : Nat → σ → σ) (s : σ)
    (h0 : P s) (hstep : ∀ i x, i < n → P x → P (body i x)) : P (forLoopDown n body s) := by
  induction n generalizing s with
  | zero => exact h0
  | succ n ih =>
    rw [forLoopDown]
    exact ih _ (hstep n s (by omega) h0) (fun i x hi hx => hstep i x (by omega) hx)

/-- Unpacking a block writes nothing below the block. -/
theorem unpackBlock_below (masks w : Nat → Nat) (offs : Arr) (ns : Nat) (src : Mem)
    (inp rb out stride : Nat) (outbuf : Mem) (k : Nat) (hk : k < out) :
    load8 (unpackBlock masks w offs ns src inp rb out stride outbuf) k = load8 outbuf k := by
  unfold unpackBlock
  apply forLoopDown_inv (fun x : Mem => load8 x k = load8 outbuf k)
  · rfl
  · intro s x _ hx
    simp only []
    split_ifs
    · apply forLoop_inv (fun y : Mem => load8 y k = load8 outbuf k)
      · exact hx
      · intro i y _ hy
        show load8 (storeLE 8 y _ _) k = _
        rw [load8_storeLE_below _ _ _ _ _ (by omega), hy]
    · apply forLoop_inv (fun y : Mem => load8 y k = load8 outbuf k)
      · exact hx
      · intro i y _ hy
        show load8 (storeLE 8 y _ _) k = _
        rw [load8_storeLE_below _ _ _ _ _ (by omega), hy]

theorem stripeBitoffsets_congr (w w2 : Nat → Nat) (ns : Nat) (h : ∀ k, k < ns → w k = w2 k) :
    stripeBitoffsets w ns = stripeBitoffsets w2 ns := by
  unfold stripeBitoffsets
  apply forLoop_congr
  intro i hi x
  rw [h i (by omega)]

set_option maxRecDepth 100000 in
theorem okMasks_pow : ∀ M ∈ okMasks, M + 1 = 2 ^ maxNbits M := by
  decide

/-- A value of a dimension is untouched by the mask of the dimension. -/
theorem covered_of_or (T : Nat → Nat) (hT : TableOK T) (f : Nat → Nat) (n i : Nat) (hi : i < n)
    (hf : ∀ j, f j < 256) :
    f i &&& (T (forLoop n (fun j mask => mask ||| f j) 0) % 256) = f i := by
  have hlt : forLoop n (fun j mask => mask ||| f j) 0 < 256 := by
    have := (orLoop_lt_iff f n 8).mpr (fun j _ => hf j)
    simpa using this
  obtain ⟨h1, h2⟩ := hT _ hlt
  have hM := (okMasks_facts _ h1).1
  have hp := okMasks_pow _ h1
  rw [Nat.mod_eq_of_lt hM]
  have hor : forLoop n (fun j mask => mask ||| f j) 0
      < 2 ^ maxNbits (T (forLoop n (fun j mask => mask ||| f j) 0)) := by omega
  have hfi := (orLoop_lt_iff f n _).mp hor i hi
  have e : T (forLoop n (fun j mask => mask ||| f j) 0)
      = 2 ^ maxNbits (T (forLoop n (fun j mask => mask ||| f j) 0)) - 1 := by omega
  rw [e, Nat.and_pow_two_sub_one_eq_mod, Nat.mod_eq_of_lt hfi]

theorem covered_orReduce (T : Nat → Nat) (hT : TableOK T) (src : Mem) (p D : Nat) (i d : Nat)
    (hi : i < 8) :
    load8 src (p + i * D + d) &&& maskOf T (fun d => orReduce src p D d) d
      = load8 src (p + i * D + d) :=
  covered_of_or T hT (fun i => load8 src (p + i * D + d)) 8 i hi (fun _ => load8_lt _ _)

/-- With the stripe widths of the encoder, a decoder computes the row size of
the encoder. -/
theorem dec_row_nbytes (T dm : Nat → Nat) (D : Nat) (hD1 : 1 ≤ D) (w2 : Nat → Nat)
    (hw2 : ∀ s, s < nstripesOf D → w2 s = (statsOf T dm D).stripe_bitwidths.get s) :
    rowNbytes (((stripeBitoffsets w2 (nstripesOf D)).get (nstripesOf D - 1)
      + w2 (nstripesOf D - 1)) % 2 ^ 32) = rowBytesOf (statsOf T dm D) (nstripesOf D) := by
  have hpos := nstripesOf_pos D hD1
  unfold rowBytesOf
  rw [stripeBitoffsets_congr w2 _ _ hw2, hw2 _ (by omega)]

/-- One block, from the stream back to the bytes. -/
theorem unpackBlock_of_stream (T dm : Nat → Nat) (D : Nat) (inbuf : Mem) (inp in_stride : Nat)
    (cm : Mem) (hdrbit o : Nat) (masks2 w2 : Nat → Nat) (out stride : Nat) (outbuf : Mem)
    (hD1 : 1 ≤ D) (hD2 : D < 65536)
    (hok : ∀ d, d < D → maskOf T dm d ∈ okMasks)
    (hcover : ∀ i d, i < 8 → d < D →
      load8 inbuf (inp + i * in_stride + d) &&& maskOf T dm d
        = load8 inbuf (inp + i * in_stride + d))
    (hs : BlockInStream cm T dm D inbuf inp in_stride hdrbit o)
    (hm2 : ∀ s, s < nstripesOf D → masks2 s = (statsOf T dm D).stripe_masks.get s)
    (hw2 : ∀ s, s < nstripesOf D → w2 s = (statsOf T dm D).stripe_bitwidths.get s)
    (hstride : D ≤ stride) (i d : Nat) (hi : i < 8) (hd : d < D) :
    load8 (unpackBlock masks2 w2 (stripeBitoffsets w2 (nstripesOf D)) (nstripesOf D) cm o
        (rowBytesOf (statsOf T dm D) (nstripesOf D)) out stride outbuf)
        (out + i * stride + d) = load8 inbuf (inp + i * in_stride + d) := by
  apply unpackBlock_of_packed T dm D inbuf inp in_stride cm o _ masks2 w2 _ out stride outbuf hok
    hcover (statsOf_row_fits T dm D hD1 hD2) hs.2 hm2 hw2 _ hstride i d hi hd
  intro s hs'
  rw [stripeBitoffsets_congr w2 _ _ hw2, statsOf_offsets T dm D hD2 s hs']
  exact sumTo_congr _ _ _ (fun j hj => (hw2 j (by omega)).symm)

/-! ## Decoding one group of `decompress8b_rowmajor` -/

theorem rowmajorDecBlock_eq (T dm : Nat → Nat) (D : Nat) (hD1 : 1 ≤ D) (cm : Mem) (b : Nat)
    (s : DecState)
    (hw2 : ∀ k, k < nstripesOf D →
      loadLE 8 s.tm.stripe_bitwidths (8 * (b * nstripesOf D + k))
        = (statsOf T dm D).stripe_bitwidths.get k) :
    rowmajorDecBlock (decDims D) cm b s =
      ⟨s.src + 8 * rowBytesOf (statsOf T dm D) (nstripesOf D), s.dest + 8 * D,
        unpackBlock (fun k => loadLE 8 s.tm.data_masks (8 * (b * nstripesOf D + k)))
          (fun k => loadLE 8 s.tm.stripe_bitwidths (8 * (b * nstripesOf D + k)))
          (stripeBitoffsets
            (fun k => loadLE 8 s.tm.stripe_bitwidths (8 * (b * nstripesOf D + k)))
            (nstripesOf D))
          (nstripesOf D) cm s.src (rowBytesOf (statsOf T dm D) (nstripesOf D)) s.dest D s.mem,
        s.tm⟩ := by
  have hrb := dec_row_nbytes T dm D hD1
    (fun k => loadLE 8 s.tm.stripe_bitwidths (8 * (b * nstripesOf D + k))) hw2
  unfold rowmajorDecBlock
  have e1 : (decDims D).nstripes = nstripesOf D := rfl
  have e2 : (decDims D).ndims = D := rfl
  simp only [e1, e2, block_sz]
  rw [hrb]

/-- One block of `decompress8b_rowmajor` on a stream that holds the block. -/
theorem rowmajorDecBlock_spec (T dm : Nat → Nat) (D : Nat) (x : Mem) (p : Nat) (cm : Mem)
    (hdrbit b : Nat) (s : DecState) (hD1 : 1 ≤ D) (hD2 : D < 65536)
    (hok : ∀ d, d < D → maskOf T dm d ∈ okMasks)
    (hcov : ∀ i d, i < 8 → d < D →
      load8 x (p + i * D + d) &&& maskOf T dm d = load8 x (p + i * D + d))
    (hs : BlockInStream cm T dm D x p D hdrbit s.src)
    (hm2 : ∀ k, k < nstripesOf D →
      loadLE 8 s.tm.data_masks (8 * (b * nstripesOf D + k))
        = (statsOf T dm D).stripe_masks.get k)
    (hw2 : ∀ k, k < nstripesOf D →
      loadLE 8 s.tm.stripe_bitwidths (8 * (b * nstripesOf D + k))
        = (statsOf T dm D).stripe_bitwidths.get k) :
    (rowmajorDecBlock (decDims D) cm b s).src =
      s.src + 8 * rowBytesOf (statsOf T dm D) (nstripesOf D) ∧
    (rowmajorDecBlock (decDims D) cm b s).dest = s.dest + 8 * D ∧
    (rowmajorDecBlock (decDims D) cm b s).tm = s.tm ∧
    (∀ k, k < s.dest → load8 (rowmajorDecBlock (decDims D) cm b s).mem k = load8 s.mem k) ∧
    (∀ i d, i < 8 → d < D →
      load8 (rowmajorDecBlock (decDims D) cm b s).mem (s.dest + i * D + d)
        = load8 x (p + i * D + d)) := by
  rw [rowmajorDecBlock_eq T dm D hD1 cm b s hw2]
  refine ⟨rfl, rfl, rfl, ?_, ?_⟩
  · intro k hk
    exact unpackBlock_below _ _ _ _ _ _ _ _ _ _ k hk
  · intro i d hi hd
    exact unpackBlock_of_stream T dm D x p D cm hdrbit s.src _ _ s.dest D s.mem hD1 hD2 hok hcov hs
      hm2 hw2 (le_refl _) i d hi hd

theorem rowmajorDecGroup_unfold (dd : DecDims) (cm : Mem) (s : DecState) :
    rowmajorDecGroup dd cm s =
      rowmajorDecBlock dd cm 1 (rowmajorDecBlock dd cm 0
        ⟨s.src + dd.total_header_bytes, s.dest, s.mem, readGroupHeader dd cm s.src s.tm⟩) := by
  unfold rowmajorDecGroup
  simp only [group_sz_blocks, kDefaultGroupSzBlocks, forLoop]

/-- One pass of the group loop of `decompress8b_rowmajor` on a stream that
holds two blocks of the input `x`: both blocks are written to the
destination, nothing below the write position changes. -/
theorem rowmajorDecGroup_spec (T dm0 dm1 : Nat → Nat) (D : Nat) (x : Mem) (p0 p1 : Nat)
    (cm : Mem) (s : DecState) (hD1 : 1 ≤ D) (hD2 : D < 65536)
    (hok0 : ∀ d, d < D → maskOf T dm0 d ∈ okMasks)
    (hok1 : ∀ d, d < D → maskOf T dm1 d ∈ okMasks)
    (hcov0 : ∀ i d, i < 8 → d < D →
      load8 x (p0 + i * D + d) &&& maskOf T dm0 d = load8 x (p0 + i * D + d))
    (hcov1 : ∀ i d, i < 8 → d < D →
      load8 x (p1 + i * D + d) &&& maskOf T dm1 d = load8 x (p1 + i * D + d))
    (hb0 : BlockInStream cm T dm0 D x p0 D (8 * s.src) (s.src + headerBytesOf D))
    (hb1 : BlockInStream cm T dm1 D x p1 D (8 * s.src + 3 * D)
      (s.src + headerBytesOf D + 8 * rowBytesOf (statsOf T dm0 D) (nstripesOf D)))
    (hpad : HeadersPadded D s.tm.headers) :
    (rowmajorDecGroup (decDims D) cm s).src =
      s.src + headerBytesOf D + 8 * rowBytesOf (statsOf T dm0 D) (nstripesOf D)
        + 8 * rowBytesOf (statsOf T dm1 D) (nstripesOf D) ∧
    (rowmajorDecGroup (decDims D) cm s).dest = s.dest + 16 * D ∧
    HeadersPadded D (rowmajorDecGroup (decDims D) cm s).tm.headers ∧
    (∀ k, k < s.dest → load8 (rowmajorDecGroup (decDims D) cm s).mem k = load8 s.mem k) ∧
    (∀ i d, i < 8 → d < D →
      load8 (rowmajorDecGroup (decDims D) cm s).mem (s.dest + i * D + d)
        = load8 x (p0 + i * D + d)) ∧
    (∀ i d, i < 8 → d < D →
      load8 (rowmajorDecGroup (decDims D) cm s).mem (s.dest + 8 * D + i * D + d)
        = load8 x (p1 + i * D + d)) := by
  have hspec := readGroupHeader_spec T (fun b => if b = 0 then dm0 else dm1) D cm s.src s.tm hD1
    (by
      intro b d hb hd
      have : b = 0 ∨ b = 1 := by omega
      rcases this with rfl | rfl
      · exact hok0 d hd
      · exact hok1 d hd)
    (by
      intro b d j hb hd hj
      have : b = 0 ∨ b = 1 := by omega
      rcases this with rfl | rfl
      · have := hb0.1 d j hd hj
        simp only [Nat.zero_mul, Nat.zero_add, if_true]
        exact this
      · have := hb1.1 d j hd hj
        simp only [Nat.one_mul, if_neg (show ¬ (1 : Nat) = 0 from by omega)]
        rw [show 8 * s.src + 3 * (D + d) + j = 8 * s.src + 3 * D + 3 * d + j from by ring]
        exact this)
    hpad
  obtain ⟨hpad2, hwords⟩ := hspec
  have hw0 := fun k hk => (hwords 0 k (by omega) hk)
  have hw1 := fun k hk => (hwords 1 k (by omega) hk)
  simp only [if_true, if_neg (show ¬ (1 : Nat) = 0 from by omega)] at hw0 hw1
  have e3 : (decDims D).total_header_bytes = headerBytesOf D := rfl
  rw [rowmajorDecGroup_unfold, e3]
  obtain ⟨a1, a2, a3, a4, a5⟩ := rowmajorDecBlock_spec T dm0 D x p0 cm (8 * s.src) 0
    ⟨s.src + headerBytesOf D, s.dest, s.mem, readGroupHeader (decDims D) cm s.src s.tm⟩
    hD1 hD2 hok0 hcov0 hb0 (fun k hk => (hw0 k hk).1) (fun k hk => (hw0 k hk).2)
  generalize rowmajorDecBlock (decDims D) cm 0
    ⟨s.src + headerBytesOf D, s.dest, s.mem, readGroupHeader (decDims D) cm s.src s.tm⟩ = r0
    at a1 a2 a3 a4 a5 ⊢
  have a1b : r0.src = s.src + headerBytesOf D
      + 8 * rowBytesOf (statsOf T dm0 D) (nstripesOf D) := a1
  have a2b : r0.dest = s.dest + 8 * D := a2
  have a3b : r0.tm = readGroupHeader (decDims D) cm s.src s.tm := a3
  have a4b : ∀ k, k < s.dest → load8 r0.mem k = load8 s.mem k := a4
  have a5b : ∀ i d, i < 8 → d < D → load8 r0.mem (s.dest + i * D + d)
      = load8 x (p0 + i * D + d) := a5
  obtain ⟨c1, c2, c3, c4, c5⟩ := rowmajorDecBlock_spec T dm1 D x p1 cm (8 * s.src + 3 * D) 1 r0
    hD1 hD2 hok1 hcov1 (by rw [a1b]; exact hb1)
    (fun k hk => by rw [a3b]; exact (hw1 k hk).1) (fun k hk => by rw [a3b]; exact (hw1 k hk).2)
  refine ⟨by rw [c1, a1b], by rw [c2, a2b]; omega, by rw [c3, a3b]; exact hpad2, ?_, ?_, ?_⟩
  · intro k hk
    rw [c4 k (by omega), a4b k hk]
  · intro i d hi hd
    have hlt : i * D + d < 8 * D := by nlinarith
    rw [c4 _ (by omega), a5b i d hi hd]
  · intro i d hi hd
    rw [← a2b]
    exact c5 i d hi hd

/-! ## Round trip of `compress8b_rowmajor` / `decompress8b_rowmajor` -/

theorem decompress8b_rowmajor_large (src dest : Mem) (L D : Nat)
    (hmd : read_metadata_8b src = (L, D)) (hL : 128 ≤ L) (hD1 : 1 ≤ D) :
    decompress8b_rowmajor src dest =
      Outcome.returned
        (memcpy (rowmajorDecLoop src dest D (L / (16 * D))).mem
          (rowmajorDecLoop src dest D (L / (16 * D))).dest src
          (rowmajorDecLoop src dest D (L / (16 * D))).src
          ((L - (rowmajorDecLoop src dest D (L / (16 * D))).dest) % 2 ^ 32))
        ((rowmajorDecLoop src dest D (L / (16 * D))).dest
          + (L - (rowmajorDecLoop src dest D (L / (16 * D))).dest) % 2 ^ 32) := by
  unfold decompress8b_rowmajor
  simp only [hmd]
  have h1 : ¬ L < 8 * block_sz * group_sz_blocks := by
    simp only [block_sz, group_sz_blocks, kDefaultGroupSzBlocks]; omega
  have h2 : ¬ D = 0 := by omega
  have e : D * (block_sz * group_sz_blocks) = 16 * D := by
    simp only [block_sz, group_sz_blocks, kDefaultGroupSzBlocks]; omega
  simp only [h1, decide_False, Bool.false_eq_true, if_false, h2, e]
  rfl

theorem rowmajorDecLoop_succ (src dest : Mem) (D g : Nat) :
    rowmajorDecLoop src dest D (g + 1) =
      rowmajorDecGroup (decDims D) src (rowmajorDecLoop src dest D g) := rfl

theorem HeadersPadded_zero (D : Nat) : HeadersPadded D DecTemps.zero.headers :=
  fun _ _ _ _ _ => rfl

/-- An offset inside a block of `8 * D` bytes is a row and a dimension. -/
theorem block_offset (D k : Nat) (hD1 : 1 ≤ D) (hk : k < 8 * D) :
    k / D < 8 ∧ k % D < D ∧ k = k / D * D + k % D := by
  refine ⟨?_, Nat.mod_lt _ (by omega), ?_⟩
  · rw [Nat.div_lt_iff_lt_mul (by omega)]; omega
  · have := Nat.div_add_mod k D
    rw [Nat.mul_comm] at this
    omega

/-- The state of the decoder after `g` groups of a stream written by
`compress8b_rowmajor`: it stands where the encoder stood, and the first
`16 * D * g` bytes of the input are back. -/
theorem rowmajorDecLoop_spec (T : Nat → Nat) (hT : TableOK T) (x dest : Mem) (L D : Nat)
    (hD1 : 1 ≤ D) (hD2 : D < 65536) (cm dest2 : Mem) (G : Nat)
    (hcm : ∀ k, k < (rowmajorLoop T x L dest D true G).dest →
      load8 cm k = load8 (rowmajorLoop T x L dest D true G).mem k) (g : Nat) (hg : g ≤ G) :
    (rowmajorDecLoop cm dest2 D g).src = (rowmajorLoop T x L dest D true g).dest ∧
    (rowmajorDecLoop cm dest2 D g).dest = g * (16 * D) ∧
    HeadersPadded D (rowmajorDecLoop cm dest2 D g).tm.headers ∧
    ∀ k, k < g * (16 * D) → load8 (rowmajorDecLoop cm dest2 D g).mem k = load8 x k := by
  induction g with
  | zero =>
    refine ⟨rfl, by show (0 : Nat) = 0 * _; omega, HeadersPadded_zero D, fun k hk => by omega⟩
  | succ g ih =>
    obtain ⟨i1, i2, i3, i4⟩ := ih (by omega)
    have hblocks := rowmajorLoop_blocks T (TableOK_pop T hT) x L dest D true hD1 hD2 g G (by omega)
    have hhb := headerBytesOf_ge D
    have hend : (rowmajorLoop T x L dest D true (g + 1)).dest =
        (rowmajorLoop T x L dest D true g).dest + headerBytesOf D
          + 8 * rowBytesOf (statsOf T (fun d => orReduce x (g * (16 * D)) D d) D) (nstripesOf D)
          + 8 * rowBytesOf (statsOf T (fun d => orReduce x (g * (16 * D) + 8 * D) D d) D)
              (nstripesOf D) := by
      rw [rowmajorLoop_succ, rowmajorGroup_dest, rowmajorLoop_src]
      rfl
    have hmono := rowmajorLoop_mono_dest T x L dest D true (g + 1) G (by omega)
    have hb0 := BlockInStream_congr _ cm _ _ _ _ _ _ _ _
      (rowmajorLoop T x L dest D true G).dest hblocks.1 (by omega) (by omega) hcm
    have hb1 := BlockInStream_congr _ cm _ _ _ _ _ _ _ _
      (rowmajorLoop T x L dest D true G).dest hblocks.2 (by omega) (by omega) hcm
    rw [← i1] at hb0 hb1
    have hok : ∀ p d, d < D → maskOf T (fun d => orReduce x p D d) d ∈ okMasks :=
      fun p d _ => (maskOf_ok T _ hT d (orReduce_lt x p D d)).1
    obtain ⟨c1, c2, c3, c4, c5, c6⟩ := rowmajorDecGroup_spec T _ _ D x (g * (16 * D))
      (g * (16 * D) + 8 * D) cm (rowmajorDecLoop cm dest2 D g) hD1 hD2 (hok _) (hok _)
      (fun i d hi _ => covered_orReduce T hT x _ D i d hi)
      (fun i d hi _ => covered_orReduce T hT x _ D i d hi) hb0 hb1 i3
    rw [rowmajorDecLoop_succ]
    refine ⟨by rw [c1, i1, hend], by rw [c2, i2]; ring, c3, ?_⟩
    intro k hk
    by_cases h1 : k < g * (16 * D)
    · rw [c4 k (by omega), i4 k h1]
    · have hk2 : k - g * (16 * D) < 16 * D := by
        have : (g + 1) * (16 * D) = g * (16 * D) + 16 * D := by ring
        omega
      by_cases h2 : k - g * (16 * D) < 8 * D
      · obtain ⟨q1, q2, q3⟩ := block_offset D (k - g * (16 * D)) hD1 h2
        have := c5 _ _ q1 q2
        rw [i2] at this
        rw [show k = g * (16 * D) + (k - g * (16 * D)) / D * D + (k - g * (16 * D)) % D
          from by omega]
        exact this
      · obtain ⟨q1, q2, q3⟩ := block_offset D (k - g * (16 * D) - 8 * D) hD1 (by omega)
        have := c6 _ _ q1 q2
        rw [i2] at this
        rw [show k = g * (16 * D) + 8 * D + (k - g * (16 * D) - 8 * D) / D * D
          + (k - g * (16 * D) - 8 * D) % D from by omega]
        exact this

/-- Round trip of the rowmajor pair on an input of at least 128 bytes. -/
theorem roundtrip_rowmajor_large (T : Nat → Nat) (hT : TableOK T) (x dest dest2 : Mem)
    (L D : Nat) (hD1 : 1 ≤ D) (hD2 : D < 65536) (hL : 128 ≤ L) (hL2 : L < 2 ^ 48) :
    ∃ out n, compress8b_rowmajor T x L dest D true = Outcome.returned out n ∧
      ∃ out2, decompress8b_rowmajor out dest2 = Outcome.returned out2 L ∧
        ∀ k, k < L → load8 out2 k = load8 x k := by
  have henc := compress8b_rowmajor_large T x dest L D true hD1 hD2 hL (fun _ => hL2)
  refine ⟨_, _, henc, ?_⟩
  have hhdr : ∀ k, k < 8 →
      load8 (memcpy (rowmajorLoop T x L dest D true (L / (16 * D))).mem
        (rowmajorLoop T x L dest D true (L / (16 * D))).dest x
        (L / (16 * D) * (16 * D)) (L % (16 * D))) k = load8 (headerA dest L D true) k := by
    intro k hk
    have := compress8b_rowmajor_header T x dest L D hL2 k hk
    rw [henc] at this
    exact this
  have hmd := read_metadata_8b_of_header _ dest L D hL2 hD2 hhdr
  rw [decompress8b_rowmajor_large _ dest2 L D hmd hL hD1]
  have hcm : ∀ k, k < (rowmajorLoop T x L dest D true (L / (16 * D))).dest →
      load8 (memcpy (rowmajorLoop T x L dest D true (L / (16 * D))).mem
        (rowmajorLoop T x L dest D true (L / (16 * D))).dest x
        (L / (16 * D) * (16 * D)) (L % (16 * D))) k
      = load8 (rowmajorLoop T x L dest D true (L / (16 * D))).mem k := by
    intro k hk
    rw [load8_memcpy, if_neg (by omega)]
  obtain ⟨d1, d2, _, d4⟩ := rowmajorDecLoop_spec T hT x dest L D hD1 hD2 _ dest2 (L / (16 * D))
    hcm (L / (16 * D)) (le_refl _)
  have hdm := Nat.div_add_mod L (16 * D)
  rw [Nat.mul_comm] at hdm
  have hrem : (L - L / (16 * D) * (16 * D)) % 2 ^ 32 = L % (16 * D) :=
    tail_len_eq L D hD1 hD2
  rw [d1, d2, hrem]
  refine ⟨_, by rw [hdm], ?_⟩
  intro k hk
  rw [load8_memcpy]
  by_cases h1 : k < L / (16 * D) * (16 * D)
  · rw [if_neg (by omega), d4 k h1]
  · rw [if_pos (by omega), load8_memcpy, if_pos (by omega)]
    congr 1
    omega

/-- Round trip of the rowmajor pair on an input shorter than 128 bytes. -/
theorem roundtrip_rowmajor_small (T : Nat → Nat) (x dest dest2 : Mem) (L D : Nat)
    (hD2 : D < 65536) (hL : L < 128) :
    ∃ out n, compress8b_rowmajor T x L dest D true = Outcome.returned out n ∧
      ∃ out2, decompress8b_rowmajor out dest2 = Outcome.returned out2 L ∧
        ∀ k, k < L → load8 out2 k = load8 x k := by
  have hL2 : L < 2 ^ 48 := by
    have : (128 : Nat) < 2 ^ 48 := by norm_num
    omega
  have h1 : ¬ ((true && decide (¬ L < 2 ^ 48)) = true) := by
    simp only [Bool.true_and, decide_eq_true_eq, not_not]
    exact hL2
  have henc : compress8b_rowmajor T x L dest D true =
      Outcome.returned (memcpy (headerA dest L D true) (headerLen true) x 0 (L % 2 ^ 32))
        (headerLen true + L % 2 ^ 32) := by
    rw [compress8b_rowmajor_eq, if_neg h1, if_pos hL]
  refine ⟨_, _, henc, ?_⟩
  have hhdr : ∀ k, k < 8 →
      load8 (memcpy (headerA dest L D true) (headerLen true) x 0 (L % 2 ^ 32)) k
        = load8 (headerA dest L D true) k := by
    intro k hk
    have := compress8b_rowmajor_header T x dest L D hL2 k hk
    rw [henc] at this
    exact this
  have hmd := read_metadata_8b_of_header _ dest L D hL2 hD2 hhdr
  have h32 : L % 2 ^ 32 = L := Nat.mod_eq_of_lt (by omega)
  unfold decompress8b_rowmajor
  simp only [hmd, block_sz, group_sz_blocks, kDefaultGroupSzBlocks]
  rw [if_pos (by simp; omega)]
  refine ⟨_, rfl, ?_⟩
  intro k hk
  rw [load8_memcpy, if_pos (by omega), load8_memcpy, h32]
  have e8 : headerLen true = 8 := rfl
  rw [if_pos (by omega), e8]
  congr 1
  omega

/-! ## C1: round trip of the rowmajor pair -/

/-- The hypothesis `TableOK` is needed below.  If the table had `0x7f` for the
bytes 64..127 (`NBITS_MASKS_U8`, which is not `TableOK`), then with two
dimensions whose values are `0x40` and `0x41` in every row (`L = 128`, four
full groups) the encoder would pack each row in 14 bits and return 144 bytes,
with the header fields 7.  The decoder derives 8 bits and mask `0xff` from the
header field 7 and returns 128, but the first byte it rebuilds is `0xc0`, not
`0x40`. -/
theorem rowmajor_round_trip_fails_on_width7 :
    (compress8b_rowmajor NBITS_MASKS_U8 ⟨fun k => if k % 2 = 0 then 0x40 else 0x41⟩ 128
      Mem.zero 2 true).ret = some 144 ∧
    (decompress8b_rowmajor (compress8b_rowmajor NBITS_MASKS_U8
      ⟨fun k => if k % 2 = 0 then 0x40 else 0x41⟩ 128 Mem.zero 2 true).dest Mem.zero).ret
        = some 128 ∧
    load8 (decompress8b_rowmajor (compress8b_rowmajor NBITS_MASKS_U8
      ⟨fun k => if k % 2 = 0 then 0x40 else 0x41⟩ 128 Mem.zero 2 true).dest Mem.zero).dest 0
        = 0xc0 ∧
    load8 ⟨fun k => if k % 2 = 0 then 0x40 else 0x41⟩ 0 = 0x40 := by
  set_option maxRecDepth 1000000 in
  decide

/-- C1: round trip of the rowmajor mode.  For a width table whose masks are
those of the decoder and cover the byte they are looked up with (`TableOK`),
every `D` with `1 ≤ D < 65536` (the dimensions 1..128 among them), every
length `L < 2^48` (the bound the encoder asserts; with or without a full
group, with any tail) and every input `x`, `compress8b_rowmajor` with
`write_size = true` returns, and `decompress8b_rowmajor` applied to its output
returns `L` and reproduces the first `L` bytes of `x`. -/
theorem rowmajor_round_trip (T : Nat → Nat) (hT : TableOK T) (x dest dest2 : Mem)
    (L D : Nat) (hD1 : 1 ≤ D) (hD2 : D < 65536) (hL2 : L < 2 ^ 48) :
    ∃ out n, compress8b_rowmajor T x L dest D true = Outcome.returned out n ∧
      ∃ out2, decompress8b_rowmajor out dest2 = Outcome.returned out2 L ∧
        ∀ k, k < L → load8 out2 k = load8 x k := by
  by_cases hL : 128 ≤ L
  · exact roundtrip_rowmajor_large T hT x dest dest2 L D hD1 hD2 hL hL2
  · exact roundtrip_rowmajor_small T x dest dest2 L D hD2 (by omega)

theorem rowmajor_round_trip_witness :
    TableOK NBITS_MASKS_U8_folded ∧
    ∃ out n, compress8b_rowmajor NBITS_MASKS_U8_folded
        ⟨fun k => if k % 2 = 0 then 0x40 else 0x41⟩ 128 Mem.zero 2 true
        = Outcome.returned out n ∧
      ∃ out2, decompress8b_rowmajor out Mem.zero = Outcome.returned out2 128 ∧
        ∀ k, k < 128 → load8 out2 k = load8 ⟨fun k => if k % 2 = 0 then 0x40 else 0x41⟩ k :=
  ⟨TableOK_folded, rowmajor_round_trip NBITS_MASKS_U8_folded TableOK_folded
    ⟨fun k => if k % 2 = 0 then 0x40 else 0x41⟩ Mem.zero Mem.zero 128 2 (by decide) (by decide)
    (by decide)⟩

/-! ## The `deltas` buffer of the delta encoders -/

theorem deltaStripeStats_eq (T : Nat → Nat) (src : Mem) (p ndims : Nat) (deltas : Mem) :
    deltaStripeStats T src p ndims deltas =
      (statsOf T (deltaMaskOf src p ndims deltas) ndims,
        forLoop ndims (deltaDimMem src p ndims) deltas) :=
  accumLoop_eq T (fun dim (m : Mem) => (deltaDimLoop src p ndims dim m).1)
    (deltaDimMem src p ndims) deltas ndims

/-- The row loop of one dimension in closed form. -/
theorem deltaRows_eq (src : Mem) (p ndims dim : Nat) (m : Mem) (pv : Nat) (k : Nat) :
    forLoop k
      (fun i (r : Nat × Mem × Nat) =>
        (r.1 ||| zigzag_encode_i8 ((load8 src (p + (i * ndims + dim)) + 256 - r.2.2) % 256),
          store8 r.2.1 (i * ndims + dim)
            (zigzag_encode_i8 ((load8 src (p + (i * ndims + dim)) + 256 - r.2.2) % 256)),
          load8 src (p + (i * ndims + dim))))
      (0, m, pv) =
    (forLoop k (fun i mask => mask ||| deltaBits src p ndims (fun _ => pv) i dim) 0,
      forLoop k (fun i m => store8 m (i * ndims + dim)
        (deltaBits src p ndims (fun _ => pv) i dim)) m,
      if k = 0 then pv else load8 src (p + ((k - 1) * ndims + dim))) := by
  induction k with
  | zero => rfl
  | succ k ih =>
    rw [forLoop, ih]
    simp only [forLoop, deltaBits, Nat.add_sub_cancel, Nat.succ_ne_zero, if_false]

theorem deltaBits_lt (src : Mem) (p ndims : Nat) (prev : Nat → Nat) (i dim : Nat) :
    deltaBits src p ndims prev i dim < 256 :=
  zigzag_encode_lt _ (Nat.mod_lt _ (by norm_num))

theorem deltaBits_congr (src : Mem) (p ndims : Nat) (prev prev2 : Nat → Nat) (i dim : Nat)
    (h : prev dim = prev2 dim) :
    deltaBits src p ndims prev i dim = deltaBits src p ndims prev2 i dim := by
  unfold deltaBits
  rw [h]

/-- A row and a column below `D` determine the offset `i * D + d`. -/
theorem rowcol_inj (D i d i2 d2 : Nat) (hd : d < D) (hd2 : d2 < D)
    (h : i * D + d = i2 * D + d2) : i = i2 ∧ d = d2 := by
  have h1 : (i * D + d) / D = i := by
    rw [Nat.mul_comm, Nat.mul_add_div (by omega), Nat.div_eq_of_lt hd, Nat.add_zero]
  have h2 : (i2 * D + d2) / D = i2 := by
    rw [Nat.mul_comm, Nat.mul_add_div (by omega), Nat.div_eq_of_lt hd2, Nat.add_zero]
  have e : i = i2 := by rw [← h1, ← h2, h]
  subst e
  exact ⟨rfl, by omega⟩

theorem storeRows_load8 (f : Nat → Nat) (D dim : Nat) (k : Nat) (m : Mem) (a : Nat)
    (hf : ∀ i, f i < 256) (hdim : dim < D) :
    load8 (forLoop k (fun i m => store8 m (i * D + dim) (f i)) m) a =
      if a % D = dim ∧ a / D < k then f (a / D) else load8 m a := by
  induction k with
  | zero => simp [forLoop]
  | succ k ih =>
    rw [forLoop, load8_store8, ih]
    by_cases e : a = k * D + dim
    · have h1 : a / D = k := by
        rw [e, Nat.mul_comm, Nat.mul_add_div (by omega), Nat.div_eq_of_lt hdim, Nat.add_zero]
      have h2 : a % D = dim := by
        rw [e, Nat.mul_comm, Nat.mul_add_mod, Nat.mod_eq_of_lt hdim]
      rw [if_pos e, if_pos ⟨h2, by omega⟩, h1, Nat.mod_eq_of_lt (hf k)]
    · rw [if_neg e]
      by_cases c : a % D = dim ∧ a / D < k
      · rw [if_pos c, if_pos ⟨c.1, by omega⟩]
      · rw [if_neg c, if_neg]
        rintro ⟨c1, c2⟩
        have := Nat.div_add_mod a D
        have hk : a / D = k := by omega
        rw [hk, c1, Nat.mul_comm] at this
        omega

theorem deltaDimMem_load8 (src : Mem) (p D dim : Nat) (m : Mem) (a : Nat) (hdim : dim < D) :
    load8 (deltaDimMem src p D dim m) a =
      if a % D = dim ∧ a / D < 8 then
        deltaBits src p D (fun _ => load8 m (8 * D + dim)) (a / D) dim
      else if a = 8 * D + dim then load8 src (p + (7 * D + dim)) else load8 m a := by
  unfold deltaDimMem deltaDimLoop
  rw [deltaRows_eq]
  simp only [block_sz]
  rw [load8_store8, storeRows_load8 _ D dim 8 m a (fun i => deltaBits_lt _ _ _ _ _ _) hdim]
  by_cases e : a = 8 * D + dim
  · have h1 : a / D = 8 := by
      rw [e, Nat.mul_comm, Nat.mul_add_div (by omega), Nat.div_eq_of_lt hdim, Nat.add_zero]
    have hc : ¬ (a % D = dim ∧ a / D < 8) := by omega
    rw [if_pos e, if_neg hc, if_pos e, if_neg (by decide)]
    exact Nat.mod_eq_of_lt (load8_lt _ _)
  · rw [if_neg e, if_neg e]

/-- The `deltas` buffer after the first `n` passes of the `dim` loop of a
delta encoder: the zig-zag deltas of the dimensions below `n` in rows `0..7`,
their last values in row `8`, the rest as before. -/
theorem deltaDims_load8 (src : Mem) (p D : Nat) (dl : Mem) (n : Nat) (hn : n ≤ D) (a : Nat) :
    load8 (forLoop n (deltaDimMem src p D) dl) a =
      if a % D < n ∧ a / D < 8 then
        deltaBits src p D (fun d => load8 dl (8 * D + d)) (a / D) (a % D)
      else if a % D < n ∧ a / D = 8 then load8 src (p + (7 * D + a % D)) else load8 dl a := by
  induction n generalizing a with
  | zero => simp [forLoop]
  | succ n ih =>
    have ih := fun a => ih (by omega) a
    have hD : 0 < D := by omega
    rw [forLoop, deltaDimMem_load8 _ _ _ _ _ _ (by omega)]
    have hprev : load8 (forLoop n (deltaDimMem src p D) dl) (8 * D + n) = load8 dl (8 * D + n) := by
      have h2 : (8 * D + n) % D = n := by
        rw [Nat.mul_comm, Nat.mul_add_mod, Nat.mod_eq_of_lt (by omega)]
      rw [ih, if_neg (by omega), if_neg (by omega)]
    rw [hprev, ih]
    have hdm := Nat.div_add_mod a D
    have hml := Nat.mod_lt a hD
    have e_iff : (a = 8 * D + n) = (a % D = n ∧ a / D = 8) := by
      apply propext
      constructor
      · intro e
        rw [e]
        constructor
        · rw [Nat.mul_comm, Nat.mul_add_mod, Nat.mod_eq_of_lt (by omega)]
        · rw [Nat.mul_comm, Nat.mul_add_div hD, Nat.div_eq_of_lt (by omega), Nat.add_zero]
      · rintro ⟨c1, c3⟩
        rw [c3, c1, Nat.mul_comm] at hdm
        omega
    simp only [e_iff]
    split_ifs with h1 h2 h3 h4 h5 h6 h7 h8
    all_goals first
      | rfl
      | (exfalso; omega)
      | (rw [h1.1]; exact deltaBits_congr _ _ _ _ _ _ _ rfl)
      | (rw [h3.1])
      | (rw [h2.1])
      | (rw [h4.1])

/-- The `deltas` buffer that the `dim` loop of a delta encoder leaves for the
block at `src + p`. -/
theorem deltaStripeStats_buf (T : Nat → Nat) (src : Mem) (p D : Nat) (dl : Mem) :
    (∀ i d, i < 8 → d < D →
      load8 (deltaStripeStats T src p D dl).2 (i * D + d) =
        deltaBits src p D (fun d => load8 dl (8 * D + d)) i d) ∧
    (∀ d, d < D → load8 (deltaStripeStats T src p D dl).2 (8 * D + d) = load8 src (p + (7 * D + d)))
    := by
  rw [deltaStripeStats_eq]
  refine ⟨?_, ?_⟩
  · intro i d hi hd
    have h1 : (i * D + d) / D = i := by
      rw [Nat.mul_comm, Nat.mul_add_div (by omega), Nat.div_eq_of_lt hd, Nat.add_zero]
    have h2 : (i * D + d) % D = d := by
      rw [Nat.mul_comm, Nat.mul_add_mod, Nat.mod_eq_of_lt hd]
    show load8 (forLoop D (deltaDimMem src p D) dl) (i * D + d) = _
    rw [deltaDims_load8 _ _ _ _ _ (le_refl _), if_pos ⟨by omega, by omega⟩, h1, h2]
  · intro d hd
    have h1 : (8 * D + d) / D = 8 := by
      rw [Nat.mul_comm, Nat.mul_add_div (by omega), Nat.div_eq_of_lt hd, Nat.add_zero]
    have h2 : (8 * D + d) % D = d := by
      rw [Nat.mul_comm, Nat.mul_add_mod, Nat.mod_eq_of_lt hd]
    show load8 (forLoop D (deltaDimMem src p D) dl) (8 * D + d) = _
    rw [deltaDims_load8 _ _ _ _ _ (le_refl _), if_neg (by omega), if_pos ⟨by omega, by omega⟩, h2]

/-- The OR-mask of a dimension covers each of its zig-zag deltas. -/
theorem deltaMaskOf_eq (src : Mem) (p D : Nat) (dl : Mem) (d : Nat) (hd : d < D) :
    deltaMaskOf src p D dl d =
      forLoop 8 (fun i mask => mask ||| deltaBits src p D (fun d => load8 dl (8 * D + d)) i d) 0
    := by
  unfold deltaMaskOf deltaDimLoop
  rw [deltaRows_eq]
  simp only [block_sz]
  have hprev : load8 (forLoop d (deltaDimMem src p D) dl) (8 * D + d) = load8 dl (8 * D + d) := by
    have h2 : (8 * D + d) % D = d := by
      rw [Nat.mul_comm, Nat.mul_add_mod, Nat.mod_eq_of_lt hd]
    rw [deltaDims_load8 _ _ _ _ _ (by omega), if_neg (by omega), if_neg (by omega)]
  rw [hprev]
  simp only [deltaBits]

theorem deltaMaskOf_lt (src : Mem) (p D : Nat) (dl : Mem) (d : Nat) (hd : d < D) :
    deltaMaskOf src p D dl d < 256 := by
  rw [deltaMaskOf_eq _ _ _ _ _ hd]
  have := (orLoop_lt_iff (fun i => deltaBits src p D (fun d => load8 dl (8 * D + d)) i d) 8 8).mpr
    (fun i _ => deltaBits_lt _ _ _ _ _ _)
  simpa using this

theorem covered_deltaMaskOf (T : Nat → Nat) (hT : TableOK T) (src : Mem) (p D : Nat) (dl : Mem)
    (i d : Nat) (hi : i < 8) (hd : d < D) :
    deltaBits src p D (fun d => load8 dl (8 * D + d)) i d
        &&& maskOf T (deltaMaskOf src p D dl) d
      = deltaBits src p D (fun d => load8 dl (8 * D + d)) i d := by
  have := covered_of_or T hT (fun i => deltaBits src p D (fun d => load8 dl (8 * D + d)) i d) 8 i
    hi (fun j => deltaBits_lt _ _ _ _ _ _)
  rw [← deltaMaskOf_eq _ _ _ _ _ hd] at this
  exact this

/-! ## Undoing the delta coding of a block -/

theorem deltaDecodeBlock_eq (D P nv out : Nat) (s : Mem × Mem) :
    deltaDecodeBlock D P nv out s = forLoopDown nv (deltaDecodeVec D P out) s := rfl

theorem deltaDecodeRows_succ (D P out v : Nat) (dl : Mem) (k : Nat) (m : Mem) :
    deltaDecodeRows D P out v dl (k + 1) m =
      (mm256_storeu_si256 (deltaDecodeRows D P out v dl k m).1 (out + (k * D + v * 32))
          (mm256_add_epi8 (deltaDecodeRows D P out v dl k m).2.1 (mm256_zigzag_decode_epi8
            (mm256_loadu_si256 dl (k * P + v * 32)))),
        mm256_add_epi8 (deltaDecodeRows D P out v dl k m).2.1 (mm256_zigzag_decode_epi8
          (mm256_loadu_si256 dl (k * P + v * 32))),
        mm256_add_epi8 (deltaDecodeRows D P out v dl k m).2.1 (mm256_zigzag_decode_epi8
          (mm256_loadu_si256 dl (k * P + v * 32)))) := rfl

/-- Adding the decoded zig-zag delta to the previous value gives the value. -/
theorem undo_delta (val pv : Nat) (hval : val < 256) (hpv : pv < 256) :
    (pv + zigzag_decode_i8 (zigzag_encode_i8 ((val + 256 - pv) % 256))) % 256 = val := by
  rw [zigzag_decode_encode_u8 _ (Nat.mod_lt _ (by norm_num))]
  omega

/-- The row loop of "undo delta coding" for one vector: the lanes that hold
dimensions of the block get the values back. -/
theorem deltaDecodeRows_spec (D P out v : Nat) (dl m : Mem) (val : Nat → Nat → Nat)
    (hval : ∀ i d, val i d < 256)
    (hdl : ∀ i l, i < 8 → l < 32 → 32 * v + l < D →
      load8 dl (i * P + v * 32 + l) = zigzag_encode_i8 ((val i (32 * v + l) + 256
        - (if i = 0 then load8 dl (8 * P + v * 32 + l) else val (i - 1) (32 * v + l))) % 256))
    (k : Nat) (hk : k ≤ 8) :
    (∀ l, l < 32 → 32 * v + l < D →
      (deltaDecodeRows D P out v dl k m).2.1 l =
        if k = 0 then load8 dl (8 * P + v * 32 + l) else val (k - 1) (32 * v + l)) ∧
    (0 < k → (deltaDecodeRows D P out v dl k m).2.2 = (deltaDecodeRows D P out v dl k m).2.1) ∧
    (∀ i l, i < k → l < 32 → 32 * v + l < D →
      load8 (deltaDecodeRows D P out v dl k m).1 (out + (i * D + v * 32) + l)
        = val i (32 * v + l)) ∧
    (∀ a, (∀ i, i < k → ¬ (out + (i * D + v * 32) ≤ a ∧ a < out + (i * D + v * 32) + 32)) →
      load8 (deltaDecodeRows D P out v dl k m).1 a = load8 m a) := by
  induction k with
  | zero =>
    refine ⟨fun l _ _ => ?_, fun h => by omega, fun i l hi => by omega, fun a _ => rfl⟩
    rw [if_pos rfl]
    show load8 dl (block_sz * P + v * vector_sz + l) = _
    rfl
  | succ k ih =>
    obtain ⟨i1, _, i3, i4⟩ := ih (by omega)
    rw [deltaDecodeRows_succ]
    have hlane : ∀ l, l < 32 → 32 * v + l < D →
        mm256_add_epi8 (deltaDecodeRows D P out v dl k m).2.1 (mm256_zigzag_decode_epi8
          (mm256_loadu_si256 dl (k * P + v * 32))) l = val k (32 * v + l) := by
      intro l hl hd
      show ((deltaDecodeRows D P out v dl k m).2.1 l
        + zigzag_decode_i8 (load8 dl (k * P + v * 32 + l))) % 256 = _
      rw [i1 l hl hd, hdl k l (by omega) hl hd]
      by_cases hk0 : k = 0
      · rw [if_pos hk0]
        exact undo_delta _ _ (hval _ _) (load8_lt _ _)
      · rw [if_neg hk0]
        exact undo_delta _ _ (hval _ _) (hval _ _)
    refine ⟨?_, fun _ => rfl, ?_, ?_⟩
    · intro l hl hd
      rw [if_neg (by omega), Nat.add_sub_cancel]
      exact hlane l hl hd
    · intro i l hi hl hd
      rw [load8_storeu]
      by_cases e : i = k
      · rw [e, if_pos ⟨by omega, by omega⟩, Nat.add_sub_cancel_left, hlane l hl hd]
        exact Nat.mod_eq_of_lt (hval _ _)
      · have hik : i * D + D ≤ k * D := by
          have := Nat.mul_le_mul_right D (show i + 1 ≤ k by omega)
          rw [Nat.add_mul, Nat.one_mul] at this
          exact this
        rw [if_neg (by omega)]
        exact i3 i l (by omega) hl hd
    · intro a ha
      rw [load8_storeu, if_neg (ha k (by omega))]
      exact i4 a (fun i hi => ha i (by omega))

/-- One pass of the vector loop of "undo delta coding". -/
theorem deltaDecodeVec_spec (D P out v : Nat) (dl m : Mem) (val : Nat → Nat → Nat)
    (hval : ∀ i d, val i d < 256)
    (hdl : ∀ i l, i < 8 → l < 32 → 32 * v + l < D →
      load8 dl (i * P + v * 32 + l) = zigzag_encode_i8 ((val i (32 * v + l) + 256
        - (if i = 0 then load8 dl (8 * P + v * 32 + l) else val (i - 1) (32 * v + l))) % 256)) :
    (∀ i l, i < 8 → l < 32 → 32 * v + l < D →
      load8 (deltaDecodeVec D P out v (m, dl)).1 (out + (i * D + v * 32) + l)
        = val i (32 * v + l)) ∧
    (∀ a, (∀ i, i < 8 → ¬ (out + (i * D + v * 32) ≤ a ∧ a < out + (i * D + v * 32) + 32)) →
      load8 (deltaDecodeVec D P out v (m, dl)).1 a = load8 m a) ∧
    (∀ l, l < 32 → 32 * v + l < D →
      load8 (deltaDecodeVec D P out v (m, dl)).2 (8 * P + v * 32 + l) = val 7 (32 * v + l)) ∧
    (∀ a, ¬ (8 * P + v * 32 ≤ a ∧ a < 8 * P + v * 32 + 32) →
      load8 (deltaDecodeVec D P out v (m, dl)).2 a = load8 dl a) := by
  obtain ⟨r1, r2, r3, r4⟩ := deltaDecodeRows_spec D P out v dl m val hval hdl 8 (le_refl _)
  refine ⟨r3, r4, ?_, ?_⟩
  · intro l hl hd
    show load8 (mm256_storeu_si256 dl (8 * P + v * 32) (deltaDecodeRows D P out v dl 8 m).2.2)
      (8 * P + v * 32 + l) = _
    rw [load8_storeu, if_pos ⟨by omega, by omega⟩, Nat.add_sub_cancel_left, r2 (by omega),
      r1 l hl hd, if_neg (by omega)]
    exact Nat.mod_eq_of_lt (hval _ _)
  · intro a ha
    show load8 (mm256_storeu_si256 dl (8 * P + v * 32) (deltaDecodeRows D P out v dl 8 m).2.2) a
      = _
    rw [load8_storeu, if_neg ha]

/-- The vector loop of "undo delta coding", last vector first: a lane that a
later store overwrites belongs to a vector that is decoded later. -/
theorem deltaDecodeLoop_spec (D P out : Nat) (val : Nat → Nat → Nat)
    (hval : ∀ i d, val i d < 256) (n : Nat) (hn : 32 * n ≤ P) (m dl : Mem)
    (hdl : ∀ i d, i < 8 → d < D → d < 32 * n →
      load8 dl (i * P + d) = zigzag_encode_i8 ((val i d + 256
        - (if i = 0 then load8 dl (8 * P + d) else val (i - 1) d)) % 256)) :
    (∀ i d, i < 8 → d < D → d < 32 * n →
      load8 (forLoopDown n (deltaDecodeVec D P out) (m, dl)).1 (out + i * D + d) = val i d) ∧
    (∀ a, (∀ v i, v < n → i < 8 → ¬ (out + i * D + 32 * v ≤ a ∧ a < out + i * D + 32 * v + 32)) →
      load8 (forLoopDown n (deltaDecodeVec D P out) (m, dl)).1 a = load8 m a) ∧
    (∀ d, d < D → d < 32 * n →
      load8 (forLoopDown n (deltaDecodeVec D P out) (m, dl)).2 (8 * P + d) = val 7 d) ∧
    (∀ a, (a < 8 * P ∨ 8 * P + 32 * n ≤ a) →
      load8 (forLoopDown n (deltaDecodeVec D P out) (m, dl)).2 a = load8 dl a) := by
  induction n generalizing m dl with
  | zero =>
    exact ⟨fun i d _ _ h => by omega, fun a _ => rfl, fun d _ h => by omega, fun a _ => rfl⟩
  | succ n ih =>
    obtain ⟨v1, v2, v3, v4⟩ := deltaDecodeVec_spec D P out n dl m val hval
      (fun i l hi hl hd => by
        have := hdl i (32 * n + l) hi hd (by omega)
        rw [show i * P + n * 32 + l = i * P + (32 * n + l) from by omega,
          show 8 * P + n * 32 + l = 8 * P + (32 * n + l) from by omega]
        exact this)
    have hrow : ∀ i, i < 8 → i * P + P ≤ 8 * P := by
      intro i hi
      have := Nat.mul_le_mul_right P (show i + 1 ≤ 8 by omega)
      rw [Nat.add_mul, Nat.one_mul] at this
      exact this
    obtain ⟨i1, i2, i3, i4⟩ := ih (by omega) (deltaDecodeVec D P out n (m, dl)).1
      (deltaDecodeVec D P out n (m, dl)).2
      (fun i d hi hd hdn => by
        have h := hrow i hi
        rw [v4 (i * P + d) (by omega), v4 (8 * P + d) (by omega)]
        exact hdl i d hi hd (by omega))
    rw [Prod.mk.eta] at i1 i2 i3 i4
    simp only [forLoopDown]
    have hmul : ∀ i i2 : Nat, i < i2 → i * D + D ≤ i2 * D := by
      intro i i2 h
      have := Nat.mul_le_mul_right D (show i + 1 ≤ i2 by omega)
      rw [Nat.add_mul, Nat.one_mul] at this
      exact this
    refine ⟨?_, ?_, ?_, ?_⟩
    · intro i d hi hd hdn
      by_cases c : d < 32 * n
      · exact i1 i d hi hd c
      · have hfr := i2 (out + i * D + d) (by
          intro v i' hv hi'
          rcases Nat.lt_or_ge i i' with h | h
          · have := hmul i i' h
            omega
          · have : i' * D ≤ i * D := Nat.mul_le_mul_right D h
            omega)
        have hw := v1 i (d - 32 * n) hi (by omega) (by omega)
        rw [show out + (i * D + n * 32) + (d - 32 * n) = out + i * D + d from by omega,
          show 32 * n + (d - 32 * n) = d from by omega] at hw
        exact hfr.trans hw
    · intro a ha
      rw [i2 a (fun v i hv hi => ha v i (by omega) hi)]
      apply v2
      intro i hi
      have := ha n i (by omega) hi
      omega
    · intro d hd hdn
      by_cases c : d < 32 * n
      · exact i3 d hd c
      · rw [i4 (8 * P + d) (Or.inr (by omega))]
        have hw := v3 (d - 32 * n) (by omega) (by omega)
        rw [show 8 * P + n * 32 + (d - 32 * n) = 8 * P + d from by omega,
          show 32 * n + (d - 32 * n) = d from by omega] at hw
        exact hw
    · intro a ha
      rw [i4 a (by omega)]
      apply v4
      omega

/-- "Undo delta coding" on a `deltas` buffer that holds the zig-zag deltas of
the values `val` in its rows `0..7` and the values before the block in row
`8`: the values are written to the destination, the last row to row `8`. -/
theorem deltaDecodeBlock_spec (D out : Nat) (m dl : Mem) (val : Nat → Nat → Nat)
    (hval : ∀ i d, val i d < 256)
    (hdl : ∀ i d, i < 8 → d < D →
      load8 dl (i * round_up_to_multiple D 32 + d) = zigzag_encode_i8 ((val i d + 256
        - (if i = 0 then load8 dl (8 * round_up_to_multiple D 32 + d) else val (i - 1) d))
          % 256)) :
    (∀ i d, i < 8 → d < D →
      load8 (deltaDecodeBlock D (round_up_to_multiple D 32)
        (round_up_to_multiple D 32 / 32) out (m, dl)).1 (out + i * D + d) = val i d) ∧
    (∀ a, a < out →
      load8 (deltaDecodeBlock D (round_up_to_multiple D 32)
        (round_up_to_multiple D 32 / 32) out (m, dl)).1 a = load8 m a) ∧
    (∀ d, d < D →
      load8 (deltaDecodeBlock D (round_up_to_multiple D 32)
        (round_up_to_multiple D 32 / 32) out (m, dl)).2 (8 * round_up_to_multiple D 32 + d)
        = val 7 d) := by
  have h32 := round_up_32 D
  obtain ⟨b1, b2, b3, _⟩ := deltaDecodeLoop_spec D (round_up_to_multiple D 32) out val hval
    (round_up_to_multiple D 32 / 32) (Nat.mul_div_le _ _) m dl
    (fun i d hi hd _ => hdl i d hi hd)
  rw [deltaDecodeBlock_eq]
  exact ⟨fun i d hi hd => b1 i d hi hd (by omega),
    fun a ha => b2 a (fun v i _ _ => by omega),
    fun d hd => b3 d hd (by omega)⟩

/-! ## The stream written by `compress8b_rowmajor_delta` -/

theorem deltaStripeStats_fst_eq (T : Nat → Nat) (src : Mem) (p D : Nat) (dl : Mem) :
    (deltaStripeStats T src p D dl).1 = statsOf T (deltaMaskOf src p D dl) D := by
  rw [deltaStripeStats_eq]

theorem deltaBlock_hbo (T : Nat → Nat) (src : Mem) (D header_dest : Nat)
    (s : DeltaEncState × Nat) (h : s.2 + 3 * D < 2 ^ 19) :
    (deltaBlock T src D (nstripesOf D) header_dest s).2 = s.2 + 3 * D := by
  show (writeBlockHeader (deltaStripeStats T src s.1.enc.src D s.1.deltas).1.stripe_headers D
    (nstripesOf D) header_dest (s.1.enc.mem, s.2)).2 = _
  rw [deltaStripeStats_fst_eq]
  exact (writeBlockHeader_bits T _ D header_dest s.2 s.1.enc.mem h).1

/-- The destination after one pass of the group loop of
`compress8b_rowmajor_delta`. -/
theorem deltaGroup_mem (T : Nat → Nat) (src : Mem) (D : Nat) (s : DeltaEncState)
    (hD2 : D < 65536) :
    (deltaGroup T src D (nstripesOf D) (headerBytesOf D) s).enc.mem =
      encodeBlockMem
        (statsOf T (deltaMaskOf src (s.enc.src + 8 * D) D
          (deltaStripeStats T src s.enc.src D s.deltas).2) D) D (nstripesOf D)
        s.enc.dest (3 * D)
        (deltaStripeStats T src (s.enc.src + 8 * D) D
          (deltaStripeStats T src s.enc.src D s.deltas).2).2 0 D
        (s.enc.dest + headerBytesOf D
          + 8 * rowBytesOf (statsOf T (deltaMaskOf src s.enc.src D s.deltas) D) (nstripesOf D))
        (encodeBlockMem (statsOf T (deltaMaskOf src s.enc.src D s.deltas) D) D (nstripesOf D)
          s.enc.dest 0 (deltaStripeStats T src s.enc.src D s.deltas).2 0 D
          (s.enc.dest + headerBytesOf D)
          (memset0 s.enc.mem s.enc.dest (headerBytesOf D))) := by
  rw [deltaGroup_unfold, deltaBlock_mem, deltaBlock_hbo _ _ _ _ _ (by norm_num; omega),
    deltaBlock_src, deltaBlock_dest, deltaBlock_deltas, deltaBlock_mem]
  simp only [Nat.zero_add, deltaStripeStats_fst_eq]

theorem deltaGroup_deltas (T : Nat → Nat) (src : Mem) (D nstripes thb : Nat)
    (s : DeltaEncState) :
    (deltaGroup T src D nstripes thb s).deltas =
      (deltaStripeStats T src (s.enc.src + 8 * D) D
        (deltaStripeStats T src s.enc.src D s.deltas).2).2 := by
  rw [deltaGroup_unfold, deltaBlock_deltas, deltaBlock_deltas, deltaBlock_src]

theorem deltaLoop_mono_dest (T : Nat → Nat) (src : Mem) (len : Nat) (dest : Mem) (D : Nat)
    (write_size : Bool) (g g2 : Nat) (h : g ≤ g2) :
    (deltaLoop T src len dest D write_size g).enc.dest ≤
      (deltaLoop T src len dest D write_size g2).enc.dest := by
  induction g2 with
  | zero =>
    have : g = 0 := by omega
    rw [this]
  | succ g2 ih =>
    by_cases e : g = g2 + 1
    · rw [e]
    · have := ih (by omega)
      rw [deltaLoop_succ, deltaGroup_dest]
      omega

/-- Later passes of the group loop leave the groups already written alone. -/
theorem deltaLoop_keeps (T : Nat → Nat) (src : Mem) (len : Nat) (dest : Mem) (D : Nat)
    (write_size : Bool) (g g2 : Nat) (h : g ≤ g2) (k : Nat)
    (hk : k < (deltaLoop T src len dest D write_size g).enc.dest) :
    load8 (deltaLoop T src len dest D write_size g2).enc.mem k =
      load8 (deltaLoop T src len dest D write_size g).enc.mem k := by
  induction g2 with
  | zero =>
    have : g = 0 := by omega
    rw [this]
  | succ g2 ih =>
    by_cases e : g = g2 + 1
    · rw [e]
    · have hm := deltaLoop_mono_dest T src len dest D write_size g g2 (by omega)
      rw [deltaLoop_succ, deltaGroup_below _ _ _ _ _ _ _ (by omega), ih (by omega)]

theorem deltaMaskOf_pop (T : Nat → Nat) (hT : TablePop T) (src : Mem) (p D : Nat) (dl : Mem)
    (d : Nat) (hd : d < D) :
    popcountAux 8 (maskOf T (deltaMaskOf src p D dl) d)
      = maxNbits (maskOf T (deltaMaskOf src p D dl) d) :=
  hT _ (deltaMaskOf_lt src p D dl d hd)

/-- Every group of the input is in the state of the loop once its pass is done. -/
theorem deltaLoop_blocks (T : Nat → Nat) (hT : TablePop T) (src : Mem) (len : Nat) (dest : Mem)
    (D : Nat) (write_size : Bool) (hD1 : 1 ≤ D) (hD2 : D < 65536) (g g2 : Nat) (h : g < g2) :
    BlockInStream (deltaLoop T src len dest D write_size g2).enc.mem T
      (deltaMaskOf src (g * (16 * D)) D (deltaLoop T src len dest D write_size g).deltas) D
      (deltaStripeStats T src (g * (16 * D)) D
        (deltaLoop T src len dest D write_size g).deltas).2 0 D
      (8 * (deltaLoop T src len dest D write_size g).enc.dest)
      ((deltaLoop T src len dest D write_size g).enc.dest + headerBytesOf D) ∧
    BlockInStream (deltaLoop T src len dest D write_size g2).enc.mem T
      (deltaMaskOf src (g * (16 * D) + 8 * D) D
        (deltaStripeStats T src (g * (16 * D)) D
          (deltaLoop T src len dest D write_size g).deltas).2) D
      (deltaStripeStats T src (g * (16 * D) + 8 * D) D
        (deltaStripeStats T src (g * (16 * D)) D
          (deltaLoop T src len dest D write_size g).deltas).2).2 0 D
      (8 * (deltaLoop T src len dest D write_size g).enc.dest + 3 * D)
      ((deltaLoop T src len dest D write_size g).enc.dest + headerBytesOf D
        + 8 * rowBytesOf (statsOf T (deltaMaskOf src (g * (16 * D)) D
            (deltaLoop T src len dest D write_size g).deltas) D) (nstripesOf D)) := by
  have hg := encodeGroup_bits T
    (deltaMaskOf src (g * (16 * D)) D (deltaLoop T src len dest D write_size g).deltas)
    (deltaMaskOf src (g * (16 * D) + 8 * D) D
      (deltaStripeStats T src (g * (16 * D)) D
        (deltaLoop T src len dest D write_size g).deltas).2) D
    (deltaLoop T src len dest D write_size g).enc.dest
    (deltaStripeStats T src (g * (16 * D)) D
      (deltaLoop T src len dest D write_size g).deltas).2 0 D
    (deltaStripeStats T src (g * (16 * D) + 8 * D) D
      (deltaStripeStats T src (g * (16 * D)) D
        (deltaLoop T src len dest D write_size g).deltas).2).2 0 D
    (deltaLoop T src len dest D write_size g).enc.mem hD1 hD2
    (fun d hd => deltaMaskOf_pop T hT _ _ _ _ d hd)
    (fun d hd => deltaMaskOf_pop T hT _ _ _ _ d hd)
  have hmem := deltaGroup_mem T src D (deltaLoop T src len dest D write_size g) hD2
  rw [deltaLoop_src] at hmem
  rw [← hmem, ← deltaLoop_succ] at hg
  have hend : (deltaLoop T src len dest D write_size (g + 1)).enc.dest =
      (deltaLoop T src len dest D write_size g).enc.dest + headerBytesOf D
        + 8 * rowBytesOf (statsOf T (deltaMaskOf src (g * (16 * D)) D
            (deltaLoop T src len dest D write_size g).deltas) D) (nstripesOf D)
        + 8 * rowBytesOf (statsOf T (deltaMaskOf src (g * (16 * D) + 8 * D) D
            (deltaStripeStats T src (g * (16 * D)) D
              (deltaLoop T src len dest D write_size g).deltas).2) D) (nstripesOf D) := by
    rw [deltaLoop_succ, deltaGroup_dest, deltaLoop_src, deltaStripeStats_fst_eq,
      deltaStripeStats_fst_eq]
  have hhb := headerBytesOf_ge D
  have hkeep := fun k hk => deltaLoop_keeps T src len dest D write_size (g + 1) g2 (by omega) k hk
  exact ⟨BlockInStream_congr _ _ _ _ _ _ _ _ _ _ _ hg.1 (by omega) (by omega) hkeep,
    BlockInStream_congr _ _ _ _ _ _ _ _ _ _ _ hg.2 (by omega) (by omega) hkeep⟩

/-! ## One block of `decompress8b_rowmajor_delta` -/

theorem round_up_32_mod (x : Nat) : round_up_to_multiple x 32 % 32 = 0 := by
  unfold round_up_to_multiple
  split_ifs <;> omega

theorem round_up_32_ge (x : Nat) : x ≤ round_up_to_multiple x 32 := by
  unfold round_up_to_multiple
  split_ifs <;> omega

theorem nvectors_eq (D : Nat) :
    round_up_to_multiple D vector_sz / vector_sz
      + (if round_up_to_multiple D vector_sz % vector_sz > 0 then 1 else 0)
      = round_up_to_multiple D 32 / 32 := by
  have := round_up_32_mod D
  simp only [vector_sz]
  rw [if_neg (by omega)]
  rfl

theorem stripes_le_padded (D : Nat) : 8 * nstripesOf D ≤ round_up_to_multiple D 32 := by
  unfold round_up_to_multiple nstripesOf stripe_sz
  split_ifs <;> omega

/-- Unpacking a block touches only the eight-byte words of its stripes. -/
theorem unpackBlock_frame (masks w : Nat → Nat) (offs : Arr) (ns : Nat) (src : Mem)
    (inp rb out stride : Nat) (outbuf : Mem) (k : Nat)
    (hk : ∀ s i, s < ns → i < 8 →
      ¬ (out + s * 8 + i * stride ≤ k ∧ k < out + s * 8 + i * stride + 8)) :
    load8 (unpackBlock masks w offs ns src inp rb out stride outbuf) k = load8 outbuf k := by
  unfold unpackBlock
  apply forLoopDown_inv (fun x : Mem => load8 x k = load8 outbuf k)
  · rfl
  · intro s x hs hx
    simp only []
    split_ifs
    · apply forLoop_inv (fun y : Mem => load8 y k = load8 outbuf k)
      · exact hx
      · intro i y hi hy
        show load8 (storeLE 8 y (out + s * 8 + i * stride) _) k = _
        rw [load8_storeLE, if_neg (hk s i hs hi), hy]
    · apply forLoop_inv (fun y : Mem => load8 y k = load8 outbuf k)
      · exact hx
      · intro i y hi hy
        show load8 (storeLE 8 y (out + s * 8 + i * stride) _) k = _
        rw [load8_storeLE, if_neg (hk s i hs hi), hy]

theorem deltaDecBlock_eq (T dm : Nat → Nat) (D : Nat) (hD1 : 1 ≤ D) (cm : Mem) (b : Nat)
    (s : DeltaDecState)
    (hw2 : ∀ k, k < nstripesOf D →
      loadLE 8 s.dec.tm.stripe_bitwidths (8 * (b * nstripesOf D + k))
        = (statsOf T dm D).stripe_bitwidths.get k) :
    deltaDecBlock (decDims D) (round_up_to_multiple D 32) (round_up_to_multiple D 32 / 32) cm b s =
      ⟨⟨s.dec.src + 8 * rowBytesOf (statsOf T dm D) (nstripesOf D), s.dec.dest + 8 * D,
        (deltaDecodeBlock D (round_up_to_multiple D 32) (round_up_to_multiple D 32 / 32)
          s.dec.dest (s.dec.mem,
            unpackBlock (fun k => loadLE 8 s.dec.tm.data_masks (8 * (b * nstripesOf D + k)))
              (fun k => loadLE 8 s.dec.tm.stripe_bitwidths (8 * (b * nstripesOf D + k)))
              (stripeBitoffsets
                (fun k => loadLE 8 s.dec.tm.stripe_bitwidths (8 * (b * nstripesOf D + k)))
                (nstripesOf D))
              (nstripesOf D) cm s.dec.src (rowBytesOf (statsOf T dm D) (nstripesOf D)) 0
              (round_up_to_multiple D 32) s.deltas)).1,
        s.dec.tm⟩,
        (deltaDecodeBlock D (round_up_to_multiple D 32) (round_up_to_multiple D 32 / 32)
          s.dec.dest (s.dec.mem,
            unpackBlock (fun k => loadLE 8 s.dec.tm.data_masks (8 * (b * nstripesOf D + k)))
              (fun k => loadLE 8 s.dec.tm.stripe_bitwidths (8 * (b * nstripesOf D + k)))
              (stripeBitoffsets
                (fun k => loadLE 8 s.dec.tm.stripe_bitwidths (8 * (b * nstripesOf D + k)))
                (nstripesOf D))
              (nstripesOf D) cm s.dec.src (rowBytesOf (statsOf T dm D) (nstripesOf D)) 0
              (round_up_to_multiple D 32) s.deltas)).2⟩ := by
  have hrb := dec_row_nbytes T dm D hD1
    (fun k => loadLE 8 s.dec.tm.stripe_bitwidths (8 * (b * nstripesOf D + k))) hw2
  unfold deltaDecBlock
  have e1 : (decDims D).nstripes = nstripesOf D := rfl
  have e2 : (decDims D).ndims = D := rfl
  simp only [e1, e2, block_sz]
  rw [hrb]

/-- One block of `decompress8b_rowmajor_delta` on a stream that holds the
zig-zag deltas of the values `val`, the `deltas` buffer holding the values
before the block in its row `8`. -/
theorem deltaDecBlock_spec (T dm : Nat → Nat) (D : Nat) (inbuf : Mem) (cm : Mem)
    (hdrbit b : Nat) (s : DeltaDecState) (val : Nat → Nat → Nat) (hD1 : 1 ≤ D) (hD2 : D < 65536)
    (hok : ∀ d, d < D → maskOf T dm d ∈ okMasks)
    (hcov : ∀ i d, i < 8 → d < D →
      load8 inbuf (0 + i * D + d) &&& maskOf T dm d = load8 inbuf (0 + i * D + d))
    (hs : BlockInStream cm T dm D inbuf 0 D hdrbit s.dec.src)
    (hm2 : ∀ k, k < nstripesOf D →
      loadLE 8 s.dec.tm.data_masks (8 * (b * nstripesOf D + k))
        = (statsOf T dm D).stripe_masks.get k)
    (hw2 : ∀ k, k < nstripesOf D →
      loadLE 8 s.dec.tm.stripe_bitwidths (8 * (b * nstripesOf D + k))
        = (statsOf T dm D).stripe_bitwidths.get k)
    (hval : ∀ i d, val i d < 256)
    (hin : ∀ i d, i < 8 → d < D →
      load8 inbuf (0 + i * D + d) = zigzag_encode_i8 ((val i d + 256
        - (if i = 0 then load8 s.deltas (8 * round_up_to_multiple D 32 + d)
            else val (i - 1) d)) % 256)) :
    (deltaDecBlock (decDims D) (round_up_to_multiple D 32) (round_up_to_multiple D 32 / 32)
        cm b s).dec.src = s.dec.src + 8 * rowBytesOf (statsOf T dm D) (nstripesOf D) ∧
    (deltaDecBlock (decDims D) (round_up_to_multiple D 32) (round_up_to_multiple D 32 / 32)
        cm b s).dec.dest = s.dec.dest + 8 * D ∧
    (deltaDecBlock (decDims D) (round_up_to_multiple D 32) (round_up_to_multiple D 32 / 32)
        cm b s).dec.tm = s.dec.tm ∧
    (∀ k, k < s.dec.dest →
      load8 (deltaDecBlock (decDims D) (round_up_to_multiple D 32)
        (round_up_to_multiple D 32 / 32) cm b s).dec.mem k = load8 s.dec.mem k) ∧
    (∀ i d, i < 8 → d < D →
      load8 (deltaDecBlock (decDims D) (round_up_to_multiple D 32)
        (round_up_to_multiple D 32 / 32) cm b s).dec.mem (s.dec.dest + i * D + d) = val i d) ∧
    (∀ d, d < D →
      load8 (deltaDecBlock (decDims D) (round_up_to_multiple D 32)
        (round_up_to_multiple D 32 / 32) cm b s).deltas (8 * round_up_to_multiple D 32 + d)
        = val 7 d) := by
  rw [deltaDecBlock_eq T dm D hD1 cm b s hw2]
  have hP := round_up_32_ge D
  have hS := stripes_le_padded D
  have hun : ∀ i d, i < 8 → d < D →
      load8 (unpackBlock (fun k => loadLE 8 s.dec.tm.data_masks (8 * (b * nstripesOf D + k)))
        (fun k => loadLE 8 s.dec.tm.stripe_bitwidths (8 * (b * nstripesOf D + k)))
        (stripeBitoffsets
          (fun k => loadLE 8 s.dec.tm.stripe_bitwidths (8 * (b * nstripesOf D + k)))
          (nstripesOf D))
        (nstripesOf D) cm s.dec.src (rowBytesOf (statsOf T dm D) (nstripesOf D)) 0
        (round_up_to_multiple D 32) s.deltas) (i * round_up_to_multiple D 32 + d)
      = load8 inbuf (0 + i * D + d) := by
    intro i d hi hd
    have := unpackBlock_of_stream T dm D inbuf 0 D cm hdrbit s.dec.src _ _ 0
      (round_up_to_multiple D 32) s.deltas hD1 hD2 hok hcov hs hm2 hw2 hP i d hi hd
    rw [Nat.zero_add] at this
    exact this
  have hfr : ∀ d,
      load8 (unpackBlock (fun k => loadLE 8 s.dec.tm.data_masks (8 * (b * nstripesOf D + k)))
        (fun k => loadLE 8 s.dec.tm.stripe_bitwidths (8 * (b * nstripesOf D + k)))
        (stripeBitoffsets
          (fun k => loadLE 8 s.dec.tm.stripe_bitwidths (8 * (b * nstripesOf D + k)))
          (nstripesOf D))
        (nstripesOf D) cm s.dec.src (rowBytesOf (statsOf T dm D) (nstripesOf D)) 0
        (round_up_to_multiple D 32) s.deltas) (8 * round_up_to_multiple D 32 + d)
      = load8 s.deltas (8 * round_up_to_multiple D 32 + d) := by
    intro d
    apply unpackBlock_frame
    intro st i hst hi
    have := Nat.mul_le_mul_right (round_up_to_multiple D 32) (show i + 1 ≤ 8 by omega)
    rw [Nat.add_mul, Nat.one_mul] at this
    omega
  obtain ⟨b1, b2, b3⟩ := deltaDecodeBlock_spec D s.dec.dest s.dec.mem
    (unpackBlock (fun k => loadLE 8 s.dec.tm.data_masks (8 * (b * nstripesOf D + k)))
        (fun k => loadLE 8 s.dec.tm.stripe_bitwidths (8 * (b * nstripesOf D + k)))
        (stripeBitoffsets
          (fun k => loadLE 8 s.dec.tm.stripe_bitwidths (8 * (b * nstripesOf D + k)))
          (nstripesOf D))
        (nstripesOf D) cm s.dec.src (rowBytesOf (statsOf T dm D) (nstripesOf D)) 0
        (round_up_to_multiple D 32) s.deltas) val hval
    (fun i d hi hd => by rw [hun i d hi hd, hfr d]; exact hin i d hi hd)
  exact ⟨rfl, rfl, rfl, b2, b1, b3⟩

/-! ## One group of `decompress8b_rowmajor_delta` -/

theorem deltaDecGroup_unfold (dd : DecDims) (P nv : Nat) (cm : Mem) (s : DeltaDecState) :
    deltaDecGroup dd P nv cm s =
      deltaDecBlock dd P nv cm 1 (deltaDecBlock dd P nv cm 0
        ⟨⟨s.dec.src + dd.total_header_bytes, s.dec.dest, s.dec.mem,
          readGroupHeader dd cm s.dec.src s.dec.tm⟩, s.deltas⟩) := by
  unfold deltaDecGroup
  simp only [group_sz_blocks, kDefaultGroupSzBlocks, forLoop]

/-- One pass of the group loop of `decompress8b_rowmajor_delta` on a stream
that holds the zig-zag deltas of two blocks of values: both blocks are written
to the destination, and row `8` of `deltas` holds the last row. -/
theorem deltaDecGroup_spec (T dm0 dm1 : Nat → Nat) (D : Nat) (inbuf0 inbuf1 : Mem)
    (cm : Mem) (s : DeltaDecState) (val0 val1 : Nat → Nat → Nat) (hD1 : 1 ≤ D) (hD2 : D < 65536)
    (hok0 : ∀ d, d < D → maskOf T dm0 d ∈ okMasks)
    (hok1 : ∀ d, d < D → maskOf T dm1 d ∈ okMasks)
    (hcov0 : ∀ i d, i < 8 → d < D →
      load8 inbuf0 (0 + i * D + d) &&& maskOf T dm0 d = load8 inbuf0 (0 + i * D + d))
    (hcov1 : ∀ i d, i < 8 → d < D →
      load8 inbuf1 (0 + i * D + d) &&& maskOf T dm1 d = load8 inbuf1 (0 + i * D + d))
    (hb0 : BlockInStream cm T dm0 D inbuf0 0 D (8 * s.dec.src) (s.dec.src + headerBytesOf D))
    (hb1 : BlockInStream cm T dm1 D inbuf1 0 D (8 * s.dec.src + 3 * D)
      (s.dec.src + headerBytesOf D + 8 * rowBytesOf (statsOf T dm0 D) (nstripesOf D)))
    (hpad : HeadersPadded D s.dec.tm.headers)
    (hval0 : ∀ i d, val0 i d < 256) (hval1 : ∀ i d, val1 i d < 256)
    (hin0 : ∀ i d, i < 8 → d < D →
      load8 inbuf0 (0 + i * D + d) = zigzag_encode_i8 ((val0 i d + 256
        - (if i = 0 then load8 s.deltas (8 * round_up_to_multiple D 32 + d)
            else val0 (i - 1) d)) % 256))
    (hin1 : ∀ i d, i < 8 → d < D →
      load8 inbuf1 (0 + i * D + d) = zigzag_encode_i8 ((val1 i d + 256
        - (if i = 0 then val0 7 d else val1 (i - 1) d)) % 256)) :
    (deltaDecGroup (decDims D) (round_up_to_multiple D 32) (round_up_to_multiple D 32 / 32)
        cm s).dec.src =
      s.dec.src + headerBytesOf D + 8 * rowBytesOf (statsOf T dm0 D) (nstripesOf D)
        + 8 * rowBytesOf (statsOf T dm1 D) (nstripesOf D) ∧
    (deltaDecGroup (decDims D) (round_up_to_multiple D 32) (round_up_to_multiple D 32 / 32)
        cm s).dec.dest = s.dec.dest + 16 * D ∧
    HeadersPadded D (deltaDecGroup (decDims D) (round_up_to_multiple D 32)
        (round_up_to_multiple D 32 / 32) cm s).dec.tm.headers ∧
    (∀ k, k < s.dec.dest →
      load8 (deltaDecGroup (decDims D) (round_up_to_multiple D 32)
        (round_up_to_multiple D 32 / 32) cm s).dec.mem k = load8 s.dec.mem k) ∧
    (∀ i d, i < 8 → d < D →
      load8 (deltaDecGroup (decDims D) (round_up_to_multiple D 32)
        (round_up_to_multiple D 32 / 32) cm s).dec.mem (s.dec.dest + i * D + d) = val0 i d) ∧
    (∀ i d, i < 8 → d < D →
      load8 (deltaDecGroup (decDims D) (round_up_to_multiple D 32)
        (round_up_to_multiple D 32 / 32) cm s).dec.mem (s.dec.dest + 8 * D + i * D + d)
        = val1 i d) ∧
    (∀ d, d < D →
      load8 (deltaDecGroup (decDims D) (round_up_to_multiple D 32)
        (round_up_to_multiple D 32 / 32) cm s).deltas (8 * round_up_to_multiple D 32 + d)
        = val1 7 d) := by
  have hspec := readGroupHeader_spec T (fun b => if b = 0 then dm0 else dm1) D cm s.dec.src
    s.dec.tm hD1
    (by
      intro b d hb hd
      have : b = 0 ∨ b = 1 := by omega
      rcases this with rfl | rfl
      · exact hok0 d hd
      · exact hok1 d hd)
    (by
      intro b d j hb hd hj
      have : b = 0 ∨ b = 1 := by omega
      rcases this with rfl | rfl
      · have := hb0.1 d j hd hj
        simp only [Nat.zero_mul, Nat.zero_add, if_true]
        exact this
      · have := hb1.1 d j hd hj
        simp only [Nat.one_mul, if_neg (show ¬ (1 : Nat) = 0 from by omega)]
        rw [show 8 * s.dec.src + 3 * (D + d) + j = 8 * s.dec.src + 3 * D + 3 * d + j from by ring]
        exact this)
    hpad
  obtain ⟨hpad2, hwords⟩ := hspec
  have hw0 := fun k hk => (hwords 0 k (by omega) hk)
  have hw1 := fun k hk => (hwords 1 k (by omega) hk)
  simp only [if_true, if_neg (show ¬ (1 : Nat) = 0 from by omega)] at hw0 hw1
  have e3 : (decDims D).total_header_bytes = headerBytesOf D := rfl
  rw [deltaDecGroup_unfold, e3]
  obtain ⟨a1, a2, a3, a4, a5, a6⟩ := deltaDecBlock_spec T dm0 D inbuf0 cm (8 * s.dec.src) 0
    ⟨⟨s.dec.src + headerBytesOf D, s.dec.dest, s.dec.mem,
      readGroupHeader (decDims D) cm s.dec.src s.dec.tm⟩, s.deltas⟩ val0
    hD1 hD2 hok0 hcov0 hb0 (fun k hk => (hw0 k hk).1) (fun k hk => (hw0 k hk).2) hval0 hin0
  generalize deltaDecBlock (decDims D) (round_up_to_multiple D 32)
    (round_up_to_multiple D 32 / 32) cm 0
    ⟨⟨s.dec.src + headerBytesOf D, s.dec.dest, s.dec.mem,
      readGroupHeader (decDims D) cm s.dec.src s.dec.tm⟩, s.deltas⟩ = r0
    at a1 a2 a3 a4 a5 a6 ⊢
  have a1b : r0.dec.src = s.dec.src + headerBytesOf D
      + 8 * rowBytesOf (statsOf T dm0 D) (nstripesOf D) := a1
  have a2b : r0.dec.dest = s.dec.dest + 8 * D := a2
  have a3b : r0.dec.tm = readGroupHeader (decDims D) cm s.dec.src s.dec.tm := a3
  have a4b : ∀ k, k < s.dec.dest → load8 r0.dec.mem k = load8 s.dec.mem k := a4
  have a5b : ∀ i d, i < 8 → d < D → load8 r0.dec.mem (s.dec.dest + i * D + d) = val0 i d := a5
  obtain ⟨c1, c2, c3, c4, c5, c6⟩ := deltaDecBlock_spec T dm1 D inbuf1 cm
    (8 * s.dec.src + 3 * D) 1 r0 val1
    hD1 hD2 hok1 hcov1 (by rw [a1b]; exact hb1)
    (fun k hk => by rw [a3b]; exact (hw1 k hk).1) (fun k hk => by rw [a3b]; exact (hw1 k hk).2)
    hval1
    (fun i d hi hd => by
      have := hin1 i d hi hd
      by_cases hi0 : i = 0
      · rw [if_pos hi0, a6 d hd]
        rw [if_pos hi0] at this
        exact this
      · rw [if_neg hi0]
        rw [if_neg hi0] at this
        exact this)
  refine ⟨by rw [c1, a1b], by rw [c2, a2b]; omega, by rw [c3, a3b]; exact hpad2, ?_, ?_, ?_, c6⟩
  · intro k hk
    rw [c4 k (by omega), a4b k hk]
  · intro i d hi hd
    have hlt : i * D + d < 8 * D := by nlinarith
    rw [c4 _ (by omega), a5b i d hi hd]
  · intro i d hi hd
    rw [← a2b]
    exact c5 i d hi hd

/-! ## Round trip of `compress8b_rowmajor_delta` / `decompress8b_rowmajor_delta` -/

theorem decompress8b_rowmajor_delta_large (src dest : Mem) (L D : Nat)
    (hmd : read_metadata_8b src = (L, D)) (hL : 128 ≤ L) (hD1 : 1 ≤ D) :
    decompress8b_rowmajor_delta src dest =
      Outcome.returned
        (memcpy (deltaDecLoop src dest D (L / (16 * D))).dec.mem
          (deltaDecLoop src dest D (L / (16 * D))).dec.dest src
          (deltaDecLoop src dest D (L / (16 * D))).dec.src
          ((L - (deltaDecLoop src dest D (L / (16 * D))).dec.dest) % 2 ^ 32))
        ((deltaDecLoop src dest D (L / (16 * D))).dec.dest
          + (L - (deltaDecLoop src dest D (L / (16 * D))).dec.dest) % 2 ^ 32) := by
  unfold decompress8b_rowmajor_delta
  simp only [hmd]
  have h1 : ¬ L < 8 * block_sz * group_sz_blocks := by
    simp only [block_sz, group_sz_blocks, kDefaultGroupSzBlocks]; omega
  have h2 : ¬ D = 0 := by omega
  have e : D * (block_sz * group_sz_blocks) = 16 * D := by
    simp only [block_sz, group_sz_blocks, kDefaultGroupSzBlocks]; omega
  simp only [h1, decide_False, Bool.false_eq_true, if_false, h2, e]
  rfl

theorem deltaDecLoop_succ (src dest : Mem) (D g : Nat) :
    deltaDecLoop src dest D (g + 1) =
      deltaDecGroup (decDims D) (round_up_to_multiple D 32) (round_up_to_multiple D 32 / 32)
        src (deltaDecLoop src dest D g) := by
  show deltaDecGroup (decDims D) (round_up_to_multiple D vector_sz)
      (round_up_to_multiple D vector_sz / vector_sz
        + (if round_up_to_multiple D vector_sz % vector_sz > 0 then 1 else 0)) src
      (deltaDecLoop src dest D g) = _
  rw [nvectors_eq]
  rfl

/-- The state of the decoder after `g` groups of a stream written by
`compress8b_rowmajor_delta`: it stands where the encoder stood, the first
`16 * D * g` bytes of the input are back, and both sides hold the same
previous values. -/
theorem deltaDecLoop_spec (T : Nat → Nat) (hT : TableOK T) (x dest : Mem) (L D : Nat)
    (hD1 : 1 ≤ D) (hD2 : D < 65536) (cm dest2 : Mem) (G : Nat)
    (hcm : ∀ k, k < (deltaLoop T x L dest D true G).enc.dest →
      load8 cm k = load8 (deltaLoop T x L dest D true G).enc.mem k) (g : Nat) (hg : g ≤ G) :
    (deltaDecLoop cm dest2 D g).dec.src = (deltaLoop T x L dest D true g).enc.dest ∧
    (deltaDecLoop cm dest2 D g).dec.dest = g * (16 * D) ∧
    HeadersPadded D (deltaDecLoop cm dest2 D g).dec.tm.headers ∧
    (∀ k, k < g * (16 * D) → load8 (deltaDecLoop cm dest2 D g).dec.mem k = load8 x k) ∧
    (∀ d, d < D →
      load8 (deltaDecLoop cm dest2 D g).deltas (8 * round_up_to_multiple D 32 + d)
        = load8 (deltaLoop T x L dest D true g).deltas (8 * D + d)) := by
  induction g with
  | zero =>
    exact ⟨rfl, by show (0 : Nat) = 0 * _; omega, HeadersPadded_zero D, fun k hk => by omega,
      fun d _ => rfl⟩
  | succ g ih =>
    obtain ⟨i1, i2, i3, i4, i5⟩ := ih (by omega)
    have hblocks := deltaLoop_blocks T (TableOK_pop T hT) x L dest D true hD1 hD2 g G (by omega)
    have hhb := headerBytesOf_ge D
    have hend : (deltaLoop T x L dest D true (g + 1)).enc.dest =
        (deltaLoop T x L dest D true g).enc.dest + headerBytesOf D
          + 8 * rowBytesOf (statsOf T (deltaMaskOf x (g * (16 * D)) D
              (deltaLoop T x L dest D true g).deltas) D) (nstripesOf D)
          + 8 * rowBytesOf (statsOf T (deltaMaskOf x (g * (16 * D) + 8 * D) D
              (deltaStripeStats T x (g * (16 * D)) D
                (deltaLoop T x L dest D true g).deltas).2) D) (nstripesOf D) := by
      rw [deltaLoop_succ, deltaGroup_dest, deltaLoop_src, deltaStripeStats_fst_eq,
        deltaStripeStats_fst_eq]
    have hdl : (deltaLoop T x L dest D true (g + 1)).deltas =
        (deltaStripeStats T x (g * (16 * D) + 8 * D) D
          (deltaStripeStats T x (g * (16 * D)) D (deltaLoop T x L dest D true g).deltas).2).2 := by
      rw [deltaLoop_succ, deltaGroup_deltas, deltaLoop_src]
    have hmono := deltaLoop_mono_dest T x L dest D true (g + 1) G (by omega)
    have hb0 := BlockInStream_congr _ cm _ _ _ _ _ _ _ _
      (deltaLoop T x L dest D true G).enc.dest hblocks.1 (by omega) (by omega) hcm
    have hb1 := BlockInStream_congr _ cm _ _ _ _ _ _ _ _
      (deltaLoop T x L dest D true G).enc.dest hblocks.2 (by omega) (by omega) hcm
    rw [← i1] at hb0 hb1
    obtain ⟨u1, u2⟩ := deltaStripeStats_buf T x (g * (16 * D)) D
      (deltaLoop T x L dest D true g).deltas
    obtain ⟨w1, w2⟩ := deltaStripeStats_buf T x (g * (16 * D) + 8 * D) D
      (deltaStripeStats T x (g * (16 * D)) D (deltaLoop T x L dest D true g).deltas).2
    obtain ⟨c1, c2, c3, c4, c5, c6, c7⟩ := deltaDecGroup_spec T _ _ D _ _ cm
      (deltaDecLoop cm dest2 D g)
      (fun i d => load8 x (g * (16 * D) + (i * D + d)))
      (fun i d => load8 x (g * (16 * D) + 8 * D + (i * D + d))) hD1 hD2
      (fun d hd => (maskOf_ok T _ hT d (deltaMaskOf_lt x _ D _ d hd)).1)
      (fun d hd => (maskOf_ok T _ hT d (deltaMaskOf_lt x _ D _ d hd)).1)
      (fun i d hi hd => by
        rw [Nat.zero_add, u1 i d hi hd]
        exact covered_deltaMaskOf T hT x _ D _ i d hi hd)
      (fun i d hi hd => by
        rw [Nat.zero_add, w1 i d hi hd]
        exact covered_deltaMaskOf T hT x _ D _ i d hi hd)
      hb0 hb1 i3 (fun _ _ => load8_lt _ _) (fun _ _ => load8_lt _ _)
      (fun i d hi hd => by
        rw [Nat.zero_add, u1 i d hi hd, i5 d hd]
        rfl)
      (fun i d hi hd => by
        rw [Nat.zero_add, w1 i d hi hd]
        simp only [deltaBits, u2 d hd])
    rw [deltaDecLoop_succ]
    refine ⟨by rw [c1, i1, hend], by rw [c2, i2]; ring, c3, ?_, ?_⟩
    · intro k hk
      by_cases h1 : k < g * (16 * D)
      · rw [c4 k (by omega), i4 k h1]
      · have hk2 : k - g * (16 * D) < 16 * D := by
          have : (g + 1) * (16 * D) = g * (16 * D) + 16 * D := by ring
          omega
        by_cases h2 : k - g * (16 * D) < 8 * D
        · obtain ⟨q1, q2, q3⟩ := block_offset D (k - g * (16 * D)) hD1 h2
          have := c5 _ _ q1 q2
          rw [i2] at this
          have e1 : k = g * (16 * D) + (k - g * (16 * D)) / D * D + (k - g * (16 * D)) % D := by
            omega
          exact (congrArg (load8 _) e1).trans (this.trans (congrArg (load8 x) (by omega)))
        · obtain ⟨q1, q2, q3⟩ := block_offset D (k - g * (16 * D) - 8 * D) hD1 (by omega)
          have := c6 _ _ q1 q2
          rw [i2] at this
          have e1 : k = g * (16 * D) + 8 * D + (k - g * (16 * D) - 8 * D) / D * D
              + (k - g * (16 * D) - 8 * D) % D := by omega
          exact (congrArg (load8 _) e1).trans (this.trans (congrArg (load8 x) (by omega)))
    · intro d hd
      exact (c7 d hd).trans ((w2 d hd).symm.trans (by rw [hdl]))

/-- Round trip of the rowmajor-delta pair on an input of at least 128 bytes. -/
theorem roundtrip_delta_large (T : Nat → Nat) (hT : TableOK T) (x dest dest2 : Mem)
    (L D : Nat) (hD1 : 1 ≤ D) (hD2 : D < 65536) (hL : 128 ≤ L) (hL2 : L < 2 ^ 48) :
    ∃ out n, compress8b_rowmajor_delta T x L dest D true = Outcome.returned out n ∧
      ∃ out2, decompress8b_rowmajor_delta out dest2 = Outcome.returned out2 L ∧
        ∀ k, k < L → load8 out2 k = load8 x k := by
  have henc := compress8b_rowmajor_delta_large T x dest L D true hD1 hD2 hL (fun _ => hL2)
  refine ⟨_, _, henc, ?_⟩
  have hhdr : ∀ k, k < 8 →
      load8 (memcpy (deltaLoop T x L dest D true (L / (16 * D))).enc.mem
        (deltaLoop T x L dest D true (L / (16 * D))).enc.dest x
        (L / (16 * D) * (16 * D)) (L % (16 * D))) k = load8 (headerA dest L D true) k := by
    intro k hk
    have := compress8b_rowmajor_delta_header T x dest L D hL2 k hk
    rw [henc] at this
    exact this
  have hmd := read_metadata_8b_of_header _ dest L D hL2 hD2 hhdr
  rw [decompress8b_rowmajor_delta_large _ dest2 L D hmd hL hD1]
  have hcm : ∀ k, k < (deltaLoop T x L dest D true (L / (16 * D))).enc.dest →
      load8 (memcpy (deltaLoop T x L dest D true (L / (16 * D))).enc.mem
        (deltaLoop T x L dest D true (L / (16 * D))).enc.dest x
        (L / (16 * D) * (16 * D)) (L % (16 * D))) k
      = load8 (deltaLoop T x L dest D true (L / (16 * D))).enc.mem k := by
    intro k hk
    rw [load8_memcpy, if_neg (by omega)]
  obtain ⟨d1, d2, _, d4, _⟩ := deltaDecLoop_spec T hT x dest L D hD1 hD2 _ dest2 (L / (16 * D))
    hcm (L / (16 * D)) (le_refl _)
  have hdm := Nat.div_add_mod L (16 * D)
  rw [Nat.mul_comm] at hdm
  have hrem : (L - L / (16 * D) * (16 * D)) % 2 ^ 32 = L % (16 * D) :=
    tail_len_eq L D hD1 hD2
  rw [d1, d2, hrem]
  refine ⟨_, by rw [hdm], ?_⟩
  intro k hk
  rw [load8_memcpy]
  by_cases h1 : k < L / (16 * D) * (16 * D)
  · rw [if_neg (by omega), d4 k h1]
  · rw [if_pos (by omega), load8_memcpy, if_pos (by omega)]
    congr 1
    omega

/-- Round trip of the rowmajor-delta pair on an input shorter than 128 bytes. -/
theorem roundtrip_delta_small (T : Nat → Nat) (x dest dest2 : Mem) (L D : Nat)
    (hD2 : D < 65536) (hL : L < 128) :
    ∃ out n, compress8b_rowmajor_delta T x L dest D true = Outcome.returned out n ∧
      ∃ out2, decompress8b_rowmajor_delta out dest2 = Outcome.returned out2 L ∧
        ∀ k, k < L → load8 out2 k = load8 x k := by
  have hL2 : L < 2 ^ 48 := by
    have : (128 : Nat) < 2 ^ 48 := by norm_num
    omega
  have h1 : ¬ ((true && decide (¬ L < 2 ^ 48)) = true) := by
    simp only [Bool.true_and, decide_eq_true_eq, not_not]
    exact hL2
  have henc : compress8b_rowmajor_delta T x L dest D true =
      Outcome.returned (memcpy (headerA dest L D true) (headerLen true) x 0 (L % 2 ^ 32))
        (headerLen true + L % 2 ^ 32) := by
    rw [compress8b_rowmajor_delta_eq, if_neg h1, if_pos hL]
  refine ⟨_, _, henc, ?_⟩
  have hhdr : ∀ k, k < 8 →
      load8 (memcpy (headerA dest L D true) (headerLen true) x 0 (L % 2 ^ 32)) k
        = load8 (headerA dest L D true) k := by
    intro k hk
    have := compress8b_rowmajor_delta_header T x dest L D hL2 k hk
    rw [henc] at this
    exact this
  have hmd := read_metadata_8b_of_header _ dest L D hL2 hD2 hhdr
  have h32 : L % 2 ^ 32 = L := Nat.mod_eq_of_lt (by omega)
  unfold decompress8b_rowmajor_delta
  simp only [hmd, block_sz, group_sz_blocks, kDefaultGroupSzBlocks]
  rw [if_pos (by simp; omega)]
  refine ⟨_, rfl, ?_⟩
  intro k hk
  rw [load8_memcpy, if_pos (by omega), load8_memcpy, h32]
  have e8 : headerLen true = 8 := rfl
  rw [if_pos (by omega), e8]
  congr 1
  omega

/-! ## C2: round trip of the rowmajor-delta pair -/

/-- The hypothesis `TableOK` is needed below.  If the table had `0x7f` for the
bytes 64..127 (`NBITS_MASKS_U8`, which is not `TableOK`), then with two
dimensions that both grow by 32 from row to row (`L = 128`, four full groups),
where every zig-zag delta is `0x40`, the encoder would pack each row in 14
bits and return 144 bytes, with the header fields 7.  The decoder derives 8
bits and mask `0xff` from the header field 7 and returns 128, but the second
byte it rebuilds is `0x10`, not `0x20`. -/
theorem delta_round_trip_fails_on_width7 :
    (compress8b_rowmajor_delta NBITS_MASKS_U8 ⟨fun k => (32 * (k / 2 + 1)) % 256⟩ 128
      Mem.zero 2 true).ret = some 144 ∧
    (decompress8b_rowmajor_delta (compress8b_rowmajor_delta NBITS_MASKS_U8
      ⟨fun k => (32 * (k / 2 + 1)) % 256⟩ 128 Mem.zero 2 true).dest Mem.zero).ret = some 128 ∧
    load8 (decompress8b_rowmajor_delta (compress8b_rowmajor_delta NBITS_MASKS_U8
      ⟨fun k => (32 * (k / 2 + 1)) % 256⟩ 128 Mem.zero 2 true).dest Mem.zero).dest 1 = 0x10 ∧
    load8 ⟨fun k => (32 * (k / 2 + 1)) % 256⟩ 1 = 0x20 := by
  set_option maxRecDepth 1000000 in
  decide

/-- C2: round trip of the rowmajor-delta mode.  For a width table whose masks
are those of the decoder and cover the byte they are looked up with
(`TableOK`), every `D` with `1 ≤ D < 65536` (the dimensions 1..128 among
them), every length `L < 2^48` (the bound the encoder asserts; with or
without a full group, with any tail) and every input `x`,
`compress8b_rowmajor_delta` with `write_size = true` returns, and
`decompress8b_rowmajor_delta` applied to its output returns `L` and
reproduces the first `L` bytes of `x`. -/
theorem delta_round_trip (T : Nat → Nat) (hT : TableOK T) (x dest dest2 : Mem)
    (L D : Nat) (hD1 : 1 ≤ D) (hD2 : D < 65536) (hL2 : L < 2 ^ 48) :
    ∃ out n, compress8b_rowmajor_delta T x L dest D true = Outcome.returned out n ∧
      ∃ out2, decompress8b_rowmajor_delta out dest2 = Outcome.returned out2 L ∧
        ∀ k, k < L → load8 out2 k = load8 x k := by
  by_cases hL : 128 ≤ L
  · exact roundtrip_delta_large T hT x dest dest2 L D hD1 hD2 hL hL2
  · exact roundtrip_delta_small T x dest dest2 L D hD2 (by omega)

theorem delta_round_trip_witness :
    TableOK NBITS_MASKS_U8_folded ∧
    ∃ out n, compress8b_rowmajor_delta NBITS_MASKS_U8_folded
        ⟨fun k => (32 * (k / 2 + 1)) % 256⟩ 128 Mem.zero 2 true = Outcome.returned out n ∧
      ∃ out2, decompress8b_rowmajor_delta out Mem.zero = Outcome.returned out2 128 ∧
        ∀ k, k < 128 → load8 out2 k = load8 ⟨fun k => (32 * (k / 2 + 1)) % 256⟩ k :=
  ⟨TableOK_folded, delta_round_trip NBITS_MASKS_U8_folded TableOK_folded
    ⟨fun k => (32 * (k / 2 + 1)) % 256⟩ Mem.zero Mem.zero 128 2 (by decide) (by decide)
    (by decide)⟩

/-! ## One block of `decompress8b_rowmajor_delta_rle` -/

theorem dec_row_nbits (T dm : Nat → Nat) (D : Nat) (hD1 : 1 ≤ D) (hD2 : D < 65536) (b : Nat)
    (tm : DecTemps)
    (hw2 : ∀ k, k < nstripesOf D →
      loadLE 8 tm.stripe_bitwidths (8 * (b * nstripesOf D + k))
        = (statsOf T dm D).stripe_bitwidths.get k) :
    decRowNbits (decDims D) b tm = sumTo (nstripesOf D) (statsOf T dm D).stripe_bitwidths.get := by
  have hle := statsOf_row_bits_le T dm D
  have hpos := nstripesOf_pos D hD1
  unfold decRowNbits
  have e1 : (decDims D).nstripes = nstripesOf D := rfl
  simp only [e1]
  rw [stripeBitoffsets_congr _ _ _ hw2, hw2 _ (by omega),
    stripeBitoffsets_get _ _ _ (by omega) (by omega)]
  have e : sumTo (nstripesOf D - 1) (statsOf T dm D).stripe_bitwidths.get
      + (statsOf T dm D).stripe_bitwidths.get (nstripesOf D - 1)
      = sumTo (nstripesOf D) (statsOf T dm D).stripe_bitwidths.get := by
    obtain ⟨n, hn⟩ : ∃ n, nstripesOf D = n + 1 := ⟨nstripesOf D - 1, by omega⟩
    rw [hn, Nat.add_sub_cancel, sumTo]
  rw [e]
  exact Nat.mod_eq_of_lt (by omega)

theorem rleDecBlock_packed (dd : DecDims) (P nv : Nat) (cm : Mem) (g b : Nat)
    (s : DeltaDecState) (h0 : decRowNbits dd b s.dec.tm ≠ 0) :
    rleDecBlock dd P nv cm g b s = deltaDecBlock dd P nv cm b s := by
  unfold rleDecBlock deltaDecBlock
  simp only [h0, if_false]
  rfl

theorem prevRow_pos (x : Mem) (D p d : Nat) (h : 0 < p) : prevRow x D p d = load8 x (p - D + d) := by
  unfold prevRow
  rw [if_neg (by omega)]

theorem mul_add_mod_self (D a d : Nat) (hd : d < D) : (a * D + d) % D = d := by
  rw [Nat.mul_comm, Nat.mul_add_mod, Nat.mod_eq_of_lt hd]

/-- The row before the end of a run is the row before the run. -/
theorem prevRow_after_run (x : Mem) (D p n d : Nat) (hD1 : 1 ≤ D) (hd : d < D)
    (hrun : ∀ k, k < 8 * D * n → load8 x (p + k) = prevRow x D p (k % D)) :
    prevRow x D (p + 8 * D * n) d = prevRow x D p d := by
  rcases Nat.eq_zero_or_pos n with h0 | hn
  · rw [h0, Nat.mul_zero, Nat.add_zero]
  · obtain ⟨m, hm⟩ : ∃ m, n = m + 1 := ⟨n - 1, by omega⟩
    have hpos : 0 < 8 * D * n := Nat.mul_pos (by omega) hn
    have e : 8 * D * n = (8 * m + 7) * D + D := by rw [hm]; ring
    rw [prevRow_pos _ _ _ _ (by omega)]
    have := hrun ((8 * m + 7) * D + d) (by omega)
    rw [mul_add_mod_self _ _ _ hd] at this
    rw [← this]
    congr 1
    omega

/-- Replaying a run: the destination after `memrep` (or `memset` at the start
of the output) holds the input up to the end of the run. -/
theorem run_replayed (x : Mem) (D n p : Nat) (m : Mem) (hD1 : 1 ≤ D)
    (hpre : ∀ k, k < p → load8 m k = load8 x k) (hpD : 0 < p → D ≤ p)
    (hx : ∀ k, k < 8 * D * n → load8 x (p + k) = prevRow x D p (k % D)) (k : Nat)
    (hk : k < p + 8 * D * n) :
    load8 (if 0 < p then memrep m p (p - D) D (n * 8) else memset0 m p (n * 8 * D)) k
      = load8 x k := by
  have hcomm : n * 8 * D = 8 * D * n := by ring
  by_cases hp : 0 < p
  · have hpD2 := hpD hp
    rw [if_pos hp, memrep_load8 _ _ _ _ (by omega)]
    by_cases hkp : k < p
    · rw [if_neg (by omega)]
      exact hpre k hkp
    · have hmod : (k - p) % D < D := Nat.mod_lt _ (by omega)
      rw [if_pos ⟨by omega, by omega⟩, hpre _ (by omega)]
      have h1 := hx (k - p) (by omega)
      rw [prevRow_pos _ _ _ _ hp] at h1
      exact h1.symm.trans (congrArg (load8 x) (by omega))
  · have hp0 : p = 0 := by omega
    rw [if_neg hp, load8_memset0, if_pos ⟨by omega, by omega⟩]
    have h1 := hx (k - p) (by omega)
    have h2 : prevRow x D p ((k - p) % D) = 0 := by
      unfold prevRow
      rw [if_pos hp0]
    rw [h2] at h1
    exact h1.symm.trans (congrArg (load8 x) (by omega))

theorem rleDecBlock_run_state (D : Nat) (cm : Mem) (g b p : Nat) (ds : DeltaDecState)
    (hD2 : D < 16385) (h0 : decRowNbits (decDims D) b ds.dec.tm = 0)
    (hgb : (g > 0 ∨ b > 0) ↔ 0 < p) (hdest : ds.dec.dest = p) :
    rleDecBlock (decDims D) (round_up_to_multiple D 32) (round_up_to_multiple D 32 / 32)
      cm g b ds =
      ⟨⟨ds.dec.src + (readRunLength cm ds.dec.src).2,
        p + (readRunLength cm ds.dec.src).1 * 8 * D,
        if 0 < p then memrep ds.dec.mem p (p - D) D ((readRunLength cm ds.dec.src).1 * 8)
        else memset0 ds.dec.mem p ((readRunLength cm ds.dec.src).1 * 8 * D),
        ds.dec.tm⟩, ds.deltas⟩ := by
  have e2 : (decDims D).ndims = D := rfl
  rw [rleDecBlock_run _ _ _ _ _ _ _ h0 (by rw [e2]; exact hD2)]
  simp only [e2, hdest]
  by_cases hg : g > 0 ∨ b > 0
  · rw [if_pos hg, if_pos (hgb.mp hg)]
  · rw [if_neg hg, if_neg (fun h => hg (hgb.mpr h))]

/-- One block of the run-length decoder on a stream that holds the slot of
the block: a run is replayed, a packed block is unpacked and its deltas are
undone; either way the decoder has rebuilt the input up to the end of the
slot. -/
theorem rleDecBlock_slot (T : Nat → Nat) (x : Mem) (D : Nat) (dm : Nat → Nat) (n p : Nat)
    (cm : Mem) (hdrbit g b : Nat) (ds : DeltaDecState) (hD1 : 1 ≤ D) (hD2 : D < 16385)
    (hslot : SlotInStream cm T x D dm n p ds.dec.src)
    (hhdr : ∀ d j, d < D → j < 3 →
      abit cm (hdrbit + 3 * d + j) = (writeNbits (maskOf T dm d)).testBit j)
    (hm2 : ∀ k, k < nstripesOf D →
      loadLE 8 ds.dec.tm.data_masks (8 * (b * nstripesOf D + k))
        = (statsOf T dm D).stripe_masks.get k)
    (hw2 : ∀ k, k < nstripesOf D →
      loadLE 8 ds.dec.tm.stripe_bitwidths (8 * (b * nstripesOf D + k))
        = (statsOf T dm D).stripe_bitwidths.get k)
    (hat : DecAt x D ds ds.dec.src p)
    (hgb : (g > 0 ∨ b > 0) ↔ 0 < p) (hpD : 0 < p → D ≤ p) :
    (rleDecBlock (decDims D) (round_up_to_multiple D 32) (round_up_to_multiple D 32 / 32)
      cm g b ds).dec.tm = ds.dec.tm ∧
    DecAt x D (rleDecBlock (decDims D) (round_up_to_multiple D 32)
      (round_up_to_multiple D 32 / 32) cm g b ds)
      (ds.dec.src + slotBytes T D dm n) (p + 8 * D * n) := by
  obtain ⟨hok, hrun, hpk⟩ := hslot
  obtain ⟨_, hdest, hpre, hprev⟩ := hat
  have hbits := dec_row_nbits T dm D hD1 (by omega) b ds.dec.tm hw2
  by_cases hz : sumTo (nstripesOf D) (statsOf T dm D).stripe_bitwidths.get = 0
  · obtain ⟨hn, hrl, hx⟩ := hrun hz
    have hcomm : n * 8 * D = 8 * D * n := by ring
    have hsb : slotBytes T D dm n = if n ≤ 0x7f then 1 else 2 := by
      unfold slotBytes
      rw [if_pos hz]
    rw [rleDecBlock_run_state D cm g b p ds hD2 (by rw [hbits]; exact hz) hgb hdest, hrl, hsb]
    unfold DecAt
    simp only []
    refine ⟨trivial, trivial, hcomm ▸ rfl, ?_, ?_⟩
    · intro k hk
      exact run_replayed x D n p ds.dec.mem hD1 hpre hpD hx k hk
    · intro d hd
      rw [hprev d hd, prevRow_after_run x D p n d hD1 hd hx]
  · obtain ⟨hn1, inbuf, hin, hcov, hbody⟩ := hpk hz
    have hsb : slotBytes T D dm n = 8 * rowBytesOf (statsOf T dm D) (nstripesOf D) := by
      unfold slotBytes
      rw [if_neg hz]
    rw [rleDecBlock_packed _ _ _ _ _ _ _ (by rw [hbits]; exact hz), hsb]
    obtain ⟨c1, c2, c3, c4, c5, c6⟩ := deltaDecBlock_spec T dm D inbuf cm hdrbit b ds
      (fun i d => load8 x (p + (i * D + d))) hD1 (by omega) hok hcov ⟨hhdr, hbody⟩ hm2 hw2
      (fun _ _ => load8_lt _ _)
      (fun i d hi hd => by
        rw [hin i d hi hd, hprev d hd]
        rfl)
    refine ⟨c3, c1, ?_, ?_, ?_⟩
    · rw [c2, hdest, hn1]
      omega
    · intro k hk
      rw [hn1] at hk
      by_cases hkp : k < p
      · rw [c4 k (by omega)]
        exact hpre k hkp
      · obtain ⟨q1, q2, q3⟩ := block_offset D (k - p) hD1 (by omega)
        have h5 := c5 _ _ q1 q2
        rw [hdest] at h5
        have e1 : k = p + (k - p) / D * D + (k - p) % D := by omega
        exact (congrArg (load8 _) e1).trans (h5.trans (congrArg (load8 x) (by omega)))
    · intro d hd
      rw [c6 d hd, hn1, prevRow_pos _ _ _ _ (by omega)]
      exact congrArg (load8 x) (by omega)

/-! ## One group of `decompress8b_rowmajor_delta_rle` -/

theorem rleDecGroup_unfold (dd : DecDims) (P nv : Nat) (cm : Mem) (g : Nat)
    (s : DeltaDecState) :
    rleDecGroup dd P nv cm g s =
      rleDecBlock dd P nv cm g 1 (rleDecBlock dd P nv cm g 0
        ⟨⟨s.dec.src + dd.total_header_bytes, s.dec.dest, s.dec.mem,
          readGroupHeader dd cm s.dec.src s.dec.tm⟩, s.deltas⟩) := by
  unfold rleDecGroup
  simp only [group_sz_blocks, kDefaultGroupSzBlocks, forLoop]

/-- One pass of the group loop of the run-length decoder on a stream that
holds a group header and the slots of its two blocks. -/
theorem rleDecGroup_spec (T : Nat → Nat) (x : Mem) (D : Nat) (dm0 dm1 : Nat → Nat)
    (n0 n1 p : Nat) (cm : Mem) (g : Nat) (ds : DeltaDecState) (hD1 : 1 ≤ D) (hD2 : D < 16385)
    (hs0 : SlotInStream cm T x D dm0 n0 p (ds.dec.src + headerBytesOf D))
    (hs1 : SlotInStream cm T x D dm1 n1 (p + 8 * D * n0)
      (ds.dec.src + headerBytesOf D + slotBytes T D dm0 n0))
    (hh0 : ∀ d j, d < D → j < 3 →
      abit cm (8 * ds.dec.src + 3 * d + j) = (writeNbits (maskOf T dm0 d)).testBit j)
    (hh1 : ∀ d j, d < D → j < 3 →
      abit cm (8 * ds.dec.src + 3 * D + 3 * d + j) = (writeNbits (maskOf T dm1 d)).testBit j)
    (hpad : HeadersPadded D ds.dec.tm.headers)
    (hat : DecAt x D ds ds.dec.src p)
    (hg : 0 < g ↔ 0 < p) (hpD : 0 < p → D ≤ p) (hn0 : 1 ≤ n0) :
    HeadersPadded D (rleDecGroup (decDims D) (round_up_to_multiple D 32)
      (round_up_to_multiple D 32 / 32) cm g ds).dec.tm.headers ∧
    DecAt x D (rleDecGroup (decDims D) (round_up_to_multiple D 32)
      (round_up_to_multiple D 32 / 32) cm g ds)
      (ds.dec.src + headerBytesOf D + slotBytes T D dm0 n0 + slotBytes T D dm1 n1)
      (p + 8 * D * n0 + 8 * D * n1) := by
  have hspec := readGroupHeader_spec T (fun b => if b = 0 then dm0 else dm1) D cm ds.dec.src
    ds.dec.tm hD1
    (by
      intro b d hb hd
      have : b = 0 ∨ b = 1 := by omega
      rcases this with rfl | rfl
      · exact hs0.1 d hd
      · exact hs1.1 d hd)
    (by
      intro b d j hb hd hj
      have : b = 0 ∨ b = 1 := by omega
      rcases this with rfl | rfl
      · have := hh0 d j hd hj
        simp only [Nat.zero_mul, Nat.zero_add, if_true]
        exact this
      · have := hh1 d j hd hj
        simp only [Nat.one_mul, if_neg (show ¬ (1 : Nat) = 0 from by omega)]
        rw [show 8 * ds.dec.src + 3 * (D + d) + j = 8 * ds.dec.src + 3 * D + 3 * d + j
          from by ring]
        exact this)
    hpad
  obtain ⟨hpad2, hwords⟩ := hspec
  have hw0 := fun k hk => (hwords 0 k (by omega) hk)
  have hw1 := fun k hk => (hwords 1 k (by omega) hk)
  simp only [if_true, if_neg (show ¬ (1 : Nat) = 0 from by omega)] at hw0 hw1
  have e3 : (decDims D).total_header_bytes = headerBytesOf D := rfl
  obtain ⟨_, hdest, hpre, hprev⟩ := hat
  have hp8 : 0 < p + 8 * D * n0 := by
    have : 0 < 8 * D * n0 := Nat.mul_pos (by omega) hn0
    omega
  rw [rleDecGroup_unfold, e3]
  obtain ⟨a1, a2⟩ := rleDecBlock_slot T x D dm0 n0 p cm (8 * ds.dec.src) g 0
    ⟨⟨ds.dec.src + headerBytesOf D, ds.dec.dest, ds.dec.mem,
      readGroupHeader (decDims D) cm ds.dec.src ds.dec.tm⟩, ds.deltas⟩ hD1 hD2 hs0 hh0
    (fun k hk => (hw0 k hk).1) (fun k hk => (hw0 k hk).2) ⟨rfl, hdest, hpre, hprev⟩
    ⟨fun h => by omega, fun h => Or.inl (hg.mpr h)⟩ hpD
  generalize rleDecBlock (decDims D) (round_up_to_multiple D 32)
    (round_up_to_multiple D 32 / 32) cm g 0
    ⟨⟨ds.dec.src + headerBytesOf D, ds.dec.dest, ds.dec.mem,
      readGroupHeader (decDims D) cm ds.dec.src ds.dec.tm⟩, ds.deltas⟩ = r0 at a1 a2 ⊢
  have a1b : r0.dec.tm = readGroupHeader (decDims D) cm ds.dec.src ds.dec.tm := a1
  have a2b : DecAt x D r0 (ds.dec.src + headerBytesOf D + slotBytes T D dm0 n0)
      (p + 8 * D * n0) := a2
  have a2c := a2b.1
  obtain ⟨c1, c2⟩ := rleDecBlock_slot T x D dm1 n1 (p + 8 * D * n0) cm
    (8 * ds.dec.src + 3 * D) g 1 r0 hD1 hD2 (by rw [a2c]; exact hs1) hh1
    (fun k hk => by rw [a1b]; exact (hw1 k hk).1) (fun k hk => by rw [a1b]; exact (hw1 k hk).2)
    (by rw [a2c]; exact a2b)
    ⟨fun _ => hp8, fun _ => Or.inr (by omega)⟩
    (fun _ => by
      rcases Nat.eq_zero_or_pos p with h0 | hp
      · have : D ≤ 8 * D * n0 := by
          calc D ≤ 8 * D := by omega
            _ ≤ 8 * D * n0 := Nat.le_mul_of_pos_right _ hn0
        omega
      · have := hpD hp
        omega)
  rw [a2c] at c2
  exact ⟨by rw [c1, a1b]; exact hpad2, c2⟩

/-! ## C23: the scenario `D = 1`, alternating input -/

/-- C23 fails on the code.  For `D = 1` and the input `0x00, 0xFF, 0x00, …`
the 8-bit differences are `0, -1, +1, -1, …`, so the zig-zag bytes of the
first block are `0, 1, 2, 1, 2, 1, 2, 1` (none is `0xFD`), the width of the
block is 2 bits, not 8, and its 3-bit header field is 2, not 7. -/
theorem alternating_input_not_width8 :
    (List.range 8).map (fun k => load8 (deltaStripeStats NBITS_MASKS_U8
      ⟨fun k => if k % 2 = 0 then 0x00 else 0xff⟩ 0 1 Mem.zero).2 k) = [0, 1, 2, 1, 2, 1, 2, 1] ∧
    (deltaStripeStats NBITS_MASKS_U8 ⟨fun k => if k % 2 = 0 then 0x00 else 0xff⟩ 0 1
      Mem.zero).1.stripe_bitwidths.get 0 = 2 ∧
    (deltaStripeStats NBITS_MASKS_U8 ⟨fun k => if k % 2 = 0 then 0x00 else 0xff⟩ 0 1
      Mem.zero).1.stripe_headers.get 0 = 2 ∧
    load8 (compress8b_rowmajor_delta NBITS_MASKS_U8 ⟨fun k => if k % 2 = 0 then 0x00 else 0xff⟩
      128 Mem.zero 1 true).dest 8 = 0x12 := by
  set_option maxRecDepth 1000000 in
  decide

/-- C23, amended: for `D = 1` and the 128-byte input `0x00, 0xFF, 0x00, …`,
`compress8b_rowmajor_delta` returns 144 bytes: the 8-byte header and eight
groups of 17 bytes.  The zig-zag byte of record 0 is 0, that of every odd
record is 1 and that of every other even record is 2; every block has width
2 (also in the `deltas` buffer of the second block of every group); the
header byte of every group is `0x12` (both 3-bit fields equal to 2); and the
16 body bytes of a group are the zig-zag bytes of its records verbatim. -/
theorem alternating_input_scenario :
    (compress8b_rowmajor_delta NBITS_MASKS_U8 ⟨fun k => if k % 2 = 0 then 0x00 else 0xff⟩
      128 Mem.zero 1 true).ret = some 144 ∧
    (List.range 8).all (fun g =>
      load8 (compress8b_rowmajor_delta NBITS_MASKS_U8
        ⟨fun k => if k % 2 = 0 then 0x00 else 0xff⟩ 128 Mem.zero 1 true).dest (8 + 17 * g)
        == 0x12 &&
      (List.range 16).all (fun k =>
        load8 (compress8b_rowmajor_delta NBITS_MASKS_U8
          ⟨fun k => if k % 2 = 0 then 0x00 else 0xff⟩ 128 Mem.zero 1 true).dest
            (8 + 17 * g + 1 + k)
          == (if 16 * g + k = 0 then 0 else if (16 * g + k) % 2 = 1 then 1 else 2))) = true ∧
    (List.range 8).all (fun g =>
      (deltaStripeStats NBITS_MASKS_U8 ⟨fun k => if k % 2 = 0 then 0x00 else 0xff⟩ (16 * g) 1
        (deltaLoop NBITS_MASKS_U8 ⟨fun k => if k % 2 = 0 then 0x00 else 0xff⟩ 128 Mem.zero 1
          true g).deltas).1.stripe_bitwidths.get 0 == 2 &&
      (deltaStripeStats NBITS_MASKS_U8 ⟨fun k => if k % 2 = 0 then 0x00 else 0xff⟩ (16 * g + 8) 1
        (deltaStripeStats NBITS_MASKS_U8 ⟨fun k => if k % 2 = 0 then 0x00 else 0xff⟩ (16 * g) 1
          (deltaLoop NBITS_MASKS_U8 ⟨fun k => if k % 2 = 0 then 0x00 else 0xff⟩ 128 Mem.zero 1
            true g).deltas).2).1.stripe_bitwidths.get 0 == 2 &&
      (List.range 16).all (fun k =>
        load8 (deltaStripeStats NBITS_MASKS_U8 ⟨fun k => if k % 2 = 0 then 0x00 else 0xff⟩
          (16 * g + 8) 1
          (deltaStripeStats NBITS_MASKS_U8 ⟨fun k => if k % 2 = 0 then 0x00 else 0xff⟩ (16 * g) 1
            (deltaLoop NBITS_MASKS_U8 ⟨fun k => if k % 2 = 0 then 0x00 else 0xff⟩ 128 Mem.zero 1
              true g).deltas).2).2 (k % 8)
          == (if 16 * g + 8 + k % 8 = 0 then 0 else if (16 * g + 8 + k % 8) % 2 = 1 then 1
              else 2))) = true := by
  set_option maxRecDepth 1000000 in
  decide

/-! ## C29: the delta stage of the decoders -/

theorem undoDelta_lt (dl : Mem) (P d i : Nat) : undoDelta dl P d i < 256 := by
  cases i with
  | zero => exact Nat.mod_lt _ (by norm_num)
  | succ i => exact Nat.mod_lt _ (by norm_num)

/-- A byte is the zig-zag code of the difference that its decoding adds. -/
theorem redo_delta (u pv : Nat) (hu : u < 256) (hpv : pv < 256) :
    u = zigzag_encode_i8 (((pv + zigzag_decode_i8 u) % 256 + 256 - pv) % 256) := by
  have hz := zigzag_decode_lt u hu
  have e : ((pv + zigzag_decode_i8 u) % 256 + 256 - pv) % 256 = zigzag_decode_i8 u := by omega
  rw [e, zigzag_encode_decode_u8 u hu]

/-- "Undo delta coding" computes the scalar prefix sums of every dimension:
the lanes that spill past the row are overwritten by later stores. -/
theorem deltaDecodeBlock_scalar (D out : Nat) (m dl : Mem) :
    (∀ i d, i < 8 → d < D →
      load8 (deltaDecodeBlock D (round_up_to_multiple D 32)
        (round_up_to_multiple D 32 / 32) out (m, dl)).1 (out + i * D + d)
        = undoDelta dl (round_up_to_multiple D 32) d i) ∧
    (∀ a, a < out →
      load8 (deltaDecodeBlock D (round_up_to_multiple D 32)
        (round_up_to_multiple D 32 / 32) out (m, dl)).1 a = load8 m a) ∧
    (∀ d, d < D →
      load8 (deltaDecodeBlock D (round_up_to_multiple D 32)
        (round_up_to_multiple D 32 / 32) out (m, dl)).2 (8 * round_up_to_multiple D 32 + d)
        = undoDelta dl (round_up_to_multiple D 32) d 7) :=
  deltaDecodeBlock_spec D out m dl (fun i d => undoDelta dl (round_up_to_multiple D 32) d i)
    (fun i d => undoDelta_lt dl _ d i)
    (fun i d _ _ => by
      cases i with
      | zero =>
        rw [if_pos rfl]
        have := redo_delta (load8 dl (0 * round_up_to_multiple D 32 + d))
          (load8 dl (8 * round_up_to_multiple D 32 + d)) (load8_lt _ _) (load8_lt _ _)
        exact this
      | succ i =>
        rw [if_neg (by omega), Nat.add_sub_cancel]
        exact redo_delta (load8 dl ((i + 1) * round_up_to_multiple D 32 + d))
          (undoDelta dl (round_up_to_multiple D 32) d i) (load8_lt _ _) (undoDelta_lt _ _ _ _))

theorem deltaDecBlock_unpacked (dd : DecDims) (P nv : Nat) (cm : Mem) (b : Nat)
    (s : DeltaDecState) :
    deltaDecBlock dd P nv cm b s =
      ⟨⟨s.dec.src + block_sz * rowNbytes (decRowNbits dd b s.dec.tm),
        s.dec.dest + block_sz * dd.ndims,
        (deltaDecodeBlock dd.ndims P nv s.dec.dest (s.dec.mem, decUnpacked dd P cm b s)).1,
        s.dec.tm⟩,
        (deltaDecodeBlock dd.ndims P nv s.dec.dest (s.dec.mem, decUnpacked dd P cm b s)).2⟩ :=
  rfl

theorem decUnpacked_prev (D : Nat) (cm : Mem) (b : Nat) (s : DeltaDecState) (d : Nat) :
    load8 (decUnpacked (decDims D) (round_up_to_multiple D 32) cm b s)
        (8 * round_up_to_multiple D 32 + d)
      = load8 s.deltas (8 * round_up_to_multiple D 32 + d) := by
  have hS := stripes_le_padded D
  unfold decUnpacked
  apply unpackBlock_frame
  intro st i hst hi
  have e1 : (decDims D).nstripes = nstripesOf D := rfl
  rw [e1] at hst
  have := Nat.mul_le_mul_right (round_up_to_multiple D 32) (show i + 1 ≤ 8 by omega)
  rw [Nat.add_mul, Nat.one_mul] at this
  omega

/-- C29: the delta stage of `decompress8b_rowmajor_delta` and
`decompress8b_rowmajor_delta_rle`.  After a packed block was unpacked into the
`deltas` buffer, every destination byte of row `i`, dimension `d < D` of the
block is the scalar prefix sum `(previous value + zigzag_decode(unpacked
byte)) mod 256` of its dimension (`undoDelta`), although the code writes whole
32-lane vectors that spill past the row; the previous values of row 0 are the
row that the block before left in the buffer, which the unpacking does not
touch and which is all zero before the first block; the block leaves its last
record there; bytes below the block are not written; and the run-length
decoder runs the same code on every block that is not a run. -/
theorem delta_stage_decoders (D : Nat) (cm dest : Mem) (g b : Nat) (s : DeltaDecState) :
    (∀ i d, i < 8 → d < D →
      load8 (deltaDecBlock (decDims D) (round_up_to_multiple D 32)
        (round_up_to_multiple D 32 / 32) cm b s).dec.mem (s.dec.dest + i * D + d)
        = undoDelta (decUnpacked (decDims D) (round_up_to_multiple D 32) cm b s)
            (round_up_to_multiple D 32) d i) ∧
    (∀ d, load8 (decUnpacked (decDims D) (round_up_to_multiple D 32) cm b s)
        (8 * round_up_to_multiple D 32 + d)
      = load8 s.deltas (8 * round_up_to_multiple D 32 + d)) ∧
    (∀ d, d < D →
      load8 (deltaDecBlock (decDims D) (round_up_to_multiple D 32)
        (round_up_to_multiple D 32 / 32) cm b s).deltas (8 * round_up_to_multiple D 32 + d)
        = undoDelta (decUnpacked (decDims D) (round_up_to_multiple D 32) cm b s)
            (round_up_to_multiple D 32) d 7) ∧
    (∀ a, a < s.dec.dest →
      load8 (deltaDecBlock (decDims D) (round_up_to_multiple D 32)
        (round_up_to_multiple D 32 / 32) cm b s).dec.mem a = load8 s.dec.mem a) ∧
    (decRowNbits (decDims D) b s.dec.tm ≠ 0 →
      rleDecBlock (decDims D) (round_up_to_multiple D 32) (round_up_to_multiple D 32 / 32)
        cm g b s =
      deltaDecBlock (decDims D) (round_up_to_multiple D 32) (round_up_to_multiple D 32 / 32)
        cm b s) ∧
    (round_up_to_multiple D vector_sz / vector_sz
      + (if round_up_to_multiple D vector_sz % vector_sz > 0 then 1 else 0)
      = round_up_to_multiple D 32 / 32) ∧
    (∀ a, load8 (deltaDecLoop cm dest D 0).deltas a = 0) ∧
    (∀ a, load8 (rleDecLoop cm dest D 0).deltas a = 0) := by
  obtain ⟨b1, b2, b3⟩ := deltaDecodeBlock_scalar D s.dec.dest s.dec.mem
    (decUnpacked (decDims D) (round_up_to_multiple D 32) cm b s)
  rw [deltaDecBlock_unpacked]
  exact ⟨b1, fun d => decUnpacked_prev D cm b s d, b3, b2,
    fun h => rleDecBlock_packed _ _ _ _ _ _ _ h, nvectors_eq D, fun _ => rfl, fun _ => rfl⟩

/-! ## C30: round trip of a group header -/

/-- The header bits after the encoder has zeroed the header bytes of a group
and written the header of its two blocks. -/
theorem groupHeader_bits (T dm0 dm1 : Nat → Nat) (D hd : Nat) (mem : Mem) (hD2 : D < 65536)
    (b d j : Nat) (hb : b < 2) (hd2 : d < D) (hj : j < 3) :
    abit (writeBlockHeader (statsOf T dm1 D).stripe_headers D (nstripesOf D) hd
      (writeBlockHeader (statsOf T dm0 D).stripe_headers D (nstripesOf D) hd
        (memset0 mem hd (headerBytesOf D), 0))).1 (8 * hd + 3 * (b * D + d) + j)
      = (writeNbits (maskOf T (if b = 0 then dm0 else dm1) d)).testBit j := by
  obtain ⟨a1, a2⟩ := writeBlockHeader_bits T dm0 D hd 0 (memset0 mem hd (headerBytesOf D))
    (by norm_num; omega)
  obtain ⟨b1, b2⟩ := writeBlockHeader_bits T dm1 D hd (3 * D)
    (writeBlockHeader (statsOf T dm0 D).stripe_headers D (nstripesOf D) hd
      (memset0 mem hd (headerBytesOf D), 0)).1 (by norm_num; omega)
  have hhb := headerBytesOf_ge D
  have e : writeBlockHeader (statsOf T dm0 D).stripe_headers D (nstripesOf D) hd
      (memset0 mem hd (headerBytesOf D), 0)
      = ((writeBlockHeader (statsOf T dm0 D).stripe_headers D (nstripesOf D) hd
        (memset0 mem hd (headerBytesOf D), 0)).1, 3 * D) := by
    rw [Nat.zero_add] at a1
    exact Prod.ext rfl a1
  have hb01 : b = 0 ∨ b = 1 := by omega
  rcases hb01 with rfl | rfl
  · rw [e, b2, a2, abit_memset0, if_pos ⟨by omega, by omega⟩, Bool.false_or, Nat.add_zero,
      if_pos rfl, Nat.zero_mul, Nat.zero_add, headerField_at _ _ _ _ _ hd2 hj,
      headerField_false_of_lt _ _ _ _ (by omega), Bool.or_false]
  · rw [e, b2, a2, abit_memset0, if_pos ⟨by omega, by omega⟩, Bool.false_or, Nat.add_zero,
      if_neg (by omega), Nat.one_mul, headerField_false_of_ge _ _ _ _ (by omega),
      Bool.false_or, show 8 * hd + 3 * (D + d) + j = 8 * hd + 3 * D + 3 * d + j from by ring,
      headerField_at _ _ _ _ _ hd2 hj]

/-- The unpacked header bytes of the decoders are the 3-bit fields of the
stream. -/
theorem readGroupHeader_fields (D : Nat) (cm : Mem) (h : Nat) (tm : DecTemps) (hD1 : 1 ≤ D)
    (F : Nat → Nat → Nat) (hF : ∀ b d, F b d < 8)
    (hhdr : ∀ b d j, b < 2 → d < D → j < 3 →
      abit cm (8 * h + 3 * (b * D + d) + j) = (F b d).testBit j)
    (b d : Nat) (hb : b < 2) (hd : d < D) :
    load8 (readGroupHeader (decDims D) cm h tm).headers (b * nstripesOf D * 8 + d) = F b d := by
  have hns := nstripesOf_ge D
  rw [readGroupHeader_headers D cm h tm b d hb (by omega), if_pos hd]
  apply eq_of_testBit_lt8 _ _ (load8_lt _ _) (by have := hF b d; omega)
  intro r hr
  have hj : b * D + d < 2 * D := by
    have : b = 0 ∨ b = 1 := by omega
    rcases this with rfl | rfl <;> omega
  rw [readGroupHeader_tmp D cm h tm hD1 _ r hj hr]
  by_cases h3 : r < 3
  · rw [decide_eq_true h3, Bool.true_and, hhdr b d r hb hd h3]
  · rw [decide_eq_false h3, Bool.false_and, testBit_lt_8 _ _ (hF b d) (by omega)]

/-- The 3-bit field of dimension `d` in the encoder's `stripe_headers`. -/
theorem statsOf_header_field (T dm : Nat → Nat) (D d : Nat) (hd : d < D) :
    ((statsOf T dm D).stripe_headers.get (d / 8) >>> (3 * (d % 8))) % 8
      = writeNbits (maskOf T dm d) := by
  have hw := writeNbits_lt _ (maskOf_lt T dm d)
  apply Nat.eq_of_testBit_eq
  intro j
  have h8 : ∀ y : Nat, y % 8 = y % 2 ^ 3 := fun _ => rfl
  rw [h8, Nat.testBit_mod_two_pow, Nat.testBit_shiftRight, statsOf_headers_testBit]
  by_cases hj : j < 3
  · have e1 : (3 * (d % 8) + j) / 3 = d % 8 := by omega
    have e2 : (3 * (d % 8) + j) % 3 = j := by omega
    have e3 : 8 * (d / 8) + d % 8 = d := by omega
    rw [e1, e2, e3, decide_eq_true hj, Bool.true_and,
      decide_eq_true (show 3 * (d % 8) + j < 24 ∧ d < D from ⟨by omega, hd⟩), Bool.true_and]
  · rw [decide_eq_false hj, Bool.false_and, testBit_lt_8 _ _ hw (by omega)]

/-- The hypotheses on the table masks are needed below.  If the table had
`0x7f` for the bytes 64..127 (`NBITS_MASKS_U8`, which is not `TableOK`), then
with `D = 1` and OR-mask 64 in both blocks the encoder would have
`stripe_bitwidths = 7` and `stripe_masks = 0x7f` and write the header field
7; from the header bytes it wrote the decoder reconstructs the bit-width 8
and the data mask `0xff`. -/
theorem header_round_trip_fails_on_width7 :
    (statsOf NBITS_MASKS_U8 (fun _ => 64) 1).stripe_bitwidths.get 0 = 7 ∧
    (statsOf NBITS_MASKS_U8 (fun _ => 64) 1).stripe_masks.get 0 = 0x7f ∧
    (statsOf NBITS_MASKS_U8 (fun _ => 64) 1).stripe_headers.get 0 = 7 ∧
    loadLE 8 (readGroupHeader (decDims 1)
      (writeBlockHeader (statsOf NBITS_MASKS_U8 (fun _ => 64) 1).stripe_headers 1 (nstripesOf 1) 0
        (writeBlockHeader (statsOf NBITS_MASKS_U8 (fun _ => 64) 1).stripe_headers 1
          (nstripesOf 1) 0 (memset0 Mem.zero 0 (headerBytesOf 1), 0))).1
      0 DecTemps.zero).stripe_bitwidths 0 = 8 ∧
    loadLE 8 (readGroupHeader (decDims 1)
      (writeBlockHeader (statsOf NBITS_MASKS_U8 (fun _ => 64) 1).stripe_headers 1 (nstripesOf 1) 0
        (writeBlockHeader (statsOf NBITS_MASKS_U8 (fun _ => 64) 1).stripe_headers 1
          (nstripesOf 1) 0 (memset0 Mem.zero 0 (headerBytesOf 1), 0))).1
      0 DecTemps.zero).data_masks 0 = 0xff := by
  set_option maxRecDepth 1000000 in
  decide

/-- C30: round trip of the group header.  For every `D` with `1 ≤ D < 65536`
and every assignment of OR-masks `dm0`, `dm1` to the dimensions of the two
blocks of a group whose table masks are masks of the decoder (the widths 0..6
and 8, which are all the widths of a `TableOK` table), let the encoder zero
the header bytes at `hd` and write the headers of the two blocks.  In every
stream `cm` that has these header bytes, whatever follows them, the field of
block `b`, dimension `d` sits at header bit `3 * (b * D + d)` and is the 3-bit
field of `d` in the encoder's `stripe_headers`; the decoder unpacks exactly
this field into its `headers` array; and the per-stripe data masks and
bit-widths it derives are the encoder's `stripe_masks` and
`stripe_bitwidths`, for both blocks. -/
theorem group_header_round_trip (T dm0 dm1 : Nat → Nat) (D hd : Nat) (mem cm : Mem)
    (tm : DecTemps) (hD1 : 1 ≤ D) (hD2 : D < 65536)
    (hok0 : ∀ d, d < D → maskOf T dm0 d ∈ okMasks)
    (hok1 : ∀ d, d < D → maskOf T dm1 d ∈ okMasks)
    (hcm : ∀ k, hd ≤ k → k < hd + headerBytesOf D →
      load8 cm k = load8 (writeBlockHeader (statsOf T dm1 D).stripe_headers D (nstripesOf D) hd
        (writeBlockHeader (statsOf T dm0 D).stripe_headers D (nstripesOf D) hd
          (memset0 mem hd (headerBytesOf D), 0))).1 k)
    (hpad : HeadersPadded D tm.headers) (b : Nat) (hb : b < 2) :
    (∀ d, d < D →
      (∀ j, j < 3 → abit cm (8 * hd + 3 * (b * D + d) + j) =
        (((statsOf T (if b = 0 then dm0 else dm1) D).stripe_headers.get (d / 8)
          >>> (3 * (d % 8))) % 8).testBit j) ∧
      load8 (readGroupHeader (decDims D) cm hd tm).headers (b * nstripesOf D * 8 + d) =
        ((statsOf T (if b = 0 then dm0 else dm1) D).stripe_headers.get (d / 8)
          >>> (3 * (d % 8))) % 8) ∧
    (∀ s, s < nstripesOf D →
      loadLE 8 (readGroupHeader (decDims D) cm hd tm).data_masks (8 * (b * nstripesOf D + s)) =
        (statsOf T (if b = 0 then dm0 else dm1) D).stripe_masks.get s ∧
      loadLE 8 (readGroupHeader (decDims D) cm hd tm).stripe_bitwidths
          (8 * (b * nstripesOf D + s)) =
        (statsOf T (if b = 0 then dm0 else dm1) D).stripe_bitwidths.get s) := by
  have hhb := headerBytesOf_ge D
  have hbits : ∀ b d j, b < 2 → d < D → j < 3 →
      abit cm (8 * hd + 3 * (b * D + d) + j)
        = (writeNbits (maskOf T (if b = 0 then dm0 else dm1) d)).testBit j := by
    intro b d j hb hd2 hj
    rw [← groupHeader_bits T dm0 dm1 D hd mem hD2 b d j hb hd2 hj]
    have hq : 3 * (b * D + d) + j < 6 * D := by
      have : b = 0 ∨ b = 1 := by omega
      rcases this with rfl | rfl <;> omega
    unfold abit
    rw [hcm _ (by omega) (by omega)]
  have hok : ∀ b d, b < 2 → d < D → maskOf T (if b = 0 then dm0 else dm1) d ∈ okMasks := by
    intro b d hb hd2
    have : b = 0 ∨ b = 1 := by omega
    rcases this with rfl | rfl
    · exact hok0 d hd2
    · exact hok1 d hd2
  obtain ⟨_, hwords⟩ := readGroupHeader_spec T (fun b => if b = 0 then dm0 else dm1) D cm hd tm
    hD1 hok hbits hpad
  refine ⟨fun d hd2 => ⟨fun j hj => ?_, ?_⟩, fun s hs => hwords b s hb hs⟩
  · rw [statsOf_header_field T _ D d hd2]
    exact hbits b d j hb hd2 hj
  · rw [statsOf_header_field T _ D d hd2]
    exact readGroupHeader_fields D cm hd tm hD1
      (fun b d => writeNbits (maskOf T (if b = 0 then dm0 else dm1) d))
      (fun b d => writeNbits_lt _ (maskOf_lt T _ d)) hbits b d hb hd2

theorem group_header_round_trip_witness :
    (∀ d, d < 7 →
      (∀ j, j < 3 →
        abit (writeBlockHeader (statsOf NBITS_MASKS_U8_folded (fun d => 2 ^ d) 7).stripe_headers 7
            (nstripesOf 7) 8
            (writeBlockHeader (statsOf NBITS_MASKS_U8_folded (fun d => d) 7).stripe_headers 7
              (nstripesOf 7) 8 (memset0 Mem.zero 8 (headerBytesOf 7), 0))).1
          (8 * 8 + 3 * (1 * 7 + d) + j) =
        (((statsOf NBITS_MASKS_U8_folded (if 1 = 0 then (fun d => d) else (fun d => 2 ^ d))
          7).stripe_headers.get (d / 8) >>> (3 * (d % 8))) % 8).testBit j) ∧
      load8 (readGroupHeader (decDims 7)
          (writeBlockHeader (statsOf NBITS_MASKS_U8_folded (fun d => 2 ^ d) 7).stripe_headers 7
            (nstripesOf 7) 8
            (writeBlockHeader (statsOf NBITS_MASKS_U8_folded (fun d => d) 7).stripe_headers 7
              (nstripesOf 7) 8 (memset0 Mem.zero 8 (headerBytesOf 7), 0))).1
          8 DecTemps.zero).headers (1 * nstripesOf 7 * 8 + d) =
        ((statsOf NBITS_MASKS_U8_folded (if 1 = 0 then (fun d => d) else (fun d => 2 ^ d))
          7).stripe_headers.get (d / 8) >>> (3 * (d % 8))) % 8) ∧
    (∀ s, s < nstripesOf 7 →
      loadLE 8 (readGroupHeader (decDims 7)
          (writeBlockHeader (statsOf NBITS_MASKS_U8_folded (fun d => 2 ^ d) 7).stripe_headers 7
            (nstripesOf 7) 8
            (writeBlockHeader (statsOf NBITS_MASKS_U8_folded (fun d => d) 7).stripe_headers 7
              (nstripesOf 7) 8 (memset0 Mem.zero 8 (headerBytesOf 7), 0))).1
          8 DecTemps.zero).data_masks (8 * (1 * nstripesOf 7 + s)) =
        (statsOf NBITS_MASKS_U8_folded (if 1 = 0 then (fun d => d) else (fun d => 2 ^ d))
          7).stripe_masks.get s ∧
      loadLE 8 (readGroupHeader (decDims 7)
          (writeBlockHeader (statsOf NBITS_MASKS_U8_folded (fun d => 2 ^ d) 7).stripe_headers 7
            (nstripesOf 7) 8
            (writeBlockHeader (statsOf NBITS_MASKS_U8_folded (fun d => d) 7).stripe_headers 7
              (nstripesOf 7) 8 (memset0 Mem.zero 8 (headerBytesOf 7), 0))).1
          8 DecTemps.zero).stripe_bitwidths (8 * (1 * nstripesOf 7 + s)) =
        (statsOf NBITS_MASKS_U8_folded (if 1 = 0 then (fun d => d) else (fun d => 2 ^ d))
          7).stripe_bitwidths.get s) :=
  group_header_round_trip NBITS_MASKS_U8_folded (fun d => d) (fun d => 2 ^ d) 7 8 Mem.zero _
    DecTemps.zero (by decide) (by decide)
    (fun d hd => (maskOf_ok NBITS_MASKS_U8_folded _ TableOK_folded d (by omega)).1)
    (fun d hd => (maskOf_ok NBITS_MASKS_U8_folded _ TableOK_folded d
      (by
        show 2 ^ d < 256
        calc 2 ^ d ≤ 2 ^ 7 := Nat.pow_le_pow_right (by norm_num) (by omega)
          _ < 256 := by norm_num)).1)
    (fun _ _ _ => rfl) (HeadersPadded_zero 7) 1 (by decide)

/-! ## The loops of `compress8b_rowmajor_delta_rle` and the states they reach -/

theorem rle_block_loop_unfold (c : RleCtx) (fuel : Nat) (s : RleEncState) :
    rle_block_loop c (fuel + 1) s =
      if s.b < group_sz_blocks then
        match rleBlockStep c s with
        | none => none
        | some (s1, true) => some (s1, true)
        | some (s1, false) => rle_block_loop c fuel s1
      else some (s, false) := rfl

theorem rle_group_loop_unfold (c : RleCtx) (fuel n : Nat) (s : RleEncState) :
    rle_group_loop c fuel (n + 1) s =
      if (s.src : Int) ≤ c.last_full_group_start then
        match rle_block_loop c fuel (rleGroupStart c s) with
        | none => none
        | some (s2, true) => some s2
        | some (s2, false) => rle_group_loop c fuel n s2
      else some s := rfl

/-- What the block loop returns was reached. -/
theorem rle_block_loop_reach (c : RleCtx) (s0 : RleEncState) (fuel : Nat) :
    ∀ (s r : RleEncState) (flag : Bool) (n : Nat), RleReach c s0 RlePoint.blockHead n s →
      rle_block_loop c fuel s = some (r, flag) →
      ∃ m, RleReach c s0 (if flag then RlePoint.loopEnd else RlePoint.groupHead) m r := by
  induction fuel with
  | zero => intro s r flag n _ h; simp [rle_block_loop] at h
  | succ fuel ih =>
    intro s r flag n hs h
    rw [rle_block_loop_unfold] at h
    by_cases hb : s.b < group_sz_blocks
    · rw [if_pos hb] at h
      cases hstep : rleBlockStep c s with
      | none => rw [hstep] at h; simp at h
      | some p =>
        obtain ⟨s1, f1⟩ := p
        rw [hstep] at h
        cases f1 with
        | true =>
          simp only [Option.some.injEq, Prod.mk.injEq] at h
          obtain ⟨rfl, rfl⟩ := h
          exact ⟨_, RleReach.jump n s s1 hs hb hstep⟩
        | false =>
          exact ih s1 r flag _ (RleReach.step n s s1 hs hb hstep) h
    · rw [if_neg hb] at h
      simp only [Option.some.injEq, Prod.mk.injEq] at h
      obtain ⟨rfl, rfl⟩ := h
      exact ⟨_, RleReach.leave n s hs hb⟩

/-- What the group loop returns was reached, at `main_loop_end`. -/
theorem rle_group_loop_reach (c : RleCtx) (s0 : RleEncState) (fuel n : Nat) :
    ∀ (s r : RleEncState) (k : Nat), RleReach c s0 RlePoint.groupHead k s →
      rle_group_loop c fuel n s = some r → ∃ m, RleReach c s0 RlePoint.loopEnd m r := by
  induction n with
  | zero => intro s r _ _ h; simp [rle_group_loop] at h
  | succ n ih =>
    intro s r k hs h
    rw [rle_group_loop_unfold] at h
    by_cases hc : (s.src : Int) ≤ c.last_full_group_start
    · rw [if_pos hc] at h
      cases hbl : rle_block_loop c fuel (rleGroupStart c s) with
      | none => rw [hbl] at h; simp at h
      | some p =>
        obtain ⟨s2, f2⟩ := p
        rw [hbl] at h
        obtain ⟨m, hm⟩ := rle_block_loop_reach c s0 fuel _ s2 f2 _ (RleReach.enter k s hs hc) hbl
        cases f2 with
        | true =>
          simp only [Option.some.injEq] at h
          subst h
          exact ⟨m, hm⟩
        | false => exact ih s2 r m hm h
    · rw [if_neg hc] at h
      simp only [Option.some.injEq] at h
      subst h
      exact ⟨_, RleReach.stop k s hs hc⟩

/-- From every state that was reached the loops go on to their result. -/
theorem RleReach_cont (c : RleCtx) (s0 r : RleEncState) (fuel n : Nat)
    (h : rle_group_loop c fuel n s0 = some r) :
    ∀ (pt : RlePoint) (k : Nat) (s : RleEncState), RleReach c s0 pt k s →
      RleCont c fuel r pt s := by
  intro pt k s hs
  induction hs with
  | init => exact ⟨n, h⟩
  | enter _ s _ hc ih =>
    obtain ⟨m, hm⟩ := ih
    cases m with
    | zero => simp [rle_group_loop] at hm
    | succ m =>
      rw [rle_group_loop_unfold, if_pos hc] at hm
      exact ⟨fuel, m, hm⟩
  | stop _ s _ hc ih =>
    obtain ⟨m, hm⟩ := ih
    cases m with
    | zero => simp [rle_group_loop] at hm
    | succ m =>
      rw [rle_group_loop_unfold, if_neg hc] at hm
      simp only [Option.some.injEq] at hm
      exact hm
  | step _ s s1 _ hb hstep ih =>
    obtain ⟨f, m, hm⟩ := ih
    cases f with
    | zero => simp [rle_block_loop] at hm
    | succ f =>
      rw [rle_block_loop_unfold, if_pos hb, hstep] at hm
      exact ⟨f, m, hm⟩
  | jump _ s s1 _ hb hstep ih =>
    obtain ⟨f, m, hm⟩ := ih
    cases f with
    | zero => simp [rle_block_loop] at hm
    | succ f =>
      rw [rle_block_loop_unfold, if_pos hb, hstep] at hm
      simp only [Option.some.injEq] at hm
      exact hm
  | leave _ s _ hb ih =>
    obtain ⟨f, m, hm⟩ := ih
    cases f with
    | zero => simp [rle_block_loop] at hm
    | succ f =>
      rw [rle_block_loop_unfold, if_neg hb] at hm
      exact ⟨m, hm⟩

/-- The state at `main_loop_end` is the one state reached there. -/
theorem rleLoop_reach (T : Nat → Nat) (x dest : Mem) (L D : Nat) (write_size : Bool)
    (hD1 : 1 ≤ D) (hD2 : D < 65536) :
    ∃ r, rleLoop T x L dest D write_size = some r ∧
      (∃ n, RleReach (rleCtxOf T x L D) (rleInit dest write_size) RlePoint.loopEnd n r) ∧
      ∀ s n, RleReach (rleCtxOf T x L D) (rleInit dest write_size) RlePoint.loopEnd n s →
        s = r := by
  obtain ⟨r, hr, _⟩ := rleLoop_spec T x dest L D write_size hD1 hD2
  refine ⟨r, hr, rle_group_loop_reach _ _ _ _ _ r _ RleReach.init hr, fun s n hs => ?_⟩
  exact RleReach_cont _ _ r _ _ hr _ n s hs

theorem RleGInv_enter (T : Nat → Nat) (x : Mem) (L D d0 : Nat) (s : RleEncState) (G : Nat)
    (h : RleGInv D L d0 s G) (hc : (s.src : Int) ≤ (rleCtxOf T x L D).last_full_group_start) :
    RleBInv D L d0 (rleGroupStart (rleCtxOf T x L D) s) (G + 1) := by
  obtain ⟨h1, h2, h3, h4, h5⟩ := h
  have hc2 : s.src + 16 * D ≤ L := by
    simp only [rleCtxOf, groupSzOf_eq] at hc
    omega
  refine ⟨by show (0 : Nat) ≤ 2; omega, by omega, ?_, ?_, ?_, ?_, h5, ?_, ?_, ?_, ?_⟩
  · show (s.ngroups + 1) % 2 ^ 32 = (G + 1) % 2 ^ 32
    rw [h2]; omega
  · show s.run_length_nblocks ≤ 0x7fff
    omega
  · show s.dest + headerBytesOf D + 8 * D * s.run_length_nblocks
      ≤ d0 + (G + 1) * headerBytesOf D + s.src
    rw [h1, Nat.add_mul]; omega
  · show 16 * D * (G + 1 - 1) + 8 * D * 0 + 8 * D * s.run_length_nblocks ≤ s.src
    rw [h1, Nat.add_sub_cancel]; omega
  · intro _; show s.src + 16 * D ≤ L; exact hc2
  · intro hh; exact absurd hh (by show ¬ (0 : Nat) = 1; omega)
  · intro hh
    have : 0 < s.run_length_nblocks := hh
    omega
  · intro _; exact h1

theorem RleBInv_leave (D L d0 : Nat) (s : RleEncState) (G : Nat) (h : RleBInv D L d0 s G)
    (hb : ¬ s.b < group_sz_blocks) : RleGInv D L d0 s G := by
  have hb2 : s.b = 2 := by
    have := h.1
    simp only [group_sz_blocks, kDefaultGroupSzBlocks] at hb
    omega
  obtain ⟨h1, h2, h3, h4, h5, h6, h7, h8, h9, h10, h11⟩ := h
  have hrun := h11 hb2
  refine ⟨hrun, h3, ?_, ?_, h7⟩
  · rw [hrun] at h5; omega
  · rw [hrun, hb2] at h6
    have : 16 * D * G = 16 * D * (G - 1) + 16 * D := by
      obtain ⟨g, hg⟩ : ∃ g, G = g + 1 := ⟨G - 1, by omega⟩
      rw [hg, Nat.add_sub_cancel]; ring
    omega

/-- One pass of the body of the block loop: after `rlePrepare` the block in
hand is added to the run (`do_rle`) if its rows have width zero, and packed
otherwise. -/
theorem rleBlockStep_eq (c : RleCtx) (s : RleEncState) :
    rleBlockStep c s = some
      (if (rle_read_block c s).1.row_width_bits = 0 ∧
          (rlePrepare c (rle_read_block c s).1 (rle_read_block c s).2).run_length_nblocks
            < max_run_nblocks then
        rle_do_rle c (rlePrepare c (rle_read_block c s).1 (rle_read_block c s).2)
      else (rle_pack c (rle_read_block c s).1
        (rlePrepare c (rle_read_block c s).1 (rle_read_block c s).2), false)) := by
  unfold rleBlockStep
  generalize (rle_read_block c s).1 = blk
  generalize (rle_read_block c s).2 = s'
  have hmax : (0 : Nat) < max_run_nblocks := by decide
  by_cases hdo : blk.row_width_bits = 0 ∧ s'.run_length_nblocks < max_run_nblocks
  · have hp : rlePrepare c blk s' = s' := by
      unfold rlePrepare
      rw [if_neg (fun h => h.1 hdo)]
    rw [hp, if_pos hdo, rle_just_read_block]
    simp only [Bool.and_eq_true, decide_eq_true_eq]
    rw [if_pos hdo]
  · by_cases hrun : s'.run_length_nblocks > 0
    · by_cases hb : s'.b + 1 = group_sz_blocks
      · have hp : rlePrepare c blk s' = rleGroupStart c (rleCloseRun c s') := by
          unfold rlePrepare
          rw [if_pos ⟨hdo, hrun⟩, if_pos hb]
        rw [hp, rle_just_read_block]
        simp only [Bool.and_eq_true, decide_eq_true_eq]
        rw [if_neg hdo, if_pos hrun, if_pos hb, rle_just_read_block]
        simp only [Bool.and_eq_true, decide_eq_true_eq]
        by_cases hz : blk.row_width_bits = 0
        · rw [if_pos ⟨hz, hmax⟩, if_pos ⟨hz, hmax⟩]
          rfl
        · have h0 : ¬ ((0 : Nat) > 0) := by omega
          simp only [hz, false_and, if_false, h0]
          rfl
      · have hp : rlePrepare c blk s' = rleCloseRun c s' := by
          unfold rlePrepare
          rw [if_pos ⟨hdo, hrun⟩, if_neg hb]
        rw [hp, rle_just_read_block]
        simp only [Bool.and_eq_true, decide_eq_true_eq]
        rw [if_neg hdo, if_pos hrun, if_neg hb]
        by_cases hz : blk.row_width_bits = 0
        · rw [if_pos hz, if_pos ⟨hz, hmax⟩]
          rfl
        · rw [if_neg hz, if_neg (fun h => hz h.1)]
          rfl
    · have hp : rlePrepare c blk s' = s' := by
        unfold rlePrepare
        rw [if_neg (fun h => hrun h.2)]
      rw [hp, if_neg hdo, rle_just_read_block]
      simp only [Bool.and_eq_true, decide_eq_true_eq]
      rw [if_neg hdo, if_neg hrun]

/-! ## The steps of the run-length encoder, one by one -/

theorem abit_of_load8_eq (m m2 : Mem) (q : Nat) (h : load8 m (q / 8) = load8 m2 (q / 8)) :
    abit m q = abit m2 q := by
  unfold abit
  rw [h]

theorem fill_load8 (n : Nat) (w : Mem × Nat) (k : Nat) :
    load8 (forLoop n (fun _ (f : Mem × Nat) => (store8 f.1 f.2 0, f.2 + 1)) w).1 k
      = if w.2 ≤ k ∧ k < w.2 + n then 0 else load8 w.1 k := by
  induction n with
  | zero =>
    rw [if_neg (by omega)]
    rfl
  | succ n ih =>
    rw [forLoop]
    show load8 (store8 _ _ 0) k = _
    rw [load8_store8, fill_dest, ih]
    split_ifs <;> first | rfl | (exfalso; omega)

/-- The branch `do_rle` when the next block still belongs to a full group: the
run goes on. -/
theorem rle_do_rle_cont (T : Nat → Nat) (x : Mem) (L D : Nat) (s : RleEncState)
    (h : s.src + 8 * D + 16 * D < L) (hrun : s.run_length_nblocks < 0x7fff) :
    rle_do_rle (rleCtxOf T x L D) s =
      ({ s with run_length_nblocks := s.run_length_nblocks + 1, src := s.src + 8 * D }, false) := by
  have hmod : (s.run_length_nblocks + 1) % 2 ^ 16 = s.run_length_nblocks + 1 :=
    Nat.mod_eq_of_lt (by omega)
  unfold rle_do_rle
  simp only [rleCtxOf, groupSzOf_eq, block_sz, hmod]
  rw [if_pos (by omega)]

/-- The branch `do_rle` when the source has reached the last full group start
or is past it: the run is closed, the unused slots are filled, and the loops
are left. -/
theorem rle_do_rle_exit (T : Nat → Nat) (x : Mem) (L D : Nat) (s : RleEncState)
    (h : L ≤ s.src + 8 * D + 16 * D) (hrun : s.run_length_nblocks < 0x7fff) (hb : s.b < 2) :
    rle_do_rle (rleCtxOf T x L D) s =
      ({ s with run_length_nblocks := 0, src := s.src + 8 * D,
                header_bit_offset := s.header_bit_offset + D * 3, b := 2,
                mem := (forLoop (1 - s.b) (fun _ (f : Mem × Nat) => (store8 f.1 f.2 0, f.2 + 1))
                  (writeRunLength s.mem s.dest (s.run_length_nblocks + 1))).1,
                dest := (writeRunLength s.mem s.dest (s.run_length_nblocks + 1)).2 + (1 - s.b) },
        true) := by
  have hmod : (s.run_length_nblocks + 1) % 2 ^ 16 = s.run_length_nblocks + 1 :=
    Nat.mod_eq_of_lt (by omega)
  have e1 : group_sz_blocks - (s.b + 1) = 1 - s.b := by
    simp only [group_sz_blocks, kDefaultGroupSzBlocks]; omega
  have e2 : s.b + 1 + (1 - s.b) = 2 := by omega
  unfold rle_do_rle
  simp only [rleCtxOf, groupSzOf_eq, block_sz, hmod, nbits_sz_bits, e1, e2, fill_dest]
  rw [if_neg (by omega)]

theorem rlePrepare_cases (c : RleCtx) (blk : RleBlock) (s : RleEncState) :
    rlePrepare c blk s = s ∨
    (0 < s.run_length_nblocks ∧ s.b + 1 ≠ group_sz_blocks ∧
      rlePrepare c blk s = rleCloseRun c s) ∨
    (0 < s.run_length_nblocks ∧ s.b + 1 = group_sz_blocks ∧
      rlePrepare c blk s = rleGroupStart c (rleCloseRun c s)) := by
  unfold rlePrepare
  split_ifs with h1 h2
  · exact Or.inr (Or.inr ⟨h1.2, h2, rfl⟩)
  · exact Or.inr (Or.inl ⟨h1.2, h2, rfl⟩)
  · exact Or.inl rfl

/-- After `rlePrepare` no run is in progress unless the block in hand goes on
with it. -/
theorem rlePrepare_run (c : RleCtx) (blk : RleBlock) (s : RleEncState) :
    (rlePrepare c blk s).run_length_nblocks = 0 ∨
    (rlePrepare c blk s = s ∧ blk.row_width_bits = 0 ∧ s.run_length_nblocks < max_run_nblocks) := by
  unfold rlePrepare
  split_ifs with h1 h2
  · exact Or.inl rfl
  · exact Or.inl rfl
  · by_cases h0 : s.run_length_nblocks = 0
    · exact Or.inl h0
    · have : blk.row_width_bits = 0 ∧ s.run_length_nblocks < max_run_nblocks := by
        by_contra hh
        exact h1 ⟨hh, by omega⟩
      exact Or.inr ⟨rfl, this⟩

/-! ## The header of the current group -/

theorem RleHdr_closeRun (T : Nat → Nat) (x : Mem) (L D d0 : Nat) (s : RleEncState)
    (h : RleHdr D d0 RlePoint.blockHead s) (hb : s.b < 2) :
    RleHdr D d0 RlePoint.blockHead (rleCloseRun (rleCtxOf T x L D) s) := by
  obtain ⟨h1, h2, h3, h4, h5⟩ := h
  have hw := writeRunLength_dest_le s.mem s.dest s.run_length_nblocks
  refine ⟨h1, ?_, ?_, ?_, ?_⟩
  · show s.header_dest + headerBytesOf D ≤ (writeRunLength s.mem s.dest s.run_length_nblocks).2
    omega
  · show s.b + 1 ≤ 2; omega
  · show s.header_bit_offset + D * nbits_sz_bits = 3 * D * (s.b + 1)
    rw [h4, Nat.mul_add]; simp only [nbits_sz_bits]; omega
  · intro q hq1 hq2
    show abit (writeRunLength s.mem s.dest s.run_length_nblocks).1 (8 * s.header_dest + q) = false
    have hq0 : 3 * D * s.b ≤ q := by
      have : 3 * D * (s.b + 1) ≤ q := hq1
      rw [Nat.mul_add] at this; omega
    rw [← h5 q hq0 hq2]
    apply abit_of_load8_eq
    rw [(writeRunLength_eq s.mem s.dest s.run_length_nblocks _).2]
    split_ifs <;> first | rfl | (exfalso; omega)

theorem RleHdr_groupStart (T : Nat → Nat) (x : Mem) (L D d0 : Nat) (s : RleEncState)
    (h : d0 ≤ s.dest) : RleHdr D d0 RlePoint.blockHead (rleGroupStart (rleCtxOf T x L D) s) := by
  refine ⟨h, le_refl _, by show (0 : Nat) ≤ 2; omega, rfl, ?_⟩
  intro q _ hq2
  show abit (memset0 s.mem s.dest (headerBytesOf D)) (8 * s.dest + q) = false
  apply abit_zero_of_load8
  rw [load8_memset0, if_pos (by omega)]

theorem RleHdr_prepare (T : Nat → Nat) (x : Mem) (L D d0 : Nat) (blk : RleBlock)
    (s : RleEncState) (h : RleHdr D d0 RlePoint.blockHead s) (hb : s.b < 2) :
    RleHdr D d0 RlePoint.blockHead (rlePrepare (rleCtxOf T x L D) blk s) ∧
    (rlePrepare (rleCtxOf T x L D) blk s).b < 2 := by
  rcases rlePrepare_cases (rleCtxOf T x L D) blk s with e | ⟨_, hb2, e⟩ | ⟨_, _, e⟩
  · rw [e]; exact ⟨h, hb⟩
  · rw [e]
    refine ⟨RleHdr_closeRun T x L D d0 s h hb, ?_⟩
    show s.b + 1 < 2
    simp only [group_sz_blocks, kDefaultGroupSzBlocks] at hb2
    omega
  · rw [e]
    refine ⟨RleHdr_groupStart T x L D d0 _ ?_, by show (0 : Nat) < 2; omega⟩
    have h2 := RleHdr_closeRun T x L D d0 s h hb
    exact le_trans h2.1 (le_trans (Nat.le_add_right _ _) h2.2.1)

theorem RleHdr_pack (T : Nat → Nat) (x : Mem) (L D d0 : Nat) (hD2 : D < 65536) (blk : RleBlock)
    (dm : Nat → Nat) (hst : blk.st = statsOf T dm D) (s : RleEncState)
    (h : RleHdr D d0 RlePoint.blockHead s) (hb : s.b < 2) :
    RleHdr D d0 RlePoint.blockHead (rle_pack (rleCtxOf T x L D) blk s) := by
  obtain ⟨h1, h2, h3, h4, h5⟩ := h
  have h3D : 3 * D * s.b ≤ 3 * D := by
    have := Nat.mul_le_mul_left (3 * D) (show s.b ≤ 1 by omega)
    omega
  obtain ⟨w1, w2⟩ := writeBlockHeader_bits T dm D s.header_dest s.header_bit_offset s.mem
    (by omega)
  refine ⟨h1, ?_, ?_, ?_, ?_⟩
  · show s.header_dest + headerBytesOf D ≤ s.dest + block_sz * blk.out_row_nbytes
    omega
  · show s.b + 1 ≤ 2; omega
  · show (writeBlockHeader blk.st.stripe_headers D (nstripesOf D) s.header_dest
      (s.mem, s.header_bit_offset)).2 = 3 * D * (s.b + 1)
    rw [hst, w1, h4, Nat.mul_add]; omega
  · intro q hq1 hq2
    have hq0 : 3 * D * s.b + 3 * D ≤ q := by
      have : 3 * D * (s.b + 1) ≤ q := hq1
      rw [Nat.mul_add] at this; omega
    have e : abit (rle_pack (rleCtxOf T x L D) blk s).mem (8 * s.header_dest + q)
        = abit (writeBlockHeader blk.st.stripe_headers D (nstripesOf D) s.header_dest
            (s.mem, s.header_bit_offset)).1 (8 * s.header_dest + q) := by
      apply abit_of_load8_eq
      show load8 (packBlock _ _ _ _ _ _ _ _ (memset0 _ _ _)) _ = _
      rw [packBlock_below _ _ _ _ _ _ _ _ _ _ (by omega), load8_memset0, if_neg (by omega)]
      rfl
    show abit (rle_pack (rleCtxOf T x L D) blk s).mem (8 * s.header_dest + q) = false
    rw [e, hst, w2, h5 q (by omega) hq2, Bool.false_or]
    exact headerField_false_of_ge _ _ _ _ (by omega)

/-- One pass of the body of the block loop keeps the header invariant. -/
theorem RleHdr_step (T : Nat → Nat) (x : Mem) (L D d0 : Nat) (hD2 : D < 65536)
    (s s1 : RleEncState) (flag : Bool) (h : RleHdr D d0 RlePoint.blockHead s) (hb : s.b < 2)
    (hstep : rleBlockStep (rleCtxOf T x L D) s = some (s1, flag)) :
    RleHdr D d0 (if flag then RlePoint.loopEnd else RlePoint.blockHead) s1 := by
  rw [rleBlockStep_eq] at hstep
  obtain ⟨_, e2⟩ := rle_read_block_fields T x L D s
  have hr : RleHdr D d0 RlePoint.blockHead (rle_read_block (rleCtxOf T x L D) s).2 := by
    rw [e2]; exact h
  have hbr : (rle_read_block (rleCtxOf T x L D) s).2.b < 2 := by rw [e2]; exact hb
  obtain ⟨hp, hpb⟩ := RleHdr_prepare T x L D d0 (rle_read_block (rleCtxOf T x L D) s).1 _ hr hbr
  generalize rlePrepare (rleCtxOf T x L D) (rle_read_block (rleCtxOf T x L D) s).1
    (rle_read_block (rleCtxOf T x L D) s).2 = p at hstep hp hpb
  split_ifs at hstep with hdo
  · have hrun : p.run_length_nblocks < 0x7fff := hdo.2
    by_cases hc : p.src + 8 * D + 16 * D < L
    · rw [rle_do_rle_cont T x L D p hc hrun] at hstep
      simp only [Option.some.injEq, Prod.mk.injEq] at hstep
      obtain ⟨rfl, rfl⟩ := hstep
      exact hp
    · rw [rle_do_rle_exit T x L D p (by omega) hrun hpb] at hstep
      simp only [Option.some.injEq, Prod.mk.injEq] at hstep
      obtain ⟨rfl, rfl⟩ := hstep
      have hw := writeRunLength_dest_le p.mem p.dest (p.run_length_nblocks + 1)
      show d0 ≤ (writeRunLength p.mem p.dest (p.run_length_nblocks + 1)).2 + (1 - p.b)
      have := hp.1
      have := hp.2.1
      omega
  · simp only [Option.some.injEq, Prod.mk.injEq] at hstep
    obtain ⟨rfl, rfl⟩ := hstep
    exact RleHdr_pack T x L D d0 hD2 _ _ (deltaStripeStats_fst_eq T x s.src D s.deltas) p hp hpb

/-- The header invariant holds in every state that is reached. -/
theorem RleReach_hdr (T : Nat → Nat) (x dest : Mem) (L D : Nat) (write_size : Bool)
    (hD2 : D < 65536) (pt : RlePoint) (n : Nat) (s : RleEncState)
    (hs : RleReach (rleCtxOf T x L D) (rleInit dest write_size) pt n s) :
    RleHdr D (headerLen write_size) pt s := by
  induction hs with
  | init =>
    show headerLen write_size ≤ (if write_size then length_header_nbytes else 0)
    cases write_size <;> simp [headerLen, length_header_nbytes]
  | enter _ s _ _ ih => exact RleHdr_groupStart T x L D _ s ih
  | stop _ s _ _ ih => exact ih
  | step _ s s1 _ hb hstep ih => exact RleHdr_step T x L D _ hD2 s s1 false ih hb hstep
  | jump _ s s1 _ hb hstep ih => exact RleHdr_step T x L D _ hD2 s s1 true ih hb hstep
  | leave _ s _ _ ih => exact le_trans ih.1 (le_trans (Nat.le_add_right _ _) ih.2.1)

/-! ## The size invariants in the states that are reached -/

theorem rlePrepare_cases2 (c : RleCtx) (s : RleEncState) :
    (rleNewGroup c s = 0 ∧
      rlePrepare c (rle_read_block c s).1 (rle_read_block c s).2 = (rle_read_block c s).2) ∨
    (rleNewGroup c s = 0 ∧ 0 < s.run_length_nblocks ∧ s.b + 1 ≠ group_sz_blocks ∧
      rlePrepare c (rle_read_block c s).1 (rle_read_block c s).2
        = rleCloseRun c (rle_read_block c s).2) ∨
    (rleNewGroup c s = 1 ∧ 0 < s.run_length_nblocks ∧ s.b + 1 = group_sz_blocks ∧
      rlePrepare c (rle_read_block c s).1 (rle_read_block c s).2
        = rleGroupStart c (rleCloseRun c (rle_read_block c s).2)) := by
  have e1 : (rle_read_block c s).2.run_length_nblocks = s.run_length_nblocks := rfl
  have e2 : (rle_read_block c s).2.b = s.b := rfl
  unfold rlePrepare rleNewGroup
  rw [e1, e2]
  by_cases h1 : ¬ ((rle_read_block c s).1.row_width_bits = 0 ∧
      s.run_length_nblocks < max_run_nblocks) ∧ s.run_length_nblocks > 0
  · rw [if_pos h1]
    by_cases h2 : s.b + 1 = group_sz_blocks
    · rw [if_pos h2, if_pos ⟨h1.1, h1.2, h2⟩]
      exact Or.inr (Or.inr ⟨rfl, h1.2, h2, rfl⟩)
    · rw [if_neg h2, if_neg (fun h => h2 h.2.2)]
      exact Or.inr (Or.inl ⟨rfl, h1.2, h2, rfl⟩)
  · rw [if_neg h1, if_neg (fun h => h1 ⟨h.1, h.2.1⟩)]
    exact Or.inl ⟨rfl, rfl⟩

theorem RleBInv_closeRun (T : Nat → Nat) (x : Mem) (L D d0 : Nat) (hD1 : 1 ≤ D)
    (s : RleEncState) (G : Nat) (h : RleBInv D L d0 s G) (hrun : 0 < s.run_length_nblocks)
    (hb : s.b + 1 ≠ group_sz_blocks) (hb2 : s.b < 2) :
    RleBInv D L d0 (rleCloseRun (rleCtxOf T x L D) s) G := by
  obtain ⟨h1, h2, h3, h4, h5, h6, h7, h8, h9, h10, h11⟩ := h
  have hw := writeRunLength_dest_le s.mem s.dest s.run_length_nblocks
  have hlim := h10 hrun
  have h8D : 8 * D ≤ 8 * D * s.run_length_nblocks := Nat.le_mul_of_pos_right _ hrun
  have hb0 : s.b = 0 := by
    simp only [group_sz_blocks, kDefaultGroupSzBlocks] at hb; omega
  refine ⟨by show s.b + 1 ≤ 2; omega, h2, h3, by show (0 : Nat) ≤ _; omega, ?_, ?_,
    h7, ?_, ?_, ?_, ?_⟩
  · show (writeRunLength s.mem s.dest s.run_length_nblocks).2 + 8 * D * 0
      ≤ d0 + G * headerBytesOf D + s.src
    omega
  · show 16 * D * (G - 1) + 8 * D * (s.b + 1) + 8 * D * 0 ≤ s.src
    rw [hb0] at h6 ⊢
    omega
  · intro hh; exact absurd hh (by show ¬ s.b + 1 = 0; omega)
  · intro _; show s.src + 8 * D ≤ L; omega
  · intro hh; exact absurd hh (by show ¬ (0 : Nat) < 0; omega)
  · intro _; rfl

theorem RleBInv_closeRun_group (T : Nat → Nat) (x : Mem) (L D d0 : Nat) (hD1 : 1 ≤ D)
    (s : RleEncState) (G : Nat) (h : RleBInv D L d0 s G) (hrun : 0 < s.run_length_nblocks)
    (hb : s.b + 1 = group_sz_blocks) :
    RleBInv D L d0 (rleGroupStart (rleCtxOf T x L D) (rleCloseRun (rleCtxOf T x L D) s))
      (G + 1) := by
  obtain ⟨h1, h2, h3, h4, h5, h6, h7, h8, h9, h10, h11⟩ := h
  have hw := writeRunLength_dest_le s.mem s.dest s.run_length_nblocks
  have hlim := h10 hrun
  have h8D : 8 * D ≤ 8 * D * s.run_length_nblocks := Nat.le_mul_of_pos_right _ hrun
  have hb1 : s.b = 1 := by
    simp only [group_sz_blocks, kDefaultGroupSzBlocks] at hb; omega
  refine ⟨by show (0 : Nat) ≤ 2; omega, by omega, ?_, by show (0 : Nat) ≤ _; omega, ?_, ?_,
    h7, ?_, ?_, ?_, ?_⟩
  · show (s.ngroups + 1) % 2 ^ 32 = (G + 1) % 2 ^ 32
    rw [h3]; omega
  · show (writeRunLength s.mem s.dest s.run_length_nblocks).2 + headerBytesOf D
      + 8 * D * 0 ≤ d0 + (G + 1) * headerBytesOf D + s.src
    rw [Nat.add_mul]; omega
  · show 16 * D * (G + 1 - 1) + 8 * D * 0 + 8 * D * 0 ≤ s.src
    rw [hb1] at h6
    have : 16 * D * (G + 1 - 1) = 16 * D * (G - 1) + 16 * D := by
      obtain ⟨g, hg⟩ : ∃ g, G = g + 1 := ⟨G - 1, by omega⟩
      rw [hg]; simp only [Nat.add_sub_cancel]; ring
    omega
  · intro _; show s.src + 16 * D ≤ L; omega
  · intro hh; exact absurd hh (by show ¬ (0 : Nat) = 1; omega)
  · intro hh; exact absurd hh (by show ¬ (0 : Nat) < 0; omega)
  · intro _; rfl

/-- One pass of the body of the block loop keeps the size invariants; the
number of group headers grows by `rleNewGroup`. -/
theorem RleSize_step (T : Nat → Nat) (x : Mem) (L D d0 : Nat) (hD1 : 1 ≤ D) (hD2 : D < 65536)
    (s s1 : RleEncState) (flag : Bool) (G : Nat) (h : RleBInv D L d0 s G) (hb : s.b < 2)
    (hstep : rleBlockStep (rleCtxOf T x L D) s = some (s1, flag)) :
    RleSize D L d0 (if flag then RlePoint.loopEnd else RlePoint.blockHead) s1
      (G + rleNewGroup (rleCtxOf T x L D) s) := by
  rw [rleBlockStep_eq] at hstep
  obtain ⟨e1, e2⟩ := rle_read_block_fields T x L D s
  have hrb : (rle_read_block (rleCtxOf T x L D) s).1.out_row_nbytes ≤ D := by
    rw [e1]; exact rowBytesOf_deltaStripeStats_le T x _ D _ hD1 hD2
  have hinv : RleBInv D L d0 (rle_read_block (rleCtxOf T x L D) s).2 G := by
    rw [e2]; exact RleBInv_deltas D L d0 s G _ h
  have hbr : (rle_read_block (rleCtxOf T x L D) s).2.b < 2 := hb
  have hprun := rlePrepare_run (rleCtxOf T x L D) (rle_read_block (rleCtxOf T x L D) s).1
    (rle_read_block (rleCtxOf T x L D) s).2
  have hp : RleBInv D L d0 (rlePrepare (rleCtxOf T x L D) (rle_read_block (rleCtxOf T x L D) s).1
        (rle_read_block (rleCtxOf T x L D) s).2) (G + rleNewGroup (rleCtxOf T x L D) s) ∧
      (rlePrepare (rleCtxOf T x L D) (rle_read_block (rleCtxOf T x L D) s).1
        (rle_read_block (rleCtxOf T x L D) s).2).b < 2 := by
    rcases rlePrepare_cases2 (rleCtxOf T x L D) s with ⟨n0, e⟩ | ⟨n0, hr, hb2, e⟩ | ⟨n1, hr, hb2, e⟩
    · rw [e, n0]; exact ⟨hinv, hbr⟩
    · rw [e, n0]
      refine ⟨RleBInv_closeRun T x L D d0 hD1 _ G hinv hr hb2 hbr, ?_⟩
      show s.b + 1 < 2
      simp only [group_sz_blocks, kDefaultGroupSzBlocks] at hb2
      omega
    · rw [e, n1]
      exact ⟨RleBInv_closeRun_group T x L D d0 hD1 _ G hinv hr hb2, by show (0 : Nat) < 2; omega⟩
  obtain ⟨hp1, hp2⟩ := hp
  generalize rlePrepare (rleCtxOf T x L D) (rle_read_block (rleCtxOf T x L D) s).1
    (rle_read_block (rleCtxOf T x L D) s).2 = p at hstep hp1 hp2 hprun
  generalize G + rleNewGroup (rleCtxOf T x L D) s = G2 at hp1 ⊢
  split_ifs at hstep with hdo
  · have hsp := rle_do_rle_spec T x L D d0 hD1 p G2 hp1 hp2 hdo.2
    have hx : rle_do_rle (rleCtxOf T x L D) p = (s1, flag) := Option.some.inj hstep
    rw [hx] at hsp
    cases flag with
    | true => exact hsp.2 rfl
    | false => exact (hsp.1 rfl).1
  · simp only [Option.some.injEq, Prod.mk.injEq] at hstep
    obtain ⟨rfl, rfl⟩ := hstep
    have hrun0 : p.run_length_nblocks = 0 := by
      rcases hprun with h0 | ⟨hpe, hz, hlt⟩
      · exact h0
      · exact absurd ⟨hz, by rw [hpe]; exact hlt⟩ hdo
    exact (rle_pack_spec T x L D d0 _ p G2 hp1 hp2 hrun0 hrb).1

/-- The size invariants hold in every state that is reached, for the number of
group headers reserved on the way. -/
theorem RleReach_size (T : Nat → Nat) (x dest : Mem) (L D : Nat) (write_size : Bool)
    (hD1 : 1 ≤ D) (hD2 : D < 65536) (pt : RlePoint) (n : Nat) (s : RleEncState)
    (hs : RleReach (rleCtxOf T x L D) (rleInit dest write_size) pt n s) :
    RleSize D L (headerLen write_size) pt s n := by
  induction hs with
  | init => exact rleInit_inv D L dest write_size
  | enter n s _ hc ih => exact RleGInv_enter T x L D _ s n ih hc
  | stop n s _ hc ih =>
    obtain ⟨h1, h2, h3, h4, h5⟩ := ih
    have hc2 : L < s.src + 16 * D := by
      simp only [rleCtxOf, groupSzOf_eq] at hc
      omega
    exact ⟨h2, h3, h5, by omega, by omega⟩
  | step n s s1 _ hb hstep ih => exact RleSize_step T x L D _ hD1 hD2 s s1 false n ih hb hstep
  | jump n s s1 _ hb hstep ih => exact RleSize_step T x L D _ hD1 hD2 s s1 true n ih hb hstep
  | leave n s _ hb ih => exact RleBInv_leave D L _ s n ih hb

/-! ## C21: the boundary rule of the run-length encoder -/

/-- The code after `main_loop_end`: what was written from the first write
position on stays, and the rest of the input follows it. -/
theorem rleFinish_load8 (x : Mem) (L D : Nat) (write_size : Bool) (s : RleEncState)
    (h1 : s.src ≤ L) (h2 : L - s.src < 2 ^ 32) :
    ∃ out, rleFinish x L D write_size s = Outcome.returned out (s.dest + (L - s.src)) ∧
      (∀ k, headerLen write_size ≤ k → k < s.dest → load8 out k = load8 s.mem k) ∧
      (∀ k, k < L - s.src → load8 out (s.dest + k) = load8 x (s.src + k)) := by
  have hrem : (((L : Int) - (s.src : Int)) % 2 ^ 32).toNat = L - s.src := by
    have e : (L : Int) - (s.src : Int) = ((L - s.src : Nat) : Int) := by omega
    rw [e]
    have : ((L - s.src : Nat) : Int) % 2 ^ 32 = ((L - s.src : Nat) : Int) :=
      Int.emod_eq_of_lt (by omega) (by omega)
    rw [this]
    rfl
  unfold rleFinish
  simp only [hrem]
  refine ⟨_, rfl, fun k hk1 hk2 => ?_, fun k hk => ?_⟩
  · rw [load8_memcpy, if_neg (by omega)]
    cases write_size with
    | false => rfl
    | true =>
      have hk8 : 8 ≤ k := hk1
      simp only [if_true, write_metadata_rle_8b]
      rw [load8_storeLE, if_neg (by omega), load8_storeLE, if_neg (by omega), load8_storeLE,
        if_neg (by omega)]
  · rw [load8_memcpy, if_pos (by omega)]
    exact congrArg (load8 x) (by omega)

/-- C21 (boundary rule): let the encoder stand at the head of its block loop
in a state `s` reached from the call, with a free block slot, and let the block
at `src` have rows of width zero while fewer than `0x7fff` blocks are in the
run, so that the block extends the run.  If after this block the source is at
or past `src_end - group_sz`, the call returns, and in its output: the length
field of the run (`run_length_nblocks + 1`, in one byte, or in two with the
top bit of the first set) stands at `dest`; one zero byte follows for the
block slot still unused, if there is one; the header bits of the slot of the
run and of the unused slot are zero; what was written before stays; and all
remaining `L - src` input bytes follow verbatim as the end of the output. -/
theorem rle_boundary_rule (T : Nat → Nat) (x dest : Mem) (L D : Nat) (write_size : Bool)
    (n : Nat) (s : RleEncState) (hD1 : 1 ≤ D) (hD2 : D < 65536) (hL : 128 ≤ L)
    (hs : RleReach (rleCtxOf T x L D) (rleInit dest write_size) RlePoint.blockHead n s)
    (hb : s.b < group_sz_blocks)
    (hz : (rle_read_block (rleCtxOf T x L D) s).1.row_width_bits = 0)
    (hrun : s.run_length_nblocks < max_run_nblocks)
    (hend : L ≤ s.src + 8 * D + 16 * D) :
    ∃ out, compress8b_rowmajor_delta_rle T x L dest D write_size =
        some (Outcome.returned out
          (s.dest + (if s.run_length_nblocks + 1 ≤ 0x7f then 1 else 2) + (1 - s.b)
            + (L - (s.src + 8 * D)))) ∧
      load8 out s.dest = (s.run_length_nblocks + 1) % 128
        + (if s.run_length_nblocks + 1 ≤ 0x7f then 0 else 128) ∧
      (0x7f < s.run_length_nblocks + 1 →
        load8 out (s.dest + 1) = (s.run_length_nblocks + 1) / 128) ∧
      (∀ j, j < 1 - s.b →
        load8 out (s.dest + (if s.run_length_nblocks + 1 ≤ 0x7f then 1 else 2) + j) = 0) ∧
      (∀ q, 3 * D * s.b ≤ q → q < 8 * headerBytesOf D →
        abit out (8 * s.header_dest + q) = false) ∧
      (∀ k, headerLen write_size ≤ k → k < s.dest → load8 out k = load8 s.mem k) ∧
      (∀ k, k < L - (s.src + 8 * D) →
        load8 out (s.dest + (if s.run_length_nblocks + 1 ≤ 0x7f then 1 else 2) + (1 - s.b) + k)
          = load8 x (s.src + 8 * D + k)) := by
  have hb2 : s.b < 2 := hb
  have hrun2 : s.run_length_nblocks < 0x7fff := hrun
  have hG := RleReach_size T x dest L D write_size hD1 hD2 _ n s hs
  obtain ⟨g1, g2, g3, g4, g5⟩ := RleReach_hdr T x dest L D write_size hD2 _ n s hs
  have hread : s.src + 8 * D ≤ L := by
    obtain ⟨h1, h2, h3, h4, h5, h6, h7, h8, h9, h10, h11⟩ := hG
    rcases Nat.lt_or_ge s.b 1 with hb0 | hb1
    · have := h8 (by omega); omega
    · exact h9 (by omega)
  -- the pass of the block loop
  obtain ⟨_, e2⟩ := rle_read_block_fields T x L D s
  have hprep : rlePrepare (rleCtxOf T x L D) (rle_read_block (rleCtxOf T x L D) s).1
      (rle_read_block (rleCtxOf T x L D) s).2 = (rle_read_block (rleCtxOf T x L D) s).2 := by
    unfold rlePrepare
    rw [if_neg (fun h => h.1 ⟨hz, by rw [e2]; exact hrun⟩)]
  have hstep := rleBlockStep_eq (rleCtxOf T x L D) s
  have hx := rle_do_rle_exit T x L D
    { s with deltas := (deltaStripeStats T x s.src D s.deltas).2 } hend hrun2 hb2
  rw [hprep, if_pos ⟨hz, by rw [e2]; exact hrun⟩, e2, hx] at hstep
  have hreach := RleReach.jump n s _ hs hb hstep
  obtain ⟨r, hr, _, huniq⟩ := rleLoop_reach T x dest L D write_size hD1 hD2
  have hr2 := huniq _ _ hreach
  rw [compress8b_rowmajor_delta_rle_eq T x dest L D write_size (by omega), hr, ← hr2]
  have hw := fun k => writeRunLength_eq s.mem s.dest (s.run_length_nblocks + 1) k
  have hw2 : (writeRunLength s.mem s.dest (s.run_length_nblocks + 1)).2
      = s.dest + (if s.run_length_nblocks + 1 ≤ 0x7f then 1 else 2) := (hw 0).1
  have hd8 : headerLen write_size ≤ s.dest := by omega
  have key : ∀ s1 : RleEncState, s1.src = s.src + 8 * D →
      s1.dest = (writeRunLength s.mem s.dest (s.run_length_nblocks + 1)).2 + (1 - s.b) →
      s1.mem = (forLoop (1 - s.b) (fun _ (f : Mem × Nat) => (store8 f.1 f.2 0, f.2 + 1))
        (writeRunLength s.mem s.dest (s.run_length_nblocks + 1))).1 →
      ∃ out, Option.map (rleFinish x L D write_size) (some s1) =
        some (Outcome.returned out
          (s.dest + (if s.run_length_nblocks + 1 ≤ 0x7f then 1 else 2) + (1 - s.b)
            + (L - (s.src + 8 * D)))) ∧
      load8 out s.dest = (s.run_length_nblocks + 1) % 128
        + (if s.run_length_nblocks + 1 ≤ 0x7f then 0 else 128) ∧
      (0x7f < s.run_length_nblocks + 1 →
        load8 out (s.dest + 1) = (s.run_length_nblocks + 1) / 128) ∧
      (∀ j, j < 1 - s.b →
        load8 out (s.dest + (if s.run_length_nblocks + 1 ≤ 0x7f then 1 else 2) + j) = 0) ∧
      (∀ q, 3 * D * s.b ≤ q → q < 8 * headerBytesOf D →
        abit out (8 * s.header_dest + q) = false) ∧
      (∀ k, headerLen write_size ≤ k → k < s.dest → load8 out k = load8 s.mem k) ∧
      (∀ k, k < L - (s.src + 8 * D) →
        load8 out (s.dest + (if s.run_length_nblocks + 1 ≤ 0x7f then 1 else 2) + (1 - s.b) + k)
          = load8 x (s.src + 8 * D + k)) := by
    intro s1 f1 f2 f3
    obtain ⟨out, ho, o1, o2⟩ := rleFinish_load8 x L D write_size s1 (by omega) (by omega)
    rw [f1, f2, hw2] at ho o2
    rw [f2, hw2, f3] at o1
    -- the bytes of the final buffer below its `dest`
    have hmem : ∀ k, headerLen write_size ≤ k →
        k < s.dest + (if s.run_length_nblocks + 1 ≤ 0x7f then 1 else 2) + (1 - s.b) →
        load8 out k =
          if s.dest + (if s.run_length_nblocks + 1 ≤ 0x7f then 1 else 2) ≤ k then 0
          else load8 (writeRunLength s.mem s.dest (s.run_length_nblocks + 1)).1 k := by
      intro k hk1 hk2
      rw [o1 k hk1 hk2, fill_load8, hw2]
      generalize (if s.run_length_nblocks + 1 ≤ 0x7f then 1 else 2) = m at hk2 ⊢
      split_ifs <;> first | rfl | (exfalso; omega)
    have hlow : ∀ k, headerLen write_size ≤ k → k < s.dest → load8 out k = load8 s.mem k := by
      intro k hk1 hk2
      rw [hmem k hk1 (by omega), if_neg (by split_ifs <;> omega), (hw k).2]
      split_ifs <;> first | rfl | (exfalso; omega)
    refine ⟨out, by rw [Option.map_some']; exact congrArg some ho, ?_, ?_, ?_, ?_, hlow, o2⟩
    · rw [hmem s.dest hd8 (by split_ifs <;> omega), if_neg (by split_ifs <;> omega), (hw _).2]
      split_ifs <;> first | rfl | (exfalso; omega)
    · intro hbig
      rw [hmem (s.dest + 1) (by omega) (by split_ifs <;> omega),
        if_neg (by split_ifs <;> omega), (hw _).2, if_neg (by omega), if_neg (by omega),
        if_pos rfl]
      exact Nat.mod_eq_of_lt (by omega)
    · intro j hj
      rw [hmem _ (by omega) (by omega), if_pos (by omega)]
    · intro q hq1 hq2
      rw [← g5 q hq1 hq2]
      exact abit_of_load8_eq _ _ _ (hlow _ (by omega) (by omega))
  exact key _ rfl rfl rfl

theorem rle_boundary_rule_witness :
    ∃ out, compress8b_rowmajor_delta_rle NBITS_MASKS_U8 Mem.zero 128 Mem.zero 8 true =
        some (Outcome.returned out 80) ∧
      load8 out 14 = 1 ∧ load8 out 15 = 0 ∧
      (∀ q, 0 ≤ q → q < 48 → abit out (64 + q) = false) ∧
      (∀ k, k < 64 → load8 out (16 + k) = load8 Mem.zero (64 + k)) := by
  obtain ⟨out, h1, h2, _, h4, h5, _, h7⟩ :=
    rle_boundary_rule NBITS_MASKS_U8 Mem.zero Mem.zero 128 8 true 1
      (rleGroupStart (rleCtxOf NBITS_MASKS_U8 Mem.zero 128 8) (rleInit Mem.zero true))
      (by decide) (by decide) (by decide)
      (RleReach.enter 0 _ RleReach.init (by decide)) (by decide)
      (by set_option maxRecDepth 100000 in decide) (by decide) (by decide)
  exact ⟨out, h1, h2, h4 0 (by decide), h5, h7⟩

/-! ## C28: the delta stage of the encoders -/

/-- The zig-zag delta of row `i` of a block at `p`, when the previous values
on entry to the block are the row before `p`: every row is compared with the
record before it in the input. -/
theorem deltaBits_prevRow (x : Mem) (D p i d : Nat) (hd : d < D) :
    deltaBits x p D (prevRow x D p) i d =
      zigzag_encode_i8 ((load8 x (p + i * D + d) + 256 - prevRow x D (p + i * D) d) % 256) := by
  unfold deltaBits
  have e1 : p + (i * D + d) = p + i * D + d := by omega
  rw [e1]
  rcases Nat.eq_zero_or_pos i with rfl | hi
  · rw [if_pos rfl]
    simp only [Nat.zero_mul, Nat.add_zero]
  · rw [if_neg (by omega)]
    have hiD : D ≤ i * D := Nat.le_mul_of_pos_left D hi
    have e2 : (i - 1) * D = i * D - D := by
      rw [Nat.sub_mul, Nat.one_mul]
    rw [prevRow_pos x D (p + i * D) d (by omega), e2]
    have e3 : p + (i * D - D + d) = p + i * D - D + d := by omega
    rw [e3]

/-- The carry of `compress8b_rowmajor_delta` on entry to group `g`. -/
theorem deltaLoop_carry (T : Nat → Nat) (x : Mem) (L : Nat) (dest : Mem) (D : Nat)
    (write_size : Bool) (g : Nat) (d : Nat) (hd : d < D) :
    load8 (deltaLoop T x L dest D write_size g).deltas (8 * D + d)
      = prevRow x D (deltaLoop T x L dest D write_size g).enc.src d := by
  induction g with
  | zero => rfl
  | succ g ih =>
    rw [deltaLoop_succ, deltaGroup_deltas, deltaGroup_src,
      (deltaStripeStats_buf T x _ D _).2 d hd]
    have h16 : 16 ≤ 16 * D := by omega
    rw [prevRow_pos x D _ d (by omega)]
    exact congrArg (load8 x) (by omega)

theorem rlePrepare_src_deltas (c : RleCtx) (blk : RleBlock) (s : RleEncState) :
    (rlePrepare c blk s).src = s.src ∧ (rlePrepare c blk s).deltas = s.deltas := by
  rcases rlePrepare_cases c blk s with e | ⟨_, _, e⟩ | ⟨_, _, e⟩ <;> rw [e] <;> exact ⟨rfl, rfl⟩

theorem rle_do_rle_src_deltas (c : RleCtx) (s : RleEncState) :
    (rle_do_rle c s).1.src = s.src + block_sz * c.ndims ∧ (rle_do_rle c s).1.deltas = s.deltas := by
  unfold rle_do_rle
  simp only []
  split_ifs <;> exact ⟨rfl, rfl⟩

/-- One pass of the body of the block loop: the source advances by one block,
and the `deltas` buffer is the one that the read of the block left. -/
theorem rleBlockStep_src_deltas (T : Nat → Nat) (x : Mem) (L D : Nat) (s s1 : RleEncState)
    (flag : Bool) (hstep : rleBlockStep (rleCtxOf T x L D) s = some (s1, flag)) :
    s1.src = s.src + 8 * D ∧ s1.deltas = (deltaStripeStats T x s.src D s.deltas).2 := by
  rw [rleBlockStep_eq] at hstep
  have p1 : (rlePrepare (rleCtxOf T x L D) (rle_read_block (rleCtxOf T x L D) s).1
      (rle_read_block (rleCtxOf T x L D) s).2).src = s.src :=
    (rlePrepare_src_deltas (rleCtxOf T x L D) _ _).1
  have p2 : (rlePrepare (rleCtxOf T x L D) (rle_read_block (rleCtxOf T x L D) s).1
      (rle_read_block (rleCtxOf T x L D) s).2).deltas = (deltaStripeStats T x s.src D s.deltas).2 :=
    (rlePrepare_src_deltas (rleCtxOf T x L D) _ _).2
  generalize rlePrepare (rleCtxOf T x L D) (rle_read_block (rleCtxOf T x L D) s).1
    (rle_read_block (rleCtxOf T x L D) s).2 = p at hstep p1 p2
  split_ifs at hstep
  · obtain ⟨q1, q2⟩ := rle_do_rle_src_deltas (rleCtxOf T x L D) p
    have : rle_do_rle (rleCtxOf T x L D) p = (s1, flag) := Option.some.inj hstep
    rw [this] at q1 q2
    exact ⟨by rw [q1, p1]; rfl, by rw [q2, p2]⟩
  · simp only [Option.some.injEq, Prod.mk.injEq] at hstep
    obtain ⟨rfl, _⟩ := hstep
    exact ⟨by show p.src + block_sz * D = _; rw [p1]; rfl, by show p.deltas = _; rw [p2]⟩

/-- The carry of `compress8b_rowmajor_delta_rle` in every state that is
reached: row 8 of `deltas` is the row before `src`. -/
theorem RleReach_carry (T : Nat → Nat) (x dest : Mem) (L D : Nat) (write_size : Bool)
    (pt : RlePoint) (n : Nat) (s : RleEncState)
    (hs : RleReach (rleCtxOf T x L D) (rleInit dest write_size) pt n s) :
    ∀ d, d < D → load8 s.deltas (8 * D + d) = prevRow x D s.src d := by
  have key : ∀ (s s1 : RleEncState) (flag : Bool),
      rleBlockStep (rleCtxOf T x L D) s = some (s1, flag) →
      ∀ d, d < D → load8 s1.deltas (8 * D + d) = prevRow x D s1.src d := by
    intro s s1 flag hstep d hd
    obtain ⟨e1, e2⟩ := rleBlockStep_src_deltas T x L D s s1 flag hstep
    rw [e1, e2, (deltaStripeStats_buf T x _ D _).2 d hd, prevRow_pos x D _ d (by omega)]
    exact congrArg (load8 x) (by omega)
  induction hs with
  | init => intro d _; rfl
  | enter _ s _ _ ih => exact ih
  | stop _ s _ _ ih => exact ih
  | step _ s s1 _ _ hstep _ => exact key s s1 false hstep
  | jump _ s s1 _ _ hstep _ => exact key s s1 true hstep
  | leave _ s _ _ ih => exact ih

/-- C28: the delta stage of the encoders.  In `compress8b_rowmajor_delta`, for
every group `g` and both blocks of the group, and in
`compress8b_rowmajor_delta_rle`, for every state `s` reached at the head of the
block loop with a block still to read (blocks that go into a run included):
on entry to the block row 8 of `deltas` (`prev_vals`) holds the record before
the block in the input, all zero before the first record, and after the pass
the byte at row `i`, dimension `d` of `deltas` is `zigzag_encode_i8` of the
difference modulo 256 between the value of the record and the value of the same
dimension in the record just before it in the input. -/
theorem delta_stage_of_encoders (T : Nat → Nat) (x dest : Mem) (L D : Nat)
    (write_size : Bool) :
    (∀ g d, d < D →
      (deltaLoop T x L dest D write_size g).enc.src = g * (16 * D) ∧
      load8 (deltaLoop T x L dest D write_size g).deltas (8 * D + d)
        = prevRow x D (g * (16 * D)) d ∧
      load8 (deltaStripeStats T x (g * (16 * D)) D
          (deltaLoop T x L dest D write_size g).deltas).2 (8 * D + d)
        = prevRow x D (g * (16 * D) + 8 * D) d ∧
      ∀ i, i < 8 →
        load8 (deltaStripeStats T x (g * (16 * D)) D
            (deltaLoop T x L dest D write_size g).deltas).2 (i * D + d)
          = zigzag_encode_i8 ((load8 x (g * (16 * D) + i * D + d) + 256
              - prevRow x D (g * (16 * D) + i * D) d) % 256) ∧
        load8 (deltaStripeStats T x (g * (16 * D) + 8 * D) D
            (deltaStripeStats T x (g * (16 * D)) D
              (deltaLoop T x L dest D write_size g).deltas).2).2 (i * D + d)
          = zigzag_encode_i8 ((load8 x (g * (16 * D) + 8 * D + i * D + d) + 256
              - prevRow x D (g * (16 * D) + 8 * D + i * D) d) % 256)) ∧
    (∀ n s, RleReach (rleCtxOf T x L D) (rleInit dest write_size) RlePoint.blockHead n s →
      s.b < group_sz_blocks → ∀ d, d < D →
      load8 s.deltas (8 * D + d) = prevRow x D s.src d ∧
      ∀ i, i < 8 →
        load8 (rle_read_block (rleCtxOf T x L D) s).2.deltas (i * D + d)
          = zigzag_encode_i8 ((load8 x (s.src + i * D + d) + 256
              - prevRow x D (s.src + i * D) d) % 256)) := by
  constructor
  · intro g d hd
    have hsrc := deltaLoop_src T x L dest D write_size g
    have hc := deltaLoop_carry T x L dest D write_size g
    rw [hsrc] at hc
    have b0 := deltaStripeStats_buf T x (g * (16 * D)) D (deltaLoop T x L dest D write_size g).deltas
    have hc1 : ∀ d, d < D →
        load8 (deltaStripeStats T x (g * (16 * D)) D
          (deltaLoop T x L dest D write_size g).deltas).2 (8 * D + d)
        = prevRow x D (g * (16 * D) + 8 * D) d := by
      intro d hd
      rw [b0.2 d hd, prevRow_pos x D _ d (by omega)]
      exact congrArg (load8 x) (by omega)
    have b1 := deltaStripeStats_buf T x (g * (16 * D) + 8 * D) D
      (deltaStripeStats T x (g * (16 * D)) D (deltaLoop T x L dest D write_size g).deltas).2
    refine ⟨hsrc, hc d hd, hc1 d hd, fun i hi => ⟨?_, ?_⟩⟩
    · rw [b0.1 i d hi hd, ← deltaBits_prevRow x D _ i d hd]
      exact deltaBits_congr _ _ _ _ _ _ _ (hc d hd)
    · rw [b1.1 i d hi hd, ← deltaBits_prevRow x D _ i d hd]
      exact deltaBits_congr _ _ _ _ _ _ _ (hc1 d hd)
  · intro n s hs _ d hd
    have hc := RleReach_carry T x dest L D write_size _ n s hs
    refine ⟨hc d hd, fun i hi => ?_⟩
    obtain ⟨_, e2⟩ := rle_read_block_fields T x L D s
    rw [e2]
    show load8 (deltaStripeStats T x s.src D s.deltas).2 (i * D + d) = _
    rw [(deltaStripeStats_buf T x s.src D s.deltas).1 i d hi hd,
      ← deltaBits_prevRow x D _ i d hd]
    exact deltaBits_congr _ _ _ _ _ _ _ (hc d hd)

/-! ## How far the decoders write -/

theorem round_up_32_lt (x : Nat) : round_up_to_multiple x 32 < x + 32 := by
  unfold round_up_to_multiple
  split_ifs <;> omega

/-- One block of `decompress8b_rowmajor` writes nothing from 7 bytes after the
block on. -/
theorem rowmajorDecBlock_above (D : Nat) (cm : Mem) (b : Nat) (s : DecState) (k : Nat)
    (hk : s.dest + 8 * D + 7 ≤ k) :
    load8 (rowmajorDecBlock (decDims D) cm b s).mem k = load8 s.mem k := by
  have hns := nstripesOf_le D
  unfold rowmajorDecBlock
  simp only []
  apply unpackBlock_frame
  intro st i hst hi
  have hst2 : st < nstripesOf D := hst
  have hiD : i * D ≤ 7 * D := Nat.mul_le_mul_right D (by omega)
  show ¬ (s.dest + st * 8 + i * D ≤ k ∧ k < s.dest + st * 8 + i * D + 8)
  omega

theorem rowmajorDecGroup_above (D : Nat) (cm : Mem) (s : DecState) (k : Nat)
    (hk : s.dest + 16 * D + 7 ≤ k) :
    (rowmajorDecGroup (decDims D) cm s).dest = s.dest + 16 * D ∧
    load8 (rowmajorDecGroup (decDims D) cm s).mem k = load8 s.mem k := by
  rw [rowmajorDecGroup_unfold]
  constructor
  · show s.dest + block_sz * D + block_sz * D = _
    simp only [block_sz]; omega
  · rw [rowmajorDecBlock_above D cm 1 _ k (by
      show s.dest + block_sz * D + 8 * D + 7 ≤ k
      simp only [block_sz]; omega)]
    exact rowmajorDecBlock_above D cm 0 _ k (by show s.dest + 8 * D + 7 ≤ k; omega)

theorem rowmajorDecLoop_above (cm dest2 : Mem) (D g : Nat) :
    (rowmajorDecLoop cm dest2 D g).dest = 16 * D * g ∧
    ∀ k, 16 * D * g + 7 ≤ k → load8 (rowmajorDecLoop cm dest2 D g).mem k = load8 dest2 k := by
  induction g with
  | zero => exact ⟨rfl, fun _ _ => rfl⟩
  | succ g ih =>
    rw [rowmajorDecLoop_succ]
    have e : 16 * D * (g + 1) = 16 * D * g + 16 * D := by ring
    constructor
    · rw [(rowmajorDecGroup_above D cm _ (16 * D * (g + 1) + 7) (by rw [ih.1]; omega)).1, ih.1, e]
    · intro k hk
      rw [(rowmajorDecGroup_above D cm _ k (by rw [ih.1]; omega)).2]
      exact ih.2 k (by omega)

/-- `decompress8b_rowmajor` on a stream with the header `(L, D)` writes
nothing from index `L + 7` on. -/
theorem decompress8b_rowmajor_above (cm dest2 : Mem) (L D : Nat)
    (hmd : read_metadata_8b cm = (L, D)) (hD1 : 1 ≤ D) (k : Nat) (hk : L + 7 ≤ k) :
    load8 (decompress8b_rowmajor cm dest2).dest k = load8 dest2 k := by
  by_cases hL : 128 ≤ L
  · rw [decompress8b_rowmajor_large cm dest2 L D hmd hL hD1]
    obtain ⟨d1, d2⟩ := rowmajorDecLoop_above cm dest2 D (L / (16 * D))
    have hle : 16 * D * (L / (16 * D)) ≤ L := Nat.mul_div_le L (16 * D)
    have hrem : (L - 16 * D * (L / (16 * D))) % 2 ^ 32 ≤ L - 16 * D * (L / (16 * D)) :=
      Nat.mod_le _ _
    show load8 (memcpy _ _ _ _ _) k = _
    rw [d1, load8_memcpy, if_neg (by omega)]
    exact d2 k (by omega)
  · unfold decompress8b_rowmajor
    simp only [hmd, block_sz, group_sz_blocks, kDefaultGroupSzBlocks]
    rw [if_pos (by simp; omega)]
    show load8 (memcpy _ _ _ _ _) k = _
    have : L % 2 ^ 32 ≤ L := Nat.mod_le _ _
    rw [load8_memcpy, if_neg (by omega)]

/-- The row loop of "undo delta coding" writes 32 bytes per row. -/
theorem deltaDecodeRows_above (D P out v : Nat) (dl : Mem) (k : Nat) (m : Mem) (a : Nat)
    (ha : ∀ i, i < k → ¬ (out + (i * D + v * 32) ≤ a ∧ a < out + (i * D + v * 32) + 32)) :
    load8 (deltaDecodeRows D P out v dl k m).1 a = load8 m a := by
  induction k with
  | zero => rfl
  | succ k ih =>
    rw [deltaDecodeRows_succ]
    show load8 (mm256_storeu_si256 _ _ _) a = _
    rw [load8_storeu, if_neg (ha k (by omega))]
    exact ih (fun i hi => ha i (by omega))

/-- "undo delta coding" of a block writes nothing from the end of its last
32-lane vector of the last row on. -/
theorem deltaDecodeBlock_above (D P nv out : Nat) (s : Mem × Mem) (a : Nat)
    (ha : out + 7 * D + 32 * nv ≤ a) :
    load8 (deltaDecodeBlock D P nv out s).1 a = load8 s.1 a := by
  rw [deltaDecodeBlock_eq]
  refine forLoopDown_inv (fun r => load8 r.1 a = load8 s.1 a) nv _ s rfl ?_
  intro v r hv hr
  show load8 (deltaDecodeRows D P out v r.2 block_sz r.1).1 a = _
  rw [deltaDecodeRows_above D P out v r.2 block_sz r.1 a (fun i hi => by
    have hi8 : i < 8 := hi
    have hiD : i * D ≤ 7 * D := Nat.mul_le_mul_right D (by omega)
    omega)]
  exact hr

theorem deltaDecBlock_above (D : Nat) (cm : Mem) (b : Nat) (s : DeltaDecState) (k : Nat)
    (hk : s.dec.dest + 7 * D + round_up_to_multiple D 32 ≤ k) :
    load8 (deltaDecBlock (decDims D) (round_up_to_multiple D 32)
      (round_up_to_multiple D 32 / 32) cm b s).dec.mem k = load8 s.dec.mem k := by
  have h32 := round_up_32_mod D
  have e : 32 * (round_up_to_multiple D 32 / 32) = round_up_to_multiple D 32 := by omega
  unfold deltaDecBlock
  simp only []
  exact deltaDecodeBlock_above D _ _ s.dec.dest _ k (by
    show s.dec.dest + 7 * D + 32 * (round_up_to_multiple D 32 / 32) ≤ k
    rw [e]; exact hk)

theorem deltaDecGroup_above (D : Nat) (cm : Mem) (s : DeltaDecState) (k : Nat)
    (hk : s.dec.dest + 15 * D + round_up_to_multiple D 32 ≤ k) :
    (deltaDecGroup (decDims D) (round_up_to_multiple D 32) (round_up_to_multiple D 32 / 32)
      cm s).dec.dest = s.dec.dest + 16 * D ∧
    load8 (deltaDecGroup (decDims D) (round_up_to_multiple D 32) (round_up_to_multiple D 32 / 32)
      cm s).dec.mem k = load8 s.dec.mem k := by
  rw [deltaDecGroup_unfold]
  constructor
  · show s.dec.dest + block_sz * D + block_sz * D = _
    simp only [block_sz]; omega
  · rw [deltaDecBlock_above D cm 1 _ k (by
      show s.dec.dest + block_sz * D + 7 * D + round_up_to_multiple D 32 ≤ k
      simp only [block_sz]; omega)]
    exact deltaDecBlock_above D cm 0 _ k (by
      show s.dec.dest + 7 * D + round_up_to_multiple D 32 ≤ k
      omega)

theorem deltaDecLoop_above (cm dest2 : Mem) (D g : Nat) :
    (deltaDecLoop cm dest2 D g).dec.dest = 16 * D * g ∧
    ∀ k, 16 * D * g + round_up_to_multiple D 32 ≤ k + D →
      load8 (deltaDecLoop cm dest2 D g).dec.mem k = load8 dest2 k := by
  have hge := round_up_32_ge D
  induction g with
  | zero => exact ⟨rfl, fun _ _ => rfl⟩
  | succ g ih =>
    rw [deltaDecLoop_succ]
    have e : 16 * D * (g + 1) = 16 * D * g + 16 * D := by ring
    constructor
    · rw [(deltaDecGroup_above D cm _ (16 * D * (g + 1) + round_up_to_multiple D 32)
        (by rw [ih.1]; omega)).1, ih.1, e]
    · intro k hk
      rw [(deltaDecGroup_above D cm _ k (by rw [ih.1]; omega)).2]
      exact ih.2 k (by omega)

/-- `decompress8b_rowmajor_delta` on a stream with the header `(L, D)` writes
nothing from index `L + 31` on. -/
theorem decompress8b_rowmajor_delta_above (cm dest2 : Mem) (L D : Nat)
    (hmd : read_metadata_8b cm = (L, D)) (hD1 : 1 ≤ D) (k : Nat) (hk : L + 31 ≤ k) :
    load8 (decompress8b_rowmajor_delta cm dest2).dest k = load8 dest2 k := by
  have hlt := round_up_32_lt D
  by_cases hL : 128 ≤ L
  · rw [decompress8b_rowmajor_delta_large cm dest2 L D hmd hL hD1]
    obtain ⟨d1, d2⟩ := deltaDecLoop_above cm dest2 D (L / (16 * D))
    have hle : 16 * D * (L / (16 * D)) ≤ L := Nat.mul_div_le L (16 * D)
    have hrem : (L - 16 * D * (L / (16 * D))) % 2 ^ 32 ≤ L - 16 * D * (L / (16 * D)) :=
      Nat.mod_le _ _
    show load8 (memcpy _ _ _ _ _) k = _
    rw [d1, load8_memcpy, if_neg (by omega)]
    exact d2 k (by omega)
  · unfold decompress8b_rowmajor_delta
    simp only [hmd, block_sz, group_sz_blocks, kDefaultGroupSzBlocks]
    rw [if_pos (by simp; omega)]
    show load8 (memcpy _ _ _ _ _) k = _
    have : L % 2 ^ 32 ≤ L := Nat.mod_le _ _
    rw [load8_memcpy, if_neg (by omega)]

/-- One block of the run-length decoder on a stream that holds the slot of
the block writes nothing from the end of the last 32-lane vector on. -/
theorem rleDecBlock_slot_above (T : Nat → Nat) (x : Mem) (D : Nat) (dm : Nat → Nat) (n p : Nat)
    (cm : Mem) (g b : Nat) (ds : DeltaDecState) (hD1 : 1 ≤ D) (hD2 : D < 16385)
    (hslot : SlotInStream cm T x D dm n p ds.dec.src)
    (hw2 : ∀ k, k < nstripesOf D →
      loadLE 8 ds.dec.tm.stripe_bitwidths (8 * (b * nstripesOf D + k))
        = (statsOf T dm D).stripe_bitwidths.get k)
    (hdest : ds.dec.dest = p)
    (hgb : (g > 0 ∨ b > 0) ↔ 0 < p) (hpD : 0 < p → D ≤ p) (k : Nat)
    (hk : p + 8 * D * n + round_up_to_multiple D 32 ≤ k + D) :
    load8 (rleDecBlock (decDims D) (round_up_to_multiple D 32) (round_up_to_multiple D 32 / 32)
      cm g b ds).dec.mem k = load8 ds.dec.mem k := by
  obtain ⟨hok, hrun, hpk⟩ := hslot
  have hge := round_up_32_ge D
  have hbits := dec_row_nbits T dm D hD1 (by omega) b ds.dec.tm hw2
  by_cases hz : sumTo (nstripesOf D) (statsOf T dm D).stripe_bitwidths.get = 0
  · obtain ⟨hn, hrl, hx⟩ := hrun hz
    have hcomm : n * 8 * D = 8 * D * n := by ring
    rw [rleDecBlock_run_state D cm g b p ds hD2 (by rw [hbits]; exact hz) hgb hdest, hrl]
    show load8 (if 0 < p then memrep ds.dec.mem p (p - D) D (n * 8)
      else memset0 ds.dec.mem p (n * 8 * D)) k = _
    by_cases hp : 0 < p
    · have := hpD hp
      rw [if_pos hp, memrep_load8 _ _ _ _ (by omega), if_neg (by omega)]
    · rw [if_neg hp, load8_memset0, if_neg (by omega)]
  · obtain ⟨hn1, _⟩ := hpk hz
    rw [rleDecBlock_packed _ _ _ _ _ _ _ (by rw [hbits]; exact hz)]
    exact deltaDecBlock_above D cm b ds k (by rw [hdest]; rw [hn1] at hk; omega)

/-- One pass of the group loop of the run-length decoder on a stream that
holds a group header and the slots of its two blocks writes nothing from the
end of the last 32-lane vector on. -/
theorem rleDecGroup_above (T : Nat → Nat) (x : Mem) (D : Nat) (dm0 dm1 : Nat → Nat)
    (n0 n1 p : Nat) (cm : Mem) (g : Nat) (ds : DeltaDecState) (hD1 : 1 ≤ D) (hD2 : D < 16385)
    (hs0 : SlotInStream cm T x D dm0 n0 p (ds.dec.src + headerBytesOf D))
    (hs1 : SlotInStream cm T x D dm1 n1 (p + 8 * D * n0)
      (ds.dec.src + headerBytesOf D + slotBytes T D dm0 n0))
    (hh0 : ∀ d j, d < D → j < 3 →
      abit cm (8 * ds.dec.src + 3 * d + j) = (writeNbits (maskOf T dm0 d)).testBit j)
    (hh1 : ∀ d j, d < D → j < 3 →
      abit cm (8 * ds.dec.src + 3 * D + 3 * d + j) = (writeNbits (maskOf T dm1 d)).testBit j)
    (hpad : HeadersPadded D ds.dec.tm.headers)
    (hat : DecAt x D ds ds.dec.src p)
    (hg : 0 < g ↔ 0 < p) (hpD : 0 < p → D ≤ p) (hn0 : 1 ≤ n0) (k : Nat)
    (hk : p + 8 * D * n0 + 8 * D * n1 + round_up_to_multiple D 32 ≤ k + D) :
    load8 (rleDecGroup (decDims D) (round_up_to_multiple D 32)
      (round_up_to_multiple D 32 / 32) cm g ds).dec.mem k = load8 ds.dec.mem k := by
  have hspec := readGroupHeader_spec T (fun b => if b = 0 then dm0 else dm1) D cm ds.dec.src
    ds.dec.tm hD1
    (by
      intro b d hb hd
      have : b = 0 ∨ b = 1 := by omega
      rcases this with rfl | rfl
      · exact hs0.1 d hd
      · exact hs1.1 d hd)
    (by
      intro b d j hb hd hj
      have : b = 0 ∨ b = 1 := by omega
      rcases this with rfl | rfl
      · have := hh0 d j hd hj
        simp only [Nat.zero_mul, Nat.zero_add, if_true]
        exact this
      · have := hh1 d j hd hj
        simp only [Nat.one_mul, if_neg (show ¬ (1 : Nat) = 0 from by omega)]
        rw [show 8 * ds.dec.src + 3 * (D + d) + j = 8 * ds.dec.src + 3 * D + 3 * d + j
          from by ring]
        exact this)
    hpad
  obtain ⟨hpad2, hwords⟩ := hspec
  have hw0 := fun k hk => (hwords 0 k (by omega) hk)
  have hw1 := fun k hk => (hwords 1 k (by omega) hk)
  simp only [if_true, if_neg (show ¬ (1 : Nat) = 0 from by omega)] at hw0 hw1
  have e3 : (decDims D).total_header_bytes = headerBytesOf D := rfl
  obtain ⟨_, hdest, hpre, hprev⟩ := hat
  have hp8 : 0 < p + 8 * D * n0 := by
    have : 0 < 8 * D * n0 := Nat.mul_pos (by omega) hn0
    omega
  rw [rleDecGroup_unfold, e3]
  obtain ⟨a1, a2⟩ := rleDecBlock_slot T x D dm0 n0 p cm (8 * ds.dec.src) g 0
    ⟨⟨ds.dec.src + headerBytesOf D, ds.dec.dest, ds.dec.mem,
      readGroupHeader (decDims D) cm ds.dec.src ds.dec.tm⟩, ds.deltas⟩ hD1 hD2 hs0 hh0
    (fun k hk => (hw0 k hk).1) (fun k hk => (hw0 k hk).2) ⟨rfl, hdest, hpre, hprev⟩
    ⟨fun h => by omega, fun h => Or.inl (hg.mpr h)⟩ hpD
  have a3 := rleDecBlock_slot_above T x D dm0 n0 p cm g 0
    ⟨⟨ds.dec.src + headerBytesOf D, ds.dec.dest, ds.dec.mem,
      readGroupHeader (decDims D) cm ds.dec.src ds.dec.tm⟩, ds.deltas⟩ hD1 hD2 hs0
    (fun k hk => (hw0 k hk).2) hdest
    ⟨fun h => by omega, fun h => Or.inl (hg.mpr h)⟩ hpD k (by omega)
  generalize rleDecBlock (decDims D) (round_up_to_multiple D 32)
    (round_up_to_multiple D 32 / 32) cm g 0
    ⟨⟨ds.dec.src + headerBytesOf D, ds.dec.dest, ds.dec.mem,
      readGroupHeader (decDims D) cm ds.dec.src ds.dec.tm⟩, ds.deltas⟩ = r0 at a1 a2 a3 ⊢
  have a1b : r0.dec.tm = readGroupHeader (decDims D) cm ds.dec.src ds.dec.tm := a1
  have a2b : DecAt x D r0 (ds.dec.src + headerBytesOf D + slotBytes T D dm0 n0)
      (p + 8 * D * n0) := a2
  have a2c := a2b.1
  have a3b : load8 r0.dec.mem k = load8 ds.dec.mem k := a3
  rw [← a3b]
  exact rleDecBlock_slot_above T x D dm1 n1 (p + 8 * D * n0) cm g 1 r0 hD1 hD2
    (by rw [a2c]; exact hs1)
    (fun k hk => by rw [a1b]; exact (hw1 k hk).2) a2b.2.1
    ⟨fun _ => hp8, fun _ => Or.inr (by omega)⟩
    (fun _ => by
      rcases Nat.eq_zero_or_pos p with h0 | hp
      · have : D ≤ 8 * D * n0 := by
          calc D ≤ 8 * D := by omega
            _ ≤ 8 * D * n0 := Nat.le_mul_of_pos_right _ hn0
        omega
      · have := hpD hp
        omega) k hk

/-! ## C3: the stream of the run-length encoder, read by the decoder -/

theorem rleDecLoop_succ (cm dest2 : Mem) (D n : Nat) :
    rleDecLoop cm dest2 D (n + 1) =
      rleDecGroup (decDims D) (round_up_to_multiple D 32) (round_up_to_multiple D 32 / 32) cm n
        (rleDecLoop cm dest2 D n) := by
  unfold rleDecLoop
  rw [forLoop]
  simp only [nvectors_eq]
  rfl

/-- A group is complete: the decoder reads it. -/
theorem RleBC_leave (T : Nat → Nat) (x : Mem) (D n : Nat) (s : RleEncState)
    (hD1 : 1 ≤ D) (hD2 : D < 16385) (h : RleBC T x D n s) (hb : s.b = 2)
    (hhd : s.header_dest + headerBytesOf D ≤ s.dest) : RleGC x D n s := by
  obtain ⟨p0, q, n0, n1, dm0, dm1, c1, c2, c3, c4, c5, _, _, c8, _, _, c11, c12⟩ := h
  obtain ⟨k1, k2, k3, k4⟩ := c8 hb
  have h8D : 8 * D ≤ 8 * D * n0 := Nat.le_mul_of_pos_right _ k1
  rw [k3] at c5
  refine ⟨by omega, ⟨fun _ => by omega, fun _ => c2⟩, fun _ => by omega, ?_⟩
  intro cm dest2 hag
  obtain ⟨e1, e2, e3⟩ := c11 cm dest2 (fun k a b => hag k a (by omega))
  have hhb := headerBytesOf_ge D
  obtain ⟨f1, f2⟩ := c12 cm
    (fun t ht => abit_of_load8_eq _ _ _ (hag _ (by omega) (by
      have : 3 * D * s.b = 6 * D := by rw [hb]; ring
      omega)))
    (fun k a b => hag k (by omega) b)
  obtain ⟨s0, h0⟩ := f1 (by omega)
  obtain ⟨s1, h1⟩ := f2 (by omega)
  obtain ⟨n', rfl⟩ : ∃ n', n = n' + 1 := ⟨n - 1, by omega⟩
  rw [Nat.add_sub_cancel] at e1 e2 e3
  have hsrc : (rleDecLoop cm dest2 D n').dec.src = s.header_dest := e2.1
  rw [rleDecLoop_succ]
  have := rleDecGroup_spec T x D dm0 dm1 n0 n1 p0 cm n' (rleDecLoop cm dest2 D n') hD1 hD2
    (by rw [hsrc]; exact s0) (by rw [hsrc]; exact s1)
    (by rw [hsrc]; exact h0) (by rw [hsrc]; exact h1) e1 (by rw [hsrc]; exact e2)
    (by omega) c4 k1
  rw [hsrc] at this
  rw [k4, c5, k2, Nat.mul_zero, Nat.add_zero]
  refine ⟨this.1, this.2, fun k hk => ?_⟩
  rw [rleDecGroup_above T x D dm0 dm1 n0 n1 p0 cm n' (rleDecLoop cm dest2 D n') hD1 hD2
    (by rw [hsrc]; exact s0) (by rw [hsrc]; exact s1)
    (by rw [hsrc]; exact h0) (by rw [hsrc]; exact h1) e1 (by rw [hsrc]; exact e2)
    (by omega) c4 k1 k hk]
  exact e3 k (by omega)

/-- A group begins. -/
theorem RleGC_enter (T : Nat → Nat) (x : Mem) (L D n : Nat) (s : RleEncState)
    (h : RleGC x D n s) (hrun : s.run_length_nblocks = 0) :
    RleBC T x D (n + 1) (rleGroupStart (rleCtxOf T x L D) s) := by
  obtain ⟨g1, g2, g3, g4⟩ := h
  refine ⟨s.src, s.src, 0, 0, fun _ => 0, fun _ => 0, g1, by omega, ?_, g3, ?_, ?_, ?_, ?_, ?_,
    ?_, ?_, ?_⟩
  · constructor
    · intro hn; exact g2.1 (by omega)
    · intro hp; have := g2.2 hp; omega
  · show s.src = s.src + 8 * D * s.run_length_nblocks
    rw [hrun]; rfl
  · intro _; exact ⟨rfl, rfl⟩
  · intro hb; exact absurd hb (by show ¬ (0 : Nat) = 1; omega)
  · intro hb; exact absurd hb (by show ¬ (0 : Nat) = 2; omega)
  · intro k hk
    have : k < 8 * D * s.run_length_nblocks := hk
    rw [hrun] at this
    omega
  · intro hr
    have : 0 < s.run_length_nblocks := hr
    omega
  · intro cm dest2 hag
    rw [Nat.add_sub_cancel]
    refine g4 cm dest2 (fun k a b => ?_)
    rw [hag k a b]
    show load8 (memset0 s.mem s.dest (headerBytesOf D)) k = _
    rw [load8_memset0, if_neg (by omega)]
  · intro cm _ _
    exact ⟨fun hb => absurd hb (by show ¬ 1 ≤ (0 : Nat); omega),
      fun hb => absurd hb (by show ¬ 2 ≤ (0 : Nat); omega)⟩

/-- The slot of one more block is written: what the invariant has to be told
about it. -/
theorem RleBC_add_slot (T : Nat → Nat) (x : Mem) (D n : Nat) (s s1 : RleEncState)
    (dm : Nat → Nat) (m : Nat) (h : RleBC T x D n s) (hb : s.b < 2)
    (hrun1 : s1.run_length_nblocks = 0) (hhd1 : s1.header_dest = s.header_dest)
    (hb1 : s1.b = s.b + 1)
    (hsrc : s1.src + 8 * D * s.run_length_nblocks = s.src + 8 * D * m)
    (hm : s.b = 0 → 1 ≤ m)
    (hdest : s1.dest = s.dest + slotBytes T D dm m)
    (hfr1 : ∀ k, k < s.dest →
      ¬ (s.header_dest ≤ k ∧ k < s.header_dest + headerBytesOf D) →
      load8 s1.mem k = load8 s.mem k)
    (hfr2 : ∀ t, t < 3 * D * s.b →
      abit s1.mem (8 * s.header_dest + t) = abit s.mem (8 * s.header_dest + t))
    (hslot : ∀ cm,
      (∀ t, 3 * D * s.b ≤ t → t < 3 * D * (s.b + 1) →
        abit cm (8 * s.header_dest + t) = abit s1.mem (8 * s.header_dest + t)) →
      StreamAgree cm s1.mem s.dest s1.dest →
      SlotInStream cm T x D dm m (s1.src - 8 * D * m) s.dest ∧
      HdrFields cm T D dm (8 * s.header_dest + 3 * D * s.b)) :
    RleBC T x D n s1 := by
  obtain ⟨p0, q, n0, n1, dm0, dm1, c1, c2, c3, c4, c5, c6, c7, c8, c9, c10, c11, c12⟩ := h
  have hq : s1.src - 8 * D * m = q := by omega
  have hE : ∀ cm dest2, StreamAgree cm s1.mem 8 s1.header_dest →
      HeadersPadded D (rleDecLoop cm dest2 D (n - 1)).dec.tm.headers ∧
      DecAt x D (rleDecLoop cm dest2 D (n - 1)) s1.header_dest p0 ∧
      DecAbove D (rleDecLoop cm dest2 D (n - 1)) dest2 p0 := by
    intro cm dest2 hag
    rw [hhd1] at hag ⊢
    have hdd : s.header_dest ≤ s.dest := by
      rcases Nat.eq_zero_or_pos s.b with h0 | h1
      · have := (c6 h0).2; omega
      · have := (c7 (by omega)).2.2; omega
    exact c11 cm dest2 (fun k a b => by
      rw [hag k a b]
      exact hfr1 k (by omega) (by omega))
  rcases Nat.eq_zero_or_pos s.b with h0 | h1
  · -- the slot of block 0
    obtain ⟨k1, k2⟩ := c6 h0
    refine ⟨p0, s1.src, m, n1, dm, dm1, by rw [hhd1]; exact c1, c2, c3, c4, ?_, ?_, ?_, ?_,
      ?_, ?_, hE, ?_⟩
    · rw [hrun1]; rfl
    · intro hh; rw [hb1] at hh; omega
    · intro _
      refine ⟨hm h0, by omega, ?_⟩
      rw [hhd1, hdest, k2]
    · intro hh; rw [hb1] at hh; omega
    · intro k hk; rw [hrun1] at hk; omega
    · intro hr; rw [hrun1] at hr; omega
    · intro cm hbits hag
      rw [hhd1] at hbits hag ⊢
      rw [hb1, h0] at hbits
      constructor
      · intro _
        have := hslot cm (fun t _ ht2 => hbits t (by rw [h0] at ht2; exact ht2))
          (fun k a b => hag k (by omega) b)
        rw [hq, h0, k2] at this
        rw [k1] at this
        simpa using this
      · intro hh; rw [hb1, h0] at hh; omega
  · -- the slot of block 1
    have hb1' : s.b = 1 := by omega
    obtain ⟨k1, k2, k3⟩ := c7 hb1'
    refine ⟨p0, s1.src, n0, m, dm0, dm, by rw [hhd1]; exact c1, c2, c3, c4, ?_, ?_, ?_, ?_,
      ?_, ?_, hE, ?_⟩
    · rw [hrun1]; rfl
    · intro hh; rw [hb1] at hh; omega
    · intro hh; rw [hb1] at hh; omega
    · intro _
      refine ⟨k1, by omega, hrun1, ?_⟩
      rw [hhd1, hdest, k3]
    · intro k hk; rw [hrun1] at hk; omega
    · intro hr; rw [hrun1] at hr; omega
    · intro cm hbits hag
      rw [hhd1] at hbits hag ⊢
      rw [hb1, hb1'] at hbits
      have hold := c12 cm
        (fun t ht => by
          rw [hbits t (by rw [hb1'] at ht; omega)]
          exact hfr2 t ht)
        (fun k a b => by
          rw [hag k a (by omega)]
          exact hfr1 k b (by omega))
      have hnew := hslot cm (fun t _ ht2 => hbits t (by rw [hb1'] at ht2; exact ht2))
        (fun k a b => hag k (by omega) b)
      rw [hq, hb1', k3, k2] at hnew
      exact ⟨fun _ => hold.1 (by omega), fun _ => by simpa using hnew⟩

/-! ## Runs in the stream -/

/-- The decoder reads back the length that `writeRunLength` wrote. -/
theorem readRunLength_written (cm mem : Mem) (dest m : Nat) (hm : m ≤ 0x7fff)
    (h0 : load8 cm dest = load8 (writeRunLength mem dest m).1 dest)
    (h1 : 0x7f < m → load8 cm (dest + 1) = load8 (writeRunLength mem dest m).1 (dest + 1)) :
    readRunLength cm dest = (m, if m ≤ 0x7f then 1 else 2) := by
  rw [readRunLength_eq, h0, (writeRunLength_eq mem dest m dest).2]
  by_cases hs : m ≤ 0x7f
  · rw [if_pos hs, if_pos rfl, if_neg (by omega), if_pos hs]
    rw [Nat.mod_eq_of_lt (by omega)]
  · rw [if_neg hs, if_pos rfl, if_pos (by omega), if_neg hs, h1 (by omega),
      (writeRunLength_eq mem dest m (dest + 1)).2, if_neg hs, if_neg (by omega), if_pos rfl]
    have e1 : m / 128 % 256 = m / 128 := Nat.mod_eq_of_lt (by omega)
    rw [e1, if_pos (by omega)]
    have e2 : (m % 128 + 128) % 128 = m % 128 := by omega
    rw [e2]
    have := Nat.div_add_mod m 128
    rw [Prod.mk.injEq]
    exact ⟨by omega, rfl⟩

/-- A block whose dimensions all have the mask zero has rows of width zero. -/
theorem statsOf_zero_width (T dm : Nat → Nat) (D : Nat) (h : ∀ d, d < D → maskOf T dm d = 0) :
    sumTo (nstripesOf D) (statsOf T dm D).stripe_bitwidths.get = 0 := by
  rw [statsOf_row_bits]
  refine (sumTo_congr D _ (fun _ => 0) ?_).trans (sumTo_zero_fun D)
  intro d hd
  show maxNbits (maskOf T dm d) = 0
  rw [h d hd]
  rfl

/-- The slot of a run of `m` blocks. -/
theorem SlotInStream_run (T : Nat → Nat) (x : Mem) (D : Nat) (cm : Mem) (m q o : Nat)
    (hT0 : T 0 % 256 = 0) (hm : m ≤ 0x7fff)
    (hread : readRunLength cm o = (m, if m ≤ 0x7f then 1 else 2))
    (hx : ∀ k, k < 8 * D * m → load8 x (q + k) = prevRow x D q (k % D)) :
    SlotInStream cm T x D (fun _ => 0) m q o := by
  have hz : ∀ d, d < D → maskOf T (fun _ => 0) d = 0 := fun d _ => hT0
  have hw := statsOf_zero_width T (fun _ => 0) D hz
  refine ⟨fun d hd => ?_, fun _ => ⟨hm, hread, hx⟩, fun hne => absurd hw hne⟩
  rw [hz d hd]
  decide

theorem slotBytes_run (T : Nat → Nat) (D m : Nat) (hT0 : T 0 % 256 = 0) :
    slotBytes T D (fun _ => 0) m = if m ≤ 0x7f then 1 else 2 := by
  unfold slotBytes
  rw [if_pos (statsOf_zero_width T (fun _ => 0) D (fun d _ => hT0))]

/-- Header fields that are still zero are the fields of a run. -/
theorem HdrFields_run (T : Nat → Nat) (D : Nat) (cm : Mem) (q : Nat) (hT0 : T 0 % 256 = 0)
    (h : ∀ t, t < 3 * D → abit cm (q + t) = false) : HdrFields cm T D (fun _ => 0) q := by
  intro d j hd hj
  have e : maskOf T (fun _ => 0) d = 0 := hT0
  rw [e, Nat.add_assoc, h (3 * d + j) (by omega)]
  have : writeNbits 0 = 0 := by decide
  rw [this, Nat.zero_testBit]

theorem RleBC_congr (T : Nat → Nat) (x : Mem) (D n : Nat) (s s1 : RleEncState)
    (h : RleBC T x D n s) (e1 : s1.src = s.src) (e2 : s1.dest = s.dest) (e3 : s1.mem = s.mem)
    (e4 : s1.run_length_nblocks = s.run_length_nblocks) (e5 : s1.b = s.b)
    (e6 : s1.header_dest = s.header_dest) : RleBC T x D n s1 := by
  unfold RleBC at h ⊢
  rw [e1, e2, e3, e4, e5, e6]
  exact h

/-- One more block goes into the run in progress. -/
theorem RleBC_extend_run (T : Nat → Nat) (x : Mem) (D n : Nat) (s s1 : RleEncState)
    (hD1 : 1 ≤ D) (h : RleBC T x D n s) (hb : s.b < 2) (hT0 : T 0 % 256 = 0)
    (hblock : ∀ k, k < 8 * D → load8 x (s.src + k) = prevRow x D s.src (k % D))
    (e1 : s1.src = s.src + 8 * D) (e2 : s1.dest = s.dest) (e3 : s1.mem = s.mem)
    (e4 : s1.run_length_nblocks = s.run_length_nblocks + 1) (e5 : s1.b = s.b)
    (e6 : s1.header_dest = s.header_dest) : RleBC T x D n s1 := by
  obtain ⟨p0, q, n0, n1, dm0, dm1, c1, c2, c3, c4, c5, c6, c7, c8, c9, c10, c11, c12⟩ := h
  refine ⟨p0, q, n0, n1, dm0, dm1, ?_, c2, c3, c4, ?_, ?_, ?_, ?_, ?_, fun _ => hT0, ?_, ?_⟩
  · rw [e6]; exact c1
  · rw [e1, e4, c5, Nat.mul_add]; omega
  · rw [e5, e2, e6]; exact c6
  · rw [e5, e2, e6]; exact c7
  · rw [e5]; intro hh; omega
  · intro k hk
    rw [e4, Nat.mul_add, Nat.mul_one] at hk
    by_cases hk2 : k < 8 * D * s.run_length_nblocks
    · exact c9 k hk2
    · obtain ⟨k', rfl⟩ : ∃ k', k = 8 * D * s.run_length_nblocks + k' :=
        ⟨k - 8 * D * s.run_length_nblocks, by omega⟩
      have hk' : k' < 8 * D := by omega
      have := hblock k' hk'
      rw [c5] at this
      rw [← Nat.add_assoc, this]
      have hmod : (8 * D * s.run_length_nblocks + k') % D = k' % D := by
        have : 8 * D * s.run_length_nblocks = D * (8 * s.run_length_nblocks) := by ring
        rw [this, Nat.mul_add_mod]
      rw [hmod]
      exact prevRow_after_run x D q s.run_length_nblocks (k' % D) hD1 (Nat.mod_lt _ (by omega)) c9
  · rw [e3, e6]; exact c11
  · rw [e3, e6, e5, e2]; exact c12

/-- The run in progress is closed: its length field is the slot of the next
block. -/
theorem RleBC_closeRun (T : Nat → Nat) (x : Mem) (L D n : Nat) (s : RleEncState)
    (h : RleBC T x D n s) (hh : RleHdr D 8 RlePoint.blockHead s) (hb : s.b < 2)
    (hrun : 0 < s.run_length_nblocks) (hmax : s.run_length_nblocks ≤ 0x7fff) :
    RleBC T x D n (rleCloseRun (rleCtxOf T x L D) s) := by
  obtain ⟨g1, g2, g3, g4, g5⟩ := hh
  have hD3 : 3 * D * (s.b + 1) ≤ 6 * D := by
    have := Nat.mul_le_mul_left (3 * D) (show s.b + 1 ≤ 2 by omega)
    omega
  have hhb := headerBytesOf_ge D
  have hw := fun k => writeRunLength_eq s.mem s.dest s.run_length_nblocks k
  have hframe : ∀ k, k < s.dest →
      load8 (writeRunLength s.mem s.dest s.run_length_nblocks).1 k = load8 s.mem k := by
    intro k hk
    rw [(hw k).2]
    split_ifs <;> first | rfl | (exfalso; omega)
  have h' := h
  obtain ⟨p0, q, n0, n1, dm0, dm1, c1, c2, c3, c4, c5, c6, c7, c8, c9, c10, c11, c12⟩ := h'
  have hT0 := c10 hrun
  refine RleBC_add_slot T x D n s _ (fun _ => 0) s.run_length_nblocks h hb rfl rfl rfl rfl
    (fun _ => hrun) ?_ (fun k hk _ => hframe k hk)
    (fun t ht => abit_of_load8_eq _ _ _ (hframe _ (by
      have : 3 * D * s.b ≤ 3 * D * (s.b + 1) := Nat.mul_le_mul_left _ (by omega)
      omega))) ?_
  · show (writeRunLength s.mem s.dest s.run_length_nblocks).2 = _
    rw [(hw 0).1, slotBytes_run T D _ hT0]
  · intro cm hbits hag
    have hdst : (rleCloseRun (rleCtxOf T x L D) s).dest
        = s.dest + (if s.run_length_nblocks ≤ 0x7f then 1 else 2) := (hw 0).1
    have hsrc : (rleCloseRun (rleCtxOf T x L D) s).src - 8 * D * s.run_length_nblocks = q := by
      show s.src - 8 * D * s.run_length_nblocks = q
      omega
    rw [hsrc]
    constructor
    · refine SlotInStream_run T x D cm _ q s.dest hT0 hmax ?_ c9
      refine readRunLength_written cm s.mem s.dest _ hmax (hag _ (le_refl _) ?_) (fun hbig => ?_)
      · rw [hdst]; split_ifs <;> omega
      · refine hag _ (by omega) ?_
        rw [hdst, if_neg (by omega)]
        omega
    · refine HdrFields_run T D cm _ hT0 (fun t ht => ?_)
      rw [Nat.add_assoc, hbits _ (Nat.le_add_right _ _) (by rw [Nat.mul_add]; omega)]
      have : abit (rleCloseRun (rleCtxOf T x L D) s).mem (8 * s.header_dest + (3 * D * s.b + t))
          = abit s.mem (8 * s.header_dest + (3 * D * s.b + t)) :=
        abit_of_load8_eq _ _ _ (hframe _ (by rw [Nat.mul_add] at hD3; omega))
      rw [this]
      exact g5 _ (Nat.le_add_right _ _) (by rw [Nat.mul_add] at hD3; omega)

/-- The slot that stays unused when the loops are left after block 0 gets a
run of length zero. -/
theorem RleBC_filler (T : Nat → Nat) (x : Mem) (D n : Nat) (s s1 : RleEncState)
    (h : RleBC T x D n s) (hh : RleHdr D 8 RlePoint.blockHead s) (hb : s.b = 1)
    (hrun : s.run_length_nblocks = 0) (hT0 : T 0 % 256 = 0)
    (e1 : s1.src = s.src) (e2 : s1.dest = s.dest + 1) (e3 : s1.mem = store8 s.mem s.dest 0)
    (e4 : s1.run_length_nblocks = 0) (e5 : s1.b = 2) (e6 : s1.header_dest = s.header_dest) :
    RleBC T x D n s1 := by
  obtain ⟨g1, g2, g3, g4, g5⟩ := hh
  have hhb := headerBytesOf_ge D
  have hframe : ∀ k, k < s.dest → load8 s1.mem k = load8 s.mem k := by
    intro k hk
    rw [e3, load8_store8, if_neg (by omega)]
  refine RleBC_add_slot T x D n s s1 (fun _ => 0) 0 h (by omega) e4 e6 (by rw [e5, hb])
    (by rw [e1, hrun]) (fun h0 => by omega) ?_ (fun k hk _ => hframe k hk)
    (fun t ht => abit_of_load8_eq _ _ _ (hframe _ (by rw [hb] at ht; omega))) ?_
  · rw [e2, slotBytes_run T D _ hT0, if_pos (by omega)]
  · intro cm hbits hag
    constructor
    · refine SlotInStream_run T x D cm 0 _ s.dest hT0 (by omega) ?_ (fun k hk => by omega)
      rw [readRunLength_eq, hag _ (le_refl _) (by omega), e3, load8_store8, if_pos rfl]
      rfl
    · refine HdrFields_run T D cm _ hT0 (fun t ht => ?_)
      rw [hb] at hbits ⊢
      rw [Nat.add_assoc, hbits _ (Nat.le_add_right _ _) (by omega)]
      have : abit s1.mem (8 * s.header_dest + (3 * D * 1 + t))
          = abit s.mem (8 * s.header_dest + (3 * D * 1 + t)) :=
        abit_of_load8_eq _ _ _ (hframe _ (by omega))
      rw [this]
      exact g5 _ (by rw [hb]; omega) (by omega)

/-- The block in hand is packed: its rows are the slot of the next block. -/
theorem RleBC_pack (T : Nat → Nat) (x : Mem) (L D n : Nat) (p : RleEncState) (blk : RleBlock)
    (dm : Nat → Nat) (hD1 : 1 ≤ D) (hD2 : D < 65536)
    (h : RleBC T x D n p) (hh : RleHdr D 8 RlePoint.blockHead p) (hb : p.b < 2)
    (hrun : p.run_length_nblocks = 0)
    (hst : blk.st = statsOf T dm D)
    (hoffs : blk.stripe_bitoffsets = stripeBitoffsets blk.st.stripe_bitwidths.get (nstripesOf D))
    (hrb : blk.out_row_nbytes = rowBytesOf blk.st (nstripesOf D))
    (hw : sumTo (nstripesOf D) (statsOf T dm D).stripe_bitwidths.get ≠ 0)
    (hok : ∀ d, d < D → maskOf T dm d ∈ okMasks)
    (hin1 : ∀ i d, i < 8 → d < D →
      load8 p.deltas (0 + i * D + d) = deltaBits x p.src D (prevRow x D p.src) i d)
    (hin2 : ∀ i d, i < 8 → d < D →
      load8 p.deltas (0 + i * D + d) &&& maskOf T dm d = load8 p.deltas (0 + i * D + d)) :
    RleBC T x D n (rle_pack (rleCtxOf T x L D) blk p) := by
  obtain ⟨g1, g2, g3, g4, g5⟩ := hh
  have hhb := headerBytesOf_ge D
  have h3D : 3 * D * p.b ≤ 3 * D := by
    have := Nat.mul_le_mul_left (3 * D) (show p.b ≤ 1 by omega)
    omega
  have hmem : (rle_pack (rleCtxOf T x L D) blk p).mem =
      encodeBlockMem (statsOf T dm D) D (nstripesOf D) p.header_dest p.header_bit_offset
        p.deltas 0 D p.dest p.mem := by
    rw [rle_pack_mem (rleCtxOf T x L D) blk p hoffs hrb, hst]
    rfl
  obtain ⟨b1, b2⟩ := encodeBlockMem_bits T dm D p.header_dest p.header_bit_offset p.deltas 0 D
    p.dest p.mem hD1 hD2 (fun d hd => (okMasks_facts _ (hok d hd)).2.1) (by omega)
  have hdest : (rle_pack (rleCtxOf T x L D) blk p).dest
      = p.dest + 8 * rowBytesOf (statsOf T dm D) (nstripesOf D) := by
    show p.dest + block_sz * blk.out_row_nbytes = _
    rw [hrb, hst]; rfl
  have hsb : slotBytes T D dm 1 = 8 * rowBytesOf (statsOf T dm D) (nstripesOf D) := by
    unfold slotBytes
    rw [if_neg hw]
  -- bits of the buffer outside the packed rows
  have hout : ∀ q, q < 8 * p.dest →
      abit (rle_pack (rleCtxOf T x L D) blk p).mem q
        = (abit p.mem q || headerField (fun d => writeNbits (maskOf T dm d))
            (8 * p.header_dest + p.header_bit_offset) D q) := by
    intro q hq
    rw [hmem]
    exact b2 q (by omega)
  have hframe : ∀ k, k < p.dest →
      ¬ (p.header_dest ≤ k ∧ k < p.header_dest + headerBytesOf D) →
      load8 (rle_pack (rleCtxOf T x L D) blk p).mem k = load8 p.mem k := by
    intro k hk hnot
    apply load8_eq_of_abit
    intro t ht
    rw [hout _ (by omega)]
    have : headerField (fun d => writeNbits (maskOf T dm d))
        (8 * p.header_dest + p.header_bit_offset) D (8 * k + t) = false := by
      by_cases hlt : k < p.header_dest
      · exact headerField_false_of_lt _ _ _ _ (by omega)
      · exact headerField_false_of_ge _ _ _ _ (by omega)
    rw [this, Bool.or_false]
  refine RleBC_add_slot T x D n p _ dm 1 h hb hrun rfl rfl ?_ (fun _ => le_refl 1) ?_ hframe ?_ ?_
  · show p.src + block_sz * D + 8 * D * p.run_length_nblocks = p.src + 8 * D * 1
    rw [hrun]; simp only [block_sz]; omega
  · rw [hdest, hsb]
  · intro t ht
    rw [hout _ (by omega), headerField_false_of_lt _ _ _ _ (by omega), Bool.or_false]
  · intro cm hbits hag
    have hsrc : (rle_pack (rleCtxOf T x L D) blk p).src - 8 * D * 1 = p.src := by
      show p.src + block_sz * D - 8 * D * 1 = p.src
      simp only [block_sz]; omega
    rw [hsrc]
    constructor
    · refine ⟨hok, fun h0 => absurd h0 hw, fun _ => ⟨rfl, p.deltas, hin1, hin2, ?_⟩⟩
      intro i t hi ht
      have hrow : i * rowBytesOf (statsOf T dm D) (nstripesOf D)
          + rowBytesOf (statsOf T dm D) (nstripesOf D)
          ≤ 8 * rowBytesOf (statsOf T dm D) (nstripesOf D) := by nlinarith
      have e : abit cm (8 * (p.dest + i * rowBytesOf (statsOf T dm D) (nstripesOf D)) + t)
          = abit (rle_pack (rleCtxOf T x L D) blk p).mem
              (8 * (p.dest + i * rowBytesOf (statsOf T dm D) (nstripesOf D)) + t) :=
        abit_of_load8_eq _ _ _ (hag _ (by omega) (by rw [hdest]; omega))
      rw [e, hmem]
      exact b1 i t hi ht
    · intro d j hd hj
      have hq : 3 * D * p.b + 3 * d + j < 3 * D * (p.b + 1) := by
        rw [Nat.mul_add]; omega
      have e := hbits (3 * D * p.b + 3 * d + j) (by omega) hq
      have e2 : 8 * p.header_dest + 3 * D * p.b + 3 * d + j
          = 8 * p.header_dest + (3 * D * p.b + 3 * d + j) := by omega
      rw [e2, e, hout _ (by omega), g5 _ (by omega) (by omega), Bool.false_or, g4]
      have e3 : 8 * p.header_dest + (3 * D * p.b + 3 * d + j)
          = 8 * p.header_dest + 3 * D * p.b + 3 * d + j := by omega
      rw [e3]
      exact headerField_at _ _ _ _ _ hd hj

/-! ## What the read of a block tells -/

/-- `row_width_bits` of the block just read is the total width of its stripes. -/
theorem rle_read_block_width (T : Nat → Nat) (x : Mem) (L D : Nat) (s : RleEncState)
    (hD1 : 1 ≤ D) (hD2 : D < 65536) :
    (rle_read_block (rleCtxOf T x L D) s).1.row_width_bits =
      sumTo (nstripesOf D) (statsOf T (deltaMaskOf x s.src D s.deltas) D).stripe_bitwidths.get := by
  have hle := statsOf_row_bits_le T (deltaMaskOf x s.src D s.deltas) D
  have hpos := nstripesOf_pos D hD1
  show ((stripeBitoffsets (deltaStripeStats T x s.src D s.deltas).1.stripe_bitwidths.get
      (nstripesOf D)).get (nstripesOf D - 1)
    + (deltaStripeStats T x s.src D s.deltas).1.stripe_bitwidths.get (nstripesOf D - 1)) % 2 ^ 32
    = _
  rw [deltaStripeStats_fst_eq, stripeBitoffsets_get _ _ _ (by omega) (by omega)]
  have e : sumTo (nstripesOf D - 1)
        (statsOf T (deltaMaskOf x s.src D s.deltas) D).stripe_bitwidths.get
      + (statsOf T (deltaMaskOf x s.src D s.deltas) D).stripe_bitwidths.get (nstripesOf D - 1)
      = sumTo (nstripesOf D) (statsOf T (deltaMaskOf x s.src D s.deltas) D).stripe_bitwidths.get := by
    obtain ⟨n, hn⟩ : ∃ n, nstripesOf D = n + 1 := ⟨nstripesOf D - 1, by omega⟩
    rw [hn, Nat.add_sub_cancel, sumTo]
  rw [e, Nat.mod_eq_of_lt (by omega)]

theorem sumTo_eq_zero (n : Nat) (f : Nat → Nat) (h : sumTo n f = 0) : ∀ j, j < n → f j = 0 := by
  induction n with
  | zero => intro j hj; omega
  | succ n ih =>
    intro j hj
    rw [sumTo] at h
    rcases Nat.lt_or_ge j n with h1 | h1
    · exact ih (by omega) j h1
    · have : j = n := by omega
      rw [this]; omega

theorem zigzag_encode_eq_zero (v : Nat) (hv : v < 256) (h : zigzag_encode_i8 v = 0) : v = 0 := by
  have := zigzag_decode_encode_u8 v hv
  rw [h] at this
  rw [← this]
  decide

/-- A block whose rows have width zero repeats the row before it, and the
table sends 0 to the mask 0. -/
theorem zero_width_block (T : Nat → Nat) (hT : TableOK T) (x : Mem) (p D : Nat) (dl : Mem)
    (hD1 : 1 ≤ D)
    (hcarry : ∀ d, d < D → load8 dl (8 * D + d) = prevRow x D p d)
    (hw : sumTo (nstripesOf D) (statsOf T (deltaMaskOf x p D dl) D).stripe_bitwidths.get = 0) :
    T 0 % 256 = 0 ∧ ∀ k, k < 8 * D → load8 x (p + k) = prevRow x D p (k % D) := by
  rw [statsOf_row_bits] at hw
  have hm : ∀ d, d < D → maskOf T (deltaMaskOf x p D dl) d = 0 := by
    intro d hd
    have h0 : maxNbits (maskOf T (deltaMaskOf x p D dl) d) = 0 := sumTo_eq_zero D _ hw d hd
    have hok := (maskOf_ok T (deltaMaskOf x p D dl) hT d (deltaMaskOf_lt x p D dl d hd)).1
    have := okMasks_pow _ hok
    rw [h0] at this
    omega
  have hdm : ∀ d, d < D → deltaMaskOf x p D dl d = 0 := by
    intro d hd
    have := (maskOf_ok T (deltaMaskOf x p D dl) hT d (deltaMaskOf_lt x p D dl d hd)).2
    rw [hm d hd] at this
    omega
  have hbits : ∀ i d, i < 8 → d < D → deltaBits x p D (prevRow x D p) i d = 0 := by
    intro i d hi hd
    have := covered_deltaMaskOf T hT x p D dl i d hi hd
    rw [hm d hd, Nat.and_zero] at this
    rw [deltaBits_congr x p D (prevRow x D p) (fun d => load8 dl (8 * D + d)) i d
      (hcarry d hd).symm]
    exact this.symm
  have hrows : ∀ i, i < 8 → ∀ d, d < D → load8 x (p + (i * D + d)) = prevRow x D p d := by
    intro i
    induction i with
    | zero =>
      intro _ d hd
      have h0 := hbits 0 d (by omega) hd
      unfold deltaBits at h0
      rw [if_pos rfl] at h0
      have hz := zigzag_encode_eq_zero _ (Nat.mod_lt _ (by norm_num)) h0
      have h1 := load8_lt x (p + (0 * D + d))
      have h2 : prevRow x D p d < 256 := by
        unfold prevRow
        split_ifs
        · omega
        · exact load8_lt _ _
      omega
    | succ i ih =>
      intro hi d hd
      have h0 := hbits (i + 1) d hi hd
      unfold deltaBits at h0
      rw [if_neg (by omega), Nat.add_sub_cancel] at h0
      have hz := zigzag_encode_eq_zero _ (Nat.mod_lt _ (by norm_num)) h0
      have h1 := load8_lt x (p + ((i + 1) * D + d))
      have h2 := load8_lt x (p + (i * D + d))
      have := ih (by omega) d hd
      omega
  constructor
  · have := hm 0 (by omega)
    unfold maskOf at this
    rw [hdm 0 (by omega)] at this
    exact this
  · intro k hk
    have hi : k / D < 8 := (Nat.div_lt_iff_lt_mul (by omega)).mpr (by omega)
    have := hrows (k / D) hi (k % D) (Nat.mod_lt _ (by omega))
    have e : k / D * D + k % D = k := by
      rw [Nat.mul_comm]; exact Nat.div_add_mod k D
    rw [e] at this
    exact this

/-! ## The content invariant, step by step -/

/-- The branch `do_rle` under the content invariant. -/
theorem RleContent_do_rle (T : Nat → Nat) (x : Mem) (L D n : Nat) (p s1 : RleEncState)
    (flag : Bool) (hD1 : 1 ≤ D) (hD2 : D < 16385)
    (h : RleBC T x D n p) (hh : RleHdr D 8 RlePoint.blockHead p) (hb : p.b < 2)
    (hrun : p.run_length_nblocks < 0x7fff) (hT0 : T 0 % 256 = 0)
    (hblock : ∀ k, k < 8 * D → load8 x (p.src + k) = prevRow x D p.src (k % D))
    (hx : rle_do_rle (rleCtxOf T x L D) p = (s1, flag)) :
    RleContent T x D (if flag then RlePoint.loopEnd else RlePoint.blockHead) n s1 := by
  by_cases hc : p.src + 8 * D + 16 * D < L
  · rw [rle_do_rle_cont T x L D p hc hrun] at hx
    simp only [Prod.mk.injEq] at hx
    obtain ⟨rfl, rfl⟩ := hx
    exact RleBC_extend_run T x D n p _ hD1 h hb hT0 hblock rfl rfl rfl rfl rfl rfl
  · rw [rle_do_rle_exit T x L D p (by omega) hrun hb] at hx
    simp only [Prod.mk.injEq] at hx
    obtain ⟨rfl, rfl⟩ := hx
    -- the block joins the run, then the run is closed
    have hA : RleBC T x D n
        { p with run_length_nblocks := p.run_length_nblocks + 1, src := p.src + 8 * D } :=
      RleBC_extend_run T x D n p _ hD1 h hb hT0 hblock rfl rfl rfl rfl rfl rfl
    have hhA : RleHdr D 8 RlePoint.blockHead
        { p with run_length_nblocks := p.run_length_nblocks + 1, src := p.src + 8 * D } := hh
    have hB := RleBC_closeRun T x L D n _ hA hhA hb
      (by show 0 < p.run_length_nblocks + 1; omega)
      (by show p.run_length_nblocks + 1 ≤ 0x7fff; omega)
    have hhB := RleHdr_closeRun T x L D 8 _ hhA hb
    have hw := writeRunLength_dest_le p.mem p.dest (p.run_length_nblocks + 1)
    have hhd : p.header_dest + headerBytesOf D
        ≤ (writeRunLength p.mem p.dest (p.run_length_nblocks + 1)).2 := hhB.2.1
    rcases Nat.eq_zero_or_pos p.b with h0 | h1
    · -- block 1 stays unused
      have e10 : 1 - p.b = 1 := by omega
      refine RleBC_leave T x D n _ hD1 hD2 ?_ rfl (by
        show p.header_dest + headerBytesOf D ≤ _ + (1 - p.b)
        omega)
      refine RleBC_filler T x D n _ _ hB hhB (by show p.b + 1 = 1; omega) rfl hT0 rfl ?_ ?_ rfl
        rfl rfl
      · show _ + (1 - p.b) = _ + 1
        rw [e10]
        rfl
      · simp only [e10]
        rfl
    · have e10 : 1 - p.b = 0 := by omega
      refine RleBC_leave T x D n _ hD1 hD2 ?_ rfl (by
        show p.header_dest + headerBytesOf D ≤ _ + (1 - p.b)
        omega)
      refine RleBC_congr T x D n _ _ hB rfl ?_ ?_ rfl (by show 2 = p.b + 1; omega) rfl
      · show _ + (1 - p.b) = _
        rw [e10]; rfl
      · simp only [e10]
        rfl

/-- What `rlePrepare` does under the content invariant. -/
theorem RleContent_prepare (T : Nat → Nat) (x : Mem) (L D n : Nat) (s : RleEncState)
    (hD1 : 1 ≤ D) (hD2 : D < 16385)
    (h : RleBC T x D n s) (hh : RleHdr D 8 RlePoint.blockHead s) (hb : s.b < 2)
    (hmax : s.run_length_nblocks ≤ 0x7fff) :
    RleBC T x D (n + rleNewGroup (rleCtxOf T x L D) s)
      (rlePrepare (rleCtxOf T x L D) (rle_read_block (rleCtxOf T x L D) s).1
        (rle_read_block (rleCtxOf T x L D) s).2) := by
  have h' : RleBC T x D n (rle_read_block (rleCtxOf T x L D) s).2 :=
    RleBC_congr T x D n s _ h rfl rfl rfl rfl rfl rfl
  have hh' : RleHdr D 8 RlePoint.blockHead (rle_read_block (rleCtxOf T x L D) s).2 := hh
  rcases rlePrepare_cases2 (rleCtxOf T x L D) s with ⟨n0, e⟩ | ⟨n0, hr, hb2, e⟩ | ⟨n1, hr, hb2, e⟩
  · rw [e, n0]; exact h'
  · rw [e, n0]
    exact RleBC_closeRun T x L D n _ h' hh' hb hr hmax
  · rw [e, n1]
    have hB := RleBC_closeRun T x L D n _ h' hh' hb hr hmax
    have hhB := RleHdr_closeRun T x L D 8 _ hh' hb
    have hb2' : s.b + 1 = 2 := hb2
    exact RleGC_enter T x L D n _
      (RleBC_leave T x D n _ hD1 hD2 hB hb2' hhB.2.1) rfl

/-- One pass of the body of the block loop keeps the content invariant. -/
theorem RleContent_step (T : Nat → Nat) (hT : TableOK T) (x : Mem) (L D n : Nat)
    (s s1 : RleEncState) (flag : Bool) (hD1 : 1 ≤ D) (hD2 : D < 16385)
    (h : RleBC T x D n s) (hh : RleHdr D 8 RlePoint.blockHead s)
    (hsz : RleBInv D L 8 s n)
    (hcarry : ∀ d, d < D → load8 s.deltas (8 * D + d) = prevRow x D s.src d)
    (hb : s.b < 2) (hstep : rleBlockStep (rleCtxOf T x L D) s = some (s1, flag)) :
    RleContent T x D (if flag then RlePoint.loopEnd else RlePoint.blockHead)
      (n + rleNewGroup (rleCtxOf T x L D) s) s1 := by
  rw [rleBlockStep_eq] at hstep
  have hmax : s.run_length_nblocks ≤ 0x7fff := hsz.2.2.2.1
  have hp := RleContent_prepare T x L D n s hD1 hD2 h hh hb hmax
  have hh' : RleHdr D 8 RlePoint.blockHead (rle_read_block (rleCtxOf T x L D) s).2 := hh
  obtain ⟨hhp, hbp⟩ := RleHdr_prepare T x L D 8 (rle_read_block (rleCtxOf T x L D) s).1 _ hh'
    (show (rle_read_block (rleCtxOf T x L D) s).2.b < 2 from hb)
  have hprun := rlePrepare_run (rleCtxOf T x L D) (rle_read_block (rleCtxOf T x L D) s).1
    (rle_read_block (rleCtxOf T x L D) s).2
  have p1 : (rlePrepare (rleCtxOf T x L D) (rle_read_block (rleCtxOf T x L D) s).1
      (rle_read_block (rleCtxOf T x L D) s).2).src = s.src :=
    (rlePrepare_src_deltas (rleCtxOf T x L D) _ _).1
  have p2 : (rlePrepare (rleCtxOf T x L D) (rle_read_block (rleCtxOf T x L D) s).1
      (rle_read_block (rleCtxOf T x L D) s).2).deltas = (deltaStripeStats T x s.src D s.deltas).2 :=
    (rlePrepare_src_deltas (rleCtxOf T x L D) _ _).2
  have hwidth := rle_read_block_width T x L D s hD1 (by omega)
  generalize rlePrepare (rleCtxOf T x L D) (rle_read_block (rleCtxOf T x L D) s).1
    (rle_read_block (rleCtxOf T x L D) s).2 = p at hstep hp hhp hbp hprun p1 p2
  generalize n + rleNewGroup (rleCtxOf T x L D) s = n2 at hp ⊢
  split_ifs at hstep with hdo
  · obtain ⟨hT0, hblock⟩ := zero_width_block T hT x s.src D s.deltas hD1 hcarry
      (by rw [← hwidth]; exact hdo.1)
    rw [← p1] at hblock
    exact RleContent_do_rle T x L D n2 p s1 flag hD1 hD2 hp hhp hbp hdo.2 hT0 hblock
      (Option.some.inj hstep)
  · simp only [Option.some.injEq, Prod.mk.injEq] at hstep
    obtain ⟨rfl, rfl⟩ := hstep
    have hrun0 : p.run_length_nblocks = 0 := by
      rcases hprun with h0 | ⟨hpe, hz, hlt⟩
      · exact h0
      · exact absurd ⟨hz, by rw [hpe]; exact hlt⟩ hdo
    have hnz : (rle_read_block (rleCtxOf T x L D) s).1.row_width_bits ≠ 0 := by
      intro hz
      exact hdo ⟨hz, by rw [hrun0]; decide⟩
    have hb0 := deltaStripeStats_buf T x s.src D s.deltas
    refine RleBC_pack T x L D n2 p _ (deltaMaskOf x s.src D s.deltas) hD1 (by omega) hp hhp hbp
      hrun0 (deltaStripeStats_fst_eq T x s.src D s.deltas) rfl rfl (by rw [← hwidth]; exact hnz)
      (fun d hd => (maskOf_ok T _ hT d (deltaMaskOf_lt x s.src D s.deltas d hd)).1) ?_ ?_
    · intro i d hi hd
      rw [p2, p1, Nat.zero_add, hb0.1 i d hi hd]
      exact deltaBits_congr _ _ _ _ _ _ _ (hcarry d hd)
    · intro i d hi hd
      rw [p2, Nat.zero_add, hb0.1 i d hi hd]
      exact covered_deltaMaskOf T hT x s.src D s.deltas i d hi hd

/-- The content invariant holds in every state that is reached. -/
theorem RleReach_content (T : Nat → Nat) (hT : TableOK T) (x dest : Mem) (L D : Nat)
    (hD1 : 1 ≤ D) (hD2 : D < 16385) (pt : RlePoint) (n : Nat) (s : RleEncState)
    (hs : RleReach (rleCtxOf T x L D) (rleInit dest true) pt n s) :
    RleContent T x D pt n s := by
  induction hs with
  | init =>
    refine ⟨le_refl 8, Iff.rfl, fun h => absurd h (by show ¬ (0 : Nat) < 0; omega), ?_⟩
    intro cm dest2 _
    refine ⟨HeadersPadded_zero D,
      ⟨rfl, rfl, fun k hk => absurd hk (by show ¬ k < 0; omega), fun d _ => rfl⟩,
      fun k _ => rfl⟩
  | enter n s hs' _ ih =>
    have hsz := RleReach_size T x dest L D true hD1 (by omega) _ n s hs'
    exact RleGC_enter T x L D n s ih hsz.1
  | stop n s _ _ ih => exact ih
  | step n s s1 hs' hb hstep ih =>
    exact RleContent_step T hT x L D n s s1 false hD1 hD2 ih
      (RleReach_hdr T x dest L D true (by omega) _ n s hs')
      (RleReach_size T x dest L D true hD1 (by omega) _ n s hs')
      (RleReach_carry T x dest L D true _ n s hs') hb hstep
  | jump n s s1 hs' hb hstep ih =>
    exact RleContent_step T hT x L D n s s1 true hD1 hD2 ih
      (RleReach_hdr T x dest L D true (by omega) _ n s hs')
      (RleReach_size T x dest L D true hD1 (by omega) _ n s hs')
      (RleReach_carry T x dest L D true _ n s hs') hb hstep
  | leave n s hs' hb ih =>
    have hh := RleReach_hdr T x dest L D true (by omega) _ n s hs'
    have hb2 : s.b = 2 := by
      have := hh.2.2.1
      simp only [group_sz_blocks, kDefaultGroupSzBlocks] at hb
      omega
    exact RleBC_leave T x D n s hD1 hD2 ih hb2 hh.2.1

/-! ## C3: the round trip of the run-length mode -/

/-- A stream that begins with the Mode B header reads back its three fields. -/
theorem read_written_metadata_rle (m m2 : Mem) (D G R : Nat) (hD : D < 2 ^ 16) (hG : G < 2 ^ 32)
    (hR : R < 2 ^ 16)
    (h : ∀ k, k < 8 → load8 m2 k = load8 (write_metadata_rle_8b m 0 D G R).1 k) :
    read_metadata_rle_8b m2 = ((D, G, R), 8) := by
  rw [read_metadata_rle_8b_eq]
  have e1 : loadLE 2 m2 6 = D := by
    rw [loadLE_congr 2 m2 (write_metadata_rle_8b m 0 D G R).1 6 6 (fun i hi => h _ (by omega))]
    show loadLE 2 (storeLE 2 _ (0 + 6) D) 6 = D
    rw [Nat.zero_add, loadLE_storeLE_same]
    exact Nat.mod_eq_of_lt hD
  have e2 : loadLE 4 m2 0 = G := by
    rw [loadLE_congr 4 m2 (storeLE 4 m 0 G) 0 0 (fun i hi => by
      rw [h _ (by omega)]
      show load8 (storeLE 2 (storeLE 2 _ (0 + 4) R) (0 + 6) D) (0 + i) = _
      rw [load8_storeLE, if_neg (by omega), load8_storeLE, if_neg (by omega)])]
    rw [loadLE_storeLE_same]
    exact Nat.mod_eq_of_lt hG
  have e3 : loadLE 2 m2 4 = R := by
    rw [loadLE_congr 2 m2 (storeLE 2 (storeLE 4 m 0 G) 4 R) 4 4 (fun i hi => by
      rw [h _ (by omega)]
      show load8 (storeLE 2 (storeLE 2 _ (0 + 4) R) (0 + 6) D) (4 + i) = _
      rw [load8_storeLE, if_neg (by omega)])]
    rw [loadLE_storeLE_same]
    exact Nat.mod_eq_of_lt hR
  rw [e1, e2, e3]

/-- The code after `main_loop_end` with `write_size`: the Mode B header, what
was written before, and the rest of the input. -/
theorem rleFinish_spec (x : Mem) (L D : Nat) (s : RleEncState)
    (h1 : s.src ≤ L) (h2 : L - s.src < 2 ^ 16) (hD : D < 2 ^ 16) (hG : s.ngroups < 2 ^ 32)
    (h8 : 8 ≤ s.dest) :
    ∃ out, rleFinish x L D true s = Outcome.returned out (s.dest + (L - s.src)) ∧
      read_metadata_rle_8b out = ((D, s.ngroups, L - s.src), 8) ∧
      (∀ k, 8 ≤ k → k < s.dest → load8 out k = load8 s.mem k) ∧
      (∀ k, k < L - s.src → load8 out (s.dest + k) = load8 x (s.src + k)) := by
  have hrem : (((L : Int) - (s.src : Int)) % 2 ^ 32).toNat = L - s.src := by
    have e : (L : Int) - (s.src : Int) = ((L - s.src : Nat) : Int) := by omega
    rw [e]
    have : ((L - s.src : Nat) : Int) % 2 ^ 32 = ((L - s.src : Nat) : Int) :=
      Int.emod_eq_of_lt (by omega) (by omega)
    rw [this]
    rfl
  obtain ⟨out, ho, o1, o2⟩ := rleFinish_load8 x L D true s h1 (by omega)
  refine ⟨out, ho, ?_, o1, o2⟩
  apply read_written_metadata_rle s.mem out D s.ngroups (L - s.src) hD hG h2
  intro k hk
  have hout : out = memcpy (write_metadata_rle_8b s.mem 0 D s.ngroups (L - s.src)).1 s.dest x
      s.src (L - s.src) := by
    have : rleFinish x L D true s = Outcome.returned
        (memcpy (write_metadata_rle_8b s.mem 0 D s.ngroups (L - s.src)).1 s.dest x
          s.src (L - s.src)) (s.dest + (L - s.src)) := by
      unfold rleFinish
      simp only [hrem, if_true]
    rw [this] at ho
    simp only [Outcome.returned.injEq] at ho
    exact ho.1.symm
  rw [hout, load8_memcpy, if_neg (by omega)]

/-- The run-length decoder on a stream with at least one group, or with a tail
of 128 bytes or more: the group loop, then the copy of the tail. -/
theorem decompress8b_rowmajor_delta_rle_large (cm dest2 : Mem) (D G R : Nat)
    (hmd : read_metadata_rle_8b cm = ((D, G, R), 8)) (hD1 : 1 ≤ D)
    (hnc : ¬ (G = 0 ∧ R < 128)) :
    decompress8b_rowmajor_delta_rle cm dest2 =
      Outcome.returned
        (memcpy (rleDecLoop cm dest2 D G).dec.mem (rleDecLoop cm dest2 D G).dec.dest cm
          (rleDecLoop cm dest2 D G).dec.src R)
        ((rleDecLoop cm dest2 D G).dec.dest + R) := by
  unfold decompress8b_rowmajor_delta_rle
  simp only [hmd]
  unfold decompress8b_rowmajor_delta_rle_impl
  have h1 : ¬ ((decide (G = 0) && decide (R < min_data_size)) = true) := by
    simp only [Bool.and_eq_true, decide_eq_true_eq]
    exact hnc
  simp only []
  rw [if_neg h1, if_neg (by omega)]
  rfl

/-- The just-copy path of the run-length decoder. -/
theorem decompress8b_rowmajor_delta_rle_copy (cm dest2 : Mem) (D R : Nat)
    (hmd : read_metadata_rle_8b cm = ((D, 0, R), 8)) (hR : R < 128) :
    decompress8b_rowmajor_delta_rle cm dest2 = Outcome.returned (memcpy dest2 0 cm 8 R) R := by
  unfold decompress8b_rowmajor_delta_rle
  simp only [hmd]
  unfold decompress8b_rowmajor_delta_rle_impl
  have h1 : R < min_data_size := hR
  simp only [h1, decide_True, Bool.and_self, if_true]

/-- The hypothesis `TableOK` is needed below.  If the table had `0x7f` for the
bytes 64..127 (`NBITS_MASKS_U8`, which is not `TableOK`), then with two
dimensions that both grow by 32 from row to row (`L = 128`, `D = 2`), where
every zig-zag delta is `0x40`, the encoder would pack each row in 14 bits and
return 144 bytes.  The decoder derives 8 bits from the header field 7 and
returns 128, but the second byte it rebuilds is `0x10`, not `0x20`. -/
theorem rle_round_trip_fails_on_width7 :
    (compress8b_rowmajor_delta_rle NBITS_MASKS_U8 ⟨fun k => (32 * (k / 2 + 1)) % 256⟩ 128
      Mem.zero 2 true).map Outcome.ret = some (some 144) ∧
    (compress8b_rowmajor_delta_rle NBITS_MASKS_U8 ⟨fun k => (32 * (k / 2 + 1)) % 256⟩ 128
      Mem.zero 2 true).map (fun o => (decompress8b_rowmajor_delta_rle o.dest Mem.zero).ret)
      = some (some 128) ∧
    (compress8b_rowmajor_delta_rle NBITS_MASKS_U8 ⟨fun k => (32 * (k / 2 + 1)) % 256⟩ 128
      Mem.zero 2 true).map (fun o => load8 (decompress8b_rowmajor_delta_rle o.dest Mem.zero).dest 1)
      = some 0x10 ∧
    load8 ⟨fun k => (32 * (k / 2 + 1)) % 256⟩ 1 = 0x20 := by
  set_option maxRecDepth 1000000 in
  decide

/-- C3: round trip of the rowmajor-delta-rle mode.  For a width table whose
masks are those of the decoder and cover the byte they are looked up with
(`TableOK`), every `D` with `1 ≤ D < 4096` (the dimensions 1..128 among
them), every length `L < 2^32` (with or without a full group, with any tail)
and every input `x` (runs of equal records of any length included, also
longer than `0x7FFF` blocks), `compress8b_rowmajor_delta_rle` with
`write_size = true` returns, and `decompress8b_rowmajor_delta_rle` applied to
its output returns `L` and reproduces the first `L` bytes of `x`. -/
theorem rle_round_trip (T : Nat → Nat) (hT : TableOK T) (x dest dest2 : Mem) (L D : Nat)
    (hD1 : 1 ≤ D) (hD2 : D < 4096) (hL2 : L < 2 ^ 32) :
    ∃ out n, compress8b_rowmajor_delta_rle T x L dest D true = some (Outcome.returned out n) ∧
      ∃ out2, decompress8b_rowmajor_delta_rle out dest2 = Outcome.returned out2 L ∧
        ∀ k, k < L → load8 out2 k = load8 x k := by
  by_cases hL : L < 128
  · -- the input is copied
    rw [compress8b_rowmajor_delta_rle_small T x dest L D true hL]
    simp only [if_true]
    refine ⟨_, _, rfl, ?_⟩
    have hmd : read_metadata_rle_8b
        (memcpy (write_metadata_rle_8b dest 0 D 0 L).1 8 x 0 L) = ((D, 0, L), 8) :=
      read_written_metadata_rle dest _ D 0 L (by omega) (by norm_num) (by omega)
        (fun k hk => by rw [load8_memcpy, if_neg (by omega)])
    rw [decompress8b_rowmajor_delta_rle_copy _ dest2 D L hmd hL]
    refine ⟨_, rfl, fun k hk => ?_⟩
    rw [load8_memcpy, if_pos (by omega), load8_memcpy, if_pos (by omega)]
    exact congrArg (load8 x) (by omega)
  · obtain ⟨r, hr, ⟨n, hreach⟩, _⟩ := rleLoop_reach T x dest L D true hD1 (by omega)
    obtain ⟨z1, z2, z3, z4, z5⟩ := RleReach_size T x dest L D true hD1 (by omega) _ n r hreach
    obtain ⟨g1, g2, g3, g4⟩ := RleReach_content T hT x dest L D hD1 (by omega) _ n r hreach
    have h16 : 16 * n ≤ 16 * D * n := by
      have := Nat.mul_le_mul_right n (show 16 ≤ 16 * D by omega)
      exact this
    have hn : n < 2 ^ 32 := by omega
    have hng : r.ngroups = n := by rw [z1]; exact Nat.mod_eq_of_lt hn
    rw [compress8b_rowmajor_delta_rle_eq T x dest L D true hL, hr, Option.map_some']
    obtain ⟨out, ho, hmd, o1, o2⟩ := rleFinish_spec x L D r z3 (by omega) (by omega)
      (by rw [hng]; exact hn) g1
    rw [hng] at hmd
    refine ⟨out, _, congrArg some ho, ?_⟩
    have hnc : ¬ (n = 0 ∧ L - r.src < 128) := by
      rintro ⟨h0, hlt⟩
      have : ¬ 0 < r.src := fun hp => by have := g2.2 hp; omega
      omega
    rw [decompress8b_rowmajor_delta_rle_large out dest2 D n (L - r.src) hmd hD1 hnc]
    obtain ⟨_, ⟨d1, d2, d3, _⟩, _⟩ := g4 out dest2 (fun k a b => o1 k a b)
    rw [d1, d2]
    refine ⟨_, by rw [Nat.add_sub_cancel' z3], fun k hk => ?_⟩
    rw [load8_memcpy]
    by_cases hk2 : r.src ≤ k
    · rw [if_pos ⟨hk2, by omega⟩, o2 _ (by omega)]
      exact congrArg (load8 x) (by omega)
    · rw [if_neg (fun h => hk2 h.1)]
      exact d3 k (by omega)

theorem rle_round_trip_witness :
    ∃ out n, compress8b_rowmajor_delta_rle NBITS_MASKS_U8_folded
        ⟨fun k => (32 * (k / 2 + 1)) % 256⟩ 128 Mem.zero 2 true
        = some (Outcome.returned out n) ∧
      ∃ out2, decompress8b_rowmajor_delta_rle out Mem.zero = Outcome.returned out2 128 ∧
        ∀ k, k < 128 → load8 out2 k = load8 ⟨fun k => (32 * (k / 2 + 1)) % 256⟩ k :=
  rle_round_trip NBITS_MASKS_U8_folded TableOK_folded ⟨fun k => (32 * (k / 2 + 1)) % 256⟩
    Mem.zero Mem.zero 128 2 (by decide) (by decide) (by decide)

/-! ## C8: the Mode B metadata header -/

/-- C8: for `1 ≤ D < 4096` and `L < 2^32`, `compress8b_rowmajor_delta_rle` with
`write_size = true` returns, and the first eight bytes of its output hold `G`
in bytes 0..3, `remaining_len` in bytes 4..5 and `D` in bytes 6..7, where the
last `remaining_len` bytes of the output are the last `remaining_len` bytes of
the input.  For `L < 128` no group is written and `remaining_len = L`.  For
`L ≥ 128` the loops end in a state `r` reached with exactly `G` group headers
reserved, `remaining_len` is `L` minus the input consumed by the loops, and the
tail starts at the write position of `r`. -/
theorem modeB_header (T : Nat → Nat) (x dest : Mem) (L D : Nat)
    (hD1 : 1 ≤ D) (hD2 : D < 4096) (hL2 : L < 2 ^ 32) :
    ∃ out n G rem, compress8b_rowmajor_delta_rle T x L dest D true
        = some (Outcome.returned out n) ∧
      loadLE 4 out 0 = G ∧ loadLE 2 out 4 = rem ∧ loadLE 2 out 6 = D ∧
      rem ≤ L ∧ rem ≤ n ∧
      (∀ k, k < rem → load8 out (n - rem + k) = load8 x (L - rem + k)) ∧
      (L < 128 → G = 0 ∧ rem = L ∧ n = 8 + L) ∧
      (128 ≤ L → ∃ r, rleLoop T x L dest D true = some r ∧
        RleReach (rleCtxOf T x L D) (rleInit dest true) RlePoint.loopEnd G r ∧
        rem = L - r.src ∧ n = r.dest + rem) := by
  by_cases hL : L < 128
  · rw [compress8b_rowmajor_delta_rle_small T x dest L D true hL]
    simp only [if_true]
    have hmd : read_metadata_rle_8b
        (memcpy (write_metadata_rle_8b dest 0 D 0 L).1 8 x 0 L) = ((D, 0, L), 8) :=
      read_written_metadata_rle dest _ D 0 L (by omega) (by norm_num) (by omega)
        (fun k hk => by rw [load8_memcpy, if_neg (by omega)])
    rw [read_metadata_rle_8b_eq] at hmd
    simp only [Prod.mk.injEq, and_true] at hmd
    refine ⟨_, _, 0, L, rfl, hmd.2.1, hmd.2.2, hmd.1, le_refl _, by omega, fun k hk => ?_,
      fun _ => ⟨rfl, rfl, by omega⟩, fun h => by omega⟩
    rw [load8_memcpy, if_pos (by omega)]
    exact congrArg (load8 x) (by omega)
  · obtain ⟨r, hr, ⟨n, hreach⟩, _⟩ := rleLoop_reach T x dest L D true hD1 (by omega)
    obtain ⟨z1, z2, z3, z4, z5⟩ := RleReach_size T x dest L D true hD1 (by omega) _ n r hreach
    have g1 : 8 ≤ r.dest := RleReach_hdr T x dest L D true (by omega) _ n r hreach
    have h16 : 16 * n ≤ 16 * D * n := Nat.mul_le_mul_right n (show 16 ≤ 16 * D by omega)
    have hn : n < 2 ^ 32 := by omega
    have hng : r.ngroups = n := by rw [z1]; exact Nat.mod_eq_of_lt hn
    rw [compress8b_rowmajor_delta_rle_eq T x dest L D true hL, hr, Option.map_some']
    obtain ⟨out, ho, hmd, o1, o2⟩ := rleFinish_spec x L D r z3 (by omega) (by omega)
      (by rw [hng]; exact hn) g1
    rw [hng, read_metadata_rle_8b_eq] at hmd
    simp only [Prod.mk.injEq, and_true] at hmd
    refine ⟨out, _, n, L - r.src, congrArg some ho, hmd.2.1, hmd.2.2, hmd.1, by omega, by omega,
      fun k hk => ?_, fun h => by omega, fun _ => ⟨r, rfl, hreach, rfl, rfl⟩⟩
    rw [Nat.add_sub_cancel, o2 k hk]
    exact congrArg (load8 x) (by omega)

theorem modeB_header_witness :
    ∃ out n G rem, compress8b_rowmajor_delta_rle NBITS_MASKS_U8 Mem.zero 128 Mem.zero 8 true
        = some (Outcome.returned out n) ∧
      loadLE 4 out 0 = G ∧ loadLE 2 out 4 = rem ∧ loadLE 2 out 6 = 8 ∧
      rem ≤ 128 ∧ rem ≤ n ∧
      (∀ k, k < rem → load8 out (n - rem + k) = load8 Mem.zero (128 - rem + k)) ∧
      (128 < 128 → G = 0 ∧ rem = 128 ∧ n = 8 + 128) ∧
      (128 ≤ 128 → ∃ r, rleLoop NBITS_MASKS_U8 Mem.zero 128 Mem.zero 8 true = some r ∧
        RleReach (rleCtxOf NBITS_MASKS_U8 Mem.zero 128 8) (rleInit Mem.zero true)
          RlePoint.loopEnd G r ∧
        rem = 128 - r.src ∧ n = r.dest + rem) :=
  modeB_header NBITS_MASKS_U8 Mem.zero Mem.zero 128 8 (by decide) (by decide) (by decide)

/-! ## C25: how far the decoders write past the decoded data -/

/-- C25 fails for `decompress8b_rowmajor_delta`: for `D = 1` and the input of
128 zero bytes the call returns 128, and the destination byte at index
`128 + 8`, which held `0xAA`, holds 0 after the call (the 32-byte store of the
last row reaches up to index `127 + 31`). -/
theorem dest_slack_8_fails_for_delta :
    (decompress8b_rowmajor_delta
      (compress8b_rowmajor_delta NBITS_MASKS_U8 Mem.zero 128 Mem.zero 1 true).dest
      ⟨fun _ => 0xAA⟩).ret = some 128 ∧
    load8 (⟨fun _ => 0xAA⟩ : Mem) (128 + 8) = 0xAA ∧
    load8 (decompress8b_rowmajor_delta
      (compress8b_rowmajor_delta NBITS_MASKS_U8 Mem.zero 128 Mem.zero 1 true).dest
      ⟨fun _ => 0xAA⟩).dest (128 + 8) = 0 := by
  set_option maxRecDepth 1000000 in
  decide

/-- C25, amended: for every `D` with `1 ≤ D < 65536`, every `L < 2^48` and
every input, `decompress8b_rowmajor` applied to the stream of
`compress8b_rowmajor` leaves every destination byte at an index `≥ L + 8`
unchanged, and `decompress8b_rowmajor_delta` applied to the stream of
`compress8b_rowmajor_delta` leaves every destination byte at an index
`≥ L + 31` unchanged (its rows are stored as 32-byte vectors).  The same
holds with `L + 31` for `decompress8b_rowmajor_delta_rle` applied to the stream
of `compress8b_rowmajor_delta_rle`, for a width table whose masks are those of
the decoder, `D < 4096` and `L < 2^32`. -/
theorem dest_slack (T : Nat → Nat) (x dest dest2 : Mem) (L D : Nat)
    (hD1 : 1 ≤ D) (hD2 : D < 65536) (hL2 : L < 2 ^ 48) :
    (∀ k, L + 8 ≤ k →
      load8 (decompress8b_rowmajor (compress8b_rowmajor T x L dest D true).dest dest2).dest k
        = load8 dest2 k) ∧
    (∀ k, L + 31 ≤ k →
      load8 (decompress8b_rowmajor_delta
        (compress8b_rowmajor_delta T x L dest D true).dest dest2).dest k = load8 dest2 k) ∧
    (TableOK T → D < 4096 → L < 2 ^ 32 →
      ∃ out n, compress8b_rowmajor_delta_rle T x L dest D true
          = some (Outcome.returned out n) ∧
        ∀ k, L + 31 ≤ k →
          load8 (decompress8b_rowmajor_delta_rle out dest2).dest k = load8 dest2 k) := by
  refine ⟨fun k hk => ?_, fun k hk => ?_, fun hT hD3 hL3 => ?_⟩
  · exact decompress8b_rowmajor_above _ dest2 L D
      (read_metadata_8b_of_header _ dest L D hL2 hD2
        (fun j hj => compress8b_rowmajor_header T x dest L D hL2 j hj)) hD1 k (by omega)
  · exact decompress8b_rowmajor_delta_above _ dest2 L D
      (read_metadata_8b_of_header _ dest L D hL2 hD2
        (fun j hj => compress8b_rowmajor_delta_header T x dest L D hL2 j hj)) hD1 k hk
  · by_cases hL : L < 128
    · rw [compress8b_rowmajor_delta_rle_small T x dest L D true hL]
      simp only [if_true]
      refine ⟨_, _, rfl, fun k hk => ?_⟩
      have hmd : read_metadata_rle_8b
          (memcpy (write_metadata_rle_8b dest 0 D 0 L).1 8 x 0 L) = ((D, 0, L), 8) :=
        read_written_metadata_rle dest _ D 0 L (by omega) (by norm_num) (by omega)
          (fun k hk => by rw [load8_memcpy, if_neg (by omega)])
      rw [decompress8b_rowmajor_delta_rle_copy _ dest2 D L hmd hL]
      show load8 (memcpy _ _ _ _ _) k = _
      rw [load8_memcpy, if_neg (by omega)]
    · obtain ⟨r, hr, ⟨n, hreach⟩, _⟩ := rleLoop_reach T x dest L D true hD1 (by omega)
      obtain ⟨z1, z2, z3, z4, z5⟩ := RleReach_size T x dest L D true hD1 (by omega) _ n r hreach
      obtain ⟨g1, g2, g3, g4⟩ := RleReach_content T hT x dest L D hD1 (by omega) _ n r hreach
      have h16 : 16 * n ≤ 16 * D * n := Nat.mul_le_mul_right n (show 16 ≤ 16 * D by omega)
      have hn : n < 2 ^ 32 := by omega
      have hng : r.ngroups = n := by rw [z1]; exact Nat.mod_eq_of_lt hn
      rw [compress8b_rowmajor_delta_rle_eq T x dest L D true hL, hr, Option.map_some']
      obtain ⟨out, ho, hmd, o1, o2⟩ := rleFinish_spec x L D r z3 (by omega) (by omega)
        (by rw [hng]; exact hn) g1
      rw [hng] at hmd
      refine ⟨out, _, congrArg some ho, fun k hk => ?_⟩
      have hnc : ¬ (n = 0 ∧ L - r.src < 128) := by
        rintro ⟨h0, hlt⟩
        have : ¬ 0 < r.src := fun hp => by have := g2.2 hp; omega
        omega
      rw [decompress8b_rowmajor_delta_rle_large out dest2 D n (L - r.src) hmd hD1 hnc]
      obtain ⟨_, ⟨d1, d2, d3, _⟩, d5⟩ := g4 out dest2 (fun k a b => o1 k a b)
      have hlt := round_up_32_lt D
      show load8 (memcpy _ _ _ _ _) k = _
      rw [d2, load8_memcpy, if_neg (by omega)]
      exact d5 k (by omega)

theorem dest_slack_witness :
    (∀ k, 128 + 8 ≤ k →
      load8 (decompress8b_rowmajor
        (compress8b_rowmajor NBITS_MASKS_U8_folded Mem.zero 128 Mem.zero 1 true).dest
        ⟨fun _ => 0xAA⟩).dest k = load8 ⟨fun _ => 0xAA⟩ k) ∧
    (∀ k, 128 + 31 ≤ k →
      load8 (decompress8b_rowmajor_delta
        (compress8b_rowmajor_delta NBITS_MASKS_U8_folded Mem.zero 128 Mem.zero 1 true).dest
        ⟨fun _ => 0xAA⟩).dest k = load8 ⟨fun _ => 0xAA⟩ k) ∧
    (TableOK NBITS_MASKS_U8_folded → 1 < 4096 → 128 < 2 ^ 32 →
      ∃ out n, compress8b_rowmajor_delta_rle NBITS_MASKS_U8_folded Mem.zero 128 Mem.zero 1 true
          = some (Outcome.returned out n) ∧
        ∀ k, 128 + 31 ≤ k →
          load8 (decompress8b_rowmajor_delta_rle out ⟨fun _ => 0xAA⟩).dest k
            = load8 ⟨fun _ => 0xAA⟩ k) :=
  dest_slack NBITS_MASKS_U8_folded Mem.zero Mem.zero ⟨fun _ => 0xAA⟩ 128 1
    (by decide) (by decide) (by decide)

/-! ## The log of run lengths and the loops -/

theorem RleTrace_reach (c : RleCtx) (s0 : RleEncState) (pt : RlePoint) (n : Nat) (lg : List Nat)
    (s : RleEncState) (h : RleTrace c s0 pt n lg s) : RleReach c s0 pt n s := by
  induction h with
  | init => exact RleReach.init
  | enter n _ s _ hc ih => exact RleReach.enter n s ih hc
  | stop n _ s _ hc ih => exact RleReach.stop n s ih hc
  | step n _ s s1 _ hb hstep ih => exact RleReach.step n s s1 ih hb hstep
  | jump n _ s s1 _ hb hstep ih => exact RleReach.jump n s s1 ih hb hstep
  | leave n _ s _ hb ih => exact RleReach.leave n s ih hb

theorem rle_block_loop_log_unfold (c : RleCtx) (fuel : Nat) (s : RleEncState) (lg : List Nat) :
    rle_block_loop_log c (fuel + 1) s lg =
      if s.b < group_sz_blocks then
        match rleBlockStep c s with
        | none => none
        | some (s1, true) => some (s1, true, lg ++ rleRunsOfPass c s)
        | some (s1, false) => rle_block_loop_log c fuel s1 (lg ++ rleRunsOfPass c s)
      else some (s, false, lg) := rfl

theorem rle_group_loop_log_unfold (c : RleCtx) (fuel n : Nat) (s : RleEncState) (lg : List Nat) :
    rle_group_loop_log c fuel (n + 1) s lg =
      if (s.src : Int) ≤ c.last_full_group_start then
        match rle_block_loop_log c fuel (rleGroupStart c s) lg with
        | none => none
        | some (s2, true, lg2) => some (s2, lg2)
        | some (s2, false, lg2) => rle_group_loop_log c fuel n s2 lg2
      else some (s, lg) := rfl

/-- The block loop with the log goes through the states of the block loop. -/
theorem rle_block_loop_log_some (c : RleCtx) (s0 : RleEncState) (fuel : Nat) :
    ∀ (s r : RleEncState) (flag : Bool) (n : Nat) (lg : List Nat),
      RleTrace c s0 RlePoint.blockHead n lg s →
      rle_block_loop c fuel s = some (r, flag) →
      ∃ m lg2, rle_block_loop_log c fuel s lg = some (r, flag, lg2) ∧
        RleTrace c s0 (if flag then RlePoint.loopEnd else RlePoint.groupHead) m lg2 r := by
  induction fuel with
  | zero => intro s r flag n lg _ h; simp [rle_block_loop] at h
  | succ fuel ih =>
    intro s r flag n lg hs h
    rw [rle_block_loop_unfold] at h
    rw [rle_block_loop_log_unfold]
    by_cases hb : s.b < group_sz_blocks
    · rw [if_pos hb] at h ⊢
      cases hstep : rleBlockStep c s with
      | none => rw [hstep] at h; simp at h
      | some p =>
        obtain ⟨s1, f1⟩ := p
        rw [hstep] at h
        cases f1 with
        | true =>
          simp only [Option.some.injEq, Prod.mk.injEq] at h
          obtain ⟨rfl, rfl⟩ := h
          exact ⟨_, _, rfl, RleTrace.jump n lg s s1 hs hb hstep⟩
        | false =>
          exact ih s1 r flag _ _ (RleTrace.step n lg s s1 hs hb hstep) h
    · rw [if_neg hb] at h ⊢
      simp only [Option.some.injEq, Prod.mk.injEq] at h
      obtain ⟨rfl, rfl⟩ := h
      exact ⟨_, _, rfl, RleTrace.leave n lg s hs hb⟩

/-- The group loop with the log goes through the states of the group loop. -/
theorem rle_group_loop_log_some (c : RleCtx) (s0 : RleEncState) (fuel n : Nat) :
    ∀ (s r : RleEncState) (k : Nat) (lg : List Nat), RleTrace c s0 RlePoint.groupHead k lg s →
      rle_group_loop c fuel n s = some r →
      ∃ m lg2, rle_group_loop_log c fuel n s lg = some (r, lg2) ∧
        RleTrace c s0 RlePoint.loopEnd m lg2 r := by
  induction n with
  | zero => intro s r _ _ _ h; simp [rle_group_loop] at h
  | succ n ih =>
    intro s r k lg hs h
    rw [rle_group_loop_unfold] at h
    rw [rle_group_loop_log_unfold]
    by_cases hc : (s.src : Int) ≤ c.last_full_group_start
    · rw [if_pos hc] at h ⊢
      cases hbl : rle_block_loop c fuel (rleGroupStart c s) with
      | none => rw [hbl] at h; simp at h
      | some p =>
        obtain ⟨s2, f2⟩ := p
        rw [hbl] at h
        obtain ⟨m, lg2, e1, e2⟩ := rle_block_loop_log_some c s0 fuel _ s2 f2 _ lg
          (RleTrace.enter k lg s hs hc) hbl
        rw [e1]
        cases f2 with
        | true =>
          simp only [Option.some.injEq] at h
          subst h
          exact ⟨m, lg2, rfl, e2⟩
        | false => exact ih s2 r m lg2 e2 h
    · rw [if_neg hc] at h ⊢
      simp only [Option.some.injEq] at h
      subst h
      exact ⟨_, _, rfl, RleTrace.stop k lg s hs hc⟩

/-- The log of the run lengths of a call on at least 128 bytes is the log of
a trace that ends in the final state of the loops. -/
theorem rleRunLog_trace (T : Nat → Nat) (x dest : Mem) (L D : Nat) (write_size : Bool)
    (hD1 : 1 ≤ D) (hD2 : D < 65536) (hL : ¬ L < 128) :
    ∃ r n lg, rleLoop T x L dest D write_size = some r ∧
      rleRunLog T x L dest D write_size = some lg ∧
      RleTrace (rleCtxOf T x L D) (rleInit dest write_size) RlePoint.loopEnd n lg r := by
  obtain ⟨r, hr, _⟩ := rleLoop_spec T x dest L D write_size hD1 hD2
  obtain ⟨m, lg, e1, e2⟩ := rle_group_loop_log_some _ _ _ _ _ r 0 [] RleTrace.init hr
  refine ⟨r, m, lg, hr, ?_, e2⟩
  unfold rleRunLog
  rw [if_neg (by show ¬ L < 128; exact hL), e1]
  rfl

/-! ## Which blocks have rows of width zero -/

/-- The zig-zag deltas of a block are all zero exactly when each of its rows
repeats the row before the block. -/
theorem deltaBits_zero_iff (x : Mem) (p D : Nat) (hD1 : 1 ≤ D) :
    (∀ i d, i < 8 → d < D → deltaBits x p D (prevRow x D p) i d = 0) ↔
      ∀ k, k < 8 * D → load8 x (p + k) = prevRow x D p (k % D) := by
  have h2 : ∀ d, prevRow x D p d < 256 := by
    intro d
    unfold prevRow
    split_ifs
    · omega
    · exact load8_lt _ _
  constructor
  · intro hbits
    have hrows : ∀ i, i < 8 → ∀ d, d < D → load8 x (p + (i * D + d)) = prevRow x D p d := by
      intro i
      induction i with
      | zero =>
        intro _ d hd
        have h0 := hbits 0 d (by omega) hd
        unfold deltaBits at h0
        rw [if_pos rfl] at h0
        have hz := zigzag_encode_eq_zero _ (Nat.mod_lt _ (by norm_num)) h0
        have h1 := load8_lt x (p + (0 * D + d))
        have := h2 d
        omega
      | succ i ih =>
        intro hi d hd
        have h0 := hbits (i + 1) d hi hd
        unfold deltaBits at h0
        rw [if_neg (by omega), Nat.add_sub_cancel] at h0
        have hz := zigzag_encode_eq_zero _ (Nat.mod_lt _ (by norm_num)) h0
        have h1 := load8_lt x (p + ((i + 1) * D + d))
        have h3 := load8_lt x (p + (i * D + d))
        have := ih (by omega) d hd
        omega
    intro k hk
    have hi : k / D < 8 := (Nat.div_lt_iff_lt_mul (by omega)).mpr (by omega)
    have := hrows (k / D) hi (k % D) (Nat.mod_lt _ (by omega))
    have e : k / D * D + k % D = k := by
      rw [Nat.mul_comm]; exact Nat.div_add_mod k D
    rw [e] at this
    exact this
  · intro hrep i d hi hd
    have hmod : ∀ j, (j * D + d) % D = d := by
      intro j
      rw [Nat.mul_comm, Nat.mul_add_mod, Nat.mod_eq_of_lt hd]
    have hrow : ∀ j, j < 8 → load8 x (p + (j * D + d)) = prevRow x D p d := by
      intro j hj
      have hk : j * D + d < 8 * D := by
        have : (j + 1) * D ≤ 8 * D := Nat.mul_le_mul_right _ (by omega)
        rw [Nat.add_mul] at this
        omega
      have := hrep (j * D + d) hk
      rw [hmod j] at this
      exact this
    have hz : ∀ v, v < 256 → zigzag_encode_i8 ((v + 256 - v) % 256) = 0 := by
      intro v _
      have : (v + 256 - v) % 256 = 0 := by omega
      rw [this]
      decide
    unfold deltaBits
    by_cases h0 : i = 0
    · rw [if_pos h0, hrow i hi]
      exact hz _ (h2 d)
    · rw [if_neg h0, hrow i hi, hrow (i - 1) (by omega)]
      exact hz _ (h2 d)


theorem sumTo_zero_of (n : Nat) (f : Nat → Nat) (h : ∀ j, j < n → f j = 0) : sumTo n f = 0 := by
  induction n with
  | zero => rfl
  | succ n ih =>
    rw [sumTo, ih (fun j hj => h j (by omega)), h n (by omega)]

/-- With a table that keeps the width zero for the mask zero alone, the rows
of a block have width zero exactly when each row repeats the row before the
block. -/
theorem block_width_zero_iff (T : Nat → Nat) (hZ : TableZero T) (x : Mem) (p D : Nat) (dl : Mem)
    (hD1 : 1 ≤ D)
    (hcarry : ∀ d, d < D → load8 dl (8 * D + d) = prevRow x D p d) :
    sumTo (nstripesOf D) (statsOf T (deltaMaskOf x p D dl) D).stripe_bitwidths.get = 0 ↔
      ∀ k, k < 8 * D → load8 x (p + k) = prevRow x D p (k % D) := by
  rw [statsOf_row_bits, ← deltaBits_zero_iff x p D hD1]
  have hbits : ∀ i d, d < D → deltaBits x p D (prevRow x D p) i d
      = deltaBits x p D (fun d => load8 dl (8 * D + d)) i d := by
    intro i d hd
    exact deltaBits_congr x p D (prevRow x D p) (fun d => load8 dl (8 * D + d)) i d
      (hcarry d hd).symm
  have hdm : ∀ d, d < D → (deltaMaskOf x p D dl d = 0 ↔
      ∀ i, i < 8 → deltaBits x p D (prevRow x D p) i d = 0) := by
    intro d hd
    rw [deltaMaskOf_eq _ _ _ _ _ hd]
    have := orLoop_lt_iff (fun i => deltaBits x p D (fun d => load8 dl (8 * D + d)) i d) 8 0
    simp only [pow_zero, Nat.lt_one_iff] at this
    rw [this]
    constructor
    · intro h i hi; rw [hbits i d hd]; exact h i hi
    · intro h i hi; rw [← hbits i d hd]; exact h i hi
  constructor
  · intro hw i d hi hd
    have h0 : maxNbits (maskOf T (deltaMaskOf x p D dl) d) = 0 := sumTo_eq_zero D _ hw d hd
    exact (hdm d hd).mp ((hZ _ (deltaMaskOf_lt x p D dl d hd)).mp h0) i hi
  · intro h
    apply sumTo_zero_of
    intro d hd
    exact (hZ _ (deltaMaskOf_lt x p D dl d hd)).mpr ((hdm d hd).mpr (fun i hi => h i d hi hd))

theorem TableZero_of_ok (T : Nat → Nat) (hT : TableOK T) (hT0 : T 0 = 0) : TableZero T := by
  intro m hm
  constructor
  · intro h
    have hok := hT m hm
    have hlt : T m < 256 := by
      have := hok.1
      simp only [okMasks, List.mem_cons, List.mem_singleton, List.mem_nil_iff, or_false] at this
      omega
    rw [Nat.mod_eq_of_lt hlt] at h
    have := okMasks_pow _ hok.1
    rw [h] at this
    omega
  · intro h
    rw [h, hT0]
    decide

set_option maxRecDepth 100000 in
theorem TableZero_spec : TableZero NBITS_MASKS_U8 := by
  unfold TableZero
  decide

/-! ## What one pass of the block loop does to the counters -/

/-- The block in hand has rows of width zero exactly when it repeats the row
before it. -/
theorem rle_read_block_zero_iff (T : Nat → Nat) (hZ : TableZero T) (x : Mem) (L D : Nat)
    (s : RleEncState) (hD1 : 1 ≤ D) (hD2 : D < 65536)
    (hcarry : ∀ d, d < D → load8 s.deltas (8 * D + d) = prevRow x D s.src d) :
    (rle_read_block (rleCtxOf T x L D) s).1.row_width_bits = 0 ↔
      ∀ k, k < 8 * D → load8 x (s.src + k) = prevRow x D s.src (k % D) := by
  rw [rle_read_block_width T x L D s hD1 hD2]
  exact block_width_zero_iff T hZ x s.src D s.deltas hD1 hcarry

/-- A block of width zero while the run may grow and another full group
follows: the run grows by the block and nothing is written. -/
theorem rleStep_run (T : Nat → Nat) (x : Mem) (L D : Nat) (s s1 : RleEncState) (flag : Bool)
    (hstep : rleBlockStep (rleCtxOf T x L D) s = some (s1, flag))
    (hw : (rle_read_block (rleCtxOf T x L D) s).1.row_width_bits = 0)
    (hrun : s.run_length_nblocks < 0x7fff) (hL : s.src + 8 * D + 16 * D < L) :
    flag = false ∧ s1.src = s.src + 8 * D ∧ s1.b = s.b ∧
      s1.run_length_nblocks = s.run_length_nblocks + 1 ∧ s1.dest = s.dest ∧
      rleNewGroup (rleCtxOf T x L D) s = 0 ∧ rleRunsOfPass (rleCtxOf T x L D) s = [] := by
  have hdo : (rle_read_block (rleCtxOf T x L D) s).1.row_width_bits = 0 ∧
      s.run_length_nblocks < max_run_nblocks := ⟨hw, hrun⟩
  have hp : rlePrepare (rleCtxOf T x L D) (rle_read_block (rleCtxOf T x L D) s).1
      (rle_read_block (rleCtxOf T x L D) s).2 = (rle_read_block (rleCtxOf T x L D) s).2 := by
    unfold rlePrepare
    rw [if_neg (fun h => h.1 hdo)]
  have hng : rleNewGroup (rleCtxOf T x L D) s = 0 := by
    unfold rleNewGroup
    rw [if_neg (fun h => h.1 hdo)]
  have hlog : rleRunsOfPass (rleCtxOf T x L D) s = [] := by
    unfold rleRunsOfPass
    rw [if_neg (fun h => h.1 hdo), hp, if_neg]
    · rfl
    · intro h
      apply h.2.2
      show (((s.src + block_sz * D : Nat) : Int)) < (L : Int) - (groupSzOf D : Int)
      rw [groupSzOf_eq]
      simp only [block_sz]
      omega
  have hdo2 : (rle_read_block (rleCtxOf T x L D) s).1.row_width_bits = 0 ∧
      (rle_read_block (rleCtxOf T x L D) s).2.run_length_nblocks < max_run_nblocks := hdo
  rw [rleBlockStep_eq, hp, if_pos hdo2,
    rle_do_rle_cont T x L D (rle_read_block (rleCtxOf T x L D) s).2 hL hrun] at hstep
  simp only [Option.some.injEq, Prod.mk.injEq] at hstep
  obtain ⟨rfl, rfl⟩ := hstep
  exact ⟨rfl, rfl, rfl, rfl, rfl, hng, hlog⟩

/-- A block of width zero while the run may grow and no further full group
follows: the run is closed with the block in it, and the loops are left. -/
theorem rleStep_last (T : Nat → Nat) (x : Mem) (L D : Nat) (s s1 : RleEncState) (flag : Bool)
    (hstep : rleBlockStep (rleCtxOf T x L D) s = some (s1, flag))
    (hw : (rle_read_block (rleCtxOf T x L D) s).1.row_width_bits = 0)
    (hrun : s.run_length_nblocks < 0x7fff) (hb : s.b < 2) (hL : L ≤ s.src + 8 * D + 16 * D) :
    flag = true ∧ s1.src = s.src + 8 * D ∧ s1.dest ≤ s.dest + 3 ∧
      rleNewGroup (rleCtxOf T x L D) s = 0 ∧
      rleRunsOfPass (rleCtxOf T x L D) s = [s.run_length_nblocks + 1] := by
  have hdo : (rle_read_block (rleCtxOf T x L D) s).1.row_width_bits = 0 ∧
      s.run_length_nblocks < max_run_nblocks := ⟨hw, hrun⟩
  have hp : rlePrepare (rleCtxOf T x L D) (rle_read_block (rleCtxOf T x L D) s).1
      (rle_read_block (rleCtxOf T x L D) s).2 = (rle_read_block (rleCtxOf T x L D) s).2 := by
    unfold rlePrepare
    rw [if_neg (fun h => h.1 hdo)]
  have hng : rleNewGroup (rleCtxOf T x L D) s = 0 := by
    unfold rleNewGroup
    rw [if_neg (fun h => h.1 hdo)]
  have hmod : (s.run_length_nblocks + 1) % 2 ^ 16 = s.run_length_nblocks + 1 :=
    Nat.mod_eq_of_lt (by omega)
  have hlog : rleRunsOfPass (rleCtxOf T x L D) s = [s.run_length_nblocks + 1] := by
    unfold rleRunsOfPass
    rw [if_neg (fun h => h.1 hdo), hp, if_pos]
    · show [] ++ [(s.run_length_nblocks + 1) % 2 ^ 16] = _
      rw [hmod]
      rfl
    · refine ⟨hw, hrun, ?_⟩
      show ¬ (((s.src + block_sz * D : Nat) : Int)) < (L : Int) - (groupSzOf D : Int)
      rw [groupSzOf_eq]
      simp only [block_sz]
      omega
  have hdo2 : (rle_read_block (rleCtxOf T x L D) s).1.row_width_bits = 0 ∧
      (rle_read_block (rleCtxOf T x L D) s).2.run_length_nblocks < max_run_nblocks := hdo
  rw [rleBlockStep_eq, hp, if_pos hdo2,
    rle_do_rle_exit T x L D (rle_read_block (rleCtxOf T x L D) s).2 hL hrun hb] at hstep
  simp only [Option.some.injEq, Prod.mk.injEq] at hstep
  obtain ⟨rfl, rfl⟩ := hstep
  have hwr := writeRunLength_dest_le s.mem s.dest (s.run_length_nblocks + 1)
  refine ⟨rfl, rfl, ?_, hng, hlog⟩
  show (writeRunLength s.mem s.dest (s.run_length_nblocks + 1)).2 + (1 - s.b) ≤ s.dest + 3
  omega

/-- A block of non-zero width while no run is in progress: the block is
packed into the next slot of the group. -/
theorem rleStep_pack (T : Nat → Nat) (x : Mem) (L D : Nat) (hD1 : 1 ≤ D) (hD2 : D < 65536)
    (s s1 : RleEncState) (flag : Bool)
    (hstep : rleBlockStep (rleCtxOf T x L D) s = some (s1, flag))
    (hw : (rle_read_block (rleCtxOf T x L D) s).1.row_width_bits ≠ 0)
    (hrun : s.run_length_nblocks = 0) :
    flag = false ∧ s1.src = s.src + 8 * D ∧ s1.b = s.b + 1 ∧ s1.run_length_nblocks = 0 ∧
      s1.dest ≤ s.dest + 8 * D ∧
      rleNewGroup (rleCtxOf T x L D) s = 0 ∧ rleRunsOfPass (rleCtxOf T x L D) s = [] := by
  have hdo : ¬ ((rle_read_block (rleCtxOf T x L D) s).1.row_width_bits = 0 ∧
      s.run_length_nblocks < max_run_nblocks) := fun h => hw h.1
  have hp : rlePrepare (rleCtxOf T x L D) (rle_read_block (rleCtxOf T x L D) s).1
      (rle_read_block (rleCtxOf T x L D) s).2 = (rle_read_block (rleCtxOf T x L D) s).2 := by
    unfold rlePrepare
    rw [if_neg]
    intro h
    have : s.run_length_nblocks > 0 := h.2
    omega
  have hng : rleNewGroup (rleCtxOf T x L D) s = 0 := by
    unfold rleNewGroup
    rw [if_neg (fun h => by have := h.2.1; omega)]
  have hlog : rleRunsOfPass (rleCtxOf T x L D) s = [] := by
    unfold rleRunsOfPass
    rw [if_neg (fun h => by have := h.2; omega), if_neg (fun h => hw h.1)]
    rfl
  have hrb : (rle_read_block (rleCtxOf T x L D) s).1.out_row_nbytes ≤ D := by
    rw [(rle_read_block_fields T x L D s).1]
    exact rowBytesOf_deltaStripeStats_le T x _ D _ hD1 hD2
  have hdo2 : ¬ ((rle_read_block (rleCtxOf T x L D) s).1.row_width_bits = 0 ∧
      (rle_read_block (rleCtxOf T x L D) s).2.run_length_nblocks < max_run_nblocks) := hdo
  rw [rleBlockStep_eq, hp, if_neg hdo2] at hstep
  simp only [Option.some.injEq, Prod.mk.injEq] at hstep
  obtain ⟨rfl, rfl⟩ := hstep
  refine ⟨rfl, rfl, rfl, hrun, ?_, hng, hlog⟩
  show s.dest + block_sz * (rle_read_block (rleCtxOf T x L D) s).1.out_row_nbytes ≤ s.dest + 8 * D
  simp only [block_sz]
  omega

/-- A block of non-zero width that ends a run: the length of the run is
written; the block is packed into the slot after the run, which is the first
slot of a new group when the run filled the last slot. -/
theorem rleStep_close (T : Nat → Nat) (x : Mem) (L D : Nat)
    (s s1 : RleEncState) (flag : Bool)
    (hstep : rleBlockStep (rleCtxOf T x L D) s = some (s1, flag))
    (hw : (rle_read_block (rleCtxOf T x L D) s).1.row_width_bits ≠ 0)
    (hrun : 0 < s.run_length_nblocks) (hb : s.b < 2) :
    flag = false ∧ s1.src = s.src + 8 * D ∧ s1.b = (if s.b = 0 then 2 else 1) ∧
      s1.run_length_nblocks = 0 ∧
      rleNewGroup (rleCtxOf T x L D) s = s.b ∧
      rleRunsOfPass (rleCtxOf T x L D) s = [s.run_length_nblocks] := by
  have hdo : ¬ ((rle_read_block (rleCtxOf T x L D) s).1.row_width_bits = 0 ∧
      s.run_length_nblocks < max_run_nblocks) := fun h => hw h.1
  have hlog : rleRunsOfPass (rleCtxOf T x L D) s = [s.run_length_nblocks] := by
    unfold rleRunsOfPass
    rw [if_pos ⟨hdo, hrun⟩, if_neg (fun h => hw h.1)]
    rfl
  rw [rleBlockStep_eq] at hstep
  rcases rlePrepare_cases2 (rleCtxOf T x L D) s with ⟨_, e⟩ | ⟨n0, _, hb2, e⟩ | ⟨n1, _, hb2, e⟩
  · exfalso
    have h1 : rlePrepare (rleCtxOf T x L D) (rle_read_block (rleCtxOf T x L D) s).1
        (rle_read_block (rleCtxOf T x L D) s).2
        = if s.b + 1 = group_sz_blocks then
            rleGroupStart (rleCtxOf T x L D)
              (rleCloseRun (rleCtxOf T x L D) (rle_read_block (rleCtxOf T x L D) s).2)
          else rleCloseRun (rleCtxOf T x L D) (rle_read_block (rleCtxOf T x L D) s).2 := by
      unfold rlePrepare
      rw [if_pos ⟨hdo, hrun⟩]
      rfl
    have h2 := congrArg RleEncState.run_length_nblocks (h1.symm.trans e)
    have h3 : (rle_read_block (rleCtxOf T x L D) s).2.run_length_nblocks
        = s.run_length_nblocks := rfl
    rw [h3] at h2
    split_ifs at h2
    · have : (0 : Nat) = s.run_length_nblocks := h2
      omega
    · have : (0 : Nat) = s.run_length_nblocks := h2
      omega
  · have hb0 : s.b = 0 := by
      simp only [group_sz_blocks, kDefaultGroupSzBlocks] at hb2; omega
    rw [e, if_neg (fun h => hw h.1)] at hstep
    simp only [Option.some.injEq, Prod.mk.injEq] at hstep
    obtain ⟨rfl, rfl⟩ := hstep
    refine ⟨rfl, rfl, ?_, rfl, by rw [n0, hb0], hlog⟩
    rw [if_pos hb0]
    show s.b + 1 + 1 = 2
    omega
  · have hb1 : s.b = 1 := by
      simp only [group_sz_blocks, kDefaultGroupSzBlocks] at hb2; omega
    rw [e, if_neg (fun h => hw h.1)] at hstep
    simp only [Option.some.injEq, Prod.mk.injEq] at hstep
    obtain ⟨rfl, rfl⟩ := hstep
    refine ⟨rfl, rfl, ?_, rfl, by rw [n1, hb1], hlog⟩
    rw [if_neg (by omega)]
    rfl

/-! ## The decoder on the output of a finished run-length encoding -/

/-- The final stage after a state in which the loops have ended writes an
output that the decoder turns back into the input. -/
theorem rle_loopEnd_decodes (T : Nat → Nat) (hT : TableOK T) (x dest dest2 : Mem) (L D : Nat)
    (hD1 : 1 ≤ D) (hD2 : D < 4096) (hL2 : L < 2 ^ 32) (hL : ¬ L < 128) (n : Nat)
    (r : RleEncState)
    (hreach : RleReach (rleCtxOf T x L D) (rleInit dest true) RlePoint.loopEnd n r) :
    r.src ≤ L ∧
    ∃ out, rleFinish x L D true r = Outcome.returned out (r.dest + (L - r.src)) ∧
      read_metadata_rle_8b out = ((D, n, L - r.src), 8) ∧
      ∃ out2, decompress8b_rowmajor_delta_rle out dest2 = Outcome.returned out2 L ∧
        ∀ k, k < L → load8 out2 k = load8 x k := by
  obtain ⟨z1, z2, z3, z4, z5⟩ := RleReach_size T x dest L D true hD1 (by omega) _ n r hreach
  obtain ⟨g1, g2, g3, g4⟩ := RleReach_content T hT x dest L D hD1 (by omega) _ n r hreach
  have h16 : 16 * n ≤ 16 * D * n := by
    have := Nat.mul_le_mul_right n (show 16 ≤ 16 * D by omega)
    exact this
  have hn : n < 2 ^ 32 := by omega
  have hng : r.ngroups = n := by rw [z1]; exact Nat.mod_eq_of_lt hn
  obtain ⟨out, ho, hmd, o1, o2⟩ := rleFinish_spec x L D r z3 (by omega) (by omega)
    (by rw [hng]; exact hn) g1
  rw [hng] at hmd
  refine ⟨z3, out, ho, hmd, ?_⟩
  have hnc : ¬ (n = 0 ∧ L - r.src < 128) := by
    rintro ⟨h0, hlt⟩
    have : ¬ 0 < r.src := fun hp => by have := g2.2 hp; omega
    omega
  rw [decompress8b_rowmajor_delta_rle_large out dest2 D n (L - r.src) hmd hD1 hnc]
  obtain ⟨_, ⟨d1, d2, d3, _⟩, _⟩ := g4 out dest2 (fun k a b => o1 k a b)
  rw [d1, d2]
  refine ⟨_, by rw [Nat.add_sub_cancel' z3], fun k hk => ?_⟩
  rw [load8_memcpy]
  by_cases hk2 : r.src ≤ k
  · rw [if_pos ⟨hk2, by omega⟩, o2 _ (by omega)]
    exact congrArg (load8 x) (by omega)
  · rw [if_neg (fun h => hk2 h.1)]
    exact d3 k (by omega)

/-! ## The run-length encoder on a constant input -/

/-- One pass of the body of the block loop on a constant input. -/
theorem ConstInv_step (T : Nat → Nat) (hZ : TableZero T) (x : Mem) (L D c : Nat)
    (hD1 : 1 ≤ D) (hD2 : D < 65536) (hx : ∀ k, k < L → load8 x k = c) (hL16 : 16 * D ≤ L)
    (hblocks : L / (8 * D) < 0x7fff) (n : Nat) (lg : List Nat) (s s1 : RleEncState)
    (flag : Bool) (h : ConstInv D L c RlePoint.blockHead n lg s)
    (hcarry : ∀ d, d < D → load8 s.deltas (8 * D + d) = prevRow x D s.src d)
    (hstep : rleBlockStep (rleCtxOf T x L D) s = some (s1, flag)) :
    ConstInv D L c (if flag then RlePoint.loopEnd else RlePoint.blockHead)
      (n + rleNewGroup (rleCtxOf T x L D) s) (lg ++ rleRunsOfPass (rleCtxOf T x L D) s) s1 := by
  obtain ⟨hn, hlg, hb, hsrc, hfit, hdest, hc0, hc1⟩ := h
  have hzi := rle_read_block_zero_iff T hZ x L D s hD1 hD2 hcarry
  have hmul : 8 * D * (s.b + s.run_length_nblocks + 1)
      = 8 * D * (s.b + s.run_length_nblocks) + 8 * D := by ring
  have hge : s.src ≠ 0 → 8 * D ≤ s.src := by
    intro h0
    have : 0 < s.b + s.run_length_nblocks := by
      rcases Nat.eq_zero_or_pos (s.b + s.run_length_nblocks) with h1 | h1
      · rw [h1, Nat.mul_zero] at hsrc
        exact absurd hsrc h0
      · exact h1
    rw [hsrc]
    exact Nat.le_mul_of_pos_right _ this
  have hZc : (∀ k, k < 8 * D → load8 x (s.src + k) = prevRow x D s.src (k % D)) ↔
      (s.src = 0 → c = 0) := by
    constructor
    · intro hz h0
      have := hz 0 (by omega)
      unfold prevRow at this
      rw [if_pos h0, Nat.add_zero, hx _ (by omega)] at this
      exact this
    · intro hz k hk
      rw [hx _ (by omega)]
      unfold prevRow
      by_cases h0 : s.src = 0
      · rw [if_pos h0]
        exact hz h0
      · have := hge h0
        have hm : k % D < D := Nat.mod_lt _ (by omega)
        rw [if_neg h0, hx _ (by omega)]
  have hrun : s.run_length_nblocks < 0x7fff := by
    have h1 : (s.b + s.run_length_nblocks + 1) * (8 * D) ≤ L := by
      rw [Nat.mul_comm, hmul]
      omega
    have := (Nat.le_div_iff_mul_le (show 0 < 8 * D by omega)).mpr h1
    omega
  by_cases hw : (rle_read_block (rleCtxOf T x L D) s).1.row_width_bits = 0
  · have hz := hZc.mp (hzi.mp hw)
    by_cases hLc : s.src + 8 * D + 16 * D < L
    · obtain ⟨rfl, e1, e2, e3, e4, e5, e6⟩ := rleStep_run T x L D s s1 flag hstep hw hrun hLc
      rw [e5, e6, List.append_nil]
      have hmul2 : 8 * D * (s.b + (s.run_length_nblocks + 1))
          = 8 * D * (s.b + s.run_length_nblocks) + 8 * D := by ring
      refine ⟨hn, hlg, by rw [e2]; exact hb, by rw [e1, e2, e3, hmul2, hsrc], by omega,
        by rw [e4, e2]; exact hdest, by rw [e2]; exact hc0, ?_⟩
      intro hc hb0
      exfalso
      rw [e2] at hb0
      have := hc1 hc hb0
      rw [hb0, this] at hsrc
      exact hc (hz (by rw [hsrc]; rfl))
    · obtain ⟨rfl, e1, e2, e5, e6⟩ := rleStep_last T x L D s s1 flag hstep hw hrun hb
        (by omega)
      rw [e5, e6, hlg]
      have hb8 : 8 * D * s.b ≤ 8 * D := by
        have := Nat.mul_le_mul_left (8 * D) (show s.b ≤ 1 by omega)
        omega
      exact ⟨hn, ⟨_, rfl, by omega⟩, by omega, by omega, by omega⟩
  · have hnz : ¬ (s.src = 0 → c = 0) := fun hh => hw (hzi.mpr (hZc.mpr hh))
    have hs0 : s.src = 0 := by
      by_contra h0
      exact hnz (fun h1 => absurd h1 h0)
    have hc : c ≠ 0 := fun h0 => hnz (fun _ => h0)
    have hsum : s.b + s.run_length_nblocks = 0 := by
      rcases Nat.eq_zero_or_pos (s.b + s.run_length_nblocks) with h1 | h1
      · exact h1
      · have := Nat.le_mul_of_pos_right (8 * D) h1
        omega
    obtain ⟨rfl, e1, e2, e3, e4, e5, e6⟩ := rleStep_pack T x L D hD1 hD2 s s1 flag hstep hw
      (by omega)
    rw [e5, e6, List.append_nil]
    have hb0 : s.b = 0 := by omega
    refine ⟨hn, hlg, by rw [e2]; omega, ?_, by omega, ?_, fun h0 => absurd h0 hc,
      fun _ h1 => by rw [e2] at h1; omega⟩
    · rw [e1, e2, e3, hs0, hb0]
      ring
    · rw [e2, hb0]
      rw [hb0] at hdest
      omega

/-- On a constant input the loops are left from the branch `do_rle`, with one
group header reserved and one run length written. -/
theorem RleTrace_const (T : Nat → Nat) (hZ : TableZero T) (x dest : Mem) (L D c : Nat)
    (hD1 : 1 ≤ D) (hD2 : D < 65536) (hx : ∀ k, k < L → load8 x k = c) (hL16 : 16 * D ≤ L)
    (hblocks : L / (8 * D) < 0x7fff) (pt : RlePoint) (n : Nat) (lg : List Nat)
    (s : RleEncState)
    (hs : RleTrace (rleCtxOf T x L D) (rleInit dest true) pt n lg s) :
    ConstInv D L c pt n lg s := by
  induction hs with
  | init => exact ⟨rfl, rfl, rfl, rfl, rfl⟩
  | enter n lg s _ _ ih =>
    obtain ⟨h1, h2, h3, h4, h5⟩ := ih
    refine ⟨by rw [h1], h2, by show (0 : Nat) < 2; omega, ?_, ?_, ?_, fun _ => rfl, fun _ _ => h4⟩
    · show s.src = 8 * D * (0 + s.run_length_nblocks)
      rw [h3, h4]
      rfl
    · show s.src + 8 * D ≤ L
      omega
    · show s.dest + headerBytesOf D ≤ 8 + headerBytesOf D + 8 * D * 0
      omega
  | stop n lg s _ hc ih =>
    exfalso
    obtain ⟨h1, h2, h3, h4, h5⟩ := ih
    apply hc
    show (s.src : Int) ≤ (L : Int) - (groupSzOf D : Int)
    rw [groupSzOf_eq, h3]
    omega
  | step n lg s s1 hs' _ hstep ih =>
    exact ConstInv_step T hZ x L D c hD1 hD2 hx hL16 hblocks n lg s s1 false ih
      (RleReach_carry T x dest L D true _ n s (RleTrace_reach _ _ _ _ _ _ hs')) hstep
  | jump n lg s s1 hs' _ hstep ih =>
    exact ConstInv_step T hZ x L D c hD1 hD2 hx hL16 hblocks n lg s s1 true ih
      (RleReach_carry T x dest L D true _ n s (RleTrace_reach _ _ _ _ _ _ hs')) hstep
  | leave n lg s _ hb ih =>
    exfalso
    exact hb ih.2.2.1

/-! ## C22: constant input under the run-length encoder -/

/-- The hypothesis `TableOK` is needed below.  If the table had `0x7f` for the
bytes 64..127 (`NBITS_MASKS_U8`, which is not `TableOK`), then for `D = 8`,
`c = 32` and `L = 128`, where the first block has the zig-zag delta `0x40` in
every dimension, the encoder would pack the rows of the first block in 7
bytes each and return 71 bytes with the run log `[1]`.  The decoder derives 8
bits from the header field 7; it returns 64, not 128, and the second byte it
rebuilds is 16, not 32. -/
theorem constant_input_rle_fails_on_width7 :
    (compress8b_rowmajor_delta_rle NBITS_MASKS_U8 ⟨fun _ => 32⟩ 128 Mem.zero 8 true).map
      Outcome.ret = some (some 71) ∧
    rleRunLog NBITS_MASKS_U8 ⟨fun _ => 32⟩ 128 Mem.zero 8 true = some [1] ∧
    (compress8b_rowmajor_delta_rle NBITS_MASKS_U8 ⟨fun _ => 32⟩ 128 Mem.zero 8 true).map
      (fun o => (decompress8b_rowmajor_delta_rle o.dest Mem.zero).ret) = some (some 64) ∧
    (compress8b_rowmajor_delta_rle NBITS_MASKS_U8 ⟨fun _ => 32⟩ 128 Mem.zero 8 true).map
      (fun o => load8 (decompress8b_rowmajor_delta_rle o.dest Mem.zero).dest 1) = some 16 ∧
    load8 ⟨fun _ => 32⟩ 1 = 32 := by
  set_option maxRecDepth 1000000 in
  decide

/-- C22: constant input under the run-length encoder.  For a width table whose
masks are those of the decoder, cover the byte they are looked up with
(`TableOK`) and send 0 to 0, every `D` with
`1 ≤ D < 4096` (the dimensions 1, 8, 9, 16 and 33 among them), every byte `c`
and every input whose `L` bytes are all `c`, with `L ≥ 16 * D`, `L ≥ 128` and
fewer than `0x7FFF` blocks, `compress8b_rowmajor_delta_rle` with
`write_size = true` returns; its loops end with exactly one group header
reserved, which is the count `G = 1` in the header; it writes exactly one run
length, which is not zero; its output size is at most
`8 + ceil(6*D/8) + 8*D + 2 + 1 + 16*D`, whatever `L` is; and
`decompress8b_rowmajor_delta_rle` applied to the output returns `L` and
reproduces the input. -/
theorem constant_input_rle (T : Nat → Nat) (hT : TableOK T) (hT0 : T 0 = 0) (x dest dest2 : Mem)
    (L D c : Nat) (hD1 : 1 ≤ D) (hD2 : D < 4096) (hx : ∀ k, k < L → load8 x k = c)
    (hL : 128 ≤ L) (hL16 : 16 * D ≤ L) (hblocks : L / (8 * D) < 0x7fff) :
    ∃ out n, compress8b_rowmajor_delta_rle T x L dest D true = some (Outcome.returned out n) ∧
      loadLE 4 out 0 = 1 ∧
      (∃ r, rleLoop T x L dest D true = some r ∧
        RleReach (rleCtxOf T x L D) (rleInit dest true) RlePoint.loopEnd 1 r) ∧
      (∃ m, rleRunLog T x L dest D true = some [m] ∧ 1 ≤ m) ∧
      n ≤ 8 + (6 * D + 7) / 8 + 8 * D + 2 + 1 + 16 * D ∧
      ∃ out2, decompress8b_rowmajor_delta_rle out dest2 = Outcome.returned out2 L ∧
        ∀ k, k < L → load8 out2 k = load8 x k := by
  have hLn : ¬ L < 128 := by omega
  have hL2 : L < 2 ^ 32 := by
    have h1 := (Nat.div_lt_iff_lt_mul (show 0 < 8 * D by omega)).mp hblocks
    omega
  obtain ⟨r, n, lg, hr, hlog, htr⟩ := rleRunLog_trace T x dest L D true hD1 (by omega) hLn
  obtain ⟨hn1, ⟨m, hm, hm1⟩, hdest, hsrc1, hsrc2⟩ :=
    RleTrace_const T (TableZero_of_ok T hT hT0) x dest L D c hD1 (by omega) hx hL16 hblocks
      _ n lg r htr
  have hreach := RleTrace_reach _ _ _ _ _ _ htr
  rw [hn1] at hreach
  obtain ⟨z3, out, ho, hmd, hdec⟩ :=
    rle_loopEnd_decodes T hT x dest dest2 L D hD1 hD2 hL2 hLn 1 r hreach
  rw [read_metadata_rle_8b_eq] at hmd
  simp only [Prod.mk.injEq, and_true] at hmd
  rw [compress8b_rowmajor_delta_rle_eq T x dest L D true hLn, hr, Option.map_some']
  rw [headerBytesOf_eq] at hdest
  refine ⟨out, _, congrArg some ho, hmd.2.1, ⟨r, rfl, hreach⟩, ⟨m, ?_, hm1⟩, by omega, hdec⟩
  rw [hlog, hm]

theorem constant_input_rle_witness :
    ∃ out n, compress8b_rowmajor_delta_rle NBITS_MASKS_U8_folded ⟨fun _ => 32⟩ 128 Mem.zero 8 true
        = some (Outcome.returned out n) ∧
      loadLE 4 out 0 = 1 ∧
      (∃ r, rleLoop NBITS_MASKS_U8_folded ⟨fun _ => 32⟩ 128 Mem.zero 8 true = some r ∧
        RleReach (rleCtxOf NBITS_MASKS_U8_folded ⟨fun _ => 32⟩ 128 8) (rleInit Mem.zero true)
          RlePoint.loopEnd 1 r) ∧
      (∃ m, rleRunLog NBITS_MASKS_U8_folded ⟨fun _ => 32⟩ 128 Mem.zero 8 true = some [m] ∧
        1 ≤ m) ∧
      n ≤ 8 + (6 * 8 + 7) / 8 + 8 * 8 + 2 + 1 + 16 * 8 ∧
      ∃ out2, decompress8b_rowmajor_delta_rle out Mem.zero = Outcome.returned out2 128 ∧
        ∀ k, k < 128 → load8 out2 k = load8 ⟨fun _ => 32⟩ k :=
  constant_input_rle NBITS_MASKS_U8_folded TableOK_folded (by decide) ⟨fun _ => 32⟩ Mem.zero
    Mem.zero 128 8 32 (by decide) (by decide) (fun _ _ => rfl) (by decide) (by decide)
    (by decide)

/-! ## The run-length encoder on a stretch of zero records -/

/-- The blocks 13..36 of an input whose bytes 300..899 are zero repeat the
row before them. -/
theorem stretch_block_zero (x : Mem) (hzero : ∀ k, 300 ≤ k → k < 900 → load8 x k = 0)
    (p j : Nat) (hp : p = 24 * j) (h1 : 13 ≤ j) (h2 : j ≤ 36) :
    ∀ k, k < 8 * 3 → load8 x (p + k) = prevRow x 3 p (k % 3) := by
  intro k hk
  have hm : k % 3 < 3 := Nat.mod_lt _ (by norm_num)
  unfold prevRow
  rw [if_neg (by omega), hzero _ (by omega) (by omega), hzero _ (by omega) (by omega)]

/-- The blocks 0..12 and 37..48 do not repeat the row before them. -/
theorem stretch_block_nonzero (x : Mem) (hzero : ∀ k, 300 ≤ k → k < 900 → load8 x k = 0)
    (hnz : ∀ k, k < 1200 → (k < 300 ∨ 900 ≤ k) → load8 x k ≠ 0)
    (hvar : ∀ j, (1 ≤ j ∧ j < 12) ∨ (38 ≤ j ∧ j < 49) →
      ∃ k, k < 24 ∧ load8 x (24 * j + k) ≠ load8 x (24 * j + k - 3))
    (p j : Nat) (hp : p = 24 * j) (hj : j ≤ 12 ∨ (37 ≤ j ∧ j ≤ 48)) :
    ¬ ∀ k, k < 8 * 3 → load8 x (p + k) = prevRow x 3 p (k % 3) := by
  intro hz
  subst hp
  by_cases h0 : j = 0
  · subst h0
    have := hz 0 (by norm_num)
    unfold prevRow at this
    rw [if_pos rfl] at this
    exact hnz 0 (by norm_num) (Or.inl (by norm_num)) this
  have hprev : ∀ d, prevRow x 3 (24 * j) d = load8 x (24 * j - 3 + d) := by
    intro d
    unfold prevRow
    rw [if_neg (by omega)]
  by_cases h12 : j = 12
  · subst h12
    have a := hz 9 (by norm_num)
    have b := hz 12 (by norm_num)
    rw [hprev] at a b
    have e : load8 x (24 * 12 + 9) = load8 x (24 * 12 + 12) := a.trans b.symm
    rw [hzero (24 * 12 + 12) (by norm_num) (by norm_num)] at e
    exact hnz _ (by norm_num) (Or.inl (by norm_num)) e
  by_cases h37 : j = 37
  · subst h37
    have a := hz 9 (by norm_num)
    have b := hz 12 (by norm_num)
    rw [hprev] at a b
    have e : load8 x (24 * 37 + 12) = load8 x (24 * 37 + 9) := b.trans a.symm
    rw [hzero (24 * 37 + 9) (by norm_num) (by norm_num)] at e
    exact hnz _ (by norm_num) (Or.inr (by norm_num)) e
  obtain ⟨k, hk, hne⟩ := hvar j (by omega)
  apply hne
  have a := hz k (by omega)
  rw [hprev] at a
  by_cases hk3 : k < 3
  · rw [a, Nat.mod_eq_of_lt hk3]
    exact congrArg (load8 x) (by omega)
  · have b := hz (k - 3) (by omega)
    rw [hprev] at b
    have e1 : (k - 3) % 3 = k % 3 := by omega
    have e2 : 24 * j + (k - 3) = 24 * j + k - 3 := by omega
    rw [e1, e2] at b
    rw [a, b]

/-- One pass of the body of the block loop on an input with the zero stretch:
the loops are not left, and the pass keeps the encoder on its path. -/
theorem StretchInv_step (T : Nat → Nat) (hZ : TableZero T) (x : Mem)
    (hzero : ∀ k, 300 ≤ k → k < 900 → load8 x k = 0)
    (hnz : ∀ k, k < 1200 → (k < 300 ∨ 900 ≤ k) → load8 x k ≠ 0)
    (hvar : ∀ j, (1 ≤ j ∧ j < 12) ∨ (38 ≤ j ∧ j < 49) →
      ∃ k, k < 24 ∧ load8 x (24 * j + k) ≠ load8 x (24 * j + k - 3))
    (n : Nat) (lg : List Nat) (s s1 : RleEncState) (flag : Bool)
    (h : StretchInv RlePoint.blockHead n lg s) (hb : s.b < 2)
    (hcarry : ∀ d, d < 3 → load8 s.deltas (8 * 3 + d) = prevRow x 3 s.src d)
    (hstep : rleBlockStep (rleCtxOf T x 1200 3) s = some (s1, flag)) :
    flag = false ∧
    StretchInv RlePoint.blockHead (n + rleNewGroup (rleCtxOf T x 1200 3) s)
      (lg ++ rleRunsOfPass (rleCtxOf T x 1200 3) s) s1 := by
  have hzi := rle_read_block_zero_iff T hZ x 1200 3 s (by norm_num) (by norm_num) hcarry
  obtain ⟨_, hA | hB | hC⟩ := h
  · obtain ⟨hlg, hrun, hn1, hsrc, hj⟩ := hA
    by_cases hj13 : 2 * (n - 1) + s.b = 13
    · have hw := hzi.mpr (stretch_block_zero x hzero s.src _ hsrc (by omega) (by omega))
      obtain ⟨rfl, e1, e2, e3, e4, e5, e6⟩ := rleStep_run T x 1200 3 s s1 flag hstep hw
        (by omega) (by omega)
      rw [e5, e6, List.append_nil]
      exact ⟨rfl, by omega, Or.inr (Or.inl ⟨hlg, by omega, by omega, by omega, by omega,
        by omega⟩)⟩
    · have hw : (rle_read_block (rleCtxOf T x 1200 3) s).1.row_width_bits ≠ 0 := fun h0 =>
        stretch_block_nonzero x hzero hnz hvar s.src _ hsrc (Or.inl (by omega)) (hzi.mp h0)
      obtain ⟨rfl, e1, e2, e3, e4, e5, e6⟩ := rleStep_pack T x 1200 3 (by norm_num)
        (by norm_num) s s1 flag hstep hw hrun
      rw [e5, e6, List.append_nil]
      exact ⟨rfl, by omega, Or.inl ⟨hlg, e3, hn1, by omega, by omega⟩⟩
  · obtain ⟨hlg, hn7, hb1, hr1, hr2, hsrc⟩ := hB
    by_cases hr : s.run_length_nblocks < 24
    · have hw := hzi.mpr (stretch_block_zero x hzero s.src _ hsrc (by omega) (by omega))
      obtain ⟨rfl, e1, e2, e3, e4, e5, e6⟩ := rleStep_run T x 1200 3 s s1 flag hstep hw
        (by omega) (by omega)
      rw [e5, e6, List.append_nil]
      exact ⟨rfl, by omega, Or.inr (Or.inl ⟨hlg, hn7, by omega, by omega, by omega,
        by omega⟩)⟩
    · have hw : (rle_read_block (rleCtxOf T x 1200 3) s).1.row_width_bits ≠ 0 := fun h0 =>
        stretch_block_nonzero x hzero hnz hvar s.src _ hsrc (Or.inr ⟨by omega, by omega⟩)
          (hzi.mp h0)
      obtain ⟨rfl, e1, e2, e3, e5, e6⟩ := rleStep_close T x 1200 3 s s1 flag hstep hw
        (by omega) hb
      have hr24 : s.run_length_nblocks = 24 := by omega
      rw [if_neg (by omega)] at e2
      rw [e5, e6, hlg, hr24]
      exact ⟨rfl, by omega, Or.inr (Or.inr ⟨rfl, e3, by omega, by omega, by omega⟩)⟩
  · obtain ⟨hlg, hrun, hn8, hn13, hsrc⟩ := hC
    have hw : (rle_read_block (rleCtxOf T x 1200 3) s).1.row_width_bits ≠ 0 := fun h0 =>
      stretch_block_nonzero x hzero hnz hvar s.src _ hsrc (Or.inr ⟨by omega, by omega⟩)
        (hzi.mp h0)
    obtain ⟨rfl, e1, e2, e3, e4, e5, e6⟩ := rleStep_pack T x 1200 3 (by norm_num)
      (by norm_num) s s1 flag hstep hw hrun
    rw [e5, e6, List.append_nil]
    exact ⟨rfl, by omega, Or.inr (Or.inr ⟨hlg, e3, hn8, hn13, by omega⟩)⟩

/-- On an input with the zero stretch the loops end at the head of the group
loop, with 13 group headers reserved and the one run length 24 written. -/
theorem RleTrace_stretch (T : Nat → Nat) (hZ : TableZero T) (x dest : Mem)
    (hzero : ∀ k, 300 ≤ k → k < 900 → load8 x k = 0)
    (hnz : ∀ k, k < 1200 → (k < 300 ∨ 900 ≤ k) → load8 x k ≠ 0)
    (hvar : ∀ j, (1 ≤ j ∧ j < 12) ∨ (38 ≤ j ∧ j < 49) →
      ∃ k, k < 24 ∧ load8 x (24 * j + k) ≠ load8 x (24 * j + k - 3))
    (pt : RlePoint) (n : Nat) (lg : List Nat) (s : RleEncState)
    (hs : RleTrace (rleCtxOf T x 1200 3) (rleInit dest true) pt n lg s) :
    StretchInv pt n lg s := by
  induction hs with
  | init => exact ⟨rfl, Or.inl ⟨rfl, rfl, by omega⟩⟩
  | enter n lg s _ hc ih =>
    obtain ⟨hrun, hA | hC⟩ := ih
    · obtain ⟨hlg, hsrc, hn⟩ := hA
      refine ⟨by show (0 : Nat) ≤ 2; omega, Or.inl ⟨hlg, hrun, by omega, ?_, ?_⟩⟩
      · show s.src = 24 * (2 * (n + 1 - 1) + 0)
        omega
      · show 2 * (n + 1 - 1) + 0 ≤ 13
        omega
    · obtain ⟨hlg, hn8, hn13, hsrc⟩ := hC
      have hc2 : (s.src : Int) ≤ (1200 : Int) - (groupSzOf 3 : Int) := hc
      rw [groupSzOf_eq] at hc2
      refine ⟨by show (0 : Nat) ≤ 2; omega, Or.inr (Or.inr ⟨hlg, hrun, by omega, by omega, ?_⟩)⟩
      show s.src = 24 * (37 + 2 * (n + 1 - 8) + 0)
      omega
  | stop n lg s _ hc ih =>
    have hc2 : ¬ (s.src : Int) ≤ (1200 : Int) - (groupSzOf 3 : Int) := hc
    rw [groupSzOf_eq] at hc2
    obtain ⟨hrun, hA | hC⟩ := ih
    · obtain ⟨hlg, hsrc, hn⟩ := hA
      exfalso
      omega
    · obtain ⟨hlg, hn8, hn13, hsrc⟩ := hC
      exact ⟨hlg, by omega⟩
  | step n lg s s1 hs' hb hstep ih =>
    exact (StretchInv_step T hZ x hzero hnz hvar n lg s s1 false ih hb
      (RleReach_carry T x dest 1200 3 true _ n s (RleTrace_reach _ _ _ _ _ _ hs')) hstep).2
  | jump n lg s s1 hs' hb hstep ih =>
    have := (StretchInv_step T hZ x hzero hnz hvar n lg s s1 true ih hb
      (RleReach_carry T x dest 1200 3 true _ n s (RleTrace_reach _ _ _ _ _ _ hs')) hstep).1
    exact absurd this (by decide)
  | leave n lg s _ hb ih =>
    have hb2 : ¬ s.b < 2 := hb
    obtain ⟨hble, hA | hB | hC⟩ := ih
    · obtain ⟨hlg, hrun, hn1, hsrc, hj⟩ := hA
      exact ⟨hrun, Or.inl ⟨hlg, by omega, by omega⟩⟩
    · exfalso
      omega
    · obtain ⟨hlg, hrun, hn8, hn13, hsrc⟩ := hC
      exact ⟨hrun, Or.inr ⟨hlg, hn8, hn13, by omega⟩⟩

/-! ## C24: `D = 3`, 400 records, records 100..299 zero -/

/-- C24 fails on the code.  Take `D = 3` and the input of 400 records whose
records 100..299 are zero and whose other bytes are all 1: the bytes 300..899
are zero and no other byte is.  `compress8b_rowmajor_delta_rle` writes three
run lengths, 11, 24 and 10, not the single length 25: the blocks 1..11 and
38..47 repeat the record before them and so form runs of their own, and the
run of the zero stretch is made of the 24 blocks 13..36, because block 12
(records 96..103) and block 37 (records 296..303) hold non-zero records. -/
theorem zero_stretch_run_fails :
    (List.range 1200).all (fun k =>
      decide (load8 ⟨fun k => if 300 ≤ k ∧ k < 900 then 0 else 1⟩ k = 0)
        == decide (300 ≤ k ∧ k < 900)) = true ∧
    rleRunLog NBITS_MASKS_U8 ⟨fun k => if 300 ≤ k ∧ k < 900 then 0 else 1⟩ 1200 Mem.zero 3 true
      = some [11, 24, 10] ∧
    rleRunLog NBITS_MASKS_U8 ⟨fun k => if 300 ≤ k ∧ k < 900 then 0 else 1⟩ 1200 Mem.zero 3 true
      ≠ some [25] := by
  set_option maxRecDepth 1000000 in
  decide

/-- C24, amended: for `D = 3`, a width table that gives the width zero to the
mask zero alone (`TableZero`, which the table of the spec satisfies), and
every input of 400 records in which records 100..299 are all zero, every other
record is non-zero in every dimension, and each of the blocks 1..11 and 38..48
of eight records contains a byte that differs from the byte of the same
dimension in the record before it, `compress8b_rowmajor_delta_rle` writes
exactly one run length, 24 (the blocks 13..36), on the way to the end of its
loops, which it reaches with 13 group headers reserved; and "write out
length" encodes the length 24 as the single byte `0x18`. -/
theorem zero_stretch_run (T : Nat → Nat) (hZ : TableZero T) (x dest : Mem)
    (hzero : ∀ k, 300 ≤ k → k < 900 → load8 x k = 0)
    (hnz : ∀ k, k < 1200 → (k < 300 ∨ 900 ≤ k) → load8 x k ≠ 0)
    (hvar : ∀ j, (1 ≤ j ∧ j < 12) ∨ (38 ≤ j ∧ j < 49) →
      ∃ k, k < 24 ∧ load8 x (24 * j + k) ≠ load8 x (24 * j + k - 3)) :
    rleRunLog T x 1200 dest 3 true = some [24] ∧
    (∃ r, rleLoop T x 1200 dest 3 true = some r ∧
      RleReach (rleCtxOf T x 1200 3) (rleInit dest true) RlePoint.loopEnd 13 r) ∧
    ∀ mem p, writeRunLength mem p 24 = (store8 mem p 0x18, p + 1) := by
  obtain ⟨r, n, lg, hr, hlog, htr⟩ := rleRunLog_trace T x dest 1200 3 true (by norm_num)
    (by norm_num) (by norm_num)
  obtain ⟨hlg, hn⟩ := RleTrace_stretch T hZ x dest hzero hnz hvar _ n lg r htr
  have hreach := RleTrace_reach _ _ _ _ _ _ htr
  rw [hn] at hreach
  refine ⟨by rw [hlog, hlg], ⟨r, hr, hreach⟩, fun mem p => rfl⟩

theorem zero_stretch_run_witness :
    rleRunLog NBITS_MASKS_U8 ⟨fun k => if 300 ≤ k ∧ k < 900 then 0 else 1 + k / 3 % 2⟩ 1200
      Mem.zero 3 true = some [24] ∧
    (∃ r, rleLoop NBITS_MASKS_U8 ⟨fun k => if 300 ≤ k ∧ k < 900 then 0 else 1 + k / 3 % 2⟩ 1200
        Mem.zero 3 true = some r ∧
      RleReach (rleCtxOf NBITS_MASKS_U8
          ⟨fun k => if 300 ≤ k ∧ k < 900 then 0 else 1 + k / 3 % 2⟩ 1200 3)
        (rleInit Mem.zero true) RlePoint.loopEnd 13 r) ∧
    ∀ mem p, writeRunLength mem p 24 = (store8 mem p 0x18, p + 1) :=
  zero_stretch_run NBITS_MASKS_U8 TableZero_spec
    ⟨fun k => if 300 ≤ k ∧ k < 900 then 0 else 1 + k / 3 % 2⟩ Mem.zero
    (fun k h1 h2 => by
      show (if 300 ≤ k ∧ k < 900 then 0 else 1 + k / 3 % 2) % 256 = 0
      rw [if_pos ⟨h1, h2⟩])
    (fun k _ h => by
      show (if 300 ≤ k ∧ k < 900 then 0 else 1 + k / 3 % 2) % 256 ≠ 0
      rw [if_neg (by omega)]
      omega)
    (fun j hj => ⟨0, by norm_num, by
      show (if 300 ≤ 24 * j + 0 ∧ 24 * j + 0 < 900 then 0 else 1 + (24 * j + 0) / 3 % 2) % 256
        ≠ (if 300 ≤ 24 * j + 0 - 3 ∧ 24 * j + 0 - 3 < 900 then 0
            else 1 + (24 * j + 0 - 3) / 3 % 2) % 256
      rw [if_neg (by omega), if_neg (by omega)]
      omega⟩)

/-! ## C33: parallel bit-extract and bit-deposit through the same mask -/

/-- Extracting what was deposited through the same mask gives back the low
bits of the word, as many as the mask has set bits. -/
theorem pextAux_pdepAux (n y m : Nat) :
    pextAux n (pdepAux n y m) m = y % 2 ^ popcountAux n m := by
  induction n generalizing y m with
  | zero => simp [pextAux, popcountAux, Nat.mod_one]
  | succ n ih =>
    simp only [pextAux, pdepAux, popcountAux]
    have hy2 : y % 2 < 2 := Nat.mod_lt _ (by norm_num)
    by_cases hm : m % 2 = 1
    · rw [if_pos hm, if_pos hm, hm]
      have e1 : (y % 2 + 2 * pdepAux n (y / 2) (m / 2)) % 2 = y % 2 := by omega
      have e2 : (y % 2 + 2 * pdepAux n (y / 2) (m / 2)) / 2 = pdepAux n (y / 2) (m / 2) := by
        omega
      rw [e1, e2, ih, Nat.add_comm 1, pow_succ, Nat.mul_comm _ 2, Nat.mod_mul]
    · rw [if_neg hm, if_neg hm]
      have hm0 : m % 2 = 0 := by omega
      have e2 : 2 * pdepAux n y (m / 2) / 2 = pdepAux n y (m / 2) := by omega
      rw [e2, ih, hm0, Nat.zero_add]

/-- C33: for every mask `m` of 64 bits and all words `x` and `y`,
`pdep(pext(x, m), m) = x AND m` and
`pext(pdep(y, m), m) = y AND (2^popcount(m) - 1)`; and the bits of the packed
word above `popcount(m)` do not influence the deposit:
`pdep(y, m) = pdep(y mod 2^popcount(m), m)`. -/
theorem pdep_pext_inverse (x y m : Nat) (hm : m < 2 ^ 64) :
    pdep_u64 (pext_u64 x m) m = x &&& m ∧
    pext_u64 (pdep_u64 y m) m = y &&& (2 ^ popcount_u64 m - 1) ∧
    pdep_u64 y m = pdep_u64 (y % 2 ^ popcount_u64 m) m := by
  have hhigh : ∀ t, 64 ≤ t → m.testBit t = false := by
    intro t ht
    apply Nat.testBit_lt_two_pow
    exact lt_of_lt_of_le hm (Nat.pow_le_pow_right (by norm_num) ht)
  refine ⟨?_, ?_, ?_⟩
  · apply Nat.eq_of_testBit_eq
    intro t
    have h := pdepAux_pextAux_testBit 64 x m 0 t
    rw [Nat.mul_zero, Nat.add_zero] at h
    unfold pdep_u64 pext_u64
    rw [h, Nat.testBit_and]
    by_cases ht : t < 64
    · simp [ht]
    · rw [hhigh t (by omega)]
      simp
  · rw [Nat.and_pow_two_sub_one_eq_mod]
    exact pextAux_pdepAux 64 y m
  · apply Nat.eq_of_testBit_eq
    intro t
    rw [pdep_pext_testBit (pdep_u64 y m) m y t (pextAux_pdepAux 64 y m).symm,
      pdep_pext_testBit (pdep_u64 y m) m (y % 2 ^ popcount_u64 m) t
        (by rw [Nat.mod_mod]; exact (pextAux_pdepAux 64 y m).symm)]

theorem pdep_pext_inverse_witness :
    pdep_u64 (pext_u64 0xABCD 0x0F0F) 0x0F0F = 0xABCD &&& 0x0F0F ∧
    pext_u64 (pdep_u64 0x1234 0x0F0F) 0x0F0F = 0x1234 &&& (2 ^ popcount_u64 0x0F0F - 1) ∧
    pdep_u64 0x1234 0x0F0F = pdep_u64 (0x1234 % 2 ^ popcount_u64 0x0F0F) 0x0F0F :=
  pdep_pext_inverse 0xABCD 0x1234 0x0F0F (by norm_num)

/-! ## C32: the stripe statistics of a block -/

set_option maxRecDepth 100000 in
theorem TablePop_spec : TablePop NBITS_MASKS_U8 := by
  unfold TablePop
  decide

theorem rowNbytes_ceil (bits : Nat) : rowNbytes bits = (bits + 7) / 8 := by
  unfold rowNbytes
  rw [Nat.shiftRight_eq_div_pow]
  split_ifs <;> omega

/-- C32: for a width table whose masks have as many set bits as the width
computed from them (`TablePop`, which the table of the spec satisfies), every
`D` with `1 ≤ D < 65536`, every block (at `src + p`) and every stripe `s`, the
statistics that `compress8b_rowmajor` computes satisfy: `stripe_masks[s]` has
exactly `stripe_bitwidths[s]` set bits; `stripe_bitwidths[s]` is the sum of
the widths `32 - lzcnt(mask)` of the dimensions `8*s .. 8*s + 7` below `D`,
and at most 64; `stripe_bitoffsets[s]` is the sum of the bit-widths of the
stripes before `s`; and the packed row size is `ceil(row_bits / 8)` with
`row_bits` the sum of all stripe bit-widths. -/
theorem stripe_statistics (T : Nat → Nat) (hT : TablePop T) (src : Mem) (p D : Nat)
    (hD1 : 1 ≤ D) (hD2 : D < 65536) (s : Nat) (hs : s < nstripesOf D) :
    popcount_u64 ((stripeStats T src p D).stripe_masks.get s)
      = (stripeStats T src p D).stripe_bitwidths.get s ∧
    (stripeStats T src p D).stripe_bitwidths.get s
      = sumTo 8 (fun j => if 8 * s + j < D
          then maxNbits (T (orReduce src p D (8 * s + j)) % 256) else 0) ∧
    (stripeStats T src p D).stripe_bitwidths.get s ≤ 64 ∧
    (stripeBitoffsets (stripeStats T src p D).stripe_bitwidths.get (nstripesOf D)).get s
      = sumTo s (stripeStats T src p D).stripe_bitwidths.get ∧
    rowBytesOf (stripeStats T src p D) (nstripesOf D)
      = (sumTo (nstripesOf D) (stripeStats T src p D).stripe_bitwidths.get + 7) / 8 := by
  rw [stripeStats_eq_statsOf]
  refine ⟨?_, ?_, ?_, ?_, ?_⟩
  · exact statsOf_popcount T _ D s (fun d _ => hT _ (orReduce_lt src p D d))
  · exact statsOf_widths T _ D s
  · exact statsOf_widths_le T _ D s
  · exact statsOf_offsets T _ D hD2 s hs
  · rw [rowBytesOf_statsOf T _ D hD1 hD2, rowNbytes_ceil]

theorem stripe_statistics_witness :
    popcount_u64 ((stripeStats NBITS_MASKS_U8 ⟨fun k => k % 256⟩ 0 9).stripe_masks.get 1)
      = (stripeStats NBITS_MASKS_U8 ⟨fun k => k % 256⟩ 0 9).stripe_bitwidths.get 1 ∧
    (stripeStats NBITS_MASKS_U8 ⟨fun k => k % 256⟩ 0 9).stripe_bitwidths.get 1
      = sumTo 8 (fun j => if 8 * 1 + j < 9
          then maxNbits (NBITS_MASKS_U8 (orReduce ⟨fun k => k % 256⟩ 0 9 (8 * 1 + j)) % 256)
          else 0) ∧
    (stripeStats NBITS_MASKS_U8 ⟨fun k => k % 256⟩ 0 9).stripe_bitwidths.get 1 ≤ 64 ∧
    (stripeBitoffsets (stripeStats NBITS_MASKS_U8 ⟨fun k => k % 256⟩ 0 9).stripe_bitwidths.get
        (nstripesOf 9)).get 1
      = sumTo 1 (stripeStats NBITS_MASKS_U8 ⟨fun k => k % 256⟩ 0 9).stripe_bitwidths.get ∧
    rowBytesOf (stripeStats NBITS_MASKS_U8 ⟨fun k => k % 256⟩ 0 9) (nstripesOf 9)
      = (sumTo (nstripesOf 9)
          (stripeStats NBITS_MASKS_U8 ⟨fun k => k % 256⟩ 0 9).stripe_bitwidths.get + 7) / 8 :=
  stripe_statistics NBITS_MASKS_U8 TablePop_spec ⟨fun k => k % 256⟩ 0 9 (by decide) (by decide)
    1 (by decide)

/-! ## C31: packing a block and unpacking it again -/

/-- Unpacking a block from a stream that holds its packed rows gives back the
bytes of the block, for masks with as many set bits as their width. -/
theorem unpackBlock_of_packed_pop (T dm : Nat → Nat) (D : Nat) (inbuf : Mem)
    (inp in_stride : Nat) (cm : Mem) (cin rb : Nat) (out stride : Nat) (outbuf : Mem)
    (hpop : ∀ d, d < D → popcountAux 8 (maskOf T dm d) = maxNbits (maskOf T dm d))
    (hcover : ∀ i d, i < 8 → d < D →
      load8 inbuf (inp + i * in_stride + d) &&& maskOf T dm d
        = load8 inbuf (inp + i * in_stride + d))
    (hrb : sumTo (nstripesOf D) (statsOf T dm D).stripe_bitwidths.get ≤ 8 * rb)
    (hbody : ∀ i t, i < 8 → t < 8 * rb → abit cm (8 * (cin + i * rb) + t) =
      rowBit (packedStripe (statsOf T dm D).stripe_masks.get inbuf inp in_stride i)
        (statsOf T dm D).stripe_bitwidths.get (nstripesOf D) t)
    (offs2 : Arr)
    (hoff2 : ∀ s, s < nstripesOf D →
      offs2.get s = sumTo s (statsOf T dm D).stripe_bitwidths.get)
    (hstride : D ≤ stride) (i d : Nat) (hi : i < 8) (hd : d < D) :
    load8 (unpackBlock (statsOf T dm D).stripe_masks.get (statsOf T dm D).stripe_bitwidths.get
        offs2 (nstripesOf D) cm cin rb out stride outbuf)
        (out + i * stride + d) = load8 inbuf (inp + i * in_stride + d) := by
  have hs := nstripesOf_gt D d hd
  rw [unpackBlock_eq _ _ _ _ _ _ _ _ _ _ hoff2,
    unpackStores_written _ out stride D _ outbuf hstride i d hi hd hs]
  have hbit := unpackWord_testBit (statsOf T dm D).stripe_masks.get
    (statsOf T dm D).stripe_bitwidths.get
    (packedStripe (statsOf T dm D).stripe_masks.get inbuf inp in_stride i) cm cin rb
    (nstripesOf D) i (d / 8) (loadLE 8 inbuf (inp + d / 8 * stripe_sz + i * in_stride)) hs
    (statsOf_widths_le T dm D _)
    (fun s _ => packedStripe_lt T dm D inbuf inp in_stride i s hpop)
    rfl
    (statsOf_popcount T dm D _ hpop)
    hrb
    (fun t ht => hbody i t hi ht)
  apply Nat.eq_of_testBit_eq
  intro u
  rw [mod256_testBit, Nat.testBit_shiftRight, hbit, statsOf_masks_testBit, loadLE_testBit]
  by_cases hu : u < 8
  · have e1 : (8 * (d % 8) + u) / 8 = d % 8 := by omega
    have e2 : (8 * (d % 8) + u) % 8 = u := by omega
    have e3 : 8 * (d / 8) + d % 8 = d := by omega
    have e4 : 8 * (d % 8) + u < 64 := by omega
    have e5 : 8 * (inp + d / 8 * stripe_sz + i * in_stride) + (8 * (d % 8) + u)
        = 8 * (inp + i * in_stride + d) + u := by
      unfold stripe_sz; omega
    rw [e1, e2, e3, e5, abit_def _ _ _ hu]
    have hc := hcover i d hi hd
    have : (load8 inbuf (inp + i * in_stride + d)).testBit u =
        ((load8 inbuf (inp + i * in_stride + d)).testBit u && (maskOf T dm d).testBit u) := by
      conv_lhs => rw [← hc]
      rw [Nat.testBit_and]
    rw [this]
    simp [hu, e4, hd]
  · rw [load8_testBit_ge _ _ _ (by omega)]
    simp [hu]

/-- The bits of the rows of a block that `packBlock` has written over a zeroed
body. -/
theorem packBlock_rows (T dm : Nat → Nat) (D : Nat) (hD1 : 1 ≤ D) (hD2 : D < 65536)
    (hpop : ∀ d, d < D → popcountAux 8 (maskOf T dm d) = maxNbits (maskOf T dm d))
    (inbuf : Mem) (inp in_stride : Nat) (dest : Mem) (out : Nat) (i t : Nat) (hi : i < 8)
    (ht : t < 8 * rowBytesOf (statsOf T dm D) (nstripesOf D)) :
    abit (packBlock (statsOf T dm D)
        (stripeBitoffsets (statsOf T dm D).stripe_bitwidths.get (nstripesOf D)) (nstripesOf D)
        inbuf inp in_stride out (rowBytesOf (statsOf T dm D) (nstripesOf D))
        (memset0 dest out (rowBytesOf (statsOf T dm D) (nstripesOf D) * block_sz)))
      (8 * (out + i * rowBytesOf (statsOf T dm D) (nstripesOf D)) + t) =
    rowBit (packedStripe (statsOf T dm D).stripe_masks.get inbuf inp in_stride i)
      (statsOf T dm D).stripe_bitwidths.get (nstripesOf D) t := by
  rw [packBlock_eq _ _ _ _ _ _ _ _ _ (fun s hs => statsOf_offsets T dm D hD2 s hs)]
  apply packBlockPasses_row _ _ _ _ _ _ (fun s _ => statsOf_widths_le T dm D s)
    (fun i s _ => packedStripe_lt T dm D inbuf inp in_stride i s hpop)
    (statsOf_row_fits T dm D hD1 hD2) _ _ _ hi ht
  intro k hk1 hk2
  rw [load8_memset0, if_pos ⟨hk1, by simp only [block_sz]; omega⟩]

/-- C31: for every `D` with `1 ≤ D < 65536`, every block of 8 rows (at
`inbuf + inp`, rows `in_stride` apart) and every per-dimension masks
`maskOf T dm d` that have as many set bits as their width and cover the values
of their dimension, unpacking the body that `packBlock` wrote (over a zeroed
body, as the encoders do) with the same stripe masks, widths and offsets gives
back every byte of the block.  This holds for stripes on the fast path and on
the slow path alike; and for a stripe `s` on the slow path
(`width + offset % 8 > 64`) the extra byte of each row is the packed word
shifted right by `width - nbits_lost`, a value below `2^nbits_lost`, and the
low `nbits_lost` bits of the byte at offset 8 of the stripe in the packed row
are the top `nbits_lost` bits of the packed word. -/
theorem block_pack_unpack (T dm : Nat → Nat) (D : Nat) (hD1 : 1 ≤ D) (hD2 : D < 65536)
    (hpop : ∀ d, d < D → popcountAux 8 (maskOf T dm d) = maxNbits (maskOf T dm d))
    (inbuf : Mem) (inp in_stride : Nat)
    (hcover : ∀ i d, i < 8 → d < D →
      load8 inbuf (inp + i * in_stride + d) &&& maskOf T dm d
        = load8 inbuf (inp + i * in_stride + d))
    (dest : Mem) (out : Nat) (outbuf : Mem) (out2 stride : Nat) (hstride : D ≤ stride) :
    (∀ i d, i < 8 → d < D →
      load8 (unpackBlock (statsOf T dm D).stripe_masks.get (statsOf T dm D).stripe_bitwidths.get
          (stripeBitoffsets (statsOf T dm D).stripe_bitwidths.get (nstripesOf D)) (nstripesOf D)
          (packBlock (statsOf T dm D)
            (stripeBitoffsets (statsOf T dm D).stripe_bitwidths.get (nstripesOf D))
            (nstripesOf D) inbuf inp in_stride out (rowBytesOf (statsOf T dm D) (nstripesOf D))
            (memset0 dest out (rowBytesOf (statsOf T dm D) (nstripesOf D) * block_sz)))
          out (rowBytesOf (statsOf T dm D) (nstripesOf D)) out2 stride outbuf)
        (out2 + i * stride + d) = load8 inbuf (inp + i * in_stride + d)) ∧
    (∀ s i, s < nstripesOf D → i < 8 →
      64 < (statsOf T dm D).stripe_bitwidths.get s
        + sumTo s (statsOf T dm D).stripe_bitwidths.get % 8 →
      (packedStripe (statsOf T dm D).stripe_masks.get inbuf inp in_stride i s
          >>> ((statsOf T dm D).stripe_bitwidths.get s
            - ((statsOf T dm D).stripe_bitwidths.get s
              + sumTo s (statsOf T dm D).stripe_bitwidths.get % 8 - 64)))
        < 2 ^ ((statsOf T dm D).stripe_bitwidths.get s
              + sumTo s (statsOf T dm D).stripe_bitwidths.get % 8 - 64) ∧
      ∀ j, j < (statsOf T dm D).stripe_bitwidths.get s
            + sumTo s (statsOf T dm D).stripe_bitwidths.get % 8 - 64 →
        abit (packBlock (statsOf T dm D)
            (stripeBitoffsets (statsOf T dm D).stripe_bitwidths.get (nstripesOf D))
            (nstripesOf D) inbuf inp in_stride out (rowBytesOf (statsOf T dm D) (nstripesOf D))
            (memset0 dest out (rowBytesOf (statsOf T dm D) (nstripesOf D) * block_sz)))
          (8 * (out + sumTo s (statsOf T dm D).stripe_bitwidths.get / 8
            + i * rowBytesOf (statsOf T dm D) (nstripesOf D) + 8) + j)
        = (packedStripe (statsOf T dm D).stripe_masks.get inbuf inp in_stride i s).testBit
            ((statsOf T dm D).stripe_bitwidths.get s
              - ((statsOf T dm D).stripe_bitwidths.get s
                + sumTo s (statsOf T dm D).stripe_bitwidths.get % 8 - 64) + j)) := by
  have hfit := statsOf_row_fits T dm D hD1 hD2
  refine ⟨?_, ?_⟩
  · intro i d hi hd
    exact unpackBlock_of_packed_pop T dm D inbuf inp in_stride _ out _ out2 stride outbuf hpop
      hcover hfit
      (fun i t hi ht => packBlock_rows T dm D hD1 hD2 hpop inbuf inp in_stride dest out i t hi ht)
      _ (fun s hs => statsOf_offsets T dm D hD2 s hs) hstride i d hi hd
  · intro s i hs hi hslow
    have hw := statsOf_widths_le T dm D s
    have hP := packedStripe_lt T dm D inbuf inp in_stride i s hpop
    have hsum := sumTo_succ_le s (nstripesOf D) (statsOf T dm D).stripe_bitwidths.get hs
    generalize hwd : (statsOf T dm D).stripe_bitwidths.get s = w at hw hP hsum hslow ⊢
    generalize hoff : sumTo s (statsOf T dm D).stripe_bitwidths.get = off at hsum hslow ⊢
    have hob : off % 8 < 8 := Nat.mod_lt _ (by norm_num)
    refine ⟨?_, ?_⟩
    · rw [Nat.shiftRight_eq_div_pow, Nat.div_lt_iff_lt_mul (Nat.two_pow_pos _), ← pow_add]
      have e : w + off % 8 - 64 + (w - (w + off % 8 - 64)) = w := by omega
      rw [e]
      exact hP
    · intro j hj
      have e : 8 * (out + off / 8 + i * rowBytesOf (statsOf T dm D) (nstripesOf D) + 8) + j
          = 8 * (out + i * rowBytesOf (statsOf T dm D) (nstripesOf D))
            + (off + (w - (w + off % 8 - 64) + j)) := by omega
      rw [e, packBlock_rows T dm D hD1 hD2 hpop inbuf inp in_stride dest out i _ hi (by omega),
        ← hoff]
      have hj2 : w - (w + sumTo s (statsOf T dm D).stripe_bitwidths.get % 8 - 64) + j
          < (statsOf T dm D).stripe_bitwidths.get s := by
        rw [hwd, hoff]; omega
      exact rowBit_stripe _ _ _ s _
        (fun s' _ => packedStripe_lt T dm D inbuf inp in_stride i s' hpop) hs hj2


theorem block_pack_unpack_witness :
    64 < (statsOf NBITS_MASKS_U8 wideBlockMasks 16).stripe_bitwidths.get 1
      + sumTo 1 (statsOf NBITS_MASKS_U8 wideBlockMasks 16).stripe_bitwidths.get % 8 ∧
    ((∀ i d, i < 8 → d < 16 →
      load8 (unpackBlock (statsOf NBITS_MASKS_U8 wideBlockMasks 16).stripe_masks.get (statsOf
          NBITS_MASKS_U8 wideBlockMasks 16).stripe_bitwidths.get
          (stripeBitoffsets (statsOf NBITS_MASKS_U8 wideBlockMasks 16).stripe_bitwidths.get
              (nstripesOf 16)) (nstripesOf 16)
          (packBlock (statsOf NBITS_MASKS_U8 wideBlockMasks 16)
            (stripeBitoffsets (statsOf NBITS_MASKS_U8 wideBlockMasks 16).stripe_bitwidths.get
                (nstripesOf 16))
            (nstripesOf 16) wideBlock 0 16 0 (rowBytesOf (statsOf NBITS_MASKS_U8 wideBlockMasks 16)
                (nstripesOf 16))
            (memset0 Mem.zero 0 (rowBytesOf (statsOf NBITS_MASKS_U8 wideBlockMasks 16) (nstripesOf
                16) * block_sz)))
          0 (rowBytesOf (statsOf NBITS_MASKS_U8 wideBlockMasks 16) (nstripesOf 16)) 0 16 Mem.zero)
        (0 + i * 16 + d) = load8 wideBlock (0 + i * 16 + d)) ∧
    (∀ s i, s < nstripesOf 16 → i < 8 →
      64 < (statsOf NBITS_MASKS_U8 wideBlockMasks 16).stripe_bitwidths.get s
        + sumTo s (statsOf NBITS_MASKS_U8 wideBlockMasks 16).stripe_bitwidths.get % 8 →
      (packedStripe (statsOf NBITS_MASKS_U8 wideBlockMasks 16).stripe_masks.get wideBlock 0 16 i s
          >>> ((statsOf NBITS_MASKS_U8 wideBlockMasks 16).stripe_bitwidths.get s
            - ((statsOf NBITS_MASKS_U8 wideBlockMasks 16).stripe_bitwidths.get s
              + sumTo s (statsOf NBITS_MASKS_U8 wideBlockMasks 16).stripe_bitwidths.get % 8 - 64)))
        < 2 ^ ((statsOf NBITS_MASKS_U8 wideBlockMasks 16).stripe_bitwidths.get s
              + sumTo s (statsOf NBITS_MASKS_U8 wideBlockMasks 16).stripe_bitwidths.get % 8 - 64) ∧
      ∀ j, j < (statsOf NBITS_MASKS_U8 wideBlockMasks 16).stripe_bitwidths.get s
            + sumTo s (statsOf NBITS_MASKS_U8 wideBlockMasks 16).stripe_bitwidths.get % 8 - 64 →
        abit (packBlock (statsOf NBITS_MASKS_U8 wideBlockMasks 16)
            (stripeBitoffsets (statsOf NBITS_MASKS_U8 wideBlockMasks 16).stripe_bitwidths.get
                (nstripesOf 16))
            (nstripesOf 16) wideBlock 0 16 0 (rowBytesOf (statsOf NBITS_MASKS_U8 wideBlockMasks 16)
                (nstripesOf 16))
            (memset0 Mem.zero 0 (rowBytesOf (statsOf NBITS_MASKS_U8 wideBlockMasks 16) (nstripesOf
                16) * block_sz)))
          (8 * (0 + sumTo s (statsOf NBITS_MASKS_U8 wideBlockMasks 16).stripe_bitwidths.get / 8
            + i * rowBytesOf (statsOf NBITS_MASKS_U8 wideBlockMasks 16) (nstripesOf 16) + 8) + j)
        = (packedStripe (statsOf NBITS_MASKS_U8 wideBlockMasks 16).stripe_masks.get wideBlock 0 16
            i s).testBit
            ((statsOf NBITS_MASKS_U8 wideBlockMasks 16).stripe_bitwidths.get s
              - ((statsOf NBITS_MASKS_U8 wideBlockMasks 16).stripe_bitwidths.get s
                + sumTo s (statsOf NBITS_MASKS_U8 wideBlockMasks 16).stripe_bitwidths.get % 8 - 64)
                    + j))) :=
  ⟨by decide,
    block_pack_unpack NBITS_MASKS_U8 wideBlockMasks 16 (by decide) (by decide)
      (fun d _ => TablePop_spec _ (by unfold wideBlockMasks; split_ifs <;> norm_num))
      wideBlock 0 16
      (fun i d _ hd => by
        have e : (0 + i * 16 + d) % 16 = d := by omega
        unfold load8 maskOf wideBlock wideBlockMasks
        simp only [e]
        split_ifs <;> decide)
      Mem.zero 0 Mem.zero 0 16 (by decide)⟩

/-! ## C37: the tail of the run-length encoder fits its 16-bit field -/

/-- C37: for every `D` with `1 ≤ D < 4096` (the RLE mode has `D < 1024`) and
every input length `L ≥ 128`, `compress8b_rowmajor_delta_rle` with
`write_size = true` returns, and the value `remaining_len = src_end - src`
that it writes to bytes 4..5 of the metadata header is `L` minus the input
consumed by the loops, at most `16 * D`, and so smaller than `2^16`. -/
theorem rle_tail_fits (T : Nat → Nat) (x dest : Mem) (L D : Nat)
    (hD1 : 1 ≤ D) (hD2 : D < 4096) (hL : 128 ≤ L) :
    ∃ out n r, compress8b_rowmajor_delta_rle T x L dest D true
        = some (Outcome.returned out n) ∧
      rleLoop T x L dest D true = some r ∧ r.src ≤ L ∧
      loadLE 2 out 4 = L - r.src ∧ L - r.src ≤ 16 * D ∧ 16 * D < 2 ^ 16 := by
  have hLn : ¬ L < 128 := by omega
  obtain ⟨r, hr, ⟨n, hreach⟩, _⟩ := rleLoop_reach T x dest L D true hD1 (by omega)
  obtain ⟨z1, z2, z3, z4, z5⟩ := RleReach_size T x dest L D true hD1 (by omega) _ n r hreach
  have g1 : 8 ≤ r.dest := RleReach_hdr T x dest L D true (by omega) _ n r hreach
  obtain ⟨out, ho, hmd, _, _⟩ := rleFinish_spec x L D r z3 (by omega) (by omega)
    (by rw [z1]; exact Nat.mod_lt _ (by norm_num)) g1
  rw [read_metadata_rle_8b_eq] at hmd
  simp only [Prod.mk.injEq, and_true] at hmd
  rw [compress8b_rowmajor_delta_rle_eq T x dest L D true hLn, hr, Option.map_some']
  exact ⟨out, _, r, congrArg some ho, rfl, z3, hmd.2.2, by omega, by omega⟩

theorem rle_tail_fits_witness :
    ∃ out n r, compress8b_rowmajor_delta_rle NBITS_MASKS_U8 Mem.zero 200 Mem.zero 9 true
        = some (Outcome.returned out n) ∧
      rleLoop NBITS_MASKS_U8 Mem.zero 200 Mem.zero 9 true = some r ∧ r.src ≤ 200 ∧
      loadLE 2 out 4 = 200 - r.src ∧ 200 - r.src ≤ 16 * 9 ∧ 16 * 9 < 2 ^ 16 :=
  rle_tail_fits NBITS_MASKS_U8 Mem.zero Mem.zero 200 9 (by decide) (by decide) (by decide)

/-! ## C38: the run-length encoder terminates -/

/-- C38: for every `D` with `1 ≤ D < 65536` and every input length `L`,
`compress8b_rowmajor_delta_rle` returns (the loops of the model, which may run
`L + 1` times each, come to their end), because every pass of the body of the
block loop, whatever the state, comes back from its jumps to
`just_read_block` and `do_rle` and advances `src` by one block of `8 * D`
bytes. -/
theorem rle_encoder_terminates (T : Nat → Nat) (x dest : Mem) (L D : Nat) (write_size : Bool)
    (hD1 : 1 ≤ D) (hD2 : D < 65536) :
    (∃ out n, compress8b_rowmajor_delta_rle T x L dest D write_size
        = some (Outcome.returned out n)) ∧
    (∃ r, rleLoop T x L dest D write_size = some r) ∧
    ∀ s, ∃ s1 flag, rleBlockStep (rleCtxOf T x L D) s = some (s1, flag) ∧
      s1.src = s.src + 8 * D := by
  refine ⟨?_, ?_, ?_⟩
  · obtain ⟨out, n, h, _⟩ := compress8b_rowmajor_delta_rle_size T x dest L D write_size hD1 hD2
    exact ⟨out, n, h⟩
  · obtain ⟨r, hr, _⟩ := rleLoop_spec T x dest L D write_size hD1 hD2
    exact ⟨r, hr⟩
  · intro s
    have h := rleBlockStep_eq (rleCtxOf T x L D) s
    exact ⟨_, _, h, (rleBlockStep_src_deltas T x L D s _ _ h).1⟩

theorem rle_encoder_terminates_witness :
    (∃ out n, compress8b_rowmajor_delta_rle NBITS_MASKS_U8 Mem.zero 1000 Mem.zero 3 true
        = some (Outcome.returned out n)) ∧
    (∃ r, rleLoop NBITS_MASKS_U8 Mem.zero 1000 Mem.zero 3 true = some r) ∧
    ∀ s, ∃ s1 flag, rleBlockStep (rleCtxOf NBITS_MASKS_U8 Mem.zero 1000 3) s = some (s1, flag) ∧
      s1.src = s.src + 8 * 3 :=
  rle_encoder_terminates NBITS_MASKS_U8 Mem.zero Mem.zero 1000 3 true (by decide) (by decide)

/-! ## C39: the 8-byte loads of the packer from the `deltas` buffer -/

/-- C39: in the delta encoders the packer reads row `i` of stripe `s` with an
8-byte load at offset `s * 8 + i * D` of the `deltas` buffer, which has
`(block_sz + 1) * D` bytes.  For `D ≥ 1` the load of row 7 of the last stripe
ends inside the buffer if and only if `D ≥ 4`; for `D` in `{1, 2, 3}` it ends
past the end of the buffer; and no load of a block ends later than that
one. -/
theorem deltas_load_bounds (D : Nat) (hD1 : 1 ≤ D) :
    (∀ masks inbuf i s, packedStripe masks inbuf 0 D i s
        = pext_u64 (loadLE 8 inbuf (deltas_load_offset D s i)) (masks s)) ∧
    (deltas_load_offset D (nstripesOf D - 1) (block_sz - 1) + 8 ≤ deltas_nbytes D ↔ 4 ≤ D) ∧
    (D < 4 → deltas_nbytes D < deltas_load_offset D (nstripesOf D - 1) (block_sz - 1) + 8) ∧
    (∀ s i, s < nstripesOf D → i < block_sz →
      deltas_load_offset D s i + 8
        ≤ deltas_load_offset D (nstripesOf D - 1) (block_sz - 1) + 8) := by
  have hn : nstripesOf D = (D + 7) / 8 := by
    unfold nstripesOf stripe_sz
    split_ifs <;> omega
  refine ⟨fun _ _ _ _ => rfl, ?_, ?_, ?_⟩
  · unfold deltas_load_offset deltas_nbytes block_sz stripe_sz
    rw [hn]
    omega
  · intro h
    unfold deltas_load_offset deltas_nbytes block_sz stripe_sz
    rw [hn]
    omega
  · intro s i hs hi
    unfold deltas_load_offset block_sz stripe_sz
    unfold block_sz at hi
    rw [hn] at hs ⊢
    have : i * D ≤ 7 * D := Nat.mul_le_mul_right D (by omega)
    omega

theorem deltas_load_bounds_witness :
    (∀ masks inbuf i s, packedStripe masks inbuf 0 3 i s
        = pext_u64 (loadLE 8 inbuf (deltas_load_offset 3 s i)) (masks s)) ∧
    (deltas_load_offset 3 (nstripesOf 3 - 1) (block_sz - 1) + 8 ≤ deltas_nbytes 3 ↔ 4 ≤ 3) ∧
    (3 < 4 → deltas_nbytes 3 < deltas_load_offset 3 (nstripesOf 3 - 1) (block_sz - 1) + 8) ∧
    (∀ s i, s < nstripesOf 3 → i < block_sz →
      deltas_load_offset 3 s i + 8
        ≤ deltas_load_offset 3 (nstripesOf 3 - 1) (block_sz - 1) + 8) :=
  deltas_load_bounds 3 (by decide)

/-! ## What the encoders read of the source -/

/-- The extraction sees the word only through the mask. -/
theorem pextAux_congr (n x y m : Nat)
    (h : ∀ t, t < n → m.testBit t = true → x.testBit t = y.testBit t) :
    pextAux n x m = pextAux n y m := by
  induction n generalizing x y m with
  | zero => rfl
  | succ n ih =>
    simp only [pextAux]
    have hrec : pextAux n (x / 2) (m / 2) = pextAux n (y / 2) (m / 2) := by
      apply ih
      intro t ht hm
      have := h (t + 1) (by omega) (by rw [Nat.testBit_succ]; exact hm)
      rw [Nat.testBit_succ, Nat.testBit_succ] at this
      exact this
    by_cases hm : m % 2 = 1
    · rw [if_pos hm, if_pos hm, hrec]
      have h0 := h 0 (by omega) (by rw [Nat.testBit_zero]; simp [hm])
      rw [Nat.testBit_zero, Nat.testBit_zero] at h0
      have hx : x % 2 < 2 := Nat.mod_lt _ (by norm_num)
      have hy : y % 2 < 2 := Nat.mod_lt _ (by norm_num)
      have : x % 2 = y % 2 := by
        simp only [decide_eq_decide] at h0
        omega
      rw [this]
    · rw [if_neg hm, if_neg hm, hrec]

/-- The stripes that the packer extracts from a block depend only on the
bytes of the block. -/
theorem packedStripe_congr (T dm : Nat → Nat) (D : Nat) (x y : Mem) (p i s : Nat) (hi : i < 8)
    (h : ∀ k, k < 8 * D → load8 x (p + k) = load8 y (p + k)) :
    packedStripe (statsOf T dm D).stripe_masks.get x p D i s =
      packedStripe (statsOf T dm D).stripe_masks.get y p D i s := by
  unfold packedStripe pext_u64
  apply pextAux_congr
  intro t ht hm
  rw [statsOf_masks_testBit] at hm
  simp only [Bool.and_eq_true, decide_eq_true_eq] at hm
  rw [loadLE_testBit, loadLE_testBit]
  have hiD : i * D + D ≤ 8 * D := by
    have := Nat.mul_le_mul_right D (show i + 1 ≤ 8 by omega)
    rw [Nat.add_mul] at this
    omega
  have e : (8 * (p + s * stripe_sz + i * D) + t) / 8 = p + (8 * s + i * D + t / 8) := by
    unfold stripe_sz; omega
  unfold abit
  rw [e, h _ (by omega)]

theorem packBlock_congr_src (T dm : Nat → Nat) (D : Nat) (offs : Arr) (n : Nat) (x y : Mem)
    (p out rb : Nat) (m : Mem)
    (h : ∀ k, k < 8 * D → load8 x (p + k) = load8 y (p + k)) :
    packBlock (statsOf T dm D) offs n x p D out rb m =
      packBlock (statsOf T dm D) offs n y p D out rb m := by
  unfold packBlock
  apply forLoop_congr
  intro s _ m1
  have hp : ∀ i, i < block_sz →
      pext_u64 (loadLE 8 x (p + s * stripe_sz + i * D)) ((statsOf T dm D).stripe_masks.get s)
        = pext_u64 (loadLE 8 y (p + s * stripe_sz + i * D))
            ((statsOf T dm D).stripe_masks.get s) :=
    fun i hi => packedStripe_congr T dm D x y p i s hi h
  simp only []
  split_ifs
  · apply forLoop_congr
    intro i hi m2
    rw [hp i hi]
  · apply forLoop_congr
    intro i hi m2
    rw [hp i hi]

theorem orReduce_congr (x y : Mem) (p D d : Nat) (hd : d < D)
    (h : ∀ k, k < 8 * D → load8 x (p + k) = load8 y (p + k)) :
    orReduce x p D d = orReduce y p D d := by
  unfold orReduce
  apply forLoop_congr
  intro i hi m
  have hiD : i * D + D ≤ 8 * D := by
    have := Nat.mul_le_mul_right D (show i + 1 ≤ 8 from hi)
    rw [Nat.add_mul] at this
    omega
  have := h (i * D + d) (by omega)
  rw [← Nat.add_assoc] at this
  rw [this]

theorem stripeStats_congr (T : Nat → Nat) (x y : Mem) (p D : Nat)
    (h : ∀ k, k < 8 * D → load8 x (p + k) = load8 y (p + k)) :
    stripeStats T x p D = stripeStats T y p D := by
  unfold stripeStats
  apply forLoop_congr
  intro d hd st
  rw [orReduce_congr x y p D d hd h]

theorem rowmajorBlock_congr (T : Nat → Nat) (x y : Mem) (D n hd : Nat) (s : EncState × Nat)
    (h : ∀ k, k < 8 * D → load8 x (s.1.src + k) = load8 y (s.1.src + k)) :
    rowmajorBlock T x D n hd s = rowmajorBlock T y D n hd s := by
  unfold rowmajorBlock
  simp only []
  rw [stripeStats_congr T x y s.1.src D h, stripeStats_eq_statsOf,
    packBlock_congr_src T _ D _ n x y s.1.src _ _ _ h]

theorem rowmajorGroup_congr (T : Nat → Nat) (x y : Mem) (D n thb : Nat) (s : EncState)
    (h : ∀ k, k < 16 * D → load8 x (s.src + k) = load8 y (s.src + k)) :
    rowmajorGroup T x D n thb s = rowmajorGroup T y D n thb s := by
  have e1 := rowmajorBlock_congr T x y D n s.dest
    (⟨s.src, s.dest + thb, memset0 s.mem s.dest thb⟩, 0) (fun k hk => h k (by omega))
  have e2 := rowmajorBlock_congr T x y D n s.dest
    (rowmajorBlock T x D n s.dest (⟨s.src, s.dest + thb, memset0 s.mem s.dest thb⟩, 0))
    (fun k hk => by
      rw [rowmajorBlock_src]
      have := h (8 * D + k) (by omega)
      rw [← Nat.add_assoc] at this
      exact this)
  rw [rowmajorGroup_unfold, rowmajorGroup_unfold, e2, e1]

theorem rowmajorLoop_congr (T : Nat → Nat) (x y : Mem) (L : Nat) (dest : Mem) (D : Nat)
    (ws : Bool) (h : ∀ k, k < L → load8 x k = load8 y k) (g : Nat) (hg : g * (16 * D) ≤ L) :
    rowmajorLoop T x L dest D ws g = rowmajorLoop T y L dest D ws g := by
  induction g with
  | zero =>
    unfold rowmajorLoop
    rw [forLoop, forLoop]
  | succ g ih =>
    have hg2 : g * (16 * D) + 16 * D ≤ L := by
      rw [Nat.add_mul, Nat.one_mul] at hg; exact hg
    rw [rowmajorLoop_succ, rowmajorLoop_succ, ← ih (by omega)]
    apply rowmajorGroup_congr
    intro k hk
    rw [rowmajorLoop_src]
    exact h _ (by omega)

theorem memcpy_congr_src (m : Mem) (d : Nat) (x y : Mem) (s n : Nat)
    (h : ∀ k, k < n → load8 x (s + k) = load8 y (s + k)) :
    memcpy m d x s n = memcpy m d y s n := by
  apply Mem.ext
  funext k
  show (if d ≤ k ∧ k < d + n then load8 x (s + (k - d)) else m.get k)
    = (if d ≤ k ∧ k < d + n then load8 y (s + (k - d)) else m.get k)
  by_cases hk : d ≤ k ∧ k < d + n
  · rw [if_pos hk, if_pos hk]
    exact h _ (by omega)
  · rw [if_neg hk, if_neg hk]

/-- The output of `compress8b_rowmajor` depends only on the first `L` bytes of
the source. -/
theorem compress8b_rowmajor_congr (T : Nat → Nat) (x y dest : Mem) (L D : Nat) (ws : Bool)
    (h : ∀ k, k < L → load8 x k = load8 y k) :
    compress8b_rowmajor T x L dest D ws = compress8b_rowmajor T y L dest D ws := by
  rw [compress8b_rowmajor_eq, compress8b_rowmajor_eq]
  split_ifs with h1 h2 h3
  · rfl
  · rw [memcpy_congr_src _ _ x y 0 _ (fun k hk => by
      have := Nat.mod_le L (2 ^ 32)
      rw [Nat.zero_add]
      exact h k (by omega))]
  · rfl
  · have hg : L / groupSzOf D * (16 * D) ≤ L := by
      rw [← groupSzOf_eq]
      exact Nat.div_mul_le_self L _
    rw [← rowmajorLoop_congr T x y L dest D ws h _ hg,
      memcpy_congr_src _ _ x y _ _ (fun k hk => by
        have := Nat.mod_le (L - (rowmajorLoop T x L dest D ws (L / groupSzOf D)).src) (2 ^ 32)
        exact h _ (by omega))]

theorem deltaStripeStats_congr (T : Nat → Nat) (x y : Mem) (p D : Nat) (dl : Mem)
    (h : ∀ k, k < 8 * D → load8 x (p + k) = load8 y (p + k)) :
    deltaStripeStats T x p D dl = deltaStripeStats T y p D dl := by
  unfold deltaStripeStats
  apply forLoop_congr
  intro d hd st
  have hrows : ∀ (r0 : Nat × Mem × Nat),
      forLoop block_sz
        (fun i (r : Nat × Mem × Nat) =>
          (r.1 ||| zigzag_encode_i8 ((load8 x (p + (i * D + d)) + 256 - r.2.2) % 256),
            store8 r.2.1 (i * D + d)
              (zigzag_encode_i8 ((load8 x (p + (i * D + d)) + 256 - r.2.2) % 256)),
            load8 x (p + (i * D + d)))) r0
      = forLoop block_sz
        (fun i (r : Nat × Mem × Nat) =>
          (r.1 ||| zigzag_encode_i8 ((load8 y (p + (i * D + d)) + 256 - r.2.2) % 256),
            store8 r.2.1 (i * D + d)
              (zigzag_encode_i8 ((load8 y (p + (i * D + d)) + 256 - r.2.2) % 256)),
            load8 y (p + (i * D + d)))) r0 := by
    intro r0
    apply forLoop_congr
    intro i hi r
    have hiD : i * D + D ≤ 8 * D := by
      have := Nat.mul_le_mul_right D (show i + 1 ≤ 8 from hi)
      rw [Nat.add_mul] at this
      omega
    rw [h (i * D + d) (by omega)]
  simp only []
  rw [hrows]

theorem deltaBlock_congr (T : Nat → Nat) (x y : Mem) (D n hd : Nat) (s : DeltaEncState × Nat)
    (h : ∀ k, k < 8 * D → load8 x (s.1.enc.src + k) = load8 y (s.1.enc.src + k)) :
    deltaBlock T x D n hd s = deltaBlock T y D n hd s := by
  unfold deltaBlock
  simp only []
  rw [deltaStripeStats_congr T x y s.1.enc.src D s.1.deltas h]

theorem deltaGroup_congr (T : Nat → Nat) (x y : Mem) (D n thb : Nat) (s : DeltaEncState)
    (h : ∀ k, k < 16 * D → load8 x (s.enc.src + k) = load8 y (s.enc.src + k)) :
    deltaGroup T x D n thb s = deltaGroup T y D n thb s := by
  have e1 := deltaBlock_congr T x y D n s.enc.dest
    (⟨⟨s.enc.src, s.enc.dest + thb, memset0 s.enc.mem s.enc.dest thb⟩, s.deltas⟩, 0)
    (fun k hk => h k (by omega))
  have e2 := deltaBlock_congr T x y D n s.enc.dest
    (deltaBlock T x D n s.enc.dest
      (⟨⟨s.enc.src, s.enc.dest + thb, memset0 s.enc.mem s.enc.dest thb⟩, s.deltas⟩, 0))
    (fun k hk => by
      rw [deltaBlock_src]
      have := h (8 * D + k) (by omega)
      rw [← Nat.add_assoc] at this
      exact this)
  rw [deltaGroup_unfold, deltaGroup_unfold, e2, e1]

theorem deltaLoop_congr (T : Nat → Nat) (x y : Mem) (L : Nat) (dest : Mem) (D : Nat)
    (ws : Bool) (h : ∀ k, k < L → load8 x k = load8 y k) (g : Nat) (hg : g * (16 * D) ≤ L) :
    deltaLoop T x L dest D ws g = deltaLoop T y L dest D ws g := by
  induction g with
  | zero =>
    unfold deltaLoop
    rw [forLoop, forLoop]
  | succ g ih =>
    have hg2 : g * (16 * D) + 16 * D ≤ L := by
      rw [Nat.add_mul, Nat.one_mul] at hg; exact hg
    rw [deltaLoop_succ, deltaLoop_succ, ← ih (by omega)]
    apply deltaGroup_congr
    intro k hk
    rw [deltaLoop_src]
    exact h _ (by omega)

/-- The output of `compress8b_rowmajor_delta` depends only on the first `L`
bytes of the source. -/
theorem compress8b_rowmajor_delta_congr (T : Nat → Nat) (x y dest : Mem) (L D : Nat) (ws : Bool)
    (h : ∀ k, k < L → load8 x k = load8 y k) :
    compress8b_rowmajor_delta T x L dest D ws = compress8b_rowmajor_delta T y L dest D ws := by
  rw [compress8b_rowmajor_delta_eq, compress8b_rowmajor_delta_eq]
  split_ifs with h1 h2 h3
  · rfl
  · rw [memcpy_congr_src _ _ x y 0 _ (fun k hk => by
      have := Nat.mod_le L (2 ^ 32)
      rw [Nat.zero_add]
      exact h k (by omega))]
  · rfl
  · have hg : L / groupSzOf D * (16 * D) ≤ L := by
      rw [← groupSzOf_eq]
      exact Nat.div_mul_le_self L _
    rw [← deltaLoop_congr T x y L dest D ws h _ hg,
      memcpy_congr_src _ _ x y _ _ (fun k hk => by
        have := Nat.mod_le (L - (deltaLoop T x L dest D ws (L / groupSzOf D)).enc.src) (2 ^ 32)
        exact h _ (by omega))]

theorem rle_read_block_congr (T : Nat → Nat) (x y : Mem) (L D : Nat) (s : RleEncState)
    (h : ∀ k, k < 8 * D → load8 x (s.src + k) = load8 y (s.src + k)) :
    rle_read_block (rleCtxOf T x L D) s = rle_read_block (rleCtxOf T y L D) s := by
  unfold rle_read_block
  simp only [rleCtxOf]
  rw [deltaStripeStats_congr T x y s.src D s.deltas h]

theorem rle_do_rle_ctx (T : Nat → Nat) (x y : Mem) (L D : Nat) (s : RleEncState) :
    rle_do_rle (rleCtxOf T x L D) s = rle_do_rle (rleCtxOf T y L D) s := by
  unfold rle_do_rle
  simp only [rleCtxOf]

theorem rle_pack_ctx (T : Nat → Nat) (x y : Mem) (L D : Nat) (blk : RleBlock)
    (s : RleEncState) :
    rle_pack (rleCtxOf T x L D) blk s = rle_pack (rleCtxOf T y L D) blk s := by
  unfold rle_pack
  simp only [rleCtxOf]

theorem rleGroupStart_ctx (T : Nat → Nat) (x y : Mem) (L D : Nat) (s : RleEncState) :
    rleGroupStart (rleCtxOf T x L D) s = rleGroupStart (rleCtxOf T y L D) s := by
  unfold rleGroupStart
  simp only [rleCtxOf]

theorem rlePrepare_ctx (T : Nat → Nat) (x y : Mem) (L D : Nat) (blk : RleBlock)
    (s : RleEncState) :
    rlePrepare (rleCtxOf T x L D) blk s = rlePrepare (rleCtxOf T y L D) blk s := by
  unfold rlePrepare rleGroupStart rleCloseRun
  simp only [rleCtxOf]

/-- One pass of the body of the block loop depends on the source only through
the block in hand. -/
theorem rleBlockStep_congr (T : Nat → Nat) (x y : Mem) (L D : Nat) (s : RleEncState)
    (h : ∀ k, k < 8 * D → load8 x (s.src + k) = load8 y (s.src + k)) :
    rleBlockStep (rleCtxOf T x L D) s = rleBlockStep (rleCtxOf T y L D) s := by
  rw [rleBlockStep_eq, rleBlockStep_eq, ← rle_read_block_congr T x y L D s h,
    ← rlePrepare_ctx T x y L D, ← rle_do_rle_ctx T x y L D, ← rle_pack_ctx T x y L D]

theorem rleNewGroup_congr (T : Nat → Nat) (x y : Mem) (L D : Nat) (s : RleEncState)
    (h : ∀ k, k < 8 * D → load8 x (s.src + k) = load8 y (s.src + k)) :
    rleNewGroup (rleCtxOf T x L D) s = rleNewGroup (rleCtxOf T y L D) s := by
  unfold rleNewGroup
  rw [rle_read_block_congr T x y L D s h]

/-- The states that the loops pass through are the same for two sources that
agree on their first `L` bytes. -/
theorem RleReach_congr (T : Nat → Nat) (x y dest : Mem) (L D : Nat) (ws : Bool)
    (hD1 : 1 ≤ D) (hD2 : D < 65536) (h : ∀ k, k < L → load8 x k = load8 y k)
    (pt : RlePoint) (n : Nat) (s : RleEncState)
    (hs : RleReach (rleCtxOf T x L D) (rleInit dest ws) pt n s) :
    RleReach (rleCtxOf T y L D) (rleInit dest ws) pt n s := by
  induction hs with
  | init => exact RleReach.init
  | enter n s _ hc ih =>
    rw [rleGroupStart_ctx T x y L D s]
    exact RleReach.enter n s ih hc
  | stop n s _ hc ih => exact RleReach.stop n s ih hc
  | step n s s1 hs' hb hstep ih =>
    obtain ⟨_, _, _, _, _, _, _, h8, h9, _, _⟩ :=
      RleReach_size T x dest L D ws hD1 hD2 _ n s hs'
    have hfit : s.src + 8 * D ≤ L := by
      have hb2 : s.b < 2 := hb
      rcases Nat.lt_or_ge s.b 1 with h0 | h1
      · have := h8 (by omega); omega
      · exact h9 (by omega)
    have hloc : ∀ k, k < 8 * D → load8 x (s.src + k) = load8 y (s.src + k) :=
      fun k hk => h _ (by omega)
    rw [rleNewGroup_congr T x y L D s hloc]
    rw [rleBlockStep_congr T x y L D s hloc] at hstep
    exact RleReach.step n s s1 ih hb hstep
  | jump n s s1 hs' hb hstep ih =>
    obtain ⟨_, _, _, _, _, _, _, h8, h9, _, _⟩ :=
      RleReach_size T x dest L D ws hD1 hD2 _ n s hs'
    have hfit : s.src + 8 * D ≤ L := by
      have hb2 : s.b < 2 := hb
      rcases Nat.lt_or_ge s.b 1 with h0 | h1
      · have := h8 (by omega); omega
      · exact h9 (by omega)
    have hloc : ∀ k, k < 8 * D → load8 x (s.src + k) = load8 y (s.src + k) :=
      fun k hk => h _ (by omega)
    rw [rleNewGroup_congr T x y L D s hloc]
    rw [rleBlockStep_congr T x y L D s hloc] at hstep
    exact RleReach.jump n s s1 ih hb hstep
  | leave n s _ hb ih => exact RleReach.leave n s ih hb

/-- The output of `compress8b_rowmajor_delta_rle` depends only on the first
`L` bytes of the source. -/
theorem compress8b_rowmajor_delta_rle_congr (T : Nat → Nat) (x y dest : Mem) (L D : Nat)
    (ws : Bool) (hD1 : 1 ≤ D) (hD2 : D < 65536) (h : ∀ k, k < L → load8 x k = load8 y k) :
    compress8b_rowmajor_delta_rle T x L dest D ws
      = compress8b_rowmajor_delta_rle T y L dest D ws := by
  by_cases hL : L < 128
  · rw [compress8b_rowmajor_delta_rle_small T x dest L D ws hL,
      compress8b_rowmajor_delta_rle_small T y dest L D ws hL,
      memcpy_congr_src _ _ x y 0 L (fun k hk => by rw [Nat.zero_add]; exact h k hk)]
  · obtain ⟨r, hr, ⟨n, hreach⟩, _⟩ := rleLoop_reach T x dest L D ws hD1 hD2
    obtain ⟨r2, hr2, _, huniq⟩ := rleLoop_reach T y dest L D ws hD1 hD2
    have e : r = r2 := huniq r n (RleReach_congr T x y dest L D ws hD1 hD2 h _ n r hreach)
    obtain ⟨_, _, z3, _, _⟩ := RleReach_size T x dest L D ws hD1 hD2 _ n r hreach
    rw [compress8b_rowmajor_delta_rle_eq T x dest L D ws hL,
      compress8b_rowmajor_delta_rle_eq T y dest L D ws hL, hr, hr2, ← e,
      Option.map_some', Option.map_some']
    congr 1
    unfold rleFinish
    have hrem : (((L : Int) - (r.src : Int)) % 2 ^ 32).toNat ≤ L - r.src := by
      omega
    simp only []
    rw [memcpy_congr_src _ _ x y _ _ (fun k hk => h _ (by omega))]

/-! ## C40: the encoded stream depends only on the first `L` input bytes -/

/-- C40: for each of the three encoders, every `D` with `1 ≤ D < 65536`, every
length `L` and any two source buffers that agree on their first `L` bytes
(and differ arbitrarily beyond, in the bytes that the 8-byte stripe loads read
past the last record), the outcome of the call is the same: the same returned
size and the same destination buffer, byte for byte.  The run-length encoder
returns in both calls. -/
theorem output_depends_on_first_L (T : Nat → Nat) (x y dest : Mem) (L D : Nat) (ws : Bool)
    (hD1 : 1 ≤ D) (hD2 : D < 65536) (h : ∀ k, k < L → load8 x k = load8 y k) :
    compress8b_rowmajor T x L dest D ws = compress8b_rowmajor T y L dest D ws ∧
    compress8b_rowmajor_delta T x L dest D ws = compress8b_rowmajor_delta T y L dest D ws ∧
    ∃ out n, compress8b_rowmajor_delta_rle T x L dest D ws = some (Outcome.returned out n) ∧
      compress8b_rowmajor_delta_rle T y L dest D ws = some (Outcome.returned out n) := by
  refine ⟨compress8b_rowmajor_congr T x y dest L D ws h,
    compress8b_rowmajor_delta_congr T x y dest L D ws h, ?_⟩
  obtain ⟨out, n, ho, _⟩ := compress8b_rowmajor_delta_rle_size T x dest L D ws hD1 hD2
  refine ⟨out, n, ho, ?_⟩
  rw [← compress8b_rowmajor_delta_rle_congr T x y dest L D ws hD1 hD2 h]
  exact ho

theorem output_depends_on_first_L_witness :
    compress8b_rowmajor NBITS_MASKS_U8 ⟨fun k => k % 7⟩ 128 Mem.zero 3 true
      = compress8b_rowmajor NBITS_MASKS_U8 ⟨fun k => if k < 128 then k % 7 else 0xFF⟩ 128
          Mem.zero 3 true ∧
    compress8b_rowmajor_delta NBITS_MASKS_U8 ⟨fun k => k % 7⟩ 128 Mem.zero 3 true
      = compress8b_rowmajor_delta NBITS_MASKS_U8 ⟨fun k => if k < 128 then k % 7 else 0xFF⟩ 128
          Mem.zero 3 true ∧
    ∃ out n, compress8b_rowmajor_delta_rle NBITS_MASKS_U8 ⟨fun k => k % 7⟩ 128 Mem.zero 3 true
        = some (Outcome.returned out n) ∧
      compress8b_rowmajor_delta_rle NBITS_MASKS_U8 ⟨fun k => if k < 128 then k % 7 else 0xFF⟩
        128 Mem.zero 3 true = some (Outcome.returned out n) :=
  output_depends_on_first_L NBITS_MASKS_U8 ⟨fun k => k % 7⟩
    ⟨fun k => if k < 128 then k % 7 else 0xFF⟩ Mem.zero 128 3 true (by decide) (by decide)
    (fun k hk => by
      show k % 7 % 256 = (if k < 128 then k % 7 else 0xFF) % 256
      rw [if_pos hk])

/-! ## The events of the run-length encoder -/

theorem blocksOf_append (a b : List RleEvent) : blocksOf (a ++ b) = blocksOf a + blocksOf b := by
  unfold blocksOf
  rw [List.map_append, List.sum_append]

theorem groupSlots_append_one (ev : List RleEvent) (e : RleEvent) :
    groupSlots (ev ++ [e]) = slotStep (groupSlots ev) e := by
  unfold groupSlots
  rw [List.foldl_append]
  rfl

theorem groupSlots_append (a b : List RleEvent) :
    groupSlots (a ++ b) = b.foldl slotStep (groupSlots a) := by
  unfold groupSlots
  rw [List.foldl_append]

/-- Every state with its events is a state that is reached, and the other way
round. -/
theorem RleEvents_reach (c : RleCtx) (s0 : RleEncState) (pt : RlePoint) (ev : List RleEvent)
    (s : RleEncState) (h : RleEvents c s0 pt ev s) : ∃ n, RleReach c s0 pt n s := by
  induction h with
  | init => exact ⟨0, RleReach.init⟩
  | enter _ s _ hc ih =>
    obtain ⟨n, hn⟩ := ih
    exact ⟨_, RleReach.enter n s hn hc⟩
  | stop _ s _ hc ih =>
    obtain ⟨n, hn⟩ := ih
    exact ⟨_, RleReach.stop n s hn hc⟩
  | step _ s s1 _ hb hstep ih =>
    obtain ⟨n, hn⟩ := ih
    exact ⟨_, RleReach.step n s s1 hn hb hstep⟩
  | jump _ s s1 _ hb hstep ih =>
    obtain ⟨n, hn⟩ := ih
    exact ⟨_, RleReach.jump n s s1 hn hb hstep⟩
  | leave _ s _ hb ih =>
    obtain ⟨n, hn⟩ := ih
    exact ⟨_, RleReach.leave n s hn hb⟩

theorem RleReach_events (c : RleCtx) (s0 : RleEncState) (pt : RlePoint) (n : Nat)
    (s : RleEncState) (h : RleReach c s0 pt n s) : ∃ ev, RleEvents c s0 pt ev s := by
  induction h with
  | init => exact ⟨[], RleEvents.init⟩
  | enter _ s _ hc ih =>
    obtain ⟨ev, he⟩ := ih
    exact ⟨_, RleEvents.enter ev s he hc⟩
  | stop _ s _ hc ih =>
    obtain ⟨ev, he⟩ := ih
    exact ⟨_, RleEvents.stop ev s he hc⟩
  | step _ s s1 _ hb hstep ih =>
    obtain ⟨ev, he⟩ := ih
    exact ⟨_, RleEvents.step ev s s1 he hb hstep⟩
  | jump _ s s1 _ hb hstep ih =>
    obtain ⟨ev, he⟩ := ih
    exact ⟨_, RleEvents.jump ev s s1 he hb hstep⟩
  | leave _ s _ hb ih =>
    obtain ⟨ev, he⟩ := ih
    exact ⟨_, RleEvents.leave ev s he hb⟩

/-- The loops end in a state that has its list of events. -/
theorem rleLoop_events (T : Nat → Nat) (x dest : Mem) (L D : Nat) (write_size : Bool)
    (hD1 : 1 ≤ D) (hD2 : D < 65536) :
    ∃ r ev, rleLoop T x L dest D write_size = some r ∧
      RleEvents (rleCtxOf T x L D) (rleInit dest write_size) RlePoint.loopEnd ev r := by
  obtain ⟨r, hr, ⟨n, hreach⟩, _⟩ := rleLoop_reach T x dest L D write_size hD1 hD2
  obtain ⟨ev, he⟩ := RleReach_events _ _ _ n r hreach
  exact ⟨r, ev, hr, he⟩

/-- At `just_read_block`: closing the run that the block in hand ends, and
opening a group if the run filled the last slot, keeps the events and the
state in step. -/
theorem RleLog_prepare (c : RleCtx) (D : Nat) (blk : RleBlock) (ev : List RleEvent)
    (s : RleEncState) (h : RleLog D RlePoint.blockHead ev s) (hb : s.b < 2) :
    RleLog D RlePoint.blockHead
      (ev ++ (if ¬ (blk.row_width_bits = 0 ∧ s.run_length_nblocks < max_run_nblocks) ∧
          s.run_length_nblocks > 0 then
        RleEvent.run s.run_length_nblocks ::
          (if s.b + 1 = group_sz_blocks then [RleEvent.header] else [])
        else []))
      (rlePrepare c blk s) ∧
    (rlePrepare c blk s).b < 2 ∧ (rlePrepare c blk s).src = s.src := by
  obtain ⟨a1, a2, a3, a4, a5, a6, k, a7, a8⟩ := h
  by_cases h1 : ¬ (blk.row_width_bits = 0 ∧ s.run_length_nblocks < max_run_nblocks) ∧
      s.run_length_nblocks > 0
  · have hrun : ∀ m, RleEvent.run m ∈ ev ∨ m = s.run_length_nblocks → 1 ≤ m ∧ m ≤ 0x7fff := by
      intro m hm
      rcases hm with hm | hm
      · exact a3 m hm
      · rw [hm]; exact ⟨h1.2, a2⟩
    by_cases h2 : s.b + 1 = group_sz_blocks
    · have hp : rlePrepare c blk s = rleGroupStart c (rleCloseRun c s) := by
        unfold rlePrepare
        rw [if_pos h1, if_pos h2]
      have hb1 : s.b = 1 := by
        simp only [group_sz_blocks, kDefaultGroupSzBlocks] at h2; omega
      rw [hp, if_pos h1, if_pos h2]
      refine ⟨⟨?_, ?_, ?_, ?_, ?_, ?_, k + 1, ?_, ?_⟩, ?_, rfl⟩
      · show 8 * D * (blocksOf (ev ++ [RleEvent.run s.run_length_nblocks, RleEvent.header]) + 0)
          = s.src
        rw [blocksOf_append, ← a1]
        rfl
      · show (0 : Nat) ≤ 0x7fff
        omega
      · intro m hm
        apply hrun m
        simp only [List.mem_append, List.mem_cons, List.mem_singleton, RleEvent.run.injEq,
          List.mem_nil_iff, or_false, reduceCtorEq] at hm
        exact hm
      · intro p rb hm
        simp only [List.mem_append, List.mem_cons, List.mem_singleton, List.mem_nil_iff,
          or_false, reduceCtorEq] at hm
        exact a4 p rb hm
      · show (0 : Nat) ≤ 2
        omega
      · intro h0
        rfl
      · show groupSlots (ev ++ [RleEvent.run s.run_length_nblocks, RleEvent.header])
          = 0 :: List.replicate (k + 1) 2
        rw [groupSlots_append, a7, hb1]
        rfl
      · show (s.ngroups + 1) % 2 ^ 32 = (k + 1 + 1) % 2 ^ 32
        rw [a8]
        omega
      · show (0 : Nat) < 2
        omega
    · have hp : rlePrepare c blk s = rleCloseRun c s := by
        unfold rlePrepare
        rw [if_pos h1, if_neg h2]
      have hb0 : s.b = 0 := by
        simp only [group_sz_blocks, kDefaultGroupSzBlocks] at h2; omega
      rw [hp, if_pos h1, if_neg h2]
      refine ⟨⟨?_, ?_, ?_, ?_, ?_, ?_, k, ?_, a8⟩, ?_, rfl⟩
      · show 8 * D * (blocksOf (ev ++ [RleEvent.run s.run_length_nblocks]) + 0) = s.src
        rw [blocksOf_append, ← a1]
        rfl
      · show (0 : Nat) ≤ 0x7fff
        omega
      · intro m hm
        apply hrun m
        simp only [List.mem_append, List.mem_singleton, RleEvent.run.injEq] at hm
        exact hm
      · intro p rb hm
        simp only [List.mem_append, List.mem_singleton, reduceCtorEq, or_false] at hm
        exact a4 p rb hm
      · show s.b + 1 ≤ 2
        omega
      · intro _
        rfl
      · show groupSlots (ev ++ [RleEvent.run s.run_length_nblocks])
          = (s.b + 1) :: List.replicate k 2
        rw [groupSlots_append, a7]
        rfl
      · show s.b + 1 < 2
        omega
  · have hp : rlePrepare c blk s = s := by
      unfold rlePrepare
      rw [if_neg h1]
    rw [hp, if_neg h1, List.append_nil]
    exact ⟨⟨a1, a2, a3, a4, a5, a6, k, a7, a8⟩, hb, rfl⟩

theorem groupSlots_fill (acc : List Nat) (b : Nat) (rest : List Nat) (hb : b < 2)
    (h : acc = b :: rest) (m : Nat) :
    (RleEvent.run m :: List.replicate (group_sz_blocks - (b + 1)) RleEvent.filler).foldl
      slotStep acc = 2 :: rest := by
  subst h
  have hb2 : b = 0 ∨ b = 1 := by omega
  rcases hb2 with rfl | rfl <;> rfl

/-- After `just_read_block`: adding the block in hand to the run, or packing
it, keeps the events and the state in step. -/
theorem RleLog_act (T : Nat → Nat) (x : Mem) (L D : Nat) (blk : RleBlock)
    (hblk : blk.out_row_nbytes = rowNbytes blk.row_width_bits) (ev : List RleEvent)
    (p : RleEncState) (p0 : Nat) (h : RleLog D RlePoint.blockHead ev p) (hb : p.b < 2)
    (hprun : p.run_length_nblocks = 0 ∨
      (blk.row_width_bits = 0 ∧ p.run_length_nblocks < max_run_nblocks))
    (hp0 : p.src = p0) (s1 : RleEncState) (flag : Bool)
    (hres : (if blk.row_width_bits = 0 ∧ p.run_length_nblocks < max_run_nblocks then
        rle_do_rle (rleCtxOf T x L D) p
      else (rle_pack (rleCtxOf T x L D) blk p, false)) = (s1, flag)) :
    RleLog D (if flag then RlePoint.loopEnd else RlePoint.blockHead)
      (ev ++ (if blk.row_width_bits = 0 ∧ p.run_length_nblocks < max_run_nblocks then
        (if ((p.src + block_sz * (rleCtxOf T x L D).ndims : Nat) : Int)
            < (rleCtxOf T x L D).last_full_group_start then []
        else
          RleEvent.run ((p.run_length_nblocks + 1) % 2 ^ 16) ::
            List.replicate (group_sz_blocks - (p.b + 1)) RleEvent.filler)
        else [RleEvent.packed p0 blk.out_row_nbytes])) s1 := by
  obtain ⟨a1, a2, a3, a4, a5, a6, k, a7, a8⟩ := h
  have hmul : 8 * D * (blocksOf ev + p.run_length_nblocks + 1)
      = 8 * D * (blocksOf ev + p.run_length_nblocks) + 8 * D := by ring
  by_cases hdo : blk.row_width_bits = 0 ∧ p.run_length_nblocks < max_run_nblocks
  · rw [if_pos hdo] at hres
    rw [if_pos hdo]
    have hrun : p.run_length_nblocks < 0x7fff := hdo.2
    have hmod : (p.run_length_nblocks + 1) % 2 ^ 16 = p.run_length_nblocks + 1 :=
      Nat.mod_eq_of_lt (by omega)
    have hcond : (((p.src + block_sz * (rleCtxOf T x L D).ndims : Nat) : Int)
        < (rleCtxOf T x L D).last_full_group_start) ↔ p.src + 8 * D + 16 * D < L := by
      show (((p.src + block_sz * D : Nat) : Int) < (L : Int) - (groupSzOf D : Int)) ↔ _
      rw [groupSzOf_eq]
      simp only [block_sz]
      omega
    by_cases hc : p.src + 8 * D + 16 * D < L
    · rw [rle_do_rle_cont T x L D p hc hrun] at hres
      simp only [Prod.mk.injEq] at hres
      obtain ⟨rfl, rfl⟩ := hres
      rw [if_pos (hcond.mpr hc), List.append_nil]
      refine ⟨?_, ?_, a3, ?_, a5, ?_, k, a7, a8⟩
      · show 8 * D * (blocksOf ev + (p.run_length_nblocks + 1)) = p.src + 8 * D
        rw [← Nat.add_assoc, hmul, a1]
      · show p.run_length_nblocks + 1 ≤ 0x7fff
        omega
      · intro q rb hm
        have := a4 q rb hm
        exact ⟨this.1, by show q + 8 * D ≤ p.src + 8 * D; omega⟩
      · intro h2
        exact absurd h2 (by show ¬ p.b = 2; omega)
    · rw [rle_do_rle_exit T x L D p (by omega) hrun hb] at hres
      simp only [Prod.mk.injEq] at hres
      obtain ⟨rfl, rfl⟩ := hres
      rw [if_neg (fun hh => hc (hcond.mp hh)), hmod]
      refine ⟨?_, rfl, ?_, ?_, k + 1, ?_, a8⟩
      · show 8 * D * blocksOf (ev ++ RleEvent.run (p.run_length_nblocks + 1) ::
            List.replicate (group_sz_blocks - (p.b + 1)) RleEvent.filler) = p.src + 8 * D
        have e : blocksOf (RleEvent.run (p.run_length_nblocks + 1) ::
            List.replicate (group_sz_blocks - (p.b + 1)) RleEvent.filler)
            = p.run_length_nblocks + 1 := by
          have hb2 : p.b = 0 ∨ p.b = 1 := by omega
          rcases hb2 with h0 | h0 <;> rw [h0] <;> simp [blocksOf, RleEvent.blocks, group_sz_blocks,
            kDefaultGroupSzBlocks]
        rw [blocksOf_append, e, ← Nat.add_assoc, hmul, a1]
      · intro m hm
        simp only [List.mem_append, List.mem_cons, RleEvent.run.injEq, List.mem_replicate,
          reduceCtorEq, and_false, or_false] at hm
        rcases hm with hm | hm
        · exact a3 m hm
        · rw [hm]; omega
      · intro q rb hm
        simp only [List.mem_append, List.mem_cons, List.mem_replicate, reduceCtorEq,
          and_false, or_false, false_or] at hm
        have := a4 q rb hm
        exact ⟨this.1, by show q + 8 * D ≤ p.src + 8 * D; omega⟩
      · rw [groupSlots_append, groupSlots_fill _ p.b _ hb a7]
        rfl
  · rw [if_neg hdo] at hres
    rw [if_neg hdo]
    simp only [Prod.mk.injEq] at hres
    obtain ⟨rfl, rfl⟩ := hres
    have hrun0 : p.run_length_nblocks = 0 := by
      rcases hprun with h0 | h0
      · exact h0
      · exact absurd h0 hdo
    have hw : blk.row_width_bits ≠ 0 := by
      intro h0
      apply hdo
      refine ⟨h0, ?_⟩
      rw [hrun0]
      decide
    refine ⟨?_, ?_, ?_, ?_, ?_, ?_, k, ?_, a8⟩
    · show 8 * D * (blocksOf (ev ++ [RleEvent.packed p0 blk.out_row_nbytes])
        + p.run_length_nblocks) = p.src + block_sz * D
      have e : blocksOf [RleEvent.packed p0 blk.out_row_nbytes] = 1 := rfl
      have a1' : 8 * D * blocksOf ev = p.src := by
        rw [hrun0, Nat.add_zero] at a1
        exact a1
      rw [blocksOf_append, e, hrun0, Nat.add_zero, Nat.mul_add, a1']
      simp only [block_sz]
      omega
    · exact a2
    · intro m hm
      simp only [List.mem_append, List.mem_singleton, reduceCtorEq, or_false] at hm
      exact a3 m hm
    · intro q rb hm
      simp only [List.mem_append, List.mem_singleton, RleEvent.packed.injEq] at hm
      rcases hm with hm | ⟨rfl, rfl⟩
      · have := a4 q rb hm
        exact ⟨this.1, by show q + 8 * D ≤ p.src + block_sz * D; simp only [block_sz]; omega⟩
      · refine ⟨?_, ?_⟩
        · rw [hblk]
          have := rowNbytes_ge blk.row_width_bits
          omega
        · show q + 8 * D ≤ p.src + block_sz * D
          simp only [block_sz]
          omega
    · show p.b + 1 ≤ 2
      omega
    · intro _
      exact hrun0
    · show groupSlots (ev ++ [RleEvent.packed p0 blk.out_row_nbytes])
        = (p.b + 1) :: List.replicate k 2
      rw [groupSlots_append, a7]
      rfl

/-- One pass of the body of the block loop keeps the events and the state in
step. -/
theorem RleLog_step (T : Nat → Nat) (x : Mem) (L D : Nat) (ev : List RleEvent)
    (s s1 : RleEncState) (flag : Bool) (h : RleLog D RlePoint.blockHead ev s) (hb : s.b < 2)
    (hstep : rleBlockStep (rleCtxOf T x L D) s = some (s1, flag)) :
    RleLog D (if flag then RlePoint.loopEnd else RlePoint.blockHead)
      (ev ++ rleEventsOfPass (rleCtxOf T x L D) s) s1 := by
  rw [rleBlockStep_eq] at hstep
  have hres := Option.some.inj hstep
  have h' : RleLog D RlePoint.blockHead ev (rle_read_block (rleCtxOf T x L D) s).2 := h
  have hb' : (rle_read_block (rleCtxOf T x L D) s).2.b < 2 := hb
  obtain ⟨g1, g2, g3⟩ := RleLog_prepare (rleCtxOf T x L D) D
    (rle_read_block (rleCtxOf T x L D) s).1 ev (rle_read_block (rleCtxOf T x L D) s).2 h' hb'
  have hprun : (rlePrepare (rleCtxOf T x L D) (rle_read_block (rleCtxOf T x L D) s).1
        (rle_read_block (rleCtxOf T x L D) s).2).run_length_nblocks = 0 ∨
      ((rle_read_block (rleCtxOf T x L D) s).1.row_width_bits = 0 ∧
        (rlePrepare (rleCtxOf T x L D) (rle_read_block (rleCtxOf T x L D) s).1
          (rle_read_block (rleCtxOf T x L D) s).2).run_length_nblocks < max_run_nblocks) := by
    rcases rlePrepare_run (rleCtxOf T x L D) (rle_read_block (rleCtxOf T x L D) s).1
      (rle_read_block (rleCtxOf T x L D) s).2 with h0 | ⟨e, hz, hlt⟩
    · exact Or.inl h0
    · exact Or.inr ⟨hz, by rw [e]; exact hlt⟩
  have hact := RleLog_act T x L D (rle_read_block (rleCtxOf T x L D) s).1 rfl _ _ s.src g1 g2
    hprun g3 s1 flag hres
  rw [List.append_assoc] at hact
  exact hact

/-- In every state that the loops pass through, the events and the state are
in step. -/
theorem RleEvents_log (T : Nat → Nat) (x dest : Mem) (L D : Nat) (write_size : Bool)
    (pt : RlePoint) (ev : List RleEvent) (s : RleEncState)
    (hs : RleEvents (rleCtxOf T x L D) (rleInit dest write_size) pt ev s) :
    RleLog D pt ev s := by
  induction hs with
  | init => exact ⟨rfl, rfl, fun _ hm => absurd hm (List.not_mem_nil _),
      fun _ _ hm => absurd hm (List.not_mem_nil _), 0, rfl, rfl⟩
  | enter ev s _ _ ih =>
    obtain ⟨a1, a2, a3, a4, k, a7, a8⟩ := ih
    refine ⟨?_, ?_, ?_, ?_, ?_, ?_, k, ?_, ?_⟩
    · show 8 * D * (blocksOf (ev ++ [RleEvent.header]) + s.run_length_nblocks) = s.src
      rw [blocksOf_append, a2, ← a1]
      rfl
    · show s.run_length_nblocks ≤ 0x7fff
      omega
    · intro m hm
      simp only [List.mem_append, List.mem_singleton, reduceCtorEq, or_false] at hm
      exact a3 m hm
    · intro p rb hm
      simp only [List.mem_append, List.mem_singleton, reduceCtorEq, or_false] at hm
      exact a4 p rb hm
    · show (0 : Nat) ≤ 2
      omega
    · intro h0
      exact absurd h0 (by show ¬ (0 : Nat) = 2; omega)
    · show groupSlots (ev ++ [RleEvent.header]) = 0 :: List.replicate k 2
      rw [groupSlots_append, a7]
      rfl
    · show (s.ngroups + 1) % 2 ^ 32 = (k + 1) % 2 ^ 32
      rw [a8]
      omega
  | stop ev s _ _ ih => exact ih
  | step ev s s1 _ hb hstep ih => exact RleLog_step T x L D ev s s1 false ih hb hstep
  | jump ev s s1 _ hb hstep ih => exact RleLog_step T x L D ev s s1 true ih hb hstep
  | leave ev s _ hb ih =>
    obtain ⟨a1, a2, a3, a4, a5, a6, k, a7, a8⟩ := ih
    have hb2 : s.b = 2 := by
      have : ¬ s.b < 2 := hb
      omega
    have hrun := a6 hb2
    refine ⟨?_, hrun, a3, a4, k + 1, ?_, a8⟩
    · rw [hrun, Nat.add_zero] at a1
      exact a1
    · rw [a7, hb2]
      rfl

/-- Whatever the state, a block of width zero joins a run: after
`just_read_block` has closed a run that is at the cap, the counter is fresh. -/
theorem rleBlockStep_dichotomy (c : RleCtx) (s : RleEncState) :
    rleBlockStep c s = some
      (if (rle_read_block c s).1.row_width_bits = 0 then
        rle_do_rle c (rlePrepare c (rle_read_block c s).1 (rle_read_block c s).2)
      else (rle_pack c (rle_read_block c s).1
        (rlePrepare c (rle_read_block c s).1 (rle_read_block c s).2), false)) := by
  rw [rleBlockStep_eq]
  by_cases hw : (rle_read_block c s).1.row_width_bits = 0
  · have hlt : (rlePrepare c (rle_read_block c s).1 (rle_read_block c s).2).run_length_nblocks
        < max_run_nblocks := by
      rcases rlePrepare_run c (rle_read_block c s).1 (rle_read_block c s).2 with h0 | ⟨e, _, hlt⟩
      · rw [h0]; decide
      · rw [e]; exact hlt
    rw [if_pos ⟨hw, hlt⟩, if_pos hw]
  · rw [if_neg (fun h => hw h.1), if_neg hw]

/-- The events of a pass whose block has width zero hold no packed body; the
events of a pass whose block has another width end with the packed body of
the block, after the length of the run that the block ends, if there is
one. -/
theorem rleEventsOfPass_kinds (c : RleCtx) (s : RleEncState) :
    ((rle_read_block c s).1.row_width_bits = 0 →
      ∀ q rb, RleEvent.packed q rb ∉ rleEventsOfPass c s) ∧
    ((rle_read_block c s).1.row_width_bits ≠ 0 →
      RleEvent.packed s.src (rle_read_block c s).1.out_row_nbytes ∈ rleEventsOfPass c s ∧
      ∀ m, RleEvent.run m ∈ rleEventsOfPass c s → m = s.run_length_nblocks) ∧
    (RleEvent.header ∈ rleEventsOfPass c s →
      s.b + 1 = group_sz_blocks ∧ 0 < s.run_length_nblocks) := by
  refine ⟨?_, ?_, ?_⟩
  · intro hw q rb hm
    have hlt : (rlePrepare c (rle_read_block c s).1 (rle_read_block c s).2).run_length_nblocks
        < max_run_nblocks := by
      rcases rlePrepare_run c (rle_read_block c s).1 (rle_read_block c s).2 with h0 | ⟨e, _, hlt⟩
      · rw [h0]; decide
      · rw [e]; exact hlt
    have hc : (rle_read_block c s).1.row_width_bits = 0 ∧
        (rlePrepare c (rle_read_block c s).1 (rle_read_block c s).2).run_length_nblocks
          < max_run_nblocks := ⟨hw, hlt⟩
    unfold rleEventsOfPass at hm
    rw [if_pos hc] at hm
    simp only [List.mem_append] at hm
    rcases hm with hm | hm
    · split_ifs at hm <;>
        simp only [List.mem_cons, List.mem_singleton, List.mem_nil_iff, reduceCtorEq,
          or_false] at hm
    · split_ifs at hm
      · simp only [List.mem_nil_iff] at hm
      · simp only [List.mem_cons, List.mem_replicate, reduceCtorEq, and_false, or_false] at hm
  · intro hw
    have hc : ¬ ((rle_read_block c s).1.row_width_bits = 0 ∧
        (rlePrepare c (rle_read_block c s).1 (rle_read_block c s).2).run_length_nblocks
          < max_run_nblocks) := fun h => hw h.1
    unfold rleEventsOfPass
    rw [if_neg hc]
    refine ⟨?_, ?_⟩
    · simp only [List.mem_append, List.mem_singleton, or_true]
    · intro m hm
      simp only [List.mem_append, List.mem_singleton, reduceCtorEq, or_false] at hm
      split_ifs at hm <;>
        simp only [List.mem_cons, List.mem_singleton, List.mem_nil_iff, RleEvent.run.injEq,
          reduceCtorEq, or_false] at hm
      all_goals exact hm
  · intro hm
    unfold rleEventsOfPass at hm
    simp only [List.mem_append] at hm
    rcases hm with hm | hm
    · split_ifs at hm with h1 h2
      · exact ⟨h2, h1.2⟩
      · simp only [List.mem_cons, List.mem_nil_iff, reduceCtorEq, or_false] at hm
      · simp only [List.mem_nil_iff] at hm
    · split_ifs at hm <;>
        simp only [List.mem_cons, List.mem_singleton, List.mem_replicate, List.mem_nil_iff,
          reduceCtorEq, and_false, or_false] at hm

/-- A block of width zero that meets a counter at the cap: the run is closed
with the length `0x7fff`, a group header follows if the run filled the last
slot, and the block is counted in a fresh run, which is closed at once with
the length 1 if the loops are left. -/
theorem rleStep_cap (T : Nat → Nat) (x : Mem) (L D : Nat) (s s1 : RleEncState) (flag : Bool)
    (hstep : rleBlockStep (rleCtxOf T x L D) s = some (s1, flag))
    (hw : (rle_read_block (rleCtxOf T x L D) s).1.row_width_bits = 0)
    (hrun : s.run_length_nblocks = 0x7fff) (hb : s.b < 2) :
    rleEventsOfPass (rleCtxOf T x L D) s =
      RleEvent.run 0x7fff :: ((if s.b = 1 then [RleEvent.header] else []) ++
        (if flag then RleEvent.run 1 :: List.replicate s.b RleEvent.filler else [])) ∧
    (flag = false → s1.run_length_nblocks = 1) ∧
    (flag = true → s1.run_length_nblocks = 0) := by
  have h1 : ¬ ((rle_read_block (rleCtxOf T x L D) s).1.row_width_bits = 0 ∧
      (rle_read_block (rleCtxOf T x L D) s).2.run_length_nblocks < max_run_nblocks) ∧
      (rle_read_block (rleCtxOf T x L D) s).2.run_length_nblocks > 0 := by
    have e : (rle_read_block (rleCtxOf T x L D) s).2.run_length_nblocks = 0x7fff := hrun
    rw [e]
    exact ⟨fun h => absurd h.2 (by decide), by decide⟩
  have h1s : ¬ ((rle_read_block (rleCtxOf T x L D) s).1.row_width_bits = 0 ∧
      s.run_length_nblocks < max_run_nblocks) ∧ s.run_length_nblocks > 0 := h1
  rw [rleBlockStep_dichotomy, if_pos hw] at hstep
  have hres := Option.some.inj hstep
  have key : ∀ p : RleEncState,
      rlePrepare (rleCtxOf T x L D) (rle_read_block (rleCtxOf T x L D) s).1
        (rle_read_block (rleCtxOf T x L D) s).2 = p →
      p.run_length_nblocks = 0 → p.b < 2 → group_sz_blocks - (p.b + 1) = s.b →
      (if s.b + 1 = group_sz_blocks then [RleEvent.header] else [])
        = (if s.b = 1 then [RleEvent.header] else []) →
      rleEventsOfPass (rleCtxOf T x L D) s =
        RleEvent.run 0x7fff :: ((if s.b = 1 then [RleEvent.header] else []) ++
          (if flag then RleEvent.run 1 :: List.replicate s.b RleEvent.filler else [])) ∧
      (flag = false → s1.run_length_nblocks = 1) ∧
      (flag = true → s1.run_length_nblocks = 0) := by
    intro p hp hp0 hpb hfill hhdr
    rw [hp] at hres
    have hc : (rle_read_block (rleCtxOf T x L D) s).1.row_width_bits = 0 ∧
        p.run_length_nblocks < max_run_nblocks := ⟨hw, by rw [hp0]; decide⟩
    have hcond : (((p.src + block_sz * (rleCtxOf T x L D).ndims : Nat) : Int)
        < (rleCtxOf T x L D).last_full_group_start) ↔ p.src + 8 * D + 16 * D < L := by
      show (((p.src + block_sz * D : Nat) : Int) < (L : Int) - (groupSzOf D : Int)) ↔ _
      rw [groupSzOf_eq]
      simp only [block_sz]
      omega
    unfold rleEventsOfPass
    rw [if_pos h1s, hp, if_pos hc, hhdr, hrun, hp0, hfill]
    by_cases hcont : p.src + 8 * D + 16 * D < L
    · rw [rle_do_rle_cont T x L D p hcont (by rw [hp0]; decide)] at hres
      simp only [Prod.mk.injEq] at hres
      obtain ⟨rfl, rfl⟩ := hres
      rw [if_pos (hcond.mpr hcont)]
      refine ⟨by simp, fun _ => ?_, fun h => absurd h (by decide)⟩
      show p.run_length_nblocks + 1 = 1
      omega
    · rw [rle_do_rle_exit T x L D p (by omega) (by rw [hp0]; decide) hpb] at hres
      simp only [Prod.mk.injEq] at hres
      obtain ⟨rfl, rfl⟩ := hres
      rw [if_neg (fun hh => hcont (hcond.mp hh))]
      exact ⟨by simp, fun h => absurd h (by decide), fun _ => rfl⟩
  have hb01 : s.b = 0 ∨ s.b = 1 := by omega
  rcases hb01 with hb0 | hb1
  · have h2 : ¬ (rle_read_block (rleCtxOf T x L D) s).2.b + 1 = group_sz_blocks := by
      show ¬ s.b + 1 = group_sz_blocks
      rw [hb0]; decide
    refine key _ (by unfold rlePrepare; rw [if_pos h1, if_neg h2]) rfl ?_ ?_ ?_
    · show s.b + 1 < 2
      omega
    · show group_sz_blocks - (s.b + 1 + 1) = s.b
      rw [hb0]; rfl
    · rw [hb0]; rfl
  · have h2 : (rle_read_block (rleCtxOf T x L D) s).2.b + 1 = group_sz_blocks := by
      show s.b + 1 = group_sz_blocks
      rw [hb1]; rfl
    refine key _ (by unfold rlePrepare; rw [if_pos h1, if_pos h2]) rfl ?_ ?_ ?_
    · show (0 : Nat) < 2
      omega
    · show group_sz_blocks - (0 + 1) = s.b
      rw [hb1]; rfl
    · rw [hb1]; rfl

/-- The three-bit header fields of the block in hand are all zero exactly when
its rows have width zero; a block of another width has rows of at least one
byte. -/
theorem rle_block_header_fields (T : Nat → Nat) (x : Mem) (L D : Nat) (s : RleEncState)
    (hD1 : 1 ≤ D) (hD2 : D < 65536) :
    (rle_read_block (rleCtxOf T x L D) s).1.st
      = statsOf T (deltaMaskOf x s.src D s.deltas) D ∧
    ((rle_read_block (rleCtxOf T x L D) s).1.row_width_bits = 0 ↔
      ∀ d, d < D → writeNbits (maskOf T (deltaMaskOf x s.src D s.deltas) d) = 0) ∧
    ((rle_read_block (rleCtxOf T x L D) s).1.row_width_bits ≠ 0 →
      1 ≤ (rle_read_block (rleCtxOf T x L D) s).1.out_row_nbytes) := by
  have hwn : ∀ m, writeNbits m = 0 ↔ maxNbits m = 0 := by
    intro m
    unfold writeNbits
    split_ifs <;> omega
  refine ⟨deltaStripeStats_fst_eq T x s.src D s.deltas, ?_, ?_⟩
  · rw [rle_read_block_width T x L D s hD1 hD2, statsOf_row_bits]
    constructor
    · intro h d hd
      exact (hwn _).mpr (sumTo_eq_zero D _ h d hd)
    · intro h
      exact sumTo_zero_of D _ (fun d hd => (hwn _).mp (h d hd))
  · intro hw
    have e : (rle_read_block (rleCtxOf T x L D) s).1.out_row_nbytes
        = rowNbytes (rle_read_block (rleCtxOf T x L D) s).1.row_width_bits := rfl
    rw [e]
    have := rowNbytes_ge (rle_read_block (rleCtxOf T x L D) s).1.row_width_bits
    omega

/-! ## C34: the cap on the length of a run -/

/-- C34: for every `D` with `1 ≤ D < 65536` and every input,
`compress8b_rowmajor_delta_rle` comes to the end of its loops, and in every
state that the loops pass through the counter `run_length_nblocks` is at most
`0x7fff`, every run length written so far is between 1 and `0x7fff` (the zero
byte of an unused slot stands for 0), and the packed blocks, the run lengths
written and the counter add up to the number of blocks consumed; at the end
the counter is zero.  When the counter is at `0x7fff` and the next block has
width zero, the pass writes the length `0x7fff` (and a group header if the
run filled the last slot) and counts the block in a fresh run; and a pass
whose block has width zero writes no packed body, so that a run of more
blocks is written as consecutive length fields with no packed body between
them. -/
theorem run_length_cap (T : Nat → Nat) (x dest : Mem) (L D : Nat) (ws : Bool)
    (hD1 : 1 ≤ D) (hD2 : D < 65536) :
    (∃ r ev, rleLoop T x L dest D ws = some r ∧
      RleEvents (rleCtxOf T x L D) (rleInit dest ws) RlePoint.loopEnd ev r ∧
      r.run_length_nblocks = 0 ∧ 8 * D * blocksOf ev = r.src) ∧
    (∀ pt ev s, RleEvents (rleCtxOf T x L D) (rleInit dest ws) pt ev s →
      s.run_length_nblocks ≤ 0x7fff ∧
      (∀ m, RleEvent.run m ∈ ev → 1 ≤ m ∧ m ≤ 0x7fff) ∧
      8 * D * (blocksOf ev + s.run_length_nblocks) = s.src) ∧
    (∀ s s1 flag, rleBlockStep (rleCtxOf T x L D) s = some (s1, flag) → s.b < 2 →
      s.run_length_nblocks = 0x7fff →
      (rle_read_block (rleCtxOf T x L D) s).1.row_width_bits = 0 →
      rleEventsOfPass (rleCtxOf T x L D) s =
        RleEvent.run 0x7fff :: ((if s.b = 1 then [RleEvent.header] else []) ++
          (if flag then RleEvent.run 1 :: List.replicate s.b RleEvent.filler else [])) ∧
      (flag = false → s1.run_length_nblocks = 1) ∧
      (flag = true → s1.run_length_nblocks = 0)) ∧
    (∀ s, (rle_read_block (rleCtxOf T x L D) s).1.row_width_bits = 0 →
      ∀ q rb, RleEvent.packed q rb ∉ rleEventsOfPass (rleCtxOf T x L D) s) := by
  refine ⟨?_, ?_, ?_, fun s => (rleEventsOfPass_kinds (rleCtxOf T x L D) s).1⟩
  · obtain ⟨r, ev, hr, he⟩ := rleLoop_events T x dest L D ws hD1 hD2
    obtain ⟨a1, a2, _⟩ := RleEvents_log T x dest L D ws _ ev r he
    exact ⟨r, ev, hr, he, a2, a1⟩
  · intro pt ev s he
    have h := RleEvents_log T x dest L D ws pt ev s he
    cases pt with
    | blockHead =>
      obtain ⟨a1, a2, a3, _⟩ := h
      exact ⟨a2, a3, a1⟩
    | groupHead =>
      obtain ⟨a1, a2, a3, _⟩ := h
      exact ⟨by rw [a2]; decide, a3, by rw [a2, Nat.add_zero]; exact a1⟩
    | loopEnd =>
      obtain ⟨a1, a2, a3, _⟩ := h
      exact ⟨by rw [a2]; decide, a3, by rw [a2, Nat.add_zero]; exact a1⟩
  · intro s s1 flag hstep hb hrun hw
    exact rleStep_cap T x L D s s1 flag hstep hw hrun hb

theorem run_length_cap_witness :
    (∃ r ev, rleLoop NBITS_MASKS_U8 Mem.zero 1000 Mem.zero 3 true = some r ∧
      RleEvents (rleCtxOf NBITS_MASKS_U8 Mem.zero 1000 3) (rleInit Mem.zero true) RlePoint.loopEnd
          ev r ∧
      r.run_length_nblocks = 0 ∧ 8 * 3 * blocksOf ev = r.src) ∧
    (∀ pt ev s, RleEvents (rleCtxOf NBITS_MASKS_U8 Mem.zero 1000 3) (rleInit Mem.zero true) pt ev s
        →
      s.run_length_nblocks ≤ 0x7fff ∧
      (∀ m, RleEvent.run m ∈ ev → 1 ≤ m ∧ m ≤ 0x7fff) ∧
      8 * 3 * (blocksOf ev + s.run_length_nblocks) = s.src) ∧
    (∀ s s1 flag, rleBlockStep (rleCtxOf NBITS_MASKS_U8 Mem.zero 1000 3) s = some (s1, flag) → s.b
        < 2 →
      s.run_length_nblocks = 0x7fff →
      (rle_read_block (rleCtxOf NBITS_MASKS_U8 Mem.zero 1000 3) s).1.row_width_bits = 0 →
      rleEventsOfPass (rleCtxOf NBITS_MASKS_U8 Mem.zero 1000 3) s =
        RleEvent.run 0x7fff :: ((if s.b = 1 then [RleEvent.header] else []) ++
          (if flag then RleEvent.run 1 :: List.replicate s.b RleEvent.filler else [])) ∧
      (flag = false → s1.run_length_nblocks = 1) ∧
      (flag = true → s1.run_length_nblocks = 0)) ∧
    (∀ s, (rle_read_block (rleCtxOf NBITS_MASKS_U8 Mem.zero 1000 3) s).1.row_width_bits = 0 →
      ∀ q rb, RleEvent.packed q rb ∉ rleEventsOfPass (rleCtxOf NBITS_MASKS_U8 Mem.zero 1000 3) s) :=
  run_length_cap NBITS_MASKS_U8 Mem.zero Mem.zero 1000 3 true (by decide) (by decide)

/-! ## C35: a block of width zero is never packed -/

/-- C35: for every `D` with `1 ≤ D < 65536`, every input and every state, a
pass of the body of the block loop of `compress8b_rowmajor_delta_rle` adds
the block in hand to a run (`do_rle`) if its rows have width zero, and writes
no packed body then; otherwise it packs the block, in rows of at least one
byte.  The three-bit header fields of the block are all zero exactly when its
width is zero.  In every state that the loops pass through, every packed
body written so far has rows of at least one byte and holds a block that lies
before the read position, and the packed blocks, the run lengths written and
the counter add up to the number of blocks consumed: every block is counted
once, as a packed block or in one run. -/
theorem zero_width_never_packed (T : Nat → Nat) (x dest : Mem) (L D : Nat) (ws : Bool)
    (hD1 : 1 ≤ D) (hD2 : D < 65536) :
    (∀ s, rleBlockStep (rleCtxOf T x L D) s = some
        (if (rle_read_block (rleCtxOf T x L D) s).1.row_width_bits = 0 then
          rle_do_rle (rleCtxOf T x L D) (rlePrepare (rleCtxOf T x L D)
            (rle_read_block (rleCtxOf T x L D) s).1 (rle_read_block (rleCtxOf T x L D) s).2)
        else (rle_pack (rleCtxOf T x L D) (rle_read_block (rleCtxOf T x L D) s).1
          (rlePrepare (rleCtxOf T x L D) (rle_read_block (rleCtxOf T x L D) s).1
            (rle_read_block (rleCtxOf T x L D) s).2), false)) ∧
      ((rle_read_block (rleCtxOf T x L D) s).1.row_width_bits = 0 →
        ∀ q rb, RleEvent.packed q rb ∉ rleEventsOfPass (rleCtxOf T x L D) s) ∧
      ((rle_read_block (rleCtxOf T x L D) s).1.row_width_bits ≠ 0 →
        RleEvent.packed s.src (rle_read_block (rleCtxOf T x L D) s).1.out_row_nbytes
          ∈ rleEventsOfPass (rleCtxOf T x L D) s ∧
        1 ≤ (rle_read_block (rleCtxOf T x L D) s).1.out_row_nbytes) ∧
      ((rle_read_block (rleCtxOf T x L D) s).1.row_width_bits = 0 ↔
        ∀ d, d < D → writeNbits (maskOf T (deltaMaskOf x s.src D s.deltas) d) = 0)) ∧
    (∀ pt ev s, RleEvents (rleCtxOf T x L D) (rleInit dest ws) pt ev s →
      (∀ p rb, RleEvent.packed p rb ∈ ev → 1 ≤ rb ∧ p + 8 * D ≤ s.src) ∧
      8 * D * (blocksOf ev + s.run_length_nblocks) = s.src) ∧
    (∃ r ev, rleLoop T x L dest D ws = some r ∧
      RleEvents (rleCtxOf T x L D) (rleInit dest ws) RlePoint.loopEnd ev r ∧
      8 * D * blocksOf ev = r.src) := by
  refine ⟨?_, ?_, ?_⟩
  · intro s
    obtain ⟨k1, k2, _⟩ := rleEventsOfPass_kinds (rleCtxOf T x L D) s
    obtain ⟨_, f2, f3⟩ := rle_block_header_fields T x L D s hD1 hD2
    exact ⟨rleBlockStep_dichotomy _ s, k1, fun hw => ⟨(k2 hw).1, f3 hw⟩, f2⟩
  · intro pt ev s he
    have h := RleEvents_log T x dest L D ws pt ev s he
    cases pt with
    | blockHead =>
      obtain ⟨a1, _, _, a4, _⟩ := h
      exact ⟨a4, a1⟩
    | groupHead =>
      obtain ⟨a1, a2, _, a4, _⟩ := h
      exact ⟨a4, by rw [a2, Nat.add_zero]; exact a1⟩
    | loopEnd =>
      obtain ⟨a1, a2, _, a4, _⟩ := h
      exact ⟨a4, by rw [a2, Nat.add_zero]; exact a1⟩
  · obtain ⟨r, ev, hr, he⟩ := rleLoop_events T x dest L D ws hD1 hD2
    obtain ⟨a1, _⟩ := RleEvents_log T x dest L D ws _ ev r he
    exact ⟨r, ev, hr, he, a1⟩

theorem zero_width_never_packed_witness :
    (∀ s, rleBlockStep (rleCtxOf NBITS_MASKS_U8 Mem.zero 1000 3) s = some
        (if (rle_read_block (rleCtxOf NBITS_MASKS_U8 Mem.zero 1000 3) s).1.row_width_bits = 0 then
          rle_do_rle (rleCtxOf NBITS_MASKS_U8 Mem.zero 1000 3) (rlePrepare (rleCtxOf NBITS_MASKS_U8
              Mem.zero 1000 3)
            (rle_read_block (rleCtxOf NBITS_MASKS_U8 Mem.zero 1000 3) s).1 (rle_read_block
                (rleCtxOf NBITS_MASKS_U8 Mem.zero 1000 3) s).2)
        else (rle_pack (rleCtxOf NBITS_MASKS_U8 Mem.zero 1000 3) (rle_read_block (rleCtxOf
            NBITS_MASKS_U8 Mem.zero 1000 3) s).1
          (rlePrepare (rleCtxOf NBITS_MASKS_U8 Mem.zero 1000 3) (rle_read_block (rleCtxOf
              NBITS_MASKS_U8 Mem.zero 1000 3) s).1
            (rle_read_block (rleCtxOf NBITS_MASKS_U8 Mem.zero 1000 3) s).2), false)) ∧
      ((rle_read_block (rleCtxOf NBITS_MASKS_U8 Mem.zero 1000 3) s).1.row_width_bits = 0 →
        ∀ q rb, RleEvent.packed q rb ∉ rleEventsOfPass (rleCtxOf NBITS_MASKS_U8 Mem.zero 1000 3) s)
            ∧
      ((rle_read_block (rleCtxOf NBITS_MASKS_U8 Mem.zero 1000 3) s).1.row_width_bits ≠ 0 →
        RleEvent.packed s.src (rle_read_block (rleCtxOf NBITS_MASKS_U8 Mem.zero 1000 3)
            s).1.out_row_nbytes
          ∈ rleEventsOfPass (rleCtxOf NBITS_MASKS_U8 Mem.zero 1000 3) s ∧
        1 ≤ (rle_read_block (rleCtxOf NBITS_MASKS_U8 Mem.zero 1000 3) s).1.out_row_nbytes) ∧
      ((rle_read_block (rleCtxOf NBITS_MASKS_U8 Mem.zero 1000 3) s).1.row_width_bits = 0 ↔
        ∀ d, d < 3 → writeNbits (maskOf NBITS_MASKS_U8 (deltaMaskOf Mem.zero s.src 3 s.deltas) d) =
            0)) ∧
    (∀ pt ev s, RleEvents (rleCtxOf NBITS_MASKS_U8 Mem.zero 1000 3) (rleInit Mem.zero true) pt ev s
        →
      (∀ p rb, RleEvent.packed p rb ∈ ev → 1 ≤ rb ∧ p + 8 * 3 ≤ s.src) ∧
      8 * 3 * (blocksOf ev + s.run_length_nblocks) = s.src) ∧
    (∃ r ev, rleLoop NBITS_MASKS_U8 Mem.zero 1000 Mem.zero 3 true = some r ∧
      RleEvents (rleCtxOf NBITS_MASKS_U8 Mem.zero 1000 3) (rleInit Mem.zero true) RlePoint.loopEnd
          ev r ∧
      8 * 3 * blocksOf ev = r.src) :=
  zero_width_never_packed NBITS_MASKS_U8 Mem.zero Mem.zero 1000 3 true (by decide) (by decide)

/-! ## C36: every group that is started is finished -/

/-- C36: for every `D` with `1 ≤ D < 65536` and every input, the loops of
`compress8b_rowmajor_delta_rle` end with every group holding exactly two block
slots (packed bodies, length fields, or the zero bytes that fill a group when
the loops are left), and `ngroups` counts these groups.  On the way, every
group but the open one has two slots and the open one has `b`, also when the
group was opened in the middle of the block loop, which happens only when the
length field of a run took the second slot of the group before; and whenever
a block is about to be read (`b < 2`), it ends at or before `src + L`. -/
theorem groups_are_finished (T : Nat → Nat) (x dest : Mem) (L D : Nat) (ws : Bool)
    (hD1 : 1 ≤ D) (hD2 : D < 65536) :
    (∃ r ev k, rleLoop T x L dest D ws = some r ∧
      RleEvents (rleCtxOf T x L D) (rleInit dest ws) RlePoint.loopEnd ev r ∧
      groupSlots ev = List.replicate k 2 ∧ r.ngroups = k % 2 ^ 32) ∧
    (∀ ev s, RleEvents (rleCtxOf T x L D) (rleInit dest ws) RlePoint.blockHead ev s →
      s.b ≤ 2 ∧ (s.b < 2 → s.src + 8 * D ≤ L) ∧
      ∃ k, groupSlots ev = s.b :: List.replicate k 2 ∧ s.ngroups = (k + 1) % 2 ^ 32) ∧
    (∀ ev s, RleEvents (rleCtxOf T x L D) (rleInit dest ws) RlePoint.groupHead ev s →
      ∃ k, groupSlots ev = List.replicate k 2 ∧ s.ngroups = k % 2 ^ 32) ∧
    (∀ s, RleEvent.header ∈ rleEventsOfPass (rleCtxOf T x L D) s →
      s.b + 1 = group_sz_blocks ∧ 0 < s.run_length_nblocks) := by
  refine ⟨?_, ?_, ?_, ?_⟩
  · obtain ⟨r, ev, hr, he⟩ := rleLoop_events T x dest L D ws hD1 hD2
    obtain ⟨_, _, _, _, k, a5, a6⟩ := RleEvents_log T x dest L D ws _ ev r he
    exact ⟨r, ev, k, hr, he, a5, a6⟩
  · intro ev s he
    obtain ⟨_, _, _, _, a5, _, k, a7, a8⟩ := RleEvents_log T x dest L D ws _ ev s he
    obtain ⟨n, hn⟩ := RleEvents_reach _ _ _ ev s he
    obtain ⟨_, _, _, _, _, _, _, h8, h9, _, _⟩ :=
      RleReach_size T x dest L D ws hD1 hD2 _ n s hn
    refine ⟨a5, fun hb => ?_, k, a7, a8⟩
    rcases Nat.lt_or_ge s.b 1 with h0 | h1
    · have := h8 (by omega); omega
    · exact h9 (by omega)
  · intro ev s he
    obtain ⟨_, _, _, _, k, a5, a6⟩ := RleEvents_log T x dest L D ws _ ev s he
    exact ⟨k, a5, a6⟩
  · intro s
    exact (rleEventsOfPass_kinds (rleCtxOf T x L D) s).2.2

theorem groups_are_finished_witness :
    (∃ r ev k, rleLoop NBITS_MASKS_U8 Mem.zero 1000 Mem.zero 3 true = some r ∧
      RleEvents (rleCtxOf NBITS_MASKS_U8 Mem.zero 1000 3) (rleInit Mem.zero true) RlePoint.loopEnd
          ev r ∧
      groupSlots ev = List.replicate k 2 ∧ r.ngroups = k % 2 ^ 32) ∧
    (∀ ev s, RleEvents (rleCtxOf NBITS_MASKS_U8 Mem.zero 1000 3) (rleInit Mem.zero true)
        RlePoint.blockHead ev s →
      s.b ≤ 2 ∧ (s.b < 2 → s.src + 8 * 3 ≤ 1000) ∧
      ∃ k, groupSlots ev = s.b :: List.replicate k 2 ∧ s.ngroups = (k + 1) % 2 ^ 32) ∧
    (∀ ev s, RleEvents (rleCtxOf NBITS_MASKS_U8 Mem.zero 1000 3) (rleInit Mem.zero true)
        RlePoint.groupHead ev s →
      ∃ k, groupSlots ev = List.replicate k 2 ∧ s.ngroups = k % 2 ^ 32) ∧
    (∀ s, RleEvent.header ∈ rleEventsOfPass (rleCtxOf NBITS_MASKS_U8 Mem.zero 1000 3) s →
      s.b + 1 = group_sz_blocks ∧ 0 < s.run_length_nblocks) :=
  groups_are_finished NBITS_MASKS_U8 Mem.zero Mem.zero 1000 3 true (by decide) (by decide)

end Sprintz
